import Mathlib

/-!
# Multi2Sim: shared-cache replacement engine and way-partitioning controllers

A shallow embedding of `src/mem-system/cache.c`, `ucp.c` and `fcp.c`.

Conventions of the embedding.

* C arrays are total functions from the index; an access the C code would make
  out of bounds has no meaning here and is excluded by the hypotheses of the
  theorems (sets below `num_sets`, ways below `assoc`, thread ids below
  `x86_cpu_num_cores * x86_cpu_num_threads`).
* Pointers into the block array of a set (`way_head`, `way_tail`, `way_prev`,
  `way_next`) are way indices; `none` is `NULL`.
* `assert` and `fatal` abort the simulator: a function that can reach one
  returns an `Option`, and `none` is the abort.  A null pointer dereference is
  `none` as well.
* `int` counters are unbounded integers: the per-thread counters never exceed
  the number of blocks of the cache.
* Loops whose termination is not structural take a fuel argument and return
  `none` when it runs out; the theorems show that the fuel given is enough.
-/

namespace Multi2Sim

/-! ## cache.h -/

inductive cache_policy_t
  | cache_policy_invalid
  | cache_policy_lru
  | cache_policy_fifo
  | cache_policy_random
  | cache_policy_partitioned_lru
  deriving DecidableEq, Repr

open cache_policy_t

/-- The value `cache_block_invalid` of `enum cache_block_state_t`. -/
def cache_block_invalid : Int := 0

structure cache_block_t where
  way_next : Option Nat
  way_prev : Option Nat
  tag : Int
  transient_tag : Int
  way : Nat
  prefetched : Int
  thread_id : Int
  state : Int
  deriving DecidableEq, Repr

structure cache_set_t where
  way_head : Nat
  way_tail : Nat
  blocks : Nat → cache_block_t

structure cache_t where
  num_sets : Nat
  block_size : Nat
  assoc : Nat
  policy : cache_policy_t
  sets : Nat → cache_set_t
  block_mask : Nat
  log_block_size : Nat
  assigned_ways : Int → Int
  used_ways : Int → Int
  used_ways_in_set : Int → Int

/-- The fields of `struct mod_client_info_t` the cache reads. -/
structure mod_client_info_t where
  core : Int
  thread : Int
  deriving DecidableEq, Repr

/-! ## cache.c: the recency list -/

inductive cache_waylist_enum
  | cache_waylist_head
  | cache_waylist_tail
  deriving DecidableEq, Repr

open cache_waylist_enum

/-- The assignment `set->blocks[w].way_prev = v`. -/
def cache_set_t.set_way_prev (set : cache_set_t) (w : Nat) (v : Option Nat) : cache_set_t :=
  { set with blocks := Function.update set.blocks w { set.blocks w with way_prev := v } }

/-- The assignment `set->blocks[w].way_next = v`. -/
def cache_set_t.set_way_next (set : cache_set_t) (w : Nat) (v : Option Nat) : cache_set_t :=
  { set with blocks := Function.update set.blocks w { set.blocks w with way_next := v } }

/-- The second half of `cache_update_waylist`: link the detached block `blk`
at the head or at the tail of the list. -/
def cache_waylist_insert (set : cache_set_t) (blk : Nat) (where_ : cache_waylist_enum) :
    cache_set_t :=
  match where_ with
  | cache_waylist_head =>
    let s1 := set.set_way_next blk (some set.way_head)
    let s2 := s1.set_way_prev blk none
    let s3 := s2.set_way_prev s2.way_head (some blk)
    { s3 with way_head := blk }
  | cache_waylist_tail =>
    let s1 := set.set_way_prev blk (some set.way_tail)
    let s2 := s1.set_way_next blk none
    let s3 := s2.set_way_next s2.way_tail (some blk)
    { s3 with way_tail := blk }

/-- The function `cache_update_waylist`: detach `blk` and link it again at the
head or the tail.  Every statement reads the memory left by the previous one. -/
def cache_update_waylist (set : cache_set_t) (blk : Nat) (where_ : cache_waylist_enum) :
    Option cache_set_t :=
  match (set.blocks blk).way_prev, (set.blocks blk).way_next with
  | none, none =>
    if set.way_head = blk ∧ set.way_tail = blk then some set else none
  | none, some next =>
    if set.way_head = blk ∧ set.way_tail ≠ blk then
      if where_ = cache_waylist_head then some set
      else
        let s1 := { set with way_head := next }
        match (s1.blocks blk).way_next with
        | none => none
        | some n => some (cache_waylist_insert (s1.set_way_prev n none) blk where_)
    else none
  | some prev, none =>
    if set.way_head ≠ blk ∧ set.way_tail = blk then
      if where_ = cache_waylist_tail then some set
      else
        let s1 := { set with way_tail := prev }
        match (s1.blocks blk).way_prev with
        | none => none
        | some p => some (cache_waylist_insert (s1.set_way_next p none) blk where_)
    else none
  | some prev, some _ =>
    if set.way_head ≠ blk ∧ set.way_tail ≠ blk then
      let s1 := set.set_way_next prev (set.blocks blk).way_next
      match (s1.blocks blk).way_next with
      | none => none
      | some n =>
        let s2 := s1.set_way_prev n (s1.blocks blk).way_prev
        some (cache_waylist_insert s2 blk where_)
    else none

/-! ## cache.c: public functions -/

/-- The block written by the initialisation loop of `cache_create` (the memory
comes zeroed from `xcalloc`). -/
def cache_create_block (assoc way : Nat) : cache_block_t :=
  { way_next := if way < assoc - 1 then some (way + 1) else none
    way_prev := if way ≠ 0 then some (way - 1) else none
    tag := 0
    transient_tag := 0
    way := way
    prefetched := 0
    thread_id := -1
    state := 0 }

/-- Modelled from the spec: `log_base2` of `lib/util/misc.c` is not among the
sources; the spec names it the log2 of the block size, a power of two. -/
def log_base2 (x : Nat) : Nat := Nat.log2 x

/-- The function `cache_create`; the two assertions are on the geometry. -/
def cache_create (num_sets block_size assoc : Nat) (policy : cache_policy_t) : Option cache_t :=
  if Nat.land num_sets (num_sets - 1) = 0 ∧ Nat.land block_size (block_size - 1) = 0 then
    some
      { num_sets := num_sets
        block_size := block_size
        assoc := assoc
        policy := policy
        sets := fun _ =>
          { way_head := 0
            way_tail := assoc - 1
            blocks := fun way => cache_create_block assoc way }
        block_mask := block_size - 1
        log_block_size := log_base2 block_size
        assigned_ways := fun _ => -1
        used_ways := fun _ => 0
        used_ways_in_set := fun _ => 0 }
  else none

/-- Conversion of an `unsigned int` to `int` (two's complement). -/
def to_int (u : Nat) : Int :=
  if u % 2 ^ 32 < 2 ^ 31 then (u % 2 ^ 32 : Nat) else ((u % 2 ^ 32 : Nat) : Int) - 2 ^ 32

/-- The expression `addr & ~cache->block_mask` on `unsigned int`, stored in an `int`. -/
def cache_tag (cache : cache_t) (addr : Nat) : Int :=
  to_int (Nat.land addr (2 ^ 32 - 1 - cache.block_mask % 2 ^ 32))

/-- The expression `(addr >> cache->log_block_size) % cache->num_sets`. -/
def cache_set_index (cache : cache_t) (addr : Nat) : Nat :=
  (addr >>> cache.log_block_size) % cache.num_sets

/-- The function `cache_decode_address`: `(set, tag, offset)`. -/
def cache_decode_address (cache : cache_t) (addr : Nat) : Nat × Int × Nat :=
  (cache_set_index cache addr, cache_tag cache addr, Nat.land addr cache.block_mask)

/-- The scan `for (way = 0; way < assoc; way++) if (tag matches && state) break;`
started at `way` with `n` ways left: the value of `way` after the loop. -/
def cache_find_way (blocks : Nat → cache_block_t) (tag : Int) : Nat → Nat → Nat
  | 0, way => way
  | n + 1, way =>
    if (blocks way).tag = tag ∧ (blocks way).state ≠ 0 then way
    else cache_find_way blocks tag n (way + 1)

/-- What `cache_find_block` returns and stores through its three pointers;
`way` is `none` when `*way_ptr` is not written. -/
structure cache_find_result where
  ret : Int
  set : Nat
  way : Option Nat
  state : Int
  deriving DecidableEq, Repr

/-- The function `cache_find_block`. -/
def cache_find_block (cache : cache_t) (addr : Nat) : cache_find_result :=
  let tag := cache_tag cache addr
  let set := cache_set_index cache addr
  let way := cache_find_way (cache.sets set).blocks tag cache.assoc 0
  if way = cache.assoc then { ret := 0, set := set, way := none, state := 0 }
  else { ret := 1, set := set, way := some way, state := ((cache.sets set).blocks way).state }

/-- The assignment `cache->sets[set] = s`. -/
def cache_t.put_set (cache : cache_t) (set : Nat) (s : cache_set_t) : cache_t :=
  { cache with sets := Function.update cache.sets set s }

/-- An assignment to the fields of `cache->sets[set].blocks[way]`. -/
def cache_t.modify_block (cache : cache_t) (set way : Nat) (f : cache_block_t → cache_block_t) :
    cache_t :=
  cache.put_set set
    { cache.sets set with
      blocks := Function.update (cache.sets set).blocks way (f ((cache.sets set).blocks way)) }

/-- The function `cache_set_thread_id`. -/
def cache_set_thread_id (x86_cpu_num_threads : Nat) (cache : cache_t) (set way : Nat)
    (client_info : mod_client_info_t) : Option cache_t :=
  let block := (cache.sets set).blocks way
  let thread_id : Int := client_info.core * x86_cpu_num_threads + client_info.thread
  let counted : Option cache_t :=
    if thread_id ≠ block.thread_id then
      let c1 := { cache with
        used_ways := Function.update cache.used_ways thread_id (cache.used_ways thread_id + 1) }
      if block.thread_id ≠ -1 then
        let c2 := { c1 with
          used_ways := Function.update c1.used_ways block.thread_id
            (c1.used_ways block.thread_id - 1) }
        if c2.used_ways block.thread_id ≥ 0 then some c2 else none
      else some c1
    else some cache
  match counted with
  | none => none
  | some c =>
    if c.used_ways thread_id ≥ 0 then
      some (c.modify_block set way (fun b => { b with thread_id := thread_id }))
    else none

/-- The function `cache_set_block`; `client_info` may be `NULL`. -/
def cache_set_block (x86_cpu_num_cores x86_cpu_num_threads : Nat) (cache : cache_t)
    (set way : Nat) (tag state : Int) (client_info : Option mod_client_info_t) :
    Option cache_t :=
  if set < cache.num_sets ∧ way < cache.assoc then
    let listed : Option cache_t :=
      if cache.policy = cache_policy_fifo ∧ ((cache.sets set).blocks way).tag ≠ tag then
        (cache_update_waylist (cache.sets set) way cache_waylist_head).map (cache.put_set set)
      else some cache
    match listed with
    | none => none
    | some c1 =>
      let c2 := c1.modify_block set way
        (fun b => { b with tag := tag, state := state, prefetched := 0 })
      if c2.policy = cache_policy_partitioned_lru then
        match client_info with
        | none => none
        | some ci =>
          if 0 ≤ ci.core ∧ ci.core < x86_cpu_num_cores ∧
              0 ≤ ci.thread ∧ ci.thread < x86_cpu_num_threads then
            cache_set_thread_id x86_cpu_num_threads c2 set way ci
          else none
      else some c2
  else none

/-- The function `cache_get_block`: `(tag, state)`. -/
def cache_get_block (cache : cache_t) (set way : Nat) : Option (Int × Int) :=
  if set < cache.num_sets ∧ way < cache.assoc then
    some (((cache.sets set).blocks way).tag, ((cache.sets set).blocks way).state)
  else none

/-- The function `cache_access_block`. -/
def cache_access_block (cache : cache_t) (set way : Nat) : Option cache_t :=
  if set < cache.num_sets ∧ way < cache.assoc then
    let move_to_head : Bool :=
      cache.policy = cache_policy_lru || cache.policy = cache_policy_partitioned_lru ||
        (cache.policy = cache_policy_fifo && ((cache.sets set).blocks way).state = 0)
    if move_to_head ∧ ((cache.sets set).blocks way).way_prev ≠ none then
      (cache_update_waylist (cache.sets set) way cache_waylist_head).map (cache.put_set set)
    else some cache
  else none

/-- The function `cache_set_transient_tag`. -/
def cache_set_transient_tag (x86_cpu_num_threads : Nat) (cache : cache_t) (set way : Nat)
    (tag : Int) (client_info : mod_client_info_t) : Option cache_t :=
  cache_set_thread_id x86_cpu_num_threads
    (cache.modify_block set way (fun b => { b with transient_tag := tag })) set way client_info

/-- The loop `for (i = 0; i < total; i++) used_ways_in_set[i] = 0;`. -/
def cache_clear_used_ways_in_set (total : Nat) (a : Int → Int) : Int → Int :=
  (List.range total).foldl (fun acc (i : Nat) => Function.update acc (i : Int) 0) a

/-- The loop `for (w = 0; w < assoc; w++) used_ways_in_set[blocks[w].thread_id]++;`. -/
def cache_count_used_ways_in_set (blocks : Nat → cache_block_t) (assoc : Nat) (a : Int → Int) :
    Int → Int :=
  (List.range assoc).foldl
    (fun acc (w : Nat) =>
      Function.update acc (blocks w).thread_id (acc (blocks w).thread_id + 1)) a

/-- The loops `for (block = way_tail; block; block = block->way_prev)` of
`cache_replace_block`, leaving at the first block that satisfies `p`:
`some (some way)` when one is found, `some none` when the list ends, `none`
when the fuel runs out. -/
def cache_scan_back (blocks : Nat → cache_block_t) (p : cache_block_t → Bool) :
    Nat → Option Nat → Option (Option Nat)
  | 0, _ => none
  | _ + 1, none => some none
  | fuel + 1, some b =>
    if p (blocks b) then some (some (blocks b).way)
    else cache_scan_back blocks p fuel (blocks b).way_prev

/-- The Partitioned-LRU branch of `cache_replace_block` up to the test
`way == -1`: the cache with its scratch counters and the way chosen. -/
def cache_replace_select (x86_cpu_num_cores x86_cpu_num_threads : Nat) (cache : cache_t)
    (set : Nat) (thread_id : Int) : Option (cache_t × Int) :=
  let c1 := { cache with
    used_ways_in_set :=
      cache_clear_used_ways_in_set (x86_cpu_num_threads * x86_cpu_num_cores)
        cache.used_ways_in_set }
  let s := c1.sets set
  let way : Int := (s.blocks s.way_tail).way
  let block : cache_block_t := s.blocks (Int.toNat way)
  if block.state ≠ 0 ∧ c1.assigned_ways thread_id ≠ -1 then
    if block.thread_id ≠ -1 then
      let c2 := { c1 with
        used_ways_in_set := cache_count_used_ways_in_set s.blocks c1.assoc c1.used_ways_in_set }
      if c2.used_ways_in_set thread_id ≥ c2.assigned_ways thread_id then
        match cache_scan_back s.blocks (fun b => b.thread_id = thread_id) (c2.assoc + 1)
            (some s.way_tail) with
        | none => none
        | some none => some (c2, way)
        | some (some w) => some (c2, (w : Int))
      else
        match cache_scan_back s.blocks
            (fun b => b.thread_id ≠ thread_id ∧
              c2.used_ways_in_set b.thread_id ≥ c2.assigned_ways b.thread_id)
            (c2.assoc + 1) (some s.way_tail) with
        | none => none
        | some none => some (c2, way)
        | some (some w) => some (c2, (w : Int))
    else none
  else some (c1, way)

/-- The function `cache_replace_block`; `random` is the value `random()`
returns.  The result is the cache and the way returned. -/
def cache_replace_block (x86_cpu_num_cores x86_cpu_num_threads : Nat) (cache : cache_t)
    (set : Nat) (client_info : mod_client_info_t) (random : Nat) : Option (cache_t × Int) :=
  let thread_id : Int := client_info.core * x86_cpu_num_threads + client_info.thread
  if set < cache.num_sets then
    if cache.policy = cache_policy_lru ∨ cache.policy = cache_policy_fifo then
      let s := cache.sets set
      let way : Int := (s.blocks s.way_tail).way
      (cache_update_waylist s s.way_tail cache_waylist_head).map
        (fun s1 => (cache.put_set set s1, way))
    else if cache.policy = cache_policy_partitioned_lru then
      match cache_replace_select x86_cpu_num_cores x86_cpu_num_threads cache set thread_id with
      | none => none
      | some (c, way) =>
        if way = -1 then none
        else
          (cache_update_waylist (c.sets set) way.toNat cache_waylist_head).map
            (fun s1 => (c.put_set set s1, way))
    else if cache.policy = cache_policy_random then
      some (cache, ((random % cache.assoc : Nat) : Int))
    else none
  else none

/-! ## The recency list as a list of ways -/

/-- The ways met from `cur` following `way_next`, at most `fuel` of them. -/
def cache_waylist_from (blocks : Nat → cache_block_t) : Nat → Option Nat → List Nat
  | 0, _ => []
  | _ + 1, none => []
  | fuel + 1, some w => w :: cache_waylist_from blocks fuel (blocks w).way_next

/-- The recency list of a set, head first. -/
def cache_waylist (assoc : Nat) (set : cache_set_t) : List Nat :=
  cache_waylist_from set.blocks assoc (some set.way_head)

/-- The forward and backward links along `l`: the first block has predecessor
`p`, the last one successor `n`, and neighbours point to each other. -/
def way_chain (blocks : Nat → cache_block_t) : Option Nat → List Nat → Option Nat → Prop
  | _, [], _ => True
  | p, a :: l, n =>
    (blocks a).way_prev = p ∧ (blocks a).way_next = (l.head?).or n ∧
      way_chain blocks (some a) l n

/-- The set is a well-formed doubly linked list holding the ways of `l`, which
are the ways `0 .. assoc - 1` in some order. -/
def set_wf (assoc : Nat) (set : cache_set_t) (l : List Nat) : Prop :=
  l.Nodup ∧ (∀ w, w ∈ l ↔ w < assoc) ∧ l.head? = some set.way_head ∧
    l.getLast? = some set.way_tail ∧ way_chain set.blocks none l none ∧
    ∀ w, w < assoc → (set.blocks w).way = w


/-! ## Occupancy counts and sequences of cache operations -/

/-- The number of blocks of one set whose `thread_id` is `t`. -/
def cache_set_owned (assoc : Nat) (set : cache_set_t) (t : Int) : Int :=
  ((List.range assoc).countP (fun w => decide ((set.blocks w).thread_id = t)) : Nat)

/-- The number of blocks of the whole cache whose `thread_id` is `t`. -/
def cache_owned (cache : cache_t) (t : Int) : Int :=
  ((List.range cache.num_sets).map
    (fun s => cache_set_owned cache.assoc (cache.sets s) t)).sum

/-- A call to one of the functions of `cache.c` that touch the blocks. -/
inductive cache_op
  | set_block (set way : Nat) (tag state : Int) (client_info : Option mod_client_info_t)
  | set_transient_tag (set way : Nat) (tag : Int) (client_info : mod_client_info_t)
  | set_thread_id (set way : Nat) (client_info : mod_client_info_t)
  | access_block (set way : Nat)
  | replace_block (set : Nat) (client_info : mod_client_info_t) (random : Nat)

/-- The cache after one call; the way `cache_replace_block` returns is dropped. -/
def cache_op.apply (x86_cpu_num_cores x86_cpu_num_threads : Nat) (cache : cache_t) :
    cache_op → Option cache_t
  | cache_op.set_block set way tag state ci =>
    cache_set_block x86_cpu_num_cores x86_cpu_num_threads cache set way tag state ci
  | cache_op.set_transient_tag set way tag ci =>
    cache_set_transient_tag x86_cpu_num_threads cache set way tag ci
  | cache_op.set_thread_id set way ci => cache_set_thread_id x86_cpu_num_threads cache set way ci
  | cache_op.access_block set way => cache_access_block cache set way
  | cache_op.replace_block set ci random =>
    (cache_replace_block x86_cpu_num_cores x86_cpu_num_threads cache set ci random).map Prod.fst

/-- The cache after a sequence of calls, `none` once one of them aborts. -/
def cache_run (x86_cpu_num_cores x86_cpu_num_threads : Nat) :
    cache_t → List cache_op → Option cache_t
  | cache, [] => some cache
  | cache, op :: ops =>
    match op.apply x86_cpu_num_cores x86_cpu_num_threads cache with
    | none => none
    | some c => cache_run x86_cpu_num_cores x86_cpu_num_threads c ops

/-- The client names a core and a thread of the machine. -/
def client_in_range (x86_cpu_num_cores x86_cpu_num_threads : Nat) (ci : mod_client_info_t) :
    Prop :=
  0 ≤ ci.core ∧ ci.core < x86_cpu_num_cores ∧ 0 ≤ ci.thread ∧ ci.thread < x86_cpu_num_threads

/-- The arguments of a call are in range for a cache of the given geometry:
the set and the way exist, and the client is a thread of the machine (a
Partitioned-LRU cache is always given a client). -/
def cache_op.in_range (x86_cpu_num_cores x86_cpu_num_threads num_sets assoc : Nat)
    (policy : cache_policy_t) : cache_op → Prop
  | cache_op.set_block set way _ _ ci =>
    set < num_sets ∧ way < assoc ∧
      (policy = cache_policy_partitioned_lru → ci ≠ none) ∧
      ∀ c, ci = some c → client_in_range x86_cpu_num_cores x86_cpu_num_threads c
  | cache_op.set_transient_tag set way _ ci =>
    set < num_sets ∧ way < assoc ∧ client_in_range x86_cpu_num_cores x86_cpu_num_threads ci
  | cache_op.set_thread_id set way ci =>
    set < num_sets ∧ way < assoc ∧ client_in_range x86_cpu_num_cores x86_cpu_num_threads ci
  | cache_op.access_block set way => set < num_sets ∧ way < assoc
  | cache_op.replace_block set ci _ =>
    set < num_sets ∧ client_in_range x86_cpu_num_cores x86_cpu_num_threads ci

/-! ## Access sequences -/

/-- One access of the memory module to the cache, as the claims on the
replacement policies describe it: `cache_find_block` decides between hit and
miss; a hit calls `cache_access_block`; a miss calls `cache_replace_block`,
then `cache_set_block` with the new tag and state on the way returned, then
(when `access_after_fill`) `cache_access_block`.  The result is the cache, the
way used and whether the way was filled. -/
def cache_access (x86_cpu_num_cores x86_cpu_num_threads : Nat) (access_after_fill : Bool)
    (cache : cache_t) (addr : Nat) (state : Int) (client_info : mod_client_info_t)
    (random : Nat) : Option (cache_t × Nat × Bool) :=
  let r := cache_find_block cache addr
  if r.ret ≠ 0 then
    match r.way with
    | none => none
    | some way => (cache_access_block cache r.set way).map fun c => (c, way, false)
  else
    match cache_replace_block x86_cpu_num_cores x86_cpu_num_threads cache r.set client_info
        random with
    | none => none
    | some (c1, way) =>
      match cache_set_block x86_cpu_num_cores x86_cpu_num_threads c1 r.set way.toNat
          (cache_tag cache addr) state (some client_info) with
      | none => none
      | some c2 =>
        if access_after_fill then
          (cache_access_block c2 r.set way.toNat).map fun c => (c, way.toNat, true)
        else some (c2, way.toNat, true)

/-- A sequence of accesses `(addr, state)`; the result is the cache and, oldest
first, the way each access used and whether it filled it. -/
def cache_access_run (x86_cpu_num_cores x86_cpu_num_threads : Nat) (access_after_fill : Bool)
    (client_info : mod_client_info_t) (random : Nat) :
    cache_t → List (Nat × Int) → Option (cache_t × List (Nat × Bool))
  | cache, [] => some (cache, [])
  | cache, (addr, state) :: rest =>
    match cache_access x86_cpu_num_cores x86_cpu_num_threads access_after_fill cache addr state
        client_info random with
    | none => none
    | some (c, way, fill) =>
      (cache_access_run x86_cpu_num_cores x86_cpu_num_threads access_after_fill client_info
        random c rest).map fun r => (r.1, (way, fill) :: r.2)

/-- The number of later entries of the trace since way `w` was last named in
it; the length of the trace when `w` is not named at all. -/
def way_age (trace : List Nat) (w : Nat) : Nat := trace.reverse.indexOf w

/-! ## The C type `double`

A `double` is modelled by an exact fraction `num / den`; `den = 0` stands for a
value that is not a finite number (the result of a division by zero).  The
operations `mul` and `div` are exact; `fl` rounds a value to the nearest value
of the binary64 format, and the code whose result depends on that rounding
(the delay of the interval handler) applies it after every operation.  The
other quantities compared below are quotients of small integers, and the
theorems state which comparisons they depend on. -/

structure double where
  num : Int
  den : Nat
  deriving DecidableEq, Repr

namespace double

/-- Conversion of an integer, `(double) n`. -/
def ofInt (n : Int) : double := ⟨n, 1⟩

/-- The value that is not a finite number. -/
def nan : double := ⟨0, 0⟩

/-- A finite value. -/
def finite (a : double) : Prop := a.den ≠ 0

instance (a : double) : Decidable a.finite := by
  unfold finite
  infer_instance

/-- The comparison `a < b`; false when either side is not a finite number. -/
def lt (a b : double) : Prop :=
  a.den ≠ 0 ∧ b.den ≠ 0 ∧ a.num * (b.den : Int) < b.num * (a.den : Int)

/-- The comparison `a <= b`; false when either side is not a finite number. -/
def le (a b : double) : Prop :=
  a.den ≠ 0 ∧ b.den ≠ 0 ∧ a.num * (b.den : Int) ≤ b.num * (a.den : Int)

instance (a b : double) : Decidable (lt a b) := by
  unfold lt
  infer_instance

instance (a b : double) : Decidable (le a b) := by
  unfold le
  infer_instance

/-- The product `a * b`. -/
def mul (a b : double) : double := ⟨a.num * b.num, a.den * b.den⟩

/-- The quotient `a / b`; not a finite number when `b` is zero or when either
side is not finite. -/
def div (a b : double) : double :=
  if a.den = 0 ∨ b.den = 0 then nan
  else if 0 < b.num then ⟨a.num * (b.den : Int), a.den * b.num.toNat⟩
  else if b.num < 0 then ⟨-(a.num * (b.den : Int)), a.den * (-b.num).toNat⟩
  else nan

/-- The function `round` of `math.h` followed by the conversion to `int`:
the nearest integer, halves away from zero. -/
def round (a : double) : Int :=
  if 0 ≤ a.num then (2 * a.num + (a.den : Int)) / (2 * (a.den : Int))
  else -((2 * (-a.num) + (a.den : Int)) / (2 * (a.den : Int)))

/-- The rational number a finite value stands for. -/
def toRat (a : double) : ℚ := (a.num : ℚ) / (a.den : ℚ)

/-- The number of binary digits of `n`, counted by halving; `fuel` bounds the
number of digits, and `n` itself is enough. -/
def bits : Nat → Nat → Nat
  | 0, _ => 0
  | fuel + 1, n => if n = 0 then 0 else bits fuel (n / 2) + 1

/-- The position of the leading binary digit of a positive `n`. -/
def log2 (n : Nat) : Nat := bits n n - 1

/-- The exponent of the unit of the significand of a positive fraction
`n / d` in the format of a `double`: the leading bit of `n / d` has the weight
`2 ^ lead`, and the 53 bits of the significand end at `2 ^ (lead - 52)`. -/
def fl_exponent (n d : Nat) : Int :=
  let k : Int := (log2 n : Int) - (log2 d : Int)
  let lead : Int := if d * 2 ^ k.toNat ≤ n * 2 ^ (-k).toNat then k else k - 1
  lead - 52

/-- The significand of a positive fraction `n / d` in units of `2 ^ e`: the
nearest whole number, a tie going to the even one. -/
def fl_significand (n d : Nat) (e : Int) : Nat :=
  let scaled_num : Nat := n * 2 ^ (-e).toNat
  let scaled_den : Nat := d * 2 ^ e.toNat
  let m : Nat := scaled_num / scaled_den
  let r : Nat := scaled_num % scaled_den
  if scaled_den < 2 * r ∨ (2 * r = scaled_den ∧ m % 2 = 1) then m + 1 else m

/-- The rounding of an arithmetic result to the format of a `double`: the
nearest number with a significand of 53 bits, a tie going to the even
significand, with the sign of the value.  The range of the exponent is not
modelled (no overflow, no subnormal number): the values rounded here are
products and quotients of 64-bit integers. -/
def fl (a : double) : double :=
  if a.den = 0 ∨ a.num = 0 then a
  else
    let e : Int := fl_exponent a.num.natAbs a.den
    let magnitude : Int := ((fl_significand a.num.natAbs a.den e * 2 ^ e.toNat : Nat) : Int)
    ⟨if a.num < 0 then -magnitude else magnitude, 2 ^ (-e).toNat⟩

end double

/-! ## ucp.c -/

/-- The field of `struct atd_t` that UCP reads: the stack-distance histogram. -/
structure atd_t where
  stack_distance_counters : Int → Int

/-- The fields of `struct mod_t` the partitioning algorithms read. -/
structure mod_t where
  cache : cache_t
  reachable_threads : Int → Bool
  num_reachable_threads : Int
  atd_per_thread : Int → Option atd_t

/-- The structure `struct ucp_t`.  Its `atds` is the array `mod->atd_per_thread`
and its `assigned_ways` the array `mod->cache->assigned_ways`; both are kept
once, in `mod`. -/
structure ucp_t where
  mod : mod_t
  ways_req : Int → Int
  max_mu : Int → double

/-- The constant `UCP_CACHE_TH`, 0.99: the fraction of the cache that needs to
be used before UCP is enabled. -/
def UCP_CACHE_TH : double := ⟨99, 100⟩

/-- The function `ucp_mu`: the extra hits per way when the allocation of the
thread grows from `alloc` to `new_alloc`. -/
def ucp_mu (ucp : ucp_t) (thread_id alloc new_alloc : Int) : Option double :=
  if alloc < new_alloc then
    match ucp.mod.atd_per_thread thread_id with
    | none => none
    | some atd =>
      let extra_hits : Int :=
        (List.range (new_alloc - alloc).toNat).foldl
          (fun acc (k : Nat) => acc + atd.stack_distance_counters (alloc + k)) 0
      some (double.div (double.ofInt extra_hits) (double.ofInt (new_alloc - alloc)))
  else none

/-- The function `ucp_max_mu`: `(*max_mu, *ways_req)`. -/
def ucp_max_mu (ucp : ucp_t) (thread_id alloc balance : Int) : Option (double × Int) :=
  (List.range balance.toNat).foldl
    (fun (acc : Option (double × Int)) (k : Nat) =>
      match acc with
      | none => none
      | some (max_mu, ways_req) =>
        let i : Int := (k : Int) + 1
        match ucp_mu ucp thread_id alloc (alloc + i) with
        | none => none
        | some mu => if double.lt max_mu mu then some (mu, i) else some (max_mu, ways_req))
    (some (double.ofInt 0, 0))

/-- The assignment `ucp->assigned_ways[i] = v`. -/
def ucp_t.set_assigned_ways (ucp : ucp_t) (i v : Int) : ucp_t :=
  { ucp with
    mod := { ucp.mod with
      cache := { ucp.mod.cache with
        assigned_ways := Function.update ucp.mod.cache.assigned_ways i v } } }

/-- The function `ucp_create`. -/
def ucp_create (x86_cpu_num_cores x86_cpu_num_threads : Nat) (mod : mod_t) : Option ucp_t :=
  if mod.cache.assoc ≠ 0 then
    some
      { mod := { mod with
          cache := { mod.cache with
            assigned_ways :=
              (List.range (x86_cpu_num_cores * x86_cpu_num_threads)).foldl
                (fun acc (i : Nat) => Function.update acc (i : Int) (-1))
                mod.cache.assigned_ways } }
        ways_req := fun _ => 0
        max_mu := fun _ => double.ofInt 0 }
  else none

/-- The percentage of the cache that is full, as `ucp_repartition` and
`fcp_repartition` compute it. -/
def cache_usage (total_num_threads : Nat) (mod : mod_t) : double :=
  let sum : Int :=
    (List.range total_num_threads).foldl
      (fun acc (i : Nat) =>
        if mod.reachable_threads i then acc + mod.cache.used_ways i else acc) 0
  double.div (double.div (double.ofInt sum) (double.ofInt mod.cache.num_sets))
    (double.ofInt mod.cache.assoc)

/-- The loop of `ucp_repartition` that gives one way to every reachable thread:
the state and the balance after it. -/
def ucp_seed (total_num_threads : Nat) (ucp : ucp_t) (balance : Int) : ucp_t × Int :=
  (List.range total_num_threads).foldl
    (fun (acc : ucp_t × Int) (i : Nat) =>
      if acc.1.mod.reachable_threads i then (acc.1.set_assigned_ways i 1, acc.2 - 1) else acc)
    (ucp, balance)

/-- The first loop in the body of `while (balance)`: the maximum marginal
utility of every reachable thread. -/
def ucp_compute_max_mu (total_num_threads : Nat) (ucp : ucp_t) (balance : Int) : Option ucp_t :=
  (List.range total_num_threads).foldl
    (fun (acc : Option ucp_t) (thread_id : Nat) =>
      match acc with
      | none => none
      | some u =>
        if ¬ u.mod.reachable_threads thread_id then some u
        else
          let alloc := u.mod.cache.assigned_ways thread_id
          match ucp_max_mu u thread_id alloc balance with
          | none => none
          | some (mu, req) =>
            some { u with
              max_mu := Function.update u.max_mu thread_id mu
              ways_req := Function.update u.ways_req thread_id req })
    (some ucp)

/-- The second loop in the body of `while (balance)`: `(winner, max)`. -/
def ucp_choose_winner (total_num_threads : Nat) (ucp : ucp_t) : Int × double :=
  (List.range total_num_threads).foldl
    (fun (acc : Int × double) (thread_id : Nat) =>
      if double.lt acc.2 (ucp.max_mu thread_id) then ((thread_id : Int), ucp.max_mu thread_id)
      else acc)
    (-1, double.ofInt (-1))

/-- The loop `while (balance)` of `ucp_repartition`; `none` when an assertion
fails, a histogram is missing or the fuel runs out. -/
def ucp_allocate (total_num_threads : Nat) : Nat → ucp_t → Int → Int → Option ucp_t
  | 0, _, _, _ => none
  | fuel + 1, ucp, balance, last_balance =>
    if balance = 0 then some ucp
    else
      match ucp_compute_max_mu total_num_threads ucp balance with
      | none => none
      | some u1 =>
        let winner := (ucp_choose_winner total_num_threads u1).1
        if winner = -1 then none
        else
          let u2 := u1.set_assigned_ways winner
            (u1.mod.cache.assigned_ways winner + u1.ways_req winner)
          let balance1 := balance - u1.ways_req winner
          if balance1 = last_balance then some u2
          else ucp_allocate total_num_threads fuel u2 balance1 balance1

/-- The halving of one histogram: `for (i = 0; i < total_num_threads; i++)
stack_distance_counters[i] /= 2;`. -/
def ucp_halve (total_num_threads : Nat) (atd : atd_t) : atd_t :=
  { stack_distance_counters :=
      (List.range total_num_threads).foldl
        (fun acc (i : Nat) => Function.update acc (i : Int) (Int.tdiv (acc i) 2))
        atd.stack_distance_counters }

/-- The last loop of `ucp_repartition`, over every core and thread: the
histogram of each thread that has one is halved. -/
def ucp_decay (total_num_threads : Nat) (ucp : ucp_t) : ucp_t :=
  (List.range total_num_threads).foldl
    (fun (acc : ucp_t) (thread_id : Nat) =>
      match acc.mod.atd_per_thread thread_id with
      | none => acc
      | some atd =>
        { acc with
          mod := { acc.mod with
            atd_per_thread :=
              Function.update acc.mod.atd_per_thread thread_id
                (some (ucp_halve total_num_threads atd)) } })
    ucp

/-- The function `ucp_repartition`.  The allocation loop runs at most
`assoc + 2` times. -/
def ucp_repartition (x86_cpu_num_cores x86_cpu_num_threads : Nat) (ucp : ucp_t) :
    Option ucp_t :=
  let total_num_threads := x86_cpu_num_cores * x86_cpu_num_threads
  let balance : Int := ucp.mod.cache.assoc
  let last_balance := balance
  if double.lt (cache_usage total_num_threads ucp.mod) UCP_CACHE_TH then some ucp
  else
    let seeded := ucp_seed total_num_threads ucp balance
    match ucp_allocate total_num_threads (ucp.mod.cache.assoc + 2) seeded.1 seeded.2
        last_balance with
    | none => none
    | some u => some (ucp_decay total_num_threads u)

/-- The sum of `assigned_ways` over the reachable threads. -/
def sum_assigned_ways (total_num_threads : Nat) (mod : mod_t) : Int :=
  (List.range total_num_threads).foldl
    (fun acc (i : Nat) =>
      if mod.reachable_threads i then acc + mod.cache.assigned_ways i else acc) 0

/-- The number of reachable threads. -/
def count_reachable (total_num_threads : Nat) (mod : mod_t) : Nat :=
  (List.range total_num_threads).countP (fun (i : Nat) => mod.reachable_threads (i : Int))

/-! ## fcp.c

The lists of `lib/util/list.c` are Lean lists: `list_count`, `list_get`,
`list_head`, `list_tail`, `list_add` are the list operations of the same
meaning (`list_get` out of range, `list_head` and `list_tail` of an empty list
give `NULL`).  `list_sort`, whose algorithm decides the order of equal
elements, is a parameter of `fcp_repartition`.  A pointer to `fcp->data[i]` is
the index `i`. -/

/-- The constant `FCP_HISTORY_SIZE`. -/
def FCP_HISTORY_SIZE : Int := 3

/-- The constant `FCP_MAX_INC_INT`. -/
def FCP_MAX_INC_INT : Int := 2

/-- The constant `FCP_CACHE_TH`, 0.99. -/
def FCP_CACHE_TH : double := ⟨99, 100⟩

/-- The constant `FCP_TIME_TH`, 1e11 picoseconds. -/
def FCP_TIME_TH : Int := 100000000000

/-- The constant `FCP_UNF_INC_TH`, 1.02. -/
def FCP_UNF_INC_TH : double := ⟨102, 100⟩

/-- The constant `FCP_BACKOFF_INTERVALS`. -/
def FCP_BACKOFF_INTERVALS : Int := 5

/-- The constant `FCP_MIN_WAYS`. -/
def FCP_MIN_WAYS : Int := 1

inductive thread_pairing_policy_t
  | thread_pairing_policy_none
  | thread_pairing_policy_nearest
  | thread_pairing_policy_random
  | thread_pairing_policy_minmax
  | thread_pairing_policy_sec
  | thread_pairing_policy_mix
  deriving DecidableEq, Repr

open thread_pairing_policy_t

structure fcp_pair_t where
  id1 : Int
  id2 : Int
  ways : Int
  deriving DecidableEq, Repr

/-- The structure `struct fcp_thread_t`; `assigned_ways` is the index of the
entry of `cache->assigned_ways` it points to, `none` for `NULL`. -/
structure fcp_thread_t where
  id : Int
  assigned_ways : Option Int
  individual_speedup : double
  pair : Option fcp_pair_t
  deriving DecidableEq, Repr

inductive fcp_state_t
  | OFF
  | ON
  | BACKOFF
  deriving DecidableEq, Repr

open fcp_state_t

structure fcp_t where
  mod : mod_t
  data : Int → fcp_thread_t
  threads : List Int
  pairing_pairs : List fcp_pair_t
  pairing_policy : thread_pairing_policy_t
  pairing_interval : Int
  state : fcp_state_t
  last_unfairness_values : Int → double
  counter : Int
  state_counter : Int
  backoff : Int
  last_esim_cycle : Int

/-- The counters of one hardware thread of `x86_cpu` that FCP reads. -/
structure x86_thread_t where
  num_committed_uinst : Int
  interthread_penalty_cycles : Int
  deriving DecidableEq, Repr

/-- What a call reads from the simulator: `esim_cycle()`, `esim_time` and the
hardware threads. -/
structure esim_t where
  esim_cycle : Int
  esim_time : Int
  threads : Int → x86_thread_t

/-- The assignment `cache->assigned_ways[i] = v`. -/
def fcp_t.set_assigned_ways (fcp : fcp_t) (i v : Int) : fcp_t :=
  { fcp with
    mod := { fcp.mod with
      cache := { fcp.mod.cache with
        assigned_ways := Function.update fcp.mod.cache.assigned_ways i v } } }

/-- The value `*fcp->data[i].assigned_ways`; `none` for a `NULL` pointer. -/
def fcp_t.ways_of (fcp : fcp_t) (i : Int) : Option Int :=
  (fcp.data i).assigned_ways.map fcp.mod.cache.assigned_ways

/-- The function `fcp_create`; the pairing configuration is that of
`mod->cache->pairing`. -/
def fcp_create (x86_cpu_num_cores x86_cpu_num_threads : Nat) (mod : mod_t)
    (pairing_policy : thread_pairing_policy_t) (pairing_interval : Int) : fcp_t :=
  let total_num_threads := x86_cpu_num_cores * x86_cpu_num_threads
  { mod := { mod with
      cache := { mod.cache with
        assigned_ways :=
          (List.range total_num_threads).foldl
            (fun acc (i : Nat) => Function.update acc (i : Int) (-1))
            mod.cache.assigned_ways } }
    data := fun i =>
      if 0 ≤ i ∧ i < (total_num_threads : Int) ∧ mod.reachable_threads i = true then
        { id := i, assigned_ways := some i, individual_speedup := double.ofInt 0, pair := none }
      else
        { id := 0, assigned_ways := none, individual_speedup := double.ofInt 0, pair := none }
    threads :=
      ((List.range total_num_threads).filter (fun (i : Nat) => mod.reachable_threads (i : Int))).map
        (fun (i : Nat) => (i : Int))
    pairing_pairs := []
    pairing_policy := pairing_policy
    pairing_interval := pairing_interval
    state := OFF
    last_unfairness_values := fun _ => double.ofInt 0
    counter := 0
    state_counter := 0
    backoff := 0
    last_esim_cycle := 0 }

/-- The creation of one pair in `fcp_pairing`: `fcp_pair_create` on the ids of
the threads at positions `i` and `j` of the list, both threads pointing to the
pair, the pair added to the list of pairs. -/
def fcp_add_pair (fcp : fcp_t) (i j : Nat) (ways : Int) : Option fcp_t :=
  match fcp.threads[i]?, fcp.threads[j]? with
  | some a, some b =>
    let pair : fcp_pair_t := { id1 := (fcp.data a).id, id2 := (fcp.data b).id, ways := ways }
    let d1 := Function.update fcp.data a { fcp.data a with pair := some pair }
    let d2 := Function.update d1 b { d1 b with pair := some pair }
    some { fcp with data := d2, pairing_pairs := fcp.pairing_pairs ++ [pair] }
  | _, _ => none

/-- The loops of `fcp_pairing` that assert the list of threads is in ascending
order of individual speedup. -/
def fcp_threads_sorted (fcp : fcp_t) : Bool :=
  (List.range (fcp.threads.length - 1)).all fun (i : Nat) =>
    match fcp.threads[i]?, fcp.threads[i + 1]? with
    | some a, some b =>
      decide (double.le (fcp.data a).individual_speedup (fcp.data b).individual_speedup)
    | _, _ => false

/-- The function `fcp_pairing`. -/
def fcp_pairing (fcp : fcp_t) : Option fcp_t :=
  let count := fcp.threads.length
  if count = 0 then none
  else
    let ways_per_pair : Int := ((fcp.mod.cache.assoc * 2 / count : Nat) : Int)
    if count % 2 = 0 ∧ ways_per_pair > 2 then
      let f0 := { fcp with pairing_pairs := [] }
      let add := fun (pairs : List (Nat × Nat)) =>
        pairs.foldl
          (fun (acc : Option fcp_t) (p : Nat × Nat) =>
            acc.bind fun f => fcp_add_pair f p.1 p.2 ways_per_pair)
          (some f0)
      let check := fun (r : Option fcp_t) =>
        match r with
        | none => none
        | some f => if count / 2 = f.pairing_pairs.length then some f else none
      match fcp.pairing_policy with
      | thread_pairing_policy_none => some f0
      | thread_pairing_policy_nearest =>
        check (add ((List.range ((count + 1) / 2)).map fun (k : Nat) => (2 * k, 2 * k + 1)))
      | thread_pairing_policy_random => none
      | thread_pairing_policy_minmax =>
        if fcp_threads_sorted f0 then
          check (add ((List.range (count / 2)).map fun (i : Nat) => (i, count - i - 1)))
        else none
      | thread_pairing_policy_sec =>
        if fcp_threads_sorted f0 then
          check (add ((List.range (count / 2)).map fun (k : Nat) => (2 * k, 2 * k + 1)))
        else none
      | thread_pairing_policy_mix =>
        if fcp_threads_sorted f0 then
          check (add ((List.range (count / 2)).map fun (i : Nat) => (i, count / 2 + i)))
        else none
    else none

/-- The individual speedup `fcp_individual_speedup` computes for one hardware
thread: `ipc / ipc_alone`. -/
def x86_thread_speedup (esim : esim_t) (thread_id : Int) : double :=
  let t := esim.threads thread_id
  let ipc : double :=
    if esim.esim_cycle ≠ 0 then
      double.div (double.ofInt t.num_committed_uinst) (double.ofInt esim.esim_cycle)
    else double.ofInt 0
  let ipc_alone : double :=
    if esim.esim_cycle - t.interthread_penalty_cycles ≠ 0 then
      double.div (double.ofInt t.num_committed_uinst)
        (double.ofInt (esim.esim_cycle - t.interthread_penalty_cycles))
    else double.ofInt 0
  double.div ipc ipc_alone

/-- The function `fcp_individual_speedup`. -/
def fcp_individual_speedup (total_num_threads : Nat) (esim : esim_t) (fcp : fcp_t) : fcp_t :=
  (List.range total_num_threads).foldl
    (fun (acc : fcp_t) (thread_id : Nat) =>
      if acc.mod.reachable_threads thread_id then
        { acc with
          data := Function.update acc.data thread_id
            { acc.data thread_id with
              individual_speedup := x86_thread_speedup esim thread_id } }
      else acc)
    fcp

/-- The function `compare_is` on the threads `fcp->data[t1]` and `fcp->data[t2]`. -/
def compare_is (fcp : fcp_t) (t1 t2 : Int) : Int :=
  if double.lt (fcp.data t1).individual_speedup (fcp.data t2).individual_speedup then -1
  else if double.lt (fcp.data t2).individual_speedup (fcp.data t1).individual_speedup then 1
  else 0

/-- The loop `while (status > 0)` of `fcp_pairing_adjust_ways`: ways are taken
in turn from the two members of a pair, through their pointers
`assigned_ways`, never the last way of a member.  The third argument is
`count`; `none` when the fuel runs out or a pointer is `NULL`. -/
def fcp_shave (ids : Int → Int) : Nat → fcp_t → Int → Int → Option fcp_t
  | 0, _, _, _ => none
  | fuel + 1, fcp, status, count =>
    if status > 0 then
      match (fcp.data (ids count)).assigned_ways with
      | none => none
      | some p =>
        if fcp.mod.cache.assigned_ways p > 1 then
          fcp_shave ids fuel (fcp.set_assigned_ways p (fcp.mod.cache.assigned_ways p - 1))
            (status - 1) ((count + 1) % 2)
        else fcp_shave ids fuel fcp status ((count + 1) % 2)
    else some fcp

/-- The loop `while (status < 0)` of `fcp_pairing_adjust_ways`: ways are given
in turn to the two members of a pair, each kept below the budget of the pair. -/
def fcp_grant (ids : Int → Int) (pair_ways : Int) : Nat → fcp_t → Int → Int → Option fcp_t
  | 0, _, _, _ => none
  | fuel + 1, fcp, status, count =>
    if status < 0 then
      match (fcp.data (ids count)).assigned_ways with
      | none => none
      | some p =>
        if fcp.mod.cache.assigned_ways p < pair_ways then
          fcp_grant ids pair_ways fuel
            (fcp.set_assigned_ways p (fcp.mod.cache.assigned_ways p + 1)) (status + 1)
            ((count + 1) % 2)
        else fcp_grant ids pair_ways fuel fcp status ((count + 1) % 2)
    else some fcp

/-- The two members of a pair as the array `assigned_ways[2]` indexes them. -/
def fcp_pair_t.member (pair : fcp_pair_t) (count : Int) : Int :=
  if count = 0 then pair.id1 else pair.id2

/-- The first loop of `fcp_pairing_adjust_ways`, over the pairs: the state and
the number of ways recovered. -/
def fcp_recover_ways (fcp : fcp_t) : Option (fcp_t × Int) :=
  fcp.pairing_pairs.foldl
    (fun (acc : Option (fcp_t × Int)) (pair : fcp_pair_t) =>
      match acc with
      | none => none
      | some (f, ways) =>
        match f.ways_of pair.id1, f.ways_of pair.id2 with
        | some a, some b =>
          let status := a + b - pair.ways
          if pair.ways ≥ 2 ∧
              pair.ways ≤ (f.mod.cache.assoc : Int) - ((f.pairing_pairs.length : Int) - 1) * 2 ∧
              a > 0 ∧ b > 0 then
            if status > 0 then
              (fcp_shave pair.member (2 * status.toNat + 2) f status 0).map
                fun f1 => (f1, ways + status)
            else some (f, ways)
          else none
        | _, _ => none)
    (some (fcp, 0))

/-- The second loop of `fcp_pairing_adjust_ways`, over the pairs, left at the
first pair after which no recovered way remains: the state, the ways that
remain and whether the loop has been left. -/
def fcp_reassign_ways (fcp : fcp_t) (ways : Int) : Option (fcp_t × Int × Bool) :=
  fcp.pairing_pairs.foldl
    (fun (acc : Option (fcp_t × Int × Bool)) (pair : fcp_pair_t) =>
      match acc with
      | none => none
      | some (f, ways, true) => some (f, ways, true)
      | some (f, ways, false) =>
        match f.ways_of pair.id1, f.ways_of pair.id2 with
        | some a, some b =>
          let status := a + b - pair.ways
          let r : Option (fcp_t × Int) :=
            if status < 0 then
              (fcp_grant pair.member pair.ways (2 * (-status).toNat + 2) f status 0).map
                fun f1 => (f1, ways + status)
            else some (f, ways)
          match r with
          | none => none
          | some (f1, ways1) =>
            if ways1 ≥ 0 then some (f1, ways1, decide (ways1 = 0)) else none
        | _, _ => none)
    (some (fcp, ways, false))

/-- The function `fcp_pairing_adjust_ways`. -/
def fcp_pairing_adjust_ways (fcp : fcp_t) : Option fcp_t :=
  match fcp_recover_ways fcp with
  | none => none
  | some (f, ways) =>
    if ways > 0 then (fcp_reassign_ways f ways).map fun r => r.1 else some f

/-- The seeding loop of the transition to ON: every reachable thread gets
`round(used_ways / num_sets)` ways, at least 1; the state and what remains of
the `assoc` ways. -/
def fcp_seed (total_num_threads : Nat) (fcp : fcp_t) : fcp_t × Int :=
  (List.range total_num_threads).foldl
    (fun (acc : fcp_t × Int) (i : Nat) =>
      if acc.1.mod.reachable_threads i then
        let w := double.round
          (double.div (double.ofInt (acc.1.mod.cache.used_ways i))
            (double.ofInt acc.1.mod.cache.num_sets))
        if w = 0 then (acc.1.set_assigned_ways i 1, acc.2 - 1)
        else (acc.1.set_assigned_ways i w, acc.2 - w)
      else acc)
    (fcp, (fcp.mod.cache.assoc : Int))

/-- The loop `for (int i = 0; ways != 0; i++)` of the transition to ON, which
hands out the ways that remain, or takes back those given in excess, one
thread after the other; `none` when the fuel runs out. -/
def fcp_redistribute (total_num_threads : Nat) : Nat → fcp_t → Int → Int → Option fcp_t
  | 0, _, _, _ => none
  | fuel + 1, fcp, ways, i =>
    if ways = 0 then some fcp
    else
      let thread_id := i % (total_num_threads : Int)
      if ¬ fcp.mod.reachable_threads thread_id then
        fcp_redistribute total_num_threads fuel fcp ways (i + 1)
      else
        let r1 : fcp_t × Int :=
          if ways > 0 then
            (fcp.set_assigned_ways thread_id (fcp.mod.cache.assigned_ways thread_id + 1),
              ways - 1)
          else (fcp, ways)
        let r2 : fcp_t × Int :=
          if r1.2 < 0 ∧ r1.1.mod.cache.assigned_ways thread_id > 1 then
            (r1.1.set_assigned_ways thread_id (r1.1.mod.cache.assigned_ways thread_id - 1),
              r1.2 + 1)
          else r1
        fcp_redistribute total_num_threads fuel r2.1 r2.2 (i + 1)

/-- The loops `for (i ...) if (reachable_threads[i]) assigned_ways[i] = -1;`. -/
def fcp_disable (total_num_threads : Nat) (fcp : fcp_t) : fcp_t :=
  (List.range total_num_threads).foldl
    (fun (acc : fcp_t) (i : Nat) =>
      if acc.mod.reachable_threads i then acc.set_assigned_ways i (-1) else acc)
    fcp

/-- The assertion loops `assert(cache->assigned_ways[i] == -1)` over the
reachable threads. -/
def fcp_all_disabled (total_num_threads : Nat) (fcp : fcp_t) : Bool :=
  (List.range total_num_threads).all fun (i : Nat) =>
    !fcp.mod.reachable_threads (i : Int) || decide (fcp.mod.cache.assigned_ways (i : Int) = -1)

/-- The test of the ON state: is unfairness steadily increasing, that is, has
it grown by more than `FCP_UNF_INC_TH` in each of the last `FCP_MAX_INC_INT`
intervals. -/
def fcp_unfairness_increasing (fcp : fcp_t) (unfairness : double) : Bool :=
  if fcp.state_counter ≥ FCP_MAX_INC_INT then
    let prev1 := fcp.last_unfairness_values ((fcp.state_counter - 1) % FCP_HISTORY_SIZE)
    if double.le unfairness (double.mul prev1 FCP_UNF_INC_TH) then false
    else
      let prev2 := fcp.last_unfairness_values ((fcp.state_counter - 2) % FCP_HISTORY_SIZE)
      if double.le prev1 (double.mul prev2 FCP_UNF_INC_TH) then false else true
  else false

/-- The transfer `if (*max->assigned_ways > FCP_MIN_WAYS) { (*max->assigned_ways)--;
(*min->assigned_ways)++; }`. -/
def fcp_transfer (fcp : fcp_t) (min max : Int) : Option fcp_t :=
  match fcp.ways_of max with
  | none => none
  | some vmax =>
    if vmax > FCP_MIN_WAYS then
      match (fcp.data max).assigned_ways with
      | none => none
      | some imax =>
        let f1 := fcp.set_assigned_ways imax (vmax - 1)
        match (f1.data min).assigned_ways, f1.ways_of min with
        | some imin, some vmin => some (f1.set_assigned_ways imin (vmin + 1))
        | _, _ => none
    else some fcp

/-- The assertions of the ON action without pairing. -/
def fcp_on_assertions (total_num_threads : Nat) (fcp : fcp_t) (min max : Int) : Bool :=
  let ways : Int := sum_assigned_ways total_num_threads fcp.mod
  ((List.range total_num_threads).all fun (i : Nat) =>
      !fcp.mod.reachable_threads (i : Int) || decide (fcp.mod.cache.assigned_ways (i : Int) > 0)) &&
    decide (ways = (fcp.mod.cache.assoc : Int)) &&
    (match fcp.ways_of min, fcp.ways_of max with
     | some vmin, some vmax =>
       decide (vmin > 0 ∧ vmax > 0 ∧
         vmin ≤ (fcp.mod.cache.assoc : Int) - fcp.mod.num_reachable_threads + 1 ∧
         vmax ≤ (fcp.mod.cache.assoc : Int) - fcp.mod.num_reachable_threads + 1)
     | _, _ => false)

/-- The transfer of ways inside every pair, in the ON action with pairing;
`min` and `max` keep their values from one pair to the next when the two
members of a pair have the same individual speedup. -/
def fcp_pair_transfers (fcp : fcp_t) (min max : Int) : Option fcp_t :=
  (fcp.pairing_pairs.foldl
    (fun (acc : Option (fcp_t × Int × Int)) (pair : fcp_pair_t) =>
      match acc with
      | none => none
      | some (f, mn, mx) =>
        if pair.ways ≥ 2 then
          let s1 := (f.data pair.id1).individual_speedup
          let s2 := (f.data pair.id2).individual_speedup
          let mm : Int × Int :=
            if double.lt s2 s1 then (pair.id2, pair.id1)
            else if double.lt s1 s2 then (pair.id1, pair.id2)
            else (mn, mx)
          (fcp_transfer f mm.1 mm.2).map fun f1 => (f1, mm.1, mm.2)
        else none)
    (some (fcp, min, max))).map fun r => r.1

/-- The pairing step of `fcp_repartition`: the state and `pairs_modified`. -/
def fcp_repair (fcp : fcp_t) : Option (fcp_t × Bool) :=
  if fcp.pairing_policy ≠ thread_pairing_policy_none then
    if fcp.pairing_interval = 0 then
      if fcp.pairing_pairs.length = 0 then (fcp_pairing fcp).map fun f => (f, true)
      else some (fcp, false)
    else if Int.tmod fcp.counter fcp.pairing_interval = 0 then
      (fcp_pairing fcp).map fun f => (f, true)
    else some (fcp, false)
  else some (fcp, false)

/-- The first `switch` of `fcp_repartition`: the transition and the actions
tied to it. -/
def fcp_transition (total_num_threads : Nat) (fcp : fcp_t) (unfairness : double) :
    Option fcp_t :=
  let enter_on : Option fcp_t :=
    let seeded := fcp_seed total_num_threads fcp
    (fcp_redistribute total_num_threads (total_num_threads * (seeded.2.natAbs + 1) + 1)
      seeded.1 seeded.2 0).map fun f => { f with state := ON }
  match fcp.state with
  | BACKOFF =>
    if fcp.backoff > 0 then some fcp
    else if fcp.backoff = 0 then enter_on
    else none
  | OFF => enter_on
  | ON =>
    let f1 : fcp_t :=
      if fcp_unfairness_increasing fcp unfairness then
        { fcp with backoff := FCP_BACKOFF_INTERVALS, state := BACKOFF }
      else fcp
    if f1.state ≠ ON then some (fcp_disable total_num_threads f1) else some f1

/-- The second `switch` of `fcp_repartition`: the actions of the state. -/
def fcp_action (total_num_threads : Nat) (fcp : fcp_t) (min max : Int)
    (pairs_modified : Bool) : Option fcp_t :=
  match fcp.state with
  | OFF => if fcp_all_disabled total_num_threads fcp then some fcp else none
  | ON =>
    let transferred : Option fcp_t :=
      if fcp.pairing_policy = thread_pairing_policy_none then
        match fcp_transfer fcp min max with
        | none => none
        | some f => if fcp_on_assertions total_num_threads f min max then some f else none
      else if fcp.pairing_pairs.length > 0 then fcp_pair_transfers fcp min max
      else none
    match transferred with
    | none => none
    | some f => if pairs_modified then fcp_pairing_adjust_ways f else some f
  | BACKOFF =>
    if fcp.backoff > 0 ∧ fcp_all_disabled total_num_threads fcp then
      some { fcp with backoff := fcp.backoff - 1 }
    else none

/-- The part of `fcp_repartition` that computes the unfairness: the individual
speedups are filled in, the list of threads is sorted, `min` and `max` are its
head and its tail; the state, `min`, `max` and `unfairness`.  `none` when the
list is empty or `assert(max->individual_speedup >= min->individual_speedup)`
fails. -/
def fcp_unfairness (list_sort : (Int → Int → Int) → List Int → List Int)
    (total_num_threads : Nat) (esim : esim_t) (fcp : fcp_t) :
    Option (fcp_t × Int × Int × double) :=
  let f1 := fcp_individual_speedup total_num_threads esim fcp
  let f2 := { f1 with threads := list_sort (compare_is f1) f1.threads }
  match f2.threads.head?, f2.threads.getLast? with
  | some min, some max =>
    if double.le (f2.data min).individual_speedup (f2.data max).individual_speedup then
      some (f2, min, max,
        double.div (f2.data max).individual_speedup (f2.data min).individual_speedup)
    else none
  | _, _ => none

/-- The end of `fcp_repartition`: the history of unfairness values and the
counters. -/
def fcp_record (fcp : fcp_t) (last_state : fcp_state_t) (unfairness : double)
    (esim_cycle : Int) : fcp_t :=
  let f6 : fcp_t :=
    if fcp.state ≠ last_state then { fcp with state_counter := 0 }
    else
      { fcp with
        last_unfairness_values :=
          Function.update fcp.last_unfairness_values
            (fcp.state_counter % FCP_HISTORY_SIZE) unfairness
        state_counter := fcp.state_counter + 1 }
  { f6 with counter := f6.counter + 1, last_esim_cycle := esim_cycle }

/-- The function `fcp_repartition`; `list_sort cmp l` is `list_sort` of
`lib/util/list.c` on the list `l` with the comparison callback `cmp`. -/
def fcp_repartition (list_sort : (Int → Int → Int) → List Int → List Int)
    (x86_cpu_num_cores x86_cpu_num_threads : Nat) (esim : esim_t) (fcp : fcp_t) :
    Option fcp_t :=
  let total_num_threads := x86_cpu_num_cores * x86_cpu_num_threads
  let cycles_int := esim.esim_cycle - fcp.last_esim_cycle
  if cycles_int > 0 then
    let usage := cache_usage total_num_threads fcp.mod
    if esim.esim_time ≤ FCP_TIME_TH ∨ double.le usage FCP_CACHE_TH then some fcp
    else
      match fcp_unfairness list_sort total_num_threads esim fcp with
      | none => none
      | some (f2, min, max, unfairness) =>
        match fcp_repair f2 with
        | none => none
        | some (f3, pairs_modified) =>
          let last_state := f3.state
          match fcp_transition total_num_threads f3 unfairness with
          | none => none
          | some f4 =>
            match fcp_action total_num_threads f4 min max pairs_modified with
            | none => none
            | some f5 => some (fcp_record f5 last_state unfairness esim.esim_cycle)
  else none

/-- The state of the controller when the cache holds `used_ways[t]` blocks of
thread `t`: the accesses between two calls of `fcp_repartition` change these
counters and nothing else that the controller reads. -/
def fcp_t.with_used_ways (fcp : fcp_t) (used_ways : Int → Int) : fcp_t :=
  { fcp with
    mod := { fcp.mod with cache := { fcp.mod.cache with used_ways := used_ways } } }

/-- A sequence of calls to `fcp_repartition`, one for each state of the
simulator in the list, each with the counters `used_ways` of the cache at the
time of the call. -/
def fcp_run (list_sort : (Int → Int → Int) → List Int → List Int)
    (x86_cpu_num_cores x86_cpu_num_threads : Nat) :
    fcp_t → List (esim_t × (Int → Int)) → Option fcp_t
  | fcp, [] => some fcp
  | fcp, call :: rest =>
    match fcp_repartition list_sort x86_cpu_num_cores x86_cpu_num_threads call.1
        (fcp.with_used_ways call.2) with
    | none => none
    | some f => fcp_run list_sort x86_cpu_num_cores x86_cpu_num_threads f rest

/-! ## Predicates used by the proofs -/

/-- Two blocks that differ at most in their links. -/
def same_payload (b b' : cache_block_t) : Prop :=
  b'.tag = b.tag ∧ b'.transient_tag = b.transient_tag ∧ b'.way = b.way ∧
    b'.prefetched = b.prefetched ∧ b'.thread_id = b.thread_id ∧ b'.state = b.state

/-- The recency list a move to the head leaves. -/
def move_to_head (w : Nat) (l : List Nat) : List Nat := w :: l.erase w

/-- The cache with its scratch counters cleared, as `cache_replace_block`
leaves them under Partitioned-LRU when no quota applies. -/
def cache_scratch_cleared (nc nt : Nat) (c : cache_t) : cache_t :=
  { c with used_ways_in_set := cache_clear_used_ways_in_set (nt * nc) c.used_ways_in_set }

/-- Every set of the cache is a well-formed recency list. -/
def cache_wf (c : cache_t) : Prop :=
  ∀ s, s < c.num_sets → ∃ l, set_wf c.assoc (c.sets s) l

/-- The counters `used_ways` agree with the owners recorded in the blocks. -/
def cache_used_ways_ok (c : cache_t) : Prop :=
  ∀ t : Int, t ≠ -1 → c.used_ways t = cache_owned c t

/-- The fields a block operation never changes. -/
def cache_same_shape (c c' : cache_t) : Prop :=
  c'.num_sets = c.num_sets ∧ c'.assoc = c.assoc ∧ c'.policy = c.policy ∧
    c'.assigned_ways = c.assigned_ways ∧ c'.block_mask = c.block_mask ∧
    c'.log_block_size = c.log_block_size

/-- The body of `cache_set_thread_id` once `thread_id` is computed. -/
def cache_set_owner (cache : cache_t) (set way : Nat) (thread_id : Int) : Option cache_t :=
  let block := (cache.sets set).blocks way
  let counted : Option cache_t :=
    if thread_id ≠ block.thread_id then
      let c1 := { cache with
        used_ways := Function.update cache.used_ways thread_id (cache.used_ways thread_id + 1) }
      if block.thread_id ≠ -1 then
        let c2 := { c1 with
          used_ways := Function.update c1.used_ways block.thread_id
            (c1.used_ways block.thread_id - 1) }
        if c2.used_ways block.thread_id ≥ 0 then some c2 else none
      else some c1
    else some cache
  match counted with
  | none => none
  | some c =>
    if c.used_ways thread_id ≥ 0 then
      some (c.modify_block set way (fun b => { b with thread_id := thread_id }))
    else none

/-- The way `cache_replace_block` settles on under Partitioned-LRU when the
quotas apply (valid tail block, requester with a quota): the least recently
used block of the requester when the requester holds at least its quota in
the set, else the least recently used block of another thread that holds at
least its own quota; the tail when there is no such block. -/
def plru_victim (c : cache_t) (set : cache_set_t) (l : List Nat) (tid : Int) : Nat :=
  if cache_set_owned c.assoc set tid ≥ c.assigned_ways tid then
    (l.reverse.find? (fun a => decide ((set.blocks a).thread_id = tid))).getD set.way_tail
  else
    (l.reverse.find? (fun a => decide ((set.blocks a).thread_id ≠ tid ∧
      cache_set_owned c.assoc set (set.blocks a).thread_id
        ≥ c.assigned_ways (set.blocks a).thread_id))).getD set.way_tail

/-- The cache with the scratch counters `cache_replace_block` leaves under
Partitioned-LRU when the quotas apply: the occupancy of set `s` per thread. -/
def cache_scratch_counted (nc nt : Nat) (c : cache_t) (s : Nat) : cache_t :=
  { c with
    used_ways_in_set :=
      cache_count_used_ways_in_set (c.sets s).blocks c.assoc
        (cache_clear_used_ways_in_set (nt * nc) c.used_ways_in_set) }

/-- The cache `c'` differs from `c` in set `s` and in the per-thread counters at most. -/
def cache_set_step (c c' : cache_t) (s : Nat) : Prop :=
  cache_same_shape c c' ∧ ∀ a, a ≠ s → c'.sets a = c.sets a

/-- The recency list is ordered by age: a way nearer the head was named in the
trace no earlier than a way nearer the tail. -/
def age_ordered (trace : List Nat) (l : List Nat) : Prop :=
  l.Pairwise (fun a b => way_age trace a ≤ way_age trace b)

/-- The ways named by the records of an access sequence: every way used when
`all`, the ways filled otherwise. -/
def trace_ways (all : Bool) (records : List (Nat × Bool)) : List Nat :=
  (records.filter (fun r => all || r.2)).map Prod.fst

/-- The controller with the array `cache->assigned_ways` replaced. -/
def fcp_t.with_assigned_ways (fcp : fcp_t) (a : Int → Int) : fcp_t :=
  { fcp with mod := { fcp.mod with cache := { fcp.mod.cache with assigned_ways := a } } }

/-- What the proofs ask of `list_sort`: on threads whose individual speedups
are finite numbers, it returns the same threads in ascending order of
individual speedup. -/
def list_sort_sorts (list_sort : (Int → Int → Int) → List Int → List Int) : Prop :=
  ∀ f : fcp_t, (∀ t ∈ f.threads, (f.data t).individual_speedup.den ≠ 0) →
    (list_sort (compare_is f) f.threads).Perm f.threads ∧
    (list_sort (compare_is f) f.threads).Pairwise
      (fun a b => double.le (f.data a).individual_speedup (f.data b).individual_speedup)

/-- The configuration of a controller without pairing, as `fcp_create` leaves
it: the list holds the reachable threads, every reachable thread points to its
own entry of `assigned_ways`, and the cache has at least one set and at least
as many ways as there are reachable threads. -/
def fcp_static (total_num_threads : Nat) (fcp : fcp_t) : Prop :=
  fcp.pairing_policy = thread_pairing_policy_t.thread_pairing_policy_none ∧
  fcp.threads ≠ [] ∧
  (∀ t ∈ fcp.threads, 0 ≤ t ∧ t < (total_num_threads : Int) ∧
    fcp.mod.reachable_threads t = true) ∧
  (∀ i : Nat, i < total_num_threads → fcp.mod.reachable_threads i = true →
    (fcp.data i).assigned_ways = some (i : Int)) ∧
  fcp.mod.num_reachable_threads = (count_reachable total_num_threads fcp.mod : Int) ∧
  count_reachable total_num_threads fcp.mod ≤ fcp.mod.cache.assoc ∧
  0 < fcp.mod.cache.num_sets

instance (total_num_threads : Nat) (fcp : fcp_t) : Decidable (fcp_static total_num_threads fcp) := by
  unfold fcp_static
  infer_instance

/-- The quotas in each state of the controller: in ON every reachable thread
has at least one way and the quotas add up to `assoc`; in BACKOFF every
reachable thread is unconstrained and the countdown is not negative. -/
def fcp_state_ok (total_num_threads : Nat) (fcp : fcp_t) : Prop :=
  (fcp.state = fcp_state_t.ON →
    sum_assigned_ways total_num_threads fcp.mod = (fcp.mod.cache.assoc : Int) ∧
    ∀ i : Nat, i < total_num_threads → fcp.mod.reachable_threads i = true →
      1 ≤ fcp.mod.cache.assigned_ways i) ∧
  (fcp.state = fcp_state_t.BACKOFF →
    0 ≤ fcp.backoff ∧
    ∀ i : Nat, i < total_num_threads → fcp.mod.reachable_threads i = true →
      fcp.mod.cache.assigned_ways i = -1)

instance (total_num_threads : Nat) (fcp : fcp_t) :
    Decidable (fcp_state_ok total_num_threads fcp) := by
  unfold fcp_state_ok
  infer_instance

/-- The warm-up gate of `fcp_repartition` is passed. -/
def fcp_gate (total_num_threads : Nat) (esim : esim_t) (fcp : fcp_t) : Prop :=
  ¬ (esim.esim_time ≤ FCP_TIME_TH ∨ double.le (cache_usage total_num_threads fcp.mod) FCP_CACHE_TH)

instance (total_num_threads : Nat) (esim : esim_t) (fcp : fcp_t) :
    Decidable (fcp_gate total_num_threads esim fcp) := by
  unfold fcp_gate
  infer_instance

/-- The counters a call reads are those of a running machine: the cycle count
is not 0, every reachable thread has committed micro-instructions and fewer
penalty cycles than cycles, and no counter `used_ways` is negative. -/
def fcp_env_ok (total_num_threads : Nat) (esim : esim_t) (fcp : fcp_t) : Prop :=
  esim.esim_cycle ≠ 0 ∧
  ∀ i : Nat, i < total_num_threads → fcp.mod.reachable_threads i = true →
    (esim.threads i).num_committed_uinst ≠ 0 ∧
    esim.esim_cycle - (esim.threads i).interthread_penalty_cycles ≠ 0 ∧
    0 ≤ fcp.mod.cache.used_ways i

instance (total_num_threads : Nat) (esim : esim_t) (fcp : fcp_t) :
    Decidable (fcp_env_ok total_num_threads esim fcp) := by
  unfold fcp_env_ok
  infer_instance

/-- The configuration that no call of `fcp_repartition` and no access to the
cache changes: the reachable threads, their number, and the shape of the
cache. -/
def fcp_same_config (f f' : fcp_t) : Prop :=
  f'.mod.reachable_threads = f.mod.reachable_threads ∧
  f'.mod.num_reachable_threads = f.mod.num_reachable_threads ∧
  f'.mod.cache.assoc = f.mod.cache.assoc ∧
  f'.mod.cache.num_sets = f.mod.cache.num_sets

/-- The calls of a run come from a running machine: the cycle counts are
positive, every reachable thread has committed micro-instructions and fewer
penalty cycles than cycles, and no counter `used_ways` is negative. -/
def fcp_calls_ok (total_num_threads : Nat) (mod : mod_t)
    (calls : List (esim_t × (Int → Int))) : Prop :=
  ∀ c ∈ calls, 0 < c.1.esim_cycle ∧
    ∀ i : Nat, i < total_num_threads → mod.reachable_threads i = true →
      (c.1.threads i).num_committed_uinst ≠ 0 ∧
      c.1.esim_cycle - (c.1.threads i).interthread_penalty_cycles ≠ 0 ∧
      0 ≤ c.2 i

instance (total_num_threads : Nat) (mod : mod_t) (calls : List (esim_t × (Int → Int))) :
    Decidable (fcp_calls_ok total_num_threads mod calls) := by
  unfold fcp_calls_ok
  infer_instance

/-- The cycle count grows from each call to the next. -/
def fcp_cycles_increase (calls : List (esim_t × (Int → Int))) : Prop :=
  calls.Pairwise (fun a b => a.1.esim_cycle < b.1.esim_cycle)

instance (calls : List (esim_t × (Int → Int))) : Decidable (fcp_cycles_increase calls) := by
  unfold fcp_cycles_increase
  infer_instance

/-- Every call of the list passes the warm-up gate. -/
def fcp_calls_pass_gate (total_num_threads : Nat) (fcp : fcp_t)
    (calls : List (esim_t × (Int → Int))) : Prop :=
  ∀ c ∈ calls, fcp_gate total_num_threads c.1 (fcp.with_used_ways c.2)

instance (total_num_threads : Nat) (fcp : fcp_t) (calls : List (esim_t × (Int → Int))) :
    Decidable (fcp_calls_pass_gate total_num_threads fcp calls) := by
  unfold fcp_calls_pass_gate
  infer_instance

/-- The state changes of the FCP state machine: none, OFF to ON, ON to BACKOFF
and BACKOFF to ON. -/
def fcp_state_change (s s' : fcp_state_t) : Prop :=
  s' = s ∨ (s = fcp_state_t.OFF ∧ s' = fcp_state_t.ON) ∨
    (s = fcp_state_t.ON ∧ s' = fcp_state_t.BACKOFF) ∨
    (s = fcp_state_t.BACKOFF ∧ s' = fcp_state_t.ON)

instance (s s' : fcp_state_t) : Decidable (fcp_state_change s s') := by
  unfold fcp_state_change
  infer_instance

/-- The states of the controller after each call of a run; `none` when a call
does not return. -/
def fcp_run_states (list_sort : (Int → Int → Int) → List Int → List Int)
    (x86_cpu_num_cores x86_cpu_num_threads : Nat) :
    fcp_t → List (esim_t × (Int → Int)) → Option (List fcp_state_t)
  | _, [] => some []
  | fcp, call :: rest =>
    match fcp_repartition list_sort x86_cpu_num_cores x86_cpu_num_threads call.1
        (fcp.with_used_ways call.2) with
    | none => none
    | some f =>
      (fcp_run_states list_sort x86_cpu_num_cores x86_cpu_num_threads f rest).map
        fun l => f.state :: l

/-- The quotas after the transfer of one way from `max` to `min`, which takes
place when `max` has more than `FCP_MIN_WAYS` ways. -/
def fcp_transfer_ways (a : Int → Int) (min max : Int) : Int → Int :=
  if a max > FCP_MIN_WAYS then
    Function.update (Function.update a max (a max - 1)) min
      (Function.update a max (a max - 1) min + 1)
  else a

/-- The sum of `used_ways` over the reachable threads, as the first loop of
`ucp_repartition` computes it. -/
def sum_used_ways (total_num_threads : Nat) (mod : mod_t) : Int :=
  (List.range total_num_threads).foldl
    (fun acc (i : Nat) =>
      if mod.reachable_threads i then acc + mod.cache.used_ways i else acc) 0

/-- The cache after one call and the way returned, if the call is
`cache_replace_block`. -/
def cache_op.apply_way (x86_cpu_num_cores x86_cpu_num_threads : Nat) (cache : cache_t) :
    cache_op → Option (cache_t × Option Int)
  | cache_op.replace_block set ci random =>
    (cache_replace_block x86_cpu_num_cores x86_cpu_num_threads cache set ci random).map
      fun r => (r.1, some r.2)
  | op => (op.apply x86_cpu_num_cores x86_cpu_num_threads cache).map fun c => (c, none)

/-- The cache after a sequence of calls and the ways the calls of
`cache_replace_block` returned, oldest first; `none` once a call aborts. -/
def cache_run_ways (x86_cpu_num_cores x86_cpu_num_threads : Nat) :
    cache_t → List cache_op → Option (cache_t × List Int)
  | cache, [] => some (cache, [])
  | cache, op :: ops =>
    match op.apply_way x86_cpu_num_cores x86_cpu_num_threads cache with
    | none => none
    | some (c, way) =>
      (cache_run_ways x86_cpu_num_cores x86_cpu_num_threads c ops).map fun r =>
        (r.1, way.toList ++ r.2)

/-- The call is `cache_access_block` or `cache_replace_block`. -/
def cache_op.is_access_or_replace : cache_op → Bool
  | cache_op.access_block _ _ => true
  | cache_op.replace_block _ _ _ => true
  | _ => false

/-- A Partitioned-LRU cache without quotas next to an LRU cache of the same
geometry with the same blocks and recency lists. -/
def plru_lru_related (c1 c2 : cache_t) : Prop :=
  c1.policy = cache_policy_t.cache_policy_partitioned_lru ∧
  c2.policy = cache_policy_t.cache_policy_lru ∧
  c1.num_sets = c2.num_sets ∧ c1.assoc = c2.assoc ∧ c1.sets = c2.sets ∧
  (∀ t : Int, c1.assigned_ways t = -1) ∧ cache_wf c2

/-- The loop `while (balance)` of `ucp_repartition`, as `ucp_allocate`, with
the value of `balance` at the end of each iteration as its result, oldest
first. -/
def ucp_allocate_balances (total_num_threads : Nat) : Nat → ucp_t → Int → Int → List Int
  | 0, _, _, _ => []
  | fuel + 1, ucp, balance, last_balance =>
    if balance = 0 then []
    else
      match ucp_compute_max_mu total_num_threads ucp balance with
      | none => []
      | some u1 =>
        let winner := (ucp_choose_winner total_num_threads u1).1
        if winner = -1 then []
        else
          let u2 := u1.set_assigned_ways winner
            (u1.mod.cache.assigned_ways winner + u1.ways_req winner)
          let balance1 := balance - u1.ways_req winner
          if balance1 = last_balance then [balance1]
          else balance1 :: ucp_allocate_balances total_num_threads fuel u2 balance1 balance1

/-- The state of UCP when the cache holds `used_ways[t]` blocks of thread `t`
and the ATDs hold the histograms `atds`: the accesses between two calls of
`ucp_repartition` change these and nothing else that the algorithm reads. -/
def ucp_t.with_env (ucp : ucp_t) (used_ways : Int → Int) (atds : Int → Option atd_t) : ucp_t :=
  { ucp with
    mod := { ucp.mod with
      cache := { ucp.mod.cache with used_ways := used_ways }
      atd_per_thread := atds } }

/-- A sequence of calls to `ucp_repartition`, each with the counters
`used_ways` and the histograms at the time of the call. -/
def ucp_run (x86_cpu_num_cores x86_cpu_num_threads : Nat) :
    ucp_t → List ((Int → Int) × (Int → Option atd_t)) → Option ucp_t
  | ucp, [] => some ucp
  | ucp, call :: rest =>
    match ucp_repartition x86_cpu_num_cores x86_cpu_num_threads (ucp.with_env call.1 call.2) with
    | none => none
    | some u => ucp_run x86_cpu_num_cores x86_cpu_num_threads u rest

/-- Every quota of the threads of the machine is -1 or at least 1. -/
def quotas_never_zero (total_num_threads : Nat) (assigned_ways : Int → Int) : Prop :=
  ∀ t : Nat, t < total_num_threads → assigned_ways t = -1 ∨ 1 ≤ assigned_ways t

instance (total_num_threads : Nat) (assigned_ways : Int → Int) :
    Decidable (quotas_never_zero total_num_threads assigned_ways) := by
  unfold quotas_never_zero
  infer_instance

/-- The step that led from `f` to `g` left the set of reachable threads, the
data of the threads, the pairing policy and the quota of every unreachable
thread as they were. -/
def fcp_unreachable_kept (f g : fcp_t) : Prop :=
  g.mod.reachable_threads = f.mod.reachable_threads ∧ g.data = f.data ∧
  g.pairing_policy = f.pairing_policy ∧
  ∀ t : Int, f.mod.reachable_threads t = false →
    g.mod.cache.assigned_ways t = f.mod.cache.assigned_ways t

/-- The threads that own a block of the set, each of them once. -/
def cache_set_owners (assoc : Nat) (set : cache_set_t) : List Int :=
  ((List.range assoc).map fun w => (set.blocks w).thread_id).dedup

/-- The threads of the pairs, the two members of each pair in turn. -/
def fcp_paired_threads : List fcp_pair_t → List Int
  | [] => []
  | pair :: pairs => pair.id1 :: pair.id2 :: fcp_paired_threads pairs

/-- The sum of the quotas `assigned_ways` of the members of the pairs. -/
def fcp_pairs_assigned (assigned_ways : Int → Int) (pairs : List fcp_pair_t) : Int :=
  (pairs.map fun pair => assigned_ways pair.id1 + assigned_ways pair.id2).sum

/-- The sum of the budgets `ways` of the pairs. -/
def fcp_pairs_budget (pairs : List fcp_pair_t) : Int :=
  (pairs.map fun pair => pair.ways).sum

/-- The step that led from `f` to `g` left the counter `state_counter` and the
history `last_unfairness_values` as they were. -/
def fcp_history_kept (f g : fcp_t) : Prop :=
  g.state_counter = f.state_counter ∧ g.last_unfairness_values = f.last_unfairness_values

/-- A run of calls of `fcp_repartition` with, for each call that passes the
warm-up gate, oldest first, the state before the call, the state after it and
the value `unfairness` of the call; `none` when a call does not return. -/
def fcp_run_log (list_sort : (Int → Int → Int) → List Int → List Int)
    (x86_cpu_num_cores x86_cpu_num_threads : Nat) :
    fcp_t → List (esim_t × (Int → Int)) →
      Option (fcp_t × List (fcp_state_t × fcp_state_t × double))
  | fcp, [] => some (fcp, [])
  | fcp, call :: rest =>
    match fcp_repartition list_sort x86_cpu_num_cores x86_cpu_num_threads call.1
        (fcp.with_used_ways call.2) with
    | none => none
    | some f =>
      let entry : List (fcp_state_t × fcp_state_t × double) :=
        if fcp_gate (x86_cpu_num_cores * x86_cpu_num_threads) call.1
            (fcp.with_used_ways call.2) then
          match fcp_unfairness list_sort (x86_cpu_num_cores * x86_cpu_num_threads) call.1
              (fcp.with_used_ways call.2) with
          | some (_, _, _, unfairness) => [(fcp.state, f.state, unfairness)]
          | none => []
        else []
      (fcp_run_log list_sort x86_cpu_num_cores x86_cpu_num_threads f rest).map
        fun r => (r.1, entry ++ r.2)

/-- The history of a controller agrees with the log of its run: the counter
`state_counter` is not negative, and for each `j` below it the call of the log
that is `j` calls back found the controller in its present state and left it
there, and, for the last three of them, its unfairness is the entry
`(state_counter - 1 - j) % FCP_HISTORY_SIZE` of the history. -/
def fcp_history_ok (f : fcp_t) (log : List (fcp_state_t × fcp_state_t × double)) : Prop :=
  0 ≤ f.state_counter ∧
  ∀ j : Nat, (j : Int) < f.state_counter →
    ∃ e, log.reverse[j]? = some e ∧ e.1 = f.state ∧ e.2.1 = f.state ∧
      (j < 3 → f.last_unfairness_values ((f.state_counter - 1 - j) % FCP_HISTORY_SIZE) = e.2.2)

/-- The positions, in the list of threads in ascending order of individual
speedup, of the two members of pair `i` among `n` threads, in the words of the
description of the heuristics: MinMax pairs `i` with `n - 1 - i`, Mix pairs `i`
with `n / 2 + i`, Sec and Nearest pair `2 i` with `2 i + 1`. -/
def fcp_pairing_positions (policy : thread_pairing_policy_t) (n i : Nat) : Nat × Nat :=
  match policy with
  | thread_pairing_policy_t.thread_pairing_policy_minmax => (i, n - 1 - i)
  | thread_pairing_policy_t.thread_pairing_policy_mix => (i, n / 2 + i)
  | _ => (2 * i, 2 * i + 1)

/-- The field `id` of the thread at position `i` of the list of threads. -/
def fcp_thread_id_at (fcp : fcp_t) (i : Nat) : Int :=
  (fcp.data (fcp.threads.getD i 0)).id

/-- The pairs the description of the heuristics asks of `fcp_pairing`: half as
many pairs as threads, pair `i` made of the threads at the positions
`fcp_pairing_positions`, each with the budget `2 * assoc / n`. -/
def fcp_pairing_expected (fcp : fcp_t) : List fcp_pair_t :=
  (List.range (fcp.threads.length / 2)).map fun (i : Nat) =>
    { id1 := fcp_thread_id_at fcp
        (fcp_pairing_positions fcp.pairing_policy fcp.threads.length i).1
      id2 := fcp_thread_id_at fcp
        (fcp_pairing_positions fcp.pairing_policy fcp.threads.length i).2
      ways := ((fcp.mod.cache.assoc * 2 / fcp.threads.length : Nat) : Int) }

/-- The histogram indices `ucp_mu` reads, in the order of its loop
`for (i = alloc; i < new_alloc; i++)`. -/
def ucp_mu_reads (alloc new_alloc : Int) : List Int :=
  (List.range (new_alloc - alloc).toNat).map fun (k : Nat) => alloc + (k : Int)

/-- The histogram indices `ucp_max_mu` reads: those of the calls
`ucp_mu(ucp, thread_id, alloc, alloc + i)` for `i = 1 .. balance`. -/
def ucp_max_mu_reads (alloc balance : Int) : List Int :=
  (List.range balance.toNat).flatMap fun (k : Nat) =>
    ucp_mu_reads alloc (alloc + ((k : Int) + 1))

/-- The reads of the first loop in the body of `while (balance)`: the thread
and the histogram index of every read `atds[thread_id]->stack_distance_counters[i]`. -/
def ucp_compute_max_mu_reads (total_num_threads : Nat) (ucp : ucp_t) (balance : Int) :
    List (Int × Int) :=
  (List.range total_num_threads).flatMap fun (thread_id : Nat) =>
    if ucp.mod.reachable_threads thread_id then
      (ucp_max_mu_reads (ucp.mod.cache.assigned_ways thread_id) balance).map
        fun i => ((thread_id : Int), i)
    else []

/-- The loop `while (balance)` of `ucp_repartition`, as `ucp_allocate`, with
the state and the balance at the start of each iteration, oldest first, and
then the state and the balance with which the loop is left. -/
def ucp_allocate_iterations (total_num_threads : Nat) :
    Nat → ucp_t → Int → Int → List (ucp_t × Int)
  | 0, _, _, _ => []
  | fuel + 1, ucp, balance, last_balance =>
    if balance = 0 then [(ucp, balance)]
    else
      (ucp, balance) ::
        match ucp_compute_max_mu total_num_threads ucp balance with
        | none => []
        | some u1 =>
          let winner := (ucp_choose_winner total_num_threads u1).1
          if winner = -1 then []
          else
            let u2 := u1.set_assigned_ways winner
              (u1.mod.cache.assigned_ways winner + u1.ways_req winner)
            let balance1 := balance - u1.ways_req winner
            if balance1 = last_balance then [(u2, balance1)]
            else ucp_allocate_iterations total_num_threads fuel u2 balance1 balance1

/-- What a memory module does to a Partitioned-LRU cache between two points of
a run: the partitioning algorithm writes the quotas `assigned_ways`; a hit calls
`cache_access_block`; a block is written again by `cache_set_block` or
`cache_set_transient_tag`; a miss calls `cache_replace_block` and fills the way
it returned, by `cache_set_transient_tag` (when `transient`) or by
`cache_set_block`, for the same client. -/
inductive plru_event
  | quotas (assigned_ways : Int → Int)
  | access (set way : Nat)
  | refill (set way : Nat) (tag state : Int) (client_info : mod_client_info_t)
  | retag (set way : Nat) (tag : Int) (client_info : mod_client_info_t)
  | miss (set : Nat) (client_info : mod_client_info_t) (random : Nat) (transient : Bool)
      (tag state : Int)

/-- The calls of one event; `none` when one of them aborts. -/
def plru_event.apply (x86_cpu_num_cores x86_cpu_num_threads : Nat) (cache : cache_t) :
    plru_event → Option cache_t
  | plru_event.quotas assigned_ways => some { cache with assigned_ways := assigned_ways }
  | plru_event.access set way => cache_access_block cache set way
  | plru_event.refill set way tag state ci =>
    cache_set_block x86_cpu_num_cores x86_cpu_num_threads cache set way tag state (some ci)
  | plru_event.retag set way tag ci =>
    cache_set_transient_tag x86_cpu_num_threads cache set way tag ci
  | plru_event.miss set ci random transient tag state =>
    match cache_replace_block x86_cpu_num_cores x86_cpu_num_threads cache set ci random with
    | none => none
    | some (c1, way) =>
      if transient then cache_set_transient_tag x86_cpu_num_threads c1 set way.toNat tag ci
      else
        cache_set_block x86_cpu_num_cores x86_cpu_num_threads c1 set way.toNat tag state
          (some ci)

/-- The event keeps to the protocol in the state `cache`: its set, way and
client exist, and a block that is accessed or written outside a miss has an
owner. -/
def plru_event.allowed (x86_cpu_num_cores x86_cpu_num_threads : Nat) (cache : cache_t) :
    plru_event → Bool
  | plru_event.quotas _ => true
  | plru_event.access set way =>
    decide (set < cache.num_sets ∧ way < cache.assoc ∧
      ((cache.sets set).blocks way).thread_id ≠ -1)
  | plru_event.refill set way _ _ ci =>
    decide (set < cache.num_sets ∧ way < cache.assoc ∧
      ((cache.sets set).blocks way).thread_id ≠ -1 ∧
      0 ≤ ci.core ∧ ci.core < x86_cpu_num_cores ∧ 0 ≤ ci.thread ∧ ci.thread < x86_cpu_num_threads)
  | plru_event.retag set way _ ci =>
    decide (set < cache.num_sets ∧ way < cache.assoc ∧
      ((cache.sets set).blocks way).thread_id ≠ -1 ∧
      0 ≤ ci.core ∧ ci.core < x86_cpu_num_cores ∧ 0 ≤ ci.thread ∧ ci.thread < x86_cpu_num_threads)
  | plru_event.miss set ci _ _ _ _ =>
    decide (set < cache.num_sets ∧
      0 ≤ ci.core ∧ ci.core < x86_cpu_num_cores ∧ 0 ≤ ci.thread ∧ ci.thread < x86_cpu_num_threads)

/-- The cache after a sequence of events, `none` once a call aborts. -/
def plru_run (x86_cpu_num_cores x86_cpu_num_threads : Nat) :
    cache_t → List plru_event → Option cache_t
  | cache, [] => some cache
  | cache, e :: es =>
    match e.apply x86_cpu_num_cores x86_cpu_num_threads cache with
    | none => none
    | some c => plru_run x86_cpu_num_cores x86_cpu_num_threads c es

/-- Every event of the sequence keeps to the protocol in the state it meets. -/
def plru_protocol (x86_cpu_num_cores x86_cpu_num_threads : Nat) :
    cache_t → List plru_event → Bool
  | _, [] => true
  | cache, e :: es =>
    e.allowed x86_cpu_num_cores x86_cpu_num_threads cache &&
      match e.apply x86_cpu_num_cores x86_cpu_num_threads cache with
      | none => true
      | some c => plru_protocol x86_cpu_num_cores x86_cpu_num_threads c es

/-- The blocks without owner are invalid and are the last ones of the recency
list `l`; the blocks before them are owned by threads of the machine. -/
def plru_unowned_suffix (total_num_threads : Nat) (blocks : Nat → cache_block_t)
    (l : List Nat) : Prop :=
  ∃ pre suf, l = pre ++ suf ∧
    (∀ w ∈ pre, 0 ≤ (blocks w).thread_id ∧ (blocks w).thread_id < (total_num_threads : Int)) ∧
    ∀ w ∈ suf, (blocks w).thread_id = -1 ∧ (blocks w).state = 0

/-- What a run that keeps to the protocol preserves in a Partitioned-LRU cache:
well-formed recency lists, exact counters `used_ways`, and in every set the
blocks without owner invalid and last in the recency list. -/
def plru_inv (x86_cpu_num_cores x86_cpu_num_threads : Nat) (c : cache_t) : Prop :=
  c.policy = cache_policy_t.cache_policy_partitioned_lru ∧ cache_wf c ∧ cache_used_ways_ok c ∧
    ∀ s, s < c.num_sets →
      plru_unowned_suffix (x86_cpu_num_cores * x86_cpu_num_threads) (c.sets s).blocks
        (cache_waylist c.assoc (c.sets s))

/-! ## Concrete caches and runs used as examples -/

/-- A one-set, four-way Partitioned-LRU cache of a two-thread machine, filled
by thread 1 (three blocks) and then thread 0 (one block) through
`cache_replace_block`, `cache_set_block` and `cache_access_block`, then given
the quotas `assigned_ways = [q0, q1]`. -/
def plru_filled_example (q0 q1 : Int) : Option cache_t :=
  let t0 : mod_client_info_t := ⟨0, 0⟩
  let t1 : mod_client_info_t := ⟨0, 1⟩
  let fill := fun (c : cache_t) (ci : mod_client_info_t) (tag : Int) =>
    (cache_replace_block 1 2 c 0 ci 0).bind fun r =>
      (cache_set_block 1 2 r.1 0 r.2.toNat tag 1 (some ci)).bind fun c1 =>
        cache_access_block c1 0 r.2.toNat
  (cache_create 1 64 4 cache_policy_partitioned_lru).bind fun c0 =>
    (fill c0 t1 0).bind fun c1 =>
      (fill c1 t1 64).bind fun c2 =>
        (fill c2 t1 128).bind fun c3 =>
          (fill c3 t0 192).map fun c4 =>
            { c4 with assigned_ways := fun t => if t = 0 then q0 else if t = 1 then q1 else -1 }

/-- The cache `plru_filled_example` with the quotas `assigned_ways = [1, 3]`. -/
def plru_quota_example : Option cache_t := plru_filled_example 1 3

/-- What the examples show of set 0 of a four-way cache: owner and state of
each way, the quotas of threads 0 and 1, and the recency list. -/
def plru_view (c : cache_t) : List (Int × Int) × Int × Int × List Nat :=
  ((List.range 4).map fun (w : Nat) =>
      (((c.sets 0).blocks w).thread_id, ((c.sets 0).blocks w).state),
    c.assigned_ways 0, c.assigned_ways 1, cache_waylist 4 (c.sets 0))

/-- The accesses A, B, C, D, A to a one-set cache with 64-byte blocks: the
addresses 256, 320, 384, 448, 256, each filled in state 4 (exclusive). -/
def accesses_ABCDA : List (Nat × Int) := [(256, 4), (320, 4), (384, 4), (448, 4), (256, 4)]

/-- The miss on E (address 512) after `accesses_ABCDA` on a fresh one-set,
four-way cache: what `cache_find_block` returns for E, the way
`cache_replace_block` returns, and the tag that way holds. -/
def miss_on_E (policy : cache_policy_t) (access_after_fill : Bool) : Option (Int × Int × Int) :=
  (cache_create 1 64 4 policy).bind fun c0 =>
    (cache_access_run 1 1 access_after_fill ⟨0, 0⟩ 0 c0 accesses_ABCDA).bind fun r =>
      (cache_replace_block 1 1 r.1 0 ⟨0, 0⟩ 0).map fun x =>
        ((cache_find_block r.1 512).ret, x.2, ((r.1.sets 0).blocks x.2.toNat).tag)

/-- A one-set, two-way LRU cache in which way 0 is given tag 64 in state 2
(modified) and then way 1 the same tag 64 in state 5 (shared). -/
def shadowed_block_cache : Option cache_t :=
  (cache_create 1 64 2 cache_policy_lru).bind fun c0 =>
    (cache_set_block 1 1 c0 0 0 64 2 none).bind fun c1 =>
      cache_set_block 1 1 c1 0 1 64 5 none

/-- On `shadowed_block_cache`: what `cache_find_block` reports for address 64,
what `cache_get_block` reads at way 1, and how address 64 decodes. -/
def shadowed_block_example : Option (cache_find_result × Option (Int × Int) × Nat × Int × Nat) :=
  shadowed_block_cache.map fun c2 =>
    (cache_find_block c2 64, cache_get_block c2 0 1, cache_decode_address c2 64)

/-- A stable insertion sort by a comparison callback, an instance of `list_sort`. -/
def list_sort_insertion (cmp : Int → Int → Int) (l : List Int) : List Int :=
  l.foldr (fun a acc => (acc.takeWhile fun b => decide (cmp b a < 0)) ++
    a :: (acc.dropWhile fun b => decide (cmp b a < 0))) []

/-- A histogram given by the list of its first counters, 0 elsewhere. -/
def atd_of_list (l : List Int) : atd_t :=
  ⟨fun i => if 0 ≤ i then l.getD i.toNat 0 else 0⟩

/-- A one-set Partitioned-LRU cache of `assoc` ways with 64-byte blocks, as
`cache_create` builds it, full and shared evenly by the threads `0 .. n - 1`. -/
def example_cache (assoc n : Nat) : cache_t :=
  { num_sets := 1
    block_size := 64
    assoc := assoc
    policy := cache_policy_partitioned_lru
    sets := fun _ =>
      { way_head := 0
        way_tail := assoc - 1
        blocks := fun way => cache_create_block assoc way }
    block_mask := 63
    log_block_size := 6
    assigned_ways := fun _ => -1
    used_ways := fun t => if 0 ≤ t ∧ t < (n : Int) then ((assoc / n : Nat) : Int) else 0
    used_ways_in_set := fun _ => 0 }

/-- A module over `example_cache assoc n` with the reachable threads
`0 .. n - 1`, thread `i` with the histogram `hs[i]`. -/
def example_mod (assoc n : Nat) (hs : List (List Int)) : mod_t :=
  { cache := example_cache assoc n
    reachable_threads := fun t => decide (0 ≤ t ∧ t < (n : Int))
    num_reachable_threads := n
    atd_per_thread := fun t =>
      if 0 ≤ t ∧ t < (n : Int) then some (atd_of_list (hs.getD t.toNat [])) else none }

/-- The quotas of threads `0 .. n - 1` after `ucp_create` and one call of
`ucp_repartition` on `example_mod assoc hs.length hs`. -/
def ucp_example (assoc : Nat) (hs : List (List Int)) : Option (List Int) :=
  (ucp_create 1 hs.length (example_mod assoc hs.length hs)).bind fun u =>
    (ucp_repartition 1 hs.length u).map fun u1 =>
      (List.range hs.length).map fun (i : Nat) => u1.mod.cache.assigned_ways i

/-- The state of UCP on `example_mod 4 2` with the histograms `[10, 5, 1, 0]`
and `[1, 1, 1, 1]`, before any repartitioning. -/
def ucp_fresh_example : ucp_t :=
  { mod := example_mod 4 2 [[10, 5, 1, 0], [1, 1, 1, 1]]
    ways_req := fun _ => 0
    max_mu := fun _ => double.ofInt 0 }

/-- A call of `fcp_repartition` on a machine with two hardware threads: cycle
`c`, time past the warm-up threshold, 1000 committed micro-instructions per
thread and `p0`, `p1` interthread penalty cycles, so that the individual
speedups are `(c - p0) / c` and `(c - p1) / c`; each thread holds 2 blocks of
the cache. -/
def call_two (c p0 p1 : Int) : esim_t × (Int → Int) :=
  ({ esim_cycle := c
     esim_time := FCP_TIME_TH + c
     threads := fun t => if t = 0 then ⟨1000, p0⟩ else ⟨1000, p1⟩ },
   fun t => if 0 ≤ t ∧ t < 2 then 2 else 0)

/-- What the examples show of an FCP controller: state, state counter,
remaining backoff and the quotas of threads 0 and 1. -/
def fcp_view (f : fcp_t) : fcp_state_t × Int × Int × Int × Int :=
  (f.state, f.state_counter, f.backoff, f.mod.cache.assigned_ways 0, f.mod.cache.assigned_ways 1)

/-- The state `fcp_create` builds on the two-thread, four-way example cache,
without pairing. -/
def fcp_fresh_example : fcp_t :=
  fcp_create 1 2 (example_mod 4 2 []) thread_pairing_policy_none 0

/-- The views after each prefix of a sequence of calls to `fcp_repartition`
(insertion sort for `list_sort`) from `fcp_fresh_example`. -/
def fcp_example_views (calls : List (esim_t × (Int → Int))) :
    List (Option (fcp_state_t × Int × Int × Int × Int)) :=
  (List.range (calls.length + 1)).map fun (k : Nat) =>
    (fcp_run list_sort_insertion 1 2 fcp_fresh_example (calls.take k)).map fcp_view

/-- Ten calls on the two-thread machine: the unfairness is 1, 1, 1.1, 1.3 in
the first four calls and 1 afterwards. -/
def fcp_calls_example : List (esim_t × (Int → Int)) :=
  [call_two 1000 0 0, call_two 2000 0 0, call_two 3300 0 300, call_two 5200 0 1200,
   call_two 6000 0 0, call_two 7000 0 0, call_two 8000 0 0, call_two 9000 0 0,
   call_two 10000 0 0, call_two 11000 0 0]

/-- The controller after the first three calls of `fcp_calls_example`: in state
ON, with the unfairness values 1 and 1.1 in its history. -/
def fcp_on_example : fcp_t :=
  (fcp_run list_sort_insertion 1 2 fcp_fresh_example (fcp_calls_example.take 3)).getD
    fcp_fresh_example

/-- Four calls on the two-thread machine in which the unfairness is 1, 50, 51
and 53. -/
def fcp_boundary_calls : List (esim_t × (Int → Int)) :=
  [call_two 1000 0 0, call_two 5000 0 4900, call_two 5100 0 5000, call_two 5300 0 5200]

/-- The unfairness a call of `fcp_repartition` computes, as a fraction. -/
def fcp_unfairness_value (fcp : fcp_t) (call : esim_t × (Int → Int)) : Option (Int × Nat) :=
  (fcp_unfairness list_sort_insertion 2 call.1 (fcp.with_used_ways call.2)).map
    fun r => (r.2.2.2.num, r.2.2.2.den)

/-- A call of `fcp_repartition` on a machine with four hardware threads: cycle
`c`, time past the warm-up threshold, 1000 committed micro-instructions per
thread, the interthread penalty cycles 0, 1, 2 and `p3`, so that thread 3 is
the slowest and thread 0 the fastest; the threads hold 2, 2, 2 and 1 blocks of
the one-set, seven-way cache. -/
def call_four (c p3 : Int) : esim_t × (Int → Int) :=
  ({ esim_cycle := c
     esim_time := FCP_TIME_TH + c
     threads := fun t => if t = 0 then ⟨1000, 0⟩ else if t = 1 then ⟨1000, 1⟩
       else if t = 2 then ⟨1000, 2⟩ else ⟨1000, p3⟩ },
   fun t => if 0 ≤ t ∧ t < 3 then 2 else if t = 3 then 1 else 0)

/-- Nine calls on the four-thread machine: the unfairness is 10/9, 10/9, 5/4
and 5/3 in the first four calls and 10/9 afterwards. -/
def fcp_pairing_calls : List (esim_t × (Int → Int)) :=
  [call_four 1000 100, call_four 2000 200, call_four 3000 600, call_four 4000 1600,
   call_four 5000 500, call_four 6000 600, call_four 7000 700, call_four 8000 800,
   call_four 9000 900]

/-- What the four-thread examples show of an FCP controller: state, remaining
backoff, the quotas of threads 0 to 3 and their sum. -/
def fcp_view_four (f : fcp_t) : fcp_state_t × Int × List Int × Int :=
  (f.state, f.backoff,
    (List.range 4).map (fun (i : Nat) => f.mod.cache.assigned_ways i),
    sum_assigned_ways 4 f.mod)

/-- The views after each prefix of `fcp_pairing_calls` from the state
`fcp_create` builds on a one-set, seven-way cache with four reachable threads,
with the pairing policy `policy` and the pairing interval 1 (a combination
the configuration accepts for the policies `minmax`, `sec` and `mix`). -/
def fcp_pairing_example_views (policy : thread_pairing_policy_t) :
    List (Option (fcp_state_t × Int × List Int × Int)) :=
  (List.range (fcp_pairing_calls.length + 1)).map fun (k : Nat) =>
    (fcp_run list_sort_insertion 1 4
      (fcp_create 1 4 (example_mod 7 4 []) policy 1)
      (fcp_pairing_calls.take k)).map fcp_view_four

/-- A call of `fcp_repartition` on a machine with one hardware thread: cycle
`c`, time past the warm-up threshold, 1000 committed micro-instructions and no
interthread penalty cycles; the thread holds all 4 blocks of the cache. -/
def call_one (c : Int) : esim_t × (Int → Int) :=
  ({ esim_cycle := c
     esim_time := FCP_TIME_TH + c
     threads := fun _ => ⟨1000, 0⟩ },
   fun t => if t = 0 then 4 else 0)

/-- The controller without pairing on a one-set, four-way cache with a single
reachable thread, after the first call of `fcp_repartition`, which turns it ON
and gives the thread all four ways. -/
def fcp_single_example : fcp_t :=
  (fcp_run list_sort_insertion 1 1
    (fcp_create 1 1 (example_mod 4 1 []) thread_pairing_policy_none 0) [call_one 1000]).getD
    (fcp_create 1 1 (example_mod 4 1 []) thread_pairing_policy_none 0)

/-- The controller of the two-thread example after the first call of
`fcp_calls_example`: in state ON with three ways for thread 0 and one way for
thread 1. -/
def fcp_entered_example : fcp_t :=
  (fcp_run list_sort_insertion 1 2 fcp_fresh_example (fcp_calls_example.take 1)).getD
    fcp_fresh_example

/-- The first `assoc` counters of the histogram of each thread `0 .. n - 1`
after `ucp_create` and one call of `ucp_repartition` on
`example_mod assoc hs.length hs`. -/
def ucp_histograms_example (assoc : Nat) (hs : List (List Int)) : Option (List (List Int)) :=
  (ucp_create 1 hs.length (example_mod assoc hs.length hs)).bind fun u =>
    (ucp_repartition 1 hs.length u).map fun u1 =>
      (List.range hs.length).map fun (t : Nat) =>
        match u1.mod.atd_per_thread t with
        | none => []
        | some atd => (List.range assoc).map fun (i : Nat) => atd.stack_distance_counters i

/-- The state of `ucp_fresh_example` at the first iteration of the allocation
loop: one way for each of the two threads, the balance is 2. -/
def ucp_seeded_example : ucp_t := (ucp_seed 2 ucp_fresh_example 4).1

/-- The state `ucp_fresh_example` on a cache that is not warmed up: each of the
two threads holds one block of the four-way cache. -/
def ucp_cold_example : ucp_t :=
  { ucp_fresh_example with
    mod := { ucp_fresh_example.mod with
      cache := { ucp_fresh_example.mod.cache with used_ways := fun _ => 1 } } }

/-- A call of `fcp_repartition` on a machine with four hardware threads: cycle
`c`, time past the warm-up threshold, 1000 committed micro-instructions per
thread and the interthread penalty cycles `p0`, `p1`, `p2`, `p3`; each thread
holds 2 blocks of the one-set, eight-way cache. -/
def call_four_penalties (c p0 p1 p2 p3 : Int) : esim_t × (Int → Int) :=
  ({ esim_cycle := c
     esim_time := FCP_TIME_TH + c
     threads := fun t => if t = 0 then ⟨1000, p0⟩ else if t = 1 then ⟨1000, p1⟩
       else if t = 2 then ⟨1000, p2⟩ else ⟨1000, p3⟩ },
   fun t => if 0 ≤ t ∧ t < 4 then 2 else 0)

/-- What the pairing examples show of an FCP controller: state, the pairs and
the quotas of threads 0 to 3. -/
def fcp_view_pairs (f : fcp_t) : fcp_state_t × List (Int × Int × Int) × List Int :=
  (f.state, f.pairing_pairs.map (fun p => (p.id1, p.id2, p.ways)),
    (List.range 4).map (fun (i : Nat) => f.mod.cache.assigned_ways i))

/-- The state of UCP on `example_mod 4 2` when both histograms are zero,
before any repartitioning. -/
def ucp_zero_example : ucp_t :=
  { mod := example_mod 4 2 [[0, 0, 0, 0], [0, 0, 0, 0]]
    ways_req := fun _ => 0
    max_mu := fun _ => double.ofInt 0 }

/-! ## cache-partitioning.c -/

/-- Modelled from the spec: `enum interval_kind_t` is declared in
`lib/util/interval-kind.h`, which is not among the sources.  The handler names
the cycle-, instruction- and eviction-based kinds; the value 0 is no kind
(`assert(cache->partitioning.interval_kind)`). -/
inductive interval_kind_t
  | interval_kind_invalid
  | interval_kind_cycles
  | interval_kind_instructions
  | interval_kind_evictions
  deriving DecidableEq, Repr

open interval_kind_t

/-- The structure `struct cache_partitioning_t` around the state `P` of a
partitioning algorithm; the module and the callbacks are arguments of the
handler. -/
structure cache_partitioning_t (P : Type) where
  partitioning : P
  last_esim_cycle : Int
  last_uinsts : Int
  last_evictions : Int
  backoff : Int

/-- What `cache_partitioning_handler` reads from the simulator and the module:
`esim_cycle()`, `esim_finish`, the interval of the cache, the reachable
threads, `num_committed_uinst` of each core, `mod->evictions`, and whether a
hardware thread has a context. -/
structure partitioning_env where
  esim_cycle : Int
  esim_finish : Int
  interval_kind : interval_kind_t
  interval : Int
  reachable_threads : Int → Bool
  core_num_committed_uinst : Int → Int
  evictions : Int
  thread_ctx : Int → Bool

/-- The calls `cache_partitioning_handler` makes, in the order it makes them. -/
inductive partitioning_event
  | execute_callback
  | x86_ctx_interval_report (thread_id : Int)
  | mod_interval_report
  | esim_schedule_event (after : Int)
  | free_callback
  deriving DecidableEq, Repr

open partitioning_event

/-- A `double` in a condition: true unless it is zero. -/
def double.nonzero (a : double) : Prop := a.den = 0 ∨ a.num ≠ 0

instance (a : double) : Decidable a.nonzero := by
  unfold double.nonzero
  infer_instance

/-- The conversion of a `double` to `int`: the fraction is discarded; the
conversion of a value that is not a number or is outside the range of `int` is
undefined in C, `none` here. -/
def double.to_int (a : double) : Option Int :=
  if a.den = 0 then none
  else
    let t := Int.tdiv a.num (a.den : Int)
    if -(2 : Int) ^ 31 ≤ t ∧ t < (2 : Int) ^ 31 then some t else none

/-- The constant `def_backoff` of `cache_partitioning_handler`. -/
def def_backoff : Int := 10000

/-- The constant `min_backoff` of `cache_partitioning_handler`. -/
def min_backoff : Int := 100

/-- The constant `max_backoff` of `cache_partitioning_handler`. -/
def max_backoff : Int := 500000

/-- The prediction of the next interval in `cache_partitioning_handler`, the
same for `METRIC` the micro-instructions or the evictions of the interval:
`METRIC_PER_CYCLE = cycles_int ? (double) METRIC / cycles_int : 0.0`, then
`backoff = METRIC_PER_CYCLE ? 0.75 * (interval - METRIC) / METRIC_PER_CYCLE :
def_backoff` stored in an `int`, then `MAX(backoff, min_backoff)` and
`MIN(backoff, max_backoff)`.  Every conversion of a `long long` to `double`
and every operation on `double` is rounded with `double.fl`; the subtraction
`interval - METRIC` is one of `long long`, and 0.75 is a value of the format. -/
def cache_partitioning_backoff (interval metric cycles_int : Int) : Option Int :=
  let metric_per_cycle : double :=
    if cycles_int ≠ 0 then
      double.fl (double.div (double.fl (double.ofInt metric))
        (double.fl (double.ofInt cycles_int)))
    else double.ofInt 0
  let backoff : Option Int :=
    if metric_per_cycle.nonzero then
      double.to_int
        (double.fl (double.div
          (double.fl (double.mul ⟨3, 4⟩ (double.fl (double.ofInt (interval - metric)))))
          metric_per_cycle))
    else some def_backoff
  backoff.map fun b => min (max b min_backoff) max_backoff

/-- The loop of the handler that adds up `num_committed_uinst` of the cores
whose first thread reaches the module. -/
def cache_partitioning_uinsts (x86_cpu_num_cores x86_cpu_num_threads : Nat)
    (env : partitioning_env) : Int :=
  (List.range x86_cpu_num_cores).foldl
    (fun acc (core : Nat) =>
      if env.reachable_threads ((core : Int) * x86_cpu_num_threads) then
        acc + env.core_num_committed_uinst core
      else acc) 0

/-- The first `switch` of `cache_partitioning_handler`: the wrapper, `uinsts`
and whether the interval has finished; `none` for an invalid kind. -/
def cache_partitioning_interval {P : Type} (x86_cpu_num_cores x86_cpu_num_threads : Nat)
    (env : partitioning_env) (wrapper : cache_partitioning_t P) :
    Option (cache_partitioning_t P × Int × Bool) :=
  let cycles_int := env.esim_cycle - wrapper.last_esim_cycle
  match env.interval_kind with
  | interval_kind_cycles => some (wrapper, 0, true)
  | interval_kind_instructions =>
    let uinsts := cache_partitioning_uinsts x86_cpu_num_cores x86_cpu_num_threads env
    let uinsts_int := uinsts - wrapper.last_uinsts
    (cache_partitioning_backoff env.interval uinsts_int cycles_int).map fun b =>
      ({ wrapper with backoff := b }, uinsts, decide (¬ uinsts_int < env.interval))
  | interval_kind_evictions =>
    let evictions_int := env.evictions - wrapper.last_evictions
    (cache_partitioning_backoff env.interval evictions_int cycles_int).map fun b =>
      ({ wrapper with backoff := b }, 0, decide (¬ evictions_int < env.interval))
  | interval_kind_invalid => none

/-- The reports of the handler: one for every reachable hardware thread that
has a context, then one for the module. -/
def cache_partitioning_reports (x86_cpu_num_cores x86_cpu_num_threads : Nat)
    (env : partitioning_env) : List partitioning_event :=
  (((List.range (x86_cpu_num_cores * x86_cpu_num_threads)).filter
      (fun (thread_id : Nat) =>
        env.reachable_threads (thread_id : Int) && env.thread_ctx (thread_id : Int))).map
    (fun (thread_id : Nat) => x86_ctx_interval_report (thread_id : Int))) ++
  [mod_interval_report]

/-- The second `switch` of the handler: the values stored for the next
interval. -/
def cache_partitioning_store {P : Type} (env : partitioning_env)
    (wrapper : cache_partitioning_t P) (uinsts : Int) : Option (cache_partitioning_t P) :=
  match env.interval_kind with
  | interval_kind_cycles => some { wrapper with last_esim_cycle := env.esim_cycle }
  | interval_kind_instructions => some { wrapper with last_uinsts := uinsts }
  | interval_kind_evictions => some { wrapper with last_evictions := env.evictions }
  | interval_kind_invalid => none

/-- The label `schedule_next_event` of the handler. -/
def cache_partitioning_schedule_next {P : Type} (env : partitioning_env)
    (wrapper : cache_partitioning_t P) : List partitioning_event :=
  if env.esim_finish = 0 then
    [esim_schedule_event
      (if env.interval_kind = interval_kind_cycles then env.interval else wrapper.backoff)]
  else [free_callback]

/-- The function `cache_partitioning_handler`: the wrapper after the event and
the calls made; `execute_callback` returns `none` when the algorithm aborts. -/
def cache_partitioning_handler {P : Type} (x86_cpu_num_cores x86_cpu_num_threads : Nat)
    (execute_callback : P → Option P) (env : partitioning_env)
    (wrapper : cache_partitioning_t P) :
    Option (cache_partitioning_t P × List partitioning_event) :=
  match cache_partitioning_interval x86_cpu_num_cores x86_cpu_num_threads env wrapper with
  | none => none
  | some (w1, _, false) => some (w1, cache_partitioning_schedule_next env w1)
  | some (w1, uinsts, true) =>
    match execute_callback w1.partitioning with
    | none => none
    | some p =>
      match cache_partitioning_store env { w1 with partitioning := p } uinsts with
      | none => none
      | some w2 =>
        some (w2,
          partitioning_event.execute_callback ::
            (cache_partitioning_reports x86_cpu_num_cores x86_cpu_num_threads env ++
              cache_partitioning_schedule_next env w2))

/-- The `METRIC` of the interval at a firing of the handler: the
micro-instructions committed, or the evictions, since the values stored at the
last finished interval; 0 for a cycle-based interval. -/
def cache_partitioning_metric {P : Type} (x86_cpu_num_cores x86_cpu_num_threads : Nat)
    (env : partitioning_env) (wrapper : cache_partitioning_t P) : Int :=
  match env.interval_kind with
  | interval_kind_instructions =>
    cache_partitioning_uinsts x86_cpu_num_cores x86_cpu_num_threads env - wrapper.last_uinsts
  | interval_kind_evictions => env.evictions - wrapper.last_evictions
  | _ => 0

/-- The interval has finished: it is cycle-based, or its metric has reached the
configured interval. -/
def cache_partitioning_elapsed {P : Type} (x86_cpu_num_cores x86_cpu_num_threads : Nat)
    (env : partitioning_env) (wrapper : cache_partitioning_t P) : Prop :=
  env.interval_kind = interval_kind_cycles ∨
    ¬ cache_partitioning_metric x86_cpu_num_cores x86_cpu_num_threads env wrapper < env.interval

instance {P : Type} (x86_cpu_num_cores x86_cpu_num_threads : Nat) (env : partitioning_env)
    (wrapper : cache_partitioning_t P) :
    Decidable (cache_partitioning_elapsed x86_cpu_num_cores x86_cpu_num_threads env wrapper) := by
  unfold cache_partitioning_elapsed
  infer_instance

/-- The observed rate `metric / cycles_int`, a `double`. -/
def cache_partitioning_rate (metric cycles_int : Int) : double :=
  double.fl (double.div (double.fl (double.ofInt metric)) (double.fl (double.ofInt cycles_int)))

/-- The estimate `0.75 * (interval - metric) / rate`, evaluated from the left
in the arithmetic of `double` (each result rounded to the format), with its
fraction discarded; `def_backoff` when the rate is 0, that is when no cycle
has passed or the metric is 0. -/
def cache_partitioning_estimate (interval metric cycles_int : Int) : Int :=
  if cycles_int = 0 ∨ metric = 0 then def_backoff
  else
    let estimate : double :=
      double.fl (double.div
        (double.fl (double.mul ⟨3, 4⟩ (double.fl (double.ofInt (interval - metric)))))
        (cache_partitioning_rate metric cycles_int))
    Int.tdiv estimate.num (estimate.den : Int)

/-- The same estimate in exact arithmetic: the whole part of
`0.75 * (interval - metric) * cycles_int / metric`. -/
def cache_partitioning_exact_estimate (interval metric cycles_int : Int) : Int :=
  if cycles_int = 0 ∨ metric = 0 then def_backoff
  else Int.tdiv (3 * (interval - metric) * cycles_int) (4 * metric)

/-- The event is a call of `esim_schedule_event`. -/
def partitioning_event.is_schedule : partitioning_event → Bool
  | esim_schedule_event _ => true
  | _ => false

/-! ## Examples for the handler -/

/-- A firing of the handler at cycle 3 on a machine with one core of two
threads, both reaching the module and both with a context: the interval is
1000 of the given kind, the core has committed `uinsts` micro-instructions and
the module has evicted `evictions` blocks. -/
def handler_env_example (kind : interval_kind_t) (esim_finish uinsts evictions : Int) :
    partitioning_env :=
  { esim_cycle := 3
    esim_finish := esim_finish
    interval_kind := kind
    interval := 1000
    reachable_threads := fun t => decide (0 ≤ t ∧ t < 2)
    core_num_committed_uinst := fun c => if c = 0 then uinsts else 0
    evictions := evictions
    thread_ctx := fun _ => true }

/-- The same machine at cycle 77, with an instruction-based interval of 1000
and 8 micro-instructions committed. -/
def handler_env_rounding_example : partitioning_env :=
  { handler_env_example interval_kind_instructions 0 8 0 with esim_cycle := 77 }

/-- A wrapper as `cache_partitioning_create` leaves it (the memory comes zeroed
from `xcalloc`), around an algorithm whose state is a counter. -/
def handler_wrapper_example : cache_partitioning_t Nat :=
  { partitioning := 0, last_esim_cycle := 0, last_uinsts := 0, last_evictions := 0, backoff := 0 }

/-- An algorithm that counts its invocations. -/
def handler_execute_example (n : Nat) : Option Nat := some (n + 1)

/-- What the examples show of a firing: the state of the algorithm, the three
values stored for the next interval, `backoff`, and the calls made. -/
def handler_view (r : cache_partitioning_t Nat × List partitioning_event) :
    Nat × List Int × List partitioning_event :=
  (r.1.partitioning, [r.1.last_esim_cycle, r.1.last_uinsts, r.1.last_evictions, r.1.backoff],
    r.2)

/-! ## Examples for FCP with pairing -/

/-- The controller with the pairing policy `nearest` and the pairing interval
0 (the pairs are made once) on a one-set, eight-way cache with four reachable
threads, after a first call of `fcp_repartition` in which thread 3 is the
slowest and thread 0 the fastest: it is ON, the pairs are (3, 2) and (1, 0)
with 4 ways each, and the quotas of threads 0 to 3 are 1, 3, 1, 3. -/
def fcp_paired_example : fcp_t :=
  (fcp_run list_sort_insertion 1 4
    (fcp_create 1 4 (example_mod 8 4 [])
      thread_pairing_policy_t.thread_pairing_policy_nearest 0)
    [call_four_penalties 1000 0 100 200 300]).getD
    (fcp_create 1 4 (example_mod 8 4 [])
      thread_pairing_policy_t.thread_pairing_policy_nearest 0)

/-! ## Examples for the cache -/

/-- A cache of two sets and two ways with 64-byte blocks and the given policy,
as `cache_create` builds it. -/
def two_set_cache (policy : cache_policy_t) : cache_t :=
  { num_sets := 2
    block_size := 64
    assoc := 2
    policy := policy
    sets := fun _ =>
      { way_head := 0
        way_tail := 1
        blocks := fun way => cache_create_block 2 way }
    block_mask := 63
    log_block_size := 6
    assigned_ways := fun _ => -1
    used_ways := fun _ => 0
    used_ways_in_set := fun _ => 0 }

/-- Calls of `cache_replace_block` and `cache_access_block` on the two sets of
`two_set_cache`, for the threads 0 and 1 of core 0. -/
def lru_ops_example : List cache_op :=
  [cache_op.replace_block 0 ⟨0, 0⟩ 0, cache_op.access_block 0 0,
   cache_op.replace_block 0 ⟨0, 1⟩ 0, cache_op.replace_block 1 ⟨0, 0⟩ 0,
   cache_op.access_block 1 1, cache_op.access_block 1 0]

/-- What the examples show of a run on `two_set_cache`: the ways returned and
the recency lists of the two sets. -/
def run_ways_view (r : cache_t × List Int) : List Int × List Nat × List Nat :=
  (r.2, cache_waylist 2 (r.1.sets 0), cache_waylist 2 (r.1.sets 1))

/-- Two calls of `ucp_repartition` on `example_mod 4 2`: each thread holds 2
blocks of the cache; the histograms are `[10, 5, 1, 0]` and `[1, 1, 1, 1]` at
the first call, `[0, 0, 0, 0]` and `[3, 2, 1, 0]` at the second. -/
def ucp_calls_example : List ((Int → Int) × (Int → Option atd_t)) :=
  [((example_cache 4 2).used_ways,
      (example_mod 4 2 [[10, 5, 1, 0], [1, 1, 1, 1]]).atd_per_thread),
   ((example_cache 4 2).used_ways,
      (example_mod 4 2 [[0, 0, 0, 0], [3, 2, 1, 0]]).atd_per_thread)]


/-- A one-set, four-way Partitioned-LRU cache with 64-byte blocks, every way
`w` valid and owned by the thread `owners[w]`, way 0 the most recently used and
way 3 the least recently used, with the quotas `assigned_ways = [q0, q1]` for
the threads 0 and 1. -/
def plru_owned_example (owners : List Int) (q0 q1 : Int) : cache_t :=
  { example_cache 4 2 with
    sets := fun _ =>
      { way_head := 0
        way_tail := 3
        blocks := fun way =>
          { cache_create_block 4 way with
            tag := 64 * (way : Int)
            state := 1
            thread_id := owners.getD way (-1) } }
    assigned_ways := fun t => if t = 0 then q0 else if t = 1 then q1 else -1 }

/-- The controller `fcp_paired_example`, with the pairs of threads (3, 2) and
(1, 0) and a budget of 4 ways each, when the quotas are 4, 2, 1 and 1: the
pair (1, 0) holds 6 ways and the pair (3, 2) holds 2. -/
def fcp_unbalanced_example : fcp_t :=
  fcp_paired_example.with_assigned_ways
    (fun t => if t = 0 then 4 else if t = 1 then 2 else 1)

/-- The controller of the two-thread, four-way example when thread 0 holds the
four blocks of the cache and thread 1 none: the seeding loop gives 4 ways to
thread 0 and 1 way to thread 1, and leaves `ways = -1`. -/
def fcp_skewed_example : fcp_t :=
  fcp_fresh_example.with_used_ways (fun t => if t = 0 then 4 else 0)

/-- The controller `fcp_paired_example` with the pairing policy changed to
`mix`: the list of threads is 3, 2, 1, 0, in ascending order of individual
speedup, and the pairs (3, 2) and (1, 0) are left from the pairing before. -/
def fcp_mix_example : fcp_t :=
  { fcp_paired_example with
    pairing_policy := thread_pairing_policy_t.thread_pairing_policy_mix }

/-- The state of UCP on `example_mod 4 2` with the histogram `[1, 1, 1, 1]` for
both threads, at the first iteration of the allocation loop: one way for each
thread, the balance is 2, and every increment of every thread has the marginal
utility 1. -/
def ucp_tie_example : ucp_t :=
  (ucp_seed 2
    { mod := example_mod 4 2 [[1, 1, 1, 1], [1, 1, 1, 1]]
      ways_req := fun _ => 0
      max_mu := fun _ => double.ofInt 0 } 4).1

/-! ## Examples for the blocks without owner -/

/-- What the examples show of set 0 of a three-way cache: the recency list,
owner and state of each way, and the way at the tail. -/
def plru_set_view (c : cache_t) : List Nat × List (Int × Int) × Nat :=
  (cache_waylist 3 (c.sets 0),
    (List.range 3).map (fun (w : Nat) =>
      (((c.sets 0).blocks w).thread_id, ((c.sets 0).blocks w).state)),
    (c.sets 0).way_tail)

/-- Calls on a one-set, three-way cache in which every fill is on the way the
last `cache_replace_block` returned, and the second of three replacements is
not followed by a fill. -/
def plru_unfilled_ops : List cache_op :=
  [cache_op.replace_block 0 ⟨0, 0⟩ 0, cache_op.set_block 0 2 64 1 (some ⟨0, 0⟩),
   cache_op.replace_block 0 ⟨0, 0⟩ 0, cache_op.replace_block 0 ⟨0, 0⟩ 0,
   cache_op.set_block 0 0 128 1 (some ⟨0, 0⟩)]

/-- Calls on a one-set, three-way cache in which every fill is on the way the
last `cache_replace_block` returned, and `cache_access_block` is called on way
1, which was never filled. -/
def plru_early_access_ops : List cache_op :=
  [cache_op.replace_block 0 ⟨0, 0⟩ 0, cache_op.set_block 0 2 64 1 (some ⟨0, 0⟩),
   cache_op.access_block 0 1, cache_op.replace_block 0 ⟨0, 0⟩ 0,
   cache_op.set_block 0 0 128 1 (some ⟨0, 0⟩)]

/-- Events on a one-set, three-way cache of a machine with one core and two
threads: two misses of thread 0, quotas of one way for each thread, a hit on
way 2, a miss of thread 1 filled through the transient tag and then written,
and a miss of thread 1. -/
def plru_events_example : List plru_event :=
  [plru_event.miss 0 ⟨0, 0⟩ 0 false 64 1, plru_event.miss 0 ⟨0, 0⟩ 0 false 128 1,
   plru_event.quotas (fun _ => 1), plru_event.access 0 2,
   plru_event.miss 0 ⟨0, 1⟩ 0 true 192 0, plru_event.refill 0 0 192 1 ⟨0, 1⟩,
   plru_event.miss 0 ⟨0, 1⟩ 0 false 256 1]

/-! ## The recency list: representation lemmas -/

set_option linter.unusedTactic false
set_option linter.unreachableTactic false
set_option linter.unusedVariables false

@[simp] theorem set_way_prev_way_head (s : cache_set_t) (w : Nat) (v : Option Nat) :
    (s.set_way_prev w v).way_head = s.way_head := rfl

@[simp] theorem set_way_prev_way_tail (s : cache_set_t) (w : Nat) (v : Option Nat) :
    (s.set_way_prev w v).way_tail = s.way_tail := rfl

@[simp] theorem set_way_next_way_head (s : cache_set_t) (w : Nat) (v : Option Nat) :
    (s.set_way_next w v).way_head = s.way_head := rfl

@[simp] theorem set_way_next_way_tail (s : cache_set_t) (w : Nat) (v : Option Nat) :
    (s.set_way_next w v).way_tail = s.way_tail := rfl

theorem set_way_prev_blocks (s : cache_set_t) (w : Nat) (v : Option Nat) (a : Nat) :
    (s.set_way_prev w v).blocks a =
      if a = w then { s.blocks w with way_prev := v } else s.blocks a := by
  simp [cache_set_t.set_way_prev, Function.update_apply]

theorem set_way_next_blocks (s : cache_set_t) (w : Nat) (v : Option Nat) (a : Nat) :
    (s.set_way_next w v).blocks a =
      if a = w then { s.blocks w with way_next := v } else s.blocks a := by
  simp [cache_set_t.set_way_next, Function.update_apply]


theorem same_payload_refl (b : cache_block_t) : same_payload b b :=
  ⟨rfl, rfl, rfl, rfl, rfl, rfl⟩

theorem same_payload_trans {a b c : cache_block_t} (h1 : same_payload a b)
    (h2 : same_payload b c) : same_payload a c := by
  refine ⟨h2.1.trans h1.1, h2.2.1.trans h1.2.1, h2.2.2.1.trans h1.2.2.1, ?_, ?_, ?_⟩
  · exact h2.2.2.2.1.trans h1.2.2.2.1
  · exact h2.2.2.2.2.1.trans h1.2.2.2.2.1
  · exact h2.2.2.2.2.2.trans h1.2.2.2.2.2

theorem set_way_prev_payload (s : cache_set_t) (w : Nat) (v : Option Nat) (a : Nat) :
    same_payload (s.blocks a) ((s.set_way_prev w v).blocks a) := by
  rw [set_way_prev_blocks]
  split_ifs with h
  · subst h; exact ⟨rfl, rfl, rfl, rfl, rfl, rfl⟩
  · exact same_payload_refl _

theorem set_way_next_payload (s : cache_set_t) (w : Nat) (v : Option Nat) (a : Nat) :
    same_payload (s.blocks a) ((s.set_way_next w v).blocks a) := by
  rw [set_way_next_blocks]
  split_ifs with h
  · subst h; exact ⟨rfl, rfl, rfl, rfl, rfl, rfl⟩
  · exact same_payload_refl _

theorem way_chain_append (b : Nat → cache_block_t) (l1 l2 : List Nat) (p n : Option Nat) :
    way_chain b p (l1 ++ l2) n ↔
      way_chain b p l1 ((l2.head?).or n) ∧ way_chain b ((l1.getLast?).or p) l2 n := by
  induction l1 generalizing p with
  | nil => simp [way_chain]
  | cons a t ih =>
    cases t with
    | nil =>
      cases l2 <;> simp [way_chain]
      tauto
    | cons c t =>
      have := ih (some a)
      simp only [List.cons_append, way_chain, List.head?_cons, Option.or_some] at this ⊢
      rw [this]
      simp [List.getLast?_cons_cons]
      tauto

/-- Rewriting the two boundary links of a chain, every other link kept. -/
theorem way_chain_rebound {b b' : Nat → cache_block_t} {l : List Nat} {p n p' n' : Option Nat}
    (hl : l.Nodup) (hc : way_chain b p l n)
    (hp : ∀ a ∈ l, (b' a).way_prev = if l.head? = some a then p' else (b a).way_prev)
    (hn : ∀ a ∈ l, (b' a).way_next = if l.getLast? = some a then n' else (b a).way_next) :
    way_chain b' p' l n' := by
  induction l generalizing p p' with
  | nil => trivial
  | cons a t ih =>
    obtain ⟨h1, h2, h3⟩ := hc
    have hat : a ∉ t := (List.nodup_cons.1 hl).1
    have ht : t.Nodup := (List.nodup_cons.1 hl).2
    refine ⟨?_, ?_, ?_⟩
    · simpa using hp a (List.mem_cons_self _ _)
    · have := hn a (List.mem_cons_self _ _)
      cases t with
      | nil => simpa using this
      | cons c t =>
        rw [List.getLast?_cons_cons] at this
        have hne : (c :: t).getLast? ≠ some a := by
          intro h
          exact hat (List.mem_of_getLast?_eq_some h)
        rw [if_neg hne] at this
        rw [this, h2]
        simp
    · refine ih ht h3 ?_ ?_
      · intro c hc
        have hca : a ≠ c := fun h => hat (h ▸ hc)
        have := hp c (List.mem_cons_of_mem _ hc)
        simp only [List.head?_cons, Option.some.injEq, hca, if_false] at this
        rw [this]
        split_ifs with hh
        · cases t with
          | nil => cases hc
          | cons d t =>
            simp only [List.head?_cons, Option.some.injEq] at hh
            subst hh
            exact h3.1
        · rfl
      · intro c hc
        have := hn c (List.mem_cons_of_mem _ hc)
        cases t with
        | nil => cases hc
        | cons d t =>
          rw [List.getLast?_cons_cons] at this
          exact this

theorem way_chain_last {b : Nat → cache_block_t} {l : List Nat} {p n : Option Nat} {a : Nat}
    (hc : way_chain b p l n) (ha : l.getLast? = some a) : (b a).way_next = n := by
  induction l generalizing p with
  | nil => simp at ha
  | cons c t ih =>
    cases t with
    | nil =>
      simp at ha
      subst ha
      simpa using hc.2.1
    | cons d t =>
      rw [List.getLast?_cons_cons] at ha
      exact ih hc.2.2 ha

theorem way_chain_head {b : Nat → cache_block_t} {l : List Nat} {p n : Option Nat} {a : Nat}
    (hc : way_chain b p l n) (ha : l.head? = some a) : (b a).way_prev = p := by
  cases l with
  | nil => simp at ha
  | cons c t =>
    simp at ha
    subst ha
    exact hc.1

theorem set_wf_length {assoc : Nat} {s : cache_set_t} {l : List Nat} (h : set_wf assoc s l) :
    l.length = assoc := by
  have hp : l.Perm (List.range assoc) :=
    (List.perm_ext_iff_of_nodup h.1 (List.nodup_range assoc)).2 (by
      intro a
      rw [h.2.1 a, List.mem_range])
  simpa using hp.length_eq

theorem way_chain_waylist_from {b : Nat → cache_block_t} {l : List Nat} {p : Option Nat}
    (hc : way_chain b p l none) (fuel : Nat) (hf : l.length ≤ fuel) :
    cache_waylist_from b fuel l.head? = l := by
  induction l generalizing p fuel with
  | nil => cases fuel <;> simp [cache_waylist_from]
  | cons a t ih =>
    cases fuel with
    | zero => simp at hf
    | succ fuel =>
      simp only [List.head?_cons, cache_waylist_from]
      have h2 := hc.2.1
      simp only [Option.or_none] at h2
      rw [h2, ih hc.2.2 fuel (by simpa using hf)]

/-- The list read off the pointers of a well-formed set is its recency list. -/
theorem set_wf_waylist {assoc : Nat} {s : cache_set_t} {l : List Nat} (h : set_wf assoc s l) :
    cache_waylist assoc s = l := by
  unfold cache_waylist
  rw [← h.2.2.1]
  exact way_chain_waylist_from h.2.2.2.2.1 assoc (le_of_eq (set_wf_length h))

theorem set_wf_unique {assoc : Nat} {s : cache_set_t} {l l' : List Nat} (h : set_wf assoc s l)
    (h' : set_wf assoc s l') : l = l' := by
  rw [← set_wf_waylist h, ← set_wf_waylist h']

theorem getLast?_append_cons (l : List Nat) (a : Nat) (m : List Nat) :
    (l ++ a :: m).getLast? = (a :: m).getLast? := by
  rw [List.getLast?_append]
  cases h : (a :: m).getLast? with
  | none => simp at h
  | some z => rfl

theorem cache_waylist_insert_head_blocks (s : cache_set_t) (w a : Nat) :
    ((cache_waylist_insert s w cache_waylist_head).blocks a).way_prev =
        (if a = s.way_head then some w else if a = w then none else (s.blocks a).way_prev) ∧
      ((cache_waylist_insert s w cache_waylist_head).blocks a).way_next =
        (if a = w then some s.way_head else (s.blocks a).way_next) := by
  simp only [cache_waylist_insert, set_way_prev_blocks, set_way_next_blocks,
    set_way_prev_way_head, set_way_next_way_head]
  constructor <;> split_ifs <;> simp_all

theorem cache_waylist_insert_payload (s : cache_set_t) (w : Nat) (where_ : cache_waylist_enum)
    (a : Nat) : same_payload (s.blocks a) ((cache_waylist_insert s w where_).blocks a) := by
  cases where_
  · exact same_payload_trans
      (same_payload_trans (set_way_next_payload s w _ a) (set_way_prev_payload _ w _ a))
      (set_way_prev_payload _ _ _ a)
  · exact same_payload_trans
      (same_payload_trans (set_way_prev_payload s w _ a) (set_way_next_payload _ w _ a))
      (set_way_next_payload _ _ _ a)

/-- Moving a way of a well-formed set to the head: `cache_update_waylist`
passes its assertions and the recency list becomes `w :: l.erase w`. -/
theorem cache_update_waylist_head {assoc : Nat} {s : cache_set_t} {l : List Nat} {w : Nat}
    (h : set_wf assoc s l) (hw : w ∈ l) :
    ∃ s', cache_update_waylist s w cache_waylist_head = some s' ∧
      set_wf assoc s' (w :: l.erase w) ∧ ∀ a, same_payload (s.blocks a) (s'.blocks a) := by
  obtain ⟨hnd, hmem, hhead, hlast, hch, hway⟩ := h
  obtain ⟨l1, l2, rfl⟩ := List.append_of_mem hw
  have hperm : (l1 ++ w :: l2).Perm (w :: (l1 ++ l2)) := List.perm_middle
  have hnd' : (w :: (l1 ++ l2)).Nodup := hperm.nodup_iff.1 hnd
  have hw12 : w ∉ l1 ++ l2 := (List.nodup_cons.1 hnd').1
  have hw1 : w ∉ l1 := fun h => hw12 (List.mem_append_left _ h)
  have hw2 : w ∉ l2 := fun h => hw12 (List.mem_append_right _ h)
  have h12 : (l1 ++ l2).Nodup := (List.nodup_cons.1 hnd').2
  have hdisj : ∀ a, a ∈ l1 → a ∉ l2 := fun a h1 h2 =>
    (List.nodup_append.1 h12).2.2 h1 h2
  have herase : (l1 ++ w :: l2).erase w = l1 ++ l2 := by
    rw [List.erase_append_right _ hw1, List.erase_cons_head]
  rw [herase]
  have hmem' : ∀ a, a ∈ w :: (l1 ++ l2) ↔ a < assoc := fun a => by
    rw [← hperm.mem_iff, hmem a]
  rw [way_chain_append] at hch
  obtain ⟨hc1, hpw, hnw, hc2⟩ := hch
  simp only [List.head?_cons, Option.or_some, Option.or_none] at hc1 hpw hnw
  rcases List.eq_nil_or_concat l1 with rfl | ⟨l1', x, hl1⟩
  swap
  · rw [List.concat_eq_append] at hl1
    subst hl1
    -- the block has a predecessor `x`
    have hx1 : x ∈ l1' ++ [x] := by simp
    have hxw : x ≠ w := fun he => hw1 (he ▸ hx1)
    have hhd1 : (l1' ++ [x]).head? = some s.way_head := by
      rw [← hhead]
      cases l1' <;> simp
    have hhdm : s.way_head ∈ l1' ++ [x] := List.mem_of_mem_head? hhd1
    have hhw : s.way_head ≠ w := fun he => hw1 (he ▸ hhdm)
    have hl1last : (l1' ++ [x]).getLast? = some x := by simp
    rw [hl1last] at hpw
    have hnd1 : (l1' ++ [x]).Nodup := (List.nodup_append.1 h12).1
    have hnd2 : l2.Nodup := (List.nodup_append.1 h12).2.1
    cases l2 with
    | nil =>
      -- the block is the tail
      simp only [List.head?_nil, Option.or_none] at hnw
      have htl : s.way_tail = w := by
        have : (l1' ++ [x] ++ [w]).getLast? = some w := List.getLast?_concat _
        rw [this] at hlast
        exact (Option.some.inj hlast).symm
      refine ⟨cache_waylist_insert
        (({ s with way_tail := x } : cache_set_t).set_way_next x none) w cache_waylist_head,
        ?_, ?_, ?_⟩
      · unfold cache_update_waylist
        rw [hpw, hnw]
        simp only [htl, hhw, ne_eq, not_false_eq_true, and_self, if_true, hpw]
        rfl
      unfold set_wf
      refine ⟨?_, ?_, ?_, ?_, ?_, ?_⟩
      · simpa using hnd'
      · simpa using hmem'
      · simp [cache_waylist_insert]
      · simp only [cache_waylist_insert, set_way_prev_way_tail, set_way_next_way_tail,
          List.append_nil]
        exact List.getLast?_concat (w :: l1')
      · simp only [List.append_nil] at *
        refine ⟨?_, ?_, ?_⟩
        · rw [(cache_waylist_insert_head_blocks _ _ _).1]
          simp [hhw.symm, set_way_next_blocks]
        · rw [(cache_waylist_insert_head_blocks _ _ _).2]
          simp [hhd1]
        · refine way_chain_rebound hnd1 hc1 ?_ ?_
          · intro a ha
            have haw : a ≠ w := fun he => hw1 (he ▸ ha)
            rw [(cache_waylist_insert_head_blocks _ _ _).1]
            simp only [set_way_next_way_head, set_way_next_blocks, hhd1, Option.some.injEq]
            split_ifs <;> first | rfl | (exfalso; omega) | (subst_vars; rfl) | (subst_vars; simp only [*])
          · intro a ha
            have haw : a ≠ w := fun he => hw1 (he ▸ ha)
            rw [(cache_waylist_insert_head_blocks _ _ _).2]
            simp only [set_way_next_blocks, hl1last, Option.some.injEq]
            split_ifs <;> first | rfl | (exfalso; omega) | (subst_vars; rfl) | (subst_vars; simp only [*])
      · intro a ha
        have h1 := cache_waylist_insert_payload
          (({ s with way_tail := x } : cache_set_t).set_way_next x none) w cache_waylist_head a
        have h2 := set_way_next_payload ({ s with way_tail := x } : cache_set_t) x none a
        rw [(same_payload_trans h2 h1).2.2.1]
        exact hway a ha
      · intro a
        exact same_payload_trans
          (set_way_next_payload ({ s with way_tail := x } : cache_set_t) x none a)
          (cache_waylist_insert_payload _ w cache_waylist_head a)
    | cons y t =>
      -- the block is in the middle
      simp only [List.head?_cons, Option.or_some] at hnw hc1
      have hy2 : y ∈ y :: t := List.mem_cons_self _ _
      have hyw : y ≠ w := fun he => hw2 (he ▸ hy2)
      have htl : s.way_tail ≠ w := by
        intro he
        have : (l1' ++ [x] ++ w :: y :: t).getLast? = (y :: t).getLast? := by
          rw [getLast?_append_cons, List.getLast?_cons_cons]
        rw [this] at hlast
        exact hw2 (List.mem_of_getLast?_eq_some (he ▸ hlast))
      have hyh : y ≠ s.way_head := fun he => hdisj _ hhdm (he ▸ hy2)
      refine ⟨cache_waylist_insert
        ((s.set_way_next x (some y)).set_way_prev y (some x)) w cache_waylist_head,
        ?_, ?_, ?_⟩
      · unfold cache_update_waylist
        rw [hpw, hnw]
        simp only [htl, hhw, ne_eq, not_false_eq_true, and_self, if_true]
        simp only [set_way_next_blocks, hxw.symm, if_false, hnw, hpw]
      unfold set_wf
      refine ⟨hnd', hmem', ?_, ?_, ?_, ?_⟩
      · simp [cache_waylist_insert]
      · simp only [cache_waylist_insert, set_way_prev_way_tail, set_way_next_way_tail]
        rw [← hlast, getLast?_append_cons]
        exact getLast?_append_cons (w :: (l1' ++ [x])) y t
      · refine ⟨?_, ?_, ?_⟩
        · rw [(cache_waylist_insert_head_blocks _ _ _).1]
          simp [hhw.symm]
        · rw [(cache_waylist_insert_head_blocks _ _ _).2]
          have : (l1' ++ [x] ++ y :: t).head? = some s.way_head := by
            rw [List.head?_append, hhd1]; rfl
          rw [this]
          simp
        · rw [way_chain_append]
          simp only [List.head?_cons, Option.or_some, hl1last]
          constructor
          · refine way_chain_rebound hnd1 hc1 ?_ ?_
            · intro a ha
              have haw : a ≠ w := fun he => hw1 (he ▸ ha)
              have hay : a ≠ y := fun he => hdisj a ha (he ▸ hy2)
              rw [(cache_waylist_insert_head_blocks _ _ _).1]
              simp only [set_way_next_way_head, set_way_prev_way_head,
                set_way_next_blocks, set_way_prev_blocks, hhd1, Option.some.injEq]
              split_ifs <;> first | rfl | (exfalso; omega) | (subst_vars; rfl) | (subst_vars; simp only [*])
            · intro a ha
              have haw : a ≠ w := fun he => hw1 (he ▸ ha)
              have hay : a ≠ y := fun he => hdisj a ha (he ▸ hy2)
              rw [(cache_waylist_insert_head_blocks _ _ _).2]
              simp only [set_way_next_blocks, set_way_prev_blocks,
                hl1last, Option.some.injEq]
              split_ifs <;> first | rfl | (exfalso; omega) | (subst_vars; rfl) | (subst_vars; simp only [*])
          · refine way_chain_rebound hnd2 hc2 ?_ ?_
            · intro a ha
              have haw : a ≠ w := fun he => hw2 (he ▸ ha)
              have hax : a ≠ x := fun he => hdisj x hx1 (he ▸ ha)
              have hah : a ≠ s.way_head := fun he => hdisj _ hhdm (he ▸ ha)
              rw [(cache_waylist_insert_head_blocks _ _ _).1]
              simp only [set_way_next_way_head, set_way_prev_way_head,
                set_way_next_blocks, set_way_prev_blocks, List.head?_cons,
                Option.some.injEq]
              split_ifs <;> first | rfl | (exfalso; omega) | (subst_vars; rfl) | (subst_vars; simp only [*])
            · intro a ha
              have haw : a ≠ w := fun he => hw2 (he ▸ ha)
              have hax : a ≠ x := fun he => hdisj x hx1 (he ▸ ha)
              have hlst : ∀ z, (y :: t).getLast? = some z → (s.blocks z).way_next = none :=
                fun z hz => way_chain_last hc2 hz
              rw [(cache_waylist_insert_head_blocks _ _ _).2]
              simp only [set_way_next_blocks, set_way_prev_blocks]
              split_ifs with h1 h2 h3 h4 h5 h6 h7 <;>
                first
                | exact absurd h1 haw
                | exact absurd h2 hax
                | exact absurd h3 hax
                | exact hlst _ ‹_›
                | rfl
                | simp_all
      · intro a ha
        have h1 := cache_waylist_insert_payload
          ((s.set_way_next x (some y)).set_way_prev y (some x)) w cache_waylist_head a
        have h2 := set_way_prev_payload (s.set_way_next x (some y)) y (some x) a
        have h3 := set_way_next_payload s x (some y) a
        rw [(same_payload_trans (same_payload_trans h3 h2) h1).2.2.1]
        exact hway a ha
      · intro a
        exact same_payload_trans
          (same_payload_trans (set_way_next_payload s x (some y) a)
            (set_way_prev_payload _ y (some x) a))
          (cache_waylist_insert_payload _ w cache_waylist_head a)
  · -- the block is already at the head
    simp only [List.nil_append, List.head?_cons, Option.some.injEq, List.getLast?_nil] at *
    refine ⟨s, ?_, ?_, fun a => same_payload_refl _⟩
    swap
    · unfold set_wf
      exact ⟨hnd, hmem, by simp [← hhead], hlast, ⟨hpw, by simpa using hnw, hc2⟩, hway⟩
    unfold cache_update_waylist
    rw [hpw, hnw]
    cases l2 with
    | nil =>
      simp only [List.getLast?_singleton, Option.some.injEq] at hlast
      simp [← hhead, ← hlast]
    | cons y t =>
      have htl : s.way_tail ≠ w := by
        intro he
        rw [List.getLast?_cons_cons] at hlast
        exact hw2 (List.mem_of_getLast?_eq_some (he ▸ hlast))
      simp [← hhead, htl]

theorem way_chain_prev_some {b : Nat → cache_block_t} {l : List Nat} {p n : Option Nat} {a : Nat}
    (hc : way_chain b p l n) (ha : a ∈ l) (hh : l.head? ≠ some a) :
    ∃ z, z ∈ l ∧ (b a).way_prev = some z := by
  induction l generalizing p with
  | nil => cases ha
  | cons c t ih =>
    have hca : c ≠ a := fun h => hh (by simp [h])
    have hat : a ∈ t := by
      rcases List.mem_cons.1 ha with h | h
      · exact absurd h.symm hca
      · exact h
    by_cases hth : t.head? = some a
    · exact ⟨c, List.mem_cons_self _ _, way_chain_head hc.2.2 hth⟩
    · obtain ⟨z, hz, hz'⟩ := ih hc.2.2 hat hth
      exact ⟨z, List.mem_cons_of_mem _ hz, hz'⟩

theorem set_wf_prev_none_iff {assoc : Nat} {s : cache_set_t} {l : List Nat} {w : Nat}
    (h : set_wf assoc s l) (hw : w ∈ l) : (s.blocks w).way_prev = none ↔ w = s.way_head := by
  constructor
  · intro hp
    by_contra hne
    have : l.head? ≠ some w := by
      rw [h.2.2.1]
      intro he
      exact hne (Option.some.inj he).symm
    obtain ⟨z, _, hz⟩ := way_chain_prev_some h.2.2.2.2.1 hw this
    rw [hp] at hz
    cases hz
  · intro he
    exact way_chain_head h.2.2.2.2.1 (by rw [h.2.2.1, he])

theorem set_wf_head_mem {assoc : Nat} {s : cache_set_t} {l : List Nat} (h : set_wf assoc s l) :
    s.way_head ∈ l := List.mem_of_mem_head? h.2.2.1

theorem set_wf_tail_mem {assoc : Nat} {s : cache_set_t} {l : List Nat} (h : set_wf assoc s l) :
    s.way_tail ∈ l := List.mem_of_getLast?_eq_some h.2.2.2.1

theorem set_wf_head_cons {assoc : Nat} {s : cache_set_t} {l : List Nat} (h : set_wf assoc s l) :
    l = s.way_head :: l.erase s.way_head := by
  have hh := h.2.2.1
  cases l with
  | nil => simp at hh
  | cons a t =>
    simp only [List.head?_cons, Option.some.injEq] at hh
    subst hh
    simp

theorem set_wf_pos {assoc : Nat} {s : cache_set_t} {l : List Nat} (h : set_wf assoc s l) :
    0 < assoc := by
  have := (h.2.1 s.way_head).1 (set_wf_head_mem h)
  omega

theorem way_chain_create (assoc : Nat) (n k : Nat) (hk : k + n = assoc) :
    way_chain (fun way => cache_create_block assoc way)
      (if k ≠ 0 then some (k - 1) else none) (List.range' k n) none := by
  induction n generalizing k with
  | zero => trivial
  | succ n ih =>
    rw [List.range'_succ]
    refine ⟨rfl, ?_, ?_⟩
    · cases n with
      | zero =>
        have : ¬ k < assoc - 1 := by omega
        simp [cache_create_block, this]
      | succ n =>
        have : k < assoc - 1 := by omega
        simp [cache_create_block, this, List.range'_succ]
    · have := ih (k + 1) (by omega)
      simpa using this

/-- Every set built by `cache_create` is a well-formed list `0, 1, .., assoc - 1`. -/
theorem cache_create_set_wf (assoc : Nat) (h : 0 < assoc) :
    set_wf assoc
      { way_head := 0, way_tail := assoc - 1,
        blocks := fun way => cache_create_block assoc way } (List.range assoc) := by
  refine ⟨List.nodup_range assoc, fun w => List.mem_range, ?_, ?_, ?_, fun w _ => rfl⟩
  · cases assoc with
    | zero => omega
    | succ n => simp [List.range_eq_range', List.range'_succ]
  · obtain ⟨n, rfl⟩ : ∃ n, assoc = n + 1 := ⟨assoc - 1, by omega⟩
    rw [List.range_succ]
    simp
  · have := way_chain_create assoc assoc 0 (by omega)
    simpa [List.range_eq_range'] using this

/-! ## The cache operations on well-formed sets -/

@[simp] theorem put_set_sets_same (c : cache_t) (s : Nat) (x : cache_set_t) :
    (c.put_set s x).sets s = x := by
  simp [cache_t.put_set]

theorem put_set_sets (c : cache_t) (s : Nat) (x : cache_set_t) (a : Nat) :
    (c.put_set s x).sets a = if a = s then x else c.sets a := by
  simp [cache_t.put_set, Function.update_apply]

@[simp] theorem put_set_self (c : cache_t) (s : Nat) : c.put_set s (c.sets s) = c := by
  simp [cache_t.put_set]

@[simp] theorem put_set_num_sets (c : cache_t) (s : Nat) (x : cache_set_t) :
    (c.put_set s x).num_sets = c.num_sets := rfl

@[simp] theorem put_set_assoc (c : cache_t) (s : Nat) (x : cache_set_t) :
    (c.put_set s x).assoc = c.assoc := rfl

@[simp] theorem put_set_policy (c : cache_t) (s : Nat) (x : cache_set_t) :
    (c.put_set s x).policy = c.policy := rfl

@[simp] theorem put_set_used_ways (c : cache_t) (s : Nat) (x : cache_set_t) :
    (c.put_set s x).used_ways = c.used_ways := rfl

@[simp] theorem put_set_assigned_ways (c : cache_t) (s : Nat) (x : cache_set_t) :
    (c.put_set s x).assigned_ways = c.assigned_ways := rfl

@[simp] theorem put_set_block_mask (c : cache_t) (s : Nat) (x : cache_set_t) :
    (c.put_set s x).block_mask = c.block_mask := rfl

@[simp] theorem put_set_log_block_size (c : cache_t) (s : Nat) (x : cache_set_t) :
    (c.put_set s x).log_block_size = c.log_block_size := rfl


/-- The effect of `cache_access_block` on a well-formed set. -/
theorem cache_access_block_wf {c : cache_t} {s w : Nat} {l : List Nat} (hs : s < c.num_sets)
    (hw : w < c.assoc) (h : set_wf c.assoc (c.sets s) l) :
    ∃ s', cache_access_block c s w = some (c.put_set s s') ∧
      set_wf c.assoc s'
        (if c.policy = cache_policy_lru ∨ c.policy = cache_policy_partitioned_lru ∨
            (c.policy = cache_policy_fifo ∧ ((c.sets s).blocks w).state = 0)
          then move_to_head w l else l) ∧
      ∀ a, same_payload ((c.sets s).blocks a) (s'.blocks a) := by
  have hwl : w ∈ l := (h.2.1 w).2 hw
  unfold cache_access_block
  rw [if_pos ⟨hs, hw⟩]
  by_cases hm : c.policy = cache_policy_lru ∨ c.policy = cache_policy_partitioned_lru ∨
      (c.policy = cache_policy_fifo ∧ ((c.sets s).blocks w).state = 0)
  · rw [if_pos hm]
    have hmb : (decide (c.policy = cache_policy_lru) || decide (c.policy = cache_policy_partitioned_lru) ||
        (decide (c.policy = cache_policy_fifo) && decide (((c.sets s).blocks w).state = 0))) = true := by
      simpa [or_assoc] using hm
    by_cases hp : ((c.sets s).blocks w).way_prev = none
    · refine ⟨c.sets s, ?_, ?_, fun a => same_payload_refl _⟩
      · simp [hp]
      · have hwh : w = (c.sets s).way_head := (set_wf_prev_none_iff h hwl).1 hp
        unfold move_to_head
        rw [hwh, ← set_wf_head_cons h]
        exact h
    · obtain ⟨s', h1, h2, h3⟩ := cache_update_waylist_head h hwl
      refine ⟨s', ?_, h2, h3⟩
      simp only [hmb, hp, ne_eq, not_false_eq_true, and_self, if_true, h1, Option.map_some']
  · rw [if_neg hm]
    refine ⟨c.sets s, ?_, h, fun a => same_payload_refl _⟩
    have hmb : (decide (c.policy = cache_policy_lru) || decide (c.policy = cache_policy_partitioned_lru) ||
        (decide (c.policy = cache_policy_fifo) && decide (((c.sets s).blocks w).state = 0))) = false := by
      simpa [or_assoc, and_assoc] using hm
    simp [hmb]

/-- The effect of `cache_replace_block` under LRU and FIFO on a well-formed set. -/
theorem cache_replace_block_lru_wf {c : cache_t} {s : Nat} {l : List Nat} (nc nt : Nat)
    (ci : mod_client_info_t) (rnd : Nat) (hs : s < c.num_sets)
    (h : set_wf c.assoc (c.sets s) l)
    (hp : c.policy = cache_policy_lru ∨ c.policy = cache_policy_fifo) :
    ∃ s', cache_replace_block nc nt c s ci rnd
        = some (c.put_set s s', ((c.sets s).way_tail : Int)) ∧
      set_wf c.assoc s' (move_to_head (c.sets s).way_tail l) ∧
      ∀ a, same_payload ((c.sets s).blocks a) (s'.blocks a) := by
  have htl := set_wf_tail_mem h
  have hway : ((c.sets s).blocks (c.sets s).way_tail).way = (c.sets s).way_tail :=
    h.2.2.2.2.2 _ ((h.2.1 _).1 htl)
  obtain ⟨s', h1, h2, h3⟩ := cache_update_waylist_head h htl
  refine ⟨s', ?_, h2, h3⟩
  unfold cache_replace_block
  simp only [hs, if_true, hp, h1, Option.map_some', hway]


/-- Under Partitioned-LRU, when the tail block is invalid or the requester has
no quota, `cache_replace_block` is the LRU replacement. -/
theorem cache_replace_block_plru_free_wf {c : cache_t} {s : Nat} {l : List Nat} (nc nt : Nat)
    (ci : mod_client_info_t) (rnd : Nat) (hs : s < c.num_sets)
    (h : set_wf c.assoc (c.sets s) l)
    (hp : c.policy = cache_policy_partitioned_lru)
    (hfree : ((c.sets s).blocks (c.sets s).way_tail).state = 0 ∨
      c.assigned_ways (ci.core * nt + ci.thread) = -1) :
    ∃ s', cache_replace_block nc nt c s ci rnd
        = some ((cache_scratch_cleared nc nt c).put_set s s', ((c.sets s).way_tail : Int)) ∧
      set_wf c.assoc s' (move_to_head (c.sets s).way_tail l) ∧
      ∀ a, same_payload ((c.sets s).blocks a) (s'.blocks a) := by
  have htl := set_wf_tail_mem h
  have hway : ((c.sets s).blocks (c.sets s).way_tail).way = (c.sets s).way_tail :=
    h.2.2.2.2.2 _ ((h.2.1 _).1 htl)
  obtain ⟨s', h1, h2, h3⟩ := cache_update_waylist_head h htl
  refine ⟨s', ?_, h2, h3⟩
  have hsel : cache_replace_select nc nt c s (ci.core * nt + ci.thread)
      = some (cache_scratch_cleared nc nt c, ((c.sets s).way_tail : Int)) := by
    unfold cache_replace_select
    simp only [hway, Int.toNat_ofNat]
    rw [if_neg]
    · rfl
    · rintro ⟨h1, h2⟩
      rcases hfree with hf | hf
      · exact h1 hf
      · exact h2 hf
  unfold cache_replace_block
  have hne : ((c.sets s).way_tail : Int) ≠ -1 := by omega
  have hp1 : ¬ (c.policy = cache_policy_lru ∨ c.policy = cache_policy_fifo) := by
    rw [hp]; decide
  simp only [hs, if_true, hp1, if_false, hp, hsel, hne, Int.toNat_ofNat]
  have : (cache_scratch_cleared nc nt c).sets s = c.sets s := rfl
  rw [this, h1]
  rfl

/-! ## Occupancy counts -/

theorem countP_range_update {β : Type} (f : Nat → β) (p : β → Bool) (w n : Nat) (hw : w < n)
    (v : β) :
    (((List.range n).countP (fun a => p (Function.update f w v a)) : Nat) : Int) =
      ((List.range n).countP (fun a => p (f a)) : Nat) - (if p (f w) then 1 else 0)
        + (if p v then 1 else 0) := by
  induction n with
  | zero => omega
  | succ n ih =>
    rw [List.range_succ, List.countP_append, List.countP_append]
    by_cases hwn : w = n
    · subst hwn
      have hsame : (List.range w).countP (fun a => p (Function.update f w v a)) =
          (List.range w).countP (fun a => p (f a)) := by
        apply List.countP_congr
        intro a ha
        have : a ≠ w := by
          have := List.mem_range.1 ha
          omega
        simp [Function.update_noteq this]
      rw [hsame]
      simp only [List.countP_cons, List.countP_nil, Function.update_same, zero_add]
      split_ifs <;> simp
    · have hlt : w < n := by omega
      have := ih hlt
      have hn : Function.update f w v n = f n := Function.update_noteq (Ne.symm hwn) _ _
      simp only [List.countP_cons, List.countP_nil, zero_add, hn]
      push_cast
      rw [this]
      ring

theorem sum_range_update (g g' : Nat → Int) (s n : Nat) (hs : s < n)
    (h : ∀ a, a ≠ s → g' a = g a) :
    ((List.range n).map g').sum = ((List.range n).map g).sum - g s + g' s := by
  induction n with
  | zero => omega
  | succ n ih =>
    rw [List.range_succ, List.map_append, List.map_append, List.sum_append, List.sum_append]
    by_cases hsn : s = n
    · subst hsn
      have : (List.range s).map g' = (List.range s).map g := by
        apply List.map_congr_left
        intro a ha
        have := List.mem_range.1 ha
        exact h a (by omega)
      rw [this]
      simp
    · have := ih (by omega)
      rw [this, List.map_singleton, List.map_singleton, h n (Ne.symm hsn)]
      simp only [List.sum_singleton]
      ring

theorem cache_set_owned_congr {assoc : Nat} {s s' : cache_set_t} (t : Int)
    (h : ∀ a, (s'.blocks a).thread_id = (s.blocks a).thread_id) :
    cache_set_owned assoc s' t = cache_set_owned assoc s t := by
  unfold cache_set_owned
  congr 1
  apply List.countP_congr
  intro a _
  simp [h a]

theorem cache_owned_congr (c c' : cache_t) (t : Int) (hn : c'.num_sets = c.num_sets)
    (ha : c'.assoc = c.assoc)
    (h : ∀ s a, ((c'.sets s).blocks a).thread_id = ((c.sets s).blocks a).thread_id) :
    cache_owned c' t = cache_owned c t := by
  unfold cache_owned
  rw [hn, ha]
  congr 1
  apply List.map_congr_left
  intro s _
  exact cache_set_owned_congr t (h s)

/-- Changing the owner of one block moves one unit of occupancy. -/
theorem cache_owned_modify_thread_id (c : cache_t) (s w : Nat) (hs : s < c.num_sets)
    (hw : w < c.assoc) (tid t : Int) :
    cache_owned (c.modify_block s w (fun b => { b with thread_id := tid })) t =
      cache_owned c t - (if ((c.sets s).blocks w).thread_id = t then 1 else 0)
        + (if tid = t then 1 else 0) := by
  unfold cache_owned
  have hg : ∀ a, a ≠ s →
      cache_set_owned c.assoc ((c.modify_block s w
        (fun b => { b with thread_id := tid })).sets a) t =
      cache_set_owned c.assoc (c.sets a) t := by
    intro a ha
    simp [cache_t.modify_block, put_set_sets, ha]
  have := sum_range_update (fun a => cache_set_owned c.assoc (c.sets a) t)
    (fun a => cache_set_owned c.assoc ((c.modify_block s w
        (fun b => { b with thread_id := tid })).sets a) t) s c.num_sets hs hg
  simp only [cache_t.modify_block, put_set_num_sets, put_set_assoc] at this ⊢
  rw [this]
  have hc := countP_range_update (c.sets s).blocks (fun b => decide (b.thread_id = t)) w
    c.assoc hw { (c.sets s).blocks w with thread_id := tid }
  simp only [cache_set_owned, put_set_sets_same]
  simp only [decide_eq_true_eq] at hc
  rw [hc]
  ring




theorem cache_same_shape_refl (c : cache_t) : cache_same_shape c c :=
  ⟨rfl, rfl, rfl, rfl, rfl, rfl⟩

theorem cache_same_shape_trans {a b c : cache_t} (h1 : cache_same_shape a b)
    (h2 : cache_same_shape b c) : cache_same_shape a c := by
  refine ⟨h2.1.trans h1.1, h2.2.1.trans h1.2.1, h2.2.2.1.trans h1.2.2.1, ?_, ?_, ?_⟩
  · exact h2.2.2.2.1.trans h1.2.2.2.1
  · exact h2.2.2.2.2.1.trans h1.2.2.2.2.1
  · exact h2.2.2.2.2.2.trans h1.2.2.2.2.2

theorem way_chain_congr {b b' : Nat → cache_block_t} {l : List Nat} {p n : Option Nat}
    (h : ∀ a, (b' a).way_prev = (b a).way_prev ∧ (b' a).way_next = (b a).way_next)
    (hc : way_chain b p l n) : way_chain b' p l n := by
  induction l generalizing p with
  | nil => trivial
  | cons a t ih =>
    exact ⟨(h a).1.trans hc.1, (h a).2.trans hc.2.1, ih hc.2.2⟩

theorem set_wf_congr {assoc : Nat} {s s' : cache_set_t} {l : List Nat} (h : set_wf assoc s l)
    (hh : s'.way_head = s.way_head) (ht : s'.way_tail = s.way_tail)
    (hb : ∀ a, (s'.blocks a).way_prev = (s.blocks a).way_prev ∧
      (s'.blocks a).way_next = (s.blocks a).way_next ∧ (s'.blocks a).way = (s.blocks a).way) :
    set_wf assoc s' l := by
  obtain ⟨h1, h2, h3, h4, h5, h6⟩ := h
  refine ⟨h1, h2, by rw [hh]; exact h3, by rw [ht]; exact h4,
    way_chain_congr (fun a => ⟨(hb a).1, (hb a).2.1⟩) h5, fun w hw => ?_⟩
  rw [(hb w).2.2]
  exact h6 w hw

theorem modify_block_sets (c : cache_t) (s w : Nat) (f : cache_block_t → cache_block_t)
    (a : Nat) :
    (c.modify_block s w f).sets a =
      if a = s then
        { c.sets s with blocks := Function.update (c.sets s).blocks w (f ((c.sets s).blocks w)) }
      else c.sets a := by
  simp [cache_t.modify_block, put_set_sets]

theorem modify_block_blocks (c : cache_t) (s w : Nat) (f : cache_block_t → cache_block_t)
    (a b : Nat) :
    ((c.modify_block s w f).sets a).blocks b =
      if a = s ∧ b = w then f ((c.sets s).blocks w) else (c.sets a).blocks b := by
  rw [modify_block_sets]
  by_cases ha : a = s
  · subst ha
    by_cases hb : b = w
    · subst hb; simp
    · simp [Function.update_noteq hb, hb]
  · simp [ha]

/-- Writing fields other than the links of one block keeps every set well formed. -/
theorem cache_wf_modify_block {c : cache_t} (hwf : cache_wf c) (s w : Nat)
    (f : cache_block_t → cache_block_t)
    (hf : ∀ b, (f b).way_prev = b.way_prev ∧ (f b).way_next = b.way_next ∧ (f b).way = b.way) :
    cache_wf (c.modify_block s w f) := by
  intro a ha
  obtain ⟨l, hl⟩ := hwf a ha
  refine ⟨l, set_wf_congr hl ?_ ?_ ?_⟩
  · rw [modify_block_sets]; split_ifs with h
    · subst h; rfl
    · rfl
  · rw [modify_block_sets]; split_ifs with h
    · subst h; rfl
    · rfl
  · intro b
    rw [modify_block_blocks]
    split_ifs with h
    · obtain ⟨rfl, rfl⟩ := h
      exact hf _
    · exact ⟨rfl, rfl, rfl⟩

theorem cache_owned_nonneg (c : cache_t) (t : Int) : 0 ≤ cache_owned c t := by
  unfold cache_owned
  apply List.sum_nonneg
  intro x hx
  obtain ⟨s, _, rfl⟩ := List.mem_map.1 hx
  unfold cache_set_owned
  exact Int.natCast_nonneg _

theorem cache_owned_pos {c : cache_t} {s w : Nat} (hs : s < c.num_sets) (hw : w < c.assoc) :
    1 ≤ cache_owned c ((c.sets s).blocks w).thread_id := by
  have h := cache_owned_modify_thread_id c s w hs hw (((c.sets s).blocks w).thread_id + 1)
    ((c.sets s).blocks w).thread_id
  have h0 := cache_owned_nonneg (c.modify_block s w
    (fun b => { b with thread_id := ((c.sets s).blocks w).thread_id + 1 }))
    ((c.sets s).blocks w).thread_id
  rw [h] at h0
  simp at h0
  omega

theorem cache_set_thread_id_eq (nt : Nat) (c : cache_t) (s w : Nat) (ci : mod_client_info_t) :
    cache_set_thread_id nt c s w ci = cache_set_owner c s w (ci.core * (nt : Int) + ci.thread) :=
  rfl

theorem cache_set_owner_ok {c : cache_t} {s w : Nat} {tid : Int}
    (hs : s < c.num_sets) (hw : w < c.assoc) (htid : tid ≠ -1)
    (hwf : cache_wf c) (hu : cache_used_ways_ok c) :
    ∃ c', cache_set_owner c s w tid = some c' ∧ cache_wf c' ∧ cache_used_ways_ok c' ∧
      cache_same_shape c c' ∧
      (∀ a b, same_payload
        ({ (c.sets a).blocks b with
            thread_id := if a = s ∧ b = w then tid else ((c.sets a).blocks b).thread_id })
        ((c'.sets a).blocks b)) ∧
      (∀ a b, ((c'.sets a).blocks b).way_prev = ((c.sets a).blocks b).way_prev ∧
        ((c'.sets a).blocks b).way_next = ((c.sets a).blocks b).way_next) ∧
      ∀ a, (c'.sets a).way_head = (c.sets a).way_head ∧
        (c'.sets a).way_tail = (c.sets a).way_tail := by
  have hshape : ∀ u : Int → Int, cache_same_shape c
      (({ c with used_ways := u } : cache_t).modify_block s w
        (fun b => { b with thread_id := tid })) := fun u => ⟨rfl, rfl, rfl, rfl, rfl, rfl⟩
  have hwf' : ∀ u : Int → Int, cache_wf
      (({ c with used_ways := u } : cache_t).modify_block s w
        (fun b => { b with thread_id := tid })) := fun u =>
    cache_wf_modify_block (c := { c with used_ways := u }) hwf s w _
      (fun b => ⟨rfl, rfl, rfl⟩)
  have hown : ∀ (u : Int → Int) (t : Int),
      cache_owned (({ c with used_ways := u } : cache_t).modify_block s w
        (fun b => { b with thread_id := tid })) t =
      cache_owned c t - (if ((c.sets s).blocks w).thread_id = t then 1 else 0)
        + (if tid = t then 1 else 0) := fun u t =>
    cache_owned_modify_thread_id { c with used_ways := u } s w hs hw tid t
  have hpay : ∀ (u : Int → Int) (a b : Nat), same_payload
        ({ (c.sets a).blocks b with
            thread_id := if a = s ∧ b = w then tid else ((c.sets a).blocks b).thread_id })
        (((({ c with used_ways := u } : cache_t).modify_block s w
          (fun b => { b with thread_id := tid })).sets a).blocks b) := by
    intro u a b
    rw [modify_block_blocks]
    split_ifs with h
    · obtain ⟨rfl, rfl⟩ := h
      exact ⟨rfl, rfl, rfl, rfl, rfl, rfl⟩
    · exact ⟨rfl, rfl, rfl, rfl, rfl, rfl⟩
  have hlink : ∀ (u : Int → Int) (a b : Nat),
      (((({ c with used_ways := u } : cache_t).modify_block s w
          (fun b => { b with thread_id := tid })).sets a).blocks b).way_prev
          = ((c.sets a).blocks b).way_prev ∧
      (((({ c with used_ways := u } : cache_t).modify_block s w
          (fun b => { b with thread_id := tid })).sets a).blocks b).way_next
          = ((c.sets a).blocks b).way_next := by
    intro u a b
    rw [modify_block_blocks]
    split_ifs with h
    · obtain ⟨rfl, rfl⟩ := h
      exact ⟨rfl, rfl⟩
    · exact ⟨rfl, rfl⟩
  have hht : ∀ (u : Int → Int) (a : Nat),
      ((({ c with used_ways := u } : cache_t).modify_block s w
          (fun b => { b with thread_id := tid })).sets a).way_head = (c.sets a).way_head ∧
      ((({ c with used_ways := u } : cache_t).modify_block s w
          (fun b => { b with thread_id := tid })).sets a).way_tail = (c.sets a).way_tail := by
    intro u a
    rw [modify_block_sets]
    split_ifs with h
    · subst h; exact ⟨rfl, rfl⟩
    · exact ⟨rfl, rfl⟩
  unfold cache_set_owner
  by_cases h1 : tid = ((c.sets s).blocks w).thread_id
  · -- same owner
    have hge : c.used_ways tid ≥ 0 := by
      rw [hu tid htid]; exact cache_owned_nonneg c tid
    simp only [ne_eq, h1, not_true_eq_false, if_false]
    rw [← h1, if_pos hge]
    refine ⟨_, rfl, hwf' c.used_ways, ?_, hshape c.used_ways, hpay _, hlink _, hht _⟩
    intro t ht
    rw [hown c.used_ways t, ← h1]
    show c.used_ways t = _
    rw [hu t ht]
    split_ifs <;> omega
  · by_cases h2 : ((c.sets s).blocks w).thread_id = -1
    · -- the block had no owner
      have hge : c.used_ways tid + 1 ≥ 0 := by
        rw [hu tid htid]
        have := cache_owned_nonneg c tid
        omega
      simp only [ne_eq, h1, htid, not_false_eq_true, if_true, h2, not_true_eq_false, if_false,
        Function.update_same, hge]
      refine ⟨_, rfl, hwf' _, ?_, hshape _, hpay _, hlink _, hht _⟩
      intro t ht
      rw [hown _ t, h2]
      show Function.update c.used_ways tid (c.used_ways tid + 1) t = _
      have hne : ¬ (-1 : Int) = t := fun h => ht h.symm
      by_cases htt : tid = t
      · subst htt
        simp [hne, hu tid htid]
      · rw [Function.update_noteq (Ne.symm htt)]
        simp [hne, htt, hu t ht]
    · -- the block changes owner
      have hold := cache_owned_pos hs hw
      have hge2 : c.used_ways ((c.sets s).blocks w).thread_id - 1 ≥ 0 := by
        rw [hu _ h2]; omega
      have hge : c.used_ways tid + 1 ≥ 0 := by
        rw [hu tid htid]
        have := cache_owned_nonneg c tid
        omega
      have hne12 : ((c.sets s).blocks w).thread_id ≠ tid := fun h => h1 h.symm
      simp only [ne_eq, h1, not_false_eq_true, if_true, h2, Function.update_same,
        Function.update_noteq hne12, hge2, Function.update_noteq h1, hge]
      refine ⟨_, rfl, hwf' _, ?_, hshape _, hpay _, hlink _, hht _⟩
      intro t ht
      rw [hown _ t]
      show Function.update (Function.update c.used_ways tid (c.used_ways tid + 1))
        ((c.sets s).blocks w).thread_id (c.used_ways ((c.sets s).blocks w).thread_id - 1) t = _
      by_cases ht1 : ((c.sets s).blocks w).thread_id = t
      · subst ht1
        simp [h1, hu _ h2]
      · rw [Function.update_noteq (Ne.symm ht1)]
        by_cases ht2 : tid = t
        · subst ht2
          simp [ht1, hu tid htid]
        · rw [Function.update_noteq (Ne.symm ht2)]
          simp [ht1, ht2, hu t ht]

theorem client_thread_id_ne {nc nt : Nat} {ci : mod_client_info_t}
    (hci : client_in_range nc nt ci) : ci.core * (nt : Int) + ci.thread ≠ -1 := by
  obtain ⟨hc0, _, ht0, _⟩ := hci
  have : 0 ≤ ci.core * (nt : Int) := mul_nonneg hc0 (Int.natCast_nonneg _)
  omega

theorem cache_wf_put_set {c : cache_t} {s : Nat} {s' : cache_set_t} {l : List Nat}
    (hwf : cache_wf c) (h : set_wf c.assoc s' l) : cache_wf (c.put_set s s') := by
  intro a ha
  rw [put_set_sets]
  split_ifs with hh
  · exact ⟨l, h⟩
  · exact hwf a ha

theorem cache_owned_put_set {c : cache_t} {s : Nat} {s' : cache_set_t}
    (h : ∀ a, same_payload ((c.sets s).blocks a) (s'.blocks a)) (t : Int) :
    cache_owned (c.put_set s s') t = cache_owned c t := by
  apply cache_owned_congr c (c.put_set s s') t rfl rfl
  intro a b
  rw [put_set_sets]
  split_ifs with hh
  · subst hh
    exact (h b).2.2.2.2.1
  · rfl

theorem cache_used_ways_ok_put_set {c : cache_t} {s : Nat} {s' : cache_set_t}
    (hu : cache_used_ways_ok c)
    (h : ∀ a, same_payload ((c.sets s).blocks a) (s'.blocks a)) :
    cache_used_ways_ok (c.put_set s s') := by
  intro t ht
  rw [cache_owned_put_set h t]
  exact hu t ht

theorem cache_used_ways_ok_modify_block {c : cache_t} (hu : cache_used_ways_ok c) (s w : Nat)
    (f : cache_block_t → cache_block_t) (hf : ∀ b, (f b).thread_id = b.thread_id) :
    cache_used_ways_ok (c.modify_block s w f) := by
  intro t ht
  have : cache_owned (c.modify_block s w f) t = cache_owned c t := by
    apply cache_owned_congr c (c.modify_block s w f) t rfl rfl
    intro a b
    rw [modify_block_blocks]
    split_ifs with h
    · obtain ⟨rfl, rfl⟩ := h
      exact hf _
    · rfl
  rw [this]
  exact hu t ht

/-- The function `cache_access_block` keeps the cache well formed and its counters exact. -/
theorem cache_access_block_ok {c : cache_t} {s w : Nat} (hs : s < c.num_sets)
    (hw : w < c.assoc) (hwf : cache_wf c) (hu : cache_used_ways_ok c) :
    ∃ c', cache_access_block c s w = some c' ∧ cache_wf c' ∧ cache_used_ways_ok c' ∧
      cache_same_shape c c' := by
  obtain ⟨l, hl⟩ := hwf s hs
  obtain ⟨s', h1, h2, h3⟩ := cache_access_block_wf hs hw hl
  exact ⟨_, h1, cache_wf_put_set hwf h2, cache_used_ways_ok_put_set hu h3,
    ⟨rfl, rfl, rfl, rfl, rfl, rfl⟩⟩

/-- The function `cache_replace_block` on a cache no partitioning algorithm has
given quotas: it aborts only for the invalid policy. -/
theorem cache_replace_block_ok {c : cache_t} {s : Nat} (nc nt : Nat) (ci : mod_client_info_t)
    (rnd : Nat) (hs : s < c.num_sets) (hwf : cache_wf c) (hu : cache_used_ways_ok c)
    (hq : ∀ t, c.assigned_ways t = -1) :
    (∃ c' way, cache_replace_block nc nt c s ci rnd = some (c', way) ∧ cache_wf c' ∧
      cache_used_ways_ok c' ∧ cache_same_shape c c') ∨
    (cache_replace_block nc nt c s ci rnd = none ∧ c.policy = cache_policy_invalid) := by
  obtain ⟨l, hl⟩ := hwf s hs
  rcases hpol : c.policy with _ | _ | _ | _ | _
  · right
    refine ⟨?_, rfl⟩
    unfold cache_replace_block
    simp [hs, hpol]
  · left
    obtain ⟨s', h1, h2, h3⟩ := cache_replace_block_lru_wf nc nt ci rnd hs hl (Or.inl hpol)
    exact ⟨_, _, h1, cache_wf_put_set hwf h2, cache_used_ways_ok_put_set hu h3,
      ⟨rfl, rfl, hpol ▸ rfl, rfl, rfl, rfl⟩⟩
  · left
    obtain ⟨s', h1, h2, h3⟩ := cache_replace_block_lru_wf nc nt ci rnd hs hl (Or.inr hpol)
    exact ⟨_, _, h1, cache_wf_put_set hwf h2, cache_used_ways_ok_put_set hu h3,
      ⟨rfl, rfl, hpol ▸ rfl, rfl, rfl, rfl⟩⟩
  · left
    refine ⟨c, ((rnd % c.assoc : Nat) : Int), ?_, hwf, hu, cache_same_shape_refl c⟩
    unfold cache_replace_block
    simp [hs, hpol]
  · left
    obtain ⟨s', h1, h2, h3⟩ :=
      cache_replace_block_plru_free_wf nc nt ci rnd hs hl hpol (Or.inr (hq _))
    refine ⟨_, _, h1, ?_, ?_, ⟨rfl, rfl, hpol ▸ rfl, rfl, rfl, rfl⟩⟩
    · exact cache_wf_put_set (c := cache_scratch_cleared nc nt c) hwf h2
    · exact cache_used_ways_ok_put_set (c := cache_scratch_cleared nc nt c) hu h3

/-- The function `cache_set_block` keeps the cache well formed and its counters exact. -/
theorem cache_set_block_ok {c : cache_t} {s w : Nat} (nc nt : Nat) (tag state : Int)
    {ci : Option mod_client_info_t} (hs : s < c.num_sets) (hw : w < c.assoc)
    (hci1 : c.policy = cache_policy_partitioned_lru → ci ≠ none)
    (hci2 : ∀ x, ci = some x → client_in_range nc nt x)
    (hwf : cache_wf c) (hu : cache_used_ways_ok c) :
    ∃ c', cache_set_block nc nt c s w tag state ci = some c' ∧ cache_wf c' ∧
      cache_used_ways_ok c' ∧ cache_same_shape c c' := by
  obtain ⟨l, hl⟩ := hwf s hs
  have hwl : w ∈ l := (hl.2.1 w).2 hw
  -- the list update under FIFO
  have hlisted : ∃ c1, (if c.policy = cache_policy_fifo ∧ ((c.sets s).blocks w).tag ≠ tag then
        (cache_update_waylist (c.sets s) w cache_waylist_head).map (c.put_set s)
      else some c) = some c1 ∧ cache_wf c1 ∧ cache_used_ways_ok c1 ∧ cache_same_shape c c1 := by
    split_ifs with hf
    · obtain ⟨s', h1, h2, h3⟩ := cache_update_waylist_head hl hwl
      exact ⟨_, by rw [h1]; rfl, cache_wf_put_set hwf h2, cache_used_ways_ok_put_set hu h3,
        ⟨rfl, rfl, rfl, rfl, rfl, rfl⟩⟩
    · exact ⟨c, rfl, hwf, hu, cache_same_shape_refl c⟩
  obtain ⟨c1, hc1, hwf1, hu1, hsh1⟩ := hlisted
  have hwf2 := cache_wf_modify_block hwf1 s w
    (fun b => { b with tag := tag, state := state, prefetched := 0 }) (fun b => ⟨rfl, rfl, rfl⟩)
  have hu2 := cache_used_ways_ok_modify_block hu1 s w
    (fun b => { b with tag := tag, state := state, prefetched := 0 }) (fun b => rfl)
  have hsh2 : cache_same_shape c (c1.modify_block s w
      (fun b => { b with tag := tag, state := state, prefetched := 0 })) :=
    cache_same_shape_trans hsh1 ⟨rfl, rfl, rfl, rfl, rfl, rfl⟩
  unfold cache_set_block
  rw [if_pos ⟨hs, hw⟩]
  simp only [hc1]
  by_cases hp : c.policy = cache_policy_partitioned_lru
  · have hp2 : (c1.modify_block s w
        (fun b => { b with tag := tag, state := state, prefetched := 0 })).policy
        = cache_policy_partitioned_lru := by rw [hsh2.2.2.1, hp]
    rw [if_pos hp2]
    cases ci with
    | none => exact absurd rfl (hci1 hp)
    | some x =>
      have hx := hci2 x rfl
      simp only
      rw [if_pos (show 0 ≤ x.core ∧ x.core < (nc : Int) ∧ 0 ≤ x.thread ∧ x.thread < (nt : Int)
        from hx), cache_set_thread_id_eq]
      obtain ⟨c', h1, h2, h3, h4, _⟩ := cache_set_owner_ok (s := s) (w := w)
        (by rw [hsh2.1]; exact hs) (by rw [hsh2.2.1]; exact hw) (client_thread_id_ne hx) hwf2 hu2
      exact ⟨c', h1, h2, h3, cache_same_shape_trans hsh2 h4⟩
  · have hp2 : ¬ (c1.modify_block s w
        (fun b => { b with tag := tag, state := state, prefetched := 0 })).policy
        = cache_policy_partitioned_lru := by rw [hsh2.2.2.1]; exact hp
    rw [if_neg hp2]
    exact ⟨_, rfl, hwf2, hu2, hsh2⟩

/-- The function `cache_set_transient_tag` keeps the cache well formed and its counters exact. -/
theorem cache_set_transient_tag_ok {c : cache_t} {s w : Nat} (nc nt : Nat) (tag : Int)
    {ci : mod_client_info_t} (hs : s < c.num_sets) (hw : w < c.assoc)
    (hci : client_in_range nc nt ci) (hwf : cache_wf c) (hu : cache_used_ways_ok c) :
    ∃ c', cache_set_transient_tag nt c s w tag ci = some c' ∧ cache_wf c' ∧
      cache_used_ways_ok c' ∧ cache_same_shape c c' := by
  have hwf2 := cache_wf_modify_block hwf s w
    (fun b => { b with transient_tag := tag }) (fun b => ⟨rfl, rfl, rfl⟩)
  have hu2 := cache_used_ways_ok_modify_block hu s w
    (fun b => { b with transient_tag := tag }) (fun b => rfl)
  unfold cache_set_transient_tag
  rw [cache_set_thread_id_eq]
  obtain ⟨c', h1, h2, h3, h4, _⟩ := cache_set_owner_ok (s := s) (w := w)
    (c := c.modify_block s w (fun b => { b with transient_tag := tag }))
    hs hw (client_thread_id_ne hci) hwf2 hu2
  exact ⟨c', h1, h2, h3, cache_same_shape_trans ⟨rfl, rfl, rfl, rfl, rfl, rfl⟩ h4⟩

/-- One in-range call on a cache without quotas: the call returns, unless it
is a replacement under the invalid policy, and the invariants are kept. -/
theorem cache_op_apply_ok {c : cache_t} (nc nt : Nat) (op : cache_op)
    (hop : op.in_range nc nt c.num_sets c.assoc c.policy)
    (hwf : cache_wf c) (hu : cache_used_ways_ok c) (hq : ∀ t, c.assigned_ways t = -1) :
    (∃ c', op.apply nc nt c = some c' ∧ cache_wf c' ∧ cache_used_ways_ok c' ∧
      cache_same_shape c c') ∨
    (op.apply nc nt c = none ∧ c.policy = cache_policy_invalid) := by
  cases op with
  | set_block s w tag state ci =>
    obtain ⟨hs, hw, h1, h2⟩ := hop
    exact Or.inl (cache_set_block_ok nc nt tag state hs hw h1 h2 hwf hu)
  | set_transient_tag s w tag ci =>
    obtain ⟨hs, hw, h1⟩ := hop
    exact Or.inl (cache_set_transient_tag_ok nc nt tag hs hw h1 hwf hu)
  | set_thread_id s w ci =>
    obtain ⟨hs, hw, h1⟩ := hop
    obtain ⟨c', h1, h2, h3, h4, _⟩ :=
      cache_set_owner_ok hs hw (client_thread_id_ne h1) hwf hu
    exact Or.inl ⟨c', h1, h2, h3, h4⟩
  | access_block s w =>
    obtain ⟨hs, hw⟩ := hop
    exact Or.inl (cache_access_block_ok hs hw hwf hu)
  | replace_block s ci rnd =>
    obtain ⟨hs, _⟩ := hop
    rcases cache_replace_block_ok nc nt ci rnd hs hwf hu hq with ⟨c', way, h1, h2, h3, h4⟩ | ⟨h1, h2⟩
    · left
      exact ⟨c', by simp [cache_op.apply, h1], h2, h3, h4⟩
    · right
      exact ⟨by simp [cache_op.apply, h1], h2⟩

theorem cache_run_ok {c : cache_t} (nc nt : Nat) (ops : List cache_op)
    (hops : ∀ op ∈ ops, op.in_range nc nt c.num_sets c.assoc c.policy)
    (hwf : cache_wf c) (hu : cache_used_ways_ok c) (hq : ∀ t, c.assigned_ways t = -1) :
    (c.policy ≠ cache_policy_invalid → (cache_run nc nt c ops).isSome) ∧
    ∀ c', cache_run nc nt c ops = some c' →
      cache_wf c' ∧ cache_used_ways_ok c' ∧ cache_same_shape c c' := by
  induction ops generalizing c with
  | nil =>
    refine ⟨fun _ => rfl, fun c' h => ?_⟩
    simp only [cache_run, Option.some.injEq] at h
    subst h
    exact ⟨hwf, hu, cache_same_shape_refl c⟩
  | cons op ops ih =>
    have hop := hops op (List.mem_cons_self _ _)
    rcases cache_op_apply_ok nc nt op hop hwf hu hq with ⟨c1, h1, h2, h3, h4⟩ | ⟨h1, h2⟩
    · have hops' : ∀ o ∈ ops, o.in_range nc nt c1.num_sets c1.assoc c1.policy := by
        intro o ho
        rw [h4.1, h4.2.1, h4.2.2.1]
        exact hops o (List.mem_cons_of_mem _ ho)
      have hq1 : ∀ t, c1.assigned_ways t = -1 := by
        intro t
        rw [h4.2.2.2.1]
        exact hq t
      obtain ⟨ih1, ih2⟩ := ih hops' h2 h3 hq1
      simp only [cache_run, h1]
      refine ⟨fun hp => ih1 (by rw [h4.2.2.1]; exact hp), fun c' hc' => ?_⟩
      obtain ⟨a1, a2, a3⟩ := ih2 c' hc'
      exact ⟨a1, a2, cache_same_shape_trans h4 a3⟩
    · simp only [cache_run, h1]
      exact ⟨fun hp => absurd h2 hp, fun c' hc' => by cases hc'⟩

theorem cache_create_eq (num_sets block_size assoc : Nat) (policy : cache_policy_t)
    (hgeo : Nat.land num_sets (num_sets - 1) = 0 ∧ Nat.land block_size (block_size - 1) = 0) :
    cache_create num_sets block_size assoc policy = some
      { num_sets := num_sets
        block_size := block_size
        assoc := assoc
        policy := policy
        sets := fun _ =>
          { way_head := 0
            way_tail := assoc - 1
            blocks := fun way => cache_create_block assoc way }
        block_mask := block_size - 1
        log_block_size := log_base2 block_size
        assigned_ways := fun _ => -1
        used_ways := fun _ => 0
        used_ways_in_set := fun _ => 0 } := by
  unfold cache_create
  rw [if_pos hgeo]

theorem cache_create_ok {num_sets block_size assoc : Nat} {policy : cache_policy_t} {c : cache_t}
    (h : cache_create num_sets block_size assoc policy = some c) (hassoc : 0 < assoc) :
    cache_wf c ∧ cache_used_ways_ok c ∧ (∀ t, c.assigned_ways t = -1) ∧
      c.num_sets = num_sets ∧ c.assoc = assoc ∧ c.policy = policy ∧
      (∀ t, c.used_ways t = 0) ∧ ∀ s w, ((c.sets s).blocks w).thread_id = -1 := by
  unfold cache_create at h
  split_ifs at h with hgeo
  simp only [Option.some.injEq] at h
  subst h
  refine ⟨fun s _ => ⟨List.range assoc, cache_create_set_wf assoc hassoc⟩, ?_, fun _ => rfl,
    rfl, rfl, rfl, fun _ => rfl, fun _ _ => rfl⟩
  intro t ht
  show (0 : Int) = _
  unfold cache_owned
  symm
  apply List.sum_eq_zero
  intro x hx
  obtain ⟨s, _, rfl⟩ := List.mem_map.1 hx
  unfold cache_set_owned
  have : (List.range assoc).countP
      (fun w => decide ((cache_create_block assoc w).thread_id = t)) = 0 := by
    rw [List.countP_eq_zero]
    intro a _
    simp only [cache_create_block, decide_eq_true_eq]
    exact fun h => ht h.symm
  simp only [this, Nat.cast_zero]

/-! ## Partitioned-LRU victim selection -/

theorem cache_count_used_ways_in_set_apply (blocks : Nat → cache_block_t) (n : Nat)
    (a : Int → Int) (t : Int) :
    cache_count_used_ways_in_set blocks n a t =
      a t + ((List.range n).countP (fun w => decide ((blocks w).thread_id = t)) : Nat) := by
  unfold cache_count_used_ways_in_set
  induction n with
  | zero => simp
  | succ n ih =>
    rw [List.range_succ, List.foldl_append, List.countP_append]
    simp only [List.foldl_cons, List.foldl_nil, List.countP_cons, List.countP_nil, zero_add]
    by_cases h : (blocks n).thread_id = t
    · subst h
      rw [Function.update_same, ih]
      simp
      ring
    · rw [Function.update_noteq (Ne.symm h), ih]
      simp [h]

theorem cache_clear_used_ways_in_set_apply (total : Nat) (a : Int → Int) (t : Int) :
    cache_clear_used_ways_in_set total a t = if 0 ≤ t ∧ t < total then 0 else a t := by
  unfold cache_clear_used_ways_in_set
  induction total with
  | zero =>
    have : ¬ (0 ≤ t ∧ t < ((0 : Nat) : Int)) := by omega
    rw [if_neg this]
    rfl
  | succ n ih =>
    rw [List.range_succ, List.foldl_append]
    simp only [List.foldl_cons, List.foldl_nil]
    by_cases h : t = (n : Int)
    · subst h
      rw [Function.update_same]
      have : 0 ≤ (n : Int) ∧ (n : Int) < ((n + 1 : Nat) : Int) := by omega
      rw [if_pos this]
    · rw [Function.update_noteq h, ih]
      by_cases h2 : 0 ≤ t ∧ t < (n : Int)
      · have : 0 ≤ t ∧ t < ((n + 1 : Nat) : Int) := by omega
        rw [if_pos h2, if_pos this]
      · have : ¬ (0 ≤ t ∧ t < ((n + 1 : Nat) : Int)) := by omega
        rw [if_neg h2, if_neg this]

/-- The backward scan over a well-formed list finds the first block from the
tail that satisfies the test. -/
theorem cache_scan_back_chain {b : Nat → cache_block_t} (p : cache_block_t → Bool)
    (l : List Nat) (n : Option Nat) (hc : way_chain b none l n) (fuel : Nat)
    (hf : l.length < fuel) :
    cache_scan_back b p fuel l.getLast? =
      some ((l.reverse.find? (fun a => p (b a))).map (fun a => (b a).way)) := by
  induction l using List.reverseRecOn generalizing n fuel with
  | nil =>
    cases fuel with
    | zero => simp at hf
    | succ fuel => simp [cache_scan_back]
  | append_singleton l a ih =>
    cases fuel with
    | zero => simp at hf
    | succ fuel =>
      rw [way_chain_append] at hc
      obtain ⟨hc1, hc2⟩ := hc
      have hprev : (b a).way_prev = l.getLast? := by
        have := hc2.1
        simpa using this
      rw [List.getLast?_concat, List.reverse_append]
      simp only [List.reverse_cons, List.reverse_nil, List.nil_append, List.singleton_append,
        cache_scan_back, List.find?_cons]
      by_cases hpa : p (b a) = true
      · simp [hpa]
      · simp only [hpa, Bool.false_eq_true, if_false]
        rw [hprev]
        have hf' : l.length < fuel := by
          simp at hf
          omega
        rw [ih _ hc1 fuel hf']

theorem find?_congr_mem {α : Type} {p q : α → Bool} {l : List α}
    (h : ∀ a ∈ l, p a = q a) : l.find? p = l.find? q := by
  induction l with
  | nil => rfl
  | cons a t ih =>
    simp only [List.find?_cons, h a (List.mem_cons_self _ _)]
    rw [ih (fun b hb => h b (List.mem_cons_of_mem _ hb))]

theorem plru_victim_mem {c : cache_t} {set : cache_set_t} {l : List Nat} {assoc : Nat}
    (h : set_wf assoc set l) (tid : Int) : plru_victim c set l tid ∈ l := by
  have hmem : ∀ (q : Nat → Bool), (l.reverse.find? q).getD set.way_tail ∈ l := by
    intro q
    cases hq : l.reverse.find? q with
    | none => exact set_wf_tail_mem h
    | some a => exact List.mem_reverse.1 (List.mem_of_find?_eq_some hq)
  unfold plru_victim
  split_ifs
  · exact hmem _
  · exact hmem _

/-- The effect of `cache_replace_block` under Partitioned-LRU when the quotas
apply: the victim is `plru_victim` and it moves to the head of the list. -/
theorem cache_replace_block_plru_quota_wf {c : cache_t} {s : Nat} {l : List Nat} (nc nt : Nat)
    (ci : mod_client_info_t) (rnd : Nat) (hs : s < c.num_sets)
    (h : set_wf c.assoc (c.sets s) l) (hp : c.policy = cache_policy_partitioned_lru)
    (htid : 0 ≤ ci.core * (nt : Int) + ci.thread ∧
      ci.core * (nt : Int) + ci.thread < ((nt * nc : Nat) : Int))
    (hvalid : ((c.sets s).blocks (c.sets s).way_tail).state ≠ 0)
    (hq : c.assigned_ways (ci.core * (nt : Int) + ci.thread) ≠ -1)
    (hown : ∀ w, w < c.assoc → 0 ≤ ((c.sets s).blocks w).thread_id ∧
      ((c.sets s).blocks w).thread_id < ((nt * nc : Nat) : Int)) :
    ∃ s', cache_replace_block nc nt c s ci rnd
        = some ((cache_scratch_counted nc nt c s).put_set s s',
            (plru_victim c (c.sets s) l (ci.core * (nt : Int) + ci.thread) : Int)) ∧
      set_wf c.assoc s' (move_to_head
        (plru_victim c (c.sets s) l (ci.core * (nt : Int) + ci.thread)) l) ∧
      ∀ a, same_payload ((c.sets s).blocks a) (s'.blocks a) := by
  generalize htdef : ci.core * (nt : Int) + ci.thread = tid at htid hq
  have htl := set_wf_tail_mem h
  have htl' : (c.sets s).way_tail < c.assoc := (h.2.1 _).1 htl
  have hway : ∀ a, a ∈ l → ((c.sets s).blocks a).way = a := fun a ha =>
    h.2.2.2.2.2 _ ((h.2.1 _).1 ha)
  have hvm := plru_victim_mem (c := c) h tid
  obtain ⟨s', h1, h2, h3⟩ := cache_update_waylist_head h hvm
  -- the per-set occupancy after the counting loop
  have hcnt : ∀ t : Int, 0 ≤ t ∧ t < ((nt * nc : Nat) : Int) →
      cache_count_used_ways_in_set (c.sets s).blocks c.assoc
        (cache_clear_used_ways_in_set (nt * nc) c.used_ways_in_set) t
        = cache_set_owned c.assoc (c.sets s) t := by
    intro t ht
    rw [cache_count_used_ways_in_set_apply, cache_clear_used_ways_in_set_apply, if_pos ht]
    simp [cache_set_owned]
  have hscan : ∀ p : cache_block_t → Bool,
      cache_scan_back (c.sets s).blocks p (c.assoc + 1) (some (c.sets s).way_tail) =
        some ((l.reverse.find? (fun a => p ((c.sets s).blocks a))).map
          (fun a => ((c.sets s).blocks a).way)) := by
    intro p
    rw [← h.2.2.2.1]
    exact cache_scan_back_chain p l none h.2.2.2.2.1 _ (by rw [set_wf_length h]; omega)
  have hsel : cache_replace_select nc nt c s tid
      = some (cache_scratch_counted nc nt c s, (plru_victim c (c.sets s) l tid : Int)) := by
    unfold cache_replace_select
    simp only [hway _ htl, Int.toNat_ofNat]
    rw [if_pos ⟨hvalid, hq⟩, if_pos (by have := (hown _ htl').1; omega)]
    simp only [hcnt tid htid, hscan]
    unfold plru_victim
    by_cases hge : cache_set_owned c.assoc (c.sets s) tid ≥ c.assigned_ways tid
    · rw [if_pos hge, if_pos hge]
      cases hf : l.reverse.find? (fun a => decide (((c.sets s).blocks a).thread_id = tid)) with
      | none => simp [hway _ htl, cache_scratch_counted]
      | some a =>
        have ha : a ∈ l := List.mem_reverse.1 (List.mem_of_find?_eq_some hf)
        simp [hway a ha, cache_scratch_counted]
    · rw [if_neg hge, if_neg hge]
      have hcongr : l.reverse.find? (fun a => decide (((c.sets s).blocks a).thread_id ≠ tid ∧
            cache_count_used_ways_in_set (c.sets s).blocks c.assoc
              (cache_clear_used_ways_in_set (nt * nc) c.used_ways_in_set)
              ((c.sets s).blocks a).thread_id ≥ c.assigned_ways ((c.sets s).blocks a).thread_id))
          = l.reverse.find? (fun a => decide (((c.sets s).blocks a).thread_id ≠ tid ∧
            cache_set_owned c.assoc (c.sets s) ((c.sets s).blocks a).thread_id
              ≥ c.assigned_ways ((c.sets s).blocks a).thread_id)) := by
        apply find?_congr_mem
        intro a ha
        have ha' : a < c.assoc := (h.2.1 _).1 (List.mem_reverse.1 ha)
        rw [hcnt _ (hown a ha')]
      rw [hcongr]
      cases hf : l.reverse.find? (fun a => decide (((c.sets s).blocks a).thread_id ≠ tid ∧
            cache_set_owned c.assoc (c.sets s) ((c.sets s).blocks a).thread_id
              ≥ c.assigned_ways ((c.sets s).blocks a).thread_id)) with
      | none => simp [hway _ htl, cache_scratch_counted]
      | some a =>
        have ha : a ∈ l := List.mem_reverse.1 (List.mem_of_find?_eq_some hf)
        simp [hway a ha, cache_scratch_counted]
  refine ⟨s', ?_, h2, h3⟩
  unfold cache_replace_block
  have hne : ((plru_victim c (c.sets s) l tid : Nat) : Int) ≠ -1 := by omega
  have hp1 : ¬ (c.policy = cache_policy_lru ∨ c.policy = cache_policy_fifo) := by
    rw [hp]; decide
  simp only [hs, if_true, hp1, if_false, hp, htdef, hsel, hne, Int.toNat_ofNat]
  have : (cache_scratch_counted nc nt c s).sets s = c.sets s := rfl
  rw [this, h1]
  rfl

/-! ## Hits and misses on one set -/

theorem move_to_head_head (v : Nat) (t : List Nat) : move_to_head v (v :: t) = v :: t := by
  simp [move_to_head]

theorem move_to_head_set_wf_head {assoc : Nat} {s : cache_set_t} {l : List Nat}
    (h : set_wf assoc s l) : move_to_head s.way_head l = l := by
  unfold move_to_head
  exact (set_wf_head_cons h).symm

theorem set_wf_move_head {assoc : Nat} {s : cache_set_t} {l : List Nat} {v : Nat}
    (h : set_wf assoc s (move_to_head v l)) : s.way_head = v := by
  have := h.2.2.1
  simp only [move_to_head, List.head?_cons, Option.some.injEq] at this
  exact this.symm

theorem cache_set_step_refl (c : cache_t) (s : Nat) : cache_set_step c c s :=
  ⟨cache_same_shape_refl c, fun _ _ => rfl⟩

theorem cache_set_step_trans {a b c : cache_t} {s : Nat} (h1 : cache_set_step a b s)
    (h2 : cache_set_step b c s) : cache_set_step a c s :=
  ⟨cache_same_shape_trans h1.1 h2.1, fun x hx => (h2.2 x hx).trans (h1.2 x hx)⟩

theorem cache_set_step_put_set (c : cache_t) (s : Nat) (x : cache_set_t) :
    cache_set_step c (c.put_set s x) s :=
  ⟨⟨rfl, rfl, rfl, rfl, rfl, rfl⟩, fun a ha => by rw [put_set_sets, if_neg ha]⟩

theorem cache_set_step_modify_block (c : cache_t) (s w : Nat)
    (f : cache_block_t → cache_block_t) : cache_set_step c (c.modify_block s w f) s :=
  cache_set_step_put_set c s _

theorem cache_wf_of_set_step {c c' : cache_t} {s : Nat} {l : List Nat} (hwf : cache_wf c)
    (hstep : cache_set_step c c' s) (h : set_wf c.assoc (c'.sets s) l) : cache_wf c' := by
  intro a ha
  rw [hstep.1.2.1]
  by_cases hh : a = s
  · subst hh; exact ⟨l, h⟩
  · rw [hstep.2 a hh]
    exact hwf a (by rw [← hstep.1.1]; exact ha)

/-- The effect of `cache_set_block` outside Partitioned-LRU on a well-formed
set: under FIFO a block that gets a different tag moves to the head; the block
gets the tag and the state; no other block changes but in its links. -/
theorem cache_set_block_wf {c : cache_t} {s w : Nat} {l : List Nat} (nc nt : Nat)
    (tag state : Int) (ci : Option mod_client_info_t) (hs : s < c.num_sets)
    (hw : w < c.assoc) (h : set_wf c.assoc (c.sets s) l)
    (hp : c.policy ≠ cache_policy_partitioned_lru) :
    ∃ c', cache_set_block nc nt c s w tag state ci = some c' ∧ cache_set_step c c' s ∧
      c'.used_ways = c.used_ways ∧
      set_wf c.assoc (c'.sets s)
        (if c.policy = cache_policy_fifo ∧ ((c.sets s).blocks w).tag ≠ tag
          then move_to_head w l else l) ∧
      ((c'.sets s).blocks w).tag = tag ∧ ((c'.sets s).blocks w).state = state ∧
      ((c'.sets s).blocks w).thread_id = ((c.sets s).blocks w).thread_id ∧
      ∀ a, a ≠ w → same_payload ((c.sets s).blocks a) ((c'.sets s).blocks a) := by
  have hwl : w ∈ l := (h.2.1 w).2 hw
  have hmod : ∀ (s1 : cache_set_t) (l1 : List Nat), set_wf c.assoc s1 l1 →
      (∀ a, same_payload ((c.sets s).blocks a) (s1.blocks a)) →
      cache_set_step c ((c.put_set s s1).modify_block s w
          (fun b => { b with tag := tag, state := state, prefetched := 0 })) s ∧
        ((c.put_set s s1).modify_block s w
          (fun b => { b with tag := tag, state := state, prefetched := 0 })).used_ways
          = c.used_ways ∧
        set_wf c.assoc (((c.put_set s s1).modify_block s w
          (fun b => { b with tag := tag, state := state, prefetched := 0 })).sets s) l1 ∧
        ((((c.put_set s s1).modify_block s w
          (fun b => { b with tag := tag, state := state, prefetched := 0 })).sets s).blocks w).tag
          = tag ∧
        ((((c.put_set s s1).modify_block s w
          (fun b => { b with tag := tag, state := state, prefetched := 0 })).sets s).blocks
            w).state = state ∧
        ((((c.put_set s s1).modify_block s w
          (fun b => { b with tag := tag, state := state, prefetched := 0 })).sets s).blocks
            w).thread_id = ((c.sets s).blocks w).thread_id ∧
        ∀ a, a ≠ w → same_payload ((c.sets s).blocks a)
          ((((c.put_set s s1).modify_block s w
            (fun b => { b with tag := tag, state := state, prefetched := 0 })).sets s).blocks
              a) := by
    intro s1 l1 h1 hpay
    refine ⟨cache_set_step_trans (cache_set_step_put_set c s s1)
      (cache_set_step_modify_block _ s w _), rfl, ?_, ?_, ?_, ?_, ?_⟩
    · refine set_wf_congr h1 ?_ ?_ ?_
      · rw [modify_block_sets, if_pos rfl]; simp
      · rw [modify_block_sets, if_pos rfl]; simp
      · intro b
        rw [modify_block_blocks]
        split_ifs with hh
        · obtain ⟨-, rfl⟩ := hh
          simp
        · simp
    · rw [modify_block_blocks, if_pos ⟨rfl, rfl⟩]
    · rw [modify_block_blocks, if_pos ⟨rfl, rfl⟩]
    · rw [modify_block_blocks, if_pos ⟨rfl, rfl⟩]
      simp only [put_set_sets_same]
      exact (hpay w).2.2.2.2.1
    · intro a ha
      rw [modify_block_blocks, if_neg (fun hh => ha hh.2)]
      simp only [put_set_sets_same]
      exact hpay a
  unfold cache_set_block
  rw [if_pos ⟨hs, hw⟩]
  by_cases hf : c.policy = cache_policy_fifo ∧ ((c.sets s).blocks w).tag ≠ tag
  · obtain ⟨s', h1, h2, h3⟩ := cache_update_waylist_head h hwl
    rw [if_pos hf, if_pos hf, h1]
    simp only [Option.map_some']
    have hp2 : ¬ ((c.put_set s s').modify_block s w
        (fun b => { b with tag := tag, state := state, prefetched := 0 })).policy
        = cache_policy_partitioned_lru := hp
    rw [if_neg hp2]
    exact ⟨_, rfl, hmod s' _ h2 h3⟩
  · rw [if_neg hf, if_neg hf]
    simp only
    have hp2 : ¬ (c.modify_block s w
        (fun b => { b with tag := tag, state := state, prefetched := 0 })).policy
        = cache_policy_partitioned_lru := hp
    rw [if_neg hp2]
    have := hmod (c.sets s) l h (fun a => same_payload_refl _)
    rw [put_set_self] at this
    exact ⟨_, rfl, this⟩

theorem cache_find_way_le (blocks : Nat → cache_block_t) (tag : Int) (n start : Nat) :
    start ≤ cache_find_way blocks tag n start ∧ cache_find_way blocks tag n start ≤ start + n := by
  induction n generalizing start with
  | zero => simp [cache_find_way]
  | succ n ih =>
    unfold cache_find_way
    split_ifs
    · omega
    · have := ih (start + 1)
      omega

theorem cache_find_way_hit (blocks : Nat → cache_block_t) (tag : Int) (n start : Nat)
    (h : cache_find_way blocks tag n start ≠ start + n) :
    (blocks (cache_find_way blocks tag n start)).tag = tag ∧
      (blocks (cache_find_way blocks tag n start)).state ≠ 0 := by
  induction n generalizing start with
  | zero => simp [cache_find_way] at h
  | succ n ih =>
    unfold cache_find_way at h ⊢
    split_ifs at h ⊢ with hh
    · exact hh
    · exact ih (start + 1) (by omega)

theorem cache_find_way_first (blocks : Nat → cache_block_t) (tag : Int) (n start : Nat)
    (w : Nat) (h1 : start ≤ w) (h2 : w < cache_find_way blocks tag n start) :
    ¬ ((blocks w).tag = tag ∧ (blocks w).state ≠ 0) := by
  induction n generalizing start with
  | zero =>
    simp only [cache_find_way] at h2
    omega
  | succ n ih =>
    unfold cache_find_way at h2
    split_ifs at h2 with hh
    · omega
    · by_cases hw : w = start
      · subst hw; exact hh
      · exact ih (start + 1) (by omega) h2

theorem way_age_append_self (trace : List Nat) (w : Nat) : way_age (trace ++ [w]) w = 0 := by
  simp [way_age]

theorem way_age_append_ne (trace : List Nat) {a w : Nat} (h : a ≠ w) :
    way_age (trace ++ [w]) a = way_age trace a + 1 := by
  unfold way_age
  rw [List.reverse_append]
  simp only [List.reverse_cons, List.reverse_nil, List.nil_append, List.singleton_append]
  exact List.indexOf_cons_ne _ (Ne.symm h)

theorem age_ordered_move {trace l : List Nat} (w : Nat) (hl : l.Nodup)
    (h : age_ordered trace l) : age_ordered (trace ++ [w]) (move_to_head w l) := by
  unfold age_ordered move_to_head
  rw [List.pairwise_cons]
  constructor
  · intro b _
    rw [way_age_append_self]
    exact Nat.zero_le _
  · have hsub : (l.erase w).Pairwise (fun a b => way_age trace a ≤ way_age trace b) :=
      List.Pairwise.sublist (List.erase_sublist w l) h
    refine List.Pairwise.imp_of_mem ?_ hsub
    intro a b ha hb hab
    have hane : a ≠ w := fun he => by
      rw [he] at ha
      exact (List.Nodup.not_mem_erase hl) ha
    have hbne : b ≠ w := fun he => by
      rw [he] at hb
      exact (List.Nodup.not_mem_erase hl) hb
    rw [way_age_append_ne trace hane, way_age_append_ne trace hbne]
    omega

theorem age_ordered_tail {trace l : List Nat} {t : Nat} (h : age_ordered trace l)
    (ht : l.getLast? = some t) : ∀ a ∈ l, way_age trace a ≤ way_age trace t := by
  obtain ⟨l0, rfl⟩ := List.getLast?_eq_some_iff.1 ht
  intro a ha
  unfold age_ordered at h
  rw [List.pairwise_append] at h
  rcases List.mem_append.1 ha with h1 | h1
  · exact h.2.2 a h1 t (by simp)
  · simp only [List.mem_singleton] at h1
    rw [h1]

theorem trace_ways_append (all : Bool) (t1 t2 : List (Nat × Bool)) :
    trace_ways all (t1 ++ t2) = trace_ways all t1 ++ trace_ways all t2 := by
  simp [trace_ways]

theorem trace_ways_cons (all : Bool) (r : Nat × Bool) (t : List (Nat × Bool)) :
    trace_ways all (r :: t) = (if all || r.2 then [r.1] else []) ++ trace_ways all t := by
  unfold trace_ways
  rw [List.filter_cons]
  split_ifs <;> simp

/-- One access under LRU or FIFO on a well-formed set: it returns, the way
used exists, a fill uses the tail of the recency list, and the list moves the
way used to the head under LRU and on a fill, and stays as it is on a FIFO hit. -/
theorem cache_access_step {c : cache_t} {s : Nat} {l : List Nat} (nc nt : Nat) (flag : Bool)
    (addr : Nat) (state : Int) (ci : mod_client_info_t) (rnd : Nat)
    (hp : c.policy = cache_policy_lru ∨ c.policy = cache_policy_fifo)
    (hs : cache_set_index c addr = s) (hsl : s < c.num_sets)
    (hl : set_wf c.assoc (c.sets s) l) :
    ∃ c' way fill, cache_access nc nt flag c addr state ci rnd = some (c', way, fill) ∧
      cache_set_step c c' s ∧ way < c.assoc ∧
      set_wf c.assoc (c'.sets s)
        (if c.policy = cache_policy_lru ∨ fill = true then move_to_head way l else l) ∧
      (fill = true → way = (c.sets s).way_tail) := by
  have hnp : c.policy ≠ cache_policy_partitioned_lru := by
    rcases hp with h | h <;> rw [h] <;> decide
  unfold cache_access
  by_cases hhit : (cache_find_block c addr).ret ≠ 0
  · -- hit
    rw [if_pos hhit]
    unfold cache_find_block at hhit ⊢
    simp only [hs] at hhit ⊢
    by_cases hw : cache_find_way (c.sets s).blocks (cache_tag c addr) c.assoc 0 = c.assoc
    · rw [if_pos hw] at hhit
      exact absurd rfl hhit
    · rw [if_neg hw]
      simp only
      have hle := cache_find_way_le (c.sets s).blocks (cache_tag c addr) c.assoc 0
      have hlt : cache_find_way (c.sets s).blocks (cache_tag c addr) c.assoc 0 < c.assoc := by
        omega
      have hst := (cache_find_way_hit (c.sets s).blocks (cache_tag c addr) c.assoc 0
        (by omega)).2
      obtain ⟨s', h1, h2, -⟩ := cache_access_block_wf hsl hlt hl
      refine ⟨_, _, false, by rw [h1]; rfl, cache_set_step_put_set c s s', hlt, ?_,
        fun h => by cases h⟩
      rw [put_set_sets_same]
      rcases hp with hp | hp
      · simpa [hp] using h2
      · simpa [hp, hst] using h2
  · -- miss
    rw [if_neg hhit]
    have hset : (cache_find_block c addr).set = s := by
      unfold cache_find_block
      simp only [hs]
      split_ifs <;> rfl
    rw [hset]
    have htl := set_wf_tail_mem hl
    have htl' : (c.sets s).way_tail < c.assoc := (hl.2.1 _).1 htl
    obtain ⟨s1, h1, h2, -⟩ := cache_replace_block_lru_wf nc nt ci rnd hsl hl hp
    rw [h1]
    simp only [Int.toNat_ofNat]
    have h2' : set_wf (c.put_set s s1).assoc ((c.put_set s s1).sets s)
        (move_to_head (c.sets s).way_tail l) := by
      rw [put_set_sets_same]; exact h2
    obtain ⟨c2, h3, h4, -, h5, -, h6, -⟩ :=
      cache_set_block_wf (c := c.put_set s s1) (s := s) (w := (c.sets s).way_tail) nc nt
        (cache_tag c addr) state (some ci) hsl htl' h2' hnp
    rw [h3]
    simp only
    have hstep2 : cache_set_step c c2 s :=
      cache_set_step_trans (cache_set_step_put_set c s s1) h4
    have hmh : ∀ s2 : cache_set_t, ∀ q : Prop, [Decidable q] →
        set_wf c.assoc s2 (if q then move_to_head (c.sets s).way_tail
            (move_to_head (c.sets s).way_tail l)
          else move_to_head (c.sets s).way_tail l) →
        set_wf c.assoc s2 (move_to_head (c.sets s).way_tail l) := by
      intro s2 q _ hq
      have : move_to_head (c.sets s).way_tail (move_to_head (c.sets s).way_tail l)
          = move_to_head (c.sets s).way_tail l := by
        conv_lhs => rw [move_to_head]
        simp [move_to_head]
      rw [this] at hq
      simpa using hq
    have h5' : set_wf c.assoc (c2.sets s) (move_to_head (c.sets s).way_tail l) :=
      hmh _ _ h5
    cases flag with
    | false =>
      refine ⟨c2, _, true, rfl, hstep2, htl', ?_, fun _ => rfl⟩
      simpa using h5'
    | true =>
      have h5'' : set_wf c2.assoc (c2.sets s) (move_to_head (c.sets s).way_tail l) := by
        rw [hstep2.1.2.1]; exact h5'
      obtain ⟨s3, h7, h8, -⟩ := cache_access_block_wf (c := c2) (s := s)
        (w := (c.sets s).way_tail) (by rw [hstep2.1.1]; exact hsl)
        (by rw [hstep2.1.2.1]; exact htl') h5''
      simp only [if_true]
      rw [h7]
      refine ⟨_, _, true, rfl, cache_set_step_trans hstep2 (cache_set_step_put_set c2 s s3),
        htl', ?_, fun _ => rfl⟩
      rw [put_set_sets_same]
      rw [hstep2.1.2.1] at h8
      have := hmh s3 _ h8
      simpa using this

theorem cache_set_index_shape {c c' : cache_t} (h : cache_same_shape c c') (addr : Nat) :
    cache_set_index c' addr = cache_set_index c addr := by
  unfold cache_set_index
  rw [h.1, h.2.2.2.2.2]

/-- A sequence of accesses to one set under LRU or FIFO runs to its end and
keeps the recency list ordered by age. -/
theorem cache_access_run_ordered (nc nt : Nat) (flag : Bool) (ci : mod_client_info_t)
    (rnd : Nat) (all : Bool) (s : Nat) (accs : List (Nat × Int)) :
    ∀ (c : cache_t) (l : List Nat) (T : List (Nat × Bool)),
      (c.policy = cache_policy_lru ∨ c.policy = cache_policy_fifo) →
      (all = true ↔ c.policy = cache_policy_lru) →
      s < c.num_sets → (∀ a ∈ accs, cache_set_index c a.1 = s) →
      set_wf c.assoc (c.sets s) l → age_ordered (trace_ways all T) l →
      ∃ c' tr l', cache_access_run nc nt flag ci rnd c accs = some (c', tr) ∧
        cache_set_step c c' s ∧ set_wf c.assoc (c'.sets s) l' ∧
        age_ordered (trace_ways all (T ++ tr)) l' := by
  induction accs with
  | nil =>
    intro c l T _ _ _ _ hl hage
    exact ⟨c, [], l, rfl, cache_set_step_refl c s, hl, by simpa using hage⟩
  | cons a rest ih =>
    intro c l T hp hall hs hidx hl hage
    obtain ⟨addr, state⟩ := a
    obtain ⟨c1, way, fill, h1, h2, h3, h4, -⟩ :=
      cache_access_step nc nt flag addr state ci rnd hp (hidx _ (List.mem_cons_self _ _)) hs hl
    have hcond : (c.policy = cache_policy_lru ∨ fill = true) ↔ (all || fill) = true := by
      rw [Bool.or_eq_true, hall]
    have hage1 : age_ordered (trace_ways all (T ++ [(way, fill)]))
        (if c.policy = cache_policy_lru ∨ fill = true then move_to_head way l else l) := by
      rw [trace_ways_append, trace_ways_cons]
      by_cases hc : (all || fill) = true
      · rw [if_pos (hcond.2 hc)]
        simp only [hc, if_true, trace_ways, List.filter_nil, List.map_nil, List.append_nil]
        exact age_ordered_move way hl.1 hage
      · rw [if_neg (fun h => hc (hcond.1 h))]
        simp only [hc, trace_ways, List.filter_nil, List.map_nil, List.append_nil]
        simpa [trace_ways] using hage
    have hp1 : c1.policy = cache_policy_lru ∨ c1.policy = cache_policy_fifo := by
      rw [h2.1.2.2.1]; exact hp
    have hall1 : all = true ↔ c1.policy = cache_policy_lru := by
      rw [h2.1.2.2.1]; exact hall
    have hidx1 : ∀ b ∈ rest, cache_set_index c1 b.1 = s := by
      intro b hb
      rw [cache_set_index_shape h2.1]
      exact hidx b (List.mem_cons_of_mem _ hb)
    have hl1 : set_wf c1.assoc (c1.sets s)
        (if c.policy = cache_policy_lru ∨ fill = true then move_to_head way l else l) := by
      rw [h2.1.2.1]; exact h4
    obtain ⟨c', tr, l', r1, r2, r3, r4⟩ :=
      ih c1 _ (T ++ [(way, fill)]) hp1 hall1 (by rw [h2.1.1]; exact hs) hidx1 hl1 hage1
    refine ⟨c', (way, fill) :: tr, l', ?_, cache_set_step_trans h2 r2, ?_, ?_⟩
    · simp only [cache_access_run, h1, r1, Option.map_some']
    · rw [h2.1.2.1] at r3; exact r3
    · simpa using r4

/-- After a run of accesses from `cache_create` under LRU or FIFO, the way
`cache_replace_block` returns is the oldest of the set. -/
theorem cache_replace_after_run (nc nt : Nat) (flag all : Bool) (num_sets block_size assoc : Nat)
    (policy : cache_policy_t)
    (hpol : policy = cache_policy_lru ∨ policy = cache_policy_fifo)
    (hall : all = true ↔ policy = cache_policy_lru)
    (hgeo : Nat.land num_sets (num_sets - 1) = 0 ∧ Nat.land block_size (block_size - 1) = 0)
    (hassoc : 0 < assoc) (s : Nat) (hs : s < num_sets) (accs : List (Nat × Int))
    (hidx : ∀ a ∈ accs, (a.1 >>> log_base2 block_size) % num_sets = s)
    (ci : mod_client_info_t) (rnd : Nat) :
    ∃ c0 c tr, cache_create num_sets block_size assoc policy = some c0 ∧
      cache_access_run nc nt flag ci rnd c0 accs = some (c, tr) ∧
      ∃ (c' : cache_t) (v : Nat), cache_replace_block nc nt c s ci rnd = some (c', (v : Int)) ∧
        v < assoc ∧
        ∀ w, w < assoc → way_age (trace_ways all tr) w ≤ way_age (trace_ways all tr) v := by
  obtain ⟨c0, hc0⟩ : ∃ c0, cache_create num_sets block_size assoc policy = some c0 :=
    ⟨_, cache_create_eq num_sets block_size assoc policy hgeo⟩
  obtain ⟨h1, -, -, h4, h5, h6, -, -⟩ := cache_create_ok hc0 hassoc
  obtain ⟨l0, hl0⟩ := h1 s (by rw [h4]; exact hs)
  have hidx0 : ∀ a ∈ accs, cache_set_index c0 a.1 = s := by
    intro a ha
    have hlog : c0.log_block_size = log_base2 block_size := by
      have := cache_create_eq num_sets block_size assoc policy hgeo
      rw [hc0] at this
      rw [Option.some.inj this]
    unfold cache_set_index
    rw [h4, hlog]
    exact hidx a ha
  have hage0 : age_ordered (trace_ways all []) l0 := by
    unfold age_ordered trace_ways way_age
    simp only [List.filter_nil, List.map_nil, List.reverse_nil, List.indexOf_nil, le_refl]
    exact List.pairwise_of_forall (fun _ _ => trivial)
  obtain ⟨c, tr, l, r1, r2, r3, r4⟩ :=
    cache_access_run_ordered nc nt flag ci rnd all s accs c0 l0 []
      (by rw [h6]; exact hpol) (by rw [h6]; exact hall) (by rw [h4]; exact hs) hidx0 hl0 hage0
  refine ⟨c0, c, tr, hc0, r1, ?_⟩
  have hshape := r2.1
  rw [h5] at r3
  have r3' : set_wf c.assoc (c.sets s) l := by rw [hshape.2.1, h5]; exact r3
  obtain ⟨s', q1, -, -⟩ := cache_replace_block_lru_wf nc nt ci rnd
    (by rw [hshape.1, h4]; exact hs) r3' (by rw [hshape.2.2.1, h6]; exact hpol)
  refine ⟨_, _, q1, (r3.2.1 _).1 (set_wf_tail_mem r3), ?_⟩
  intro w hw
  simp only [List.nil_append] at r4
  exact age_ordered_tail r4 r3.2.2.2.1 w ((r3.2.1 w).2 hw)

theorem cache_find_way_le_match (blocks : Nat → cache_block_t) (tag : Int) (n start w : Nat)
    (h1 : start ≤ w) (h2 : w < start + n)
    (hm : (blocks w).tag = tag ∧ (blocks w).state ≠ 0) :
    cache_find_way blocks tag n start ≤ w := by
  by_contra hlt
  exact cache_find_way_first blocks tag n start w h1 (by omega) hm

theorem cache_tag_shape {c c' : cache_t} (h : cache_same_shape c c') (addr : Nat) :
    cache_tag c' addr = cache_tag c addr := by
  unfold cache_tag
  rw [h.2.2.2.2.1]

/-- The function `cache_set_block` on a well-formed cache with exact counters,
whatever the policy: the block gets the tag and the state, and the tags and
states of the other blocks of the set stay. -/
theorem cache_set_block_blocks {c : cache_t} {s w : Nat} (nc nt : Nat) (tag state : Int)
    {ci : Option mod_client_info_t} (hs : s < c.num_sets) (hw : w < c.assoc)
    (hci1 : c.policy = cache_policy_partitioned_lru → ci ≠ none)
    (hci2 : ∀ x, ci = some x → client_in_range nc nt x)
    (hwf : cache_wf c) (hu : cache_used_ways_ok c) :
    ∃ c', cache_set_block nc nt c s w tag state ci = some c' ∧ cache_same_shape c c' ∧
      ((c'.sets s).blocks w).tag = tag ∧ ((c'.sets s).blocks w).state = state ∧
      ∀ a, a ≠ w → ((c'.sets s).blocks a).tag = ((c.sets s).blocks a).tag ∧
        ((c'.sets s).blocks a).state = ((c.sets s).blocks a).state := by
  obtain ⟨l, hl⟩ := hwf s hs
  by_cases hp : c.policy = cache_policy_partitioned_lru
  · have hnf : ¬ (c.policy = cache_policy_fifo ∧ ((c.sets s).blocks w).tag ≠ tag) := by
      rw [hp]
      rintro ⟨h, -⟩
      cases h
    have hwf2 := cache_wf_modify_block hwf s w
      (fun b => { b with tag := tag, state := state, prefetched := 0 })
      (fun b => ⟨rfl, rfl, rfl⟩)
    have hu2 := cache_used_ways_ok_modify_block hu s w
      (fun b => { b with tag := tag, state := state, prefetched := 0 }) (fun b => rfl)
    unfold cache_set_block
    rw [if_pos ⟨hs, hw⟩, if_neg hnf]
    simp only
    have hp2 : (c.modify_block s w
        (fun b => { b with tag := tag, state := state, prefetched := 0 })).policy
        = cache_policy_partitioned_lru := hp
    rw [if_pos hp2]
    cases ci with
    | none => exact absurd rfl (hci1 hp)
    | some x =>
      have hx := hci2 x rfl
      simp only
      rw [if_pos (show 0 ≤ x.core ∧ x.core < (nc : Int) ∧ 0 ≤ x.thread ∧ x.thread < (nt : Int)
        from hx), cache_set_thread_id_eq]
      obtain ⟨c', h1, -, -, h4, h5, -, -⟩ := cache_set_owner_ok (s := s) (w := w)
        (c := c.modify_block s w
          (fun b => { b with tag := tag, state := state, prefetched := 0 }))
        hs hw (client_thread_id_ne hx) hwf2 hu2
      refine ⟨c', h1, cache_same_shape_trans ⟨rfl, rfl, rfl, rfl, rfl, rfl⟩ h4, ?_, ?_, ?_⟩
      · rw [(h5 s w).1]
        simp [modify_block_blocks]
      · rw [(h5 s w).2.2.2.2.2]
        simp [modify_block_blocks]
      · intro a ha
        rw [(h5 s a).1, (h5 s a).2.2.2.2.2]
        simp [modify_block_blocks, ha]
  · obtain ⟨c', h1, h2, -, -, h5, h6, -, h8⟩ :=
      cache_set_block_wf nc nt tag state ci hs hw hl hp
    exact ⟨c', h1, h2.1, h5, h6, fun a ha => ⟨(h8 a ha).1, (h8 a ha).2.2.2.2.2⟩⟩

/-! ## Lemmas on `double` -/

theorem double_lt_trans {a b c : double} (h1 : double.lt a b) (h2 : double.lt b c) :
    double.lt a c := by
  obtain ⟨ha, hb, h1⟩ := h1
  obtain ⟨_, hc, h2⟩ := h2
  refine ⟨ha, hc, ?_⟩
  have had : (0 : Int) < a.den := by omega
  have hbd : (0 : Int) < b.den := by omega
  have hcd : (0 : Int) < c.den := by omega
  have e1 : a.num * b.den * c.den < b.num * a.den * c.den := mul_lt_mul_of_pos_right h1 hcd
  have e2 : b.num * c.den * a.den < c.num * b.den * a.den := mul_lt_mul_of_pos_right h2 had
  have e3 : (a.num * c.den) * b.den < (c.num * a.den) * b.den := by linarith
  exact lt_of_mul_lt_mul_right e3 (le_of_lt hbd)

theorem double_lt_of_lt_of_not_lt {z g m : double} (h1 : double.lt z g) (h2 : ¬ double.lt m g)
    (hm : m.den ≠ 0) : double.lt z m := by
  obtain ⟨hz, hg, h1⟩ := h1
  have h3 : g.num * m.den ≤ m.num * g.den := by
    by_contra hc
    exact h2 ⟨hm, hg, by omega⟩
  refine ⟨hz, hm, ?_⟩
  have hzd : (0 : Int) < z.den := by omega
  have hgd : (0 : Int) < g.den := by omega
  have hmd : (0 : Int) < m.den := by omega
  have e1 : z.num * g.den * m.den < g.num * z.den * m.den := mul_lt_mul_of_pos_right h1 hmd
  have e2 : g.num * m.den * z.den ≤ m.num * g.den * z.den :=
    mul_le_mul_of_nonneg_right h3 (le_of_lt hzd)
  have e3 : (z.num * m.den) * g.den < (m.num * z.den) * g.den := by linarith
  exact lt_of_mul_lt_mul_right e3 (le_of_lt hgd)

theorem double_not_lt_of_lt_of_not_lt {a b x : double} (h1 : double.lt a b)
    (h2 : ¬ double.lt a x) : ¬ double.lt b x :=
  fun h => h2 (double_lt_trans h1 h)

/-! ## Lemmas on `ucp_repartition` -/

theorem foldl_cond_sum (p : Nat → Bool) (f : Nat → Int) (l : List Nat) (a : Int) :
    l.foldl (fun acc i => if p i = true then acc + f i else acc) a
      = a + (l.map (fun i => if p i = true then f i else 0)).sum := by
  induction l generalizing a with
  | nil => simp
  | cons x l ih =>
    simp only [List.foldl_cons, List.map_cons, List.sum_cons]
    rw [ih]
    split_ifs <;> omega

theorem sum_assigned_ways_eq (n : Nat) (mod : mod_t) :
    sum_assigned_ways n mod =
      ((List.range n).map (fun i : Nat =>
        if mod.reachable_threads i = true then mod.cache.assigned_ways i else 0)).sum := by
  unfold sum_assigned_ways
  rw [foldl_cond_sum (fun i => mod.reachable_threads (i : Int))
    (fun i => mod.cache.assigned_ways (i : Int))]
  simp

theorem sum_assigned_ways_update (n : Nat) (mod mod' : mod_t) (w : Nat) (hw : w < n)
    (hr : mod'.reachable_threads = mod.reachable_threads)
    (hrw : mod.reachable_threads w = true)
    (h : ∀ a : Nat, a ≠ w → mod'.cache.assigned_ways a = mod.cache.assigned_ways a) :
    sum_assigned_ways n mod' =
      sum_assigned_ways n mod - mod.cache.assigned_ways w + mod'.cache.assigned_ways w := by
  rw [sum_assigned_ways_eq, sum_assigned_ways_eq]
  rw [sum_range_update
    (fun i : Nat => if mod.reachable_threads i = true then mod.cache.assigned_ways i else 0)
    (fun i : Nat => if mod'.reachable_threads i = true then mod'.cache.assigned_ways i else 0)
    w n hw]
  · simp only [hr, hrw, if_true]
  · intro a ha
    simp only [hr, h a ha]

theorem sum_assigned_ways_congr (n : Nat) (mod mod' : mod_t)
    (hr : mod'.reachable_threads = mod.reachable_threads)
    (h : ∀ a : Nat, a < n → mod.reachable_threads a = true →
      mod'.cache.assigned_ways a = mod.cache.assigned_ways a) :
    sum_assigned_ways n mod' = sum_assigned_ways n mod := by
  rw [sum_assigned_ways_eq, sum_assigned_ways_eq]
  congr 1
  apply List.map_congr_left
  intro a ha
  rw [hr]
  split_ifs with hra
  · exact h a (List.mem_range.1 ha) hra
  · rfl

/-- A lower bound of every reachable quota bounds their sum. -/
theorem sum_assigned_ways_ge (n : Nat) (mod : mod_t) (k : Int)
    (h : ∀ a : Nat, a < n → mod.reachable_threads a = true → k ≤ mod.cache.assigned_ways a) :
    k * (count_reachable n mod : Int) ≤ sum_assigned_ways n mod := by
  rw [sum_assigned_ways_eq]
  unfold count_reachable
  induction n with
  | zero => simp
  | succ n ih =>
    rw [List.range_succ, List.map_append, List.sum_append, List.countP_append]
    have ih1 := ih (fun a ha hr => h a (by omega) hr)
    simp only [List.map_cons, List.map_nil, List.sum_cons, List.sum_nil, List.countP_cons,
      List.countP_nil]
    by_cases hr : mod.reachable_threads (n : Int) = true
    · have := h n (by omega) hr
      simp only [hr, if_true]
      push_cast
      linarith
    · simp only [hr]
      simp
      linarith

/-- A reachable quota is at most the sum minus the lower bound of the others. -/
theorem assigned_ways_le_sum (n : Nat) (mod : mod_t) (g : Nat) (hg : g < n)
    (hgr : mod.reachable_threads g = true) (k : Int)
    (h : ∀ a : Nat, a < n → mod.reachable_threads a = true → k ≤ mod.cache.assigned_ways a) :
    mod.cache.assigned_ways g + k * ((count_reachable n mod : Int) - 1)
      ≤ sum_assigned_ways n mod := by
  let mod' : mod_t := { mod with
    cache := { mod.cache with assigned_ways := Function.update mod.cache.assigned_ways g k } }
  have h1 := sum_assigned_ways_update n mod mod' g hg rfl hgr (by
    intro a ha
    show Function.update mod.cache.assigned_ways (g : Int) k (a : Int) = _
    rw [Function.update_noteq]
    omega)
  have h2 : mod'.cache.assigned_ways g = k := by
    show Function.update mod.cache.assigned_ways (g : Int) k (g : Int) = _
    simp
  have h3 := sum_assigned_ways_ge n mod' k (by
    intro a ha hr
    show k ≤ Function.update mod.cache.assigned_ways (g : Int) k (a : Int)
    by_cases hag : a = g
    · subst hag
      simp
    · rw [Function.update_noteq (by omega)]
      exact h a ha hr)
  have h4 : count_reachable n mod' = count_reachable n mod := rfl
  rw [h4] at h3
  rw [h2] at h1
  linarith

theorem ucp_seed_succ (ucp : ucp_t) (b : Int) (n : Nat) :
    ucp_seed (n + 1) ucp b =
      if (ucp_seed n ucp b).1.mod.reachable_threads n = true then
        ((ucp_seed n ucp b).1.set_assigned_ways n 1, (ucp_seed n ucp b).2 - 1)
      else ucp_seed n ucp b := by
  simp only [ucp_seed, List.range_succ, List.foldl_append, List.foldl_cons, List.foldl_nil]

theorem ucp_seed_spec (ucp : ucp_t) (b : Int) (n : Nat) :
    (ucp_seed n ucp b).1.mod.reachable_threads = ucp.mod.reachable_threads ∧
    (ucp_seed n ucp b).1.mod.atd_per_thread = ucp.mod.atd_per_thread ∧
    (ucp_seed n ucp b).1.mod.cache.assoc = ucp.mod.cache.assoc ∧
    (ucp_seed n ucp b).1.max_mu = ucp.max_mu ∧
    (∀ i : Nat, i < n → ucp.mod.reachable_threads i = true →
      (ucp_seed n ucp b).1.mod.cache.assigned_ways i = 1) ∧
    (ucp_seed n ucp b).2 = b - count_reachable n ucp.mod := by
  induction n with
  | zero =>
    refine ⟨rfl, rfl, rfl, rfl, ?_, ?_⟩
    · intro i hi
      omega
    · simp [ucp_seed, count_reachable]
  | succ n ih =>
    obtain ⟨h1, h2, h3, h4, h5, h6⟩ := ih
    rw [ucp_seed_succ]
    unfold count_reachable at h6 ⊢
    rw [List.range_succ, List.countP_append]
    by_cases hr : ucp.mod.reachable_threads (n : Int) = true
    · rw [if_pos (by rw [h1]; exact hr)]
      refine ⟨h1, h2, h3, h4, ?_, ?_⟩
      · intro i hi hri
        show Function.update _ (n : Int) 1 (i : Int) = 1
        by_cases hin : i = n
        · subst hin
          simp
        · rw [Function.update_noteq (by omega)]
          exact h5 i (by omega) hri
      · show (ucp_seed n ucp b).2 - 1 = _
        rw [h6]
        simp [hr]
        omega
    · rw [if_neg (by rw [h1]; exact hr)]
      refine ⟨h1, h2, h3, h4, ?_, ?_⟩
      · intro i hi hri
        by_cases hin : i = n
        · subst hin
          exact absurd hri hr
        · exact h5 i (by omega) hri
      · rw [h6]
        simp [hr]

theorem ucp_seed_sum (ucp : ucp_t) (b : Int) (n : Nat) :
    sum_assigned_ways n (ucp_seed n ucp b).1.mod = count_reachable n ucp.mod := by
  obtain ⟨h1, _, _, _, h5, _⟩ := ucp_seed_spec ucp b n
  rw [sum_assigned_ways_eq, h1]
  unfold count_reachable
  have : ∀ m : Nat, m ≤ n →
      ((List.range m).map (fun i : Nat =>
        if ucp.mod.reachable_threads i = true then
          (ucp_seed n ucp b).1.mod.cache.assigned_ways i else 0)).sum =
        ((List.range m).countP (fun (i : Nat) => ucp.mod.reachable_threads (i : Int)) : Nat) := by
    intro m
    induction m with
    | zero => intro _; simp
    | succ m ih =>
      intro hm
      rw [List.range_succ, List.map_append, List.sum_append, List.countP_append, ih (by omega)]
      by_cases hr : ucp.mod.reachable_threads (m : Int) = true
      · simp [hr, h5 m (by omega) hr]
      · simp [hr]
  exact this n (le_refl n)

theorem ucp_max_mu_congr (u u' : ucp_t) (h : u'.mod = u.mod) (t alloc balance : Int) :
    ucp_max_mu u' t alloc balance = ucp_max_mu u t alloc balance := by
  unfold ucp_max_mu ucp_mu
  rw [h]

theorem ucp_max_mu_spec (ucp : ucp_t) (t alloc : Int) (atd : atd_t)
    (hatd : ucp.mod.atd_per_thread t = some atd) (k : Nat) :
    ∃ m r, (List.range k).foldl
        (fun (acc : Option (double × Int)) (k : Nat) =>
          match acc with
          | none => none
          | some (max_mu, ways_req) =>
            let i : Int := (k : Int) + 1
            match ucp_mu ucp t alloc (alloc + i) with
            | none => none
            | some mu => if double.lt max_mu mu then some (mu, i) else some (max_mu, ways_req))
        (some (double.ofInt 0, 0)) = some (m, r) ∧
      m.den ≠ 0 ∧ (k = 0 → m = double.ofInt 0) ∧
      (double.lt (double.ofInt 0) m → 1 ≤ r ∧ r ≤ k) ∧
      (1 ≤ k → 0 < atd.stack_distance_counters alloc → double.lt (double.ofInt 0) m) := by
  induction k with
  | zero =>
    refine ⟨double.ofInt 0, 0, rfl, by decide, fun _ => rfl, ?_, ?_⟩
    · intro h
      exact absurd h (by decide)
    · intro h
      omega
  | succ k ih =>
    obtain ⟨m, r, he, hm, h0, h1, h2⟩ := ih
    rw [List.range_succ, List.foldl_append, he]
    have hmu : ∃ hits : Int, ucp_mu ucp t alloc (alloc + ((k : Int) + 1)) =
        some ⟨hits * 1, 1 * ((k : Int) + 1).toNat⟩ ∧
        (k = 0 → hits = atd.stack_distance_counters alloc) := by
      unfold ucp_mu
      rw [if_pos (by omega), hatd]
      have e : alloc + ((k : Int) + 1) - alloc = (k : Int) + 1 := by omega
      simp only [e]
      refine ⟨(List.range ((k : Int) + 1).toNat).foldl
        (fun acc (k : Nat) => acc + atd.stack_distance_counters (alloc + k)) 0, ?_, ?_⟩
      · unfold double.div double.ofInt
        have hpos : (0 : Int) < (k : Int) + 1 := by omega
        simp only [one_ne_zero, or_self, if_false, hpos, if_true, Nat.cast_one]
      · intro hk
        subst hk
        rw [show ((0 : Nat) : Int) + 1 = 1 from rfl, show (1 : Int).toNat = 1 from rfl,
          show List.range 1 = [0] from rfl]
        simp
    obtain ⟨hits, hmu, hhits⟩ := hmu
    simp only [List.foldl_cons, List.foldl_nil, hmu]
    have hfin : (1 * ((k : Int) + 1).toNat) ≠ 0 := by omega
    by_cases hlt : double.lt m ⟨hits * 1, 1 * ((k : Int) + 1).toNat⟩
    · rw [if_pos hlt]
      refine ⟨_, _, rfl, hfin, fun h => by omega, ?_, ?_⟩
      · intro _
        push_cast
        omega
      · intro _ hc
        by_cases hk : k = 0
        · have := h0 hk
          subst this
          exact hlt
        · exact double_lt_trans (h2 (by omega) hc) hlt
    · rw [if_neg hlt]
      refine ⟨m, r, rfl, hm, fun h => by omega, ?_, ?_⟩
      · intro h
        have := h1 h
        push_cast
        omega
      · intro _ hc
        by_cases hk : k = 0
        · exfalso
          apply hlt
          rw [h0 hk, hhits hk]
          subst hk
          refine ⟨by decide, by simp, ?_⟩
          simp [double.ofInt]
          exact hc
        · exact h2 (by omega) hc

theorem ucp_max_mu_ok (ucp : ucp_t) (t alloc balance : Int) (atd : atd_t)
    (hatd : ucp.mod.atd_per_thread t = some atd) (hb : 0 ≤ balance) :
    ∃ m r, ucp_max_mu ucp t alloc balance = some (m, r) ∧
      (double.lt (double.ofInt 0) m → 1 ≤ r ∧ r ≤ balance) ∧
      (1 ≤ balance → 0 < atd.stack_distance_counters alloc → double.lt (double.ofInt 0) m) := by
  obtain ⟨m, r, he, _, _, h1, h2⟩ := ucp_max_mu_spec ucp t alloc atd hatd balance.toNat
  refine ⟨m, r, he, ?_, ?_⟩
  · intro h
    have := h1 h
    omega
  · intro hb1 hc
    exact h2 (by omega) hc

theorem ucp_compute_max_mu_succ (ucp : ucp_t) (balance : Int) (n : Nat) :
    ucp_compute_max_mu (n + 1) ucp balance =
      match ucp_compute_max_mu n ucp balance with
      | none => none
      | some u =>
        if ¬ u.mod.reachable_threads n then some u
        else
          match ucp_max_mu u n (u.mod.cache.assigned_ways n) balance with
          | none => none
          | some (mu, req) =>
            some { u with
              max_mu := Function.update u.max_mu n mu
              ways_req := Function.update u.ways_req n req } := by
  simp only [ucp_compute_max_mu, List.range_succ, List.foldl_append, List.foldl_cons,
    List.foldl_nil]

theorem ucp_compute_max_mu_spec (ucp : ucp_t) (balance : Int) (hb : 0 ≤ balance) (n : Nat)
    (hatd : ∀ i : Nat, i < n → ucp.mod.reachable_threads i = true →
      (ucp.mod.atd_per_thread i).isSome = true) :
    ∃ u1, ucp_compute_max_mu n ucp balance = some u1 ∧ u1.mod = ucp.mod ∧
      (∀ i : Nat, i < n → ucp.mod.reachable_threads i = true →
        ucp_max_mu ucp i (ucp.mod.cache.assigned_ways i) balance =
          some (u1.max_mu i, u1.ways_req i)) ∧
      (∀ i : Nat, ucp.mod.reachable_threads i = false → u1.max_mu i = ucp.max_mu i) := by
  induction n with
  | zero =>
    exact ⟨ucp, rfl, rfl, fun i hi => by omega, fun _ _ => rfl⟩
  | succ n ih =>
    obtain ⟨u1, he, hmod, h1, h2⟩ := ih (fun i hi => hatd i (by omega))
    rw [ucp_compute_max_mu_succ, he]
    by_cases hr : ucp.mod.reachable_threads (n : Int) = true
    · have hr1 : u1.mod.reachable_threads (n : Int) = true := by rw [hmod]; exact hr
      obtain ⟨atd, ha⟩ := Option.isSome_iff_exists.1 (hatd n (by omega) hr)
      obtain ⟨m, r, hmr, _⟩ := ucp_max_mu_ok ucp n (ucp.mod.cache.assigned_ways n) balance atd ha hb
      have hmr1 : ucp_max_mu u1 n (u1.mod.cache.assigned_ways n) balance = some (m, r) := by
        rw [ucp_max_mu_congr ucp u1 hmod, hmod]
        exact hmr
      simp only [hr1, not_true_eq_false, if_false, hmr1]
      refine ⟨_, rfl, hmod, ?_, ?_⟩
      · intro i hi hri
        by_cases hin : i = n
        · subst hin
          simp [hmr]
        · rw [h1 i (by omega) hri]
          simp only [Option.some.injEq, Prod.mk.injEq]
          rw [Function.update_noteq (by omega), Function.update_noteq (by omega)]
          exact ⟨rfl, rfl⟩
      · intro i hri
        show Function.update u1.max_mu (n : Int) m (i : Int) = _
        rw [Function.update_noteq]
        · exact h2 i hri
        · intro hc
          have : i = n := by omega
          subst this
          rw [hr] at hri
          cases hri
    · have hr1 : ¬ u1.mod.reachable_threads (n : Int) = true := by rw [hmod]; exact hr
      simp only [hr1, not_false_eq_true, if_true]
      refine ⟨u1, rfl, hmod, ?_, h2⟩
      intro i hi hri
      by_cases hin : i = n
      · subst hin
        exact absurd hri hr
      · exact h1 i (by omega) hri

theorem ucp_choose_winner_succ (ucp : ucp_t) (n : Nat) :
    ucp_choose_winner (n + 1) ucp =
      if double.lt (ucp_choose_winner n ucp).2 (ucp.max_mu n) then ((n : Int), ucp.max_mu n)
      else ucp_choose_winner n ucp := by
  simp only [ucp_choose_winner, List.range_succ, List.foldl_append, List.foldl_cons,
    List.foldl_nil]

theorem ucp_choose_winner_spec (ucp : ucp_t) (n : Nat) :
    (ucp_choose_winner n ucp).2.den ≠ 0 ∧
    (ucp_choose_winner n ucp = (-1, double.ofInt (-1)) ∨
      ∃ t : Nat, t < n ∧ ucp_choose_winner n ucp = ((t : Int), ucp.max_mu t)) ∧
    ∀ t : Nat, t < n → ¬ double.lt (ucp_choose_winner n ucp).2 (ucp.max_mu t) := by
  induction n with
  | zero =>
    refine ⟨?_, Or.inl rfl, fun t ht => by omega⟩
    show (double.ofInt (-1)).den ≠ 0
    decide
  | succ n ih =>
    obtain ⟨h1, h2, h3⟩ := ih
    rw [ucp_choose_winner_succ]
    by_cases hlt : double.lt (ucp_choose_winner n ucp).2 (ucp.max_mu n)
    · rw [if_pos hlt]
      refine ⟨hlt.2.1, Or.inr ⟨n, by omega, rfl⟩, ?_⟩
      intro t ht
      by_cases htn : t = n
      · subst htn
        exact fun hc => lt_irrefl _ hc.2.2
      · exact double_not_lt_of_lt_of_not_lt hlt (h3 t (by omega))
    · rw [if_neg hlt]
      refine ⟨h1, ?_, ?_⟩
      · rcases h2 with h2 | ⟨t, ht, h2⟩
        · exact Or.inl h2
        · exact Or.inr ⟨t, by omega, h2⟩
      · intro t ht
        by_cases htn : t = n
        · subst htn
          exact hlt
        · exact h3 t (by omega)

theorem ucp_choose_winner_pos (ucp : ucp_t) (n g : Nat) (hg : g < n)
    (hpos : double.lt (double.ofInt 0) (ucp.max_mu g)) :
    ∃ w : Nat, w < n ∧ (ucp_choose_winner n ucp).1 = (w : Int) ∧
      double.lt (double.ofInt 0) (ucp.max_mu w) := by
  obtain ⟨h1, h2, h3⟩ := ucp_choose_winner_spec ucp n
  have hm := double_lt_of_lt_of_not_lt hpos (h3 g hg) h1
  rcases h2 with h2 | ⟨t, ht, h2⟩
  · rw [h2] at hm
    exact absurd hm (by decide)
  · rw [h2] at hm
    exact ⟨t, ht, by rw [h2], hm⟩

theorem ucp_allocate_spec (total g : Nat) (atd : atd_t) (assoc : Nat) (fuel : Nat) :
    ∀ (ucp : ucp_t) (balance last : Int),
      g < total → ucp.mod.reachable_threads g = true → ucp.mod.atd_per_thread g = some atd →
      (∀ k : Nat, k < assoc → 1 ≤ k → 0 < atd.stack_distance_counters k) →
      (∀ i : Nat, i < total → ucp.mod.reachable_threads i = true →
        (ucp.mod.atd_per_thread i).isSome = true) →
      (∀ i : Nat, i < total → ucp.mod.reachable_threads i = false →
        ¬ double.lt (double.ofInt 0) (ucp.max_mu i)) →
      0 ≤ balance → balance ≤ last →
      sum_assigned_ways total ucp.mod + balance = assoc →
      (∀ i : Nat, i < total → ucp.mod.reachable_threads i = true →
        1 ≤ ucp.mod.cache.assigned_ways i) →
      balance.toNat + 1 ≤ fuel →
      ∃ u', ucp_allocate total fuel ucp balance last = some u' ∧
        sum_assigned_ways total u'.mod = assoc ∧
        u'.mod.reachable_threads = ucp.mod.reachable_threads ∧
        (∀ i : Nat, i < total → ucp.mod.reachable_threads i = true →
          1 ≤ u'.mod.cache.assigned_ways i) := by
  induction fuel with
  | zero =>
    intro ucp balance last _ _ _ _ _ _ _ _ _ _ hf
    omega
  | succ fuel ih =>
    intro ucp balance last hg hgr hga hpos hatd hstale hb0 hlast hsum hone hfuel
    unfold ucp_allocate
    by_cases hbz : balance = 0
    · rw [if_pos hbz]
      exact ⟨ucp, rfl, by omega, rfl, hone⟩
    · rw [if_neg hbz]
      obtain ⟨u1, he, hmod, h1, h2⟩ := ucp_compute_max_mu_spec ucp balance hb0 total hatd
      simp only [he]
      -- the thread `g` has a positive marginal utility
      have hga1 := assigned_ways_le_sum total ucp.mod g hg hgr 0
        (fun a ha hr => by have := hone a ha hr; omega)
      have hg1 := hone g hg hgr
      obtain ⟨m, r, hmr, _, hgpos⟩ :=
        ucp_max_mu_ok ucp g (ucp.mod.cache.assigned_ways g) balance atd hga hb0
      have hgm : double.lt (double.ofInt 0) (u1.max_mu g) := by
        have e := h1 g hg hgr
        rw [hmr] at e
        simp only [Option.some.injEq, Prod.mk.injEq] at e
        rw [← e.1]
        apply hgpos (by omega)
        have hk := hpos (ucp.mod.cache.assigned_ways g).toNat (by omega) (by omega)
        rwa [Int.toNat_of_nonneg (by omega)] at hk
      obtain ⟨w, hw, hwin, hwpos⟩ := ucp_choose_winner_pos u1 total g hg hgm
      have hwr : ucp.mod.reachable_threads (w : Int) = true := by
        by_contra hc
        have hf : ucp.mod.reachable_threads (w : Int) = false := by simpa using hc
        rw [h2 w hf] at hwpos
        exact hstale w hw hf hwpos
      obtain ⟨atdw, haw⟩ := Option.isSome_iff_exists.1 (hatd w hw hwr)
      obtain ⟨mw, rw', hmrw, hreq, _⟩ :=
        ucp_max_mu_ok ucp w (ucp.mod.cache.assigned_ways w) balance atdw haw hb0
      have ew := h1 w hw hwr
      rw [hmrw] at ew
      simp only [Option.some.injEq, Prod.mk.injEq] at ew
      have hreq1 : 1 ≤ u1.ways_req w ∧ u1.ways_req w ≤ balance := by
        rw [← ew.2]
        apply hreq
        rw [ew.1]
        exact hwpos
      rw [hwin]
      rw [if_neg (by omega), if_neg (by omega)]
      have hsum2 := sum_assigned_ways_update total ucp.mod
        (u1.set_assigned_ways w (u1.mod.cache.assigned_ways w + u1.ways_req w)).mod w hw
        (by show u1.mod.reachable_threads = _; rw [hmod]) hwr (by
          intro a ha
          show Function.update u1.mod.cache.assigned_ways (w : Int) _ (a : Int) = _
          rw [Function.update_noteq (by omega), hmod])
      have hsw : (u1.set_assigned_ways w
          (u1.mod.cache.assigned_ways w + u1.ways_req w)).mod.cache.assigned_ways w =
          ucp.mod.cache.assigned_ways w + u1.ways_req w := by
        show Function.update u1.mod.cache.assigned_ways (w : Int) _ (w : Int) = _
        rw [Function.update_same, hmod]
      rw [hsw] at hsum2
      have hr2 : (u1.set_assigned_ways w
          (u1.mod.cache.assigned_ways w + u1.ways_req w)).mod.reachable_threads =
          ucp.mod.reachable_threads := by
        show u1.mod.reachable_threads = _
        rw [hmod]
      have ha2 : (u1.set_assigned_ways w
          (u1.mod.cache.assigned_ways w + u1.ways_req w)).mod.atd_per_thread =
          ucp.mod.atd_per_thread := by
        show u1.mod.atd_per_thread = _
        rw [hmod]
      have hone2 : ∀ i : Nat, i < total → ucp.mod.reachable_threads i = true →
          1 ≤ (u1.set_assigned_ways w
            (u1.mod.cache.assigned_ways w + u1.ways_req w)).mod.cache.assigned_ways i := by
        intro i hi hri
        show 1 ≤ Function.update u1.mod.cache.assigned_ways (w : Int) _ (i : Int)
        by_cases hiw : i = w
        · subst hiw
          rw [Function.update_same, hmod]
          have := hone i hi hri
          omega
        · rw [Function.update_noteq (by omega), hmod]
          exact hone i hi hri
      obtain ⟨u', hu', hs', hr', ho'⟩ := ih
        (u1.set_assigned_ways w (u1.mod.cache.assigned_ways w + u1.ways_req w))
        (balance - u1.ways_req w) (balance - u1.ways_req w)
        hg (by rw [hr2]; exact hgr) (by rw [ha2]; exact hga) hpos
        (by intro i hi hri; rw [hr2] at hri; rw [ha2]; exact hatd i hi hri)
        (by
          intro i hi hri
          rw [hr2] at hri
          show ¬ double.lt (double.ofInt 0) (u1.max_mu i)
          rw [h2 i hri]
          exact hstale i hi hri)
        (by omega) (le_refl _) (by omega)
        (by intro i hi hri; rw [hr2] at hri; exact hone2 i hi hri)
        (by omega)
      refine ⟨u', hu', hs', by rw [hr', hr2], ?_⟩
      intro i hi hri
      exact ho' i hi (by rw [hr2]; exact hri)

theorem ucp_decay_fold (f : atd_t → atd_t) (l : List Nat) (ucp : ucp_t) :
    (l.foldl
      (fun (acc : ucp_t) (thread_id : Nat) =>
        match acc.mod.atd_per_thread thread_id with
        | none => acc
        | some atd =>
          { acc with
            mod := { acc.mod with
              atd_per_thread :=
                Function.update acc.mod.atd_per_thread thread_id (some (f atd)) } })
      ucp).mod.cache = ucp.mod.cache ∧
    (l.foldl
      (fun (acc : ucp_t) (thread_id : Nat) =>
        match acc.mod.atd_per_thread thread_id with
        | none => acc
        | some atd =>
          { acc with
            mod := { acc.mod with
              atd_per_thread :=
                Function.update acc.mod.atd_per_thread thread_id (some (f atd)) } })
      ucp).mod.reachable_threads = ucp.mod.reachable_threads := by
  induction l generalizing ucp with
  | nil => exact ⟨rfl, rfl⟩
  | cons x l ih =>
    rw [List.foldl_cons]
    cases h : ucp.mod.atd_per_thread x with
    | none => exact ih ucp
    | some atd =>
      simp only []
      obtain ⟨h1, h2⟩ := ih { ucp with
        mod := { ucp.mod with
          atd_per_thread := Function.update ucp.mod.atd_per_thread x (some (f atd)) } }
      exact ⟨h1, h2⟩

theorem ucp_decay_spec (n : Nat) (ucp : ucp_t) :
    (ucp_decay n ucp).mod.cache = ucp.mod.cache ∧
    (ucp_decay n ucp).mod.reachable_threads = ucp.mod.reachable_threads :=
  ucp_decay_fold (ucp_halve n) (List.range n) ucp

/-! ## More lemmas on `double` -/

theorem double_le_of_not_lt {a b : double} (ha : a.den ≠ 0) (hb : b.den ≠ 0)
    (h : ¬ double.lt b a) : double.le a b := by
  refine ⟨ha, hb, ?_⟩
  by_contra hc
  exact h ⟨hb, ha, by omega⟩

theorem double_le_of_lt {a b : double} (h : double.lt a b) : double.le a b :=
  ⟨h.1, h.2.1, le_of_lt h.2.2⟩

theorem double_le_refl {a : double} (ha : a.den ≠ 0) : double.le a a :=
  ⟨ha, ha, le_refl _⟩

theorem double_le_trans {a b c : double} (h1 : double.le a b) (h2 : double.le b c) :
    double.le a c := by
  obtain ⟨ha, hb, h1⟩ := h1
  obtain ⟨_, hc, h2⟩ := h2
  refine ⟨ha, hc, ?_⟩
  have had : (0 : Int) < a.den := by omega
  have hbd : (0 : Int) < b.den := by omega
  have hcd : (0 : Int) < c.den := by omega
  have e1 : a.num * b.den * c.den ≤ b.num * a.den * c.den :=
    mul_le_mul_of_nonneg_right h1 (le_of_lt hcd)
  have e2 : b.num * c.den * a.den ≤ c.num * b.den * a.den :=
    mul_le_mul_of_nonneg_right h2 (le_of_lt had)
  have e3 : (a.num * c.den) * b.den ≤ (c.num * a.den) * b.den := by linarith
  exact le_of_mul_le_mul_right e3 hbd

theorem double_div_finite {a b : double} (ha : a.den ≠ 0) (hb : b.den ≠ 0) (hn : b.num ≠ 0) :
    (double.div a b).den ≠ 0 ∧ (a.num ≠ 0 → (double.div a b).num ≠ 0) := by
  unfold double.div
  rw [if_neg (by simp [ha, hb])]
  by_cases hp : 0 < b.num
  · rw [if_pos hp]
    refine ⟨?_, ?_⟩
    · show a.den * b.num.toNat ≠ 0
      have : b.num.toNat ≠ 0 := by omega
      exact Nat.mul_ne_zero ha this
    · intro h
      show a.num * (b.den : Int) ≠ 0
      exact mul_ne_zero h (by omega)
  · rw [if_neg hp, if_pos (by omega)]
    refine ⟨?_, ?_⟩
    · show a.den * (-b.num).toNat ≠ 0
      have : (-b.num).toNat ≠ 0 := by omega
      exact Nat.mul_ne_zero ha this
    · intro h
      show -(a.num * (b.den : Int)) ≠ 0
      exact neg_ne_zero.2 (mul_ne_zero h (by omega))

theorem x86_thread_speedup_finite (esim : esim_t) (t : Int) (hc : esim.esim_cycle ≠ 0)
    (hu : (esim.threads t).num_committed_uinst ≠ 0)
    (hp : esim.esim_cycle - (esim.threads t).interthread_penalty_cycles ≠ 0) :
    (x86_thread_speedup esim t).den ≠ 0 := by
  unfold x86_thread_speedup
  simp only [hc, hp, ne_eq, not_false_eq_true, if_true]
  have h1 := @double_div_finite (double.ofInt (esim.threads t).num_committed_uinst)
    (double.ofInt esim.esim_cycle) Nat.one_ne_zero Nat.one_ne_zero hc
  have h2 := @double_div_finite (double.ofInt (esim.threads t).num_committed_uinst)
    (double.ofInt (esim.esim_cycle - (esim.threads t).interthread_penalty_cycles))
    Nat.one_ne_zero Nat.one_ne_zero hp
  exact (double_div_finite h1.1 h2.1 (h2.2 hu)).1

/-! ## The insertion sort sorts -/

theorem compare_is_neg (f : fcp_t) (a b : Int) :
    compare_is f a b < 0 ↔
      double.lt (f.data a).individual_speedup (f.data b).individual_speedup := by
  unfold compare_is
  split_ifs <;> simp_all

theorem insert_sorted (s : Int → double) (a : Int) (acc : List Int)
    (ha : (s a).den ≠ 0) (hfin : ∀ b ∈ acc, (s b).den ≠ 0)
    (hs : acc.Pairwise (fun x y => double.le (s x) (s y))) :
    ((acc.takeWhile fun b => decide (double.lt (s b) (s a))) ++
      a :: (acc.dropWhile fun b => decide (double.lt (s b) (s a)))).Pairwise
        (fun x y => double.le (s x) (s y)) := by
  induction acc with
  | nil => simp
  | cons b acc ih =>
    have hs' := List.pairwise_cons.1 hs
    by_cases hlt : double.lt (s b) (s a)
    · simp only [List.takeWhile_cons, List.dropWhile_cons, hlt, decide_True, if_true,
        List.cons_append]
      refine List.pairwise_cons.2 ⟨?_, ih (fun x hx => hfin x (List.mem_cons_of_mem _ hx)) hs'.2⟩
      intro y hy
      rcases List.mem_append.1 hy with hy | hy
      · exact hs'.1 y ((List.takeWhile_sublist _).subset hy)
      · rcases List.mem_cons.1 hy with hy | hy
        · subst hy
          exact double_le_of_lt hlt
        · exact hs'.1 y ((List.dropWhile_sublist _).subset hy)
    · simp only [List.takeWhile_cons, List.dropWhile_cons, hlt, decide_False, List.nil_append]
      have hab : double.le (s a) (s b) :=
        double_le_of_not_lt ha (hfin b (List.mem_cons_self _ _)) hlt
      refine List.pairwise_cons.2 ⟨?_, hs⟩
      intro y hy
      rcases List.mem_cons.1 hy with hy | hy
      · subst hy
        exact hab
      · exact double_le_trans hab (hs'.1 y hy)

theorem list_sort_insertion_sorts : list_sort_sorts list_sort_insertion := by
  intro f
  generalize f.threads = l
  induction l with
  | nil =>
    intro _
    exact ⟨List.Perm.refl _, List.Pairwise.nil⟩
  | cons a l ih =>
    intro hfin
    obtain ⟨hp, hs⟩ := ih (fun t ht => hfin t (List.mem_cons_of_mem _ ht))
    have e : list_sort_insertion (compare_is f) (a :: l) =
        ((list_sort_insertion (compare_is f) l).takeWhile fun b =>
          decide (double.lt (f.data b).individual_speedup (f.data a).individual_speedup)) ++
        a :: ((list_sort_insertion (compare_is f) l).dropWhile fun b =>
          decide (double.lt (f.data b).individual_speedup (f.data a).individual_speedup)) := by
      simp only [list_sort_insertion, List.foldr_cons, compare_is_neg]
    rw [e]
    refine ⟨?_, ?_⟩
    · refine List.Perm.trans List.perm_middle ?_
      rw [List.takeWhile_append_dropWhile]
      exact List.Perm.cons a hp
    · exact insert_sorted (fun t => (f.data t).individual_speedup) a _
        (hfin a (List.mem_cons_self _ _))
        (fun b hb => hfin b (List.mem_cons_of_mem _ (hp.subset hb))) hs

/-! ## Lemmas on the quotas FCP writes -/

theorem sum_assigned_ways_succ (n : Nat) (mod : mod_t) :
    sum_assigned_ways (n + 1) mod =
      sum_assigned_ways n mod +
        (if mod.reachable_threads n = true then mod.cache.assigned_ways n else 0) := by
  rw [sum_assigned_ways_eq, sum_assigned_ways_eq, List.range_succ, List.map_append,
    List.sum_append]
  simp

/-- An upper bound of every reachable quota bounds their sum. -/
theorem sum_assigned_ways_le (n : Nat) (mod : mod_t) (k : Int)
    (h : ∀ a : Nat, a < n → mod.reachable_threads a = true → mod.cache.assigned_ways a ≤ k) :
    sum_assigned_ways n mod ≤ k * (count_reachable n mod : Int) := by
  induction n with
  | zero => simp [sum_assigned_ways, count_reachable]
  | succ n ih =>
    have ih1 := ih (fun a ha hr => h a (by omega) hr)
    rw [sum_assigned_ways_succ]
    unfold count_reachable at ih1 ⊢
    rw [List.range_succ, List.countP_append]
    by_cases hr : mod.reachable_threads (n : Int) = true
    · have := h n (by omega) hr
      simp only [hr, if_true, List.countP_cons, List.countP_nil]
      push_cast
      linarith
    · simp only [hr, List.countP_cons, List.countP_nil]
      simp
      linarith

theorem exists_reachable (n : Nat) (mod : mod_t) (h : 1 ≤ count_reachable n mod) :
    ∃ g : Nat, g < n ∧ mod.reachable_threads g = true := by
  unfold count_reachable at h
  obtain ⟨g, hg, hr⟩ := List.countP_pos_iff.1 (Nat.lt_of_lt_of_le Nat.zero_lt_one h)
  exact ⟨g, List.mem_range.1 hg, hr⟩

theorem count_reachable_pos (n : Nat) (mod : mod_t) (g : Nat) (hg : g < n)
    (hr : mod.reachable_threads g = true) : 1 ≤ count_reachable n mod := by
  unfold count_reachable
  exact List.countP_pos_iff.2 ⟨g, List.mem_range.2 hg, hr⟩

theorem exists_assigned_gt_one (n : Nat) (mod : mod_t)
    (h : (count_reachable n mod : Int) < sum_assigned_ways n mod) :
    ∃ g : Nat, g < n ∧ mod.reachable_threads g = true ∧ 1 < mod.cache.assigned_ways g := by
  by_contra hc
  have := sum_assigned_ways_le n mod 1 (by
    intro a ha hr
    by_contra hgt
    exact hc ⟨a, ha, hr, by omega⟩)
  omega

theorem exists_turn (total : Nat) (g : Nat) (hg : g < total) (i : Int) :
    ∃ d : Nat, d < total ∧ (i + d) % (total : Int) = g := by
  have ht : (0 : Int) < total := by omega
  refine ⟨(((g : Int) - i) % (total : Int)).toNat, ?_, ?_⟩
  · have := Int.emod_lt_of_pos ((g : Int) - i) ht
    have := Int.emod_nonneg ((g : Int) - i) (by omega : (total : Int) ≠ 0)
    omega
  · rw [Int.toNat_of_nonneg (Int.emod_nonneg _ (by omega))]
    rw [Int.add_emod, Int.emod_emod_of_dvd _ (dvd_refl _), ← Int.add_emod]
    rw [show i + ((g : Int) - i) = g by ring]
    exact Int.emod_eq_of_lt (by omega) (by omega)

theorem double_round_nonneg (u ns : Int) (hu : 0 ≤ u) (hns : 0 < ns) :
    0 ≤ double.round (double.div (double.ofInt u) (double.ofInt ns)) := by
  unfold double.div double.ofInt
  simp only [one_ne_zero, or_self, if_false, hns, if_true]
  unfold double.round
  have h1 : (0 : Int) ≤ u * ((1 : Nat) : Int) := by simpa using hu
  rw [if_pos h1]
  dsimp only
  have h2 : (0 : Int) ≤ ((1 * ns.toNat : Nat) : Int) := Int.ofNat_nonneg _
  apply Int.ediv_nonneg
  · linarith
  · linarith

theorem fcp_seed_succ (fcp : fcp_t) (n : Nat) :
    fcp_seed (n + 1) fcp =
      if (fcp_seed n fcp).1.mod.reachable_threads n = true then
        let w := double.round
          (double.div (double.ofInt ((fcp_seed n fcp).1.mod.cache.used_ways n))
            (double.ofInt (fcp_seed n fcp).1.mod.cache.num_sets))
        if w = 0 then ((fcp_seed n fcp).1.set_assigned_ways n 1, (fcp_seed n fcp).2 - 1)
        else ((fcp_seed n fcp).1.set_assigned_ways n w, (fcp_seed n fcp).2 - w)
      else fcp_seed n fcp := by
  simp only [fcp_seed, List.range_succ, List.foldl_append, List.foldl_cons, List.foldl_nil]

theorem fcp_seed_spec (fcp : fcp_t) (hns : 0 < fcp.mod.cache.num_sets) (n : Nat)
    (hu : ∀ i : Nat, i < n → fcp.mod.reachable_threads i = true → 0 ≤ fcp.mod.cache.used_ways i) :
    ∃ a, (fcp_seed n fcp).1 = fcp.with_assigned_ways a ∧
      (∀ i : Nat, i < n → fcp.mod.reachable_threads i = true → 1 ≤ a i) ∧
      sum_assigned_ways n (fcp.with_assigned_ways a).mod + (fcp_seed n fcp).2 =
        fcp.mod.cache.assoc := by
  induction n with
  | zero =>
    refine ⟨fcp.mod.cache.assigned_ways, rfl, fun i hi => by omega, ?_⟩
    simp [sum_assigned_ways, fcp_seed]
  | succ n ih =>
    obtain ⟨a, he, h1, h2⟩ := ih (fun i hi => hu i (by omega))
    have hp : fcp_seed n fcp = (fcp.with_assigned_ways a, (fcp_seed n fcp).2) := Prod.ext he rfl
    generalize (fcp_seed n fcp).2 = w0 at hp h2
    rw [fcp_seed_succ, hp]
    dsimp only
    by_cases hr : fcp.mod.reachable_threads (n : Int) = true
    · have hr1 : (fcp.with_assigned_ways a).mod.reachable_threads (n : Int) = true := hr
      rw [if_pos hr1]
      have hw := double_round_nonneg (fcp.mod.cache.used_ways n) fcp.mod.cache.num_sets
        (hu n (by omega) hr) (by omega)
      have key : ∀ v : Int, 1 ≤ v →
          (∀ i : Nat, i < n + 1 → fcp.mod.reachable_threads i = true →
            1 ≤ Function.update a (n : Int) v i) ∧
          sum_assigned_ways (n + 1) (fcp.with_assigned_ways (Function.update a (n : Int) v)).mod
            + (w0 - v) = fcp.mod.cache.assoc := by
        intro v hv
        refine ⟨?_, ?_⟩
        · intro i hi hri
          by_cases hin : i = n
          · subst hin
            simpa using hv
          · rw [Function.update_noteq (by omega)]
            exact h1 i (by omega) hri
        · rw [sum_assigned_ways_succ]
          have e1 : sum_assigned_ways n
              (fcp.with_assigned_ways (Function.update a (n : Int) v)).mod =
              sum_assigned_ways n (fcp.with_assigned_ways a).mod := by
            refine sum_assigned_ways_congr n (fcp.with_assigned_ways a).mod
              (fcp.with_assigned_ways (Function.update a (n : Int) v)).mod rfl ?_
            intro x hx _
            show Function.update a (n : Int) v (x : Int) = a x
            rw [Function.update_noteq (by omega)]
          have e2 : (fcp.with_assigned_ways (Function.update a (n : Int) v)).mod.reachable_threads
              (n : Int) = true := hr
          have e3 : (fcp.with_assigned_ways (Function.update a (n : Int) v)).mod.cache.assigned_ways
              (n : Int) = v := by
            show Function.update a (n : Int) v (n : Int) = v
            simp
          rw [e1, if_pos e2, e3]
          omega
      split_ifs with hz
      · obtain ⟨k1, k2⟩ := key 1 (le_refl _)
        exact ⟨Function.update a (n : Int) 1, rfl, k1, k2⟩
      · have hz1 : double.round (double.div (double.ofInt (fcp.mod.cache.used_ways n))
            (double.ofInt fcp.mod.cache.num_sets)) ≠ 0 := hz
        obtain ⟨k1, k2⟩ := key _ (by omega : 1 ≤ double.round (double.div
          (double.ofInt (fcp.mod.cache.used_ways n)) (double.ofInt fcp.mod.cache.num_sets)))
        exact ⟨Function.update a (n : Int) _, rfl, k1, k2⟩
    · have hr1 : ¬ (fcp.with_assigned_ways a).mod.reachable_threads (n : Int) = true := hr
      rw [if_neg hr1]
      refine ⟨a, rfl, ?_, ?_⟩
      · intro i hi hri
        by_cases hin : i = n
        · subst hin
          exact absurd hri hr
        · exact h1 i (by omega) hri
      · rw [sum_assigned_ways_succ, if_neg hr1]
        omega

theorem fcp_redistribute_zero (total fuel : Nat) (fcp : fcp_t) (i : Int) :
    fcp_redistribute total (fuel + 1) fcp 0 i = some fcp := by
  unfold fcp_redistribute
  simp

theorem fcp_redistribute_skip (total fuel : Nat) (fcp : fcp_t) (ways i : Int) (hw : ways ≠ 0)
    (hr : ¬ fcp.mod.reachable_threads (i % (total : Int)) = true) :
    fcp_redistribute total (fuel + 1) fcp ways i =
      fcp_redistribute total fuel fcp ways (i + 1) := by
  rw [fcp_redistribute]
  simp only [hw, if_false]
  rw [if_pos hr]

theorem fcp_redistribute_give (total fuel : Nat) (fcp : fcp_t) (ways i : Int) (hw : 0 < ways)
    (hr : fcp.mod.reachable_threads (i % (total : Int)) = true) :
    fcp_redistribute total (fuel + 1) fcp ways i =
      fcp_redistribute total fuel
        (fcp.with_assigned_ways (Function.update fcp.mod.cache.assigned_ways (i % (total : Int))
          (fcp.mod.cache.assigned_ways (i % (total : Int)) + 1)))
        (ways - 1) (i + 1) := by
  rw [fcp_redistribute]
  have h0 : ways ≠ 0 := by omega
  have h2 : ¬ (ways - 1 < 0) := by omega
  simp only [h0, if_false, hr, not_true_eq_false, gt_iff_lt, hw, if_true, h2, false_and]
  rfl

theorem fcp_redistribute_take (total fuel : Nat) (fcp : fcp_t) (ways i : Int) (hw : ways < 0)
    (hr : fcp.mod.reachable_threads (i % (total : Int)) = true)
    (ha : 1 < fcp.mod.cache.assigned_ways (i % (total : Int))) :
    fcp_redistribute total (fuel + 1) fcp ways i =
      fcp_redistribute total fuel
        (fcp.with_assigned_ways (Function.update fcp.mod.cache.assigned_ways (i % (total : Int))
          (fcp.mod.cache.assigned_ways (i % (total : Int)) - 1)))
        (ways + 1) (i + 1) := by
  rw [fcp_redistribute]
  have h0 : ways ≠ 0 := by omega
  have h2 : ¬ (0 < ways) := by omega
  simp only [h0, if_false, hr, not_true_eq_false, gt_iff_lt, h2, hw, ha, and_self, if_true]
  rfl

theorem fcp_redistribute_keep (total fuel : Nat) (fcp : fcp_t) (ways i : Int) (hw : ways < 0)
    (hr : fcp.mod.reachable_threads (i % (total : Int)) = true)
    (ha : ¬ 1 < fcp.mod.cache.assigned_ways (i % (total : Int))) :
    fcp_redistribute total (fuel + 1) fcp ways i =
      fcp_redistribute total fuel fcp ways (i + 1) := by
  rw [fcp_redistribute]
  have h0 : ways ≠ 0 := by omega
  have h2 : ¬ (0 < ways) := by omega
  simp only [h0, if_false, hr, not_true_eq_false, gt_iff_lt, h2, hw, ha, and_false]

theorem fcp_redistribute_spec (total : Nat) (fuel : Nat) :
    ∀ (fcp : fcp_t) (ways i : Int) (g d : Nat),
      count_reachable total fcp.mod ≤ fcp.mod.cache.assoc →
      sum_assigned_ways total fcp.mod + ways = fcp.mod.cache.assoc →
      (∀ i : Nat, i < total → fcp.mod.reachable_threads i = true →
        1 ≤ fcp.mod.cache.assigned_ways i) →
      g < total → fcp.mod.reachable_threads g = true →
      (ways < 0 → 1 < fcp.mod.cache.assigned_ways g) →
      (i + d) % (total : Int) = g →
      (ways ≠ 0 → ways.natAbs * total + d + 2 ≤ fuel + total) →
      1 ≤ fuel →
      ∃ a, fcp_redistribute total fuel fcp ways i = some (fcp.with_assigned_ways a) ∧
        sum_assigned_ways total (fcp.with_assigned_ways a).mod = fcp.mod.cache.assoc ∧
        ∀ i : Nat, i < total → fcp.mod.reachable_threads i = true → 1 ≤ a i := by
  induction fuel with
  | zero =>
    intro fcp ways i g d _ _ _ _ _ _ _ _ hf
    omega
  | succ fuel ih =>
    intro fcp ways i g d hcount hsum hone hg hgr hgood hturn hfuel _
    by_cases hw0 : ways = 0
    · subst hw0
      rw [fcp_redistribute_zero]
      exact ⟨fcp.mod.cache.assigned_ways, rfl, by simpa using hsum, hone⟩
    have hfuel := hfuel hw0
    have hna : 1 ≤ ways.natAbs := by omega
    have hmul : ways.natAbs * total ≥ total := Nat.le_mul_of_pos_left _ (by omega)
    have hfuel1 : 1 ≤ fuel := by omega
    have ht : (0 : Int) < total := by omega
    have hlo := Int.emod_nonneg i (by omega : (total : Int) ≠ 0)
    have hhi := Int.emod_lt_of_pos i ht
    obtain ⟨t, htid⟩ : ∃ t : Nat, (t : Int) = i % (total : Int) :=
      ⟨(i % (total : Int)).toNat, Int.toNat_of_nonneg hlo⟩
    have htt : t < total := by omega
    -- an iteration that changes nothing brings the turn of `g` nearer
    have hstay : (i % (total : Int) ≠ g) →
        ∃ a, fcp_redistribute total fuel fcp ways (i + 1) = some (fcp.with_assigned_ways a) ∧
          sum_assigned_ways total (fcp.with_assigned_ways a).mod = fcp.mod.cache.assoc ∧
          ∀ i : Nat, i < total → fcp.mod.reachable_threads i = true → 1 ≤ a i := by
      intro hne
      have hd : d ≠ 0 := by
        intro hd0
        subst hd0
        apply hne
        simpa using hturn
      refine ih fcp ways (i + 1) g (d - 1) hcount hsum hone hg hgr hgood ?_ ?_ hfuel1
      · rw [← hturn]
        congr 1
        have : ((d - 1 : Nat) : Int) = (d : Int) - 1 := by omega
        rw [this]
        ring
      · intro _
        omega
    -- an iteration that moves one way
    have hmove : ∀ (v ways' : Int), fcp.mod.reachable_threads (t : Int) = true →
        1 ≤ v → v - fcp.mod.cache.assigned_ways t = ways - ways' →
        ways'.natAbs + 1 = ways.natAbs →
        ∃ a, fcp_redistribute total fuel
            (fcp.with_assigned_ways (Function.update fcp.mod.cache.assigned_ways (t : Int) v))
            ways' (i + 1) = some (fcp.with_assigned_ways a) ∧
          sum_assigned_ways total (fcp.with_assigned_ways a).mod = fcp.mod.cache.assoc ∧
          ∀ i : Nat, i < total → fcp.mod.reachable_threads i = true → 1 ≤ a i := by
      intro v ways' hrt hv hdiff habs
      have hsum' : sum_assigned_ways total
          (fcp.with_assigned_ways (Function.update fcp.mod.cache.assigned_ways (t : Int) v)).mod =
          sum_assigned_ways total fcp.mod - fcp.mod.cache.assigned_ways t + v := by
        have := sum_assigned_ways_update total fcp.mod
          (fcp.with_assigned_ways (Function.update fcp.mod.cache.assigned_ways (t : Int) v)).mod
          t htt rfl hrt (by
            intro x hx
            show Function.update fcp.mod.cache.assigned_ways (t : Int) v (x : Int) = _
            rw [Function.update_noteq (by omega)])
        rw [this]
        show _ - _ + Function.update fcp.mod.cache.assigned_ways (t : Int) v (t : Int) = _
        simp
      have hone' : ∀ x : Nat, x < total → fcp.mod.reachable_threads x = true →
          1 ≤ (fcp.with_assigned_ways
            (Function.update fcp.mod.cache.assigned_ways (t : Int) v)).mod.cache.assigned_ways x := by
        intro x hx hrx
        show 1 ≤ Function.update fcp.mod.cache.assigned_ways (t : Int) v (x : Int)
        by_cases hxt : x = t
        · subst hxt
          simpa using hv
        · rw [Function.update_noteq (by omega)]
          exact hone x hx hrx
      have hgood' : ∃ g' : Nat, g' < total ∧ fcp.mod.reachable_threads g' = true ∧
          (ways' < 0 → 1 < (fcp.with_assigned_ways
            (Function.update fcp.mod.cache.assigned_ways (t : Int) v)).mod.cache.assigned_ways
              g') := by
        by_cases hneg : ways' < 0
        · obtain ⟨g', hg', hgr', hgt⟩ := exists_assigned_gt_one total
            (fcp.with_assigned_ways (Function.update fcp.mod.cache.assigned_ways (t : Int) v)).mod
            (by
              rw [hsum']
              have hc : count_reachable total (fcp.with_assigned_ways
                  (Function.update fcp.mod.cache.assigned_ways (t : Int) v)).mod =
                  count_reachable total fcp.mod := rfl
              rw [hc]
              omega)
          exact ⟨g', hg', hgr', fun _ => hgt⟩
        · exact ⟨g, hg, hgr, fun h => absurd h hneg⟩
      obtain ⟨g', hg', hgr', hgt'⟩ := hgood'
      obtain ⟨d', hd', hturn'⟩ := exists_turn total g' hg' (i + 1)
      have hmul' : ways.natAbs * total = ways'.natAbs * total + total := by
        rw [← habs]
        ring
      exact ih (fcp.with_assigned_ways (Function.update fcp.mod.cache.assigned_ways (t : Int) v))
        ways' (i + 1) g' d' hcount (by rw [hsum']; show _ = (fcp.mod.cache.assoc : Int); omega)
        hone' hg' hgr' hgt' hturn' (fun _ => by omega) hfuel1
    by_cases hr : fcp.mod.reachable_threads (i % (total : Int)) = true
    · have hrt : fcp.mod.reachable_threads (t : Int) = true := by rw [htid]; exact hr
      have h1t := hone t htt hrt
      by_cases hpos : 0 < ways
      · rw [fcp_redistribute_give total fuel fcp ways i hpos hr, ← htid]
        have e1 : (ways - 1).natAbs + 1 = ways.natAbs := by
          clear hstay hmove
          omega
        exact hmove (fcp.mod.cache.assigned_ways t + 1) (ways - 1) hrt (by omega) (by ring) e1
      · have hneg : ways < 0 := by omega
        by_cases ha : 1 < fcp.mod.cache.assigned_ways (i % (total : Int))
        · rw [fcp_redistribute_take total fuel fcp ways i hneg hr ha, ← htid]
          rw [← htid] at ha
          have e1 : (ways + 1).natAbs + 1 = ways.natAbs := by
            clear hstay hmove
            omega
          exact hmove (fcp.mod.cache.assigned_ways t - 1) (ways + 1) hrt (by omega) (by ring) e1
        · rw [fcp_redistribute_keep total fuel fcp ways i hneg hr ha]
          apply hstay
          intro he
          rw [he] at ha
          exact ha (hgood hneg)
    · rw [fcp_redistribute_skip total fuel fcp ways i hw0 hr]
      apply hstay
      intro he
      rw [he] at hr
      exact hr hgr

/-- The transition to ON returns, with every reachable quota at least 1 and the
quotas adding up to `assoc`. -/
theorem fcp_enter_on_spec (total : Nat) (fcp : fcp_t) (hns : 0 < fcp.mod.cache.num_sets)
    (hc1 : 1 ≤ count_reachable total fcp.mod)
    (hc2 : count_reachable total fcp.mod ≤ fcp.mod.cache.assoc)
    (hu : ∀ i : Nat, i < total → fcp.mod.reachable_threads i = true →
      0 ≤ fcp.mod.cache.used_ways i) :
    ∃ a, fcp_redistribute total (total * ((fcp_seed total fcp).2.natAbs + 1) + 1)
        (fcp_seed total fcp).1 (fcp_seed total fcp).2 0 = some (fcp.with_assigned_ways a) ∧
      sum_assigned_ways total (fcp.with_assigned_ways a).mod = fcp.mod.cache.assoc ∧
      ∀ i : Nat, i < total → fcp.mod.reachable_threads i = true → 1 ≤ a i := by
  obtain ⟨a, he, h1, h2⟩ := fcp_seed_spec fcp hns total hu
  rw [he]
  generalize (fcp_seed total fcp).2 = w at h2 ⊢
  have hgood : ∃ g : Nat, g < total ∧ fcp.mod.reachable_threads g = true ∧
      (w < 0 → 1 < a g) := by
    by_cases hneg : w < 0
    · obtain ⟨g, hg, hgr, hgt⟩ := exists_assigned_gt_one total (fcp.with_assigned_ways a).mod (by
        have hc : count_reachable total (fcp.with_assigned_ways a).mod =
            count_reachable total fcp.mod := rfl
        rw [hc]
        omega)
      exact ⟨g, hg, hgr, fun _ => hgt⟩
    · obtain ⟨g, hg, hgr⟩ := exists_reachable total fcp.mod hc1
      exact ⟨g, hg, hgr, fun h => absurd h hneg⟩
  obtain ⟨g, hg, hgr, hgt⟩ := hgood
  obtain ⟨d, hd, hturn⟩ := exists_turn total g hg 0
  have hmul : total * (w.natAbs + 1) = w.natAbs * total + total := by ring
  exact fcp_redistribute_spec total _ (fcp.with_assigned_ways a) w 0 g d hc2 h2 h1 hg hgr hgt
    hturn (fun _ => by omega) (by omega)

theorem fcp_disable_spec (fcp : fcp_t) (n : Nat) :
    ∃ a, fcp_disable n fcp = fcp.with_assigned_ways a ∧
      ∀ i : Nat, i < n → fcp.mod.reachable_threads i = true → a i = -1 := by
  induction n with
  | zero => exact ⟨fcp.mod.cache.assigned_ways, rfl, fun i hi => by omega⟩
  | succ n ih =>
    obtain ⟨a, he, h1⟩ := ih
    have e : fcp_disable (n + 1) fcp =
        if (fcp_disable n fcp).mod.reachable_threads n = true then
          (fcp_disable n fcp).set_assigned_ways n (-1)
        else fcp_disable n fcp := by
      simp only [fcp_disable, List.range_succ, List.foldl_append, List.foldl_cons,
        List.foldl_nil]
    rw [e, he]
    by_cases hr : fcp.mod.reachable_threads (n : Int) = true
    · have hr1 : (fcp.with_assigned_ways a).mod.reachable_threads (n : Int) = true := hr
      rw [if_pos hr1]
      refine ⟨Function.update a (n : Int) (-1), rfl, ?_⟩
      intro i hi hri
      by_cases hin : i = n
      · subst hin
        simp
      · rw [Function.update_noteq (by omega)]
        exact h1 i (by omega) hri
    · have hr1 : ¬ (fcp.with_assigned_ways a).mod.reachable_threads (n : Int) = true := hr
      rw [if_neg hr1]
      refine ⟨a, rfl, ?_⟩
      intro i hi hri
      by_cases hin : i = n
      · subst hin
        exact absurd hri hr
      · exact h1 i (by omega) hri

theorem fcp_all_disabled_iff (total : Nat) (fcp : fcp_t) :
    fcp_all_disabled total fcp = true ↔
      ∀ i : Nat, i < total → fcp.mod.reachable_threads i = true →
        fcp.mod.cache.assigned_ways i = -1 := by
  unfold fcp_all_disabled
  rw [List.all_eq_true]
  constructor
  · intro h i hi hr
    have := h i (List.mem_range.2 hi)
    simpa [hr] using this
  · intro h i hi
    by_cases hr : fcp.mod.reachable_threads (i : Int) = true
    · simp [hr, h i (List.mem_range.1 hi) hr]
    · simp [hr]

theorem fcp_individual_speedup_spec (esim : esim_t) (fcp : fcp_t) (n : Nat) :
    ∃ d, fcp_individual_speedup n esim fcp = { fcp with data := d } ∧
      (∀ x, (d x).assigned_ways = (fcp.data x).assigned_ways) ∧
      (∀ i : Nat, i < n → fcp.mod.reachable_threads i = true →
        (d i).individual_speedup = x86_thread_speedup esim i) := by
  induction n with
  | zero => exact ⟨fcp.data, rfl, fun _ => rfl, fun i hi => by omega⟩
  | succ n ih =>
    obtain ⟨d, he, h1, h2⟩ := ih
    have e : fcp_individual_speedup (n + 1) esim fcp =
        if (fcp_individual_speedup n esim fcp).mod.reachable_threads n = true then
          { fcp_individual_speedup n esim fcp with
            data := Function.update (fcp_individual_speedup n esim fcp).data n
              { (fcp_individual_speedup n esim fcp).data n with
                individual_speedup := x86_thread_speedup esim n } }
        else fcp_individual_speedup n esim fcp := by
      simp only [fcp_individual_speedup, List.range_succ, List.foldl_append, List.foldl_cons,
        List.foldl_nil]
    rw [e, he]
    by_cases hr : fcp.mod.reachable_threads (n : Int) = true
    · have hr1 : ({ fcp with data := d } : fcp_t).mod.reachable_threads (n : Int) = true := hr
      rw [if_pos hr1]
      refine ⟨Function.update d (n : Int)
        { d n with individual_speedup := x86_thread_speedup esim n }, rfl, ?_, ?_⟩
      · intro x
        by_cases hx : x = (n : Int)
        · subst hx
          rw [Function.update_same]
          exact h1 _
        · rw [Function.update_noteq hx]
          exact h1 x
      · intro i hi hri
        by_cases hin : i = n
        · subst hin
          rw [Function.update_same]
        · rw [Function.update_noteq (by omega)]
          exact h2 i (by omega) hri
    · have hr1 : ¬ ({ fcp with data := d } : fcp_t).mod.reachable_threads (n : Int) = true := hr
      rw [if_neg hr1]
      refine ⟨d, rfl, h1, ?_⟩
      intro i hi hri
      by_cases hin : i = n
      · subst hin
        exact absurd hri hr
      · exact h2 i (by omega) hri

theorem pairwise_head_last {α : Type} (R : α → α → Prop) (l : List α) (a b : α)
    (h : l.Pairwise R) (ha : l.head? = some a) (hb : l.getLast? = some b) :
    a = b ∨ R a b := by
  cases l with
  | nil => cases ha
  | cons x rest =>
    simp only [List.head?_cons, Option.some.injEq] at ha
    subst ha
    have hm := List.mem_of_getLast?_eq_some hb
    rcases List.mem_cons.1 hm with hm | hm
    · exact Or.inl hm.symm
    · exact Or.inr ((List.pairwise_cons.1 h).1 b hm)

theorem fcp_unfairness_spec (list_sort : (Int → Int → Int) → List Int → List Int)
    (total : Nat) (esim : esim_t) (fcp : fcp_t) (hsort : list_sort_sorts list_sort)
    (hst : fcp_static total fcp) (henv : fcp_env_ok total esim fcp) :
    ∃ d thr min max, fcp_unfairness list_sort total esim fcp =
        some ({ fcp with data := d, threads := thr }, min, max,
          double.div (d max).individual_speedup (d min).individual_speedup) ∧
      thr.Perm fcp.threads ∧ min ∈ thr ∧ max ∈ thr ∧
      (∀ x, (d x).assigned_ways = (fcp.data x).assigned_ways) := by
  obtain ⟨_, hne, hthr, _, _, _, _⟩ := hst
  obtain ⟨d, he, h1, h2⟩ := fcp_individual_speedup_spec esim fcp total
  have hfin : ∀ t ∈ ({ fcp with data := d } : fcp_t).threads,
      ((({ fcp with data := d } : fcp_t).data t).individual_speedup).den ≠ 0 := by
    intro t ht
    obtain ⟨h0, hlt, hr⟩ := hthr t ht
    obtain ⟨i, rfl⟩ : ∃ i : Nat, t = (i : Int) := ⟨t.toNat, by omega⟩
    show ((d (i : Int)).individual_speedup).den ≠ 0
    rw [h2 i (by omega) hr]
    obtain ⟨hc, hth⟩ := henv
    exact x86_thread_speedup_finite esim i hc (hth i (by omega) hr).1 (hth i (by omega) hr).2.1
  obtain ⟨hperm, hsorted⟩ := hsort { fcp with data := d } hfin
  generalize hthr' : list_sort (compare_is { fcp with data := d })
    ({ fcp with data := d } : fcp_t).threads = thr at hperm hsorted
  have hperm' : thr.Perm fcp.threads := hperm
  have hne' : thr ≠ [] := by
    intro h
    rw [h] at hperm'
    exact hne (List.Perm.nil_eq hperm').symm
  obtain ⟨mn, hmn⟩ : ∃ mn, thr.head? = some mn := by
    cases thr with
    | nil => exact absurd rfl hne'
    | cons x r => exact ⟨x, rfl⟩
  obtain ⟨mx, hmx⟩ : ∃ mx, thr.getLast? = some mx := by
    cases hl : thr.getLast? with
    | none => exact absurd (List.getLast?_eq_none_iff.1 hl) hne'
    | some x => exact ⟨x, rfl⟩
  have hmn_mem : mn ∈ thr := List.mem_of_mem_head? hmn
  have hmx_mem : mx ∈ thr := List.mem_of_getLast?_eq_some hmx
  have hle : double.le (d mn).individual_speedup (d mx).individual_speedup := by
    rcases pairwise_head_last _ thr mn mx hsorted hmn hmx with h | h
    · subst h
      exact double_le_refl (hfin mn (hperm'.subset hmn_mem))
    · exact h
  refine ⟨d, thr, mn, mx, ?_, hperm', hmn_mem, hmx_mem, h1⟩
  unfold fcp_unfairness
  rw [he]
  simp only [hthr', hmn, hmx, hle, if_true]

theorem fcp_transfer_spec (total : Nat) (f : fcp_t) (m M : Nat) (hm : m < total)
    (hM : M < total) (hrm : f.mod.reachable_threads m = true)
    (hrM : f.mod.reachable_threads M = true)
    (hptr : ∀ i : Nat, i < total → f.mod.reachable_threads i = true →
      (f.data i).assigned_ways = some (i : Int))
    (hone : ∀ i : Nat, i < total → f.mod.reachable_threads i = true →
      1 ≤ f.mod.cache.assigned_ways i) :
    ∃ a, fcp_transfer f m M = some (f.with_assigned_ways a) ∧
      sum_assigned_ways total (f.with_assigned_ways a).mod = sum_assigned_ways total f.mod ∧
      ∀ i : Nat, i < total → f.mod.reachable_threads i = true → 1 ≤ a i := by
  unfold fcp_transfer fcp_t.ways_of
  rw [hptr M hM hrM]
  simp only [Option.map_some']
  by_cases hgt : f.mod.cache.assigned_ways M > FCP_MIN_WAYS
  · rw [if_pos hgt]
    have hgt1 : 1 < f.mod.cache.assigned_ways M := hgt
    have hd : ((f.set_assigned_ways M (f.mod.cache.assigned_ways M - 1)).data m).assigned_ways
        = some (m : Int) := hptr m hm hrm
    simp only [hd, Option.map_some']
    refine ⟨_, rfl, ?_, ?_⟩
    · have s1 := sum_assigned_ways_update total f.mod
        (f.set_assigned_ways M (f.mod.cache.assigned_ways M - 1)).mod M hM rfl hrM (by
          intro x hx
          show Function.update f.mod.cache.assigned_ways (M : Int) _ (x : Int) = _
          rw [Function.update_noteq (by omega)])
      have s2 := sum_assigned_ways_update total
        (f.set_assigned_ways M (f.mod.cache.assigned_ways M - 1)).mod
        ((f.set_assigned_ways M (f.mod.cache.assigned_ways M - 1)).set_assigned_ways m
          ((f.set_assigned_ways M (f.mod.cache.assigned_ways M - 1)).mod.cache.assigned_ways m
            + 1)).mod m hm rfl hrm (by
          intro x hx
          show Function.update _ (m : Int) _ (x : Int) = _
          rw [Function.update_noteq (by omega)])
      have e1 : (f.set_assigned_ways M (f.mod.cache.assigned_ways M - 1)).mod.cache.assigned_ways M
          = f.mod.cache.assigned_ways M - 1 := by
        show Function.update f.mod.cache.assigned_ways (M : Int) _ (M : Int) = _
        simp
      have e2 : ((f.set_assigned_ways M (f.mod.cache.assigned_ways M - 1)).set_assigned_ways m
          ((f.set_assigned_ways M (f.mod.cache.assigned_ways M - 1)).mod.cache.assigned_ways m
            + 1)).mod.cache.assigned_ways m =
          (f.set_assigned_ways M (f.mod.cache.assigned_ways M - 1)).mod.cache.assigned_ways m
            + 1 := by
        show Function.update _ (m : Int) _ (m : Int) = _
        simp
      rw [e1] at s1
      rw [e2] at s2
      show sum_assigned_ways total
        ((f.set_assigned_ways M (f.mod.cache.assigned_ways M - 1)).set_assigned_ways m
          ((f.set_assigned_ways M (f.mod.cache.assigned_ways M - 1)).mod.cache.assigned_ways m
            + 1)).mod = _
      omega
    · intro i hi hri
      have h1 := hone i hi hri
      have h1m := hone m hm hrm
      show 1 ≤ Function.update (Function.update f.mod.cache.assigned_ways (M : Int)
        (f.mod.cache.assigned_ways M - 1)) (m : Int)
        (Function.update f.mod.cache.assigned_ways (M : Int)
          (f.mod.cache.assigned_ways M - 1) (m : Int) + 1) (i : Int)
      by_cases him : i = m
      · subst him
        rw [Function.update_same]
        by_cases hiM : i = M
        · subst hiM
          rw [Function.update_same]
          omega
        · rw [Function.update_noteq (by omega)]
          omega
      · rw [Function.update_noteq (by omega)]
        by_cases hiM : i = M
        · subst hiM
          rw [Function.update_same]
          omega
        · rw [Function.update_noteq (by omega)]
          exact h1
  · rw [if_neg hgt]
    exact ⟨f.mod.cache.assigned_ways, rfl, rfl, hone⟩

theorem fcp_on_assertions_ok (total : Nat) (f : fcp_t) (m M : Nat) (hm : m < total)
    (hM : M < total) (hrm : f.mod.reachable_threads m = true)
    (hrM : f.mod.reachable_threads M = true)
    (hptr : ∀ i : Nat, i < total → f.mod.reachable_threads i = true →
      (f.data i).assigned_ways = some (i : Int))
    (hnum : f.mod.num_reachable_threads = (count_reachable total f.mod : Int))
    (hsum : sum_assigned_ways total f.mod = f.mod.cache.assoc)
    (hone : ∀ i : Nat, i < total → f.mod.reachable_threads i = true →
      1 ≤ f.mod.cache.assigned_ways i) :
    fcp_on_assertions total f m M = true := by
  have bm := assigned_ways_le_sum total f.mod m hm hrm 1 hone
  have bM := assigned_ways_le_sum total f.mod M hM hrM 1 hone
  have h1m := hone m hm hrm
  have h1M := hone M hM hrM
  unfold fcp_on_assertions fcp_t.ways_of
  rw [hptr m hm hrm, hptr M hM hrM]
  simp only [Option.map_some', Bool.and_eq_true, decide_eq_true_eq, List.all_eq_true,
    Bool.or_eq_true, Bool.not_eq_true', hnum]
  refine ⟨⟨?_, hsum⟩, by omega, by omega, by omega, by omega⟩
  intro i hi
  by_cases hr : f.mod.reachable_threads (i : Int) = true
  · right
    have := hone i (List.mem_range.1 hi) hr
    omega
  · left
    simpa using hr

/-- The action of state ON without pairing: one way moves from `max` to `min`
and the assertions hold. -/
theorem fcp_action_on (total : Nat) (f : fcp_t) (mn mx : Int)
    (hpol : f.pairing_policy = thread_pairing_policy_t.thread_pairing_policy_none)
    (hstate : f.state = fcp_state_t.ON)
    (hmn : 0 ≤ mn ∧ mn < (total : Int) ∧ f.mod.reachable_threads mn = true)
    (hmx : 0 ≤ mx ∧ mx < (total : Int) ∧ f.mod.reachable_threads mx = true)
    (hptr : ∀ i : Nat, i < total → f.mod.reachable_threads i = true →
      (f.data i).assigned_ways = some (i : Int))
    (hnum : f.mod.num_reachable_threads = (count_reachable total f.mod : Int))
    (hsum : sum_assigned_ways total f.mod = f.mod.cache.assoc)
    (hone : ∀ i : Nat, i < total → f.mod.reachable_threads i = true →
      1 ≤ f.mod.cache.assigned_ways i) :
    ∃ a, fcp_action total f mn mx false = some (f.with_assigned_ways a) ∧
      sum_assigned_ways total (f.with_assigned_ways a).mod = f.mod.cache.assoc ∧
      ∀ i : Nat, i < total → f.mod.reachable_threads i = true → 1 ≤ a i := by
  obtain ⟨m, rfl⟩ : ∃ m : Nat, mn = (m : Int) := ⟨mn.toNat, by omega⟩
  obtain ⟨M, rfl⟩ : ∃ M : Nat, mx = (M : Int) := ⟨mx.toNat, by omega⟩
  obtain ⟨a, ht, hs, ho⟩ := fcp_transfer_spec total f m M (by omega) (by omega) hmn.2.2 hmx.2.2
    hptr hone
  have hass := fcp_on_assertions_ok total (f.with_assigned_ways a) m M (by omega) (by omega)
    hmn.2.2 hmx.2.2 hptr hnum (by rw [hs]; exact hsum) ho
  refine ⟨a, ?_, by rw [hs]; exact hsum, ho⟩
  unfold fcp_action
  simp only [hstate, hpol, if_true, ht, hass]
  rfl

/-- The action of state BACKOFF: the countdown goes down by one. -/
theorem fcp_action_backoff (total : Nat) (f : fcp_t) (mn mx : Int) (pm : Bool)
    (hstate : f.state = fcp_state_t.BACKOFF) (hb : 0 < f.backoff)
    (hdis : ∀ i : Nat, i < total → f.mod.reachable_threads i = true →
      f.mod.cache.assigned_ways i = -1) :
    fcp_action total f mn mx pm = some { f with backoff := f.backoff - 1 } := by
  unfold fcp_action
  simp only [hstate]
  rw [if_pos ⟨hb, (fcp_all_disabled_iff total f).2 hdis⟩]

theorem fcp_record_static (total : Nat) (f : fcp_t) (s : fcp_state_t) (u : double) (c : Int) :
    fcp_static total (fcp_record f s u c) ↔ fcp_static total f := by
  unfold fcp_record
  split_ifs <;> exact Iff.rfl

theorem fcp_record_state_ok (total : Nat) (f : fcp_t) (s : fcp_state_t) (u : double) (c : Int) :
    fcp_state_ok total (fcp_record f s u c) ↔ fcp_state_ok total f := by
  unfold fcp_record
  split_ifs <;> exact Iff.rfl

theorem fcp_record_fields (f : fcp_t) (s : fcp_state_t) (u : double) (c : Int) :
    (fcp_record f s u c).state = f.state ∧ (fcp_record f s u c).backoff = f.backoff ∧
    (fcp_record f s u c).last_esim_cycle = c ∧ (fcp_record f s u c).mod = f.mod ∧
    (fcp_record f s u c).counter = f.counter + 1 ∧
    (f.state ≠ s → (fcp_record f s u c).state_counter = 0 ∧
      (fcp_record f s u c).last_unfairness_values = f.last_unfairness_values) ∧
    (f.state = s → (fcp_record f s u c).state_counter = f.state_counter + 1 ∧
      (fcp_record f s u c).last_unfairness_values =
        Function.update f.last_unfairness_values (f.state_counter % FCP_HISTORY_SIZE) u) := by
  unfold fcp_record
  split_ifs with h
  · exact ⟨rfl, rfl, rfl, rfl, rfl, fun _ => ⟨rfl, rfl⟩, fun h' => absurd h' h⟩
  · exact ⟨rfl, rfl, rfl, rfl, rfl, fun h' => absurd (not_not.1 h) h', fun _ => ⟨rfl, rfl⟩⟩

theorem fcp_repartition_eq (list_sort : (Int → Int → Int) → List Int → List Int)
    (nc nt : Nat) (esim : esim_t) (fcp f2 : fcp_t) (mn mx : Int) (u : double)
    (hcyc : fcp.last_esim_cycle < esim.esim_cycle) (hgate : fcp_gate (nc * nt) esim fcp)
    (hunf : fcp_unfairness list_sort (nc * nt) esim fcp = some (f2, mn, mx, u))
    (hpol : f2.pairing_policy = thread_pairing_policy_t.thread_pairing_policy_none) :
    fcp_repartition list_sort nc nt esim fcp =
      (fcp_transition (nc * nt) f2 u).bind fun f4 =>
        (fcp_action (nc * nt) f4 mn mx false).map fun f5 =>
          fcp_record f5 f2.state u esim.esim_cycle := by
  unfold fcp_repartition
  have h1 : esim.esim_cycle - fcp.last_esim_cycle > 0 := by omega
  have h2 : ¬ (esim.esim_time ≤ FCP_TIME_TH ∨
      double.le (cache_usage (nc * nt) fcp.mod) FCP_CACHE_TH) := hgate
  have h3 : fcp_repair f2 = some (f2, false) := by
    unfold fcp_repair
    simp [hpol]
  simp only [h1, if_true, h2, if_false, hunf, h3]
  cases fcp_transition (nc * nt) f2 u with
  | none => rfl
  | some f4 =>
    cases h5 : fcp_action (nc * nt) f4 mn mx false with
    | none => simp [h5]
    | some f5 => simp [h5]

theorem fcp_static_measured (total : Nat) (fcp : fcp_t) (d : Int → fcp_thread_t)
    (thr : List Int) (hst : fcp_static total fcp) (hperm : thr.Perm fcp.threads)
    (hd : ∀ x, (d x).assigned_ways = (fcp.data x).assigned_ways) :
    fcp_static total { fcp with data := d, threads := thr } := by
  obtain ⟨h1, h2, h3, h4, h5, h6, h7⟩ := hst
  refine ⟨h1, ?_, ?_, ?_, h5, h6, h7⟩
  · intro h
    have h' : thr = [] := h
    rw [h'] at hperm
    exact h2 (List.Perm.nil_eq hperm).symm
  · intro t ht
    exact h3 t (hperm.subset ht)
  · intro i hi hr
    show (d i).assigned_ways = _
    rw [hd]
    exact h4 i hi hr

/-- The call that enters ON, from OFF or at the end of the countdown. -/
theorem fcp_step_enter (total : Nat) (f : fcp_t) (mn mx : Int) (u : double) (c : Int)
    (hst : fcp_static total f)
    (hu : ∀ i : Nat, i < total → f.mod.reachable_threads i = true → 0 ≤ f.mod.cache.used_ways i)
    (hmn : mn ∈ f.threads) (hmx : mx ∈ f.threads)
    (hsne : f.state ≠ fcp_state_t.ON)
    (htr : fcp_transition total f u =
      (fcp_redistribute total (total * ((fcp_seed total f).2.natAbs + 1) + 1)
        (fcp_seed total f).1 (fcp_seed total f).2 0).map
        fun g => { g with state := fcp_state_t.ON }) :
    ∃ f', ((fcp_transition total f u).bind fun f4 =>
        (fcp_action total f4 mn mx false).map fun f5 => fcp_record f5 f.state u c) = some f' ∧
      fcp_static total f' ∧ fcp_state_ok total f' ∧ f'.last_esim_cycle = c ∧
      (∃ b, f'.mod = (f.with_assigned_ways b).mod) ∧
      f'.state = fcp_state_t.ON ∧ f'.state_counter = 0 := by
  have hst' := hst
  obtain ⟨h1, h2, h3, h4, h5, h6, h7⟩ := hst
  have hc1 : 1 ≤ count_reachable total f.mod := by
    cases hthr : f.threads with
    | nil => exact absurd hthr h2
    | cons t r =>
      obtain ⟨h0, hlt, hr⟩ := h3 t (by rw [hthr]; exact List.mem_cons_self _ _)
      obtain ⟨i, rfl⟩ : ∃ i : Nat, t = (i : Int) := ⟨t.toNat, by omega⟩
      exact count_reachable_pos total f.mod i (by omega) hr
  obtain ⟨a, hred, hsum, hone⟩ := fcp_enter_on_spec total f h7 hc1 h6 hu
  rw [htr, hred]
  obtain ⟨a', hact, hsum', hone'⟩ := fcp_action_on total
    { f.with_assigned_ways a with state := fcp_state_t.ON } mn mx h1 rfl (h3 mn hmn) (h3 mx hmx)
    h4 h5 hsum hone
  simp only [Option.map_some', Option.some_bind, hact]
  refine ⟨_, rfl, ?_, ?_, ?_, ⟨a', (fcp_record_fields _ _ _ _).2.2.2.1⟩, ?_, ?_⟩
  · exact (fcp_record_static total _ _ _ _).2 hst'
  · refine (fcp_record_state_ok total _ _ _ _).2 ⟨fun _ => ⟨hsum', hone'⟩, ?_⟩
    intro h
    cases h
  · exact (fcp_record_fields _ _ _ _).2.2.1
  · exact (fcp_record_fields _ _ _ _).1
  · exact ((fcp_record_fields _ _ _ _).2.2.2.2.2.1 (fun h => hsne h.symm)).1

theorem fcp_transition_off (total : Nat) (f : fcp_t) (u : double)
    (hs : f.state = fcp_state_t.OFF) :
    fcp_transition total f u =
      (fcp_redistribute total (total * ((fcp_seed total f).2.natAbs + 1) + 1)
        (fcp_seed total f).1 (fcp_seed total f).2 0).map
        fun g => { g with state := fcp_state_t.ON } := by
  unfold fcp_transition
  simp only [hs]

theorem fcp_transition_backoff_zero (total : Nat) (f : fcp_t) (u : double)
    (hs : f.state = fcp_state_t.BACKOFF) (hb : f.backoff = 0) :
    fcp_transition total f u =
      (fcp_redistribute total (total * ((fcp_seed total f).2.natAbs + 1) + 1)
        (fcp_seed total f).1 (fcp_seed total f).2 0).map
        fun g => { g with state := fcp_state_t.ON } := by
  unfold fcp_transition
  simp only [hs]
  rw [if_neg (by omega), if_pos hb]

theorem fcp_transition_backoff_pos (total : Nat) (f : fcp_t) (u : double)
    (hs : f.state = fcp_state_t.BACKOFF) (hb : 0 < f.backoff) :
    fcp_transition total f u = some f := by
  unfold fcp_transition
  simp only [hs]
  rw [if_pos hb]

theorem fcp_transition_on_leave (total : Nat) (f : fcp_t) (u : double)
    (hs : f.state = fcp_state_t.ON) (hinc : fcp_unfairness_increasing f u = true) :
    fcp_transition total f u =
      some (fcp_disable total
        { f with backoff := FCP_BACKOFF_INTERVALS, state := fcp_state_t.BACKOFF }) := by
  unfold fcp_transition
  simp [hs, hinc]

theorem fcp_transition_on_stay (total : Nat) (f : fcp_t) (u : double)
    (hs : f.state = fcp_state_t.ON) (hinc : fcp_unfairness_increasing f u = false) :
    fcp_transition total f u = some f := by
  unfold fcp_transition
  simp [hs, hinc]

/-- One call of `fcp_repartition` that passes the warm-up gate, on a controller
without pairing: the call returns, the quotas stay well-formed, and the state
changes as the state machine says. -/
theorem fcp_repartition_step (list_sort : (Int → Int → Int) → List Int → List Int)
    (nc nt : Nat) (esim : esim_t) (fcp : fcp_t) (hsort : list_sort_sorts list_sort)
    (hst : fcp_static (nc * nt) fcp) (hok : fcp_state_ok (nc * nt) fcp)
    (henv : fcp_env_ok (nc * nt) esim fcp)
    (hcyc : fcp.last_esim_cycle < esim.esim_cycle) (hgate : fcp_gate (nc * nt) esim fcp) :
    ∃ f2 mn mx u fcp', fcp_unfairness list_sort (nc * nt) esim fcp = some (f2, mn, mx, u) ∧
      fcp_repartition list_sort nc nt esim fcp = some fcp' ∧
      fcp_static (nc * nt) fcp' ∧ fcp_state_ok (nc * nt) fcp' ∧
      fcp'.last_esim_cycle = esim.esim_cycle ∧
      (∃ b, fcp'.mod = (fcp.with_assigned_ways b).mod) ∧
      (fcp.state = fcp_state_t.OFF → fcp'.state = fcp_state_t.ON ∧ fcp'.state_counter = 0) ∧
      (fcp.state = fcp_state_t.ON → fcp_unfairness_increasing fcp u = true →
        fcp'.state = fcp_state_t.BACKOFF ∧ fcp'.backoff = FCP_BACKOFF_INTERVALS - 1 ∧
        fcp'.state_counter = 0) ∧
      (fcp.state = fcp_state_t.ON → fcp_unfairness_increasing fcp u = false →
        fcp'.state = fcp_state_t.ON ∧ fcp'.state_counter = fcp.state_counter + 1 ∧
        fcp'.last_unfairness_values =
          Function.update fcp.last_unfairness_values
            (fcp.state_counter % FCP_HISTORY_SIZE) u) ∧
      (fcp.state = fcp_state_t.BACKOFF → 0 < fcp.backoff →
        fcp'.state = fcp_state_t.BACKOFF ∧ fcp'.backoff = fcp.backoff - 1) ∧
      (fcp.state = fcp_state_t.BACKOFF → fcp.backoff = 0 →
        fcp'.state = fcp_state_t.ON ∧ fcp'.state_counter = 0) := by
  obtain ⟨d, thr, mn, mx, hunf, hperm, hmn, hmx, hd⟩ :=
    fcp_unfairness_spec list_sort (nc * nt) esim fcp hsort hst henv
  have hF := fcp_static_measured (nc * nt) fcp d thr hst hperm hd
  have hu : ∀ i : Nat, i < nc * nt → fcp.mod.reachable_threads i = true →
      0 ≤ fcp.mod.cache.used_ways i := fun i hi hr => (henv.2 i hi hr).2.2
  generalize double.div (d mx).individual_speedup (d mn).individual_speedup = u at hunf
  refine ⟨{ fcp with data := d, threads := thr }, mn, mx, u, ?_⟩
  rw [fcp_repartition_eq list_sort nc nt esim fcp _ mn mx u hcyc hgate hunf hF.1]
  have hcase : fcp.state = fcp_state_t.OFF ∨ fcp.state = fcp_state_t.ON ∨
      fcp.state = fcp_state_t.BACKOFF := by
    cases fcp.state <;> simp
  have hexcl : ∀ {s t : fcp_state_t} {P : Prop}, fcp.state = s → s ≠ t → fcp.state = t → P := by
    intro s t P h1 h2 h3
    exact absurd (h1.symm.trans h3) h2
  rcases hcase with hs | hs | hs
  · obtain ⟨f', he, h1, h2, h3, hfr, h4, h5⟩ := fcp_step_enter (nc * nt)
      { fcp with data := d, threads := thr } mn mx u esim.esim_cycle hF hu hmn hmx
      (by show fcp.state ≠ _; rw [hs]; decide)
      (fcp_transition_off (nc * nt) { fcp with data := d, threads := thr } u hs)
    exact ⟨f', hunf, he, h1, h2, h3, hfr, fun _ => ⟨h4, h5⟩,
      fun h => hexcl hs (by decide) h, fun h => hexcl hs (by decide) h,
      fun h => hexcl hs (by decide) h, fun h => hexcl hs (by decide) h⟩
  · obtain ⟨hsum, hone⟩ := hok.1 hs
    rcases Bool.eq_false_or_eq_true (fcp_unfairness_increasing fcp u) with hinc | hinc
    · obtain ⟨a, hdis, hall⟩ := fcp_disable_spec
        { fcp with data := d, threads := thr, backoff := FCP_BACKOFF_INTERVALS,
                   state := fcp_state_t.BACKOFF } (nc * nt)
      rw [fcp_transition_on_leave (nc * nt) { fcp with data := d, threads := thr } u hs hinc,
        hdis]
      simp only [Option.some_bind]
      rw [fcp_action_backoff (nc * nt) _ mn mx false rfl
        (show (0 : Int) < FCP_BACKOFF_INTERVALS by decide) hall]
      refine ⟨_, hunf, rfl, ?_, ?_, ?_, ⟨a, (fcp_record_fields _ _ _ _).2.2.2.1⟩,
        fun h => hexcl hs (by decide) h, ?_, ?_,
        fun h => hexcl hs (by decide) h, fun h => hexcl hs (by decide) h⟩
      · exact (fcp_record_static _ _ _ _ _).2 hF
      · refine (fcp_record_state_ok _ _ _ _ _).2 ⟨?_, ?_⟩
        · intro h
          cases h
        · intro _
          exact ⟨show (0 : Int) ≤ FCP_BACKOFF_INTERVALS - 1 by decide, hall⟩
      · exact (fcp_record_fields _ _ _ _).2.2.1
      · intro _ _
        refine ⟨(fcp_record_fields _ _ _ _).1, (fcp_record_fields _ _ _ _).2.1, ?_⟩
        refine ((fcp_record_fields _ _ _ _).2.2.2.2.2.1 ?_).1
        show fcp_state_t.BACKOFF ≠ fcp.state
        rw [hs]
        decide
      · intro _ h
        rw [hinc] at h
        cases h
    · rw [fcp_transition_on_stay (nc * nt) { fcp with data := d, threads := thr } u hs hinc]
      simp only [Option.some_bind]
      obtain ⟨a', hact, hsum', hone'⟩ := fcp_action_on (nc * nt)
        { fcp with data := d, threads := thr } mn mx hF.1 hs (hF.2.2.1 mn hmn) (hF.2.2.1 mx hmx)
        hF.2.2.2.1 hF.2.2.2.2.1 hsum hone
      rw [hact]
      simp only [Option.map_some']
      refine ⟨_, hunf, rfl, ?_, ?_, ?_, ⟨a', (fcp_record_fields _ _ _ _).2.2.2.1⟩,
        fun h => hexcl hs (by decide) h, ?_, ?_,
        fun h => hexcl hs (by decide) h, fun h => hexcl hs (by decide) h⟩
      · exact (fcp_record_static _ _ _ _ _).2 hF
      · refine (fcp_record_state_ok _ _ _ _ _).2 ⟨fun _ => ⟨hsum', hone'⟩, ?_⟩
        intro h
        exact hexcl hs (by decide) h
      · exact (fcp_record_fields _ _ _ _).2.2.1
      · intro _ h
        rw [hinc] at h
        cases h
      · intro _ _
        have hf := (fcp_record_fields
          (fcp_t.with_assigned_ways { fcp with data := d, threads := thr } a')
          fcp.state u esim.esim_cycle).2.2.2.2.2.2 rfl
        exact ⟨((fcp_record_fields _ _ _ _).1).trans hs, hf.1, hf.2⟩
  · obtain ⟨hb0, hdis⟩ := hok.2 hs
    by_cases hb : 0 < fcp.backoff
    · rw [fcp_transition_backoff_pos (nc * nt) { fcp with data := d, threads := thr } u hs hb]
      simp only [Option.some_bind]
      rw [fcp_action_backoff (nc * nt) { fcp with data := d, threads := thr } mn mx false hs hb
        hdis]
      refine ⟨_, hunf, rfl, ?_, ?_, ?_,
        ⟨fcp.mod.cache.assigned_ways, (fcp_record_fields _ _ _ _).2.2.2.1⟩,
        fun h => hexcl hs (by decide) h,
        fun h => hexcl hs (by decide) h, fun h => hexcl hs (by decide) h, ?_, ?_⟩
      · exact (fcp_record_static _ _ _ _ _).2 hF
      · refine (fcp_record_state_ok _ _ _ _ _).2 ⟨?_, ?_⟩
        · intro h
          exact hexcl hs (by decide) h
        · intro _
          exact ⟨by show 0 ≤ fcp.backoff - 1; omega, hdis⟩
      · exact (fcp_record_fields _ _ _ _).2.2.1
      · intro _ _
        exact ⟨((fcp_record_fields _ _ _ _).1).trans hs, (fcp_record_fields _ _ _ _).2.1⟩
      · intro _ h0
        omega
    · have hb' : fcp.backoff = 0 := by omega
      obtain ⟨f', he, h1, h2, h3, hfr, h4, h5⟩ := fcp_step_enter (nc * nt)
        { fcp with data := d, threads := thr } mn mx u esim.esim_cycle hF hu hmn hmx
        (by show fcp.state ≠ _; rw [hs]; decide)
        (fcp_transition_backoff_zero (nc * nt) { fcp with data := d, threads := thr } u hs hb')
      exact ⟨f', hunf, he, h1, h2, h3, hfr, fun h => hexcl hs (by decide) h,
        fun h => hexcl hs (by decide) h, fun h => hexcl hs (by decide) h,
        fun _ h0 => by omega, fun _ _ => ⟨h4, h5⟩⟩

/-! ## Runs of `fcp_repartition` -/

theorem fcp_same_config_refl (f : fcp_t) : fcp_same_config f f := ⟨rfl, rfl, rfl, rfl⟩

theorem fcp_same_config_trans {f g h : fcp_t} (h1 : fcp_same_config f g)
    (h2 : fcp_same_config g h) : fcp_same_config f h :=
  ⟨h2.1.trans h1.1, h2.2.1.trans h1.2.1, h2.2.2.1.trans h1.2.2.1, h2.2.2.2.trans h1.2.2.2⟩

theorem fcp_same_config_of_mod {f f' : fcp_t} (h : ∃ b, f'.mod = (f.with_assigned_ways b).mod) :
    fcp_same_config f f' := by
  obtain ⟨b, hb⟩ := h
  unfold fcp_same_config
  rw [hb]
  exact ⟨rfl, rfl, rfl, rfl⟩

theorem cache_usage_congr (total : Nat) (m m' : mod_t)
    (h1 : m'.reachable_threads = m.reachable_threads)
    (h2 : m'.cache.used_ways = m.cache.used_ways) (h3 : m'.cache.num_sets = m.cache.num_sets)
    (h4 : m'.cache.assoc = m.cache.assoc) : cache_usage total m' = cache_usage total m := by
  unfold cache_usage
  rw [h1, h2, h3, h4]

theorem fcp_gate_congr (total : Nat) (esim : esim_t) (f f' : fcp_t) (u : Int → Int)
    (h : fcp_same_config f f') :
    fcp_gate total esim (f'.with_used_ways u) ↔ fcp_gate total esim (f.with_used_ways u) := by
  unfold fcp_gate
  rw [cache_usage_congr total (f.with_used_ways u).mod (f'.with_used_ways u).mod h.1 rfl
    h.2.2.2 h.2.2.1]

theorem fcp_repartition_gate_closed (list_sort : (Int → Int → Int) → List Int → List Int)
    (nc nt : Nat) (esim : esim_t) (fcp : fcp_t)
    (hcyc : fcp.last_esim_cycle < esim.esim_cycle) (hgate : ¬ fcp_gate (nc * nt) esim fcp) :
    fcp_repartition list_sort nc nt esim fcp = some fcp := by
  unfold fcp_repartition
  have h1 : esim.esim_cycle - fcp.last_esim_cycle > 0 := by omega
  have h2 : esim.esim_time ≤ FCP_TIME_TH ∨
      double.le (cache_usage (nc * nt) fcp.mod) FCP_CACHE_TH := by
    unfold fcp_gate at hgate
    exact not_not.1 hgate
  simp only [h1, if_true, h2]

theorem fcp_create_static (nc nt : Nat) (mod : mod_t) (interval : Int)
    (hnum : mod.num_reachable_threads = (count_reachable (nc * nt) mod : Int))
    (hn1 : 1 ≤ count_reachable (nc * nt) mod)
    (hn2 : count_reachable (nc * nt) mod ≤ mod.cache.assoc)
    (hsets : 0 < mod.cache.num_sets) :
    fcp_static (nc * nt)
      (fcp_create nc nt mod thread_pairing_policy_t.thread_pairing_policy_none interval) := by
  obtain ⟨g, hg, hgr⟩ := exists_reachable (nc * nt) mod hn1
  refine ⟨rfl, ?_, ?_, ?_, hnum, hn2, hsets⟩
  · intro h
    have hm : (g : Int) ∈ (fcp_create nc nt mod
        thread_pairing_policy_t.thread_pairing_policy_none interval).threads := by
      show (g : Int) ∈ ((List.range (nc * nt)).filter
        (fun (i : Nat) => mod.reachable_threads (i : Int))).map (fun (i : Nat) => (i : Int))
      exact List.mem_map.2 ⟨g, List.mem_filter.2 ⟨List.mem_range.2 hg, hgr⟩, rfl⟩
    rw [h] at hm
    cases hm
  · intro t ht
    have ht' : t ∈ ((List.range (nc * nt)).filter
        (fun (i : Nat) => mod.reachable_threads (i : Int))).map (fun (i : Nat) => (i : Int)) := ht
    obtain ⟨i, hi, rfl⟩ := List.mem_map.1 ht'
    obtain ⟨hi1, hi2⟩ := List.mem_filter.1 hi
    have := List.mem_range.1 hi1
    exact ⟨by omega, by omega, hi2⟩
  · intro i hi hr
    have hr' : mod.reachable_threads (i : Int) = true := hr
    show (if 0 ≤ (i : Int) ∧ (i : Int) < ((nc * nt : Nat) : Int) ∧
      mod.reachable_threads (i : Int) = true then _ else _ : fcp_thread_t).assigned_ways = _
    rw [if_pos ⟨by omega, by omega, hr'⟩]

/-- A run of calls from a well-formed controller without pairing returns, and
leaves a well-formed controller over the same configuration. -/
theorem fcp_run_inv (list_sort : (Int → Int → Int) → List Int → List Int) (nc nt : Nat)
    (hsort : list_sort_sorts list_sort) (calls : List (esim_t × (Int → Int))) :
    ∀ fcp : fcp_t, fcp_static (nc * nt) fcp → fcp_state_ok (nc * nt) fcp →
      (∀ c ∈ calls, fcp.last_esim_cycle < c.1.esim_cycle) →
      fcp_cycles_increase calls → fcp_calls_ok (nc * nt) fcp.mod calls →
      ∃ f, fcp_run list_sort nc nt fcp calls = some f ∧ fcp_static (nc * nt) f ∧
        fcp_state_ok (nc * nt) f ∧ fcp_same_config fcp f := by
  induction calls with
  | nil =>
    intro fcp hst hok _ _ _
    exact ⟨fcp, rfl, hst, hok, fcp_same_config_refl fcp⟩
  | cons c rest ih =>
    intro fcp hst hok hlast hinc hcalls
    have hc := hcalls c (List.mem_cons_self _ _)
    have hcyc : (fcp.with_used_ways c.2).last_esim_cycle < c.1.esim_cycle :=
      hlast c (List.mem_cons_self _ _)
    have hinc' := List.pairwise_cons.1 hinc
    have hstep : ∃ f1, fcp_repartition list_sort nc nt c.1 (fcp.with_used_ways c.2) = some f1 ∧
        fcp_static (nc * nt) f1 ∧ fcp_state_ok (nc * nt) f1 ∧ fcp_same_config fcp f1 ∧
        (f1.last_esim_cycle = fcp.last_esim_cycle ∨ f1.last_esim_cycle = c.1.esim_cycle) := by
      by_cases hgate : fcp_gate (nc * nt) c.1 (fcp.with_used_ways c.2)
      · obtain ⟨_, _, _, _, f1, _, he, h1, h2, h3, hfr, _⟩ :=
          fcp_repartition_step list_sort nc nt c.1 (fcp.with_used_ways c.2) hsort hst hok
            ⟨by omega, hc.2⟩ hcyc hgate
        have hcfg : fcp_same_config (fcp.with_used_ways c.2) f1 := fcp_same_config_of_mod hfr
        exact ⟨f1, he, h1, h2, hcfg, Or.inr h3⟩
      · exact ⟨fcp.with_used_ways c.2,
          fcp_repartition_gate_closed list_sort nc nt c.1 _ hcyc hgate, hst, hok,
          ⟨rfl, rfl, rfl, rfl⟩, Or.inl rfl⟩
    obtain ⟨f1, he, h1, h2, hcfg, hl⟩ := hstep
    obtain ⟨f, hrun, h3, h4, hcfg'⟩ := ih f1 h1 h2
      (by
        intro c' hc'
        rcases hl with hl | hl
        · rw [hl]
          exact hlast c' (List.mem_cons_of_mem _ hc')
        · rw [hl]
          exact hinc'.1 c' hc')
      hinc'.2
      (by
        intro c' hc'
        have := hcalls c' (List.mem_cons_of_mem _ hc')
        rw [hcfg.1]
        exact this)
    refine ⟨f, ?_, h3, h4, fcp_same_config_trans hcfg hcfg'⟩
    show (match fcp_repartition list_sort nc nt c.1 (fcp.with_used_ways c.2) with
      | none => none
      | some f => fcp_run list_sort nc nt f rest) = some f
    rw [he]
    exact hrun

theorem fcp_run_append (list_sort : (Int → Int → Int) → List Int → List Int) (nc nt : Nat)
    (l1 l2 : List (esim_t × (Int → Int))) :
    ∀ fcp : fcp_t, fcp_run list_sort nc nt fcp (l1 ++ l2) =
      (fcp_run list_sort nc nt fcp l1).bind fun f => fcp_run list_sort nc nt f l2 := by
  induction l1 with
  | nil =>
    intro fcp
    rfl
  | cons c rest ih =>
    intro fcp
    show (match fcp_repartition list_sort nc nt c.1 (fcp.with_used_ways c.2) with
      | none => none
      | some f => fcp_run list_sort nc nt f (rest ++ l2)) =
      (match fcp_repartition list_sort nc nt c.1 (fcp.with_used_ways c.2) with
      | none => none
      | some f => fcp_run list_sort nc nt f rest).bind fun f => fcp_run list_sort nc nt f l2
    cases fcp_repartition list_sort nc nt c.1 (fcp.with_used_ways c.2) with
    | none => rfl
    | some f => exact ih f

theorem fcp_run_cons (list_sort : (Int → Int → Int) → List Int → List Int) (nc nt : Nat)
    (c : esim_t × (Int → Int)) (rest : List (esim_t × (Int → Int))) (fcp f1 : fcp_t)
    (h : fcp_repartition list_sort nc nt c.1 (fcp.with_used_ways c.2) = some f1) :
    fcp_run list_sort nc nt fcp (c :: rest) = fcp_run list_sort nc nt f1 rest := by
  show (match fcp_repartition list_sort nc nt c.1 (fcp.with_used_ways c.2) with
    | none => none
    | some f => fcp_run list_sort nc nt f rest) = _
  rw [h]

/-- While the countdown lasts, every call that passes the gate leaves the
controller in BACKOFF and takes one interval off the countdown. -/
theorem fcp_run_backoff (list_sort : (Int → Int → Int) → List Int → List Int) (nc nt : Nat)
    (hsort : list_sort_sorts list_sort) (calls : List (esim_t × (Int → Int))) :
    ∀ fcp : fcp_t, fcp_static (nc * nt) fcp → fcp_state_ok (nc * nt) fcp →
      fcp.state = fcp_state_t.BACKOFF → (calls.length : Int) ≤ fcp.backoff →
      (∀ c ∈ calls, fcp.last_esim_cycle < c.1.esim_cycle) →
      fcp_cycles_increase calls → fcp_calls_ok (nc * nt) fcp.mod calls →
      fcp_calls_pass_gate (nc * nt) fcp calls →
      ∃ f, fcp_run list_sort nc nt fcp calls = some f ∧ fcp_static (nc * nt) f ∧
        fcp_state_ok (nc * nt) f ∧ fcp_same_config fcp f ∧
        f.state = fcp_state_t.BACKOFF ∧ f.backoff = fcp.backoff - calls.length ∧
        ∀ x : Int, fcp.last_esim_cycle < x → (∀ c ∈ calls, c.1.esim_cycle < x) →
          f.last_esim_cycle < x := by
  induction calls with
  | nil =>
    intro fcp hst hok hs _ _ _ _ _
    exact ⟨fcp, rfl, hst, hok, fcp_same_config_refl fcp, hs, by simp, fun x hx _ => hx⟩
  | cons c rest ih =>
    intro fcp hst hok hs hlen hlast hinc hcalls hgates
    have hc := hcalls c (List.mem_cons_self _ _)
    have hcyc : (fcp.with_used_ways c.2).last_esim_cycle < c.1.esim_cycle :=
      hlast c (List.mem_cons_self _ _)
    have hinc' := List.pairwise_cons.1 hinc
    have hlen' : ((rest.length : Int)) + 1 ≤ fcp.backoff := by
      simpa using hlen
    obtain ⟨_, _, _, _, f1, _, he, h1, h2, h3, hfr, _, _, _, hb, _⟩ :=
      fcp_repartition_step list_sort nc nt c.1 (fcp.with_used_ways c.2) hsort hst hok
        ⟨by omega, hc.2⟩ hcyc (hgates c (List.mem_cons_self _ _))
    obtain ⟨hs1, hb1⟩ := hb hs (by show 0 < fcp.backoff; omega)
    have hcfg : fcp_same_config (fcp.with_used_ways c.2) f1 := fcp_same_config_of_mod hfr
    have hcfg0 : fcp_same_config fcp f1 := hcfg
    obtain ⟨f, hrun, h4, h5, hcfg', hs', hb', hl'⟩ := ih f1 h1 h2 hs1
      (by rw [hb1]; show (rest.length : Int) ≤ fcp.backoff - 1; omega)
      (by
        intro c' hc'
        rw [h3]
        exact hinc'.1 c' hc')
      hinc'.2
      (by
        intro c' hc'
        have := hcalls c' (List.mem_cons_of_mem _ hc')
        rw [hcfg0.1]
        exact this)
      (by
        intro c' hc'
        exact (fcp_gate_congr (nc * nt) c'.1 fcp f1 c'.2 hcfg0).2
          (hgates c' (List.mem_cons_of_mem _ hc')))
    refine ⟨f, ?_, h4, h5, fcp_same_config_trans hcfg0 hcfg', hs', ?_, ?_⟩
    · rw [fcp_run_cons list_sort nc nt c rest fcp f1 he]
      exact hrun
    · rw [hb', hb1]
      show fcp.backoff - 1 - (rest.length : Int) = fcp.backoff - ((rest.length + 1 : Nat) : Int)
      push_cast
      ring
    · intro x _ hx
      apply hl' x
      · rw [h3]
        exact hx c (List.mem_cons_self _ _)
      · intro c' hc'
        exact hx c' (List.mem_cons_of_mem _ hc')

theorem fcp_unfairness_increasing_iff (fcp : fcp_t) (u : double) :
    fcp_unfairness_increasing fcp u = true ↔
      (FCP_MAX_INC_INT ≤ fcp.state_counter ∧
        ¬ double.le u
          (double.mul (fcp.last_unfairness_values ((fcp.state_counter - 1) % FCP_HISTORY_SIZE))
            FCP_UNF_INC_TH) ∧
        ¬ double.le (fcp.last_unfairness_values ((fcp.state_counter - 1) % FCP_HISTORY_SIZE))
          (double.mul (fcp.last_unfairness_values ((fcp.state_counter - 2) % FCP_HISTORY_SIZE))
            FCP_UNF_INC_TH)) := by
  unfold fcp_unfairness_increasing
  by_cases h1 : fcp.state_counter ≥ FCP_MAX_INC_INT
  · rw [if_pos h1]
    by_cases h2 : double.le u
        (double.mul (fcp.last_unfairness_values ((fcp.state_counter - 1) % FCP_HISTORY_SIZE))
          FCP_UNF_INC_TH)
    · simp [h2]
    · by_cases h3 : double.le
          (fcp.last_unfairness_values ((fcp.state_counter - 1) % FCP_HISTORY_SIZE))
          (double.mul (fcp.last_unfairness_values ((fcp.state_counter - 2) % FCP_HISTORY_SIZE))
            FCP_UNF_INC_TH)
      · simp [h2, h3]
      · simp only [h2, h3, if_false, not_false_eq_true, and_true, true_iff]
        exact h1
  · rw [if_neg h1]
    simp only [Bool.false_eq_true, false_iff, not_and]
    intro h
    exact absurd h h1

/-! ## Lemmas on the decoding of addresses -/

theorem land_not_block_mask (addr k : Nat) (hk : k ≤ 32) (ha : addr < 2 ^ 32) :
    Nat.land addr (2 ^ 32 - 1 - (2 ^ k - 1) % 2 ^ 32) = addr - addr % 2 ^ k := by
  have hpk : 2 ^ k ≤ 2 ^ 32 := Nat.pow_le_pow_right (by decide) hk
  have hpos : 0 < 2 ^ k := Nat.two_pow_pos k
  have hm : (2 ^ k - 1) % 2 ^ 32 = 2 ^ k - 1 := Nat.mod_eq_of_lt (by omega)
  have e1 : 2 ^ 32 - 1 - (2 ^ k - 1) = 2 ^ 32 - ((2 ^ k - 1) + 1) := by omega
  have e2 : addr - addr % 2 ^ k = 2 ^ k * (addr >>> k) := by
    rw [Nat.shiftRight_eq_div_pow]
    have := Nat.div_add_mod addr (2 ^ k)
    omega
  rw [hm, e1, e2]
  show addr &&& (2 ^ 32 - ((2 ^ k - 1) + 1)) = _
  apply Nat.eq_of_testBit_eq
  intro i
  rw [Nat.testBit_and, Nat.testBit_two_pow_sub_succ (by omega), Nat.testBit_two_pow_sub_one,
    Nat.testBit_mul_pow_two, Nat.testBit_shiftRight]
  by_cases h1 : i < k
  · have : ¬ i ≥ k := by omega
    simp [h1, this]
  · have h2 : i ≥ k := by omega
    have h3 : k + (i - k) = i := by omega
    rw [h3]
    by_cases h4 : i < 32
    · simp [h1, h2, h4]
    · have : addr.testBit i = false :=
        Nat.testBit_lt_two_pow (lt_of_lt_of_le ha (Nat.pow_le_pow_right (by decide) (by omega)))
      simp [this]

theorem land_pow_two_pred (j : Nat) : Nat.land (2 ^ j) (2 ^ j - 1) = 0 := by
  show 2 ^ j &&& 2 ^ j - 1 = 0
  rw [Nat.and_pow_two_sub_one_eq_mod]
  exact Nat.mod_self _

theorem to_int_of_lt (u : Nat) (h : u < 2 ^ 31) : to_int u = (u : Int) := by
  unfold to_int
  have : u % 2 ^ 32 = u := Nat.mod_eq_of_lt (by omega)
  rw [this, if_pos h]

theorem to_int_emod (u : Nat) (h : u < 2 ^ 32) : to_int u % 2 ^ 32 = (u : Int) := by
  unfold to_int
  have e : u % 2 ^ 32 = u := Nat.mod_eq_of_lt h
  rw [e]
  split_ifs with h1
  · omega
  · omega

/-! ## The state of the controller along `fcp_repartition` -/

theorem fcp_seed_state (fcp : fcp_t) (n : Nat) : (fcp_seed n fcp).1.state = fcp.state := by
  induction n with
  | zero => rfl
  | succ n ih =>
    rw [fcp_seed_succ]
    dsimp only
    split_ifs <;> exact ih

theorem fcp_redistribute_state (total fuel : Nat) :
    ∀ (fcp : fcp_t) (ways i : Int) (r : fcp_t),
      fcp_redistribute total fuel fcp ways i = some r → r.state = fcp.state := by
  induction fuel with
  | zero =>
    intro fcp ways i r h
    cases h
  | succ fuel ih =>
    intro fcp ways i r h
    by_cases hw0 : ways = 0
    · subst hw0
      rw [fcp_redistribute_zero] at h
      cases h
      rfl
    by_cases hr : fcp.mod.reachable_threads (i % (total : Int)) = true
    · by_cases hpos : 0 < ways
      · rw [fcp_redistribute_give total fuel fcp ways i hpos hr] at h
        have := ih _ _ _ r h
        exact this
      · have hneg : ways < 0 := by omega
        by_cases ha : 1 < fcp.mod.cache.assigned_ways (i % (total : Int))
        · rw [fcp_redistribute_take total fuel fcp ways i hneg hr ha] at h
          have := ih _ _ _ r h
          exact this
        · rw [fcp_redistribute_keep total fuel fcp ways i hneg hr ha] at h
          exact ih _ _ _ r h
    · rw [fcp_redistribute_skip total fuel fcp ways i hw0 hr] at h
      exact ih _ _ _ r h

theorem fcp_unfairness_state (list_sort : (Int → Int → Int) → List Int → List Int)
    (total : Nat) (esim : esim_t) (fcp f2 : fcp_t) (mn mx : Int) (u : double)
    (h : fcp_unfairness list_sort total esim fcp = some (f2, mn, mx, u)) :
    f2.state = fcp.state ∧ f2.state_counter = fcp.state_counter ∧
      f2.last_unfairness_values = fcp.last_unfairness_values ∧ f2.backoff = fcp.backoff := by
  obtain ⟨d, he, _, _⟩ := fcp_individual_speedup_spec esim fcp total
  unfold fcp_unfairness at h
  rw [he] at h
  dsimp only at h
  split at h
  · split_ifs at h
    simp only [Option.some.injEq, Prod.mk.injEq] at h
    rw [← h.1]
    exact ⟨rfl, rfl, rfl, rfl⟩
  · cases h

theorem fcp_add_pair_state (fcp f : fcp_t) (i j : Nat) (ways : Int)
    (h : fcp_add_pair fcp i j ways = some f) :
    f.state = fcp.state ∧ f.state_counter = fcp.state_counter ∧
      f.last_unfairness_values = fcp.last_unfairness_values ∧ f.backoff = fcp.backoff := by
  unfold fcp_add_pair at h
  split at h
  · simp only [Option.some.injEq] at h
    rw [← h]
    exact ⟨rfl, rfl, rfl, rfl⟩
  · cases h

theorem fcp_add_pairs_state (ways : Int) (pairs : List (Nat × Nat)) :
    ∀ (acc : Option fcp_t) (f0 f : fcp_t),
      (∀ g, acc = some g → g.state = f0.state ∧ g.state_counter = f0.state_counter ∧
        g.last_unfairness_values = f0.last_unfairness_values ∧ g.backoff = f0.backoff) →
      pairs.foldl (fun (acc : Option fcp_t) (p : Nat × Nat) =>
        acc.bind fun f => fcp_add_pair f p.1 p.2 ways) acc = some f →
      f.state = f0.state ∧ f.state_counter = f0.state_counter ∧
        f.last_unfairness_values = f0.last_unfairness_values ∧ f.backoff = f0.backoff := by
  induction pairs with
  | nil =>
    intro acc f0 f hacc h
    exact hacc f h
  | cons p rest ih =>
    intro acc f0 f hacc h
    rw [List.foldl_cons] at h
    refine ih _ f0 f ?_ h
    intro g hg
    cases acc with
    | none => cases hg
    | some a =>
      have ha := hacc a rfl
      have hg' : fcp_add_pair a p.1 p.2 ways = some g := hg
      have := fcp_add_pair_state a g p.1 p.2 ways hg'
      exact ⟨this.1.trans ha.1, this.2.1.trans ha.2.1, this.2.2.1.trans ha.2.2.1,
        this.2.2.2.trans ha.2.2.2⟩

theorem fcp_pairing_state (fcp f : fcp_t) (h : fcp_pairing fcp = some f) :
    f.state = fcp.state := by
  unfold fcp_pairing at h
  dsimp only at h
  split_ifs at h with h1 h2 h3
  all_goals first
    | cases h
    | skip
  all_goals
    cases hp : fcp.pairing_policy <;> rw [hp] at h <;> dsimp only at h
  all_goals first
    | (cases h <;> rfl)
    | (split at h
       · cases h
       · rename_i g hfold
         split_ifs at h
         simp only [Option.some.injEq] at h
         rw [← h]
         exact (fcp_add_pairs_state _ _ _ _ g
          (by
            intro g' hg'
            simp only [Option.some.injEq] at hg'
            rw [← hg']
            exact ⟨rfl, rfl, rfl, rfl⟩) hfold).1)

theorem fcp_repair_state (fcp f : fcp_t) (pm : Bool) (h : fcp_repair fcp = some (f, pm)) :
    f.state = fcp.state := by
  unfold fcp_repair at h
  split_ifs at h
  all_goals first
    | (simp only [Option.some.injEq, Prod.mk.injEq] at h
       rw [← h.1])
    | (cases hp : fcp_pairing fcp with
       | none =>
         rw [hp] at h
         cases h
       | some g =>
         rw [hp] at h
         simp only [Option.map_some', Option.some.injEq, Prod.mk.injEq] at h
         rw [← h.1]
         exact fcp_pairing_state fcp g hp)

theorem fcp_transfer_state (fcp f : fcp_t) (mn mx : Int) (h : fcp_transfer fcp mn mx = some f) :
    f.state = fcp.state := by
  unfold fcp_transfer at h
  split at h
  · cases h
  · split_ifs at h
    · split at h
      · cases h
      · dsimp only at h
        split at h
        · simp only [Option.some.injEq] at h
          rw [← h]
          rfl
        · cases h
    · simp only [Option.some.injEq] at h
      rw [← h]

theorem fcp_pair_transfers_state (pairs : List fcp_pair_t) :
    ∀ (acc : Option (fcp_t × Int × Int)) (s : fcp_state_t) (r : fcp_t × Int × Int),
      (∀ g, acc = some g → g.1.state = s) →
      pairs.foldl
        (fun (acc : Option (fcp_t × Int × Int)) (pair : fcp_pair_t) =>
          match acc with
          | none => none
          | some (f, mn, mx) =>
            if pair.ways ≥ 2 then
              let s1 := (f.data pair.id1).individual_speedup
              let s2 := (f.data pair.id2).individual_speedup
              let mm : Int × Int :=
                if double.lt s2 s1 then (pair.id2, pair.id1)
                else if double.lt s1 s2 then (pair.id1, pair.id2)
                else (mn, mx)
              (fcp_transfer f mm.1 mm.2).map fun f1 => (f1, mm.1, mm.2)
            else none) acc = some r →
      r.1.state = s := by
  induction pairs with
  | nil =>
    intro acc s r hacc h
    exact hacc r h
  | cons p rest ih =>
    intro acc s r hacc h
    rw [List.foldl_cons] at h
    refine ih _ s r ?_ h
    intro g hg
    cases acc with
    | none => cases hg
    | some a =>
      obtain ⟨f, mn, mx⟩ := a
      have ha := hacc (f, mn, mx) rfl
      dsimp only at hg
      split_ifs at hg
      all_goals
        cases ht : fcp_transfer f _ _ with
        | none =>
          rw [ht] at hg
          cases hg
        | some f1 =>
          rw [ht] at hg
          simp only [Option.map_some', Option.some.injEq] at hg
          rw [← hg]
          exact (fcp_transfer_state f f1 _ _ ht).trans ha

theorem fcp_shave_state (ids : Int → Int) (fuel : Nat) :
    ∀ (fcp : fcp_t) (status count : Int) (r : fcp_t),
      fcp_shave ids fuel fcp status count = some r → r.state = fcp.state := by
  induction fuel with
  | zero =>
    intro fcp status count r h
    cases h
  | succ fuel ih =>
    intro fcp status count r h
    rw [fcp_shave] at h
    split_ifs at h
    · split at h
      · cases h
      · split_ifs at h
        · have := ih _ _ _ r h
          exact this
        · exact ih _ _ _ r h
    · simp only [Option.some.injEq] at h
      rw [← h]

theorem fcp_grant_state (ids : Int → Int) (pw : Int) (fuel : Nat) :
    ∀ (fcp : fcp_t) (status count : Int) (r : fcp_t),
      fcp_grant ids pw fuel fcp status count = some r → r.state = fcp.state := by
  induction fuel with
  | zero =>
    intro fcp status count r h
    cases h
  | succ fuel ih =>
    intro fcp status count r h
    rw [fcp_grant] at h
    split_ifs at h
    · split at h
      · cases h
      · split_ifs at h
        · have := ih _ _ _ r h
          exact this
        · exact ih _ _ _ r h
    · simp only [Option.some.injEq] at h
      rw [← h]

theorem fcp_recover_ways_state (n : Nat) (assoc : Int) (pairs : List fcp_pair_t) :
    ∀ (acc : Option (fcp_t × Int)) (s : fcp_state_t) (r : fcp_t × Int),
      (∀ g, acc = some g → g.1.state = s) →
      pairs.foldl
        (fun (acc : Option (fcp_t × Int)) (pair : fcp_pair_t) =>
          match acc with
          | none => none
          | some (f, ways) =>
            match f.ways_of pair.id1, f.ways_of pair.id2 with
            | some a, some b =>
              let status := a + b - pair.ways
              if pair.ways ≥ 2 ∧
                  pair.ways ≤ (f.mod.cache.assoc : Int) - ((f.pairing_pairs.length : Int) - 1) * 2 ∧
                  a > 0 ∧ b > 0 then
                if status > 0 then
                  (fcp_shave pair.member (2 * status.toNat + 2) f status 0).map
                    fun f1 => (f1, ways + status)
                else some (f, ways)
              else none
            | _, _ => none) acc = some r →
      r.1.state = s := by
  induction pairs with
  | nil =>
    intro acc s r hacc h
    exact hacc r h
  | cons p rest ih =>
    intro acc s r hacc h
    rw [List.foldl_cons] at h
    refine ih _ s r ?_ h
    intro g hg
    cases acc with
    | none => cases hg
    | some a =>
      obtain ⟨f, ways⟩ := a
      have ha := hacc (f, ways) rfl
      dsimp only at hg
      split at hg
      · split_ifs at hg
        · cases ht : fcp_shave p.member _ f _ 0 with
          | none =>
            rw [ht] at hg
            cases hg
          | some f1 =>
            rw [ht] at hg
            simp only [Option.map_some', Option.some.injEq] at hg
            rw [← hg]
            exact (fcp_shave_state _ _ f _ _ f1 ht).trans ha
        · simp only [Option.some.injEq] at hg
          rw [← hg]
          exact ha
      · cases hg

theorem fcp_reassign_ways_state (pairs : List fcp_pair_t) :
    ∀ (acc : Option (fcp_t × Int × Bool)) (s : fcp_state_t) (r : fcp_t × Int × Bool),
      (∀ g, acc = some g → g.1.state = s) →
      pairs.foldl
        (fun (acc : Option (fcp_t × Int × Bool)) (pair : fcp_pair_t) =>
          match acc with
          | none => none
          | some (f, ways, true) => some (f, ways, true)
          | some (f, ways, false) =>
            match f.ways_of pair.id1, f.ways_of pair.id2 with
            | some a, some b =>
              let status := a + b - pair.ways
              let r : Option (fcp_t × Int) :=
                if status < 0 then
                  (fcp_grant pair.member pair.ways (2 * (-status).toNat + 2) f status 0).map
                    fun f1 => (f1, ways + status)
                else some (f, ways)
              match r with
              | none => none
              | some (f1, ways1) =>
                if ways1 ≥ 0 then some (f1, ways1, decide (ways1 = 0)) else none
            | _, _ => none) acc = some r →
      r.1.state = s := by
  induction pairs with
  | nil =>
    intro acc s r hacc h
    exact hacc r h
  | cons p rest ih =>
    intro acc s r hacc h
    rw [List.foldl_cons] at h
    refine ih _ s r ?_ h
    intro g hg
    cases acc with
    | none => cases hg
    | some a =>
      obtain ⟨f, ways, b⟩ := a
      have ha := hacc (f, ways, b) rfl
      cases b with
      | true =>
        simp only [Option.some.injEq] at hg
        rw [← hg]
        exact ha
      | false =>
        dsimp only at hg
        split at hg
        · split at hg
          · cases hg
          · rename_i f1 ways1 hr
            split_ifs at hg
            simp only [Option.some.injEq] at hg
            rw [← hg]
            show f1.state = s
            split_ifs at hr
            · cases ht : fcp_grant p.member p.ways _ f _ 0 with
              | none =>
                rw [ht] at hr
                cases hr
              | some f2 =>
                rw [ht] at hr
                simp only [Option.map_some', Option.some.injEq, Prod.mk.injEq] at hr
                rw [← hr.1]
                exact (fcp_grant_state _ _ _ f _ _ f2 ht).trans ha
            · simp only [Option.some.injEq, Prod.mk.injEq] at hr
              rw [← hr.1]
              exact ha
        · cases hg

theorem fcp_pairing_adjust_ways_state (fcp f : fcp_t)
    (h : fcp_pairing_adjust_ways fcp = some f) : f.state = fcp.state := by
  unfold fcp_pairing_adjust_ways at h
  split at h
  · cases h
  · rename_i g ways hrec
    have hg : g.state = fcp.state := by
      unfold fcp_recover_ways at hrec
      exact fcp_recover_ways_state 0 0 fcp.pairing_pairs _ fcp.state (g, ways)
        (by
          intro g' hg'
          simp only [Option.some.injEq] at hg'
          rw [← hg']) hrec
    split_ifs at h
    · cases hre : fcp_reassign_ways g ways with
      | none =>
        rw [hre] at h
        cases h
      | some r =>
        rw [hre] at h
        simp only [Option.map_some', Option.some.injEq] at h
        rw [← h]
        unfold fcp_reassign_ways at hre
        exact (fcp_reassign_ways_state g.pairing_pairs _ g.state r
          (by
            intro g' hg'
            simp only [Option.some.injEq] at hg'
            rw [← hg']) hre).trans hg
    · simp only [Option.some.injEq] at h
      rw [← h]
      exact hg

theorem fcp_action_state (total : Nat) (fcp f : fcp_t) (mn mx : Int) (pm : Bool)
    (h : fcp_action total fcp mn mx pm = some f) : f.state = fcp.state := by
  unfold fcp_action at h
  cases hs : fcp.state with
  | OFF =>
    rw [hs] at h
    dsimp only at h
    split_ifs at h
    simp only [Option.some.injEq] at h
    rw [← h, hs]
  | BACKOFF =>
    rw [hs] at h
    dsimp only at h
    split_ifs at h
    simp only [Option.some.injEq] at h
    rw [← h]
  | ON =>
    rw [hs] at h
    dsimp only at h
    split at h
    · cases h
    · rename_i g hg
      have hgs : g.state = fcp.state := by
        split_ifs at hg
        · split at hg
          · cases hg
          · rename_i g1 ht
            split_ifs at hg
            simp only [Option.some.injEq] at hg
            rw [← hg]
            exact fcp_transfer_state fcp g1 mn mx ht
        · unfold fcp_pair_transfers at hg
          cases hf : fcp.pairing_pairs.foldl _ (some (fcp, mn, mx)) with
          | none =>
            rw [hf] at hg
            cases hg
          | some r =>
            rw [hf] at hg
            simp only [Option.map_some', Option.some.injEq] at hg
            rw [← hg]
            exact fcp_pair_transfers_state fcp.pairing_pairs _ fcp.state r
              (by
                intro g' hg'
                simp only [Option.some.injEq] at hg'
                rw [← hg']) hf
      split_ifs at h
      · rw [fcp_pairing_adjust_ways_state g f h, hgs, hs]
      · simp only [Option.some.injEq] at h
        rw [← h, hgs, hs]

theorem fcp_transition_state (total : Nat) (fcp f : fcp_t) (u : double)
    (h : fcp_transition total fcp u = some f) : fcp_state_change fcp.state f.state := by
  have henter : ∀ g, (fcp_redistribute total (total * ((fcp_seed total fcp).2.natAbs + 1) + 1)
      (fcp_seed total fcp).1 (fcp_seed total fcp).2 0).map
      (fun g => { g with state := fcp_state_t.ON }) = some g → g.state = fcp_state_t.ON := by
    intro g hg
    cases hr : fcp_redistribute total (total * ((fcp_seed total fcp).2.natAbs + 1) + 1)
        (fcp_seed total fcp).1 (fcp_seed total fcp).2 0 with
    | none =>
      rw [hr] at hg
      cases hg
    | some r =>
      rw [hr] at hg
      simp only [Option.map_some', Option.some.injEq] at hg
      rw [← hg]
  cases hs : fcp.state with
  | OFF =>
    rw [fcp_transition_off total fcp u hs] at h
    exact Or.inr (Or.inl ⟨rfl, henter f h⟩)
  | BACKOFF =>
    by_cases hb : 0 < fcp.backoff
    · rw [fcp_transition_backoff_pos total fcp u hs hb] at h
      simp only [Option.some.injEq] at h
      rw [← h]
      exact Or.inl hs
    · by_cases hb0 : fcp.backoff = 0
      · rw [fcp_transition_backoff_zero total fcp u hs hb0] at h
        exact Or.inr (Or.inr (Or.inr ⟨rfl, henter f h⟩))
      · unfold fcp_transition at h
        simp only [hs] at h
        rw [if_neg hb, if_neg hb0] at h
        cases h
  | ON =>
    rcases Bool.eq_false_or_eq_true (fcp_unfairness_increasing fcp u) with hinc | hinc
    · rw [fcp_transition_on_leave total fcp u hs hinc] at h
      obtain ⟨a, hd, _⟩ := fcp_disable_spec
        { fcp with backoff := FCP_BACKOFF_INTERVALS, state := fcp_state_t.BACKOFF } total
      rw [hd] at h
      simp only [Option.some.injEq] at h
      rw [← h]
      exact Or.inr (Or.inr (Or.inl ⟨rfl, rfl⟩))
    · rw [fcp_transition_on_stay total fcp u hs hinc] at h
      simp only [Option.some.injEq] at h
      rw [← h]
      exact Or.inl hs

/-- A call of `fcp_repartition` that returns changes the state of the
controller, with or without pairing, by one of the state changes of the state
machine only. -/
theorem fcp_repartition_state_change (list_sort : (Int → Int → Int) → List Int → List Int)
    (nc nt : Nat) (esim : esim_t) (fcp f : fcp_t)
    (h : fcp_repartition list_sort nc nt esim fcp = some f) :
    fcp_state_change fcp.state f.state := by
  unfold fcp_repartition at h
  dsimp only at h
  split_ifs at h
  · simp only [Option.some.injEq] at h
    rw [← h]
    exact Or.inl rfl
  · split at h
    · cases h
    · rename_i f2 mn mx u hunf
      have h2 := (fcp_unfairness_state list_sort (nc * nt) esim fcp f2 mn mx u hunf).1
      split at h
      · cases h
      · rename_i f3 pm hrep
        have h3 := fcp_repair_state f2 f3 pm hrep
        split at h
        · cases h
        · rename_i f4 htr
          have h4 := fcp_transition_state (nc * nt) f3 f4 u htr
          split at h
          · cases h
          · rename_i f5 hact
            have h5 := fcp_action_state (nc * nt) f4 f5 mn mx pm hact
            simp only [Option.some.injEq] at h
            rw [← h, (fcp_record_fields f5 f3.state u esim.esim_cycle).1, h5, ← h2, ← h3]
            exact h4

theorem fcp_run_states_chain (list_sort : (Int → Int → Int) → List Int → List Int)
    (nc nt : Nat) (calls : List (esim_t × (Int → Int))) :
    ∀ (fcp : fcp_t) (states : List fcp_state_t),
      fcp_run_states list_sort nc nt fcp calls = some states →
      List.Chain fcp_state_change fcp.state states := by
  induction calls with
  | nil =>
    intro fcp states h
    simp only [fcp_run_states, Option.some.injEq] at h
    rw [← h]
    exact List.Chain.nil
  | cons c rest ih =>
    intro fcp states h
    unfold fcp_run_states at h
    split at h
    · cases h
    · rename_i f hf
      cases hr : fcp_run_states list_sort nc nt f rest with
      | none =>
        rw [hr] at h
        cases h
      | some l =>
        rw [hr] at h
        simp only [Option.map_some', Option.some.injEq] at h
        rw [← h]
        exact List.Chain.cons
          (fcp_repartition_state_change list_sort nc nt c.1 (fcp.with_used_ways c.2) f hf)
          (ih f l hr)

theorem fcp_state_chain_not_off (l : List fcp_state_t) :
    ∀ s : fcp_state_t, List.Chain fcp_state_change s l → s ≠ fcp_state_t.OFF →
      fcp_state_t.OFF ∉ l := by
  induction l with
  | nil =>
    intro s _ _
    exact List.not_mem_nil _
  | cons a rest ih =>
    intro s h hs
    rw [List.chain_cons] at h
    have ha : a ≠ fcp_state_t.OFF := by
      rcases h.1 with h1 | h1 | h1 | h1
      · rw [h1]
        exact hs
      · exact absurd h1.1 hs
      · rw [h1.2]
        intro hc
        cases hc
      · rw [h1.2]
        intro hc
        cases hc
    intro hm
    rcases List.mem_cons.1 hm with h1 | h1
    · exact ha h1.symm
    · exact ih a h.2 ha h1

/-! ## The transfer of one way in state ON -/

theorem pairwise_head_le {α : Type} (R : α → α → Prop) (l : List α) (a : α)
    (h : l.Pairwise R) (ha : l.head? = some a) (hrefl : ∀ t ∈ l, R t t) :
    ∀ t ∈ l, R a t := by
  cases l with
  | nil => cases ha
  | cons x rest =>
    simp only [List.head?_cons, Option.some.injEq] at ha
    subst ha
    intro t ht
    rcases List.mem_cons.1 ht with h1 | h1
    · rw [h1]
      exact hrefl x (List.mem_cons_self _ _)
    · exact (List.pairwise_cons.1 h).1 t h1

theorem pairwise_last_le {α : Type} (R : α → α → Prop) (l : List α) (b : α)
    (h : l.Pairwise R) (hb : l.getLast? = some b) (hrefl : ∀ t ∈ l, R t t) :
    ∀ t ∈ l, R t b := by
  obtain ⟨ys, rfl⟩ := List.getLast?_eq_some_iff.1 hb
  intro t ht
  rcases List.mem_append.1 ht with h1 | h1
  · exact (List.pairwise_append.1 h).2.2 t h1 b (List.mem_singleton_self b)
  · rw [List.mem_singleton.1 h1]
    exact hrefl b (by simp)

/-- The threads `min` and `max` that `fcp_repartition` picks are threads of the
controller, `min` with the least and `max` with the greatest of the individual
speedups measured in this call. -/
theorem fcp_unfairness_extremes (list_sort : (Int → Int → Int) → List Int → List Int)
    (total : Nat) (esim : esim_t) (fcp f2 : fcp_t) (mn mx : Int) (u : double)
    (hsort : list_sort_sorts list_sort)
    (hst : fcp_static total fcp) (henv : fcp_env_ok total esim fcp)
    (h : fcp_unfairness list_sort total esim fcp = some (f2, mn, mx, u)) :
    mn ∈ fcp.threads ∧ mx ∈ fcp.threads ∧
    ∀ t ∈ fcp.threads,
      (f2.data t).individual_speedup = x86_thread_speedup esim t ∧
      double.le (f2.data mn).individual_speedup (f2.data t).individual_speedup ∧
      double.le (f2.data t).individual_speedup (f2.data mx).individual_speedup := by
  obtain ⟨_, hne, hthr, _, _, _, _⟩ := hst
  obtain ⟨d, he, h1, h2⟩ := fcp_individual_speedup_spec esim fcp total
  have hval : ∀ t ∈ fcp.threads, (d t).individual_speedup = x86_thread_speedup esim t := by
    intro t ht
    obtain ⟨h0, hlt, hr⟩ := hthr t ht
    obtain ⟨i, rfl⟩ : ∃ i : Nat, t = (i : Int) := ⟨t.toNat, by omega⟩
    exact h2 i (by omega) hr
  have hfin : ∀ t ∈ ({ fcp with data := d } : fcp_t).threads,
      ((({ fcp with data := d } : fcp_t).data t).individual_speedup).den ≠ 0 := by
    intro t ht
    obtain ⟨h0, hlt, hr⟩ := hthr t ht
    obtain ⟨i, rfl⟩ : ∃ i : Nat, t = (i : Int) := ⟨t.toNat, by omega⟩
    show ((d (i : Int)).individual_speedup).den ≠ 0
    rw [h2 i (by omega) hr]
    obtain ⟨hc, hth⟩ := henv
    exact x86_thread_speedup_finite esim i hc (hth i (by omega) hr).1 (hth i (by omega) hr).2.1
  obtain ⟨hperm, hsorted⟩ := hsort { fcp with data := d } hfin
  generalize hthr' : list_sort (compare_is { fcp with data := d })
    ({ fcp with data := d } : fcp_t).threads = thr at hperm hsorted
  have hperm' : thr.Perm fcp.threads := hperm
  have hrefl : ∀ t ∈ thr, double.le (d t).individual_speedup (d t).individual_speedup :=
    fun t ht => double_le_refl (hfin t (hperm'.subset ht))
  unfold fcp_unfairness at h
  rw [he] at h
  simp only [hthr'] at h
  split at h
  · rename_i mn' mx' hmn hmx
    split_ifs at h
    simp only [Option.some.injEq, Prod.mk.injEq] at h
    obtain ⟨hf, hm, hM, _⟩ := h
    subst hm hM
    rw [← hf]
    refine ⟨hperm'.subset (List.mem_of_mem_head? hmn),
      hperm'.subset (List.mem_of_getLast?_eq_some hmx), ?_⟩
    intro t ht
    have ht' : t ∈ thr := hperm'.symm.subset ht
    exact ⟨hval t ht, pairwise_head_le _ thr mn' hsorted hmn hrefl t ht',
      pairwise_last_le _ thr mx' hsorted hmx hrefl t ht'⟩
  · cases h

/-- The transfer in terms of the array of quotas. -/
theorem fcp_transfer_eq (f : fcp_t) (m M : Int)
    (hpm : (f.data m).assigned_ways = some m) (hpM : (f.data M).assigned_ways = some M) :
    fcp_transfer f m M =
      some (f.with_assigned_ways (fcp_transfer_ways f.mod.cache.assigned_ways m M)) := by
  unfold fcp_transfer fcp_t.ways_of fcp_transfer_ways
  rw [hpM]
  simp only [Option.map_some']
  by_cases hgt : f.mod.cache.assigned_ways M > FCP_MIN_WAYS
  · rw [if_pos hgt, if_pos hgt]
    have hd : ((f.set_assigned_ways M (f.mod.cache.assigned_ways M - 1)).data m).assigned_ways
        = some m := hpm
    simp only [hd, Option.map_some']
    rfl
  · rw [if_neg hgt, if_neg hgt]
    rfl

/-- What the action of state ON without pairing returns is what the transfer
returns. -/
theorem fcp_action_on_transfer (total : Nat) (f g : fcp_t) (mn mx : Int)
    (hpol : f.pairing_policy = thread_pairing_policy_t.thread_pairing_policy_none)
    (hstate : f.state = fcp_state_t.ON)
    (h : fcp_action total f mn mx false = some g) : fcp_transfer f mn mx = some g := by
  unfold fcp_action at h
  simp only [hstate, hpol, if_true] at h
  cases ht : fcp_transfer f mn mx with
  | none =>
    rw [ht] at h
    cases h
  | some f1 =>
    rw [ht] at h
    dsimp only at h
    split_ifs at h
    · rename_i hf
      exact absurd hf (by simp)
    · simp only [Option.some.injEq] at h
      rw [h]

/-! ## The choice of the allocation loop of UCP -/

theorem ucp_mu_some (ucp : ucp_t) (t alloc : Int) (atd : atd_t)
    (hatd : ucp.mod.atd_per_thread t = some atd) (k : Int) (hk : 1 ≤ k) :
    ∃ mu, ucp_mu ucp t alloc (alloc + k) = some mu ∧ mu.den ≠ 0 := by
  unfold ucp_mu
  rw [if_pos (by omega), hatd]
  refine ⟨_, rfl, ?_⟩
  refine (double_div_finite ?_ ?_ ?_).1
  · show (1 : Nat) ≠ 0
    decide
  · show (1 : Nat) ≠ 0
    decide
  · show alloc + k - alloc ≠ 0
    omega

/-- What `ucp_max_mu` returns after trying the increments `1 .. n`: a finite
value that no tried increment exceeds, and that is 0 or the marginal utility of
the increment returned. -/
theorem ucp_max_mu_max (ucp : ucp_t) (t alloc : Int) (atd : atd_t)
    (hatd : ucp.mod.atd_per_thread t = some atd) (n : Nat) :
    ∃ m r, (List.range n).foldl
        (fun (acc : Option (double × Int)) (k : Nat) =>
          match acc with
          | none => none
          | some (max_mu, ways_req) =>
            let i : Int := (k : Int) + 1
            match ucp_mu ucp t alloc (alloc + i) with
            | none => none
            | some mu => if double.lt max_mu mu then some (mu, i) else some (max_mu, ways_req))
        (some (double.ofInt 0, 0)) = some (m, r) ∧
      m.den ≠ 0 ∧
      (∀ j : Nat, j < n → ∀ mu, ucp_mu ucp t alloc (alloc + ((j : Int) + 1)) = some mu →
        ¬ double.lt m mu) ∧
      (m = double.ofInt 0 ∨
        (1 ≤ r ∧ r ≤ (n : Int) ∧ ucp_mu ucp t alloc (alloc + r) = some m)) := by
  induction n with
  | zero =>
    exact ⟨double.ofInt 0, 0, rfl, by decide, fun j hj => by omega, Or.inl rfl⟩
  | succ n ih =>
    obtain ⟨m, r, he, hm, hall, hr⟩ := ih
    rw [List.range_succ, List.foldl_append, he]
    obtain ⟨mu, hmu, hfin⟩ := ucp_mu_some ucp t alloc atd hatd ((n : Int) + 1) (by omega)
    simp only [List.foldl_cons, List.foldl_nil, hmu]
    by_cases hlt : double.lt m mu
    · rw [if_pos hlt]
      refine ⟨mu, (n : Int) + 1, rfl, hfin, ?_, Or.inr ⟨by omega, by push_cast; omega, hmu⟩⟩
      intro j hj x hx
      by_cases hjn : j = n
      · subst hjn
        rw [hmu] at hx
        simp only [Option.some.injEq] at hx
        rw [← hx]
        exact fun hc => lt_irrefl _ hc.2.2
      · exact double_not_lt_of_lt_of_not_lt hlt (hall j (by omega) x hx)
    · rw [if_neg hlt]
      refine ⟨m, r, rfl, hm, ?_, ?_⟩
      · intro j hj x hx
        by_cases hjn : j = n
        · subst hjn
          rw [hmu] at hx
          simp only [Option.some.injEq] at hx
          rw [← hx]
          exact hlt
        · exact hall j (by omega) x hx
      · rcases hr with hr | ⟨h1, h2, h3⟩
        · exact Or.inl hr
        · exact Or.inr ⟨h1, by push_cast; omega, h3⟩

/-! ## The warm-up gate and the termination of the allocation loop -/

/-- The test `cache_usage < UCP_CACHE_TH` in terms of the sum of `used_ways`. -/
theorem cache_usage_lt_iff (total : Nat) (mod : mod_t) (hsets : 0 < mod.cache.num_sets)
    (hassoc : 0 < mod.cache.assoc) :
    double.lt (cache_usage total mod) UCP_CACHE_TH ↔
      100 * sum_used_ways total mod <
        99 * ((mod.cache.num_sets : Int) * (mod.cache.assoc : Int)) := by
  have e : cache_usage total mod =
      double.div (double.div (double.ofInt (sum_used_ways total mod))
        (double.ofInt mod.cache.num_sets)) (double.ofInt mod.cache.assoc) := rfl
  rw [e]
  have hs : (0 : Int) < (mod.cache.num_sets : Int) := by omega
  have ha : (0 : Int) < (mod.cache.assoc : Int) := by omega
  unfold double.div double.ofInt double.lt UCP_CACHE_TH
  simp only [one_ne_zero, or_self, if_false, hs, if_true, Int.toNat_ofNat, one_mul, mul_one,
    Nat.cast_one]
  have hne : mod.cache.num_sets ≠ 0 := by omega
  simp only [hne, or_false, false_or, if_false, ha, if_true, Int.toNat_ofNat, Nat.cast_mul,
    mul_one]
  constructor
  · intro h
    have := h.2.2
    push_cast at this
    linarith
  · intro h
    refine ⟨Nat.mul_ne_zero hne (by omega), by decide, ?_⟩
    push_cast
    linarith

theorem ucp_max_mu_req (ucp : ucp_t) (t alloc : Int) (atd : atd_t)
    (hatd : ucp.mod.atd_per_thread t = some atd) (n : Nat) :
    ∃ m r, (List.range n).foldl
        (fun (acc : Option (double × Int)) (k : Nat) =>
          match acc with
          | none => none
          | some (max_mu, ways_req) =>
            let i : Int := (k : Int) + 1
            match ucp_mu ucp t alloc (alloc + i) with
            | none => none
            | some mu => if double.lt max_mu mu then some (mu, i) else some (max_mu, ways_req))
        (some (double.ofInt 0, 0)) = some (m, r) ∧
      double.lt (double.ofInt (-1)) m ∧ (r = 0 ∨ (1 ≤ r ∧ r ≤ (n : Int))) := by
  induction n with
  | zero => exact ⟨double.ofInt 0, 0, rfl, by decide, Or.inl rfl⟩
  | succ n ih =>
    obtain ⟨m, r, he, hm, hr⟩ := ih
    rw [List.range_succ, List.foldl_append, he]
    obtain ⟨mu, hmu, hfin⟩ := ucp_mu_some ucp t alloc atd hatd ((n : Int) + 1) (by omega)
    simp only [List.foldl_cons, List.foldl_nil, hmu]
    by_cases hlt : double.lt m mu
    · rw [if_pos hlt]
      exact ⟨mu, (n : Int) + 1, rfl, double_lt_trans hm hlt,
        Or.inr ⟨by omega, by push_cast; omega⟩⟩
    · rw [if_neg hlt]
      refine ⟨m, r, rfl, hm, ?_⟩
      rcases hr with hr | hr
      · exact Or.inl hr
      · exact Or.inr ⟨hr.1, by push_cast; omega⟩

theorem ucp_compute_max_mu_req (ucp : ucp_t) (balance : Int) (n : Nat)
    (hatd : ∀ i : Nat, i < n → ucp.mod.reachable_threads i = true →
      (ucp.mod.atd_per_thread i).isSome = true) :
    ∃ u1, ucp_compute_max_mu n ucp balance = some u1 ∧ u1.mod = ucp.mod ∧
      (∀ i : Nat, i < n → ucp.mod.reachable_threads i = true →
        double.lt (double.ofInt (-1)) (u1.max_mu i) ∧
        (u1.ways_req i = 0 ∨ (1 ≤ u1.ways_req i ∧ u1.ways_req i ≤ balance))) ∧
      (∀ i : Nat, ucp.mod.reachable_threads i = false → u1.ways_req i = ucp.ways_req i) := by
  induction n with
  | zero =>
    exact ⟨ucp, rfl, rfl, fun i hi => by omega, fun _ _ => rfl⟩
  | succ n ih =>
    obtain ⟨u1, he, hmod, h1, h2⟩ := ih (fun i hi => hatd i (by omega))
    rw [ucp_compute_max_mu_succ, he]
    by_cases hr : ucp.mod.reachable_threads (n : Int) = true
    · have hr1 : u1.mod.reachable_threads (n : Int) = true := by rw [hmod]; exact hr
      obtain ⟨atd, ha⟩ := Option.isSome_iff_exists.1 (hatd n (by omega) hr)
      obtain ⟨m, r, hmr, hm, hreq⟩ :=
        ucp_max_mu_req ucp n (ucp.mod.cache.assigned_ways n) atd ha balance.toNat
      have hmr0 : ucp_max_mu ucp n (ucp.mod.cache.assigned_ways n) balance = some (m, r) := hmr
      have hmr1 : ucp_max_mu u1 n (u1.mod.cache.assigned_ways n) balance = some (m, r) := by
        rw [ucp_max_mu_congr ucp u1 hmod, hmod]
        exact hmr0
      simp only [hr1, not_true_eq_false, if_false, hmr1]
      refine ⟨_, rfl, hmod, ?_, ?_⟩
      · intro i hi hri
        by_cases hin : i = n
        · subst hin
          show double.lt (double.ofInt (-1)) (Function.update u1.max_mu (i : Int) m (i : Int)) ∧
            (Function.update u1.ways_req (i : Int) r (i : Int) = 0 ∨
              (1 ≤ Function.update u1.ways_req (i : Int) r (i : Int) ∧
                Function.update u1.ways_req (i : Int) r (i : Int) ≤ balance))
          rw [Function.update_same, Function.update_same]
          refine ⟨hm, ?_⟩
          rcases hreq with hreq | hreq
          · exact Or.inl hreq
          · exact Or.inr ⟨hreq.1, by omega⟩
        · show double.lt (double.ofInt (-1)) (Function.update u1.max_mu (n : Int) m (i : Int)) ∧
            (Function.update u1.ways_req (n : Int) r (i : Int) = 0 ∨
              (1 ≤ Function.update u1.ways_req (n : Int) r (i : Int) ∧
                Function.update u1.ways_req (n : Int) r (i : Int) ≤ balance))
          rw [Function.update_noteq (by omega), Function.update_noteq (by omega)]
          exact h1 i (by omega) hri
      · intro i hri
        show Function.update u1.ways_req (n : Int) r (i : Int) = _
        rw [Function.update_noteq]
        · exact h2 i hri
        · intro hc
          have : i = n := by omega
          subst this
          rw [hr] at hri
          cases hri
    · have hr1 : ¬ u1.mod.reachable_threads (n : Int) = true := by rw [hmod]; exact hr
      simp only [hr1, not_false_eq_true, if_true]
      refine ⟨u1, rfl, hmod, ?_, h2⟩
      intro i hi hri
      by_cases hin : i = n
      · subst hin
        exact absurd hri hr
      · exact h1 i (by omega) hri

/-- The loop `while (balance)` ends, whatever the histograms hold: an
iteration that grants no way is the last or the last but one, since the next
iteration computes the same and the check `balance == last_balance` stops the
loop.  The quotas never go down. -/
theorem ucp_allocate_returns (total g : Nat) (fuel : Nat) :
    ∀ (ucp : ucp_t) (balance last : Int),
      g < total → ucp.mod.reachable_threads g = true →
      (∀ i : Nat, i < total → ucp.mod.reachable_threads i = true →
        (ucp.mod.atd_per_thread i).isSome = true) →
      (∀ i : Nat, i < total → ucp.mod.reachable_threads i = false → ucp.ways_req i = 0) →
      (∀ i : Nat, i < total → ucp.mod.reachable_threads i = true →
        1 ≤ ucp.mod.cache.assigned_ways i) →
      balance.toNat + (if balance = last then 1 else 2) ≤ fuel →
      ∃ u', ucp_allocate total fuel ucp balance last = some u' ∧
        u'.mod.reachable_threads = ucp.mod.reachable_threads ∧
        (∀ i : Nat, i < total → ucp.mod.reachable_threads i = true →
          1 ≤ u'.mod.cache.assigned_ways i) ∧
        (∀ i : Nat, i < total → ucp.mod.reachable_threads i = false → u'.ways_req i = 0) := by
  induction fuel with
  | zero =>
    intro ucp balance last _ _ _ _ _ hf
    split_ifs at hf <;> omega
  | succ fuel ih =>
    intro ucp balance last hg hgr hatd hreq0 hone hfuel
    rw [ucp_allocate]
    by_cases hbz : balance = 0
    · rw [if_pos hbz]
      exact ⟨ucp, rfl, rfl, hone, hreq0⟩
    · rw [if_neg hbz]
      obtain ⟨u1, he, hmod, h1, h2⟩ := ucp_compute_max_mu_req ucp balance total hatd
      simp only [he]
      obtain ⟨_, hsel, hsmax⟩ := ucp_choose_winner_spec u1 total
      obtain ⟨w, hw, hwin⟩ : ∃ w : Nat, w < total ∧
          (ucp_choose_winner total u1).1 = (w : Int) := by
        rcases hsel with hsel | ⟨t, ht, hsel⟩
        · have := hsmax g hg
          rw [hsel] at this
          exact absurd (h1 g hg hgr).1 this
        · exact ⟨t, ht, by rw [hsel]⟩
      have hreq : u1.ways_req w = 0 ∨ (1 ≤ u1.ways_req w ∧ u1.ways_req w ≤ balance) := by
        by_cases hwr : ucp.mod.reachable_threads (w : Int) = true
        · exact (h1 w hw hwr).2
        · have hf : ucp.mod.reachable_threads (w : Int) = false := by simpa using hwr
          rw [h2 w hf]
          exact Or.inl (hreq0 w hw hf)
      rw [hwin]
      rw [if_neg (by omega)]
      have hr2 : (u1.set_assigned_ways w
          (u1.mod.cache.assigned_ways w + u1.ways_req w)).mod.reachable_threads =
          ucp.mod.reachable_threads := by
        show u1.mod.reachable_threads = _
        rw [hmod]
      have ha2 : (u1.set_assigned_ways w
          (u1.mod.cache.assigned_ways w + u1.ways_req w)).mod.atd_per_thread =
          ucp.mod.atd_per_thread := by
        show u1.mod.atd_per_thread = _
        rw [hmod]
      have hone2 : ∀ i : Nat, i < total → ucp.mod.reachable_threads i = true →
          1 ≤ (u1.set_assigned_ways w
            (u1.mod.cache.assigned_ways w + u1.ways_req w)).mod.cache.assigned_ways i := by
        intro i hi hri
        show 1 ≤ Function.update u1.mod.cache.assigned_ways (w : Int) _ (i : Int)
        by_cases hiw : i = w
        · subst hiw
          rw [Function.update_same, hmod]
          have := hone i hi hri
          omega
        · rw [Function.update_noteq (by omega), hmod]
          exact hone i hi hri
      have hreq2 : ∀ i : Nat, i < total → ucp.mod.reachable_threads i = false →
          (u1.set_assigned_ways w
            (u1.mod.cache.assigned_ways w + u1.ways_req w)).ways_req i = 0 := by
        intro i hi hri
        show u1.ways_req i = 0
        rw [h2 i hri]
        exact hreq0 i hi hri
      by_cases hstop : balance - u1.ways_req w = last
      · rw [if_pos hstop]
        exact ⟨_, rfl, hr2, hone2, hreq2⟩
      · rw [if_neg hstop]
        obtain ⟨u', hu', hr', ho', hq'⟩ := ih
          (u1.set_assigned_ways w (u1.mod.cache.assigned_ways w + u1.ways_req w))
          (balance - u1.ways_req w) (balance - u1.ways_req w)
          hg (by rw [hr2]; exact hgr)
          (by intro i hi hri; rw [hr2] at hri; rw [ha2]; exact hatd i hi hri)
          (by intro i hi hri; rw [hr2] at hri; exact hreq2 i hi hri)
          (by intro i hi hri; rw [hr2] at hri; exact hone2 i hi hri)
          (by
            rw [if_pos rfl]
            split_ifs at hfuel with hbl
            · rcases hreq with hreq | hreq
              · exfalso
                apply hstop
                rw [hreq, ← hbl]
                omega
              · omega
            · rcases hreq with hreq | hreq
              · rw [hreq]
                omega
              · omega)
        refine ⟨u', hu', by rw [hr', hr2], ?_, ?_⟩
        · intro i hi hri
          exact ho' i hi (by rw [hr2]; exact hri)
        · intro i hi hri
          exact hq' i hi (by rw [hr2]; exact hri)

theorem ucp_decay_ways_req (f : atd_t → atd_t) (l : List Nat) (ucp : ucp_t) :
    (l.foldl
      (fun (acc : ucp_t) (thread_id : Nat) =>
        match acc.mod.atd_per_thread thread_id with
        | none => acc
        | some atd =>
          { acc with
            mod := { acc.mod with
              atd_per_thread :=
                Function.update acc.mod.atd_per_thread thread_id (some (f atd)) } })
      ucp).ways_req = ucp.ways_req := by
  induction l generalizing ucp with
  | nil => rfl
  | cons x l ih =>
    rw [List.foldl_cons]
    cases h : ucp.mod.atd_per_thread x with
    | none => exact ih ucp
    | some atd =>
      simp only []
      exact ih { ucp with
        mod := { ucp.mod with
          atd_per_thread := Function.update ucp.mod.atd_per_thread x (some (f atd)) } }

theorem ucp_seed_ways_req (ucp : ucp_t) (b : Int) (n : Nat) :
    (ucp_seed n ucp b).1.ways_req = ucp.ways_req := by
  induction n with
  | zero => rfl
  | succ n ih =>
    rw [ucp_seed_succ]
    split_ifs
    · exact ih
    · exact ih

/-! ## Claims on the cache store and the replacement engine -/

/-- C1: in a cache built by `cache_create`, every block is unowned and every
`used_ways` counter is 0; a sequence of in-range calls to `cache_set_block`,
`cache_set_transient_tag`, `cache_set_thread_id`, `cache_access_block` and
`cache_replace_block` runs to its end (a replacement under the invalid policy
apart, which is fatal), and after it `used_ways[t]` is the number of blocks of
the whole cache whose `thread_id` is `t`, for every thread id `t` (`-1` marks a
block without owner and is no thread id). -/
theorem used_ways_counts_owned_blocks (x86_cpu_num_cores x86_cpu_num_threads : Nat)
    (num_sets block_size assoc : Nat) (policy : cache_policy_t)
    (hgeo : Nat.land num_sets (num_sets - 1) = 0 ∧ Nat.land block_size (block_size - 1) = 0)
    (hassoc : 0 < assoc) :
    ∃ c0, cache_create num_sets block_size assoc policy = some c0 ∧
      (∀ t, c0.used_ways t = 0) ∧ (∀ s w, ((c0.sets s).blocks w).thread_id = -1) ∧
      ∀ ops : List cache_op,
        (∀ op ∈ ops,
          op.in_range x86_cpu_num_cores x86_cpu_num_threads num_sets assoc policy) →
        (policy ≠ cache_policy_invalid →
          (cache_run x86_cpu_num_cores x86_cpu_num_threads c0 ops).isSome) ∧
        ∀ c, cache_run x86_cpu_num_cores x86_cpu_num_threads c0 ops = some c →
          ∀ t : Int, t ≠ -1 → c.used_ways t = cache_owned c t := by
  refine ⟨_, cache_create_eq num_sets block_size assoc policy hgeo, ?_⟩
  obtain ⟨h1, h2, h3, h4, h5, h6, h7, h8⟩ :=
    cache_create_ok (cache_create_eq num_sets block_size assoc policy hgeo) hassoc
  refine ⟨h7, h8, fun ops hops => ?_⟩
  obtain ⟨r1, r2⟩ := cache_run_ok x86_cpu_num_cores x86_cpu_num_threads ops hops h1 h2 h3
  exact ⟨r1, fun c hc => (r2 c hc).2.1⟩

/-- C1, at a two-set, two-way Partitioned-LRU cache of a machine with one core
and two threads. -/
theorem used_ways_counts_owned_blocks_witness :
    ∃ c0, cache_create 2 64 2 cache_policy_partitioned_lru = some c0 ∧
      (∀ t, c0.used_ways t = 0) ∧ (∀ s w, ((c0.sets s).blocks w).thread_id = -1) ∧
      ∀ ops : List cache_op,
        (∀ op ∈ ops, op.in_range 1 2 2 2 cache_policy_partitioned_lru) →
        (cache_policy_partitioned_lru ≠ cache_policy_invalid →
          (cache_run 1 2 c0 ops).isSome) ∧
        ∀ c, cache_run 1 2 c0 ops = some c →
          ∀ t : Int, t ≠ -1 → c.used_ways t = cache_owned c t :=
  used_ways_counts_owned_blocks 1 2 2 64 2 cache_policy_partitioned_lru
    (by decide) (by decide)

/-- A requester that holds at least its quota in the set gets one of its own
blocks back from `cache_replace_block`: with a valid tail block, a quota for
the requester and every block of the set owned by a thread of the machine,
the way returned is owned by the requester as soon as the requester owns a
block of the set and its count of blocks reaches its quota. -/
theorem cache_replace_block_plru_at_quota {c : cache_t} {s : Nat} {l : List Nat} (nc nt : Nat)
    (ci : mod_client_info_t) (rnd : Nat) (hs : s < c.num_sets)
    (h : set_wf c.assoc (c.sets s) l) (hp : c.policy = cache_policy_partitioned_lru)
    (htid : 0 ≤ ci.core * (nt : Int) + ci.thread ∧
      ci.core * (nt : Int) + ci.thread < ((nt * nc : Nat) : Int))
    (hvalid : ((c.sets s).blocks (c.sets s).way_tail).state ≠ 0)
    (hq : c.assigned_ways (ci.core * (nt : Int) + ci.thread) ≠ -1)
    (hown : ∀ w, w < c.assoc → 0 ≤ ((c.sets s).blocks w).thread_id ∧
      ((c.sets s).blocks w).thread_id < ((nt * nc : Nat) : Int))
    (hcount : 1 ≤ cache_set_owned c.assoc (c.sets s) (ci.core * (nt : Int) + ci.thread))
    (hquota : cache_set_owned c.assoc (c.sets s) (ci.core * (nt : Int) + ci.thread)
      ≥ c.assigned_ways (ci.core * (nt : Int) + ci.thread)) :
    ∃ (c' : cache_t) (w : Nat),
      cache_replace_block nc nt c s ci rnd = some (c', (w : Int)) ∧ w < c.assoc ∧
      ((c.sets s).blocks w).thread_id = ci.core * (nt : Int) + ci.thread := by
  obtain ⟨s', h1, -, -⟩ :=
    cache_replace_block_plru_quota_wf nc nt ci rnd hs h hp htid hvalid hq hown
  refine ⟨_, _, h1, (h.2.1 _).1 (plru_victim_mem h _), ?_⟩
  unfold plru_victim
  rw [if_pos hquota]
  cases hf : l.reverse.find?
      (fun a => decide (((c.sets s).blocks a).thread_id = ci.core * (nt : Int) + ci.thread)) with
  | none =>
    exfalso
    rw [List.find?_eq_none] at hf
    unfold cache_set_owned at hcount
    have hpos : 0 < (List.range c.assoc).countP
        (fun w => decide (((c.sets s).blocks w).thread_id = ci.core * (nt : Int) + ci.thread)) := by
      omega
    obtain ⟨a, ha, hpa⟩ := List.countP_pos_iff.1 hpos
    have hal : a ∈ l.reverse := List.mem_reverse.2 ((h.2.1 a).2 (List.mem_range.1 ha))
    exact hf a hal hpa
  | some a =>
    have := List.find?_some hf
    simpa using this

/-- C2 on the code: with quotas `[1, 3]` over four valid ways, thread 0 owning
way 0 only (the most recently used block) and thread 1 owning ways 1, 2 and 3
(way 3 the least recently used), a miss of thread 0 makes
`cache_replace_block` return way 0, the block of thread 0 itself. -/
theorem plru_at_quota_evicts_own_block :
    (plru_quota_example.map fun c =>
      ((List.range 4).map fun w => (((c.sets 0).blocks w).thread_id, ((c.sets 0).blocks w).state),
        c.assigned_ways 0, c.assigned_ways 1, cache_waylist 4 (c.sets 0)))
      = some ([(0, 1), (1, 1), (1, 1), (1, 1)], 1, 3, [0, 1, 2, 3]) ∧
    (plru_quota_example.bind fun c =>
      (cache_replace_block 1 2 c 0 ⟨0, 0⟩ 0).map fun r => r.2) = some 0 := by
  decide!

/-- C5: under LRU, after any sequence of accesses to one set of a fresh cache
(a hit calls `cache_access_block`; a miss calls `cache_replace_block`,
`cache_set_block` on the way returned and `cache_access_block`), the way
`cache_replace_block` returns on a miss is the way whose last use is the
oldest: no way of the set has a greater age, and a way never used has the
greatest age there is. -/
theorem lru_replace_returns_least_recently_used (x86_cpu_num_cores x86_cpu_num_threads : Nat)
    (num_sets block_size assoc : Nat)
    (hgeo : Nat.land num_sets (num_sets - 1) = 0 ∧ Nat.land block_size (block_size - 1) = 0)
    (hassoc : 0 < assoc) (s : Nat) (hs : s < num_sets) (accs : List (Nat × Int))
    (hidx : ∀ a ∈ accs, (a.1 >>> log_base2 block_size) % num_sets = s)
    (ci : mod_client_info_t) (rnd : Nat) :
    ∃ c0 c tr, cache_create num_sets block_size assoc cache_policy_lru = some c0 ∧
      cache_access_run x86_cpu_num_cores x86_cpu_num_threads true ci rnd c0 accs
        = some (c, tr) ∧
      ∃ (c' : cache_t) (v : Nat),
        cache_replace_block x86_cpu_num_cores x86_cpu_num_threads c s ci rnd
          = some (c', (v : Int)) ∧
        v < assoc ∧
        ∀ w, w < assoc → way_age (tr.map Prod.fst) w ≤ way_age (tr.map Prod.fst) v := by
  have h := cache_replace_after_run x86_cpu_num_cores x86_cpu_num_threads true true num_sets
    block_size assoc cache_policy_lru (Or.inl rfl) (by simp) hgeo hassoc s hs accs hidx ci rnd
  have htw : ∀ tr : List (Nat × Bool), trace_ways true tr = tr.map Prod.fst := by
    intro tr
    simp [trace_ways]
  simpa only [htw] using h

/-- C5 on the sequence A, B, C, D, A, E with `assoc = 4`: E misses and
`cache_replace_block` returns way 2, which holds B (tag 320). -/
theorem lru_replace_returns_least_recently_used_witness :
    (∃ c0 c tr, cache_create 1 64 4 cache_policy_lru = some c0 ∧
      cache_access_run 1 1 true ⟨0, 0⟩ 0 c0 accesses_ABCDA = some (c, tr) ∧
      ∃ (c' : cache_t) (v : Nat),
        cache_replace_block 1 1 c 0 ⟨0, 0⟩ 0 = some (c', (v : Int)) ∧ v < 4 ∧
        ∀ w, w < 4 → way_age (tr.map Prod.fst) w ≤ way_age (tr.map Prod.fst) v) ∧
    miss_on_E cache_policy_lru true = some (0, 2, 320) :=
  ⟨lru_replace_returns_least_recently_used 1 1 1 64 4 (by decide) (by decide) 0 (by decide)
    accesses_ABCDA (fun a _ => Nat.mod_one _) ⟨0, 0⟩ 0, by decide!⟩

/-- C6: under FIFO, after any sequence of accesses to one set of a fresh cache
(a hit calls `cache_access_block`, on a valid block; a miss calls
`cache_replace_block` and `cache_set_block` on the way returned), the way
`cache_replace_block` returns on a miss is the way that was filled earliest,
whatever the hits since: no way of the set was filled longer ago, a way not
yet filled counting as the oldest. -/
theorem fifo_replace_returns_earliest_filled (x86_cpu_num_cores x86_cpu_num_threads : Nat)
    (num_sets block_size assoc : Nat)
    (hgeo : Nat.land num_sets (num_sets - 1) = 0 ∧ Nat.land block_size (block_size - 1) = 0)
    (hassoc : 0 < assoc) (s : Nat) (hs : s < num_sets) (accs : List (Nat × Int))
    (hidx : ∀ a ∈ accs, (a.1 >>> log_base2 block_size) % num_sets = s)
    (ci : mod_client_info_t) (rnd : Nat) :
    ∃ c0 c tr, cache_create num_sets block_size assoc cache_policy_fifo = some c0 ∧
      cache_access_run x86_cpu_num_cores x86_cpu_num_threads false ci rnd c0 accs
        = some (c, tr) ∧
      ∃ (c' : cache_t) (v : Nat),
        cache_replace_block x86_cpu_num_cores x86_cpu_num_threads c s ci rnd
          = some (c', (v : Int)) ∧
        v < assoc ∧
        ∀ w, w < assoc →
          way_age ((tr.filter (fun r => r.2)).map Prod.fst) w
            ≤ way_age ((tr.filter (fun r => r.2)).map Prod.fst) v := by
  have h := cache_replace_after_run x86_cpu_num_cores x86_cpu_num_threads false false num_sets
    block_size assoc cache_policy_fifo (Or.inr rfl) (by simp) hgeo hassoc s hs accs hidx ci rnd
  have htw : ∀ tr : List (Nat × Bool),
      trace_ways false tr = (tr.filter (fun r => r.2)).map Prod.fst := by
    intro tr
    simp [trace_ways]
  simpa only [htw] using h

/-- C6 on the sequence A, B, C, D, A, E with `assoc = 4`: E misses and
`cache_replace_block` returns way 3, which holds A (tag 256). -/
theorem fifo_replace_returns_earliest_filled_witness :
    (∃ c0 c tr, cache_create 1 64 4 cache_policy_fifo = some c0 ∧
      cache_access_run 1 1 false ⟨0, 0⟩ 0 c0 accesses_ABCDA = some (c, tr) ∧
      ∃ (c' : cache_t) (v : Nat),
        cache_replace_block 1 1 c 0 ⟨0, 0⟩ 0 = some (c', (v : Int)) ∧ v < 4 ∧
        ∀ w, w < 4 →
          way_age ((tr.filter (fun r => r.2)).map Prod.fst) w
            ≤ way_age ((tr.filter (fun r => r.2)).map Prod.fst) v) ∧
    miss_on_E cache_policy_fifo false = some (0, 3, 256) :=
  ⟨fifo_replace_returns_earliest_filled 1 1 1 64 4 (by decide) (by decide) 0 (by decide)
    accesses_ABCDA (fun a _ => Nat.mod_one _) ⟨0, 0⟩ 0, by decide!⟩

/-- C10 as stated fails: after `cache_set_block(0, 1, 64, shared)` on a set
whose way 0 already holds tag 64 in state modified, address 64 decodes to set
0 and tag 64 and the block at way 1 holds tag 64 in state shared (5), yet
`cache_find_block(64)` reports way 0 in state modified (2). -/
theorem set_block_find_block_shadowed :
    shadowed_block_example
      = some ({ ret := 1, set := 0, way := some 0, state := 2 }, some (64, 5), 0, 64, 0) := by
  decide!

/-- C10, amended: on a well-formed cache, after `cache_set_block(s, w, tag,
state)` with a state other than invalid, `cache_find_block` of an address that
decodes to set `s` and to that tag reports a hit in set `s` at way `w` with
that state, and the block at `(s, w)` holds that tag and state, provided no
way below `w` holds a valid block with the same tag: `cache_find_block`
reports the lowest-numbered valid way that holds the tag. -/
theorem set_block_find_block_round_trip {c : cache_t} (x86_cpu_num_cores x86_cpu_num_threads : Nat)
    (s w : Nat) (tag state : Int) (ci : Option mod_client_info_t) (addr : Nat)
    (hwf : cache_wf c) (hu : cache_used_ways_ok c) (hs : s < c.num_sets) (hw : w < c.assoc)
    (hstate : state ≠ 0)
    (hci1 : c.policy = cache_policy_partitioned_lru → ci ≠ none)
    (hci2 : ∀ x, ci = some x → client_in_range x86_cpu_num_cores x86_cpu_num_threads x)
    (hset : cache_set_index c addr = s) (htag : cache_tag c addr = tag)
    (hfirst : ∀ a, a < w →
      ¬ (((c.sets s).blocks a).tag = tag ∧ ((c.sets s).blocks a).state ≠ 0)) :
    ∃ c', cache_set_block x86_cpu_num_cores x86_cpu_num_threads c s w tag state ci = some c' ∧
      cache_find_block c' addr = { ret := 1, set := s, way := some w, state := state } ∧
      cache_get_block c' s w = some (tag, state) := by
  obtain ⟨c', h1, h2, h3, h4, h5⟩ :=
    cache_set_block_blocks x86_cpu_num_cores x86_cpu_num_threads tag state hs hw hci1 hci2 hwf hu
  refine ⟨c', h1, ?_, ?_⟩
  · have ha : c'.assoc = c.assoc := h2.2.1
    have hfw : cache_find_way (c'.sets s).blocks tag c'.assoc 0 = w := by
      have hle := cache_find_way_le_match (c'.sets s).blocks tag c'.assoc 0 w (Nat.zero_le _)
        (by omega) ⟨h3, by rw [h4]; exact hstate⟩
      by_contra hne
      have hlt : cache_find_way (c'.sets s).blocks tag c'.assoc 0 < w := by omega
      have hm := cache_find_way_hit (c'.sets s).blocks tag c'.assoc 0 (by omega)
      rw [(h5 _ (by omega)).1, (h5 _ (by omega)).2] at hm
      exact hfirst _ hlt hm
    unfold cache_find_block
    simp only [cache_tag_shape h2, cache_set_index_shape h2, hset, htag, hfw]
    rw [if_neg (by omega), h4]
  · unfold cache_get_block
    rw [if_pos ⟨by rw [h2.1]; exact hs, by rw [h2.2.1]; exact hw⟩, h3, h4]

/-- C10, amended, on a fresh one-set, two-way LRU cache: `cache_set_block(0, 1,
64, shared)` followed by `cache_find_block(64)`. -/
theorem set_block_find_block_round_trip_witness :
    ∃ c0 c', cache_create 1 64 2 cache_policy_lru = some c0 ∧
      cache_set_block 1 1 c0 0 1 64 5 none = some c' ∧
      cache_find_block c' 64 = { ret := 1, set := 0, way := some 1, state := 5 } ∧
      cache_get_block c' 0 1 = some (64, 5) := by
  have hc := cache_create_eq 1 64 2 cache_policy_lru (by decide)
  have hok := cache_create_ok hc (by decide)
  obtain ⟨c', h1, h2, h3⟩ := set_block_find_block_round_trip 1 1 0 1 64 5 none 64
    hok.1 hok.2.1 (by decide) (by decide) (by decide) (by decide) (by intro x hx; cases hx)
    (Nat.mod_one _) (by decide!) (fun a _ h => h.2 rfl)
  exact ⟨_, c', hc, h1, h2, h3⟩

/-! ## Claims on UCP -/

/-- C7 as stated fails: with `assoc = 4`, the histogram `[10, 5, 1, 0]` on
thread 1 and `[1, 1, 1, 1]` on thread 0, `ucp_repartition` passes the warm-up
gate and gives 2 ways to each thread: once the first extra way has gone to
thread 1, both threads have a marginal utility of 1 for the last way and the tie
goes to the lower thread id. -/
theorem ucp_tie_goes_to_lower_thread_id :
    ucp_example 4 [[1, 1, 1, 1], [10, 5, 1, 0]] = some [2, 2] := by
  decide!

/-- C7, amended: with `assoc = 4` and the histograms `[10, 5, 1, 0]` (thread A)
and `[1, 1, 1, 1]` (thread B) on the two reachable threads, after
`ucp_repartition` passes the warm-up gate thread A has 3 ways and thread B has 1
when A is thread 0, and both have 2 ways when A is thread 1: A never has fewer
ways than B, and has strictly more when it has the lower thread id. -/
theorem ucp_higher_utility_gets_no_fewer_ways :
    ucp_example 4 [[10, 5, 1, 0], [1, 1, 1, 1]] = some [3, 1] ∧
    (∃ a b : Int, ucp_example 4 [[1, 1, 1, 1], [10, 5, 1, 0]] = some [b, a] ∧ b ≤ a) := by
  refine ⟨by decide!, 2, 2, by decide!, by decide⟩

/-- C4: on a controller `fcp_create` builds without pairing, over a cache with
`assoc` at least the number of reachable threads, which is at least 1, every
run of calls to `fcp_repartition` returns (no assertion fails), and whenever it
leaves the controller in state ON the quotas of the reachable threads add up to
`assoc` and each is at least 1 and at most `assoc - num_reachable_threads + 1`.
The calls may pass the warm-up gate or not; `list_sort` sorts, and the counters
read are those of a running machine. -/
theorem fcp_on_quotas_within_bounds (list_sort : (Int → Int → Int) → List Int → List Int)
    (nc nt : Nat) (mod : mod_t) (interval : Int) (calls : List (esim_t × (Int → Int)))
    (hsort : list_sort_sorts list_sort)
    (hnum : mod.num_reachable_threads = (count_reachable (nc * nt) mod : Int))
    (hn1 : 1 ≤ count_reachable (nc * nt) mod)
    (hn2 : count_reachable (nc * nt) mod ≤ mod.cache.assoc)
    (hsets : 0 < mod.cache.num_sets)
    (hinc : fcp_cycles_increase calls) (hcalls : fcp_calls_ok (nc * nt) mod calls) :
    ∃ fcp, fcp_run list_sort nc nt
        (fcp_create nc nt mod thread_pairing_policy_t.thread_pairing_policy_none interval)
        calls = some fcp ∧
      (fcp.state = fcp_state_t.ON →
        sum_assigned_ways (nc * nt) fcp.mod = mod.cache.assoc ∧
        ∀ i : Nat, i < nc * nt → mod.reachable_threads i = true →
          1 ≤ fcp.mod.cache.assigned_ways i ∧
          fcp.mod.cache.assigned_ways i ≤
            (mod.cache.assoc : Int) - mod.num_reachable_threads + 1) := by
  obtain ⟨f, hrun, hst, hok, hcfg⟩ := fcp_run_inv list_sort nc nt hsort calls
    (fcp_create nc nt mod thread_pairing_policy_t.thread_pairing_policy_none interval)
    (fcp_create_static nc nt mod interval hnum hn1 hn2 hsets)
    (by
      unfold fcp_state_ok
      exact ⟨fun h => (by cases h), fun h => (by cases h)⟩)
    (fun c hc => (hcalls c hc).1) hinc hcalls
  refine ⟨f, hrun, ?_⟩
  intro hon
  obtain ⟨hsum, hone⟩ := hok.1 hon
  have hr : f.mod.reachable_threads = mod.reachable_threads := hcfg.1
  have ha : f.mod.cache.assoc = mod.cache.assoc := hcfg.2.2.1
  have hc : count_reachable (nc * nt) f.mod = count_reachable (nc * nt) mod := by
    unfold count_reachable
    rw [hr]
  refine ⟨by rw [hsum, ha], ?_⟩
  intro i hi hri
  have hri' : f.mod.reachable_threads i = true := by rw [hr]; exact hri
  have hb := assigned_ways_le_sum (nc * nt) f.mod i hi hri' 1 hone
  rw [hsum, hc, ha] at hb
  refine ⟨hone i hi hri', ?_⟩
  rw [hnum]
  omega

/-- C4 on the two-thread, four-way example and the ten calls of
`fcp_calls_example`, with the insertion sort for `list_sort`. -/
theorem fcp_on_quotas_within_bounds_witness :
    ∃ fcp, fcp_run list_sort_insertion 1 2
        (fcp_create 1 2 (example_mod 4 2 [])
          thread_pairing_policy_t.thread_pairing_policy_none 0)
        fcp_calls_example = some fcp ∧
      (fcp.state = fcp_state_t.ON →
        sum_assigned_ways (1 * 2) fcp.mod = (example_mod 4 2 []).cache.assoc ∧
        ∀ i : Nat, i < 1 * 2 → (example_mod 4 2 []).reachable_threads i = true →
          1 ≤ fcp.mod.cache.assigned_ways i ∧
          fcp.mod.cache.assigned_ways i ≤
            ((example_mod 4 2 []).cache.assoc : Int)
              - (example_mod 4 2 []).num_reachable_threads + 1) :=
  fcp_on_quotas_within_bounds list_sort_insertion 1 2 (example_mod 4 2 []) 0 fcp_calls_example
    list_sort_insertion_sorts (by decide!) (by decide!) (by decide!) (by decide!) (by decide!)
    (by decide!)

/-- C9 as stated fails when pairing is enabled with a pairing interval: four
reachable threads on a seven-way cache, pairing policy `sec`, `minmax` or
`mix` with the pairing interval 1, so that the pairs are redone in every call
and each of the two pairs has the budget `7 * 2 / 4 = 3`.  The fourth call
makes the ON to BACKOFF transition, the calls four to eight end in BACKOFF
with every quota -1, and the ninth call returns to ON: the seeding gives 2,
2, 2, 1, and `fcp_pairing_adjust_ways` cuts the pair that holds four ways down
to its budget, so the quotas are 1, 2, 1, 2 under `sec` and 1, 1, 2, 2 under
`minmax` and `mix`, and add up to 6, not to `assoc = 7`. -/
theorem fcp_pairing_reseed_sum_below_assoc :
    fcp_pairing_example_views thread_pairing_policy_t.thread_pairing_policy_sec =
      [some (fcp_state_t.OFF, 0, [-1, -1, -1, -1], -4),
       some (fcp_state_t.ON, 0, [1, 2, 1, 2], 6),
       some (fcp_state_t.ON, 0, [1, 2, 1, 2], 6),
       some (fcp_state_t.ON, 0, [1, 2, 1, 2], 6),
       some (fcp_state_t.BACKOFF, 4, [-1, -1, -1, -1], -4),
       some (fcp_state_t.BACKOFF, 3, [-1, -1, -1, -1], -4),
       some (fcp_state_t.BACKOFF, 2, [-1, -1, -1, -1], -4),
       some (fcp_state_t.BACKOFF, 1, [-1, -1, -1, -1], -4),
       some (fcp_state_t.BACKOFF, 0, [-1, -1, -1, -1], -4),
       some (fcp_state_t.ON, 0, [1, 2, 1, 2], 6)] ∧
    fcp_pairing_example_views thread_pairing_policy_t.thread_pairing_policy_minmax =
      [some (fcp_state_t.OFF, 0, [-1, -1, -1, -1], -4),
       some (fcp_state_t.ON, 0, [1, 1, 2, 2], 6),
       some (fcp_state_t.ON, 0, [1, 1, 2, 2], 6),
       some (fcp_state_t.ON, 0, [1, 1, 2, 2], 6),
       some (fcp_state_t.BACKOFF, 4, [-1, -1, -1, -1], -4),
       some (fcp_state_t.BACKOFF, 3, [-1, -1, -1, -1], -4),
       some (fcp_state_t.BACKOFF, 2, [-1, -1, -1, -1], -4),
       some (fcp_state_t.BACKOFF, 1, [-1, -1, -1, -1], -4),
       some (fcp_state_t.BACKOFF, 0, [-1, -1, -1, -1], -4),
       some (fcp_state_t.ON, 0, [1, 1, 2, 2], 6)] ∧
    fcp_pairing_example_views thread_pairing_policy_t.thread_pairing_policy_mix =
      [some (fcp_state_t.OFF, 0, [-1, -1, -1, -1], -4),
       some (fcp_state_t.ON, 0, [1, 1, 2, 2], 6),
       some (fcp_state_t.ON, 0, [1, 1, 2, 2], 6),
       some (fcp_state_t.ON, 0, [1, 1, 2, 2], 6),
       some (fcp_state_t.BACKOFF, 4, [-1, -1, -1, -1], -4),
       some (fcp_state_t.BACKOFF, 3, [-1, -1, -1, -1], -4),
       some (fcp_state_t.BACKOFF, 2, [-1, -1, -1, -1], -4),
       some (fcp_state_t.BACKOFF, 1, [-1, -1, -1, -1], -4),
       some (fcp_state_t.BACKOFF, 0, [-1, -1, -1, -1], -4),
       some (fcp_state_t.ON, 0, [1, 1, 2, 2], 6)] := by
  refine ⟨?_, ?_, ?_⟩ <;> decide!

/-- C9, amended, for a well-formed controller without pairing: once a gate-passing call
of `fcp_repartition` makes the ON to BACKOFF transition, the controller is in
BACKOFF with every reachable quota unconstrained (-1) at the end of that call
and of each of the next four gate-passing calls, and the gate-passing call
after these returns the controller to ON with every reachable quota at least 1
and the quotas adding up to `assoc`.  The run returns at every step. -/
theorem fcp_backoff_lasts_five_calls (list_sort : (Int → Int → Int) → List Int → List Int)
    (nc nt : Nat) (fcp : fcp_t) (c0 c6 : esim_t × (Int → Int))
    (mid : List (esim_t × (Int → Int)))
    (hsort : list_sort_sorts list_sort)
    (hst : fcp_static (nc * nt) fcp) (hok : fcp_state_ok (nc * nt) fcp)
    (hon : fcp.state = fcp_state_t.ON) (hmid : mid.length = 4)
    (hlast : fcp.last_esim_cycle < c0.1.esim_cycle)
    (hinc : fcp_cycles_increase (c0 :: (mid ++ [c6])))
    (hcalls : fcp_calls_ok (nc * nt) fcp.mod (c0 :: (mid ++ [c6])))
    (hgates : fcp_calls_pass_gate (nc * nt) fcp (c0 :: (mid ++ [c6])))
    (htrans : (fcp_repartition list_sort nc nt c0.1 (fcp.with_used_ways c0.2)).map
      (fun f => f.state) = some fcp_state_t.BACKOFF) :
    (∀ k : Nat, k ≤ 4 →
      ∃ f, fcp_run list_sort nc nt fcp (c0 :: mid.take k) = some f ∧
        f.state = fcp_state_t.BACKOFF ∧
        ∀ i : Nat, i < nc * nt → fcp.mod.reachable_threads i = true →
          f.mod.cache.assigned_ways i = -1) ∧
    ∃ f, fcp_run list_sort nc nt fcp (c0 :: (mid ++ [c6])) = some f ∧
      f.state = fcp_state_t.ON ∧
      sum_assigned_ways (nc * nt) f.mod = fcp.mod.cache.assoc ∧
      ∀ i : Nat, i < nc * nt → fcp.mod.reachable_threads i = true →
        1 ≤ f.mod.cache.assigned_ways i := by
  have hc0 := hcalls c0 (List.mem_cons_self _ _)
  have hinc' := List.pairwise_cons.1 hinc
  obtain ⟨_, _, _, u, f1, _, he, h1, h2, h3, hfr, _, hleave, hstay, _, _⟩ :=
    fcp_repartition_step list_sort nc nt c0.1 (fcp.with_used_ways c0.2) hsort hst hok
      ⟨by omega, hc0.2⟩ hlast (hgates c0 (List.mem_cons_self _ _))
  have hcfg1 : fcp_same_config fcp f1 :=
    (fcp_same_config_of_mod hfr : fcp_same_config (fcp.with_used_ways c0.2) f1)
  rw [he] at htrans
  have hs1 : f1.state = fcp_state_t.BACKOFF := by simpa using htrans
  have hb1 : f1.backoff = 4 := by
    rcases Bool.eq_false_or_eq_true
      (fcp_unfairness_increasing (fcp.with_used_ways c0.2) u) with h | h
    · exact (hleave hon h).2.1
    · have := (hstay hon h).1
      rw [this] at hs1
      cases hs1
  -- the calls that follow, as far as the countdown lasts
  have hafter : ∀ l : List (esim_t × (Int → Int)), l.Sublist (mid ++ [c6]) →
      (l.length : Int) ≤ 4 →
      ∃ f, fcp_run list_sort nc nt f1 l = some f ∧ fcp_static (nc * nt) f ∧
        fcp_state_ok (nc * nt) f ∧ fcp_same_config fcp f ∧
        f.state = fcp_state_t.BACKOFF ∧ f.backoff = 4 - l.length ∧
        ∀ x : Int, c0.1.esim_cycle < x → (∀ c ∈ l, c.1.esim_cycle < x) →
          f.last_esim_cycle < x := by
    intro l hl hlen
    obtain ⟨f, hrun, h4, h5, hcfg, hs, hb, hx⟩ := fcp_run_backoff list_sort nc nt hsort l f1
      h1 h2 hs1 (by rw [hb1]; exact hlen)
      (by
        intro c hc
        rw [h3]
        exact hinc'.1 c (hl.subset hc))
      (List.Pairwise.sublist hl hinc'.2)
      (by
        intro c hc
        have := hcalls c (List.mem_cons_of_mem _ (hl.subset hc))
        rw [hcfg1.1]
        exact this)
      (by
        intro c hc
        exact (fcp_gate_congr (nc * nt) c.1 fcp f1 c.2 hcfg1).2
          (hgates c (List.mem_cons_of_mem _ (hl.subset hc))))
    refine ⟨f, hrun, h4, h5, fcp_same_config_trans hcfg1 hcfg, hs, by rw [hb, hb1], ?_⟩
    intro x hx0 hxl
    exact hx x (by rw [h3]; exact hx0) hxl
  constructor
  · intro k hk
    obtain ⟨f, hrun, _, h5, hcfg, hs, _, _⟩ := hafter (mid.take k)
      ((List.take_sublist k mid).trans (List.sublist_append_left mid [c6]))
      (by
        have := List.length_take_le k mid
        omega)
    refine ⟨f, ?_, hs, ?_⟩
    · rw [fcp_run_cons list_sort nc nt c0 _ fcp f1 he]
      exact hrun
    · intro i hi hr
      exact (h5.2 hs).2 i hi (by rw [hcfg.1]; exact hr)
  · obtain ⟨f5, hrun, h4, h5, hcfg, hs, hb, hx⟩ := hafter mid
      (List.sublist_append_left mid [c6]) (by omega)
    have hc6m : c6 ∈ mid ++ [c6] := List.mem_append_right _ (List.mem_singleton_self _)
    have hc6 := hcalls c6 (List.mem_cons_of_mem _ hc6m)
    have hcyc6 : (f5.with_used_ways c6.2).last_esim_cycle < c6.1.esim_cycle := by
      apply hx
      · exact hinc'.1 c6 hc6m
      · intro c hc
        exact (List.pairwise_append.1 hinc'.2).2.2 c hc c6 (List.mem_singleton_self _)
    obtain ⟨_, _, _, _, f6, _, he6, _, h62, _, hfr6, _, _, _, _, henter⟩ :=
      fcp_repartition_step list_sort nc nt c6.1 (f5.with_used_ways c6.2) hsort h4 h5
        ⟨by omega, by
          intro i hi hr
          have hr' : fcp.mod.reachable_threads i = true := by rw [← hcfg.1]; exact hr
          exact hc6.2 i hi hr'⟩
        hcyc6
        ((fcp_gate_congr (nc * nt) c6.1 fcp f5 c6.2 hcfg).2
          (hgates c6 (List.mem_cons_of_mem _ hc6m)))
    have hcfg6 : fcp_same_config fcp f6 := fcp_same_config_trans hcfg
      (fcp_same_config_of_mod hfr6 : fcp_same_config (f5.with_used_ways c6.2) f6)
    have hs6 := (henter hs (by show f5.backoff = 0; rw [hb, hmid]; norm_num)).1
    obtain ⟨hsum, hone⟩ := h62.1 hs6
    refine ⟨f6, ?_, hs6, by rw [hsum, hcfg6.2.2.1], ?_⟩
    · rw [fcp_run_cons list_sort nc nt c0 _ fcp f1 he, fcp_run_append, hrun]
      show fcp_run list_sort nc nt f5 [c6] = some f6
      rw [fcp_run_cons list_sort nc nt c6 [] f5 f6 he6]
      rfl
    · intro i hi hr
      exact hone i hi (by rw [hcfg6.1]; exact hr)

/-- C9, amended, on the two-thread example: from the controller after three calls of
`fcp_calls_example`, the fourth call makes the transition, the calls four to
eight end in BACKOFF and the ninth returns to ON. -/
theorem fcp_backoff_lasts_five_calls_witness :
    (∀ k : Nat, k ≤ 4 →
      ∃ f, fcp_run list_sort_insertion 1 2 fcp_on_example
          (call_two 5200 0 1200 ::
            [call_two 6000 0 0, call_two 7000 0 0, call_two 8000 0 0,
              call_two 9000 0 0].take k) = some f ∧
        f.state = fcp_state_t.BACKOFF ∧
        ∀ i : Nat, i < 1 * 2 → fcp_on_example.mod.reachable_threads i = true →
          f.mod.cache.assigned_ways i = -1) ∧
    ∃ f, fcp_run list_sort_insertion 1 2 fcp_on_example
        (call_two 5200 0 1200 ::
          ([call_two 6000 0 0, call_two 7000 0 0, call_two 8000 0 0, call_two 9000 0 0]
            ++ [call_two 10000 0 0])) = some f ∧
      f.state = fcp_state_t.ON ∧
      sum_assigned_ways (1 * 2) f.mod = fcp_on_example.mod.cache.assoc ∧
      ∀ i : Nat, i < 1 * 2 → fcp_on_example.mod.reachable_threads i = true →
        1 ≤ f.mod.cache.assigned_ways i :=
  fcp_backoff_lasts_five_calls list_sort_insertion 1 2 fcp_on_example (call_two 5200 0 1200)
    (call_two 10000 0 0)
    [call_two 6000 0 0, call_two 7000 0 0, call_two 8000 0 0, call_two 9000 0 0]
    list_sort_insertion_sorts (by decide!) (by decide!) (by decide!) (by decide) (by decide!)
    (by decide!) (by decide!) (by decide!) (by decide!)

/-! ## Claims on the cache, continued -/

/-- C11 on the code: with quotas `[2, 4]` over four valid ways, thread 0 owning
way 0 only and thread 1 owning ways 1, 2 and 3 (way 3 the least recently used),
thread 0 is under its quota and so is thread 1, the only other owner; a miss of
thread 0 makes `cache_replace_block` return way 3, the tail of the recency
list, and move it to the head: no fatal error. -/
theorem plru_no_eligible_victim_returns_tail :
    (plru_filled_example 2 4).map plru_view
      = some ([(0, 1), (1, 1), (1, 1), (1, 1)], 2, 4, [0, 1, 2, 3]) ∧
    ((plru_filled_example 2 4).bind fun c =>
      (cache_replace_block 1 2 c 0 ⟨0, 0⟩ 0).map fun r =>
        (r.2, cache_waylist 4 (r.1.sets 0))) = some (3, [3, 0, 1, 2]) := by
  decide!

/-- C12 as stated fails for addresses from `2 ^ 31` on: the tag is stored in an
`int`, so with 64-byte blocks the address `2 ^ 31 = 2147483648` decodes to the
tag `-2147483648` and the offset 0, and tag + offset is not the address. -/
theorem cache_decode_address_high_tag_negative :
    (cache_create 1 64 4 cache_policy_lru).map (fun c => cache_decode_address c 2147483648)
      = some (0, -2147483648, 0) := by
  decide!

/-- C12, amended: for a cache built by `cache_create` with `num_sets` and
`block_size` powers of two and every 32-bit address, `cache_decode_address`
returns offset = addr mod block_size, set = (addr div block_size) mod num_sets,
and the tag addr - offset read as a signed 32-bit `int`: it is addr - offset for
addresses below `2 ^ 31`, and tag + offset is the address modulo `2 ^ 32` in
every case.  Hence offset < block_size, set < num_sets, and two addresses in
the same block decode to the same set and tag. -/
theorem cache_decode_address_arith (num_sets block_size assoc : Nat) (policy : cache_policy_t)
    (j k : Nat) (hns : num_sets = 2 ^ j) (hbs : block_size = 2 ^ k) (hk : k ≤ 31)
    (addr : Nat) (ha : addr < 2 ^ 32) :
    ∃ c, cache_create num_sets block_size assoc policy = some c ∧
      (cache_decode_address c addr).2.2 = addr % block_size ∧
      (cache_decode_address c addr).1 = (addr / block_size) % num_sets ∧
      (cache_decode_address c addr).2.1 = to_int (addr - addr % block_size) ∧
      (addr < 2 ^ 31 →
        (cache_decode_address c addr).2.1 = ((addr - addr % block_size : Nat) : Int)) ∧
      ((cache_decode_address c addr).2.1 + ((cache_decode_address c addr).2.2 : Int)) % 2 ^ 32
        = (addr : Int) ∧
      (cache_decode_address c addr).2.2 < block_size ∧
      (cache_decode_address c addr).1 < num_sets ∧
      ∀ addr' : Nat, addr' < 2 ^ 32 → addr' / block_size = addr / block_size →
        (cache_decode_address c addr').1 = (cache_decode_address c addr).1 ∧
        (cache_decode_address c addr').2.1 = (cache_decode_address c addr).2.1 := by
  subst hns hbs
  have hc := cache_create_eq (2 ^ j) (2 ^ k) assoc policy
    ⟨land_pow_two_pred j, land_pow_two_pred k⟩
  have hpk : 0 < 2 ^ k := Nat.two_pow_pos k
  have hpj : 0 < 2 ^ j := Nat.two_pow_pos j
  have hoff : ∀ a : Nat, Nat.land a (2 ^ k - 1) = a % 2 ^ k := fun a =>
    Nat.and_pow_two_sub_one_eq_mod a k
  have hset : ∀ a : Nat, (a >>> log_base2 (2 ^ k)) % 2 ^ j = (a / 2 ^ k) % 2 ^ j := by
    intro a
    unfold log_base2
    rw [Nat.log2_two_pow, Nat.shiftRight_eq_div_pow]
  have htag : ∀ a : Nat, a < 2 ^ 32 →
      to_int (Nat.land a (2 ^ 32 - 1 - (2 ^ k - 1) % 2 ^ 32)) = to_int (a - a % 2 ^ k) := by
    intro a h
    rw [land_not_block_mask a k (by omega) h]
  have hle : addr % 2 ^ k ≤ addr := Nat.mod_le _ _
  refine ⟨_, hc, hoff addr, hset addr, htag addr ha, ?_, ?_, ?_, ?_, ?_⟩
  · intro hlt
    show to_int (Nat.land addr (2 ^ 32 - 1 - (2 ^ k - 1) % 2 ^ 32)) = _
    rw [htag addr ha, to_int_of_lt _ (by omega)]
  · show (to_int (Nat.land addr (2 ^ 32 - 1 - (2 ^ k - 1) % 2 ^ 32)) +
      ((Nat.land addr (2 ^ k - 1) : Nat) : Int)) % 2 ^ 32 = _
    rw [htag addr ha, hoff addr, ← Int.emod_add_emod, to_int_emod _ (by omega)]
    have e : ((addr - addr % 2 ^ k : Nat) : Int) + ((addr % 2 ^ k : Nat) : Int) = (addr : Int) := by
      omega
    rw [e]
    omega
  · show Nat.land addr (2 ^ k - 1) < 2 ^ k
    rw [hoff]
    exact Nat.mod_lt _ hpk
  · show (addr >>> log_base2 (2 ^ k)) % 2 ^ j < 2 ^ j
    exact Nat.mod_lt _ hpj
  · intro addr' ha' hblk
    refine ⟨?_, ?_⟩
    · show (addr' >>> log_base2 (2 ^ k)) % 2 ^ j = (addr >>> log_base2 (2 ^ k)) % 2 ^ j
      rw [hset, hset, hblk]
    · show to_int (Nat.land addr' (2 ^ 32 - 1 - (2 ^ k - 1) % 2 ^ 32)) =
        to_int (Nat.land addr (2 ^ 32 - 1 - (2 ^ k - 1) % 2 ^ 32))
      rw [htag addr' ha', htag addr ha]
      have e1 := Nat.div_add_mod addr (2 ^ k)
      have e2 := Nat.div_add_mod addr' (2 ^ k)
      rw [hblk] at e2
      have e3 : addr' - addr' % 2 ^ k = addr - addr % 2 ^ k := by omega
      rw [e3]

/-- C12, amended, on a 128-set cache with 64-byte blocks and the address
`0x80001234`. -/
theorem cache_decode_address_arith_witness :
    ∃ c, cache_create 128 64 4 cache_policy_lru = some c ∧
      (cache_decode_address c 2147488308).2.2 = 2147488308 % 64 ∧
      (cache_decode_address c 2147488308).1 = (2147488308 / 64) % 128 ∧
      (cache_decode_address c 2147488308).2.1 = to_int (2147488308 - 2147488308 % 64) ∧
      (2147488308 < 2 ^ 31 →
        (cache_decode_address c 2147488308).2.1
          = ((2147488308 - 2147488308 % 64 : Nat) : Int)) ∧
      ((cache_decode_address c 2147488308).2.1
          + ((cache_decode_address c 2147488308).2.2 : Int)) % 2 ^ 32
        = ((2147488308 : Nat) : Int) ∧
      (cache_decode_address c 2147488308).2.2 < 64 ∧
      (cache_decode_address c 2147488308).1 < 128 ∧
      ∀ addr' : Nat, addr' < 2 ^ 32 → addr' / 64 = 2147488308 / 64 →
        (cache_decode_address c addr').1 = (cache_decode_address c 2147488308).1 ∧
        (cache_decode_address c addr').2.1 = (cache_decode_address c 2147488308).2.1 :=
  cache_decode_address_arith 128 64 4 cache_policy_lru 7 6 (by decide) (by decide) (by decide)
    2147488308 (by decide)

/-- C13: on a cache with at least one set, `cache_find_block(addr)` reports the
set the address decodes to; it returns 1 if and only if some way of that set
holds a block with the tag of the address in a state other than invalid, and
then reports the lowest-numbered such way and the state of its block; it
returns 0 and reports state 0 otherwise, without writing a way.  The cache is
only read: the function has no cache in its result. -/
theorem cache_find_block_spec (c : cache_t) (addr : Nat) (hsets : 0 < c.num_sets) :
    (cache_find_block c addr).set = (cache_decode_address c addr).1 ∧
    (cache_find_block c addr).set < c.num_sets ∧
    ((cache_find_block c addr).ret = 1 ↔
      ∃ w, w < c.assoc ∧
        ((c.sets (cache_decode_address c addr).1).blocks w).tag
          = (cache_decode_address c addr).2.1 ∧
        ((c.sets (cache_decode_address c addr).1).blocks w).state ≠ 0) ∧
    ((cache_find_block c addr).ret = 1 →
      ∃ w, (cache_find_block c addr).way = some w ∧ w < c.assoc ∧
        ((c.sets (cache_decode_address c addr).1).blocks w).tag
          = (cache_decode_address c addr).2.1 ∧
        ((c.sets (cache_decode_address c addr).1).blocks w).state ≠ 0 ∧
        (cache_find_block c addr).state
          = ((c.sets (cache_decode_address c addr).1).blocks w).state ∧
        ∀ w', w' < w →
          ¬ (((c.sets (cache_decode_address c addr).1).blocks w').tag
              = (cache_decode_address c addr).2.1 ∧
            ((c.sets (cache_decode_address c addr).1).blocks w').state ≠ 0)) ∧
    ((cache_find_block c addr).ret ≠ 1 →
      (cache_find_block c addr).ret = 0 ∧ (cache_find_block c addr).state = 0 ∧
      (cache_find_block c addr).way = none) := by
  have hle := cache_find_way_le (c.sets (cache_set_index c addr)).blocks (cache_tag c addr)
    c.assoc 0
  have hhit := cache_find_way_hit (c.sets (cache_set_index c addr)).blocks (cache_tag c addr)
    c.assoc 0
  have hfirst := cache_find_way_first (c.sets (cache_set_index c addr)).blocks
    (cache_tag c addr) c.assoc 0
  have hmatch := cache_find_way_le_match (c.sets (cache_set_index c addr)).blocks
    (cache_tag c addr) c.assoc 0
  have hset : (cache_find_block c addr).set = cache_set_index c addr := by
    unfold cache_find_block
    dsimp only
    split_ifs <;> rfl
  have hdec1 : (cache_decode_address c addr).1 = cache_set_index c addr := rfl
  have hdec2 : (cache_decode_address c addr).2.1 = cache_tag c addr := rfl
  rw [hdec1, hdec2]
  by_cases hw : cache_find_way (c.sets (cache_set_index c addr)).blocks (cache_tag c addr)
      c.assoc 0 = c.assoc
  · have hr : cache_find_block c addr =
        { ret := 0, set := cache_set_index c addr, way := none, state := 0 } := by
      unfold cache_find_block
      dsimp only
      rw [if_pos hw]
    refine ⟨hset, by rw [hset]; exact Nat.mod_lt _ hsets, ?_, ?_, ?_⟩
    · rw [hr]
      constructor
      · intro h
        cases h
      · rintro ⟨w, hw1, hw2, hw3⟩
        have := hmatch w (Nat.zero_le _) (by omega) ⟨hw2, hw3⟩
        omega
    · rw [hr]
      intro h
      cases h
    · rw [hr]
      intro _
      exact ⟨rfl, rfl, rfl⟩
  · have hr : cache_find_block c addr =
        { ret := 1, set := cache_set_index c addr,
          way := some (cache_find_way (c.sets (cache_set_index c addr)).blocks
            (cache_tag c addr) c.assoc 0),
          state := ((c.sets (cache_set_index c addr)).blocks
            (cache_find_way (c.sets (cache_set_index c addr)).blocks
              (cache_tag c addr) c.assoc 0)).state } := by
      unfold cache_find_block
      dsimp only
      rw [if_neg hw]
    have hh := hhit (by omega)
    have hlt : cache_find_way (c.sets (cache_set_index c addr)).blocks (cache_tag c addr)
        c.assoc 0 < c.assoc := by omega
    refine ⟨hset, by rw [hset]; exact Nat.mod_lt _ hsets, ?_, ?_, ?_⟩
    · rw [hr]
      constructor
      · intro _
        exact ⟨_, hlt, hh.1, hh.2⟩
      · intro _
        rfl
    · rw [hr]
      intro _
      exact ⟨_, rfl, hlt, hh.1, hh.2, rfl, fun w' hw' => hfirst w' (Nat.zero_le _) hw'⟩
    · rw [hr]
      intro h
      exact absurd rfl h

/-- C13 on the two-way example in which ways 0 and 1 both hold tag 64. -/
theorem cache_find_block_spec_witness :
    ∃ c, shadowed_block_cache = some c ∧
      (cache_find_block c 64).set = (cache_decode_address c 64).1 ∧
      (cache_find_block c 64).set < c.num_sets ∧
      ((cache_find_block c 64).ret = 1 ↔
        ∃ w, w < c.assoc ∧
          ((c.sets (cache_decode_address c 64).1).blocks w).tag
            = (cache_decode_address c 64).2.1 ∧
          ((c.sets (cache_decode_address c 64).1).blocks w).state ≠ 0) ∧
      ((cache_find_block c 64).ret = 1 →
        ∃ w, (cache_find_block c 64).way = some w ∧ w < c.assoc ∧
          ((c.sets (cache_decode_address c 64).1).blocks w).tag
            = (cache_decode_address c 64).2.1 ∧
          ((c.sets (cache_decode_address c 64).1).blocks w).state ≠ 0 ∧
          (cache_find_block c 64).state
            = ((c.sets (cache_decode_address c 64).1).blocks w).state ∧
          ∀ w', w' < w →
            ¬ (((c.sets (cache_decode_address c 64).1).blocks w').tag
                = (cache_decode_address c 64).2.1 ∧
              ((c.sets (cache_decode_address c 64).1).blocks w').state ≠ 0)) ∧
      ((cache_find_block c 64).ret ≠ 1 →
        (cache_find_block c 64).ret = 0 ∧ (cache_find_block c 64).state = 0 ∧
        (cache_find_block c 64).way = none) := by
  have hsome : shadowed_block_cache.isSome = true := by decide!
  cases h : shadowed_block_cache with
  | none =>
    rw [h] at hsome
    cases hsome
  | some c =>
    have hs : 0 < c.num_sets := by
      have : (shadowed_block_cache.map fun c => c.num_sets) = some 1 := by decide!
      rw [h] at this
      simp only [Option.map_some', Option.some.injEq] at this
      omega
    exact ⟨c, rfl, cache_find_block_spec c 64 hs⟩

/-- C14: on a well-formed cache, `cache_access_block(set, way)` returns; the
recency list of the set afterwards is the list before with `way` moved to the
head, the other ways in their order, when the policy is LRU or Partitioned-LRU,
or FIFO and the block is invalid, and it is the list before in every other case
(FIFO with a valid block, Random).  No tag, state or owner of any block
changes, and the other sets are untouched. -/
theorem cache_access_block_moves_to_head {c : cache_t} {s w : Nat} (hwf : cache_wf c)
    (hs : s < c.num_sets) (hw : w < c.assoc) :
    ∃ c', cache_access_block c s w = some c' ∧
      cache_waylist c'.assoc (c'.sets s) =
        (if c.policy = cache_policy_lru ∨ c.policy = cache_policy_partitioned_lru ∨
            (c.policy = cache_policy_fifo ∧ ((c.sets s).blocks w).state = 0)
          then move_to_head w (cache_waylist c.assoc (c.sets s))
          else cache_waylist c.assoc (c.sets s)) ∧
      (∀ a, same_payload ((c.sets s).blocks a) ((c'.sets s).blocks a)) ∧
      ∀ s', s' ≠ s → c'.sets s' = c.sets s' := by
  obtain ⟨l, hl⟩ := hwf s hs
  obtain ⟨s1, he, hwf1, hpay⟩ := cache_access_block_wf hs hw hl
  refine ⟨c.put_set s s1, he, ?_, ?_, ?_⟩
  · have e1 : (c.put_set s s1).sets s = s1 := by
      show Function.update c.sets s s1 s = s1
      simp
    have e2 : (c.put_set s s1).assoc = c.assoc := rfl
    rw [e1, e2, set_wf_waylist hwf1, set_wf_waylist hl]
  · intro a
    have e1 : (c.put_set s s1).sets s = s1 := by
      show Function.update c.sets s s1 s = s1
      simp
    rw [e1]
    exact hpay a
  · intro s' hs'
    show Function.update c.sets s s1 s' = _
    rw [Function.update_noteq hs']

/-- C14 on a fresh one-set, four-way LRU cache: the access to way 2 turns the
recency list `[0, 1, 2, 3]` into `[2, 0, 1, 3]`. -/
theorem cache_access_block_moves_to_head_witness :
    ∃ c0 c', cache_create 1 64 4 cache_policy_lru = some c0 ∧
      cache_access_block c0 0 2 = some c' ∧
      cache_waylist c0.assoc (c0.sets 0) = [0, 1, 2, 3] ∧
      cache_waylist c'.assoc (c'.sets 0) = [2, 0, 1, 3] := by
  have hc := cache_create_eq 1 64 4 cache_policy_lru (by decide)
  have hok := cache_create_ok hc (by decide)
  obtain ⟨c', h1, h2, _, _⟩ := cache_access_block_moves_to_head (s := 0) (w := 2) hok.1
    (by decide) (by decide)
  refine ⟨_, c', hc, h1, by decide, ?_⟩
  rw [h2]
  decide

/-- C15: on a well-formed cache, under LRU and FIFO `cache_replace_block(set)`
returns the way at the tail of the recency list of the set, and the list
afterwards is the list before with that way moved to the head, the other ways
in their order; under Random, on a cache with at least one way, it returns a
way below `assoc` and leaves the cache as it is. -/
theorem cache_replace_block_tail_or_random {c : cache_t} {s : Nat} (nc nt : Nat)
    (ci : mod_client_info_t) (rnd : Nat) (hwf : cache_wf c) (hs : s < c.num_sets) :
    (c.policy = cache_policy_lru ∨ c.policy = cache_policy_fifo →
      ∃ c', cache_replace_block nc nt c s ci rnd = some (c', ((c.sets s).way_tail : Int)) ∧
        (cache_waylist c.assoc (c.sets s)).getLast? = some (c.sets s).way_tail ∧
        cache_waylist c'.assoc (c'.sets s) =
          move_to_head (c.sets s).way_tail (cache_waylist c.assoc (c.sets s)) ∧
        ∀ s', s' ≠ s → c'.sets s' = c.sets s') ∧
    (c.policy = cache_policy_random →
      ∃ w : Nat, cache_replace_block nc nt c s ci rnd = some (c, (w : Int)) ∧ w < c.assoc) := by
  obtain ⟨l, hl⟩ := hwf s hs
  constructor
  · intro hp
    obtain ⟨s1, he, hwf1, _⟩ := cache_replace_block_lru_wf nc nt ci rnd hs hl hp
    refine ⟨c.put_set s s1, he, ?_, ?_, ?_⟩
    · rw [set_wf_waylist hl]
      exact hl.2.2.2.1
    · have e1 : (c.put_set s s1).sets s = s1 := by
        show Function.update c.sets s s1 s = s1
        simp
      have e2 : (c.put_set s s1).assoc = c.assoc := rfl
      rw [e1, e2, set_wf_waylist hwf1, set_wf_waylist hl]
    · intro s' hs'
      show Function.update c.sets s s1 s' = _
      rw [Function.update_noteq hs']
  · intro hp
    refine ⟨rnd % c.assoc, ?_, Nat.mod_lt _ (set_wf_pos hl)⟩
    unfold cache_replace_block
    simp [hs, hp]

/-- C15 on a fresh one-set, four-way FIFO cache: `cache_replace_block` returns
way 3, the tail of `[0, 1, 2, 3]`, and leaves the list `[3, 0, 1, 2]`. -/
theorem cache_replace_block_tail_or_random_witness :
    ∃ c0 c', cache_create 1 64 4 cache_policy_fifo = some c0 ∧
      cache_replace_block 1 1 c0 0 ⟨0, 0⟩ 0 = some (c', 3) ∧
      cache_waylist c'.assoc (c'.sets 0) = [3, 0, 1, 2] := by
  have hc := cache_create_eq 1 64 4 cache_policy_fifo (by decide)
  have hok := cache_create_ok hc (by decide)
  obtain ⟨c', h1, _, h3, _⟩ := (cache_replace_block_tail_or_random (s := 0) 1 1 ⟨0, 0⟩ 0 hok.1
    (by decide)).1 (Or.inr rfl)
  refine ⟨_, c', hc, h1, ?_⟩
  rw [h3]
  decide

/-! ## The state machine of FCP over a run -/

/-- C16: in every run of `fcp_repartition` calls from the state `fcp_create`
builds, with any pairing policy, the state before the first call is OFF, each
call leaves the state as it is or changes it from OFF to ON, from ON to BACKOFF
or from BACKOFF to ON, and no state after a state other than OFF is OFF. -/
theorem fcp_run_state_changes (list_sort : (Int → Int → Int) → List Int → List Int)
    (nc nt : Nat) (mod : mod_t) (policy : thread_pairing_policy_t) (interval : Int)
    (calls : List (esim_t × (Int → Int))) (states : List fcp_state_t)
    (h : fcp_run_states list_sort nc nt (fcp_create nc nt mod policy interval) calls =
      some states) :
    (fcp_create nc nt mod policy interval).state = fcp_state_t.OFF ∧
    List.Chain
      (fun s s' => s' = s ∨ (s = fcp_state_t.OFF ∧ s' = fcp_state_t.ON) ∨
        (s = fcp_state_t.ON ∧ s' = fcp_state_t.BACKOFF) ∨
        (s = fcp_state_t.BACKOFF ∧ s' = fcp_state_t.ON))
      fcp_state_t.OFF states ∧
    ∀ (before after : List fcp_state_t) (s : fcp_state_t),
      states = before ++ s :: after → s ≠ fcp_state_t.OFF → fcp_state_t.OFF ∉ after := by
  have hc := fcp_run_states_chain list_sort nc nt calls _ states h
  have h0 : (fcp_create nc nt mod policy interval).state = fcp_state_t.OFF := rfl
  rw [h0] at hc
  refine ⟨h0, hc, ?_⟩
  intro before after s he hs
  rw [he, List.chain_split] at hc
  exact fcp_state_chain_not_off after s hc.2 hs

/-- C16 on the two-thread example: the ten calls of `fcp_calls_example` take the
controller from OFF to ON, after three calls in ON to BACKOFF, and after five
calls in BACKOFF to ON again. -/
theorem fcp_run_state_changes_witness :
    fcp_run_states list_sort_insertion 1 2
        (fcp_create 1 2 (example_mod 4 2 []) thread_pairing_policy_t.thread_pairing_policy_none 0)
        fcp_calls_example =
      some [fcp_state_t.ON, fcp_state_t.ON, fcp_state_t.ON, fcp_state_t.BACKOFF,
        fcp_state_t.BACKOFF, fcp_state_t.BACKOFF, fcp_state_t.BACKOFF, fcp_state_t.BACKOFF,
        fcp_state_t.ON, fcp_state_t.ON] ∧
    (fcp_create 1 2 (example_mod 4 2 [])
      thread_pairing_policy_t.thread_pairing_policy_none 0).state = fcp_state_t.OFF ∧
    List.Chain
      (fun s s' => s' = s ∨ (s = fcp_state_t.OFF ∧ s' = fcp_state_t.ON) ∨
        (s = fcp_state_t.ON ∧ s' = fcp_state_t.BACKOFF) ∨
        (s = fcp_state_t.BACKOFF ∧ s' = fcp_state_t.ON))
      fcp_state_t.OFF
      [fcp_state_t.ON, fcp_state_t.ON, fcp_state_t.ON, fcp_state_t.BACKOFF,
        fcp_state_t.BACKOFF, fcp_state_t.BACKOFF, fcp_state_t.BACKOFF, fcp_state_t.BACKOFF,
        fcp_state_t.ON, fcp_state_t.ON] ∧
    ∀ (before after : List fcp_state_t) (s : fcp_state_t),
      [fcp_state_t.ON, fcp_state_t.ON, fcp_state_t.ON, fcp_state_t.BACKOFF,
        fcp_state_t.BACKOFF, fcp_state_t.BACKOFF, fcp_state_t.BACKOFF, fcp_state_t.BACKOFF,
        fcp_state_t.ON, fcp_state_t.ON] = before ++ s :: after →
      s ≠ fcp_state_t.OFF → fcp_state_t.OFF ∉ after :=
  ⟨by decide!,
    fcp_run_state_changes list_sort_insertion 1 2 (example_mod 4 2 [])
      thread_pairing_policy_t.thread_pairing_policy_none 0 fcp_calls_example _ (by decide!)⟩

/-! ## The transfer of one way while FCP stays ON -/

/-- C17 as stated fails when the thread with the maximum individual speedup is
also the thread with the minimum: with a single reachable thread on a four-way
cache the controller is ON with the quota 4, the call passes the gate and
keeps the controller ON, `min` and `max` are both thread 0, which has more
than 1 way, and its quota is decremented and incremented again: it stays 4. -/
theorem fcp_single_thread_quota_unchanged :
    fcp_single_example.state = fcp_state_t.ON ∧
    fcp_single_example.pairing_policy = thread_pairing_policy_t.thread_pairing_policy_none ∧
    fcp_single_example.mod.cache.assigned_ways 0 = 4 ∧
    fcp_gate (1 * 1) (call_one 2000).1 (fcp_single_example.with_used_ways (call_one 2000).2) ∧
    (fcp_unfairness list_sort_insertion (1 * 1) (call_one 2000).1
        (fcp_single_example.with_used_ways (call_one 2000).2)).map
      (fun r => (r.2.1, r.2.2.1)) = some (0, 0) ∧
    (fcp_repartition list_sort_insertion 1 1 (call_one 2000).1
        (fcp_single_example.with_used_ways (call_one 2000).2)).map
      (fun f => (f.state, f.mod.cache.assigned_ways 0)) = some (fcp_state_t.ON, 4) := by
  decide!

/-- C17, amended: while a well-formed controller without pairing is ON, a call
of `fcp_repartition` that passes the gate returns; `min` and `max` are threads
of the controller with the least and the greatest individual speedup
`x86_thread_speedup`; and when the call leaves the controller ON, the quota of
`max` goes down by 1 and the quota of `min` up by 1 if `max` has more than 1
way and `min` is another thread than `max`, `min` and `max` keep their quotas
otherwise, and every other quota is unchanged. -/
theorem fcp_on_transfers_one_way
    (list_sort : (Int → Int → Int) → List Int → List Int)
    (nc nt : Nat) (esim : esim_t) (fcp : fcp_t) (hsort : list_sort_sorts list_sort)
    (hst : fcp_static (nc * nt) fcp) (hok : fcp_state_ok (nc * nt) fcp)
    (henv : fcp_env_ok (nc * nt) esim fcp)
    (hcyc : fcp.last_esim_cycle < esim.esim_cycle) (hgate : fcp_gate (nc * nt) esim fcp)
    (hon : fcp.state = fcp_state_t.ON) :
    ∃ f2 mn mx u fcp', fcp_unfairness list_sort (nc * nt) esim fcp = some (f2, mn, mx, u) ∧
      fcp_repartition list_sort nc nt esim fcp = some fcp' ∧
      mn ∈ fcp.threads ∧ mx ∈ fcp.threads ∧
      (∀ t ∈ fcp.threads,
        double.le (x86_thread_speedup esim mn) (x86_thread_speedup esim t) ∧
        double.le (x86_thread_speedup esim t) (x86_thread_speedup esim mx)) ∧
      (fcp'.state = fcp_state_t.ON →
        (1 < fcp.mod.cache.assigned_ways mx → mn ≠ mx →
          fcp'.mod.cache.assigned_ways mx = fcp.mod.cache.assigned_ways mx - 1 ∧
          fcp'.mod.cache.assigned_ways mn = fcp.mod.cache.assigned_ways mn + 1) ∧
        (¬ (1 < fcp.mod.cache.assigned_ways mx ∧ mn ≠ mx) →
          fcp'.mod.cache.assigned_ways mx = fcp.mod.cache.assigned_ways mx ∧
          fcp'.mod.cache.assigned_ways mn = fcp.mod.cache.assigned_ways mn) ∧
        ∀ t : Int, t ≠ mn → t ≠ mx →
          fcp'.mod.cache.assigned_ways t = fcp.mod.cache.assigned_ways t) := by
  obtain ⟨f2, mn, mx, u, f', hunf, he, _, _, _, _, _, hleave, _, _, _⟩ :=
    fcp_repartition_step list_sort nc nt esim fcp hsort hst hok henv hcyc hgate
  obtain ⟨hmn, hmx, hext⟩ :=
    fcp_unfairness_extremes list_sort (nc * nt) esim fcp f2 mn mx u hsort hst henv hunf
  refine ⟨f2, mn, mx, u, f', hunf, he, hmn, hmx, ?_, ?_⟩
  · intro t ht
    have h1 := hext t ht
    rw [← (hext mn hmn).1, ← (hext mx hmx).1, ← h1.1]
    exact h1.2
  intro hstay
  have hinc : fcp_unfairness_increasing fcp u = false := by
    rcases Bool.eq_false_or_eq_true (fcp_unfairness_increasing fcp u) with h | h
    · have := (hleave hon h).1
      rw [this] at hstay
      cases hstay
    · exact h
  obtain ⟨d, thr, mn', mx', hunf', hperm, _, _, hd⟩ :=
    fcp_unfairness_spec list_sort (nc * nt) esim fcp hsort hst henv
  rw [hunf] at hunf'
  simp only [Option.some.injEq, Prod.mk.injEq] at hunf'
  obtain ⟨hf2, hm, hM, _⟩ := hunf'
  subst hm hM
  have hF := fcp_static_measured (nc * nt) fcp d thr hst hperm hd
  rw [← hf2] at hF
  have hf2s : f2.state = fcp_state_t.ON := by
    rw [hf2]
    exact hon
  have hf2i : fcp_unfairness_increasing f2 u = false := by
    rw [hf2]
    exact hinc
  have hf2w : f2.mod.cache.assigned_ways = fcp.mod.cache.assigned_ways := by
    rw [hf2]
  have hmn2 : mn ∈ f2.threads := by
    rw [hf2]
    exact hperm.symm.subset hmn
  have hmx2 : mx ∈ f2.threads := by
    rw [hf2]
    exact hperm.symm.subset hmx
  have hptr : ∀ t ∈ f2.threads, (f2.data t).assigned_ways = some t := by
    intro t ht
    obtain ⟨h0, hlt, hr⟩ := hF.2.2.1 t ht
    obtain ⟨i, rfl⟩ : ∃ i : Nat, t = (i : Int) := ⟨t.toNat, by omega⟩
    exact hF.2.2.2.1 i (by omega) hr
  rw [fcp_repartition_eq list_sort nc nt esim fcp f2 mn mx u hcyc hgate hunf hF.1,
    fcp_transition_on_stay (nc * nt) f2 u hf2s hf2i] at he
  simp only [Option.some_bind] at he
  cases hact : fcp_action (nc * nt) f2 mn mx false with
  | none =>
    rw [hact] at he
    cases he
  | some f5 =>
    rw [hact] at he
    simp only [Option.map_some', Option.some.injEq] at he
    have htr := fcp_action_on_transfer (nc * nt) f2 f5 mn mx hF.1 hf2s hact
    rw [fcp_transfer_eq f2 mn mx (hptr mn hmn2) (hptr mx hmx2)] at htr
    simp only [Option.some.injEq] at htr
    have hw : f'.mod.cache.assigned_ways =
        fcp_transfer_ways fcp.mod.cache.assigned_ways mn mx := by
      rw [← he, (fcp_record_fields f5 f2.state u esim.esim_cycle).2.2.2.1, ← htr, ← hf2w]
      rfl
    rw [hw]
    unfold fcp_transfer_ways
    refine ⟨?_, ?_, ?_⟩
    · intro h1 hne
      rw [if_pos (show fcp.mod.cache.assigned_ways mx > FCP_MIN_WAYS from h1)]
      rw [Function.update_noteq (Ne.symm hne), Function.update_same, Function.update_same,
        Function.update_noteq hne]
      exact ⟨rfl, rfl⟩
    · intro hn
      by_cases h1 : fcp.mod.cache.assigned_ways mx > FCP_MIN_WAYS
      · have hne : mn = mx := by
          by_contra hc
          exact hn ⟨h1, hc⟩
        rw [if_pos h1, hne, Function.update_same, Function.update_same]
        omega
      · rw [if_neg h1]
        exact ⟨rfl, rfl⟩
    · intro t htm htM
      split_ifs
      · rw [Function.update_noteq htm, Function.update_noteq htM]
      · rfl

/-- C17, amended, on the two-thread example: the controller is ON with three
ways for thread 0 and one way for thread 1; in the call thread 1 has the
speedup 3/4 and thread 0 the speedup 1, the controller stays ON, and one way
goes from thread 0 to thread 1: the quotas become 2 and 2. -/
theorem fcp_on_transfers_one_way_witness :
    ((fcp_repartition list_sort_insertion 1 2 (call_two 2000 0 500).1
        (fcp_entered_example.with_used_ways (call_two 2000 0 500).2)).map fcp_view =
      some (fcp_state_t.ON, 1, 0, 2, 2) ∧
      fcp_view fcp_entered_example = (fcp_state_t.ON, 0, 0, 3, 1)) ∧
    ∃ f2 mn mx u fcp',
      fcp_unfairness list_sort_insertion (1 * 2) (call_two 2000 0 500).1
        (fcp_entered_example.with_used_ways (call_two 2000 0 500).2) = some (f2, mn, mx, u) ∧
      fcp_repartition list_sort_insertion 1 2 (call_two 2000 0 500).1
        (fcp_entered_example.with_used_ways (call_two 2000 0 500).2) = some fcp' ∧
      mn ∈ (fcp_entered_example.with_used_ways (call_two 2000 0 500).2).threads ∧
      mx ∈ (fcp_entered_example.with_used_ways (call_two 2000 0 500).2).threads ∧
      (∀ t ∈ (fcp_entered_example.with_used_ways (call_two 2000 0 500).2).threads,
        double.le (x86_thread_speedup (call_two 2000 0 500).1 mn)
          (x86_thread_speedup (call_two 2000 0 500).1 t) ∧
        double.le (x86_thread_speedup (call_two 2000 0 500).1 t)
          (x86_thread_speedup (call_two 2000 0 500).1 mx)) ∧
      (fcp'.state = fcp_state_t.ON →
        (1 < (fcp_entered_example.with_used_ways
              (call_two 2000 0 500).2).mod.cache.assigned_ways mx → mn ≠ mx →
          fcp'.mod.cache.assigned_ways mx =
            (fcp_entered_example.with_used_ways
              (call_two 2000 0 500).2).mod.cache.assigned_ways mx - 1 ∧
          fcp'.mod.cache.assigned_ways mn =
            (fcp_entered_example.with_used_ways
              (call_two 2000 0 500).2).mod.cache.assigned_ways mn + 1) ∧
        (¬ (1 < (fcp_entered_example.with_used_ways
              (call_two 2000 0 500).2).mod.cache.assigned_ways mx ∧ mn ≠ mx) →
          fcp'.mod.cache.assigned_ways mx =
            (fcp_entered_example.with_used_ways
              (call_two 2000 0 500).2).mod.cache.assigned_ways mx ∧
          fcp'.mod.cache.assigned_ways mn =
            (fcp_entered_example.with_used_ways
              (call_two 2000 0 500).2).mod.cache.assigned_ways mn) ∧
        ∀ t : Int, t ≠ mn → t ≠ mx →
          fcp'.mod.cache.assigned_ways t =
            (fcp_entered_example.with_used_ways
              (call_two 2000 0 500).2).mod.cache.assigned_ways t) :=
  ⟨by decide!,
    fcp_on_transfers_one_way list_sort_insertion 1 2 (call_two 2000 0 500).1
      (fcp_entered_example.with_used_ways (call_two 2000 0 500).2) list_sort_insertion_sorts
      (by decide!) (by decide!) (by decide!) (by decide!) (by decide!) (by decide!)⟩

/-! ## The decay of the histograms and the allocation loop of UCP -/

/-- C18 fails on the code: on a full four-way cache shared by two threads, each
with the histogram 8, 6, 4, 2, the call of `ucp_repartition` passes the warm-up
gate (it assigns two ways to each thread) and halves the counters at the
indices 0 and 1 only: the halving loop runs over `total_num_threads = 2`
indices, not over `assoc = 4`, and the counters 4 and 2 at the indices 2 and 3
are left as they were. -/
theorem ucp_decay_halves_total_num_threads_counters :
    ¬ double.lt (cache_usage (1 * 2) (example_mod 4 2 [[8, 6, 4, 2], [8, 6, 4, 2]]))
      UCP_CACHE_TH ∧
    ucp_example 4 [[8, 6, 4, 2], [8, 6, 4, 2]] = some [2, 2] ∧
    ucp_histograms_example 4 [[8, 6, 4, 2], [8, 6, 4, 2]] =
      some [[4, 3, 4, 2], [4, 3, 4, 2]] := by
  decide!

/-- C19: in an iteration of the loop `while (balance)` of `ucp_repartition` in
which some reachable thread has a positive marginal utility for an increment
in `1 .. balance`, when every reachable thread has a histogram and no
unreachable thread has a positive entry in `max_mu` (they are 0 from
`ucp_create` on and the loop does not write them): the winner `w` is a
reachable thread, its increment `ways_req w` is in `1 .. balance`, the marginal
utility of this increment is at least the marginal utility of every reachable
thread for every increment in `1 .. balance`, the winner is granted the
increment, and the loop goes on with the balance less the increment, or stops
if that is the last balance. -/
theorem ucp_allocate_grants_max_utility (total fuel : Nat) (ucp : ucp_t) (balance last : Int)
    (hatd : ∀ i : Nat, i < total → ucp.mod.reachable_threads i = true →
      (ucp.mod.atd_per_thread i).isSome = true)
    (hstale : ∀ i : Nat, i < total → ucp.mod.reachable_threads i = false →
      ¬ double.lt (double.ofInt 0) (ucp.max_mu i))
    (t0 : Nat) (k0 : Int) (m0 : double) (ht0 : t0 < total)
    (hr0 : ucp.mod.reachable_threads t0 = true) (hk0 : 1 ≤ k0 ∧ k0 ≤ balance)
    (hm0 : ucp_mu ucp t0 (ucp.mod.cache.assigned_ways t0)
      (ucp.mod.cache.assigned_ways t0 + k0) = some m0)
    (hpos : double.lt (double.ofInt 0) m0) :
    ∃ (u1 : ucp_t) (w : Nat) (m : double),
      ucp_compute_max_mu total ucp balance = some u1 ∧ u1.mod = ucp.mod ∧
      (ucp_choose_winner total u1).1 = (w : Int) ∧ w < total ∧
      ucp.mod.reachable_threads w = true ∧
      (∀ i : Nat, ucp.mod.reachable_threads i = false → u1.max_mu i = ucp.max_mu i) ∧
      1 ≤ u1.ways_req w ∧ u1.ways_req w ≤ balance ∧
      ucp_mu ucp w (ucp.mod.cache.assigned_ways w)
        (ucp.mod.cache.assigned_ways w + u1.ways_req w) = some m ∧
      (∀ t : Nat, t < total → ucp.mod.reachable_threads t = true →
        ∀ k : Int, 1 ≤ k → k ≤ balance →
          ∃ mu, ucp_mu ucp t (ucp.mod.cache.assigned_ways t)
              (ucp.mod.cache.assigned_ways t + k) = some mu ∧ double.le mu m) ∧
      ucp_allocate total (fuel + 1) ucp balance last =
        if balance - u1.ways_req w = last then
          some (u1.set_assigned_ways w (u1.mod.cache.assigned_ways w + u1.ways_req w))
        else
          ucp_allocate total fuel
            (u1.set_assigned_ways w (u1.mod.cache.assigned_ways w + u1.ways_req w))
            (balance - u1.ways_req w) (balance - u1.ways_req w) := by
  have hb0 : 0 ≤ balance := by omega
  obtain ⟨u1, he, hmod, h1, h2⟩ := ucp_compute_max_mu_spec ucp balance hb0 total hatd
  -- what `ucp_max_mu` gives for a reachable thread
  have hthread : ∀ t : Nat, t < total → ucp.mod.reachable_threads t = true →
      (u1.max_mu t).den ≠ 0 ∧
      (∀ k : Int, 1 ≤ k → k ≤ balance →
        ∃ mu, ucp_mu ucp t (ucp.mod.cache.assigned_ways t)
            (ucp.mod.cache.assigned_ways t + k) = some mu ∧ mu.den ≠ 0 ∧
          ¬ double.lt (u1.max_mu t) mu) ∧
      (u1.max_mu t = double.ofInt 0 ∨
        (1 ≤ u1.ways_req t ∧ u1.ways_req t ≤ balance ∧
          ucp_mu ucp t (ucp.mod.cache.assigned_ways t)
            (ucp.mod.cache.assigned_ways t + u1.ways_req t) = some (u1.max_mu t))) := by
    intro t ht hrt
    obtain ⟨atd, ha⟩ := Option.isSome_iff_exists.1 (hatd t ht hrt)
    obtain ⟨m, r, hmr, hfin, hall, hreq⟩ :=
      ucp_max_mu_max ucp t (ucp.mod.cache.assigned_ways t) atd ha balance.toNat
    have e := h1 t ht hrt
    unfold ucp_max_mu at e
    rw [hmr] at e
    simp only [Option.some.injEq, Prod.mk.injEq] at e
    rw [← e.1, ← e.2]
    refine ⟨hfin, ?_, ?_⟩
    · intro k hk1 hk2
      obtain ⟨mu, hmu, hmufin⟩ :=
        ucp_mu_some ucp t (ucp.mod.cache.assigned_ways t) atd ha k hk1
      refine ⟨mu, hmu, hmufin, ?_⟩
      have := hall (k - 1).toNat (by omega) mu (by
        rw [Int.toNat_of_nonneg (by omega)]
        rw [show k - 1 + 1 = k by omega]
        exact hmu)
      exact this
    · rcases hreq with hreq | ⟨h3, h4, h5⟩
      · exact Or.inl hreq
      · exact Or.inr ⟨h3, by omega, h5⟩
  -- the thread `t0` has a positive maximum
  have ht0pos : double.lt (double.ofInt 0) (u1.max_mu t0) := by
    obtain ⟨hfin, hall, _⟩ := hthread t0 ht0 hr0
    obtain ⟨mu, hmu, _, hnlt⟩ := hall k0 hk0.1 hk0.2
    rw [hm0] at hmu
    simp only [Option.some.injEq] at hmu
    rw [← hmu] at hnlt
    exact double_lt_of_lt_of_not_lt hpos hnlt hfin
  obtain ⟨w, hw, hwin, hwpos⟩ := ucp_choose_winner_pos u1 total t0 ht0 ht0pos
  have hwr : ucp.mod.reachable_threads (w : Int) = true := by
    by_contra hc
    have hf : ucp.mod.reachable_threads (w : Int) = false := by simpa using hc
    rw [h2 w hf] at hwpos
    exact hstale w hw hf hwpos
  obtain ⟨hsfin, hsel, hsmax⟩ := ucp_choose_winner_spec u1 total
  have hsnd : (ucp_choose_winner total u1).2 = u1.max_mu w := by
    rcases hsel with hsel | ⟨t, _, hsel⟩
    · rw [hsel] at hwin
      have : (-1 : Int) = (w : Int) := hwin
      omega
    · rw [hsel] at hwin
      have htw : (t : Int) = (w : Int) := hwin
      rw [hsel]
      show u1.max_mu t = u1.max_mu w
      rw [htw]
  rw [hsnd] at hsmax
  obtain ⟨hwfin, _, hwreq⟩ := hthread w hw hwr
  have hwreq2 : 1 ≤ u1.ways_req w ∧ u1.ways_req w ≤ balance ∧
      ucp_mu ucp w (ucp.mod.cache.assigned_ways w)
        (ucp.mod.cache.assigned_ways w + u1.ways_req w) = some (u1.max_mu w) := by
    rcases hwreq with h0 | h0
    · rw [h0] at hwpos
      exact absurd hwpos (by decide)
    · exact h0
  refine ⟨u1, w, u1.max_mu w, he, hmod, hwin, hw, hwr, h2, hwreq2.1, hwreq2.2.1, hwreq2.2.2, ?_, ?_⟩
  · intro t ht hrt k hk1 hk2
    obtain ⟨htfin, hall, _⟩ := hthread t ht hrt
    obtain ⟨mu, hmu, hmufin, hnlt⟩ := hall k hk1 hk2
    exact ⟨mu, hmu, double_le_trans (double_le_of_not_lt hmufin htfin hnlt)
      (double_le_of_not_lt htfin hwfin (hsmax t ht))⟩
  · rw [ucp_allocate]
    rw [if_neg (by omega)]
    simp only [he, hwin]
    rw [if_neg (by omega)]

/-- C19 on the two-thread example, at the first iteration (balance 2, one way
each, histograms 10, 5, 1, 0 and 1, 1, 1, 1): thread 0 has the utilities 5 and
3 for the increments 1 and 2, thread 1 has 1 and 1; thread 0 wins with the
increment 1. -/
theorem ucp_allocate_grants_max_utility_witness :
    (ucp_compute_max_mu 2 ucp_seeded_example 2).map
        (fun u1 => ((ucp_choose_winner 2 u1).1, u1.ways_req 0, u1.max_mu 0, u1.max_mu 1)) =
      some (0, 1, ⟨5, 1⟩, ⟨1, 1⟩) ∧
    ∃ (u1 : ucp_t) (w : Nat) (m : double),
      ucp_compute_max_mu 2 ucp_seeded_example 2 = some u1 ∧ u1.mod = ucp_seeded_example.mod ∧
      (ucp_choose_winner 2 u1).1 = (w : Int) ∧ w < 2 ∧
      ucp_seeded_example.mod.reachable_threads w = true ∧
      (∀ i : Nat, ucp_seeded_example.mod.reachable_threads i = false →
        u1.max_mu i = ucp_seeded_example.max_mu i) ∧
      1 ≤ u1.ways_req w ∧ u1.ways_req w ≤ 2 ∧
      ucp_mu ucp_seeded_example w (ucp_seeded_example.mod.cache.assigned_ways w)
        (ucp_seeded_example.mod.cache.assigned_ways w + u1.ways_req w) = some m ∧
      (∀ t : Nat, t < 2 → ucp_seeded_example.mod.reachable_threads t = true →
        ∀ k : Int, 1 ≤ k → k ≤ 2 →
          ∃ mu, ucp_mu ucp_seeded_example t (ucp_seeded_example.mod.cache.assigned_ways t)
              (ucp_seeded_example.mod.cache.assigned_ways t + k) = some mu ∧ double.le mu m) ∧
      ucp_allocate 2 (5 + 1) ucp_seeded_example 2 4 =
        if 2 - u1.ways_req w = 4 then
          some (u1.set_assigned_ways w (u1.mod.cache.assigned_ways w + u1.ways_req w))
        else
          ucp_allocate 2 5
            (u1.set_assigned_ways w (u1.mod.cache.assigned_ways w + u1.ways_req w))
            (2 - u1.ways_req w) (2 - u1.ways_req w) :=
  ⟨by decide!,
    ucp_allocate_grants_max_utility 2 5 ucp_seeded_example 2 4 (by decide!) (by decide!)
      0 1 ⟨5, 1⟩ (by decide) (by decide!) (by decide) (by decide!) (by decide)⟩

/-- C20: on a cache with at least one set and one way, a reachable thread, a
histogram for every reachable thread and no stale `ways_req` of an unreachable
thread (they are 0 from `ucp_create` on): if the sum of `used_ways` over the
reachable threads divided by `num_sets * assoc` is below 99/100,
`ucp_repartition` returns the state unchanged; if it is at least 99/100, the
call returns, whatever the histograms hold, every reachable thread has at
least one way, and the `ways_req` of the unreachable threads are still 0. -/
theorem ucp_repartition_warm_up_gate (nc nt : Nat) (ucp : ucp_t) (g : Nat)
    (hsets : 0 < ucp.mod.cache.num_sets) (hassoc : 0 < ucp.mod.cache.assoc)
    (hg : g < nc * nt) (hgr : ucp.mod.reachable_threads g = true)
    (hatd : ∀ i : Nat, i < nc * nt → ucp.mod.reachable_threads i = true →
      (ucp.mod.atd_per_thread i).isSome = true)
    (hreq0 : ∀ i : Nat, i < nc * nt → ucp.mod.reachable_threads i = false →
      ucp.ways_req i = 0) :
    (100 * sum_used_ways (nc * nt) ucp.mod <
        99 * ((ucp.mod.cache.num_sets : Int) * (ucp.mod.cache.assoc : Int)) →
      ucp_repartition nc nt ucp = some ucp) ∧
    (99 * ((ucp.mod.cache.num_sets : Int) * (ucp.mod.cache.assoc : Int)) ≤
        100 * sum_used_ways (nc * nt) ucp.mod →
      ∃ u', ucp_repartition nc nt ucp = some u' ∧
        (∀ i : Nat, i < nc * nt → ucp.mod.reachable_threads i = true →
          1 ≤ u'.mod.cache.assigned_ways i) ∧
        (∀ i : Nat, i < nc * nt → ucp.mod.reachable_threads i = false →
          u'.ways_req i = 0)) := by
  have hiff := cache_usage_lt_iff (nc * nt) ucp.mod hsets hassoc
  constructor
  · intro h
    unfold ucp_repartition
    simp only [hiff.2 h, if_true]
  · intro h
    have hgate : ¬ double.lt (cache_usage (nc * nt) ucp.mod) UCP_CACHE_TH := by
      intro hc
      have := hiff.1 hc
      omega
    obtain ⟨h1, h2, _, _, h5, h6⟩ := ucp_seed_spec ucp ucp.mod.cache.assoc (nc * nt)
    have h7 := ucp_seed_ways_req ucp ucp.mod.cache.assoc (nc * nt)
    obtain ⟨u, hu, hr, ho, hq⟩ := ucp_allocate_returns (nc * nt) g
      (ucp.mod.cache.assoc + 2) (ucp_seed (nc * nt) ucp ucp.mod.cache.assoc).1
      (ucp_seed (nc * nt) ucp ucp.mod.cache.assoc).2 ucp.mod.cache.assoc
      hg (by rw [h1]; exact hgr)
      (by intro i hi hri; rw [h1] at hri; rw [h2]; exact hatd i hi hri)
      (by intro i hi hri; rw [h1] at hri; rw [h7]; exact hreq0 i hi hri)
      (by intro i hi hri; rw [h1] at hri; rw [h5 i hi hri])
      (by
        rw [h6]
        split_ifs <;> omega)
    obtain ⟨hd1, _⟩ := ucp_decay_spec (nc * nt) u
    refine ⟨ucp_decay (nc * nt) u, ?_, ?_, ?_⟩
    · unfold ucp_repartition
      simp only [hgate, if_false, hu]
    · intro i hi hri
      rw [hd1]
      exact ho i hi (by rw [h1]; exact hri)
    · intro i hi hri
      have e : (ucp_decay (nc * nt) u).ways_req = u.ways_req :=
        ucp_decay_ways_req (ucp_halve (nc * nt)) (List.range (nc * nt)) u
      rw [e]
      exact hq i hi (by rw [h1]; exact hri)

/-- C20 on the two-thread, four-way example: with two blocks for each thread
the cache is full and the call gives three ways to thread 0 and one to thread
1; with one block for each thread the occupancy is 1/2 and the call returns
the state as it was. -/
theorem ucp_repartition_warm_up_gate_witness :
    ((ucp_repartition 1 2 ucp_fresh_example).map
        (fun u => (u.mod.cache.assigned_ways 0, u.mod.cache.assigned_ways 1)) = some (3, 1) ∧
      sum_used_ways (1 * 2) ucp_fresh_example.mod = 4 ∧
      sum_used_ways (1 * 2) ucp_cold_example.mod = 2) ∧
    (∃ u', ucp_repartition 1 2 ucp_fresh_example = some u' ∧
      (∀ i : Nat, i < 1 * 2 → ucp_fresh_example.mod.reachable_threads i = true →
        1 ≤ u'.mod.cache.assigned_ways i) ∧
      (∀ i : Nat, i < 1 * 2 → ucp_fresh_example.mod.reachable_threads i = false →
        u'.ways_req i = 0)) ∧
    ucp_repartition 1 2 ucp_cold_example = some ucp_cold_example :=
  ⟨by decide!,
    (ucp_repartition_warm_up_gate 1 2 ucp_fresh_example 0 (by decide) (by decide) (by decide)
      (by decide) (by decide!) (by decide!)).2 (by decide!),
    (ucp_repartition_warm_up_gate 1 2 ucp_cold_example 0 (by decide) (by decide) (by decide)
      (by decide) (by decide!) (by decide!)).1 (by decide!)⟩

/-! ## Lemmas on `cache_partitioning_handler` -/

/-! ### Rounding to the format of a `double` -/

/-- With enough fuel, `double.bits` counts the binary digits of a positive `n`. -/
theorem double_bits_spec : ∀ (fuel n : Nat), n ≤ fuel → n ≠ 0 →
    2 ^ (double.bits fuel n - 1) ≤ n ∧ n < 2 ^ double.bits fuel n ∧ 0 < double.bits fuel n := by
  intro fuel
  induction fuel with
  | zero =>
    intro n h1 h2
    omega
  | succ fuel ih =>
    intro n h1 h2
    rw [double.bits, if_neg h2]
    by_cases h0 : n / 2 = 0
    · have hn : n = 1 := by omega
      have hb : double.bits fuel (n / 2) = 0 := by
        rw [h0]
        cases fuel with
        | zero => rfl
        | succ f => rw [double.bits, if_pos rfl]
      rw [hb, hn]
      decide
    · obtain ⟨a, b, c⟩ := ih (n / 2) (by omega) h0
      refine ⟨?_, ?_, by omega⟩
      · rw [Nat.add_sub_cancel]
        have : 2 ^ double.bits fuel (n / 2) = 2 * 2 ^ (double.bits fuel (n / 2) - 1) := by
          rw [← pow_succ']
          congr 1
          omega
        omega
      · rw [pow_succ]
        omega

theorem double_log2_self_le (n : Nat) (h : n ≠ 0) : 2 ^ double.log2 n ≤ n :=
  (double_bits_spec n n le_rfl h).1

theorem double_lt_log2_self (n : Nat) (h : n ≠ 0) : n < 2 ^ (double.log2 n + 1) := by
  obtain ⟨_, b, c⟩ := double_bits_spec n n le_rfl h
  unfold double.log2
  rw [Nat.sub_add_cancel c]
  exact b

/-- A power of 2 with an integer exponent, as the quotient of two natural
powers. -/
theorem two_pow_toNat_div (e : Int) :
    (((2 ^ e.toNat : Nat) : ℚ)) / ((2 ^ (-e).toNat : Nat) : ℚ) = (2 : ℚ) ^ e := by
  obtain ⟨j, rfl | rfl⟩ := Int.eq_nat_or_neg e
  · simp
  · simp [zpow_neg]

theorem two_pow_toNat_le_iff (n d : Nat) (hd : 0 < d) (k : Int) :
    d * 2 ^ k.toNat ≤ n * 2 ^ (-k).toNat ↔ (2 : ℚ) ^ k ≤ (n : ℚ) / d := by
  have hdq : (0 : ℚ) < d := by exact_mod_cast hd
  have hp : (0 : ℚ) < ((2 ^ (-k).toNat : Nat) : ℚ) := by positivity
  rw [← two_pow_toNat_div k, div_le_div_iff₀ hp hdq]
  constructor
  · intro h
    have : ((d * 2 ^ k.toNat : Nat) : ℚ) ≤ ((n * 2 ^ (-k).toNat : Nat) : ℚ) := by exact_mod_cast h
    push_cast at this ⊢
    linarith
  · intro h
    have : ((d * 2 ^ k.toNat : Nat) : ℚ) ≤ ((n * 2 ^ (-k).toNat : Nat) : ℚ) := by
      push_cast at h ⊢
      linarith
    exact_mod_cast this

/-- The exponent `double.fl_exponent` puts the significand of `n / d` between
`2 ^ 52` and `2 ^ 53`. -/
theorem fl_exponent_spec (n d : Nat) (hn : 0 < n) (hd : 0 < d) :
    (2 : ℚ) ^ (double.fl_exponent n d + 52) ≤ (n : ℚ) / d ∧
      (n : ℚ) / d < (2 : ℚ) ^ (double.fl_exponent n d + 53) := by
  have hdq : (0 : ℚ) < d := by exact_mod_cast hd
  have hnq : (0 : ℚ) < n := by exact_mod_cast hn
  have h1 : (2 : ℚ) ^ (double.log2 n : Int) ≤ n := by
    rw [zpow_natCast]
    exact_mod_cast double_log2_self_le n (Nat.pos_iff_ne_zero.1 hn)
  have h2 : (n : ℚ) < (2 : ℚ) ^ ((double.log2 n : Int) + 1) := by
    rw [show ((double.log2 n : Int) + 1) = ((double.log2 n + 1 : Nat) : Int) from by push_cast; rfl,
      zpow_natCast]
    exact_mod_cast double_lt_log2_self n (Nat.pos_iff_ne_zero.1 hn)
  have h3 : (2 : ℚ) ^ (double.log2 d : Int) ≤ d := by
    rw [zpow_natCast]
    exact_mod_cast double_log2_self_le d (Nat.pos_iff_ne_zero.1 hd)
  have h4 : (d : ℚ) < (2 : ℚ) ^ ((double.log2 d : Int) + 1) := by
    rw [show ((double.log2 d : Int) + 1) = ((double.log2 d + 1 : Nat) : Int) from by push_cast; rfl,
      zpow_natCast]
    exact_mod_cast double_lt_log2_self d (Nat.pos_iff_ne_zero.1 hd)
  have h2ne : (2 : ℚ) ≠ 0 := by norm_num
  have hpos : ∀ z : Int, (0 : ℚ) < (2 : ℚ) ^ z := fun z => zpow_pos (by norm_num) z
  unfold double.fl_exponent
  simp only []
  split_ifs with h
  · rw [two_pow_toNat_le_iff n d hd] at h
    refine ⟨by simpa using h, ?_⟩
    rw [div_lt_iff₀ hdq]
    calc (n : ℚ) < (2 : ℚ) ^ ((double.log2 n : Int) + 1) := h2
      _ = (2 : ℚ) ^ ((double.log2 n : Int) - (double.log2 d : Int) - 52 + 53) *
            (2 : ℚ) ^ (double.log2 d : Int) := by
          rw [← zpow_add₀ h2ne]
          congr 1
          ring
      _ ≤ (2 : ℚ) ^ ((double.log2 n : Int) - (double.log2 d : Int) - 52 + 53) * d :=
          mul_le_mul_of_nonneg_left h3 (hpos _).le
  · rw [two_pow_toNat_le_iff n d hd, not_le] at h
    refine ⟨?_, ?_⟩
    · rw [le_div_iff₀ hdq]
      calc (2 : ℚ) ^ ((double.log2 n : Int) - (double.log2 d : Int) - 1 - 52 + 52) * d
          ≤ (2 : ℚ) ^ ((double.log2 n : Int) - (double.log2 d : Int) - 1 - 52 + 52) *
              (2 : ℚ) ^ ((double.log2 d : Int) + 1) :=
            mul_le_mul_of_nonneg_left h4.le (hpos _).le
        _ = (2 : ℚ) ^ (double.log2 n : Int) := by
            rw [← zpow_add₀ h2ne]
            congr 1
            ring
        _ ≤ n := h1
    · have e : (double.log2 n : Int) - (double.log2 d : Int) - 1 - 52 + 53 =
          (double.log2 n : Int) - (double.log2 d : Int) := by ring
      rw [e]
      exact h
theorem nat_div_mod_cast (N D : Nat) (hD : 0 < D) :
    (N : ℚ) / D = ((N / D : Nat) : ℚ) + ((N % D : Nat) : ℚ) / D := by
  have h : (N : ℚ) = D * ((N / D : Nat) : ℚ) + ((N % D : Nat) : ℚ) := by
    exact_mod_cast (Nat.div_add_mod N D).symm
  have hDq : (D : ℚ) ≠ 0 := by exact_mod_cast hD.ne'
  conv_lhs => rw [h]
  field_simp
  ring

/-- The significand is within one half of the scaled value. -/
theorem fl_significand_spec (n d : Nat) (hd : 0 < d) (e : Int) :
    |(double.fl_significand n d e : ℚ) - (n : ℚ) / d / (2 : ℚ) ^ e| ≤ 1 / 2 := by
  have hdq : (0 : ℚ) < d := by exact_mod_cast hd
  have hD : 0 < d * 2 ^ e.toNat := Nat.mul_pos hd (by positivity)
  have hDq : (0 : ℚ) < ((d * 2 ^ e.toNat : Nat) : ℚ) := by exact_mod_cast hD
  have hz : (n : ℚ) / d / (2 : ℚ) ^ e =
      ((n * 2 ^ (-e).toNat : Nat) : ℚ) / ((d * 2 ^ e.toNat : Nat) : ℚ) := by
    rw [← two_pow_toNat_div e]
    push_cast
    field_simp
  have hr := Nat.mod_lt (n * 2 ^ (-e).toNat) hD
  have hq := nat_div_mod_cast (n * 2 ^ (-e).toNat) (d * 2 ^ e.toNat) hD
  rw [hz, hq]
  unfold double.fl_significand
  simp only []
  generalize n * 2 ^ (-e).toNat / (d * 2 ^ e.toNat) = m at *
  generalize n * 2 ^ (-e).toNat % (d * 2 ^ e.toNat) = r at *
  generalize d * 2 ^ e.toNat = D at *
  have hrq : (r : ℚ) < D := by exact_mod_cast hr
  have hr0 : (0 : ℚ) ≤ r := by positivity
  split_ifs with h
  · have h2 : (D : ℚ) ≤ 2 * r := by
      rcases h with h | ⟨h, _⟩
      · exact_mod_cast h.le
      · exact_mod_cast h.ge
    push_cast
    rw [abs_le]
    constructor
    · have : (r : ℚ) / D ≤ 1 := by
        rw [div_le_one hDq]
        exact hrq.le
      linarith
    · have : (1 : ℚ) / 2 ≤ (r : ℚ) / D := by
        rw [le_div_iff₀ hDq]
        linarith
      linarith
  · have h2 : 2 * (r : ℚ) ≤ D := by
      have : 2 * r ≤ D := by
        by_contra hc
        exact h (Or.inl (by omega))
      exact_mod_cast this
    rw [abs_le]
    constructor
    · have : (r : ℚ) / D ≤ 1 / 2 := by
        rw [div_le_iff₀ hDq]
        linarith
      linarith
    · have : (0 : ℚ) ≤ (r : ℚ) / D := by positivity
      linarith
/-- The rounding `double.fl` gives a finite number whose relative error is at
most `2 ^ -53`. -/
theorem double_fl_spec (a : double) (hd : a.den ≠ 0) :
    (double.fl a).den ≠ 0 ∧
      |(double.fl a).toRat - a.toRat| ≤ |a.toRat| / 2 ^ 53 := by
  by_cases hn : a.num = 0
  · have : double.fl a = a := by
      unfold double.fl
      rw [if_pos (Or.inr hn)]
    rw [this]
    refine ⟨hd, ?_⟩
    simp only [sub_self, abs_zero]
    positivity
  · have hnat : 0 < a.num.natAbs := Int.natAbs_pos.2 hn
    have hdpos : 0 < a.den := Nat.pos_of_ne_zero hd
    have hdq : (0 : ℚ) < a.den := by exact_mod_cast hdpos
    obtain ⟨he1, _⟩ := fl_exponent_spec a.num.natAbs a.den hnat hdpos
    have hs := fl_significand_spec a.num.natAbs a.den hdpos
      (double.fl_exponent a.num.natAbs a.den)
    have hpos : ∀ z : Int, (0 : ℚ) < (2 : ℚ) ^ z := fun z => zpow_pos (by norm_num) z
    have hfl : double.fl a =
        ⟨if a.num < 0 then
            -((double.fl_significand a.num.natAbs a.den (double.fl_exponent a.num.natAbs a.den) *
              2 ^ (double.fl_exponent a.num.natAbs a.den).toNat : Nat) : Int)
          else
            ((double.fl_significand a.num.natAbs a.den (double.fl_exponent a.num.natAbs a.den) *
              2 ^ (double.fl_exponent a.num.natAbs a.den).toNat : Nat) : Int),
          2 ^ (-(double.fl_exponent a.num.natAbs a.den)).toNat⟩ := by
      unfold double.fl
      rw [if_neg (by tauto)]
    generalize double.fl_exponent a.num.natAbs a.den = e at *
    generalize double.fl_significand a.num.natAbs a.den e = s at *
    rw [hfl]
    refine ⟨by positivity, ?_⟩
    -- the magnitudes
    have hmag : (((s * 2 ^ e.toNat : Nat) : Int) : ℚ) / ((2 ^ (-e).toNat : Nat) : ℚ) =
        (s : ℚ) * (2 : ℚ) ^ e := by
      rw [← two_pow_toNat_div e]
      push_cast
      ring
    have herr : |(s : ℚ) * (2 : ℚ) ^ e - (a.num.natAbs : ℚ) / a.den| ≤
        (a.num.natAbs : ℚ) / a.den / 2 ^ 53 := by
      have h1 : (s : ℚ) * (2 : ℚ) ^ e - (a.num.natAbs : ℚ) / a.den =
          ((s : ℚ) - (a.num.natAbs : ℚ) / a.den / (2 : ℚ) ^ e) * (2 : ℚ) ^ e := by
        field_simp
        ring
      rw [h1, abs_mul, abs_of_pos (hpos e)]
      have h2 : (2 : ℚ) ^ (e + 52) = (2 : ℚ) ^ e * 2 ^ 52 := by
        rw [zpow_add₀ (by norm_num)]
        norm_num
      rw [h2] at he1
      have h3 : |(s : ℚ) - (a.num.natAbs : ℚ) / a.den / (2 : ℚ) ^ e| * (2 : ℚ) ^ e ≤
          1 / 2 * (2 : ℚ) ^ e := mul_le_mul_of_nonneg_right hs (hpos e).le
      rw [le_div_iff₀ (by positivity)]
      nlinarith [hpos e]
    have habs : ((a.num.natAbs : Nat) : ℚ) = |(a.num : ℚ)| := by
      rw [Nat.cast_natAbs, Int.cast_abs]
    have hy : (0 : ℚ) < (a.num.natAbs : ℚ) / a.den :=
      div_pos (by exact_mod_cast hnat) hdq
    unfold double.toRat
    simp only []
    by_cases hneg : a.num < 0
    · rw [if_pos hneg]
      have hq : (a.num : ℚ) < 0 := by exact_mod_cast hneg
      rw [abs_of_neg hq] at habs
      have e1 : (a.num : ℚ) / a.den = -((a.num.natAbs : ℚ) / a.den) := by
        rw [habs]
        ring
      rw [e1, Int.cast_neg, neg_div, hmag, abs_neg, abs_of_pos hy,
        show -((s : ℚ) * (2 : ℚ) ^ e) - -((a.num.natAbs : ℚ) / a.den) =
          -((s : ℚ) * (2 : ℚ) ^ e - (a.num.natAbs : ℚ) / a.den) from by ring, abs_neg]
      exact herr
    · rw [if_neg hneg]
      have hq : (0 : ℚ) < a.num := by
        have : 0 < a.num := by omega
        exact_mod_cast this
      rw [abs_of_pos hq] at habs
      rw [← habs, hmag, abs_of_pos hy]
      exact herr
theorem double_toRat_ofInt (n : Int) : (double.ofInt n).toRat = n := by
  simp [double.toRat, double.ofInt]

theorem double_toRat_mul (a b : double) : (double.mul a b).toRat = a.toRat * b.toRat := by
  simp only [double.toRat, double.mul]
  push_cast
  rw [mul_div_mul_comm]

theorem double_toRat_eq_zero (a : double) (hd : a.den ≠ 0) : a.toRat = 0 ↔ a.num = 0 := by
  have hdq : (a.den : ℚ) ≠ 0 := by exact_mod_cast hd
  simp only [double.toRat, div_eq_zero_iff, hdq, or_false]
  exact_mod_cast Iff.rfl

/-- The quotient of finite numbers by a number other than 0. -/
theorem double_div_spec (a b : double) (ha : a.den ≠ 0) (hb : b.den ≠ 0) (hbn : b.num ≠ 0) :
    (double.div a b).den ≠ 0 ∧ (double.div a b).toRat = a.toRat / b.toRat := by
  have haq : (a.den : ℚ) ≠ 0 := by exact_mod_cast ha
  have hbq : (b.den : ℚ) ≠ 0 := by exact_mod_cast hb
  have hnq : (b.num : ℚ) ≠ 0 := by exact_mod_cast hbn
  unfold double.div
  rw [if_neg (by tauto)]
  by_cases hp : 0 < b.num
  · rw [if_pos hp]
    have e : ((b.num.toNat : Nat) : ℚ) = (b.num : ℚ) := by
      have : ((b.num.toNat : Nat) : Int) = b.num := Int.toNat_of_nonneg hp.le
      exact_mod_cast this
    refine ⟨Nat.mul_ne_zero ha (by omega), ?_⟩
    simp only [double.toRat]
    push_cast
    rw [e]
    field_simp
  · have hn : b.num < 0 := by omega
    rw [if_neg hp, if_pos hn]
    have e : (((-b.num).toNat : Nat) : ℚ) = -(b.num : ℚ) := by
      have : (((-b.num).toNat : Nat) : Int) = -b.num := Int.toNat_of_nonneg (by omega)
      exact_mod_cast this
    refine ⟨Nat.mul_ne_zero ha (by omega), ?_⟩
    simp only [double.toRat]
    push_cast
    rw [e]
    field_simp

/-- Rounding gives 0 only from 0. -/
theorem double_fl_num_eq_zero (a : double) (hd : a.den ≠ 0) :
    (double.fl a).num = 0 ↔ a.num = 0 := by
  obtain ⟨h1, h2⟩ := double_fl_spec a hd
  constructor
  · intro h
    rw [(double_toRat_eq_zero _ h1).2 h, zero_sub, abs_neg] at h2
    have h3 : |a.toRat| ≤ 0 := by
      have : (0 : ℚ) ≤ |a.toRat| := abs_nonneg _
      have h4 : |a.toRat| / 2 ^ 53 ≤ |a.toRat| / 2 := by
        apply div_le_div_of_nonneg_left this (by norm_num) (by norm_num)
      linarith
    exact (double_toRat_eq_zero a hd).1 (abs_eq_zero.1 (le_antisymm h3 (abs_nonneg _)))
  · intro h
    unfold double.fl
    rw [if_pos (Or.inr h)]
    exact h

/-- The rounding as a factor: `fl a = a * (1 + δ)` with `|δ| ≤ 2 ^ -53`. -/
theorem double_fl_factor (a : double) (hd : a.den ≠ 0) :
    ∃ δ : ℚ, |δ| ≤ 1 / 2 ^ 53 ∧ (double.fl a).toRat = a.toRat * (1 + δ) := by
  obtain ⟨_, h2⟩ := double_fl_spec a hd
  by_cases hz : a.toRat = 0
  · refine ⟨0, by simp, ?_⟩
    rw [hz, abs_zero, zero_div, sub_zero] at h2
    rw [hz, zero_mul]
    exact abs_eq_zero.1 (le_antisymm h2 (abs_nonneg _))
  · refine ⟨((double.fl a).toRat - a.toRat) / a.toRat, ?_, by field_simp⟩
    rw [abs_div, div_le_iff₀ (abs_pos.2 hz)]
    calc |(double.fl a).toRat - a.toRat| ≤ |a.toRat| / 2 ^ 53 := h2
      _ = 1 / 2 ^ 53 * |a.toRat| := by ring
theorem factor_bounds (δ : ℚ) (h : |δ| ≤ 1 / 2 ^ 53) :
    1 - 1 / 2 ^ 53 ≤ 1 + δ ∧ 1 + δ ≤ 1 + 1 / 2 ^ 53 := by
  obtain ⟨h1, h2⟩ := abs_le.1 h
  constructor <;> linarith

theorem product_bounds (a b la ha lb hb : ℚ) (hla : 0 < la) (hlb : 0 < lb)
    (h1 : la ≤ a ∧ a ≤ ha) (h2 : lb ≤ b ∧ b ≤ hb) :
    la * lb ≤ a * b ∧ a * b ≤ ha * hb :=
  ⟨mul_le_mul h1.1 h2.1 hlb.le (hla.le.trans h1.1),
    mul_le_mul h1.2 h2.2 (hlb.le.trans h2.1) ((hla.le.trans h1.1).trans h1.2)⟩

/-- Six roundings change a quotient by a factor within `2 ^ -50` of 1. -/
theorem rounding_factor_bounds (δ1 δ2 δ3 δ4 δ5 δ6 : ℚ)
    (h1 : |δ1| ≤ 1 / 2 ^ 53) (h2 : |δ2| ≤ 1 / 2 ^ 53) (h3 : |δ3| ≤ 1 / 2 ^ 53)
    (h4 : |δ4| ≤ 1 / 2 ^ 53) (h5 : |δ5| ≤ 1 / 2 ^ 53) (h6 : |δ6| ≤ 1 / 2 ^ 53) :
    1 - 1 / 2 ^ 50 ≤
        (1 + δ4) * (1 + δ5) * (1 + δ6) * (1 + δ2) / ((1 + δ1) * (1 + δ3)) ∧
      (1 + δ4) * (1 + δ5) * (1 + δ6) * (1 + δ2) / ((1 + δ1) * (1 + δ3)) ≤ 1 + 1 / 2 ^ 50 := by
  have hlo : (0 : ℚ) < 1 - 1 / 2 ^ 53 := by norm_num
  have b1 := factor_bounds δ1 h1
  have b2 := factor_bounds δ2 h2
  have b3 := factor_bounds δ3 h3
  have b4 := factor_bounds δ4 h4
  have b5 := factor_bounds δ5 h5
  have b6 := factor_bounds δ6 h6
  have p45 := product_bounds _ _ _ _ _ _ hlo hlo b4 b5
  have p456 := product_bounds _ _ _ _ _ _ (mul_pos hlo hlo) hlo p45 b6
  have pn := product_bounds _ _ _ _ _ _ (mul_pos (mul_pos hlo hlo) hlo) hlo p456 b2
  have pd := product_bounds _ _ _ _ _ _ hlo hlo b1 b3
  have hdpos : (0 : ℚ) < (1 + δ1) * (1 + δ3) := lt_of_lt_of_le (mul_pos hlo hlo) pd.1
  constructor
  · rw [le_div_iff₀ hdpos]
    calc (1 - 1 / 2 ^ 50) * ((1 + δ1) * (1 + δ3))
        ≤ (1 - 1 / 2 ^ 50) * ((1 + 1 / 2 ^ 53) * (1 + 1 / 2 ^ 53)) :=
          mul_le_mul_of_nonneg_left pd.2 (by norm_num)
      _ ≤ (1 - 1 / 2 ^ 53) * (1 - 1 / 2 ^ 53) * (1 - 1 / 2 ^ 53) * (1 - 1 / 2 ^ 53) := by
          norm_num
      _ ≤ _ := pn.1
  · rw [div_le_iff₀ hdpos]
    calc (1 + δ4) * (1 + δ5) * (1 + δ6) * (1 + δ2)
        ≤ (1 + 1 / 2 ^ 53) * (1 + 1 / 2 ^ 53) * (1 + 1 / 2 ^ 53) * (1 + 1 / 2 ^ 53) := pn.2
      _ ≤ (1 + 1 / 2 ^ 50) * ((1 - 1 / 2 ^ 53) * (1 - 1 / 2 ^ 53)) := by norm_num
      _ ≤ (1 + 1 / 2 ^ 50) * ((1 + δ1) * (1 + δ3)) :=
          mul_le_mul_of_nonneg_left pd.1 (by norm_num)

/-- The rate is a finite number, and it is 0 exactly when the metric is 0. -/
theorem cache_partitioning_rate_spec (m c : Int) (hc : c ≠ 0) :
    (cache_partitioning_rate m c).den ≠ 0 ∧
      ((cache_partitioning_rate m c).num = 0 ↔ m = 0) := by
  have hM := double_fl_spec (double.ofInt m) (by simp [double.ofInt])
  have hC := double_fl_spec (double.ofInt c) (by simp [double.ofInt])
  have hCn : (double.fl (double.ofInt c)).num ≠ 0 := by
    rw [Ne, double_fl_num_eq_zero _ (by simp [double.ofInt])]
    exact hc
  have hD := double_div_spec _ _ hM.1 hC.1 hCn
  unfold cache_partitioning_rate
  refine ⟨(double_fl_spec _ hD.1).1, ?_⟩
  rw [double_fl_num_eq_zero _ hD.1, ← double_toRat_eq_zero _ hD.1, hD.2, div_eq_zero_iff,
    double_toRat_eq_zero _ hM.1, double_toRat_eq_zero _ hC.1,
    double_fl_num_eq_zero _ (by simp [double.ofInt])]
  simp only [hCn, or_false]
  rfl

/-- The value of the estimate before its fraction is discarded: the exact
quotient times a factor within `2 ^ -50` of 1. -/
theorem cache_partitioning_estimate_value (I m c : Int) (hc : c ≠ 0) (hm : m ≠ 0) :
    (double.fl (double.div
        (double.fl (double.mul ⟨3, 4⟩ (double.fl (double.ofInt (I - m)))))
        (cache_partitioning_rate m c))).den ≠ 0 ∧
    ∃ ρ : ℚ, 1 - 1 / 2 ^ 50 ≤ ρ ∧ ρ ≤ 1 + 1 / 2 ^ 50 ∧
      (double.fl (double.div
        (double.fl (double.mul ⟨3, 4⟩ (double.fl (double.ofInt (I - m)))))
        (cache_partitioning_rate m c))).toRat =
      ((3 * (I - m) * c : Int) : ℚ) / ((4 * m : Int) : ℚ) * ρ := by
  have h1 : (double.ofInt m).den ≠ 0 := by simp [double.ofInt]
  have h2 : (double.ofInt c).den ≠ 0 := by simp [double.ofInt]
  have h4 : (double.ofInt (I - m)).den ≠ 0 := by simp [double.ofInt]
  have hM := double_fl_spec (double.ofInt m) h1
  have hC := double_fl_spec (double.ofInt c) h2
  have hCn : (double.fl (double.ofInt c)).num ≠ 0 := by
    rw [Ne, double_fl_num_eq_zero _ h2]
    exact hc
  have hD := double_div_spec _ _ hM.1 hC.1 hCn
  obtain ⟨hQd, hQn⟩ := cache_partitioning_rate_spec m c hc
  have hQn' : (cache_partitioning_rate m c).num ≠ 0 := fun h => hm (hQn.1 h)
  have hX := double_fl_spec (double.ofInt (I - m)) h4
  have hA0 : (double.mul ⟨3, 4⟩ (double.fl (double.ofInt (I - m)))).den ≠ 0 :=
    Nat.mul_ne_zero (by decide) hX.1
  have hA := double_fl_spec _ hA0
  have hD2 := double_div_spec _ _ hA.1 hQd hQn'
  refine ⟨(double_fl_spec _ hD2.1).1, ?_⟩
  obtain ⟨δ1, b1, e1⟩ := double_fl_factor _ h1
  obtain ⟨δ2, b2, e2⟩ := double_fl_factor _ h2
  obtain ⟨δ3, b3, e3⟩ := double_fl_factor _ hD.1
  obtain ⟨δ4, b4, e4⟩ := double_fl_factor _ h4
  obtain ⟨δ5, b5, e5⟩ := double_fl_factor _ hA0
  obtain ⟨δ6, b6, e6⟩ := double_fl_factor _ hD2.1
  have hb := rounding_factor_bounds δ1 δ2 δ3 δ4 δ5 δ6 b1 b2 b3 b4 b5 b6
  refine ⟨_, hb.1, hb.2, ?_⟩
  have f1 := (factor_bounds δ1 b1).1
  have f3 := (factor_bounds δ3 b3).1
  have hf1 : (1 + δ1) ≠ 0 := by
    have : (0 : ℚ) < 1 - 1 / 2 ^ 53 := by norm_num
    linarith
  have hf3 : (1 + δ3) ≠ 0 := by
    have : (0 : ℚ) < 1 - 1 / 2 ^ 53 := by norm_num
    linarith
  have hmq : (m : ℚ) ≠ 0 := by exact_mod_cast hm
  have hcq : (c : ℚ) ≠ 0 := by exact_mod_cast hc
  have hrate : (cache_partitioning_rate m c).toRat =
      (m : ℚ) * (1 + δ1) / ((c : ℚ) * (1 + δ2)) * (1 + δ3) := by
    unfold cache_partitioning_rate
    rw [e3, hD.2, e1, e2, double_toRat_ofInt, double_toRat_ofInt]
  rw [e6, hD2.2, e5, double_toRat_mul, e4, double_toRat_ofInt, hrate]
  have h34 : (⟨3, 4⟩ : double).toRat = 3 / 4 := by
    simp [double.toRat]
  rw [h34]
  have f2 := (factor_bounds δ2 b2).1
  have hf2 : (1 + δ2) ≠ 0 := by
    have : (0 : ℚ) < 1 - 1 / 2 ^ 53 := by norm_num
    linarith
  push_cast
  field_simp
  ring
/-- The whole part of a fraction: `Int.tdiv` discards the fraction towards 0. -/
theorem tdiv_whole_part (a b : Int) (hb : b ≠ 0) :
    (0 ≤ (a : ℚ) / b ∧ ((Int.tdiv a b : Int) : ℚ) ≤ (a : ℚ) / b ∧
        (a : ℚ) / b < ((Int.tdiv a b : Int) : ℚ) + 1) ∨
      ((a : ℚ) / b ≤ 0 ∧ (a : ℚ) / b ≤ ((Int.tdiv a b : Int) : ℚ) ∧
        ((Int.tdiv a b : Int) : ℚ) < (a : ℚ) / b + 1) := by
  have key : ∀ (x y : Int), 0 ≤ x → 0 < y →
      0 ≤ (x : ℚ) / y ∧ ((Int.tdiv x y : Int) : ℚ) ≤ (x : ℚ) / y ∧
        (x : ℚ) / y < ((Int.tdiv x y : Int) : ℚ) + 1 := by
    intro x y hx hy
    have hyq : (0 : ℚ) < y := by exact_mod_cast hy
    have hxq : (0 : ℚ) ≤ x := by exact_mod_cast hx
    rw [Int.tdiv_eq_ediv hx hy.le]
    refine ⟨div_nonneg hxq hyq.le, ?_, ?_⟩
    · rw [le_div_iff₀ hyq]
      exact_mod_cast Int.ediv_mul_le x hy.ne'
    · rw [div_lt_iff₀ hyq]
      have := Int.lt_ediv_add_one_mul_self x hy
      exact_mod_cast this
  rcases lt_or_gt_of_ne hb with hneg | hpos
  · rcases le_or_lt 0 a with ha | ha
    · -- a ≥ 0, b < 0
      obtain ⟨k1, k2, k3⟩ := key a (-b) ha (by omega)
      right
      rw [show Int.tdiv a b = -Int.tdiv a (-b) by rw [Int.tdiv_neg, neg_neg]]
      rw [show (a : ℚ) / b = -((a : ℚ) / ((-b : Int) : ℚ)) by push_cast; rw [div_neg, neg_neg]]
      push_cast at k1 k2 k3 ⊢
      refine ⟨by linarith, by linarith, by linarith⟩
    · -- a < 0, b < 0
      obtain ⟨k1, k2, k3⟩ := key (-a) (-b) (by omega) (by omega)
      left
      rw [show Int.tdiv a b = Int.tdiv (-a) (-b) by rw [Int.tdiv_neg, Int.neg_tdiv, neg_neg]]
      rw [show (a : ℚ) / b = ((-a : Int) : ℚ) / ((-b : Int) : ℚ) by push_cast; rw [neg_div_neg_eq]]
      exact ⟨k1, k2, k3⟩
  · rcases le_or_lt 0 a with ha | ha
    · left
      exact key a b ha hpos
    · obtain ⟨k1, k2, k3⟩ := key (-a) b (by omega) hpos
      right
      rw [show Int.tdiv a b = -Int.tdiv (-a) b by rw [Int.neg_tdiv, neg_neg]]
      rw [show (a : ℚ) / b = -(((-a : Int) : ℚ) / (b : ℚ)) by push_cast; rw [neg_div, neg_neg]]
      push_cast at k1 k2 k3 ⊢
      refine ⟨by linarith, by linarith, by linarith⟩

/-- Two fractions no more than 1 apart have whole parts no more than 1
apart. -/
theorem tdiv_close (a b x y : Int) (hb : b ≠ 0) (hy : y ≠ 0)
    (h : |(a : ℚ) / b - (x : ℚ) / y| ≤ 1) :
    |Int.tdiv a b - Int.tdiv x y| ≤ 1 := by
  obtain ⟨h1, h2⟩ := abs_le.1 h
  have one : ∀ (a b x y : Int), b ≠ 0 → y ≠ 0 → (a : ℚ) / b ≤ (x : ℚ) / y + 1 →
      Int.tdiv a b ≤ Int.tdiv x y + 1 := by
    intro a b x y hb hy h
    have hlt : ((Int.tdiv a b : Int) : ℚ) < ((Int.tdiv x y : Int) : ℚ) + 2 := by
      rcases tdiv_whole_part a b hb with ⟨p1, p2, p3⟩ | ⟨p1, p2, p3⟩ <;>
        rcases tdiv_whole_part x y hy with ⟨q1, q2, q3⟩ | ⟨q1, q2, q3⟩ <;> linarith
    have : Int.tdiv a b < Int.tdiv x y + 2 := by exact_mod_cast hlt
    omega
  have u1 := one a b x y hb hy (by linarith)
  have u2 := one x y a b hy hb (by linarith)
  rw [abs_le]
  constructor <;> omega

/-- The estimate of the handler and the whole part of the exact quotient
differ by no more than 1 when the estimate fits an `int`. -/
theorem cache_partitioning_estimate_accuracy (I m c : Int)
    (h : -(2 : Int) ^ 31 ≤ cache_partitioning_estimate I m c ∧
      cache_partitioning_estimate I m c < (2 : Int) ^ 31) :
    |cache_partitioning_estimate I m c - cache_partitioning_exact_estimate I m c| ≤ 1 := by
  unfold cache_partitioning_estimate cache_partitioning_exact_estimate at *
  by_cases hz : c = 0 ∨ m = 0
  · rw [if_pos hz, if_pos hz]
    simp
  · rw [if_neg hz] at h ⊢
    rw [if_neg hz]
    have hc : c ≠ 0 := fun e => hz (Or.inl e)
    have hm : m ≠ 0 := fun e => hz (Or.inr e)
    obtain ⟨hd, ρ, r1, r2, hv⟩ := cache_partitioning_estimate_value I m c hc hm
    simp only [] at h ⊢
    generalize double.fl (double.div
        (double.fl (double.mul ⟨3, 4⟩ (double.fl (double.ofInt (I - m)))))
        (cache_partitioning_rate m c)) = R at *
    have hdi : (R.den : Int) ≠ 0 := by exact_mod_cast hd
    have h4m : 4 * m ≠ 0 := by omega
    apply tdiv_close _ _ _ _ hdi h4m
    have hR : (R.num : ℚ) / ((R.den : Int) : ℚ) = R.toRat := by
      unfold double.toRat
      norm_cast
    rw [hR, hv]
    -- the size of the exact quotient
    have hT := tdiv_whole_part R.num (R.den : Int) hdi
    rw [hR] at hT
    have hlo : ((-(2 : Int) ^ 31 : Int) : ℚ) ≤ ((Int.tdiv R.num (R.den : Int) : Int) : ℚ) := by
      exact_mod_cast h.1
    have hhi : ((Int.tdiv R.num (R.den : Int) : Int) : ℚ) < (((2 : Int) ^ 31 : Int) : ℚ) := by
      exact_mod_cast h.2
    push_cast at hlo hhi
    have hRabs : |R.toRat| ≤ 2 ^ 31 + 1 := by
      rw [abs_le]
      rcases hT with ⟨p1, p2, p3⟩ | ⟨p1, p2, p3⟩ <;> constructor <;> linarith
    set V : ℚ := ((3 * (I - m) * c : Int) : ℚ) / ((4 * m : Int) : ℚ) with hV
    have hVabs : |V| ≤ 2 ^ 32 := by
      have hρ : (0 : ℚ) < ρ := by
        have : (0 : ℚ) < 1 - 1 / 2 ^ 50 := by norm_num
        linarith
      rw [hv, abs_mul, abs_of_pos hρ] at hRabs
      have : |V| * (1 - 1 / 2 ^ 50) ≤ |V| * ρ :=
        mul_le_mul_of_nonneg_left r1 (abs_nonneg _)
      have h3 : |V| * (1 - 1 / 2 ^ 50) ≤ 2 ^ 31 + 1 := le_trans this hRabs
      have h5 : |V| * (1 - 1 / 2 ^ 50) ≤ 2 ^ 32 * (1 - 1 / 2 ^ 50) := by
        refine le_trans h3 ?_
        norm_num
      exact le_of_mul_le_mul_right h5 (by norm_num)
    rw [show V * ρ - V = V * (ρ - 1) by ring, abs_mul]
    have hρ1 : |ρ - 1| ≤ 1 / 2 ^ 50 := by
      rw [abs_le]
      constructor <;> linarith
    calc |V| * |ρ - 1| ≤ 2 ^ 32 * (1 / 2 ^ 50) :=
          mul_le_mul hVabs hρ1 (abs_nonneg _) (by norm_num)
      _ ≤ 1 := by norm_num
/-- The prediction of the handler is the estimate with its fraction discarded,
clamped; it is undefined when the estimate does not fit an `int`. -/
theorem cache_partitioning_backoff_eq (I m c : Int) :
    cache_partitioning_backoff I m c =
      if -(2 : Int) ^ 31 ≤ cache_partitioning_estimate I m c ∧
          cache_partitioning_estimate I m c < (2 : Int) ^ 31 then
        some (min (max (cache_partitioning_estimate I m c) min_backoff) max_backoff)
      else none := by
  have hfold : double.fl (double.div (double.fl (double.ofInt m))
      (double.fl (double.ofInt c))) = cache_partitioning_rate m c := rfl
  unfold cache_partitioning_backoff cache_partitioning_estimate
  simp only [hfold]
  by_cases hc : c = 0
  · subst hc
    simp only [ne_eq, not_true_eq_false, if_false, true_or, if_true]
    rw [if_neg (by decide), if_pos (by decide)]
    rfl
  · obtain ⟨hrd, hrn⟩ := cache_partitioning_rate_spec m c hc
    by_cases hm : m = 0
    · have hz : ¬ (cache_partitioning_rate m c).nonzero := by
        unfold double.nonzero
        rw [not_or, not_not]
        exact ⟨hrd, hrn.2 hm⟩
      simp only [ne_eq, hc, not_false_eq_true, if_true, hm, or_true]
      rw [hm] at hz
      rw [if_neg hz, if_pos (by decide)]
      rfl
    · have hnz : (cache_partitioning_rate m c).nonzero :=
        Or.inr fun h => hm (hrn.1 h)
      obtain ⟨hd, -⟩ := cache_partitioning_estimate_value I m c hc hm
      simp only [ne_eq, hc, not_false_eq_true, if_true, hm, or_self, if_false]
      rw [if_pos hnz]
      unfold double.to_int
      rw [if_neg hd]
      simp only []
      split_ifs <;> rfl

theorem cache_partitioning_reports_events (nc nt : Nat) (env : partitioning_env) :
    ∀ e ∈ cache_partitioning_reports nc nt env,
      e ≠ partitioning_event.execute_callback ∧ e ≠ partitioning_event.free_callback ∧
      e.is_schedule = false := by
  intro e he
  unfold cache_partitioning_reports at he
  rcases List.mem_append.1 he with h | h
  · obtain ⟨t, _, rfl⟩ := List.mem_map.1 h
    exact ⟨by simp, by simp, rfl⟩
  · rw [List.mem_singleton.1 h]
    exact ⟨by simp, by simp, rfl⟩

/-- What the handler returns: `b` is the prediction for an instruction- or
eviction-based interval, `p` the state the algorithm returns when it is
invoked. -/
theorem cache_partitioning_handler_spec {P : Type} (nc nt : Nat) (execute : P → Option P)
    (env : partitioning_env) (w : cache_partitioning_t P) (p : P) (b : Int)
    (hkind : env.interval_kind ≠ interval_kind_t.interval_kind_invalid)
    (hexec : cache_partitioning_elapsed nc nt env w → execute w.partitioning = some p)
    (hb : env.interval_kind ≠ interval_kind_t.interval_kind_cycles →
      cache_partitioning_backoff env.interval (cache_partitioning_metric nc nt env w)
        (env.esim_cycle - w.last_esim_cycle) = some b)
    (hbc : env.interval_kind = interval_kind_t.interval_kind_cycles → b = w.backoff) :
    cache_partitioning_handler nc nt execute env w =
      some
        (if cache_partitioning_elapsed nc nt env w then
          (({ partitioning := p
              last_esim_cycle :=
                if env.interval_kind = interval_kind_t.interval_kind_cycles then env.esim_cycle
                else w.last_esim_cycle
              last_uinsts :=
                if env.interval_kind = interval_kind_t.interval_kind_instructions then
                  cache_partitioning_uinsts nc nt env
                else w.last_uinsts
              last_evictions :=
                if env.interval_kind = interval_kind_t.interval_kind_evictions then env.evictions
                else w.last_evictions
              backoff := b } : cache_partitioning_t P),
            partitioning_event.execute_callback ::
              (cache_partitioning_reports nc nt env ++
                cache_partitioning_schedule_next env ({ w with backoff := b })))
        else
          (({ w with backoff := b } : cache_partitioning_t P),
            cache_partitioning_schedule_next env ({ w with backoff := b }))) := by
  cases hk : env.interval_kind with
  | interval_kind_invalid => exact absurd hk hkind
  | interval_kind_cycles =>
    have hel : cache_partitioning_elapsed nc nt env w := Or.inl hk
    have hbw := hbc hk
    subst hbw
    rw [if_pos hel]
    unfold cache_partitioning_handler cache_partitioning_interval cache_partitioning_store
    simp only [hk, hexec hel]
    simp only [if_true, reduceCtorEq, if_false]
    congr 2
  | interval_kind_instructions =>
    have hb' := hb (by rw [hk]; decide)
    have hmet : cache_partitioning_metric nc nt env w =
        cache_partitioning_uinsts nc nt env - w.last_uinsts := by
      unfold cache_partitioning_metric
      rw [hk]
    rw [hmet] at hb'
    unfold cache_partitioning_handler cache_partitioning_interval
    simp only [hk, hb', Option.map_some']
    by_cases hel : cache_partitioning_elapsed nc nt env w
    · have hlt : ¬ cache_partitioning_uinsts nc nt env - w.last_uinsts < env.interval := by
        rcases hel with h | h
        · rw [hk] at h
          cases h
        · rw [hmet] at h
          exact h
      rw [if_pos hel]
      simp only [hlt, not_false_eq_true, decide_True, hexec hel]
      unfold cache_partitioning_store
      simp only [hk, reduceCtorEq, if_false, if_true]
      congr 2
    · have hlt : cache_partitioning_uinsts nc nt env - w.last_uinsts < env.interval := by
        by_contra hc
        exact hel (Or.inr (by rw [hmet]; exact hc))
      rw [if_neg hel]
      simp only [hlt, not_true_eq_false, decide_False]
  | interval_kind_evictions =>
    have hb' := hb (by rw [hk]; decide)
    have hmet : cache_partitioning_metric nc nt env w = env.evictions - w.last_evictions := by
      unfold cache_partitioning_metric
      rw [hk]
    rw [hmet] at hb'
    unfold cache_partitioning_handler cache_partitioning_interval
    simp only [hk, hb', Option.map_some']
    by_cases hel : cache_partitioning_elapsed nc nt env w
    · have hlt : ¬ env.evictions - w.last_evictions < env.interval := by
        rcases hel with h | h
        · rw [hk] at h
          cases h
        · rw [hmet] at h
          exact h
      rw [if_pos hel]
      simp only [hlt, not_false_eq_true, decide_True, hexec hel]
      unfold cache_partitioning_store
      simp only [hk, reduceCtorEq, if_false, if_true]
      congr 2
    · have hlt : env.evictions - w.last_evictions < env.interval := by
        by_contra hc
        exact hel (Or.inr (by rw [hmet]; exact hc))
      rw [if_neg hel]
      simp only [hlt, not_true_eq_false, decide_False]

/-! ## The sets a call does not name -/

theorem put_set_other (c : cache_t) (s s' : Nat) (x : cache_set_t) (h : s' ≠ s) :
    (c.put_set s x).sets s' = c.sets s' := by
  unfold cache_t.put_set
  exact Function.update_noteq h _ _

theorem modify_block_other (c : cache_t) (s w s' : Nat) (f : cache_block_t → cache_block_t)
    (h : s' ≠ s) : (c.modify_block s w f).sets s' = c.sets s' := by
  unfold cache_t.modify_block
  exact put_set_other c s s' _ h

theorem cache_set_thread_id_other (nt : Nat) (c c' : cache_t) (s w : Nat)
    (ci : mod_client_info_t) (h : cache_set_thread_id nt c s w ci = some c') (s' : Nat)
    (hs : s' ≠ s) : c'.sets s' = c.sets s' := by
  unfold cache_set_thread_id at h
  dsimp only at h
  split at h
  · cases h
  · rename_i c1 hc1
    have e : c1.sets = c.sets := by
      split_ifs at hc1
      · simp only [Option.some.injEq] at hc1
        rw [← hc1]
      · simp only [Option.some.injEq] at hc1
        rw [← hc1]
      · simp only [Option.some.injEq] at hc1
        rw [← hc1]
    split_ifs at h
    simp only [Option.some.injEq] at h
    rw [← h, modify_block_other _ _ _ _ _ hs, e]

theorem cache_set_block_tail_other (nc nt : Nat) (c1 c' : cache_t) (s w : Nat)
    (tag state : Int) (ci : Option mod_client_info_t)
    (h : (if (c1.modify_block s w
            (fun b => { b with tag := tag, state := state, prefetched := 0 })).policy =
          cache_policy_t.cache_policy_partitioned_lru then
        match ci with
        | none => none
        | some ci =>
          if 0 ≤ ci.core ∧ ci.core < (nc : Int) ∧ 0 ≤ ci.thread ∧ ci.thread < (nt : Int) then
            cache_set_thread_id nt
              (c1.modify_block s w
                (fun b => { b with tag := tag, state := state, prefetched := 0 })) s w ci
          else none
      else some (c1.modify_block s w
        (fun b => { b with tag := tag, state := state, prefetched := 0 }))) = some c')
    (s' : Nat) (hs : s' ≠ s) : c'.sets s' = c1.sets s' := by
  by_cases hp : (c1.modify_block s w
      (fun b => { b with tag := tag, state := state, prefetched := 0 })).policy =
      cache_policy_t.cache_policy_partitioned_lru
  · rw [if_pos hp] at h
    cases ci with
    | none => cases h
    | some ci =>
      dsimp only at h
      split_ifs at h
      rw [cache_set_thread_id_other nt _ c' s w _ h s' hs, modify_block_other _ _ _ _ _ hs]
  · rw [if_neg hp] at h
    simp only [Option.some.injEq] at h
    rw [← h, modify_block_other _ _ _ _ _ hs]

theorem cache_set_block_other (nc nt : Nat) (c c' : cache_t) (s w : Nat) (tag state : Int)
    (ci : Option mod_client_info_t) (h : cache_set_block nc nt c s w tag state ci = some c')
    (s' : Nat) (hs : s' ≠ s) : c'.sets s' = c.sets s' := by
  unfold cache_set_block at h
  by_cases hr : s < c.num_sets ∧ w < c.assoc
  · rw [if_pos hr] at h
    dsimp only at h
    by_cases hf : c.policy = cache_policy_t.cache_policy_fifo ∧ ((c.sets s).blocks w).tag ≠ tag
    · rw [if_pos hf] at h
      cases hu : cache_update_waylist (c.sets s) w cache_waylist_enum.cache_waylist_head with
      | none =>
        rw [hu] at h
        cases h
      | some x =>
        rw [hu] at h
        simp only [Option.map_some'] at h
        rw [cache_set_block_tail_other nc nt _ c' s w tag state ci h s' hs]
        exact put_set_other c s s' x hs
    · rw [if_neg hf] at h
      exact cache_set_block_tail_other nc nt c c' s w tag state ci h s' hs
  · rw [if_neg hr] at h
    cases h

theorem cache_set_transient_tag_other (nt : Nat) (c c' : cache_t) (s w : Nat) (tag : Int)
    (ci : mod_client_info_t) (h : cache_set_transient_tag nt c s w tag ci = some c')
    (s' : Nat) (hs : s' ≠ s) : c'.sets s' = c.sets s' := by
  unfold cache_set_transient_tag at h
  rw [cache_set_thread_id_other nt _ c' s w ci h s' hs, modify_block_other _ _ _ _ _ hs]

theorem cache_access_block_other (c c' : cache_t) (s w : Nat)
    (h : cache_access_block c s w = some c') (s' : Nat) (hs : s' ≠ s) :
    c'.sets s' = c.sets s' := by
  unfold cache_access_block at h
  by_cases hr : s < c.num_sets ∧ w < c.assoc
  · rw [if_pos hr] at h
    dsimp only at h
    split_ifs at h
    · cases hu : cache_update_waylist (c.sets s) w cache_waylist_enum.cache_waylist_head with
      | none =>
        rw [hu] at h
        cases h
      | some x =>
        rw [hu] at h
        simp only [Option.map_some', Option.some.injEq] at h
        rw [← h]
        exact put_set_other c s s' x hs
    · simp only [Option.some.injEq] at h
      rw [← h]
  · rw [if_neg hr] at h
    cases h

theorem cache_replace_select_sets (nc nt : Nat) (c : cache_t) (s : Nat) (t : Int)
    (r : cache_t × Int) (h : cache_replace_select nc nt c s t = some r) :
    r.1.sets = c.sets := by
  unfold cache_replace_select at h
  dsimp only at h
  split_ifs at h
  · split at h
    · cases h
    · simp only [Option.some.injEq] at h
      rw [← h]
    · simp only [Option.some.injEq] at h
      rw [← h]
  · split at h
    · cases h
    · simp only [Option.some.injEq] at h
      rw [← h]
    · simp only [Option.some.injEq] at h
      rw [← h]
  · simp only [Option.some.injEq] at h
    rw [← h]

theorem cache_replace_block_other (nc nt : Nat) (c : cache_t) (s : Nat)
    (ci : mod_client_info_t) (rnd : Nat) (r : cache_t × Int)
    (h : cache_replace_block nc nt c s ci rnd = some r) (s' : Nat) (hs : s' ≠ s) :
    r.1.sets s' = c.sets s' := by
  unfold cache_replace_block at h
  dsimp only at h
  split_ifs at h
  · cases hu : cache_update_waylist (c.sets s) (c.sets s).way_tail
        cache_waylist_enum.cache_waylist_head with
    | none =>
      rw [hu] at h
      cases h
    | some x =>
      rw [hu] at h
      simp only [Option.map_some', Option.some.injEq] at h
      rw [← h]
      exact put_set_other c s s' x hs
  · split at h
    · cases h
    · rename_i c1 way hsel
      have e := cache_replace_select_sets nc nt c s _ (c1, way) hsel
      split_ifs at h
      cases hu : cache_update_waylist (c1.sets s) way.toNat
          cache_waylist_enum.cache_waylist_head with
      | none =>
        rw [hu] at h
        cases h
      | some x =>
        rw [hu] at h
        simp only [Option.map_some', Option.some.injEq] at h
        rw [← h]
        show (c1.put_set s x).sets s' = _
        rw [put_set_other c1 s s' x hs, e]
  · simp only [Option.some.injEq] at h
    rw [← h]

/-! ## Partitioned LRU without quotas and LRU -/

theorem plru_lru_access (c1 c2 : cache_t) (h : plru_lru_related c1 c2) (s w : Nat) :
    (cache_access_block c1 s w = none ∧ cache_access_block c2 s w = none) ∨
    ∃ c1' c2', cache_access_block c1 s w = some c1' ∧ cache_access_block c2 s w = some c2' ∧
      plru_lru_related c1' c2' := by
  obtain ⟨hp1, hp2, hn, ha, hsets, hq, hwf⟩ := h
  by_cases hr : s < c2.num_sets ∧ w < c2.assoc
  · obtain ⟨l, hl⟩ := hwf s hr.1
    obtain ⟨s', he, hwf', _⟩ := cache_access_block_wf hr.1 hr.2 hl
    right
    refine ⟨c1.put_set s s', c2.put_set s s', ?_, he, hp1, hp2, hn, ha, ?_, hq,
      cache_wf_put_set hwf hwf'⟩
    · unfold cache_access_block at he ⊢
      rw [hn, ha, if_pos hr]
      rw [if_pos hr] at he
      simp only [hp1, hp2, hsets] at he ⊢
      simp only [decide_True, Bool.true_or, Bool.or_true, true_and, reduceCtorEq, decide_False,
        Bool.false_and, Bool.or_false, Bool.false_or] at he ⊢
      split_ifs at he ⊢ with hprev
      · cases hu : cache_update_waylist (c2.sets s) w cache_waylist_enum.cache_waylist_head with
        | none =>
          rw [hu] at he
          cases he
        | some x =>
          rw [hu] at he
          simp only [Option.map_some', Option.some.injEq] at he ⊢
          have hx : x = s' := by
            have := congrArg (fun c => c.sets s) he
            simpa [cache_t.put_set] using this
          rw [hx]
      · simp only [Option.some.injEq] at he ⊢
        have hx : c2.sets s = s' := by
          have := congrArg (fun c => c.sets s) he
          simpa [cache_t.put_set] using this
        unfold cache_t.put_set
        rw [← hx, ← hsets, Function.update_eq_self]
    · unfold cache_t.put_set
      show Function.update c1.sets s s' = Function.update c2.sets s s'
      rw [hsets]
  · left
    constructor
    · unfold cache_access_block
      rw [hn, ha, if_neg hr]
    · unfold cache_access_block
      rw [if_neg hr]

theorem plru_lru_replace (nc nt : Nat) (c1 c2 : cache_t) (h : plru_lru_related c1 c2)
    (s : Nat) (ci : mod_client_info_t) (rnd : Nat) :
    (cache_replace_block nc nt c1 s ci rnd = none ∧
      cache_replace_block nc nt c2 s ci rnd = none) ∨
    ∃ c1' c2' way, cache_replace_block nc nt c1 s ci rnd = some (c1', way) ∧
      cache_replace_block nc nt c2 s ci rnd = some (c2', way) ∧
      plru_lru_related c1' c2' := by
  obtain ⟨hp1, hp2, hn, ha, hsets, hq, hwf⟩ := h
  by_cases hs : s < c2.num_sets
  · obtain ⟨l, hl⟩ := hwf s hs
    obtain ⟨s2, he2, hwf2, _⟩ :=
      cache_replace_block_lru_wf nc nt ci rnd hs hl (Or.inl hp2)
    have hl1 : set_wf c1.assoc (c1.sets s) l := by
      rw [ha, hsets]
      exact hl
    obtain ⟨s1, he1, _, _⟩ :=
      cache_replace_block_plru_free_wf nc nt ci rnd (by rw [hn]; exact hs) hl1 hp1
        (Or.inr (hq _))
    -- both calls relink the same set in the same way
    have hs12 : s1 = s2 := by
      have htl := set_wf_tail_mem hl
      have hway : ((c2.sets s).blocks (c2.sets s).way_tail).way = (c2.sets s).way_tail :=
        hl.2.2.2.2.2 _ ((hl.2.1 _).1 htl)
      have e2 : cache_replace_block nc nt c2 s ci rnd =
          (cache_update_waylist (c2.sets s) (c2.sets s).way_tail
            cache_waylist_enum.cache_waylist_head).map
            (fun x => (c2.put_set s x, ((c2.sets s).way_tail : Int))) := by
        unfold cache_replace_block
        simp only [hs, if_true, hp2, true_or, hway]
      have hway1 : ((c1.sets s).blocks (c1.sets s).way_tail).way = (c1.sets s).way_tail := by
        rw [hsets]
        exact hway
      have e1 : cache_replace_block nc nt c1 s ci rnd =
          (cache_update_waylist (c1.sets s) (c1.sets s).way_tail
            cache_waylist_enum.cache_waylist_head).map
            (fun x => ((cache_scratch_cleared nc nt c1).put_set s x,
              ((c1.sets s).way_tail : Int))) := by
        have hsel : cache_replace_select nc nt c1 s (ci.core * nt + ci.thread)
            = some (cache_scratch_cleared nc nt c1, ((c1.sets s).way_tail : Int)) := by
          unfold cache_replace_select
          simp only [hway1, Int.toNat_ofNat]
          rw [if_neg]
          · rfl
          · rintro ⟨_, h2⟩
            exact h2 (hq _)
        unfold cache_replace_block
        have hne : ((c1.sets s).way_tail : Int) ≠ -1 := by omega
        have hp' : ¬ (c1.policy = cache_policy_t.cache_policy_lru ∨
            c1.policy = cache_policy_t.cache_policy_fifo) := by
          rw [hp1]
          decide
        have hs1 : s < c1.num_sets := by rw [hn]; exact hs
        simp only [hs1, if_true, hp', if_false, hp1, hsel, hne, Int.toNat_ofNat]
        rfl
      rw [hsets] at e1
      rw [e1] at he1
      rw [e2] at he2
      cases hu : cache_update_waylist (c2.sets s) (c2.sets s).way_tail
          cache_waylist_enum.cache_waylist_head with
      | none =>
        rw [hu] at he2
        cases he2
      | some x =>
        rw [hu] at he1 he2
        simp only [Option.map_some', Option.some.injEq, Prod.mk.injEq] at he1 he2
        have h1 : x = s1 := by
          have := congrArg (fun c => c.sets s) he1.1
          simpa [cache_t.put_set] using this
        have h2 : x = s2 := by
          have := congrArg (fun c => c.sets s) he2.1
          simpa [cache_t.put_set] using this
        rw [← h1, ← h2]
    right
    refine ⟨(cache_scratch_cleared nc nt c1).put_set s s1, c2.put_set s s2,
      ((c2.sets s).way_tail : Int), ?_, he2, hp1, hp2, hn, ha, ?_, hq,
      cache_wf_put_set hwf hwf2⟩
    · rw [he1, hsets]
    · unfold cache_t.put_set
      show Function.update c1.sets s s1 = Function.update c2.sets s s2
      rw [hsets, hs12]
  · left
    constructor
    · unfold cache_replace_block
      rw [hn]
      simp only [hs, if_false]
    · unfold cache_replace_block
      simp only [hs, if_false]

theorem plru_lru_step (nc nt : Nat) (c1 c2 : cache_t) (h : plru_lru_related c1 c2)
    (op : cache_op) (hop : op.is_access_or_replace = true) :
    (op.apply_way nc nt c1 = none ∧ op.apply_way nc nt c2 = none) ∨
    ∃ c1' c2' way, op.apply_way nc nt c1 = some (c1', way) ∧
      op.apply_way nc nt c2 = some (c2', way) ∧ plru_lru_related c1' c2' := by
  cases op with
  | set_block set way tag state ci => cases hop
  | set_transient_tag set way tag ci => cases hop
  | set_thread_id set way ci => cases hop
  | access_block set way =>
    rcases plru_lru_access c1 c2 h set way with ⟨h1, h2⟩ | ⟨c1', c2', h1, h2, hr⟩
    · left
      simp only [cache_op.apply_way, cache_op.apply, h1, h2, Option.map_none', and_self]
    · right
      exact ⟨c1', c2', none, by simp only [cache_op.apply_way, cache_op.apply, h1,
        Option.map_some'], by simp only [cache_op.apply_way, cache_op.apply, h2,
        Option.map_some'], hr⟩
  | replace_block set ci rnd =>
    rcases plru_lru_replace nc nt c1 c2 h set ci rnd with ⟨h1, h2⟩ | ⟨c1', c2', w, h1, h2, hr⟩
    · left
      simp only [cache_op.apply_way, h1, h2, Option.map_none', and_self]
    · right
      exact ⟨c1', c2', some w, by simp only [cache_op.apply_way, h1, Option.map_some'],
        by simp only [cache_op.apply_way, h2, Option.map_some'], hr⟩

theorem plru_lru_run (nc nt : Nat) (ops : List cache_op) :
    ∀ c1 c2 : cache_t, plru_lru_related c1 c2 →
      (∀ op ∈ ops, op.is_access_or_replace = true) →
      (cache_run_ways nc nt c1 ops = none ∧ cache_run_ways nc nt c2 ops = none) ∨
      ∃ c1' c2' ways, cache_run_ways nc nt c1 ops = some (c1', ways) ∧
        cache_run_ways nc nt c2 ops = some (c2', ways) ∧ plru_lru_related c1' c2' := by
  induction ops with
  | nil =>
    intro c1 c2 h _
    exact Or.inr ⟨c1, c2, [], rfl, rfl, h⟩
  | cons op rest ih =>
    intro c1 c2 h hops
    rcases plru_lru_step nc nt c1 c2 h op (hops op (List.mem_cons_self _ _)) with
      ⟨h1, h2⟩ | ⟨c1', c2', w, h1, h2, hr⟩
    · left
      simp only [cache_run_ways, h1, h2, and_self]
    · rcases ih c1' c2' hr (fun o ho => hops o (List.mem_cons_of_mem _ ho)) with
        ⟨h3, h4⟩ | ⟨d1, d2, ws, h3, h4, hr2⟩
      · left
        simp only [cache_run_ways, h1, h2, h3, h4, Option.map_none', and_self]
      · right
        exact ⟨d1, d2, w.toList ++ ws, by simp only [cache_run_ways, h1, h3, Option.map_some'],
          by simp only [cache_run_ways, h2, h4, Option.map_some'], hr2⟩

theorem lru_apply_way_returns (nc nt : Nat) (c2 : cache_t)
    (hp2 : c2.policy = cache_policy_t.cache_policy_lru) (hwf : cache_wf c2) (op : cache_op)
    (hop : op.is_access_or_replace = true)
    (hr : op.in_range nc nt c2.num_sets c2.assoc c2.policy) :
    op.apply_way nc nt c2 ≠ none := by
  cases op with
  | set_block set way tag state ci => cases hop
  | set_transient_tag set way tag ci => cases hop
  | set_thread_id set way ci => cases hop
  | access_block set way =>
    obtain ⟨hs, hw⟩ := hr
    obtain ⟨l, hl⟩ := hwf set hs
    obtain ⟨s', he, _, _⟩ := cache_access_block_wf hs hw hl
    simp only [cache_op.apply_way, cache_op.apply, he, Option.map_some', ne_eq, reduceCtorEq,
      not_false_eq_true]
  | replace_block set ci rnd =>
    obtain ⟨hs, _⟩ := hr
    obtain ⟨l, hl⟩ := hwf set hs
    obtain ⟨s', he, _, _⟩ := cache_replace_block_lru_wf nc nt ci rnd hs hl (Or.inl hp2)
    simp only [cache_op.apply_way, he, Option.map_some', ne_eq, reduceCtorEq,
      not_false_eq_true]

theorem plru_lru_run_returns (nc nt : Nat) (ops : List cache_op) :
    ∀ c1 c2 : cache_t, plru_lru_related c1 c2 →
      (∀ op ∈ ops, op.is_access_or_replace = true) →
      (∀ op ∈ ops, op.in_range nc nt c2.num_sets c2.assoc c2.policy) →
      ∃ c1' c2' ways, cache_run_ways nc nt c1 ops = some (c1', ways) ∧
        cache_run_ways nc nt c2 ops = some (c2', ways) ∧ plru_lru_related c1' c2' := by
  induction ops with
  | nil =>
    intro c1 c2 h _ _
    exact ⟨c1, c2, [], rfl, rfl, h⟩
  | cons op rest ih =>
    intro c1 c2 h hops hrange
    have hop := hops op (List.mem_cons_self _ _)
    have hne := lru_apply_way_returns nc nt c2 h.2.1 h.2.2.2.2.2.2 op hop
      (hrange op (List.mem_cons_self _ _))
    rcases plru_lru_step nc nt c1 c2 h op hop with ⟨_, h2⟩ | ⟨c1', c2', w, h1, h2, hr⟩
    · exact absurd h2 hne
    · have hshape : c2'.num_sets = c2.num_sets ∧ c2'.assoc = c2.assoc ∧
          c2'.policy = c2.policy := by
        cases op with
        | set_block set way tag state ci => cases hop
        | set_transient_tag set way tag ci => cases hop
        | set_thread_id set way ci => cases hop
        | access_block set way =>
          obtain ⟨hs, hw⟩ := hrange _ (List.mem_cons_self _ _)
          obtain ⟨l, hl⟩ := h.2.2.2.2.2.2 set hs
          obtain ⟨s', he, _, _⟩ := cache_access_block_wf hs hw hl
          simp only [cache_op.apply_way, cache_op.apply, he, Option.map_some',
            Option.some.injEq, Prod.mk.injEq] at h2
          rw [← h2.1]
          exact ⟨rfl, rfl, rfl⟩
        | replace_block set ci rnd =>
          obtain ⟨hs, _⟩ := hrange _ (List.mem_cons_self _ _)
          obtain ⟨l, hl⟩ := h.2.2.2.2.2.2 set hs
          obtain ⟨s', he, _, _⟩ :=
            cache_replace_block_lru_wf nc nt ci rnd hs hl (Or.inl h.2.1)
          simp only [cache_op.apply_way, he, Option.map_some', Option.some.injEq,
            Prod.mk.injEq] at h2
          rw [← h2.1]
          exact ⟨rfl, rfl, rfl⟩
      obtain ⟨d1, d2, ws, h3, h4, hr2⟩ := ih c1' c2' hr
        (fun o ho => hops o (List.mem_cons_of_mem _ ho))
        (fun o ho => by
          rw [hshape.1, hshape.2.1, hshape.2.2]
          exact hrange o (List.mem_cons_of_mem _ ho))
      exact ⟨d1, d2, w.toList ++ ws, by simp only [cache_run_ways, h1, h3, Option.map_some'],
        by simp only [cache_run_ways, h2, h4, Option.map_some'], hr2⟩

/-! ## The balances of the allocation loop -/

/-- One iteration of the loop at a state whose reachable threads have
histograms and whose unreachable threads have `ways_req` 0: the loop aborts, or
the winner's increment is 0 or in `1 .. balance`, and the state after the
iteration has the same properties. -/
theorem ucp_iteration_req (total : Nat) (ucp : ucp_t) (balance : Int)
    (hatd : ∀ i : Nat, i < total → ucp.mod.reachable_threads i = true →
      (ucp.mod.atd_per_thread i).isSome = true)
    (hreq0 : ∀ i : Nat, i < total → ucp.mod.reachable_threads i = false → ucp.ways_req i = 0) :
    ∃ u1, ucp_compute_max_mu total ucp balance = some u1 ∧
      ((ucp_choose_winner total u1).1 = -1 ∨
        ((ucp_choose_winner total u1).1 ≠ -1 ∧
          (u1.ways_req (ucp_choose_winner total u1).1 = 0 ∨
            (1 ≤ u1.ways_req (ucp_choose_winner total u1).1 ∧
              u1.ways_req (ucp_choose_winner total u1).1 ≤ balance)) ∧
          (∀ v : Int, ∀ i : Nat, i < total →
            (u1.set_assigned_ways (ucp_choose_winner total u1).1 v).mod.reachable_threads i
                = true →
            ((u1.set_assigned_ways (ucp_choose_winner total u1).1 v).mod.atd_per_thread
              i).isSome = true) ∧
          (∀ v : Int, ∀ i : Nat, i < total →
            (u1.set_assigned_ways (ucp_choose_winner total u1).1 v).mod.reachable_threads i
                = false →
            (u1.set_assigned_ways (ucp_choose_winner total u1).1 v).ways_req i = 0))) := by
  obtain ⟨u1, he, hmod, h1, h2⟩ := ucp_compute_max_mu_req ucp balance total hatd
  refine ⟨u1, he, ?_⟩
  obtain ⟨_, hsel, _⟩ := ucp_choose_winner_spec u1 total
  rcases hsel with hsel | ⟨t, ht, hsel⟩
  · left
    rw [hsel]
  · right
    rw [hsel]
    refine ⟨by show (t : Int) ≠ -1; omega, ?_, ?_, ?_⟩
    · show u1.ways_req (t : Int) = 0 ∨ _
      by_cases hr : ucp.mod.reachable_threads (t : Int) = true
      · exact (h1 t ht hr).2
      · have hf : ucp.mod.reachable_threads (t : Int) = false := by simpa using hr
        rw [h2 t hf]
        exact Or.inl (hreq0 t ht hf)
    · intro v i hi hri
      have hri' : ucp.mod.reachable_threads (i : Int) = true := by
        have : u1.mod.reachable_threads (i : Int) = true := hri
        rw [hmod] at this
        exact this
      show (u1.mod.atd_per_thread i).isSome = true
      rw [hmod]
      exact hatd i hi hri'
    · intro v i hi hri
      have hri' : ucp.mod.reachable_threads (i : Int) = false := by
        have : u1.mod.reachable_threads (i : Int) = false := hri
        rw [hmod] at this
        exact this
      show u1.ways_req i = 0
      rw [h2 i hri']
      exact hreq0 i hi hri'

/-- From an iteration that starts with `last_balance` equal to `balance`, every
iteration strictly decreases the balance or is the last one. -/
theorem ucp_allocate_balances_settled (total : Nat) (fuel : Nat) :
    ∀ (ucp : ucp_t) (balance : Int),
      (∀ i : Nat, i < total → ucp.mod.reachable_threads i = true →
        (ucp.mod.atd_per_thread i).isSome = true) →
      (∀ i : Nat, i < total → ucp.mod.reachable_threads i = false → ucp.ways_req i = 0) →
      ∀ (before after : List Int) (x y : Int),
        balance :: ucp_allocate_balances total fuel ucp balance balance =
          before ++ x :: y :: after →
        y < x ∨ (y = x ∧ after = []) := by
  induction fuel with
  | zero =>
    intro ucp balance _ _ before after x y h
    rw [ucp_allocate_balances] at h
    cases before with
    | nil => simp at h
    | cons a l =>
      simp only [List.cons_append, List.cons.injEq] at h
      have := h.2
      cases l <;> simp at this
  | succ fuel ih =>
    intro ucp balance hatd hreq0 before after x y h
    obtain ⟨u1, he, hw⟩ := ucp_iteration_req total ucp balance hatd hreq0
    rw [ucp_allocate_balances] at h
    have hnil : ∀ l : List Int, balance :: ([] : List Int) = l ++ x :: y :: after → False := by
      intro l hl
      cases l with
      | nil => simp at hl
      | cons a l' =>
        simp only [List.cons_append, List.cons.injEq] at hl
        have := hl.2
        cases l' <;> simp at this
    by_cases hbz : balance = 0
    · rw [if_pos hbz] at h
      exact (hnil _ h).elim
    · rw [if_neg hbz] at h
      simp only [he] at h
      rcases hw with hw | ⟨hne, hreq, hatd2, hreq2⟩
      · rw [if_pos hw] at h
        exact (hnil _ h).elim
      · rw [if_neg hne] at h
        by_cases hstop : balance - u1.ways_req (ucp_choose_winner total u1).1 = balance
        · rw [if_pos hstop] at h
          cases before with
          | nil =>
            simp only [List.nil_append, List.cons.injEq] at h
            obtain ⟨hx, hy, ha⟩ := h
            right
            exact ⟨by omega, ha.symm⟩
          | cons a l =>
            simp only [List.cons_append, List.cons.injEq] at h
            have := h.2
            cases l with
            | nil => simp at this
            | cons b l' =>
              simp only [List.cons_append, List.cons.injEq] at this
              have := this.2
              cases l' <;> simp at this
        · rw [if_neg hstop] at h
          cases before with
          | nil =>
            simp only [List.nil_append, List.cons.injEq] at h
            obtain ⟨hx, hy, _⟩ := h
            left
            omega
          | cons a l =>
            simp only [List.cons_append, List.cons.injEq] at h
            exact ih _ _ (hatd2 _) (hreq2 _) l after x y h.2

/-- The balances of the loop from any state: every iteration strictly decreases
the balance or is the last one, except that the first iteration may leave the
balance as it is and be followed by another when `last_balance` differs from
`balance`. -/
theorem ucp_allocate_balances_spec (total : Nat) (fuel : Nat) (ucp : ucp_t)
    (balance last : Int)
    (hatd : ∀ i : Nat, i < total → ucp.mod.reachable_threads i = true →
      (ucp.mod.atd_per_thread i).isSome = true)
    (hreq0 : ∀ i : Nat, i < total → ucp.mod.reachable_threads i = false → ucp.ways_req i = 0)
    (before after : List Int) (x y : Int)
    (h : balance :: ucp_allocate_balances total fuel ucp balance last =
      before ++ x :: y :: after) :
    y < x ∨ (y = x ∧ (after = [] ∨ (before = [] ∧ balance ≠ last))) := by
  cases fuel with
  | zero =>
    rw [ucp_allocate_balances] at h
    cases before with
    | nil => simp at h
    | cons a l =>
      simp only [List.cons_append, List.cons.injEq] at h
      have := h.2
      cases l <;> simp at this
  | succ fuel =>
    obtain ⟨u1, he, hw⟩ := ucp_iteration_req total ucp balance hatd hreq0
    rw [ucp_allocate_balances] at h
    have hnil : ∀ l : List Int, balance :: ([] : List Int) = l ++ x :: y :: after → False := by
      intro l hl
      cases l with
      | nil => simp at hl
      | cons a l' =>
        simp only [List.cons_append, List.cons.injEq] at hl
        have := hl.2
        cases l' <;> simp at this
    by_cases hbz : balance = 0
    · rw [if_pos hbz] at h
      exact (hnil _ h).elim
    · rw [if_neg hbz] at h
      simp only [he] at h
      rcases hw with hw | ⟨hne, hreq, hatd2, hreq2⟩
      · rw [if_pos hw] at h
        exact (hnil _ h).elim
      · rw [if_neg hne] at h
        by_cases hstop : balance - u1.ways_req (ucp_choose_winner total u1).1 = last
        · rw [if_pos hstop] at h
          cases before with
          | nil =>
            simp only [List.nil_append, List.cons.injEq] at h
            obtain ⟨hx, hy, ha⟩ := h
            rcases hreq with hreq | hreq
            · right
              exact ⟨by omega, Or.inl ha.symm⟩
            · left
              omega
          | cons a l =>
            simp only [List.cons_append, List.cons.injEq] at h
            have := h.2
            cases l with
            | nil => simp at this
            | cons b l' =>
              simp only [List.cons_append, List.cons.injEq] at this
              have := this.2
              cases l' <;> simp at this
        · rw [if_neg hstop] at h
          cases before with
          | nil =>
            simp only [List.nil_append, List.cons.injEq] at h
            obtain ⟨hx, hy, _⟩ := h
            rcases hreq with hreq | hreq
            · right
              refine ⟨by omega, Or.inr ⟨rfl, ?_⟩⟩
              intro hc
              apply hstop
              rw [hreq, ← hc]
              omega
            · left
              omega
          | cons a l =>
            simp only [List.cons_append, List.cons.injEq] at h
            rcases ucp_allocate_balances_settled total fuel _ _ (hatd2 _) (hreq2 _) l after x y
              h.2 with h3 | h3
            · exact Or.inl h3
            · exact Or.inr ⟨h3.1, Or.inl h3.2⟩

/-! ## The quotas of unreachable threads -/

theorem ucp_seed_unreachable (ucp : ucp_t) (b : Int) (n : Nat) (t : Int)
    (ht : ucp.mod.reachable_threads t = false) :
    (ucp_seed n ucp b).1.mod.cache.assigned_ways t = ucp.mod.cache.assigned_ways t := by
  induction n with
  | zero => rfl
  | succ n ih =>
    have h1 := (ucp_seed_spec ucp b n).1
    rw [ucp_seed_succ]
    split_ifs with hr
    · show Function.update _ (n : Int) 1 t = _
      rw [Function.update_noteq]
      · exact ih
      · intro hc
        rw [h1, ← hc, ht] at hr
        cases hr
    · exact ih

/-- The loop `while (balance)` leaves the quotas of the unreachable threads
of the machine as they were. -/
theorem ucp_allocate_unreachable (total : Nat) (fuel : Nat) :
    ∀ (ucp : ucp_t) (balance last : Int) (u' : ucp_t),
      (∀ i : Nat, i < total → ucp.mod.reachable_threads i = true →
        (ucp.mod.atd_per_thread i).isSome = true) →
      (∀ i : Nat, i < total → ucp.mod.reachable_threads i = false → ucp.ways_req i = 0) →
      ucp_allocate total fuel ucp balance last = some u' →
      ∀ i : Nat, i < total → ucp.mod.reachable_threads i = false →
        u'.mod.cache.assigned_ways i = ucp.mod.cache.assigned_ways i := by
  induction fuel with
  | zero =>
    intro ucp balance last u' _ _ h
    cases h
  | succ fuel ih =>
    intro ucp balance last u' hatd hreq0 h i hi hri
    rw [ucp_allocate] at h
    by_cases hbz : balance = 0
    · rw [if_pos hbz] at h
      simp only [Option.some.injEq] at h
      rw [← h]
    · rw [if_neg hbz] at h
      obtain ⟨u1, he, hmod, _, h2⟩ := ucp_compute_max_mu_req ucp balance total hatd
      obtain ⟨_, he', hw⟩ := ucp_iteration_req total ucp balance hatd hreq0
      rw [he] at he'
      simp only [Option.some.injEq] at he'
      subst he'
      simp only [he] at h
      rcases hw with hw | ⟨hne, _, hatd2, hreq2⟩
      · rw [if_pos hw] at h
        cases h
      · rw [if_neg hne] at h
        have hstep : (u1.set_assigned_ways (ucp_choose_winner total u1).1
            (u1.mod.cache.assigned_ways (ucp_choose_winner total u1).1 +
              u1.ways_req (ucp_choose_winner total u1).1)).mod.cache.assigned_ways i =
            ucp.mod.cache.assigned_ways i := by
          show Function.update u1.mod.cache.assigned_ways _ _ (i : Int) = _
          by_cases hiw : (i : Int) = (ucp_choose_winner total u1).1
          · rw [← hiw, Function.update_same, h2 i hri, hreq0 i hi hri, hmod]
            omega
          · rw [Function.update_noteq hiw, hmod]
        have hri2 : (u1.set_assigned_ways (ucp_choose_winner total u1).1
            (u1.mod.cache.assigned_ways (ucp_choose_winner total u1).1 +
              u1.ways_req (ucp_choose_winner total u1).1)).mod.reachable_threads i = false := by
          show u1.mod.reachable_threads i = false
          rw [hmod]
          exact hri
        by_cases hstop : balance - u1.ways_req (ucp_choose_winner total u1).1 = last
        · rw [if_pos hstop] at h
          simp only [Option.some.injEq] at h
          rw [← h]
          exact hstep
        · rw [if_neg hstop] at h
          rw [ih _ _ _ u' (hatd2 _) (hreq2 _) h i hi hri2]
          exact hstep

/-- A call of `ucp_repartition` on a module with a reachable thread, a
histogram for every reachable thread and `ways_req` 0 for the unreachable
threads returns and keeps these properties; every reachable thread keeps its
quota or has at least one way, every unreachable thread keeps its quota. -/
theorem ucp_repartition_quotas (nc nt : Nat) (ucp : ucp_t) (g : Nat)
    (hg : g < nc * nt) (hgr : ucp.mod.reachable_threads g = true)
    (hatd : ∀ i : Nat, i < nc * nt → ucp.mod.reachable_threads i = true →
      (ucp.mod.atd_per_thread i).isSome = true)
    (hreq0 : ∀ i : Nat, i < nc * nt → ucp.mod.reachable_threads i = false →
      ucp.ways_req i = 0) :
    ∃ u', ucp_repartition nc nt ucp = some u' ∧
      u'.mod.reachable_threads = ucp.mod.reachable_threads ∧
      (∀ i : Nat, i < nc * nt → ucp.mod.reachable_threads i = true →
        u'.mod.cache.assigned_ways i = ucp.mod.cache.assigned_ways i ∨
          1 ≤ u'.mod.cache.assigned_ways i) ∧
      (∀ i : Nat, i < nc * nt → ucp.mod.reachable_threads i = false →
        u'.mod.cache.assigned_ways i = ucp.mod.cache.assigned_ways i) ∧
      (∀ i : Nat, i < nc * nt → ucp.mod.reachable_threads i = false → u'.ways_req i = 0) := by
  by_cases hgate : double.lt (cache_usage (nc * nt) ucp.mod) UCP_CACHE_TH
  · refine ⟨ucp, ?_, rfl, fun i _ _ => Or.inl rfl, fun i _ _ => rfl, hreq0⟩
    unfold ucp_repartition
    simp only [hgate, if_true]
  · obtain ⟨h1, h2, _, _, h5, h6⟩ := ucp_seed_spec ucp ucp.mod.cache.assoc (nc * nt)
    have h7 := ucp_seed_ways_req ucp ucp.mod.cache.assoc (nc * nt)
    have hatd' : ∀ i : Nat, i < nc * nt →
        (ucp_seed (nc * nt) ucp ucp.mod.cache.assoc).1.mod.reachable_threads i = true →
        ((ucp_seed (nc * nt) ucp ucp.mod.cache.assoc).1.mod.atd_per_thread i).isSome
          = true := by
      intro i hi hri
      rw [h1] at hri
      rw [h2]
      exact hatd i hi hri
    have hreq0' : ∀ i : Nat, i < nc * nt →
        (ucp_seed (nc * nt) ucp ucp.mod.cache.assoc).1.mod.reachable_threads i = false →
        (ucp_seed (nc * nt) ucp ucp.mod.cache.assoc).1.ways_req i = 0 := by
      intro i hi hri
      rw [h1] at hri
      rw [h7]
      exact hreq0 i hi hri
    obtain ⟨u, hu, hr, ho, hq⟩ := ucp_allocate_returns (nc * nt) g
      (ucp.mod.cache.assoc + 2) (ucp_seed (nc * nt) ucp ucp.mod.cache.assoc).1
      (ucp_seed (nc * nt) ucp ucp.mod.cache.assoc).2 ucp.mod.cache.assoc
      hg (by rw [h1]; exact hgr) hatd' hreq0'
      (by intro i hi hri; rw [h1] at hri; rw [h5 i hi hri])
      (by
        rw [h6]
        split_ifs <;> omega)
    have hfr := ucp_allocate_unreachable (nc * nt) _ _ _ _ u hatd' hreq0' hu
    obtain ⟨hd1, hd2⟩ := ucp_decay_spec (nc * nt) u
    refine ⟨ucp_decay (nc * nt) u, ?_, ?_, ?_, ?_, ?_⟩
    · unfold ucp_repartition
      simp only [hgate, if_false, hu]
    · rw [hd2, hr, h1]
    · intro i hi hri
      right
      rw [hd1]
      exact ho i hi (by rw [h1]; exact hri)
    · intro i hi hri
      rw [hd1, hfr i hi (by rw [h1]; exact hri)]
      exact ucp_seed_unreachable ucp _ _ _ hri
    · intro i hi hri
      have e : (ucp_decay (nc * nt) u).ways_req = u.ways_req :=
        ucp_decay_ways_req (ucp_halve (nc * nt)) (List.range (nc * nt)) u
      rw [e]
      exact hq i hi (by rw [h1]; exact hri)

theorem ucp_create_quotas (nc nt : Nat) (mod : mod_t) (u : ucp_t)
    (h : ucp_create nc nt mod = some u) :
    u.mod.reachable_threads = mod.reachable_threads ∧ u.ways_req = (fun _ => 0) ∧
    ∀ i : Nat, i < nc * nt → u.mod.cache.assigned_ways i = -1 := by
  unfold ucp_create at h
  split_ifs at h
  simp only [Option.some.injEq] at h
  subst h
  refine ⟨rfl, rfl, ?_⟩
  have key : ∀ (n : Nat) (a : Int → Int) (i : Nat), i < n →
      (List.range n).foldl (fun acc (i : Nat) => Function.update acc (i : Int) (-1)) a i
        = -1 := by
    intro n
    induction n with
    | zero =>
      intro a i hi
      omega
    | succ n ih =>
      intro a i hi
      rw [List.range_succ, List.foldl_append, List.foldl_cons, List.foldl_nil]
      by_cases hin : i = n
      · subst hin
        rw [Function.update_same]
      · rw [Function.update_noteq (by omega)]
        exact ih a i (by omega)
  intro i hi
  exact key (nc * nt) _ i hi

/-- Over any sequence of calls of `ucp_repartition`, each with a histogram for
every reachable thread, the quotas of the threads of the machine stay -1 or at
least 1. -/
theorem ucp_run_quotas (nc nt : Nat) (g : Nat) (hg : g < nc * nt)
    (calls : List ((Int → Int) × (Int → Option atd_t))) :
    ∀ ucp : ucp_t, ucp.mod.reachable_threads g = true →
      (∀ c ∈ calls, ∀ i : Nat, i < nc * nt → ucp.mod.reachable_threads i = true →
        (c.2 i).isSome = true) →
      (∀ i : Nat, i < nc * nt → ucp.mod.reachable_threads i = false → ucp.ways_req i = 0) →
      quotas_never_zero (nc * nt) ucp.mod.cache.assigned_ways →
      ∃ u, ucp_run nc nt ucp calls = some u ∧
        quotas_never_zero (nc * nt) u.mod.cache.assigned_ways := by
  induction calls with
  | nil =>
    intro ucp _ _ _ hq
    exact ⟨ucp, rfl, hq⟩
  | cons c rest ih =>
    intro ucp hgr hatd hreq0 hq
    obtain ⟨u1, he, hr, h1, h2, h3⟩ := ucp_repartition_quotas nc nt (ucp.with_env c.1 c.2) g hg
      hgr (fun i hi hri => hatd c (List.mem_cons_self _ _) i hi hri) hreq0
    have hr' : u1.mod.reachable_threads = ucp.mod.reachable_threads := hr
    obtain ⟨u, hu, hqu⟩ := ih u1 (by rw [hr']; exact hgr)
      (fun c' hc' i hi hri => hatd c' (List.mem_cons_of_mem _ hc') i hi (by
        rw [hr'] at hri
        exact hri))
      (fun i hi hri => h3 i hi (by
        rw [hr'] at hri
        exact hri))
      (by
        intro t ht
        by_cases hrt : ucp.mod.reachable_threads (t : Int) = true
        · rcases h1 t ht hrt with h | h
          · rw [h]
            exact hq t ht
          · exact Or.inr h
        · have hf : ucp.mod.reachable_threads (t : Int) = false := by simpa using hrt
          rw [h2 t ht hf]
          exact hq t ht)
    refine ⟨u, ?_, hqu⟩
    show (match ucp_repartition nc nt (ucp.with_env c.1 c.2) with
      | none => none
      | some u => ucp_run nc nt u rest) = some u
    rw [he]
    exact hu

/-! ## The quotas of unreachable threads under FCP -/

theorem fcp_unreachable_kept_refl (f : fcp_t) : fcp_unreachable_kept f f :=
  ⟨rfl, rfl, rfl, fun _ _ => rfl⟩

theorem fcp_unreachable_kept_trans {f g h : fcp_t} (h1 : fcp_unreachable_kept f g)
    (h2 : fcp_unreachable_kept g h) : fcp_unreachable_kept f h := by
  refine ⟨h2.1.trans h1.1, h2.2.1.trans h1.2.1, h2.2.2.1.trans h1.2.2.1, ?_⟩
  intro t ht
  rw [h2.2.2.2 t (by rw [h1.1]; exact ht), h1.2.2.2 t ht]

theorem fcp_set_assigned_ways_kept (f : fcp_t) (i v : Int)
    (hr : f.mod.reachable_threads i = true) :
    fcp_unreachable_kept f (f.set_assigned_ways i v) := by
  refine ⟨rfl, rfl, rfl, ?_⟩
  intro t ht
  show Function.update f.mod.cache.assigned_ways i v t = f.mod.cache.assigned_ways t
  rw [Function.update_noteq]
  intro hc
  rw [hc, hr] at ht
  cases ht

theorem fcp_seed_kept (fcp : fcp_t) (n : Nat) : fcp_unreachable_kept fcp (fcp_seed n fcp).1 := by
  induction n with
  | zero => exact fcp_unreachable_kept_refl fcp
  | succ n ih =>
    rw [fcp_seed_succ]
    dsimp only
    split_ifs with hr hw
    · exact fcp_unreachable_kept_trans ih (fcp_set_assigned_ways_kept _ _ _ hr)
    · exact fcp_unreachable_kept_trans ih (fcp_set_assigned_ways_kept _ _ _ hr)
    · exact ih

theorem fcp_redistribute_kept (total fuel : Nat) :
    ∀ (fcp : fcp_t) (ways i : Int) (r : fcp_t),
      fcp_redistribute total fuel fcp ways i = some r → fcp_unreachable_kept fcp r := by
  induction fuel with
  | zero =>
    intro fcp ways i r h
    cases h
  | succ fuel ih =>
    intro fcp ways i r h
    by_cases hw0 : ways = 0
    · subst hw0
      rw [fcp_redistribute_zero] at h
      cases h
      exact fcp_unreachable_kept_refl fcp
    by_cases hr : fcp.mod.reachable_threads (i % (total : Int)) = true
    · by_cases hpos : 0 < ways
      · rw [fcp_redistribute_give total fuel fcp ways i hpos hr] at h
        exact fcp_unreachable_kept_trans (fcp_set_assigned_ways_kept fcp _ _ hr) (ih _ _ _ r h)
      · have hneg : ways < 0 := by omega
        by_cases ha : 1 < fcp.mod.cache.assigned_ways (i % (total : Int))
        · rw [fcp_redistribute_take total fuel fcp ways i hneg hr ha] at h
          exact fcp_unreachable_kept_trans (fcp_set_assigned_ways_kept fcp _ _ hr)
            (ih _ _ _ r h)
        · rw [fcp_redistribute_keep total fuel fcp ways i hneg hr ha] at h
          exact ih _ _ _ r h
    · rw [fcp_redistribute_skip total fuel fcp ways i hw0 hr] at h
      exact ih _ _ _ r h

theorem fcp_disable_kept (fcp : fcp_t) (n : Nat) :
    fcp_unreachable_kept fcp (fcp_disable n fcp) := by
  induction n with
  | zero => exact fcp_unreachable_kept_refl fcp
  | succ n ih =>
    have e : fcp_disable (n + 1) fcp =
        if (fcp_disable n fcp).mod.reachable_threads n = true then
          (fcp_disable n fcp).set_assigned_ways n (-1)
        else fcp_disable n fcp := by
      simp only [fcp_disable, List.range_succ, List.foldl_append, List.foldl_cons,
        List.foldl_nil]
    rw [e]
    split_ifs with hr
    · exact fcp_unreachable_kept_trans ih (fcp_set_assigned_ways_kept _ _ _ hr)
    · exact ih

theorem fcp_transition_kept (total : Nat) (fcp f : fcp_t) (u : double)
    (h : fcp_transition total fcp u = some f) : fcp_unreachable_kept fcp f := by
  have henter : ∀ g, (fcp_redistribute total (total * ((fcp_seed total fcp).2.natAbs + 1) + 1)
      (fcp_seed total fcp).1 (fcp_seed total fcp).2 0).map
      (fun g => { g with state := fcp_state_t.ON }) = some g → fcp_unreachable_kept fcp g := by
    intro g hg
    cases hr : fcp_redistribute total (total * ((fcp_seed total fcp).2.natAbs + 1) + 1)
        (fcp_seed total fcp).1 (fcp_seed total fcp).2 0 with
    | none =>
      rw [hr] at hg
      cases hg
    | some r =>
      rw [hr] at hg
      simp only [Option.map_some', Option.some.injEq] at hg
      rw [← hg]
      exact fcp_unreachable_kept_trans (fcp_seed_kept fcp total)
        (fcp_redistribute_kept total _ _ _ _ r hr)
  cases hs : fcp.state with
  | OFF =>
    rw [fcp_transition_off total fcp u hs] at h
    exact henter f h
  | BACKOFF =>
    by_cases hb : 0 < fcp.backoff
    · rw [fcp_transition_backoff_pos total fcp u hs hb] at h
      simp only [Option.some.injEq] at h
      rw [← h]
      exact fcp_unreachable_kept_refl fcp
    · by_cases hb0 : fcp.backoff = 0
      · rw [fcp_transition_backoff_zero total fcp u hs hb0] at h
        exact henter f h
      · unfold fcp_transition at h
        simp only [hs] at h
        rw [if_neg hb, if_neg hb0] at h
        cases h
  | ON =>
    rcases Bool.eq_false_or_eq_true (fcp_unfairness_increasing fcp u) with hinc | hinc
    · rw [fcp_transition_on_leave total fcp u hs hinc] at h
      simp only [Option.some.injEq] at h
      rw [← h]
      exact fcp_disable_kept
        { fcp with backoff := FCP_BACKOFF_INTERVALS, state := fcp_state_t.BACKOFF } total
    · rw [fcp_transition_on_stay total fcp u hs hinc] at h
      simp only [Option.some.injEq] at h
      rw [← h]
      exact fcp_unreachable_kept_refl fcp

/-- The transfer of one way between two reachable threads, each with the
pointer to its own quota. -/
theorem fcp_transfer_kept (f g : fcp_t) (m M : Int)
    (hpm : (f.data m).assigned_ways = some m) (hpM : (f.data M).assigned_ways = some M)
    (hrm : f.mod.reachable_threads m = true) (hrM : f.mod.reachable_threads M = true)
    (h : fcp_transfer f m M = some g) : fcp_unreachable_kept f g := by
  rw [fcp_transfer_eq f m M hpm hpM] at h
  simp only [Option.some.injEq] at h
  rw [← h]
  refine ⟨rfl, rfl, rfl, ?_⟩
  intro t ht
  show fcp_transfer_ways f.mod.cache.assigned_ways m M t = _
  have h1 : t ≠ m := by
    intro hc
    rw [hc, hrm] at ht
    cases ht
  have h2 : t ≠ M := by
    intro hc
    rw [hc, hrM] at ht
    cases ht
  unfold fcp_transfer_ways
  split_ifs
  · rw [Function.update_noteq h1, Function.update_noteq h2]
  · rfl

theorem fcp_action_kept (total : Nat) (f g : fcp_t) (mn mx : Int)
    (hpol : f.pairing_policy = thread_pairing_policy_t.thread_pairing_policy_none)
    (hpm : (f.data mn).assigned_ways = some mn) (hpM : (f.data mx).assigned_ways = some mx)
    (hrm : f.mod.reachable_threads mn = true) (hrM : f.mod.reachable_threads mx = true)
    (h : fcp_action total f mn mx false = some g) : fcp_unreachable_kept f g := by
  cases hs : f.state with
  | ON =>
    exact fcp_transfer_kept f g mn mx hpm hpM hrm hrM
      (fcp_action_on_transfer total f g mn mx hpol hs h)
  | OFF =>
    unfold fcp_action at h
    rw [hs] at h
    dsimp only at h
    split_ifs at h
    simp only [Option.some.injEq] at h
    rw [← h]
    exact fcp_unreachable_kept_refl f
  | BACKOFF =>
    unfold fcp_action at h
    rw [hs] at h
    dsimp only at h
    split_ifs at h
    simp only [Option.some.injEq] at h
    rw [← h]
    exact ⟨rfl, rfl, rfl, fun _ _ => rfl⟩

/-- A call of `fcp_repartition` without pairing that returns leaves the quota
of every unreachable thread as it was. -/
theorem fcp_repartition_kept (list_sort : (Int → Int → Int) → List Int → List Int)
    (nc nt : Nat) (esim : esim_t) (fcp f : fcp_t) (hsort : list_sort_sorts list_sort)
    (hst : fcp_static (nc * nt) fcp) (henv : fcp_env_ok (nc * nt) esim fcp)
    (hcyc : fcp.last_esim_cycle < esim.esim_cycle)
    (h : fcp_repartition list_sort nc nt esim fcp = some f) :
    ∀ t : Int, fcp.mod.reachable_threads t = false →
      f.mod.cache.assigned_ways t = fcp.mod.cache.assigned_ways t := by
  by_cases hgate : fcp_gate (nc * nt) esim fcp
  · obtain ⟨d, thr, mn, mx, hunf, hperm, hmn, hmx, hd⟩ :=
      fcp_unfairness_spec list_sort (nc * nt) esim fcp hsort hst henv
    have hF := fcp_static_measured (nc * nt) fcp d thr hst hperm hd
    rw [fcp_repartition_eq list_sort nc nt esim fcp _ mn mx _ hcyc hgate hunf hF.1] at h
    cases htr : fcp_transition (nc * nt) { fcp with data := d, threads := thr }
        (double.div (d mx).individual_speedup (d mn).individual_speedup) with
    | none =>
      rw [htr] at h
      cases h
    | some f4 =>
      rw [htr] at h
      simp only [Option.some_bind] at h
      cases hact : fcp_action (nc * nt) f4 mn mx false with
      | none =>
        rw [hact] at h
        cases h
      | some f5 =>
        rw [hact] at h
        simp only [Option.map_some', Option.some.injEq] at h
        have k1 := fcp_transition_kept (nc * nt) _ f4 _ htr
        obtain ⟨hmn0, hmn1, hmnr⟩ := hF.2.2.1 mn hmn
        obtain ⟨hmx0, hmx1, hmxr⟩ := hF.2.2.1 mx hmx
        have hpn : (d mn).assigned_ways = some mn := by
          have := hF.2.2.2.1 mn.toNat (by omega) (by rw [Int.toNat_of_nonneg hmn0]; exact hmnr)
          rw [Int.toNat_of_nonneg hmn0] at this
          exact this
        have hpx : (d mx).assigned_ways = some mx := by
          have := hF.2.2.2.1 mx.toNat (by omega) (by rw [Int.toNat_of_nonneg hmx0]; exact hmxr)
          rw [Int.toNat_of_nonneg hmx0] at this
          exact this
        have k2 := fcp_action_kept (nc * nt) f4 f5 mn mx (by rw [k1.2.2.1]; exact hF.1)
          (by rw [k1.2.1]; exact hpn) (by rw [k1.2.1]; exact hpx)
          (by rw [k1.1]; exact hmnr) (by rw [k1.1]; exact hmxr) hact
        have k := fcp_unreachable_kept_trans k1 k2
        intro t ht
        rw [← h, (fcp_record_fields f5 _ _ _).2.2.2.1]
        exact k.2.2.2 t ht
  · rw [fcp_repartition_gate_closed list_sort nc nt esim fcp hcyc hgate] at h
    simp only [Option.some.injEq] at h
    rw [← h]
    intro _ _
    rfl

/-- Over any run of calls of `fcp_repartition` without pairing, from a state
whose quotas are -1 or at least 1 and which is not OFF with quotas set, the
quotas of the threads of the machine stay -1 or at least 1. -/
theorem fcp_run_quotas (list_sort : (Int → Int → Int) → List Int → List Int) (nc nt : Nat)
    (hsort : list_sort_sorts list_sort) (calls : List (esim_t × (Int → Int))) :
    ∀ fcp : fcp_t, fcp_static (nc * nt) fcp → fcp_state_ok (nc * nt) fcp →
      (∀ c ∈ calls, fcp.last_esim_cycle < c.1.esim_cycle) →
      fcp_cycles_increase calls → fcp_calls_ok (nc * nt) fcp.mod calls →
      quotas_never_zero (nc * nt) fcp.mod.cache.assigned_ways →
      ∃ f, fcp_run list_sort nc nt fcp calls = some f ∧
        quotas_never_zero (nc * nt) f.mod.cache.assigned_ways := by
  induction calls with
  | nil =>
    intro fcp _ _ _ _ _ hq
    exact ⟨fcp, rfl, hq⟩
  | cons c rest ih =>
    intro fcp hst hok hlast hinc hcalls hq
    have hc := hcalls c (List.mem_cons_self _ _)
    have hcyc : (fcp.with_used_ways c.2).last_esim_cycle < c.1.esim_cycle :=
      hlast c (List.mem_cons_self _ _)
    have hinc' := List.pairwise_cons.1 hinc
    have hstep : ∃ f1, fcp_repartition list_sort nc nt c.1 (fcp.with_used_ways c.2) = some f1 ∧
        fcp_static (nc * nt) f1 ∧ fcp_state_ok (nc * nt) f1 ∧ fcp_same_config fcp f1 ∧
        (f1.last_esim_cycle = fcp.last_esim_cycle ∨ f1.last_esim_cycle = c.1.esim_cycle) ∧
        quotas_never_zero (nc * nt) f1.mod.cache.assigned_ways := by
      by_cases hgate : fcp_gate (nc * nt) c.1 (fcp.with_used_ways c.2)
      · obtain ⟨_, _, _, u, f1, _, he, h1, h2, h3, hfr, s1, s2, s3, s4, s5⟩ :=
          fcp_repartition_step list_sort nc nt c.1 (fcp.with_used_ways c.2) hsort hst hok
            ⟨by omega, hc.2⟩ hcyc hgate
        have hcfg : fcp_same_config (fcp.with_used_ways c.2) f1 := fcp_same_config_of_mod hfr
        have hk := fcp_repartition_kept list_sort nc nt c.1 (fcp.with_used_ways c.2) f1 hsort
          hst ⟨by omega, hc.2⟩ hcyc he
        have hstate : f1.state = fcp_state_t.ON ∨ f1.state = fcp_state_t.BACKOFF := by
          cases hs : (fcp.with_used_ways c.2).state with
          | OFF => exact Or.inl (s1 hs).1
          | ON =>
            rcases Bool.eq_false_or_eq_true
              (fcp_unfairness_increasing (fcp.with_used_ways c.2) u) with hi | hi
            · exact Or.inr (s2 hs hi).1
            · exact Or.inl (s3 hs hi).1
          | BACKOFF =>
            have hb := (hok.2 hs).1
            by_cases hb0 : (fcp.with_used_ways c.2).backoff = 0
            · exact Or.inl (s5 hs hb0).1
            · exact Or.inr (s4 hs (by
                have : 0 ≤ (fcp.with_used_ways c.2).backoff := hb
                omega)).1
        refine ⟨f1, he, h1, h2, hcfg, Or.inr h3, ?_⟩
        intro t ht
        by_cases hr : fcp.mod.reachable_threads t = true
        · have hr1 : f1.mod.reachable_threads t = true := by
            rw [hcfg.1]
            exact hr
          rcases hstate with hs | hs
          · exact Or.inr ((h2.1 hs).2 t ht hr1)
          · exact Or.inl ((h2.2 hs).2 t ht hr1)
        · have hr0 : (fcp.with_used_ways c.2).mod.reachable_threads t = false := by
            have : (fcp.with_used_ways c.2).mod.reachable_threads t =
              fcp.mod.reachable_threads t := rfl
            rw [this]
            exact Bool.eq_false_iff.2 hr
          rw [hk t hr0]
          exact hq t ht
      · exact ⟨fcp.with_used_ways c.2,
          fcp_repartition_gate_closed list_sort nc nt c.1 _ hcyc hgate, hst, hok,
          ⟨rfl, rfl, rfl, rfl⟩, Or.inl rfl, hq⟩
    obtain ⟨f1, he, h1, h2, hcfg, hl, hq1⟩ := hstep
    obtain ⟨f, hrun, hqf⟩ := ih f1 h1 h2
      (by
        intro c' hc'
        rcases hl with hl | hl
        · rw [hl]
          exact hlast c' (List.mem_cons_of_mem _ hc')
        · rw [hl]
          exact hinc'.1 c' hc')
      hinc'.2
      (by
        intro c' hc'
        have := hcalls c' (List.mem_cons_of_mem _ hc')
        rw [hcfg.1]
        exact this)
      hq1
    refine ⟨f, ?_, hqf⟩
    show (match fcp_repartition list_sort nc nt c.1 (fcp.with_used_ways c.2) with
      | none => none
      | some f => fcp_run list_sort nc nt f rest) = some f
    rw [he]
    exact hrun

/-- The loop `for (i ...) assigned_ways[i] = -1` of the constructors. -/
theorem assigned_ways_cleared (n : Nat) (a : Int → Int) (i : Nat) (hi : i < n) :
    (List.range n).foldl (fun acc (i : Nat) => Function.update acc (i : Int) (-1)) a i
      = -1 := by
  induction n with
  | zero => omega
  | succ n ih =>
    rw [List.range_succ, List.foldl_append, List.foldl_cons, List.foldl_nil]
    by_cases hin : i = n
    · subst hin
      rw [Function.update_same]
    · rw [Function.update_noteq (by omega)]
      exact ih (by omega)

/-! ## Partitioned-LRU when the quotas of the owners add up to `assoc` -/

theorem cache_set_owned_eq_count (assoc : Nat) (set : cache_set_t) (t : Int) :
    cache_set_owned assoc set t =
      ((((List.range assoc).map fun w => (set.blocks w).thread_id).count t : Nat) : Int) := by
  unfold cache_set_owned
  rw [List.count, List.countP_map]
  congr 1

/-- The blocks of a set are shared out among their owners. -/
theorem cache_set_owned_sum (assoc : Nat) (set : cache_set_t) :
    ((cache_set_owners assoc set).map (cache_set_owned assoc set)).sum = (assoc : Int) := by
  have h := List.sum_map_count_dedup_eq_length
    ((List.range assoc).map fun w => (set.blocks w).thread_id)
  rw [List.length_map, List.length_range] at h
  have e : cache_set_owned assoc set = fun t =>
      ((((List.range assoc).map fun w => (set.blocks w).thread_id).count t : Nat) : Int) :=
    funext (cache_set_owned_eq_count assoc set)
  rw [e]
  unfold cache_set_owners
  have h2 := congrArg (fun n : Nat => (n : Int)) h
  simp only [Nat.cast_list_sum, List.map_map] at h2
  exact h2

theorem cache_set_owners_mem {assoc : Nat} {set : cache_set_t} {w : Nat} (hw : w < assoc) :
    (set.blocks w).thread_id ∈ cache_set_owners assoc set := by
  unfold cache_set_owners
  rw [List.mem_dedup]
  exact List.mem_map.2 ⟨w, List.mem_range.2 hw, rfl⟩

theorem cache_set_owned_pos_iff {assoc : Nat} {set : cache_set_t} {t : Int} :
    1 ≤ cache_set_owned assoc set t ↔ ∃ w, w < assoc ∧ (set.blocks w).thread_id = t := by
  unfold cache_set_owned
  constructor
  · intro h
    have hpos : 0 < (List.range assoc).countP (fun w => decide ((set.blocks w).thread_id = t)) := by
      omega
    obtain ⟨a, ha, hpa⟩ := List.countP_pos_iff.1 hpos
    exact ⟨a, List.mem_range.1 ha, by simpa using hpa⟩
  · rintro ⟨w, hw, ht⟩
    have hpos : 0 < (List.range assoc).countP (fun w => decide ((set.blocks w).thread_id = t)) :=
      List.countP_pos_iff.2 ⟨w, List.mem_range.2 hw, by simpa using ht⟩
    omega

/-- When the quotas of the owners of the blocks of a set add up to `assoc` and
the requester has a quota of at least one way, the victim of Partitioned-LRU
belongs to a thread that holds at least its quota in the set. -/
theorem plru_victim_at_quota {c : cache_t} {set : cache_set_t} {l : List Nat}
    (h : set_wf c.assoc set l) (tid : Int) (hq : 1 ≤ c.assigned_ways tid)
    (hsum : ((cache_set_owners c.assoc set).map c.assigned_ways).sum = (c.assoc : Int)) :
    cache_set_owned c.assoc set (set.blocks (plru_victim c set l tid)).thread_id ≥
      c.assigned_ways (set.blocks (plru_victim c set l tid)).thread_id := by
  unfold plru_victim
  by_cases hge : cache_set_owned c.assoc set tid ≥ c.assigned_ways tid
  · rw [if_pos hge]
    cases hf : l.reverse.find? (fun a => decide ((set.blocks a).thread_id = tid)) with
    | none =>
      exfalso
      rw [List.find?_eq_none] at hf
      obtain ⟨w, hw, ht⟩ := cache_set_owned_pos_iff.1 (show 1 ≤ cache_set_owned c.assoc set tid by
        omega)
      exact hf w (List.mem_reverse.2 ((h.2.1 w).2 hw)) (by simpa using ht)
    | some a =>
      have := List.find?_some hf
      simp only [decide_eq_true_eq] at this
      simp only [Option.getD_some]
      rw [this]
      exact hge
  · rw [if_neg hge]
    cases hf : l.reverse.find? (fun a => decide ((set.blocks a).thread_id ≠ tid ∧
        cache_set_owned c.assoc set (set.blocks a).thread_id
          ≥ c.assigned_ways (set.blocks a).thread_id)) with
    | none =>
      exfalso
      rw [List.find?_eq_none] at hf
      have hall : ∀ t ∈ cache_set_owners c.assoc set,
          cache_set_owned c.assoc set t < c.assigned_ways t := by
        intro t ht
        unfold cache_set_owners at ht
        rw [List.mem_dedup] at ht
        obtain ⟨w, hw, rfl⟩ := List.mem_map.1 ht
        by_cases hwt : (set.blocks w).thread_id = tid
        · rw [hwt]
          omega
        · have := hf w (List.mem_reverse.2 ((h.2.1 w).2 (List.mem_range.1 hw)))
          simp only [decide_eq_true_eq, not_and] at this
          have := this hwt
          omega
      have hne : cache_set_owners c.assoc set ≠ [] := by
        intro he
        have := @cache_set_owners_mem c.assoc set _ (set_wf_pos h)
        rw [he] at this
        cases this
      have hlt := List.sum_lt_sum_of_ne_nil hne _ _ hall
      rw [cache_set_owned_sum, hsum] at hlt
      omega
    | some a =>
      have := List.find?_some hf
      simp only [decide_eq_true_eq] at this
      simp only [Option.getD_some]
      exact this.2

theorem plru_owned_example_wf (owners : List Int) (q0 q1 : Int) :
    cache_wf (plru_owned_example owners q0 q1) :=
  fun _ _ => ⟨List.range 4,
    set_wf_congr (cache_create_set_wf 4 (by decide)) rfl rfl (fun _ => ⟨rfl, rfl, rfl⟩)⟩

/-! ## The adjustment of the quotas to the budgets of the pairs -/

theorem foldl_option_cons {α β : Type} (F : Option α → β → Option α) (L : List β)
    (x : Option α) (p : β) (y r : Option α) (h1 : F x p = y) (h2 : L.foldl F y = r) :
    (p :: L).foldl F x = r := by
  rw [List.foldl_cons, h1, h2]

theorem fcp_ways_of_with (base : fcp_t) (a : Int → Int) (t : Int)
    (h : (base.data t).assigned_ways = some t) :
    (base.with_assigned_ways a).ways_of t = some (a t) := by
  unfold fcp_t.ways_of
  have e : ((base.with_assigned_ways a).data t).assigned_ways = some t := h
  rw [e]
  rfl

theorem fcp_pairs_assigned_cons (a : Int → Int) (p : fcp_pair_t) (L : List fcp_pair_t) :
    fcp_pairs_assigned a (p :: L) = a p.id1 + a p.id2 + fcp_pairs_assigned a L := by
  simp [fcp_pairs_assigned]

theorem fcp_pairs_budget_cons (p : fcp_pair_t) (L : List fcp_pair_t) :
    fcp_pairs_budget (p :: L) = p.ways + fcp_pairs_budget L := by
  simp [fcp_pairs_budget]

theorem fcp_paired_threads_mem {L : List fcp_pair_t} {q : fcp_pair_t} (h : q ∈ L) :
    q.id1 ∈ fcp_paired_threads L ∧ q.id2 ∈ fcp_paired_threads L := by
  induction L with
  | nil => cases h
  | cons p L ih =>
    rcases List.mem_cons.1 h with rfl | h'
    · exact ⟨List.mem_cons_self _ _, List.mem_cons_of_mem _ (List.mem_cons_self _ _)⟩
    · exact ⟨List.mem_cons_of_mem _ (List.mem_cons_of_mem _ (ih h').1),
        List.mem_cons_of_mem _ (List.mem_cons_of_mem _ (ih h').2)⟩

theorem fcp_paired_threads_nodup {p : fcp_pair_t} {L : List fcp_pair_t}
    (h : (fcp_paired_threads (p :: L)).Nodup) :
    p.id1 ≠ p.id2 ∧ p.id1 ∉ fcp_paired_threads L ∧ p.id2 ∉ fcp_paired_threads L ∧
      (fcp_paired_threads L).Nodup := by
  have h1 := List.nodup_cons.1 h
  have h2 := List.nodup_cons.1 h1.2
  refine ⟨?_, ?_, h2.1, h2.2⟩
  · intro hc
    exact h1.1 (by rw [hc]; exact List.mem_cons_self _ _)
  · intro hc
    exact h1.1 (List.mem_cons_of_mem _ hc)

theorem fcp_pairs_assigned_congr (a a' : Int → Int) (L : List fcp_pair_t)
    (h : ∀ t ∈ fcp_paired_threads L, a' t = a t) :
    fcp_pairs_assigned a' L = fcp_pairs_assigned a L := by
  induction L with
  | nil => rfl
  | cons p L ih =>
    rw [fcp_pairs_assigned_cons, fcp_pairs_assigned_cons,
      h p.id1 (List.mem_cons_self _ _),
      h p.id2 (List.mem_cons_of_mem _ (List.mem_cons_self _ _)),
      ih (fun t ht => h t (List.mem_cons_of_mem _ (List.mem_cons_of_mem _ ht)))]

theorem fcp_pairs_assigned_le (a : Int → Int) (L : List fcp_pair_t)
    (h : ∀ p ∈ L, a p.id1 + a p.id2 ≤ p.ways) :
    fcp_pairs_assigned a L ≤ fcp_pairs_budget L := by
  induction L with
  | nil => exact le_refl _
  | cons p L ih =>
    rw [fcp_pairs_assigned_cons, fcp_pairs_budget_cons]
    have := h p (List.mem_cons_self _ _)
    have := ih (fun q hq => h q (List.mem_cons_of_mem _ hq))
    omega

theorem fcp_pairs_assigned_eq (a : Int → Int) (L : List fcp_pair_t)
    (h : ∀ p ∈ L, a p.id1 + a p.id2 ≤ p.ways)
    (hsum : fcp_pairs_budget L ≤ fcp_pairs_assigned a L) :
    ∀ p ∈ L, a p.id1 + a p.id2 = p.ways := by
  induction L with
  | nil =>
    intro p hp
    cases hp
  | cons q L ih =>
    rw [fcp_pairs_assigned_cons, fcp_pairs_budget_cons] at hsum
    have h1 := h q (List.mem_cons_self _ _)
    have h2 := fcp_pairs_assigned_le a L (fun p hp => h p (List.mem_cons_of_mem _ hp))
    intro p hp
    rcases List.mem_cons.1 hp with rfl | hp'
    · omega
    · exact ih (fun p hp => h p (List.mem_cons_of_mem _ hp)) (by omega) p hp'

theorem fcp_pairs_assigned_budget (a : Int → Int) (L : List fcp_pair_t)
    (h : ∀ p ∈ L, a p.id1 + a p.id2 = p.ways) :
    fcp_pairs_assigned a L = fcp_pairs_budget L := by
  induction L with
  | nil => rfl
  | cons p L ih =>
    rw [fcp_pairs_assigned_cons, fcp_pairs_budget_cons, h p (List.mem_cons_self _ _),
      ih (fun q hq => h q (List.mem_cons_of_mem _ hq))]

/-- Budgets of at least 2 ways that fit in the cache satisfy the assertion of
`fcp_pairing_adjust_ways` on the budget of each pair. -/
theorem fcp_pairs_budget_bound (L : List fcp_pair_t) (h : ∀ p ∈ L, 2 ≤ p.ways) :
    ∀ p ∈ L, p.ways + ((L.length : Int) - 1) * 2 ≤ fcp_pairs_budget L := by
  induction L with
  | nil =>
    intro p hp
    cases hp
  | cons q L ih =>
    intro p hp
    rw [fcp_pairs_budget_cons]
    have hq := h q (List.mem_cons_self _ _)
    have hlen : (((q :: L).length : Nat) : Int) = (L.length : Int) + 1 := by
      simp
    rw [hlen]
    rcases List.mem_cons.1 hp with rfl | hp'
    · cases L with
      | nil =>
        simp [fcp_pairs_budget]
      | cons r L' =>
        have := ih (fun p hp => h p (List.mem_cons_of_mem _ hp)) r (List.mem_cons_self _ _)
        have hr := h r (List.mem_cons_of_mem _ (List.mem_cons_self _ _))
        omega
    · have := ih (fun p hp => h p (List.mem_cons_of_mem _ hp)) p hp'
      omega

/-- The loop `while (status > 0)`: it returns, the two members of the pair
keep at least one way each and lose `status` ways between them, and no other
quota changes. -/
theorem fcp_shave_spec (base : fcp_t) (p : fcp_pair_t) (hne : p.id1 ≠ p.id2)
    (h1 : (base.data p.id1).assigned_ways = some p.id1)
    (h2 : (base.data p.id2).assigned_ways = some p.id2) (fuel : Nat) :
    ∀ (a : Int → Int) (status count : Int), (count = 0 ∨ count = 1) → 0 ≤ status →
      1 ≤ a p.id1 → 1 ≤ a p.id2 → status + 2 ≤ a p.id1 + a p.id2 →
      2 * status + 1 + (if 1 < a (p.member count) then 0 else 1) ≤ (fuel : Int) →
      ∃ a', fcp_shave p.member fuel (base.with_assigned_ways a) status count
          = some (base.with_assigned_ways a') ∧
        a' p.id1 + a' p.id2 = a p.id1 + a p.id2 - status ∧ 1 ≤ a' p.id1 ∧ 1 ≤ a' p.id2 ∧
        ∀ t, t ≠ p.id1 → t ≠ p.id2 → a' t = a t := by
  induction fuel with
  | zero =>
    intro a status count _ _ _ _ _ hf
    exfalso
    split_ifs at hf <;> omega
  | succ fuel ih =>
    intro a status count hcount hs ha1 ha2 hsum hf
    rw [fcp_shave]
    by_cases hpos : status > 0
    · rw [if_pos hpos]
      have hptr : ((base.with_assigned_ways a).data (p.member count)).assigned_ways
          = some (p.member count) := by
        show (base.data (p.member count)).assigned_ways = _
        unfold fcp_pair_t.member
        split_ifs
        · exact h1
        · exact h2
      rw [hptr]
      dsimp only
      have hnext : (count + 1) % 2 = 0 ∨ (count + 1) % 2 = 1 := by
        rcases hcount with rfl | rfl
        · right
          rfl
        · left
          rfl
      have hother : p.member ((count + 1) % 2) ≠ p.member count := by
        unfold fcp_pair_t.member
        rcases hcount with rfl | rfl
        · simp only [if_true]
          rw [if_neg (by decide)]
          exact fun h => hne h.symm
        · rw [if_pos (by decide), if_neg (by decide)]
          exact hne
      have hmem : p.member count = p.id1 ∨ p.member count = p.id2 := by
        unfold fcp_pair_t.member
        split_ifs
        · exact Or.inl rfl
        · exact Or.inr rfl
      have hmem' : p.member ((count + 1) % 2) = p.id1 ∨ p.member ((count + 1) % 2) = p.id2 := by
        unfold fcp_pair_t.member
        split_ifs
        · exact Or.inl rfl
        · exact Or.inr rfl
      have haw : (base.with_assigned_ways a).mod.cache.assigned_ways = a := rfl
      rw [haw]
      by_cases hgt : a (p.member count) > 1
      · rw [if_pos hgt]
        have e : (base.with_assigned_ways a).set_assigned_ways (p.member count)
            (a (p.member count) - 1) =
            base.with_assigned_ways
              (Function.update a (p.member count) (a (p.member count) - 1)) := rfl
        rw [e]
        have hu1 : ∀ t, t ≠ p.member count →
            Function.update a (p.member count) (a (p.member count) - 1) t = a t :=
          fun t ht => Function.update_noteq ht _ _
        have hu2 : Function.update a (p.member count) (a (p.member count) - 1)
            (p.member count) = a (p.member count) - 1 := Function.update_same _ _ _
        rw [if_pos hgt] at hf
        obtain ⟨a', he, hs', h1', h2', hfr⟩ := ih
          (Function.update a (p.member count) (a (p.member count) - 1)) (status - 1)
          ((count + 1) % 2) hnext (by omega)
          (by
            rcases hmem with hm | hm
            · rw [← hm, hu2]
              omega
            · rw [hu1 _ (by rw [hm]; exact hne)]
              exact ha1)
          (by
            rcases hmem with hm | hm
            · rw [hu1 _ (by rw [hm]; exact fun h => hne h.symm)]
              exact ha2
            · rw [← hm, hu2]
              omega)
          (by
            rcases hmem with hm | hm
            · rw [hu1 p.id2 (by rw [hm]; exact fun h => hne h.symm), ← hm, hu2]
              rw [hm]
              omega
            · rw [hu1 p.id1 (by rw [hm]; exact hne), ← hm, hu2]
              rw [hm]
              omega)
          (by
            split_ifs <;> omega)
        refine ⟨a', he, ?_, h1', h2', ?_⟩
        · rw [hs']
          rcases hmem with hm | hm
          · rw [hu1 p.id2 (by rw [hm]; exact fun h => hne h.symm), ← hm, hu2]
            rw [hm]
            omega
          · rw [hu1 p.id1 (by rw [hm]; exact hne), ← hm, hu2]
            rw [hm]
            omega
        · intro t ht1 ht2
          rw [hfr t ht1 ht2]
          apply hu1
          rcases hmem with hm | hm
          · rw [hm]
            exact ht1
          · rw [hm]
            exact ht2
      · rw [if_neg hgt]
        rw [if_neg (by omega)] at hf
        have hbig : 1 < a (p.member ((count + 1) % 2)) := by
          rcases hmem with hm | hm
          · rcases hmem' with hm' | hm'
            · exact absurd (hm'.trans hm.symm) hother
            · rw [hm']
              rw [hm] at hgt
              omega
          · rcases hmem' with hm' | hm'
            · rw [hm']
              rw [hm] at hgt
              omega
            · exact absurd (hm'.trans hm.symm) hother
        exact ih a status ((count + 1) % 2) hnext hs ha1 ha2 hsum (by
          rw [if_pos hbig]
          omega)
    · rw [if_neg hpos]
      refine ⟨a, rfl, ?_, ha1, ha2, fun _ _ _ => rfl⟩
      omega

/-- The loop `while (status < 0)`: it returns, the two members of the pair
gain `-status` ways between them, and no other quota changes. -/
theorem fcp_grant_spec (base : fcp_t) (p : fcp_pair_t) (hne : p.id1 ≠ p.id2)
    (h1 : (base.data p.id1).assigned_ways = some p.id1)
    (h2 : (base.data p.id2).assigned_ways = some p.id2) (fuel : Nat) :
    ∀ (a : Int → Int) (status count : Int), (count = 0 ∨ count = 1) → status ≤ 0 →
      1 ≤ a p.id1 → 1 ≤ a p.id2 → a p.id1 + a p.id2 = p.ways + status →
      -status + 1 ≤ (fuel : Int) →
      ∃ a', fcp_grant p.member p.ways fuel (base.with_assigned_ways a) status count
          = some (base.with_assigned_ways a') ∧
        a' p.id1 + a' p.id2 = p.ways ∧ 1 ≤ a' p.id1 ∧ 1 ≤ a' p.id2 ∧
        ∀ t, t ≠ p.id1 → t ≠ p.id2 → a' t = a t := by
  induction fuel with
  | zero =>
    intro a status count _ _ _ _ _ hf
    exfalso
    omega
  | succ fuel ih =>
    intro a status count hcount hs ha1 ha2 hsum hf
    rw [fcp_grant]
    by_cases hneg : status < 0
    · rw [if_pos hneg]
      have hptr : ((base.with_assigned_ways a).data (p.member count)).assigned_ways
          = some (p.member count) := by
        show (base.data (p.member count)).assigned_ways = _
        unfold fcp_pair_t.member
        split_ifs
        · exact h1
        · exact h2
      rw [hptr]
      dsimp only
      have hnext : (count + 1) % 2 = 0 ∨ (count + 1) % 2 = 1 := by
        rcases hcount with rfl | rfl
        · right
          rfl
        · left
          rfl
      have hmem : p.member count = p.id1 ∨ p.member count = p.id2 := by
        unfold fcp_pair_t.member
        split_ifs
        · exact Or.inl rfl
        · exact Or.inr rfl
      have haw : (base.with_assigned_ways a).mod.cache.assigned_ways = a := rfl
      rw [haw]
      have hlt : a (p.member count) < p.ways := by
        rcases hmem with hm | hm
        · rw [hm]
          omega
        · rw [hm]
          omega
      rw [if_pos hlt]
      have e : (base.with_assigned_ways a).set_assigned_ways (p.member count)
          (a (p.member count) + 1) =
          base.with_assigned_ways
            (Function.update a (p.member count) (a (p.member count) + 1)) := rfl
      rw [e]
      have hu1 : ∀ t, t ≠ p.member count →
          Function.update a (p.member count) (a (p.member count) + 1) t = a t :=
        fun t ht => Function.update_noteq ht _ _
      have hu2 : Function.update a (p.member count) (a (p.member count) + 1)
          (p.member count) = a (p.member count) + 1 := Function.update_same _ _ _
      obtain ⟨a', he, hs', h1', h2', hfr⟩ := ih
        (Function.update a (p.member count) (a (p.member count) + 1)) (status + 1)
        ((count + 1) % 2) hnext (by omega)
        (by
          rcases hmem with hm | hm
          · rw [← hm, hu2]
            rw [hm]
            omega
          · rw [hu1 _ (by rw [hm]; exact hne)]
            exact ha1)
        (by
          rcases hmem with hm | hm
          · rw [hu1 _ (by rw [hm]; exact fun h => hne h.symm)]
            exact ha2
          · rw [← hm, hu2]
            rw [hm]
            omega)
        (by
          rcases hmem with hm | hm
          · rw [hu1 p.id2 (by rw [hm]; exact fun h => hne h.symm), ← hm, hu2]
            rw [hm]
            omega
          · rw [hu1 p.id1 (by rw [hm]; exact hne), ← hm, hu2]
            rw [hm]
            omega)
        (by omega)
      refine ⟨a', he, hs', h1', h2', ?_⟩
      intro t ht1 ht2
      rw [hfr t ht1 ht2]
      apply hu1
      rcases hmem with hm | hm
      · rw [hm]
        exact ht1
      · rw [hm]
        exact ht2
    · rw [if_neg hneg]
      refine ⟨a, rfl, ?_, ha1, ha2, fun _ _ _ => rfl⟩
      omega

/-- The first loop of `fcp_pairing_adjust_ways` over the pairs `L`: it returns,
every pair of `L` ends with at most its budget, every member keeps a way, the
ways recovered are those the pairs have lost, and no other quota changes. -/
theorem fcp_recover_ways_spec (base : fcp_t) (L : List fcp_pair_t) :
    ∀ (a : Int → Int) (w : Int), (fcp_paired_threads L).Nodup →
      (∀ t ∈ fcp_paired_threads L, (base.data t).assigned_ways = some t ∧ 1 ≤ a t) →
      (∀ p ∈ L, 2 ≤ p.ways ∧
        p.ways ≤ (base.mod.cache.assoc : Int) - ((base.pairing_pairs.length : Int) - 1) * 2) →
      ∃ a', L.foldl
          (fun (acc : Option (fcp_t × Int)) (pair : fcp_pair_t) =>
            match acc with
            | none => none
            | some (f, ways) =>
              match f.ways_of pair.id1, f.ways_of pair.id2 with
              | some a, some b =>
                let status := a + b - pair.ways
                if pair.ways ≥ 2 ∧
                    pair.ways ≤
                      (f.mod.cache.assoc : Int) - ((f.pairing_pairs.length : Int) - 1) * 2 ∧
                    a > 0 ∧ b > 0 then
                  if status > 0 then
                    (fcp_shave pair.member (2 * status.toNat + 2) f status 0).map
                      fun f1 => (f1, ways + status)
                  else some (f, ways)
                else none
              | _, _ => none)
          (some (base.with_assigned_ways a, w))
          = some (base.with_assigned_ways a',
              w + fcp_pairs_assigned a L - fcp_pairs_assigned a' L) ∧
        (∀ p ∈ L, a' p.id1 + a' p.id2 ≤ p.ways) ∧
        (∀ t ∈ fcp_paired_threads L, 1 ≤ a' t) ∧
        ∀ t, t ∉ fcp_paired_threads L → a' t = a t := by
  induction L with
  | nil =>
    intro a w _ _ _
    refine ⟨a, ?_, fun p hp => (by cases hp), fun t ht => (by cases ht), fun _ _ => rfl⟩
    simp [fcp_pairs_assigned]
  | cons p L ih =>
    intro a w hnd hthr hbud
    obtain ⟨hne, hn1, hn2, hnd'⟩ := fcp_paired_threads_nodup hnd
    have hp1 := hthr p.id1 (List.mem_cons_self _ _)
    have hp2 := hthr p.id2 (List.mem_cons_of_mem _ (List.mem_cons_self _ _))
    have hb := hbud p (List.mem_cons_self _ _)
    -- the state after the pair `p`
    have hstep : ∃ a1, (∀ t, t ≠ p.id1 → t ≠ p.id2 → a1 t = a t) ∧
        a1 p.id1 + a1 p.id2 ≤ p.ways ∧ 1 ≤ a1 p.id1 ∧ 1 ≤ a1 p.id2 ∧
        (match (base.with_assigned_ways a).ways_of p.id1,
            (base.with_assigned_ways a).ways_of p.id2 with
          | some x, some y =>
            if p.ways ≥ 2 ∧
                p.ways ≤ ((base.with_assigned_ways a).mod.cache.assoc : Int) -
                  (((base.with_assigned_ways a).pairing_pairs.length : Int) - 1) * 2 ∧
                x > 0 ∧ y > 0 then
              if x + y - p.ways > 0 then
                (fcp_shave p.member (2 * (x + y - p.ways).toNat + 2)
                  (base.with_assigned_ways a) (x + y - p.ways) 0).map
                  fun f1 => (f1, w + (x + y - p.ways))
              else some (base.with_assigned_ways a, w)
            else none
          | _, _ => none) =
          some (base.with_assigned_ways a1,
            w + (a p.id1 + a p.id2) - (a1 p.id1 + a1 p.id2)) := by
      rw [fcp_ways_of_with base a p.id1 hp1.1, fcp_ways_of_with base a p.id2 hp2.1]
      dsimp only
      rw [if_pos ⟨hb.1, hb.2, by have := hp1.2; omega, by have := hp2.2; omega⟩]
      by_cases hs : a p.id1 + a p.id2 - p.ways > 0
      · rw [if_pos hs]
        obtain ⟨a1, he, hsum, h1', h2', hfr⟩ := fcp_shave_spec base p hne hp1.1 hp2.1
          (2 * (a p.id1 + a p.id2 - p.ways).toNat + 2) a (a p.id1 + a p.id2 - p.ways) 0
          (Or.inl rfl) (by omega) hp1.2 hp2.2 (by have := hb.1; omega)
          (by
            split_ifs <;> omega)
        refine ⟨a1, hfr, by omega, h1', h2', ?_⟩
        rw [he]
        simp only [Option.map_some', Option.some.injEq, Prod.mk.injEq, true_and]
        omega
      · rw [if_neg hs]
        refine ⟨a, fun _ _ _ => rfl, by omega, hp1.2, hp2.2, ?_⟩
        simp only [Option.some.injEq, Prod.mk.injEq, true_and]
        omega
    obtain ⟨a1, hfr1, hle1, h11, h12, hval⟩ := hstep
    have hsame : ∀ t ∈ fcp_paired_threads L, a1 t = a t := by
      intro t ht
      apply hfr1
      · intro hc
        rw [hc] at ht
        exact hn1 ht
      · intro hc
        rw [hc] at ht
        exact hn2 ht
    obtain ⟨a', hfold, hle, hone, hfr⟩ := ih a1
      (w + (a p.id1 + a p.id2) - (a1 p.id1 + a1 p.id2)) hnd'
      (by
        intro t ht
        have := hthr t (List.mem_cons_of_mem _ (List.mem_cons_of_mem _ ht))
        rw [hsame t ht]
        exact this)
      (fun q hq => hbud q (List.mem_cons_of_mem _ hq))
    have hk1 : a' p.id1 = a1 p.id1 := hfr _ hn1
    have hk2 : a' p.id2 = a1 p.id2 := hfr _ hn2
    refine ⟨a', ?_, ?_, ?_, ?_⟩
    · refine foldl_option_cons _ L _ p _ _ hval ?_
      rw [hfold, fcp_pairs_assigned_cons, fcp_pairs_assigned_cons, hk1, hk2,
        fcp_pairs_assigned_congr a a1 L hsame]
      congr 2
      omega
    · intro q hq
      rcases List.mem_cons.1 hq with rfl | hq'
      · rw [hk1, hk2]
        exact hle1
      · exact hle q hq'
    · intro t ht
      rcases List.mem_cons.1 ht with rfl | ht'
      · rw [hk1]
        exact h11
      · rcases List.mem_cons.1 ht' with rfl | ht''
        · rw [hk2]
          exact h12
        · exact hone t ht''
    · intro t ht
      have ht1 : t ≠ p.id1 := fun hc => ht (by rw [hc]; exact List.mem_cons_self _ _)
      have ht2 : t ≠ p.id2 := fun hc =>
        ht (by rw [hc]; exact List.mem_cons_of_mem _ (List.mem_cons_self _ _))
      have ht3 : t ∉ fcp_paired_threads L := fun hc =>
        ht (List.mem_cons_of_mem _ (List.mem_cons_of_mem _ hc))
      rw [hfr t ht3, hfr1 t ht1 ht2]

/-- The second loop of `fcp_pairing_adjust_ways` over the pairs `L`, none of
which holds more than its budget, with as many ways left as the pairs of `L`
lack: it returns, no assertion fails, every pair of `L` ends with its budget,
every member keeps its ways or gains some, and no other quota changes. -/
theorem fcp_reassign_ways_spec (base : fcp_t) (L : List fcp_pair_t) :
    ∀ (a : Int → Int) (w : Int) (b : Bool), (fcp_paired_threads L).Nodup →
      (∀ t ∈ fcp_paired_threads L, (base.data t).assigned_ways = some t ∧ 1 ≤ a t) →
      (∀ p ∈ L, a p.id1 + a p.id2 ≤ p.ways) →
      w = fcp_pairs_budget L - fcp_pairs_assigned a L → (b = true → w = 0) →
      ∃ r : (Int → Int) × Int × Bool, L.foldl
          (fun (acc : Option (fcp_t × Int × Bool)) (pair : fcp_pair_t) =>
            match acc with
            | none => none
            | some (f, ways, true) => some (f, ways, true)
            | some (f, ways, false) =>
              match f.ways_of pair.id1, f.ways_of pair.id2 with
              | some a, some b =>
                let status := a + b - pair.ways
                let r : Option (fcp_t × Int) :=
                  if status < 0 then
                    (fcp_grant pair.member pair.ways (2 * (-status).toNat + 2) f status 0).map
                      fun f1 => (f1, ways + status)
                  else some (f, ways)
                match r with
                | none => none
                | some (f1, ways1) =>
                  if ways1 ≥ 0 then some (f1, ways1, decide (ways1 = 0)) else none
              | _, _ => none)
          (some (base.with_assigned_ways a, w, b))
          = some (base.with_assigned_ways r.1, r.2) ∧
        (∀ p ∈ L, r.1 p.id1 + r.1 p.id2 = p.ways) ∧
        (∀ t ∈ fcp_paired_threads L, 1 ≤ r.1 t) ∧
        ∀ t, t ∉ fcp_paired_threads L → r.1 t = a t := by
  induction L with
  | nil =>
    intro a w b _ _ _ _ _
    exact ⟨(a, w, b), rfl, fun p hp => (by cases hp), fun t ht => (by cases ht),
      fun _ _ => rfl⟩
  | cons p L ih =>
    intro a w b hnd hthr hle hw hb
    obtain ⟨hne, hn1, hn2, hnd'⟩ := fcp_paired_threads_nodup hnd
    have hp1 := hthr p.id1 (List.mem_cons_self _ _)
    have hp2 := hthr p.id2 (List.mem_cons_of_mem _ (List.mem_cons_self _ _))
    have hlep := hle p (List.mem_cons_self _ _)
    have hrest := fcp_pairs_assigned_le a L (fun q hq => hle q (List.mem_cons_of_mem _ hq))
    rw [fcp_pairs_budget_cons, fcp_pairs_assigned_cons] at hw
    cases b with
    | true =>
      -- the loop has been left, with no way left: the pairs hold their budgets
      have hw0 : w = 0 := hb rfl
      obtain ⟨r, hfold, hall, hone, hfr⟩ := ih a w true hnd'
        (fun t ht => hthr t (List.mem_cons_of_mem _ (List.mem_cons_of_mem _ ht)))
        (fun q hq => hle q (List.mem_cons_of_mem _ hq)) (by omega) (fun _ => hw0)
      refine ⟨r, foldl_option_cons _ L _ p _ _ rfl hfold, ?_, ?_, ?_⟩
      · intro q hq
        rcases List.mem_cons.1 hq with rfl | hq'
        · rw [hfr _ hn1, hfr _ hn2]
          omega
        · exact hall q hq'
      · intro t ht
        rcases List.mem_cons.1 ht with rfl | ht'
        · rw [hfr _ hn1]
          exact hp1.2
        · rcases List.mem_cons.1 ht' with rfl | ht''
          · rw [hfr _ hn2]
            exact hp2.2
          · exact hone t ht''
      · intro t ht
        exact hfr t (fun hc => ht (List.mem_cons_of_mem _ (List.mem_cons_of_mem _ hc)))
    | false =>
      have hstep : ∃ a1, (∀ t, t ≠ p.id1 → t ≠ p.id2 → a1 t = a t) ∧
          a1 p.id1 + a1 p.id2 = p.ways ∧ 1 ≤ a1 p.id1 ∧ 1 ≤ a1 p.id2 ∧
          (match (base.with_assigned_ways a).ways_of p.id1,
              (base.with_assigned_ways a).ways_of p.id2 with
            | some x, some y =>
              match (if x + y - p.ways < 0 then
                  (fcp_grant p.member p.ways (2 * (-(x + y - p.ways)).toNat + 2)
                    (base.with_assigned_ways a) (x + y - p.ways) 0).map
                    fun f1 => (f1, w + (x + y - p.ways))
                else some (base.with_assigned_ways a, w) : Option (fcp_t × Int)) with
              | none => none
              | some (f1, ways1) =>
                if ways1 ≥ 0 then some (f1, ways1, decide (ways1 = 0)) else none
            | _, _ => none) =
            some (base.with_assigned_ways a1, w + (a p.id1 + a p.id2 - p.ways),
              decide (w + (a p.id1 + a p.id2 - p.ways) = 0)) := by
        rw [fcp_ways_of_with base a p.id1 hp1.1, fcp_ways_of_with base a p.id2 hp2.1]
        dsimp only
        by_cases hs : a p.id1 + a p.id2 - p.ways < 0
        · rw [if_pos hs]
          obtain ⟨a1, he, hsum, h1', h2', hfr⟩ := fcp_grant_spec base p hne hp1.1 hp2.1
            (2 * (-(a p.id1 + a p.id2 - p.ways)).toNat + 2) a (a p.id1 + a p.id2 - p.ways) 0
            (Or.inl rfl) (by omega) hp1.2 hp2.2 (by omega) (by omega)
          refine ⟨a1, hfr, hsum, h1', h2', ?_⟩
          rw [he]
          simp only [Option.map_some']
          rw [if_pos (by omega)]
        · rw [if_neg hs]
          refine ⟨a, fun _ _ _ => rfl, by omega, hp1.2, hp2.2, ?_⟩
          dsimp only
          have e : a p.id1 + a p.id2 - p.ways = 0 := by omega
          rw [e, add_zero, if_pos (by omega)]
      obtain ⟨a1, hfr1, heq1, h11, h12, hval⟩ := hstep
      have hsame : ∀ t ∈ fcp_paired_threads L, a1 t = a t := by
        intro t ht
        apply hfr1
        · intro hc
          rw [hc] at ht
          exact hn1 ht
        · intro hc
          rw [hc] at ht
          exact hn2 ht
      obtain ⟨r, hfold, hall, hone, hfr⟩ := ih a1 (w + (a p.id1 + a p.id2 - p.ways))
        (decide (w + (a p.id1 + a p.id2 - p.ways) = 0)) hnd'
        (by
          intro t ht
          have := hthr t (List.mem_cons_of_mem _ (List.mem_cons_of_mem _ ht))
          rw [hsame t ht]
          exact this)
        (by
          intro q hq
          have hq' := fcp_paired_threads_mem hq
          rw [hsame _ hq'.1, hsame _ hq'.2]
          exact hle q (List.mem_cons_of_mem _ hq))
        (by
          rw [fcp_pairs_assigned_congr a a1 L hsame]
          omega)
        (fun h => of_decide_eq_true h)
      have hk1 : r.1 p.id1 = a1 p.id1 := hfr _ hn1
      have hk2 : r.1 p.id2 = a1 p.id2 := hfr _ hn2
      refine ⟨r, foldl_option_cons _ L _ p _ _ hval hfold, ?_, ?_, ?_⟩
      · intro q hq
        rcases List.mem_cons.1 hq with rfl | hq'
        · rw [hk1, hk2]
          exact heq1
        · exact hall q hq'
      · intro t ht
        rcases List.mem_cons.1 ht with rfl | ht'
        · rw [hk1]
          exact h11
        · rcases List.mem_cons.1 ht' with rfl | ht''
          · rw [hk2]
            exact h12
          · exact hone t ht''
      · intro t ht
        have ht1 : t ≠ p.id1 := fun hc => ht (by rw [hc]; exact List.mem_cons_self _ _)
        have ht2 : t ≠ p.id2 := fun hc =>
          ht (by rw [hc]; exact List.mem_cons_of_mem _ (List.mem_cons_self _ _))
        have ht3 : t ∉ fcp_paired_threads L := fun hc =>
          ht (List.mem_cons_of_mem _ (List.mem_cons_of_mem _ hc))
        rw [hfr t ht3, hfr1 t ht1 ht2]

/-- The function `fcp_pairing_adjust_ways` on pairs of distinct threads whose
budgets satisfy its assertion: it returns and every pair ends with its
budget. -/
theorem fcp_pairing_adjust_ways_spec (fcp : fcp_t)
    (hnd : (fcp_paired_threads fcp.pairing_pairs).Nodup)
    (hptr : ∀ t ∈ fcp_paired_threads fcp.pairing_pairs, (fcp.data t).assigned_ways = some t)
    (hone : ∀ t ∈ fcp_paired_threads fcp.pairing_pairs, 1 ≤ fcp.mod.cache.assigned_ways t)
    (hbud : ∀ p ∈ fcp.pairing_pairs, 2 ≤ p.ways)
    (hsum : fcp_pairs_assigned fcp.mod.cache.assigned_ways fcp.pairing_pairs =
      fcp_pairs_budget fcp.pairing_pairs)
    (hbound : ∀ p ∈ fcp.pairing_pairs, p.ways ≤
      (fcp.mod.cache.assoc : Int) - ((fcp.pairing_pairs.length : Int) - 1) * 2) :
    ∃ f, fcp_pairing_adjust_ways fcp = some f ∧ f.pairing_pairs = fcp.pairing_pairs ∧
      (∀ p ∈ fcp.pairing_pairs,
        f.mod.cache.assigned_ways p.id1 + f.mod.cache.assigned_ways p.id2 = p.ways) ∧
      (∀ t ∈ fcp_paired_threads fcp.pairing_pairs, 1 ≤ f.mod.cache.assigned_ways t) ∧
      fcp_pairs_assigned f.mod.cache.assigned_ways fcp.pairing_pairs =
        fcp_pairs_assigned fcp.mod.cache.assigned_ways fcp.pairing_pairs ∧
      ∀ t, t ∉ fcp_paired_threads fcp.pairing_pairs →
        f.mod.cache.assigned_ways t = fcp.mod.cache.assigned_ways t := by
  obtain ⟨a1, hfold, hle, hone1, hfr1⟩ := fcp_recover_ways_spec fcp fcp.pairing_pairs
    fcp.mod.cache.assigned_ways 0 hnd (fun t ht => ⟨hptr t ht, hone t ht⟩)
    (fun p hp => ⟨hbud p hp, hbound p hp⟩)
  have hrec : fcp_recover_ways fcp = some (fcp.with_assigned_ways a1,
      0 + fcp_pairs_assigned fcp.mod.cache.assigned_ways fcp.pairing_pairs -
        fcp_pairs_assigned a1 fcp.pairing_pairs) := hfold
  unfold fcp_pairing_adjust_ways
  rw [hrec]
  dsimp only
  by_cases hw : 0 + fcp_pairs_assigned fcp.mod.cache.assigned_ways fcp.pairing_pairs -
      fcp_pairs_assigned a1 fcp.pairing_pairs > 0
  · rw [if_pos hw]
    obtain ⟨r, hfold2, hall, hone2, hfr2⟩ := fcp_reassign_ways_spec fcp fcp.pairing_pairs a1
      (0 + fcp_pairs_assigned fcp.mod.cache.assigned_ways fcp.pairing_pairs -
        fcp_pairs_assigned a1 fcp.pairing_pairs) false hnd
      (fun t ht => ⟨hptr t ht, hone1 t ht⟩) hle (by omega) (fun h => (by cases h))
    have hre : fcp_reassign_ways (fcp.with_assigned_ways a1)
        (0 + fcp_pairs_assigned fcp.mod.cache.assigned_ways fcp.pairing_pairs -
          fcp_pairs_assigned a1 fcp.pairing_pairs) = some (fcp.with_assigned_ways r.1, r.2) :=
      hfold2
    rw [hre]
    refine ⟨fcp.with_assigned_ways r.1, rfl, rfl, hall, hone2, ?_, ?_⟩
    · show fcp_pairs_assigned r.1 fcp.pairing_pairs = _
      rw [fcp_pairs_assigned_budget r.1 _ hall, hsum]
    · intro t ht
      show r.1 t = _
      rw [hfr2 t ht, hfr1 t ht]
  · rw [if_neg hw]
    have hall := fcp_pairs_assigned_eq a1 fcp.pairing_pairs hle (by omega)
    refine ⟨fcp.with_assigned_ways a1, rfl, rfl, hall, hone1, ?_, hfr1⟩
    show fcp_pairs_assigned a1 fcp.pairing_pairs = _
    rw [fcp_pairs_assigned_budget a1 _ hall, hsum]


theorem foldl_option_none {α β : Type} (F : Option α → β → Option α)
    (hF : ∀ p, F none p = none) (L : List β) : L.foldl F none = none := by
  induction L with
  | nil => rfl
  | cons p L ih => rw [List.foldl_cons, hF, ih]

/-- A fold that stops for good at the first element it rejects. -/
theorem foldl_option_abort {α β : Type} (F : Option α → β → Option α) (S : α → Prop)
    (bad : β → Prop) (hnone : ∀ p, F none p = none)
    (hshape : ∀ x p y, S x → F (some x) p = some y → S y)
    (hbad : ∀ x p, S x → bad p → F (some x) p = none) :
    ∀ (L : List β) (x : α), S x → (∃ p ∈ L, bad p) → L.foldl F (some x) = none := by
  intro L
  induction L with
  | nil =>
    intro x _ h
    obtain ⟨p, hp, _⟩ := h
    cases hp
  | cons q L ih =>
    intro x hx h
    rw [List.foldl_cons]
    cases hv : F (some x) q with
    | none => exact foldl_option_none F hnone L
    | some y =>
      obtain ⟨p, hp, hpb⟩ := h
      rcases List.mem_cons.1 hp with rfl | hp'
      · rw [hbad x p hx hpb] at hv
        cases hv
      · exact ih y (hshape x q y hx hv) ⟨p, hp', hpb⟩

theorem fcp_shave_shape (base : fcp_t) (ids : Int → Int) (fuel : Nat) :
    ∀ (a : Int → Int) (status count : Int) (r : fcp_t),
      fcp_shave ids fuel (base.with_assigned_ways a) status count = some r →
      ∃ a', r = base.with_assigned_ways a' := by
  induction fuel with
  | zero =>
    intro a status count r h
    cases h
  | succ fuel ih =>
    intro a status count r h
    rw [fcp_shave] at h
    split_ifs at h
    · split at h
      · cases h
      · split_ifs at h
        · exact ih _ _ _ r h
        · exact ih _ _ _ r h
    · simp only [Option.some.injEq] at h
      exact ⟨a, h.symm⟩

/-- A pair whose budget fails the assertion of `fcp_pairing_adjust_ways` makes
the function abort. -/
theorem fcp_pairing_adjust_ways_aborts (fcp : fcp_t) (p : fcp_pair_t)
    (hp : p ∈ fcp.pairing_pairs)
    (hbad : ¬ p.ways ≤
      (fcp.mod.cache.assoc : Int) - ((fcp.pairing_pairs.length : Int) - 1) * 2) :
    fcp_pairing_adjust_ways fcp = none := by
  have hrec : fcp_recover_ways fcp = none := by
    unfold fcp_recover_ways
    refine foldl_option_abort _ (fun x => ∃ a, x.1 = fcp.with_assigned_ways a)
      (fun q => ¬ q.ways ≤
        (fcp.mod.cache.assoc : Int) - ((fcp.pairing_pairs.length : Int) - 1) * 2)
      (fun _ => rfl) ?_ ?_ fcp.pairing_pairs (fcp, 0) ⟨fcp.mod.cache.assigned_ways, rfl⟩
      ⟨p, hp, hbad⟩
    · intro x q y hx hv
      obtain ⟨f, w⟩ := x
      obtain ⟨a, ha⟩ := hx
      dsimp only at ha
      subst ha
      dsimp only at hv
      split at hv
      · split_ifs at hv
        · cases ht : fcp_shave q.member _ (fcp.with_assigned_ways a) _ 0 with
          | none =>
            rw [ht] at hv
            cases hv
          | some f1 =>
            rw [ht] at hv
            simp only [Option.map_some', Option.some.injEq] at hv
            rw [← hv]
            exact fcp_shave_shape fcp _ _ a _ _ f1 ht
        · simp only [Option.some.injEq] at hv
          rw [← hv]
          exact ⟨a, rfl⟩
      · cases hv
    · intro x q hx hq
      obtain ⟨f, w⟩ := x
      obtain ⟨a, ha⟩ := hx
      dsimp only at ha
      subst ha
      dsimp only
      split
      · rw [if_neg]
        intro hc
        exact hq hc.2.1
      · rfl
  unfold fcp_pairing_adjust_ways
  rw [hrec]

/-! ## The history of unfairness values along `fcp_repartition` -/

theorem fcp_history_kept_refl (f : fcp_t) : fcp_history_kept f f := ⟨rfl, rfl⟩

theorem fcp_history_kept_trans {f g h : fcp_t} (h1 : fcp_history_kept f g)
    (h2 : fcp_history_kept g h) : fcp_history_kept f h :=
  ⟨h2.1.trans h1.1, h2.2.trans h1.2⟩

theorem fcp_seed_history (fcp : fcp_t) (n : Nat) : fcp_history_kept fcp (fcp_seed n fcp).1 := by
  induction n with
  | zero => exact fcp_history_kept_refl fcp
  | succ n ih =>
    rw [fcp_seed_succ]
    dsimp only
    split_ifs <;> exact ih

theorem fcp_redistribute_history (total fuel : Nat) :
    ∀ (fcp : fcp_t) (ways i : Int) (r : fcp_t),
      fcp_redistribute total fuel fcp ways i = some r → fcp_history_kept fcp r := by
  induction fuel with
  | zero =>
    intro fcp ways i r h
    cases h
  | succ fuel ih =>
    intro fcp ways i r h
    by_cases hw0 : ways = 0
    · subst hw0
      rw [fcp_redistribute_zero] at h
      cases h
      exact fcp_history_kept_refl fcp
    by_cases hr : fcp.mod.reachable_threads (i % (total : Int)) = true
    · by_cases hpos : 0 < ways
      · rw [fcp_redistribute_give total fuel fcp ways i hpos hr] at h
        have := ih _ _ _ r h
        exact this
      · have hneg : ways < 0 := by omega
        by_cases ha : 1 < fcp.mod.cache.assigned_ways (i % (total : Int))
        · rw [fcp_redistribute_take total fuel fcp ways i hneg hr ha] at h
          have := ih _ _ _ r h
          exact this
        · rw [fcp_redistribute_keep total fuel fcp ways i hneg hr ha] at h
          have := ih _ _ _ r h
          exact this
    · rw [fcp_redistribute_skip total fuel fcp ways i hw0 hr] at h
      have := ih _ _ _ r h
      exact this

theorem fcp_pairing_history (fcp f : fcp_t) (h : fcp_pairing fcp = some f) :
    fcp_history_kept fcp f := by
  unfold fcp_pairing at h
  dsimp only at h
  split_ifs at h with h1 h2 h3
  all_goals first
    | cases h
    | skip
  all_goals
    cases hp : fcp.pairing_policy <;> rw [hp] at h <;> dsimp only at h
  all_goals first
    | (cases h <;> exact ⟨rfl, rfl⟩)
    | (split at h
       · cases h
       · rename_i g hfold
         split_ifs at h
         simp only [Option.some.injEq] at h
         rw [← h]
         have := fcp_add_pairs_state _ _ _ _ g
          (by
            intro g' hg'
            simp only [Option.some.injEq] at hg'
            rw [← hg']
            exact ⟨rfl, rfl, rfl, rfl⟩) hfold
         exact ⟨this.2.1, this.2.2.1⟩)

theorem fcp_repair_history (fcp f : fcp_t) (pm : Bool) (h : fcp_repair fcp = some (f, pm)) :
    fcp_history_kept fcp f := by
  unfold fcp_repair at h
  split_ifs at h
  all_goals first
    | (simp only [Option.some.injEq, Prod.mk.injEq] at h
       rw [← h.1]
       exact fcp_history_kept_refl fcp)
    | (cases hp : fcp_pairing fcp with
       | none =>
         rw [hp] at h
         cases h
       | some g =>
         rw [hp] at h
         simp only [Option.map_some', Option.some.injEq, Prod.mk.injEq] at h
         rw [← h.1]
         exact fcp_pairing_history fcp g hp)

theorem fcp_transfer_history (fcp f : fcp_t) (mn mx : Int)
    (h : fcp_transfer fcp mn mx = some f) : fcp_history_kept fcp f := by
  unfold fcp_transfer at h
  split at h
  · cases h
  · split_ifs at h
    · split at h
      · cases h
      · dsimp only at h
        split at h
        · simp only [Option.some.injEq] at h
          rw [← h]
          exact ⟨rfl, rfl⟩
        · cases h
    · simp only [Option.some.injEq] at h
      rw [← h]
      exact ⟨rfl, rfl⟩

theorem fcp_pair_transfers_history (pairs : List fcp_pair_t) :
    ∀ (acc : Option (fcp_t × Int × Int)) (f0 : fcp_t) (r : fcp_t × Int × Int),
      (∀ g, acc = some g → fcp_history_kept f0 g.1) →
      pairs.foldl
        (fun (acc : Option (fcp_t × Int × Int)) (pair : fcp_pair_t) =>
          match acc with
          | none => none
          | some (f, mn, mx) =>
            if pair.ways ≥ 2 then
              let s1 := (f.data pair.id1).individual_speedup
              let s2 := (f.data pair.id2).individual_speedup
              let mm : Int × Int :=
                if double.lt s2 s1 then (pair.id2, pair.id1)
                else if double.lt s1 s2 then (pair.id1, pair.id2)
                else (mn, mx)
              (fcp_transfer f mm.1 mm.2).map fun f1 => (f1, mm.1, mm.2)
            else none) acc = some r →
      fcp_history_kept f0 r.1 := by
  induction pairs with
  | nil =>
    intro acc f0 r hacc h
    exact hacc r h
  | cons p rest ih =>
    intro acc f0 r hacc h
    rw [List.foldl_cons] at h
    refine ih _ f0 r ?_ h
    intro g hg
    cases acc with
    | none => cases hg
    | some a =>
      obtain ⟨f, mn, mx⟩ := a
      have ha := hacc (f, mn, mx) rfl
      dsimp only at hg
      split_ifs at hg
      all_goals
        cases ht : fcp_transfer f _ _ with
        | none =>
          rw [ht] at hg
          cases hg
        | some f1 =>
          rw [ht] at hg
          simp only [Option.map_some', Option.some.injEq] at hg
          rw [← hg]
          exact fcp_history_kept_trans ha (fcp_transfer_history f f1 _ _ ht)

theorem fcp_shave_history (ids : Int → Int) (fuel : Nat) :
    ∀ (fcp : fcp_t) (status count : Int) (r : fcp_t),
      fcp_shave ids fuel fcp status count = some r → fcp_history_kept fcp r := by
  induction fuel with
  | zero =>
    intro fcp status count r h
    cases h
  | succ fuel ih =>
    intro fcp status count r h
    rw [fcp_shave] at h
    split_ifs at h
    · split at h
      · cases h
      · split_ifs at h
        · have := ih _ _ _ r h
          exact this
        · have := ih _ _ _ r h
          exact this
    · simp only [Option.some.injEq] at h
      rw [← h]
      exact fcp_history_kept_refl fcp

theorem fcp_grant_history (ids : Int → Int) (pw : Int) (fuel : Nat) :
    ∀ (fcp : fcp_t) (status count : Int) (r : fcp_t),
      fcp_grant ids pw fuel fcp status count = some r → fcp_history_kept fcp r := by
  induction fuel with
  | zero =>
    intro fcp status count r h
    cases h
  | succ fuel ih =>
    intro fcp status count r h
    rw [fcp_grant] at h
    split_ifs at h
    · split at h
      · cases h
      · split_ifs at h
        · have := ih _ _ _ r h
          exact this
        · have := ih _ _ _ r h
          exact this
    · simp only [Option.some.injEq] at h
      rw [← h]
      exact fcp_history_kept_refl fcp

theorem fcp_recover_ways_history (pairs : List fcp_pair_t) :
    ∀ (acc : Option (fcp_t × Int)) (f0 : fcp_t) (r : fcp_t × Int),
      (∀ g, acc = some g → fcp_history_kept f0 g.1) →
      pairs.foldl
        (fun (acc : Option (fcp_t × Int)) (pair : fcp_pair_t) =>
          match acc with
          | none => none
          | some (f, ways) =>
            match f.ways_of pair.id1, f.ways_of pair.id2 with
            | some a, some b =>
              let status := a + b - pair.ways
              if pair.ways ≥ 2 ∧
                  pair.ways ≤ (f.mod.cache.assoc : Int) - ((f.pairing_pairs.length : Int) - 1) * 2 ∧
                  a > 0 ∧ b > 0 then
                if status > 0 then
                  (fcp_shave pair.member (2 * status.toNat + 2) f status 0).map
                    fun f1 => (f1, ways + status)
                else some (f, ways)
              else none
            | _, _ => none) acc = some r →
      fcp_history_kept f0 r.1 := by
  induction pairs with
  | nil =>
    intro acc f0 r hacc h
    exact hacc r h
  | cons p rest ih =>
    intro acc f0 r hacc h
    rw [List.foldl_cons] at h
    refine ih _ f0 r ?_ h
    intro g hg
    cases acc with
    | none => cases hg
    | some a =>
      obtain ⟨f, ways⟩ := a
      have ha := hacc (f, ways) rfl
      dsimp only at hg
      split at hg
      · split_ifs at hg
        · cases ht : fcp_shave p.member _ f _ 0 with
          | none =>
            rw [ht] at hg
            cases hg
          | some f1 =>
            rw [ht] at hg
            simp only [Option.map_some', Option.some.injEq] at hg
            rw [← hg]
            exact fcp_history_kept_trans ha (fcp_shave_history _ _ f _ _ f1 ht)
        · simp only [Option.some.injEq] at hg
          rw [← hg]
          exact ha
      · cases hg

theorem fcp_reassign_ways_history (pairs : List fcp_pair_t) :
    ∀ (acc : Option (fcp_t × Int × Bool)) (f0 : fcp_t) (r : fcp_t × Int × Bool),
      (∀ g, acc = some g → fcp_history_kept f0 g.1) →
      pairs.foldl
        (fun (acc : Option (fcp_t × Int × Bool)) (pair : fcp_pair_t) =>
          match acc with
          | none => none
          | some (f, ways, true) => some (f, ways, true)
          | some (f, ways, false) =>
            match f.ways_of pair.id1, f.ways_of pair.id2 with
            | some a, some b =>
              let status := a + b - pair.ways
              let r : Option (fcp_t × Int) :=
                if status < 0 then
                  (fcp_grant pair.member pair.ways (2 * (-status).toNat + 2) f status 0).map
                    fun f1 => (f1, ways + status)
                else some (f, ways)
              match r with
              | none => none
              | some (f1, ways1) =>
                if ways1 ≥ 0 then some (f1, ways1, decide (ways1 = 0)) else none
            | _, _ => none) acc = some r →
      fcp_history_kept f0 r.1 := by
  induction pairs with
  | nil =>
    intro acc f0 r hacc h
    exact hacc r h
  | cons p rest ih =>
    intro acc f0 r hacc h
    rw [List.foldl_cons] at h
    refine ih _ f0 r ?_ h
    intro g hg
    cases acc with
    | none => cases hg
    | some a =>
      obtain ⟨f, ways, b⟩ := a
      have ha := hacc (f, ways, b) rfl
      cases b with
      | true =>
        simp only [Option.some.injEq] at hg
        rw [← hg]
        exact ha
      | false =>
        dsimp only at hg
        split at hg
        · split at hg
          · cases hg
          · rename_i f1 ways1 hr
            split_ifs at hg
            simp only [Option.some.injEq] at hg
            rw [← hg]
            show fcp_history_kept f0 f1
            split_ifs at hr
            · cases ht : fcp_grant p.member p.ways _ f _ 0 with
              | none =>
                rw [ht] at hr
                cases hr
              | some f2 =>
                rw [ht] at hr
                simp only [Option.map_some', Option.some.injEq, Prod.mk.injEq] at hr
                rw [← hr.1]
                exact fcp_history_kept_trans ha (fcp_grant_history _ _ _ f _ _ f2 ht)
            · simp only [Option.some.injEq, Prod.mk.injEq] at hr
              rw [← hr.1]
              exact ha
        · cases hg

theorem fcp_pairing_adjust_ways_history (fcp f : fcp_t)
    (h : fcp_pairing_adjust_ways fcp = some f) : fcp_history_kept fcp f := by
  unfold fcp_pairing_adjust_ways at h
  split at h
  · cases h
  · rename_i g ways hrec
    have hg : fcp_history_kept fcp g := by
      unfold fcp_recover_ways at hrec
      exact fcp_recover_ways_history fcp.pairing_pairs _ fcp (g, ways)
        (by
          intro g' hg'
          simp only [Option.some.injEq] at hg'
          rw [← hg']
          exact fcp_history_kept_refl fcp) hrec
    split_ifs at h
    · cases hre : fcp_reassign_ways g ways with
      | none =>
        rw [hre] at h
        cases h
      | some r =>
        rw [hre] at h
        simp only [Option.map_some', Option.some.injEq] at h
        rw [← h]
        unfold fcp_reassign_ways at hre
        exact fcp_history_kept_trans hg (fcp_reassign_ways_history g.pairing_pairs _ g r
          (by
            intro g' hg'
            simp only [Option.some.injEq] at hg'
            rw [← hg']
            exact fcp_history_kept_refl g) hre)
    · simp only [Option.some.injEq] at h
      rw [← h]
      exact hg

theorem fcp_action_history (total : Nat) (fcp f : fcp_t) (mn mx : Int) (pm : Bool)
    (h : fcp_action total fcp mn mx pm = some f) : fcp_history_kept fcp f := by
  unfold fcp_action at h
  cases hs : fcp.state with
  | OFF =>
    rw [hs] at h
    dsimp only at h
    split_ifs at h
    simp only [Option.some.injEq] at h
    rw [← h]
    exact fcp_history_kept_refl fcp
  | BACKOFF =>
    rw [hs] at h
    dsimp only at h
    split_ifs at h
    simp only [Option.some.injEq] at h
    rw [← h]
    exact ⟨rfl, rfl⟩
  | ON =>
    rw [hs] at h
    dsimp only at h
    split at h
    · cases h
    · rename_i g hg
      have hgs : fcp_history_kept fcp g := by
        split_ifs at hg
        · split at hg
          · cases hg
          · rename_i g1 ht
            split_ifs at hg
            simp only [Option.some.injEq] at hg
            rw [← hg]
            exact fcp_transfer_history fcp g1 mn mx ht
        · unfold fcp_pair_transfers at hg
          cases hf : fcp.pairing_pairs.foldl _ (some (fcp, mn, mx)) with
          | none =>
            rw [hf] at hg
            cases hg
          | some r =>
            rw [hf] at hg
            simp only [Option.map_some', Option.some.injEq] at hg
            rw [← hg]
            exact fcp_pair_transfers_history fcp.pairing_pairs _ fcp r
              (by
                intro g' hg'
                simp only [Option.some.injEq] at hg'
                rw [← hg']
                exact fcp_history_kept_refl fcp) hf
      split_ifs at h
      · exact fcp_history_kept_trans hgs (fcp_pairing_adjust_ways_history g f h)
      · simp only [Option.some.injEq] at h
        rw [← h]
        exact hgs

theorem fcp_disable_history (fcp : fcp_t) (n : Nat) :
    fcp_history_kept fcp (fcp_disable n fcp) := by
  obtain ⟨a, hd, _⟩ := fcp_disable_spec fcp n
  rw [hd]
  exact ⟨rfl, rfl⟩

theorem fcp_transition_history (total : Nat) (fcp f : fcp_t) (u : double)
    (h : fcp_transition total fcp u = some f) : fcp_history_kept fcp f := by
  have henter : ∀ g, (fcp_redistribute total (total * ((fcp_seed total fcp).2.natAbs + 1) + 1)
      (fcp_seed total fcp).1 (fcp_seed total fcp).2 0).map
      (fun g => { g with state := fcp_state_t.ON }) = some g → fcp_history_kept fcp g := by
    intro g hg
    cases hr : fcp_redistribute total (total * ((fcp_seed total fcp).2.natAbs + 1) + 1)
        (fcp_seed total fcp).1 (fcp_seed total fcp).2 0 with
    | none =>
      rw [hr] at hg
      cases hg
    | some r =>
      rw [hr] at hg
      simp only [Option.map_some', Option.some.injEq] at hg
      rw [← hg]
      exact fcp_history_kept_trans (fcp_seed_history fcp total)
        (fcp_redistribute_history total _ _ _ _ r hr)
  cases hs : fcp.state with
  | OFF =>
    rw [fcp_transition_off total fcp u hs] at h
    exact henter f h
  | BACKOFF =>
    by_cases hb : 0 < fcp.backoff
    · rw [fcp_transition_backoff_pos total fcp u hs hb] at h
      simp only [Option.some.injEq] at h
      rw [← h]
      exact fcp_history_kept_refl fcp
    · by_cases hb0 : fcp.backoff = 0
      · rw [fcp_transition_backoff_zero total fcp u hs hb0] at h
        exact henter f h
      · unfold fcp_transition at h
        simp only [hs] at h
        rw [if_neg hb, if_neg hb0] at h
        cases h
  | ON =>
    rcases Bool.eq_false_or_eq_true (fcp_unfairness_increasing fcp u) with hinc | hinc
    · rw [fcp_transition_on_leave total fcp u hs hinc] at h
      simp only [Option.some.injEq] at h
      rw [← h]
      exact fcp_disable_history
        { fcp with backoff := FCP_BACKOFF_INTERVALS, state := fcp_state_t.BACKOFF } total
    · rw [fcp_transition_on_stay total fcp u hs hinc] at h
      simp only [Option.some.injEq] at h
      rw [← h]
      exact fcp_history_kept_refl fcp

/-- A call of `fcp_repartition` that passes the gate and returns, with or
without pairing: the value `unfairness` of the call is that of
`fcp_unfairness`; if the state has changed `state_counter` is 0 and the history
is as it was, else the value is stored at `state_counter % FCP_HISTORY_SIZE`
and `state_counter` goes up by one. -/
theorem fcp_repartition_history (list_sort : (Int → Int → Int) → List Int → List Int)
    (nc nt : Nat) (esim : esim_t) (fcp f : fcp_t)
    (hgate : fcp_gate (nc * nt) esim fcp)
    (h : fcp_repartition list_sort nc nt esim fcp = some f) :
    ∃ f2 mn mx u, fcp_unfairness list_sort (nc * nt) esim fcp = some (f2, mn, mx, u) ∧
      (f.state ≠ fcp.state → f.state_counter = 0 ∧
        f.last_unfairness_values = fcp.last_unfairness_values) ∧
      (f.state = fcp.state → f.state_counter = fcp.state_counter + 1 ∧
        f.last_unfairness_values =
          Function.update fcp.last_unfairness_values
            (fcp.state_counter % FCP_HISTORY_SIZE) u) := by
  unfold fcp_repartition at h
  dsimp only at h
  split_ifs at h with hc hg
  · exact absurd hg hgate
  · split at h
    · cases h
    · rename_i f2 mn mx u hunf
      have h2 := fcp_unfairness_state list_sort (nc * nt) esim fcp f2 mn mx u hunf
      split at h
      · cases h
      · rename_i f3 pm hrep
        have h3 := fcp_repair_state f2 f3 pm hrep
        have k3 := fcp_repair_history f2 f3 pm hrep
        split at h
        · cases h
        · rename_i f4 htr
          have k4 := fcp_transition_history (nc * nt) f3 f4 u htr
          split at h
          · cases h
          · rename_i f5 hact
            have k5 := fcp_action_history (nc * nt) f4 f5 mn mx pm hact
            simp only [Option.some.injEq] at h
            have hsc : f5.state_counter = fcp.state_counter := by
              rw [k5.1, k4.1, k3.1, h2.2.1]
            have hluv : f5.last_unfairness_values = fcp.last_unfairness_values := by
              rw [k5.2, k4.2, k3.2, h2.2.2.1]
            have hls : f3.state = fcp.state := by rw [h3, h2.1]
            have hrec := fcp_record_fields f5 f3.state u esim.esim_cycle
            refine ⟨f2, mn, mx, u, hunf, ?_, ?_⟩
            · intro hne
              rw [← h, hrec.1, ← hls] at hne
              have := hrec.2.2.2.2.2.1 hne
              rw [← h, this.1, this.2, hluv]
              exact ⟨rfl, rfl⟩
            · intro heq
              rw [← h, hrec.1, ← hls] at heq
              have := hrec.2.2.2.2.2.2 heq
              rw [← h, this.1, this.2, hluv, hsc]
              exact ⟨rfl, rfl⟩

theorem fcp_unfairness_value_eq (list_sort : (Int → Int → Int) → List Int → List Int)
    (total : Nat) (esim : esim_t) (fcp f2 : fcp_t) (mn mx : Int) (u : double)
    (h : fcp_unfairness list_sort total esim fcp = some (f2, mn, mx, u)) :
    u = double.div (f2.data mx).individual_speedup (f2.data mn).individual_speedup := by
  unfold fcp_unfairness at h
  dsimp only at h
  split at h
  · split_ifs at h
    simp only [Option.some.injEq, Prod.mk.injEq] at h
    obtain ⟨h1, h2, h3, h4⟩ := h
    rw [← h4, ← h1, ← h2, ← h3]
  · cases h

/-- One call of a run keeps the agreement of the history with the log. -/
theorem fcp_history_ok_step (list_sort : (Int → Int → Int) → List Int → List Int)
    (nc nt : Nat) (esim : esim_t) (fcp f : fcp_t)
    (log : List (fcp_state_t × fcp_state_t × double))
    (hok : fcp_history_ok fcp log)
    (h : fcp_repartition list_sort nc nt esim fcp = some f) :
    fcp_history_ok f (log ++
      (if fcp_gate (nc * nt) esim fcp then
        match fcp_unfairness list_sort (nc * nt) esim fcp with
        | some (_, _, _, unfairness) => [(fcp.state, f.state, unfairness)]
        | none => []
      else [])) := by
  by_cases hgate : fcp_gate (nc * nt) esim fcp
  · rw [if_pos hgate]
    obtain ⟨f2, mn, mx, u, hunf, hch, hsame⟩ :=
      fcp_repartition_history list_sort nc nt esim fcp f hgate h
    rw [hunf]
    dsimp only
    by_cases hs : f.state = fcp.state
    · obtain ⟨hsc, hluv⟩ := hsame hs
      refine ⟨by rw [hsc]; have := hok.1; omega, ?_⟩
      intro j hj
      rw [List.reverse_append, List.reverse_singleton]
      cases j with
      | zero =>
        refine ⟨(fcp.state, f.state, u), by simp, hs.symm, rfl, ?_⟩
        intro _
        rw [hluv, hsc]
        have e : (fcp.state_counter + 1 - 1 - ((0 : Nat) : Int)) % FCP_HISTORY_SIZE =
            fcp.state_counter % FCP_HISTORY_SIZE := by
          congr 1
          simp
        rw [e, Function.update_same]
      | succ j =>
        rw [hsc] at hj
        obtain ⟨e, he, h1, h2, h3⟩ := hok.2 j (by push_cast at hj; omega)
        refine ⟨e, ?_, by rw [hs]; exact h1, by rw [hs]; exact h2, ?_⟩
        · simpa using he
        · intro hj3
          rw [hluv, hsc, ← h3 (by omega)]
          have hne : (fcp.state_counter + 1 - 1 - ((j + 1 : Nat) : Int)) % FCP_HISTORY_SIZE ≠
              fcp.state_counter % FCP_HISTORY_SIZE := by
            unfold FCP_HISTORY_SIZE
            push_cast
            omega
          rw [Function.update_noteq hne]
          congr 1
          push_cast
          ring_nf
    · obtain ⟨hsc, _⟩ := hch hs
      refine ⟨by rw [hsc], ?_⟩
      intro j hj
      rw [hsc] at hj
      exfalso
      omega
  · rw [if_neg hgate, List.append_nil]
    unfold fcp_repartition at h
    dsimp only at h
    split_ifs at h with hc hg
    · simp only [Option.some.injEq] at h
      rw [← h]
      exact hok
    · exact absurd hg hgate

theorem fcp_run_log_history (list_sort : (Int → Int → Int) → List Int → List Int)
    (nc nt : Nat) (calls : List (esim_t × (Int → Int))) :
    ∀ (fcp f : fcp_t) (log0 log : List (fcp_state_t × fcp_state_t × double)),
      fcp_history_ok fcp log0 →
      fcp_run_log list_sort nc nt fcp calls = some (f, log) →
      fcp_history_ok f (log0 ++ log) := by
  induction calls with
  | nil =>
    intro fcp f log0 log hok h
    simp only [fcp_run_log, Option.some.injEq, Prod.mk.injEq] at h
    rw [← h.1, ← h.2, List.append_nil]
    exact hok
  | cons c rest ih =>
    intro fcp f log0 log hok h
    rw [fcp_run_log] at h
    cases hrep : fcp_repartition list_sort nc nt c.1 (fcp.with_used_ways c.2) with
    | none =>
      rw [hrep] at h
      cases h
    | some f1 =>
      rw [hrep] at h
      dsimp only at h
      cases hrest : fcp_run_log list_sort nc nt f1 rest with
      | none =>
        rw [hrest] at h
        cases h
      | some r =>
        rw [hrest] at h
        simp only [Option.map_some', Option.some.injEq, Prod.mk.injEq] at h
        have hok1 := fcp_history_ok_step list_sort nc nt c.1 (fcp.with_used_ways c.2) f1 log0
          hok hrep
        have := ih f1 r.1 _ r.2 hok1 hrest
        rw [List.append_assoc] at this
        rw [← h.1, ← h.2]
        exact this

/-! ## The pairs `fcp_pairing` makes -/

theorem pair_positions_perm (h : Nat) (f g : Nat → Nat)
    (hf : ∀ i, i < h → f i < 2 * h) (hg : ∀ i, i < h → g i < 2 * h)
    (hfi : ∀ i j, i < h → j < h → f i = f j → i = j)
    (hgi : ∀ i j, i < h → j < h → g i = g j → i = j)
    (hfg : ∀ i j, i < h → j < h → f i ≠ g j) :
    ((List.range h).map f ++ (List.range h).map g).Perm (List.range (2 * h)) := by
  apply List.Subperm.perm_of_length_le
  · apply List.subperm_of_subset
    · rw [List.nodup_append]
      refine ⟨?_, ?_, ?_⟩
      · exact List.Nodup.map_on
          (fun x hx y hy hxy => hfi x y (List.mem_range.1 hx) (List.mem_range.1 hy) hxy)
          (List.nodup_range h)
      · exact List.Nodup.map_on
          (fun x hx y hy hxy => hgi x y (List.mem_range.1 hx) (List.mem_range.1 hy) hxy)
          (List.nodup_range h)
      · intro a ha hb
        obtain ⟨i, hi, rfl⟩ := List.mem_map.1 ha
        obtain ⟨j, hj, hij⟩ := List.mem_map.1 hb
        exact hfg i j (List.mem_range.1 hi) (List.mem_range.1 hj) hij.symm
    · intro a ha
      rw [List.mem_range]
      rcases List.mem_append.1 ha with ha | ha
      · obtain ⟨i, hi, rfl⟩ := List.mem_map.1 ha
        exact hf i (List.mem_range.1 hi)
      · obtain ⟨i, hi, rfl⟩ := List.mem_map.1 ha
        exact hg i (List.mem_range.1 hi)
  · simp only [List.length_append, List.length_map, List.length_range]
    omega

theorem fcp_pairing_positions_perm (policy : thread_pairing_policy_t) (n : Nat)
    (heven : n % 2 = 0) :
    ((List.range (n / 2)).map (fun i => (fcp_pairing_positions policy n i).1) ++
      (List.range (n / 2)).map (fun i => (fcp_pairing_positions policy n i).2)).Perm
      (List.range n) := by
  have hn : 2 * (n / 2) = n := by omega
  have key := pair_positions_perm (n / 2) (fun i => (fcp_pairing_positions policy n i).1)
    (fun i => (fcp_pairing_positions policy n i).2)
  rw [hn] at key
  apply key
  all_goals
    cases policy <;> simp only [fcp_pairing_positions] <;> intros <;> omega

theorem fcp_paired_threads_map (idat : Nat → Int) (w : Int) (f g : Nat → Nat) (l : List Nat) :
    (fcp_paired_threads (l.map fun i => ({ id1 := idat (f i), id2 := idat (g i), ways := w } :
      fcp_pair_t))).Perm ((l.map f ++ l.map g).map idat) := by
  induction l with
  | nil => exact List.Perm.refl _
  | cons a l ih =>
    simp only [List.map_cons, fcp_paired_threads, List.cons_append, List.map_append]
    refine List.Perm.cons _ ?_
    refine List.Perm.trans (List.Perm.cons _ ih) ?_
    simp only [List.map_append]
    exact List.perm_middle.symm

theorem list_map_getD_range (l : List Int) :
    (List.range l.length).map (fun i => l.getD i 0) = l := by
  apply List.ext_getElem
  · simp
  · intro i h1 h2
    simp only [List.getElem_map, List.getElem_range]
    exact List.getD_eq_getElem l 0 h2

theorem fcp_pairing_expected_perm (fcp : fcp_t) (heven : fcp.threads.length % 2 = 0) :
    (fcp_paired_threads (fcp_pairing_expected fcp)).Perm
      (fcp.threads.map fun t => (fcp.data t).id) := by
  unfold fcp_pairing_expected
  refine List.Perm.trans (fcp_paired_threads_map (fcp_thread_id_at fcp) _
    (fun i => (fcp_pairing_positions fcp.pairing_policy fcp.threads.length i).1)
    (fun i => (fcp_pairing_positions fcp.pairing_policy fcp.threads.length i).2) _) ?_
  refine List.Perm.trans
    (List.Perm.map _ (fcp_pairing_positions_perm fcp.pairing_policy _ heven)) ?_
  have h : (List.range fcp.threads.length).map (fcp_thread_id_at fcp) =
      ((List.range fcp.threads.length).map (fun i => fcp.threads.getD i 0)).map
        (fun t => (fcp.data t).id) := by
    rw [List.map_map]
    rfl
  rw [h, list_map_getD_range]

theorem fcp_add_pair_spec (f : fcp_t) (i j : Nat) (ways : Int) (hi : i < f.threads.length)
    (hj : j < f.threads.length) :
    ∃ g, fcp_add_pair f i j ways = some g ∧ g.threads = f.threads ∧
      (∀ t, (g.data t).id = (f.data t).id) ∧ g.mod = f.mod ∧
      g.pairing_policy = f.pairing_policy ∧
      g.pairing_pairs = f.pairing_pairs ++
        [{ id1 := fcp_thread_id_at f i, id2 := fcp_thread_id_at f j, ways := ways }] := by
  have h1 : f.threads[i]? = some (f.threads.getD i 0) := by
    rw [List.getD_eq_getElem f.threads 0 hi, List.getElem?_eq_getElem hi]
  have h2 : f.threads[j]? = some (f.threads.getD j 0) := by
    rw [List.getD_eq_getElem f.threads 0 hj, List.getElem?_eq_getElem hj]
  unfold fcp_add_pair
  rw [h1, h2]
  refine ⟨_, rfl, rfl, ?_, rfl, rfl, rfl⟩
  intro t
  simp only [Function.update_apply]
  split_ifs <;> simp_all

theorem fcp_add_pairs_spec (w : Int) (h : Nat) (p : Nat → Nat × Nat) (l : List Nat) :
    ∀ f : fcp_t, (∀ i ∈ l, (p i).1 < f.threads.length ∧ (p i).2 < f.threads.length) →
    ∃ g, (l.map p).foldl
        (fun (acc : Option fcp_t) (q : Nat × Nat) =>
          acc.bind fun f => fcp_add_pair f q.1 q.2 w) (some f) = some g ∧
      g.threads = f.threads ∧ (∀ t, (g.data t).id = (f.data t).id) ∧ g.mod = f.mod ∧
      g.pairing_policy = f.pairing_policy ∧
      g.pairing_pairs = f.pairing_pairs ++ l.map fun i =>
        ({ id1 := fcp_thread_id_at f (p i).1, id2 := fcp_thread_id_at f (p i).2, ways := w } :
          fcp_pair_t) := by
  induction l with
  | nil =>
    intro f _
    exact ⟨f, rfl, rfl, fun _ => rfl, rfl, rfl, by simp⟩
  | cons a l ih =>
    intro f hl
    obtain ⟨ha1, ha2⟩ := hl a (List.mem_cons_self _ _)
    obtain ⟨g1, e1, t1, d1, m1, q1, pp1⟩ := fcp_add_pair_spec f (p a).1 (p a).2 w ha1 ha2
    obtain ⟨g, e, t, d, m, q, pp⟩ := ih g1 (fun i hi => by
      rw [t1]; exact hl i (List.mem_cons_of_mem _ hi))
    refine ⟨g, ?_, t.trans t1, fun x => (d x).trans (d1 x), m.trans m1, q.trans q1, ?_⟩
    · simp only [List.map_cons, List.foldl_cons]
      rw [show ((some f).bind fun f => fcp_add_pair f (p a).1 (p a).2 w) = some g1 from e1]
      exact e
    · rw [pp, pp1, List.append_assoc]
      have hid : ∀ k, fcp_thread_id_at g1 k = fcp_thread_id_at f k := fun k => by
        unfold fcp_thread_id_at
        rw [t1, d1]
      simp only [hid, List.map_cons, List.singleton_append]

theorem fcp_threads_sorted_of_chain (fcp : fcp_t)
    (h : fcp.threads.Chain' fun a b =>
      double.le (fcp.data a).individual_speedup (fcp.data b).individual_speedup) :
    fcp_threads_sorted fcp = true := by
  unfold fcp_threads_sorted
  rw [List.all_eq_true]
  intro i hi
  have hi' := List.mem_range.1 hi
  have h1 : i < fcp.threads.length := by omega
  have h2 : i + 1 < fcp.threads.length := by omega
  rw [List.getElem?_eq_getElem h1, List.getElem?_eq_getElem h2]
  simp only [decide_eq_true_eq]
  exact (List.chain'_iff_get.1 h) i hi'

/-! ## The links along the recency list -/

theorem way_chain_links {b : Nat → cache_block_t} {l : List Nat} {p n : Option Nat}
    (h : way_chain b p l n) :
    ∀ i x y, l[i]? = some x → l[i + 1]? = some y →
      (b x).way_next = some y ∧ (b y).way_prev = some x := by
  induction l generalizing p with
  | nil =>
    intro i x y hx
    simp at hx
  | cons a l ih =>
    intro i x y hx hy
    obtain ⟨_, hn, hc⟩ := h
    cases i with
    | zero =>
      simp only [List.getElem?_cons_zero, Option.some.injEq] at hx
      subst hx
      simp only [List.getElem?_cons_succ] at hy
      cases l with
      | nil => simp at hy
      | cons c t =>
        simp only [List.getElem?_cons_zero, Option.some.injEq] at hy
        subst hy
        exact ⟨by simpa using hn, hc.1⟩
    | succ i =>
      simp only [List.getElem?_cons_succ] at hx hy
      exact ih hc i x y hx hy

theorem cache_update_waylist_any (s : cache_set_t) (w : Nat) (where_ : cache_waylist_enum)
    (h : (cache_update_waylist s w cache_waylist_head).isSome) :
    (cache_update_waylist s w where_).isSome := by
  unfold cache_update_waylist at h ⊢
  cases hp : (s.blocks w).way_prev <;> cases hn : (s.blocks w).way_next <;>
    simp only [hp, hn] at h ⊢
  · exact h
  · split_ifs at h ⊢ <;> simp_all
  · split_ifs at h ⊢ <;> simp_all
  · split_ifs at h ⊢ with h1
    · simp only [set_way_next_blocks]
      split_ifs <;> simp_all
    · simp at h

/-- On a well-formed set every assertion of `cache_update_waylist` holds, for
every way and both positions. -/
theorem cache_update_waylist_returns {assoc : Nat} {s : cache_set_t} {l : List Nat}
    (h : set_wf assoc s l) (w : Nat) (hw : w < assoc) (where_ : cache_waylist_enum) :
    (cache_update_waylist s w where_).isSome := by
  apply cache_update_waylist_any
  obtain ⟨s', h1, _⟩ := cache_update_waylist_head h ((h.2.1 w).2 hw)
  rw [h1]
  rfl

/-! ## The histogram indices UCP reads -/

theorem foldl_add_eq_sum (f : Nat → Int) (l : List Nat) (a : Int) :
    l.foldl (fun acc (k : Nat) => acc + f k) a = a + (l.map f).sum := by
  induction l generalizing a with
  | nil => simp
  | cons x l ih =>
    simp only [List.foldl_cons, List.map_cons, List.sum_cons]
    rw [ih]
    omega

/-- The value of `ucp_mu` is the sum of the histogram over `ucp_mu_reads`
divided by the number of ways added. -/
theorem ucp_mu_eq_reads (ucp : ucp_t) (t alloc new_alloc : Int) (atd : atd_t)
    (hatd : ucp.mod.atd_per_thread t = some atd) (h : alloc < new_alloc) :
    ucp_mu ucp t alloc new_alloc =
      some (double.div
        (double.ofInt ((ucp_mu_reads alloc new_alloc).map atd.stack_distance_counters).sum)
        (double.ofInt (new_alloc - alloc))) := by
  unfold ucp_mu ucp_mu_reads
  rw [if_pos h, hatd]
  simp only [foldl_add_eq_sum (fun k => atd.stack_distance_counters (alloc + (k : Int))),
    zero_add, List.map_map]
  rfl

theorem ucp_max_mu_req_of_some (ucp : ucp_t) (t alloc : Int) (n : Nat) :
    ∀ m r, (List.range n).foldl
        (fun (acc : Option (double × Int)) (k : Nat) =>
          match acc with
          | none => none
          | some (max_mu, ways_req) =>
            let i : Int := (k : Int) + 1
            match ucp_mu ucp t alloc (alloc + i) with
            | none => none
            | some mu => if double.lt max_mu mu then some (mu, i) else some (max_mu, ways_req))
        (some (double.ofInt 0, 0)) = some (m, r) →
      r = 0 ∨ (1 ≤ r ∧ r ≤ (n : Int)) := by
  induction n with
  | zero =>
    intro m r h
    simp only [List.range_zero, List.foldl_nil, Option.some.injEq, Prod.mk.injEq] at h
    exact Or.inl h.2.symm
  | succ n ih =>
    intro m r h
    rw [List.range_succ, List.foldl_append] at h
    simp only [List.foldl_cons, List.foldl_nil] at h
    split at h
    · cases h
    · rename_i m' r' he
      have hr := ih m' r' he
      split at h
      · cases h
      · split_ifs at h
        · simp only [Option.some.injEq, Prod.mk.injEq] at h
          right
          rw [← h.2]
          push_cast
          omega
        · simp only [Option.some.injEq, Prod.mk.injEq] at h
          rw [← h.2]
          rcases hr with hr | hr
          · exact Or.inl hr
          · right
            push_cast
            omega

theorem ucp_compute_max_mu_of_some (ucp : ucp_t) (balance : Int) (hb : 0 ≤ balance) (n : Nat) :
    ∀ u1, ucp_compute_max_mu n ucp balance = some u1 →
      u1.mod = ucp.mod ∧
      (∀ i : Nat, i < n → ucp.mod.reachable_threads i = true →
        (u1.ways_req i = 0 ∨ (1 ≤ u1.ways_req i ∧ u1.ways_req i ≤ balance))) ∧
      (∀ i : Nat, ucp.mod.reachable_threads i = false → u1.ways_req i = ucp.ways_req i) := by
  induction n with
  | zero =>
    intro u1 h
    simp only [ucp_compute_max_mu, List.range_zero, List.foldl_nil, Option.some.injEq] at h
    subst h
    exact ⟨rfl, fun i hi => by omega, fun _ _ => rfl⟩
  | succ n ih =>
    intro u1 h
    rw [ucp_compute_max_mu_succ] at h
    split at h
    · cases h
    · rename_i u he
      obtain ⟨hmod, h1, h2⟩ := ih u he
      by_cases hr : ucp.mod.reachable_threads (n : Int) = true
      · have hr1 : u.mod.reachable_threads (n : Int) = true := by rw [hmod]; exact hr
        simp only [hr1, not_true_eq_false, if_false] at h
        split at h
        · cases h
        · rename_i mu req hmr
          simp only [Option.some.injEq] at h
          subst h
          have hreq := ucp_max_mu_req_of_some u n (u.mod.cache.assigned_ways n) balance.toNat
            mu req hmr
          refine ⟨hmod, ?_, ?_⟩
          · intro i hi hri
            show Function.update u.ways_req (n : Int) req (i : Int) = 0 ∨
              (1 ≤ Function.update u.ways_req (n : Int) req (i : Int) ∧
                Function.update u.ways_req (n : Int) req (i : Int) ≤ balance)
            by_cases hin : i = n
            · subst hin
              rw [Function.update_same]
              rcases hreq with hreq | hreq
              · exact Or.inl hreq
              · exact Or.inr ⟨hreq.1, by omega⟩
            · rw [Function.update_noteq (by omega)]
              exact h1 i (by omega) hri
          · intro i hri
            show Function.update u.ways_req (n : Int) req (i : Int) = _
            rw [Function.update_noteq]
            · exact h2 i hri
            · intro hc
              have : i = n := by omega
              subst this
              rw [hr] at hri
              cases hri
      · have hr1 : ¬ u.mod.reachable_threads (n : Int) = true := by rw [hmod]; exact hr
        rw [if_pos hr1] at h
        simp only [Option.some.injEq] at h
        subst h
        refine ⟨hmod, ?_, h2⟩
        intro i hi hri
        by_cases hin : i = n
        · subst hin
          exact absurd hri hr
        · exact h1 i (by omega) hri

/-- At the start of every iteration of the loop `while (balance)`, and when the
loop is left, the quotas of the reachable threads and the balance add up to
what they added up to before the loop, the balance is not negative and every
reachable thread has at least one way. -/
theorem ucp_allocate_iterations_inv (total : Nat) (assoc : Int) (fuel : Nat) :
    ∀ (ucp : ucp_t) (balance last : Int),
      (∀ i : Nat, i < total → ucp.mod.reachable_threads i = false → ucp.ways_req i = 0) →
      (∀ i : Nat, i < total → ucp.mod.reachable_threads i = true →
        1 ≤ ucp.mod.cache.assigned_ways i) →
      sum_assigned_ways total ucp.mod + balance = assoc → 0 ≤ balance →
      ∀ it ∈ ucp_allocate_iterations total fuel ucp balance last,
        it.1.mod.reachable_threads = ucp.mod.reachable_threads ∧
        sum_assigned_ways total it.1.mod + it.2 = assoc ∧ 0 ≤ it.2 ∧
        ∀ i : Nat, i < total → ucp.mod.reachable_threads i = true →
          1 ≤ it.1.mod.cache.assigned_ways i := by
  induction fuel with
  | zero =>
    intro ucp balance last _ _ _ _ it hit
    simp [ucp_allocate_iterations] at hit
  | succ fuel ih =>
    intro ucp balance last hreq0 hone hsum hb it hit
    rw [ucp_allocate_iterations] at hit
    by_cases hbz : balance = 0
    · rw [if_pos hbz] at hit
      simp only [List.mem_singleton] at hit
      subst hit
      exact ⟨rfl, hsum, hb, hone⟩
    · rw [if_neg hbz] at hit
      rcases List.mem_cons.1 hit with hit | hit
      · subst hit
        exact ⟨rfl, hsum, hb, hone⟩
      · cases he : ucp_compute_max_mu total ucp balance with
        | none =>
          rw [he] at hit
          simp at hit
        | some u1 =>
          rw [he] at hit
          simp only at hit
          obtain ⟨hmod, h1, h2⟩ := ucp_compute_max_mu_of_some ucp balance hb total u1 he
          obtain ⟨_, hsel, _⟩ := ucp_choose_winner_spec u1 total
          rcases hsel with hsel | ⟨w, hw, hsel⟩
          · rw [hsel] at hit
            simp at hit
          · rw [hsel] at hit
            simp only at hit
            rw [if_neg (by omega)] at hit
            have hreq : u1.ways_req w = 0 ∨ (1 ≤ u1.ways_req w ∧ u1.ways_req w ≤ balance) := by
              by_cases hwr : ucp.mod.reachable_threads (w : Int) = true
              · exact h1 w hw hwr
              · have hf : ucp.mod.reachable_threads (w : Int) = false := by simpa using hwr
                rw [h2 w hf]
                exact Or.inl (hreq0 w hw hf)
            have hr2 : (u1.set_assigned_ways w
                (u1.mod.cache.assigned_ways w + u1.ways_req w)).mod.reachable_threads =
                ucp.mod.reachable_threads := by
              show u1.mod.reachable_threads = _
              rw [hmod]
            have hone2 : ∀ i : Nat, i < total → ucp.mod.reachable_threads i = true →
                1 ≤ (u1.set_assigned_ways w
                  (u1.mod.cache.assigned_ways w + u1.ways_req w)).mod.cache.assigned_ways i := by
              intro i hi hri
              show 1 ≤ Function.update u1.mod.cache.assigned_ways (w : Int) _ (i : Int)
              by_cases hiw : i = w
              · subst hiw
                rw [Function.update_same, hmod]
                have := hone i hi hri
                omega
              · rw [Function.update_noteq (by omega), hmod]
                exact hone i hi hri
            have hreq2 : ∀ i : Nat, i < total → ucp.mod.reachable_threads i = false →
                (u1.set_assigned_ways w
                  (u1.mod.cache.assigned_ways w + u1.ways_req w)).ways_req i = 0 := by
              intro i hi hri
              show u1.ways_req i = 0
              rw [h2 i hri]
              exact hreq0 i hi hri
            have hsum2 : sum_assigned_ways total (u1.set_assigned_ways w
                (u1.mod.cache.assigned_ways w + u1.ways_req w)).mod +
                (balance - u1.ways_req w) = assoc := by
              by_cases hwr : ucp.mod.reachable_threads (w : Int) = true
              · rw [sum_assigned_ways_update total ucp.mod _ w hw hr2 hwr (by
                  intro a ha
                  show Function.update u1.mod.cache.assigned_ways (w : Int) _ (a : Int) = _
                  rw [Function.update_noteq (by omega), hmod])]
                have : (u1.set_assigned_ways w
                    (u1.mod.cache.assigned_ways w + u1.ways_req w)).mod.cache.assigned_ways w =
                    ucp.mod.cache.assigned_ways w + u1.ways_req w := by
                  show Function.update u1.mod.cache.assigned_ways (w : Int) _ (w : Int) = _
                  rw [Function.update_same, hmod]
                rw [this]
                omega
              · have hf : ucp.mod.reachable_threads (w : Int) = false := by simpa using hwr
                rw [sum_assigned_ways_congr total ucp.mod _ hr2 (by
                  intro a ha hra
                  show Function.update u1.mod.cache.assigned_ways (w : Int) _ (a : Int) = _
                  rw [Function.update_noteq, hmod]
                  intro hc
                  have : a = w := by omega
                  subst this
                  rw [hra] at hf
                  cases hf)]
                rw [h2 w hf, hreq0 w hw hf]
                omega
            have hb2 : 0 ≤ balance - u1.ways_req w := by
              rcases hreq with hreq | hreq <;> omega
            by_cases hstop : balance - u1.ways_req w = last
            · rw [if_pos hstop] at hit
              simp only [List.mem_singleton] at hit
              subst hit
              exact ⟨hr2, hsum2, hb2, hone2⟩
            · rw [if_neg hstop] at hit
              obtain ⟨k1, k2, k3, k4⟩ := ih _ _ _
                (by intro i hi hri; rw [hr2] at hri; exact hreq2 i hi hri)
                (by intro i hi hri; rw [hr2] at hri; exact hone2 i hi hri)
                hsum2 hb2 it hit
              exact ⟨k1.trans hr2, k2, k3, fun i hi hri => k4 i hi (by rw [hr2]; exact hri)⟩

/-- The state `ucp_allocate` returns is the last one `ucp_allocate_iterations`
lists. -/
theorem ucp_allocate_iterations_last (total : Nat) (fuel : Nat) :
    ∀ (ucp : ucp_t) (balance last : Int) (u : ucp_t),
      ucp_allocate total fuel ucp balance last = some u →
      ∃ b, (ucp_allocate_iterations total fuel ucp balance last).getLast? = some (u, b) := by
  induction fuel with
  | zero =>
    intro ucp balance last u h
    simp [ucp_allocate] at h
  | succ fuel ih =>
    intro ucp balance last u h
    rw [ucp_allocate] at h
    rw [ucp_allocate_iterations]
    by_cases hbz : balance = 0
    · rw [if_pos hbz] at h ⊢
      simp only [Option.some.injEq] at h
      subst h
      exact ⟨balance, rfl⟩
    · rw [if_neg hbz] at h ⊢
      cases he : ucp_compute_max_mu total ucp balance with
      | none =>
        rw [he] at h
        cases h
      | some u1 =>
        rw [he] at h
        simp only at h ⊢
        by_cases hw : (ucp_choose_winner total u1).1 = -1
        · rw [if_pos hw] at h
          cases h
        · rw [if_neg hw] at h ⊢
          by_cases hstop : balance - u1.ways_req (ucp_choose_winner total u1).1 = last
          · rw [if_pos hstop] at h ⊢
            simp only [Option.some.injEq] at h
            subst h
            exact ⟨_, rfl⟩
          · rw [if_neg hstop] at h ⊢
            obtain ⟨b, hb⟩ := ih _ _ _ u h
            refine ⟨b, ?_⟩
            cases hl : ucp_allocate_iterations total fuel
                (u1.set_assigned_ways (ucp_choose_winner total u1).1
                  (u1.mod.cache.assigned_ways (ucp_choose_winner total u1).1 +
                    u1.ways_req (ucp_choose_winner total u1).1))
                (balance - u1.ways_req (ucp_choose_winner total u1).1)
                (balance - u1.ways_req (ucp_choose_winner total u1).1) with
            | nil =>
              rw [hl] at hb
              simp at hb
            | cons x xs =>
              rw [hl] at hb
              rw [List.getLast?_cons_cons]
              exact hb

/-- Every histogram index an iteration reads is between the quota of the
thread and the quota plus the balance. -/
theorem ucp_compute_max_mu_reads_mem (total : Nat) (ucp : ucp_t) (balance : Int)
    (r : Int × Int) (hr : r ∈ ucp_compute_max_mu_reads total ucp balance) :
    ∃ t : Nat, t < total ∧ r.1 = (t : Int) ∧ ucp.mod.reachable_threads t = true ∧
      ucp.mod.cache.assigned_ways t ≤ r.2 ∧ r.2 < ucp.mod.cache.assigned_ways t + balance := by
  unfold ucp_compute_max_mu_reads at hr
  obtain ⟨t, ht, hr⟩ := List.mem_flatMap.1 hr
  by_cases hrt : ucp.mod.reachable_threads (t : Int) = true
  · rw [if_pos hrt] at hr
    obtain ⟨i, hi, rfl⟩ := List.mem_map.1 hr
    unfold ucp_max_mu_reads at hi
    obtain ⟨k, hk, hi⟩ := List.mem_flatMap.1 hi
    unfold ucp_mu_reads at hi
    obtain ⟨j, hj, rfl⟩ := List.mem_map.1 hi
    have hk' := List.mem_range.1 hk
    have hj' := List.mem_range.1 hj
    refine ⟨t, List.mem_range.1 ht, rfl, hrt, ?_, ?_⟩
    · show _ ≤ ucp.mod.cache.assigned_ways t + (j : Int)
      omega
    · show ucp.mod.cache.assigned_ways t + (j : Int) < _
      omega
  · rw [if_neg hrt] at hr
    cases hr

/-! ## Ties in the allocation loop of UCP -/

theorem double_lt_of_not_lt_of_lt {a b c : double} (h1 : ¬ double.lt b a) (h2 : double.lt b c)
    (ha : a.den ≠ 0) : double.lt a c := by
  obtain ⟨hb, hc, h2⟩ := h2
  have h3 : a.num * b.den ≤ b.num * a.den := by
    by_contra hc'
    exact h1 ⟨hb, ha, by omega⟩
  refine ⟨ha, hc, ?_⟩
  have had : (0 : Int) < a.den := by omega
  have hbd : (0 : Int) < b.den := by omega
  have hcd : (0 : Int) < c.den := by omega
  have e1 : a.num * b.den * c.den ≤ b.num * a.den * c.den :=
    mul_le_mul_of_nonneg_right h3 (le_of_lt hcd)
  have e2 : b.num * c.den * a.den < c.num * b.den * a.den := mul_lt_mul_of_pos_right h2 had
  have e3 : (a.num * c.den) * b.den < (c.num * a.den) * b.den := by linarith
  exact lt_of_mul_lt_mul_right e3 (le_of_lt hbd)

theorem double_lt_asymm {a b : double} (h : double.lt a b) : ¬ double.lt b a := by
  intro h'
  obtain ⟨_, _, h1⟩ := h
  obtain ⟨_, _, h2⟩ := h'
  omega

/-- What `ucp_max_mu` returns after trying the increments `1 .. n`: the
greatest marginal utility tried and the first increment that has it, when it is
positive; 0 and the increment 0 when no increment tried has a positive marginal
utility. -/
theorem ucp_max_mu_choice (ucp : ucp_t) (t alloc : Int) (atd : atd_t)
    (hatd : ucp.mod.atd_per_thread t = some atd) (n : Nat) :
    ∃ m r, (List.range n).foldl
        (fun (acc : Option (double × Int)) (k : Nat) =>
          match acc with
          | none => none
          | some (max_mu, ways_req) =>
            let i : Int := (k : Int) + 1
            match ucp_mu ucp t alloc (alloc + i) with
            | none => none
            | some mu => if double.lt max_mu mu then some (mu, i) else some (max_mu, ways_req))
        (some (double.ofInt 0, 0)) = some (m, r) ∧
      m.den ≠ 0 ∧ ¬ double.lt m (double.ofInt 0) ∧
      (∀ k : Nat, k < n → ∀ mu, ucp_mu ucp t alloc (alloc + ((k : Int) + 1)) = some mu →
        ¬ double.lt m mu) ∧
      ((r = 0 ∧ m = double.ofInt 0) ∨
        (∃ k : Nat, k < n ∧ r = (k : Int) + 1 ∧ ucp_mu ucp t alloc (alloc + r) = some m ∧
          double.lt (double.ofInt 0) m ∧
          ∀ j : Nat, j < k → ∀ mu, ucp_mu ucp t alloc (alloc + ((j : Int) + 1)) = some mu →
            double.lt mu m)) := by
  induction n with
  | zero =>
    exact ⟨double.ofInt 0, 0, rfl, by decide, by decide, fun k hk => by omega,
      Or.inl ⟨rfl, rfl⟩⟩
  | succ n ih =>
    obtain ⟨m, r, he, hm, h0, hmax, hr⟩ := ih
    rw [List.range_succ, List.foldl_append, he]
    obtain ⟨mu, hmu, hfin⟩ := ucp_mu_some ucp t alloc atd hatd ((n : Int) + 1) (by omega)
    simp only [List.foldl_cons, List.foldl_nil, hmu]
    by_cases hlt : double.lt m mu
    · rw [if_pos hlt]
      have hpos : double.lt (double.ofInt 0) mu :=
        double_lt_of_not_lt_of_lt h0 hlt (by decide)
      refine ⟨mu, (n : Int) + 1, rfl, hfin, double_lt_asymm hpos, ?_, Or.inr ⟨n, by omega, rfl,
        hmu, hpos, ?_⟩⟩
      · intro k hk mu' hmu'
        by_cases hkn : k = n
        · subst hkn
          rw [hmu] at hmu'
          cases hmu'
          exact fun hc => lt_irrefl _ hc.2.2
        · exact double_not_lt_of_lt_of_not_lt hlt (hmax k (by omega) mu' hmu')
      · intro j hj mu' hmu'
        obtain ⟨mu2, hmu2, hfin2⟩ :=
          ucp_mu_some ucp t alloc atd hatd ((j : Int) + 1) (by omega)
        have hmax2 := hmax j hj mu2 hmu2
        rw [hmu2] at hmu'
        simp only [Option.some.injEq] at hmu'
        rw [← hmu']
        exact double_lt_of_not_lt_of_lt hmax2 hlt hfin2
    · rw [if_neg hlt]
      refine ⟨m, r, rfl, hm, h0, ?_, ?_⟩
      · intro k hk mu' hmu'
        by_cases hkn : k = n
        · subst hkn
          rw [hmu] at hmu'
          cases hmu'
          exact hlt
        · exact hmax k (by omega) mu' hmu'
      · rcases hr with hr | ⟨k, hk, h1, h2, h3, h4⟩
        · exact Or.inl hr
        · exact Or.inr ⟨k, by omega, h1, h2, h3, h4⟩

theorem ucp_mu_congr (u u' : ucp_t) (t : Int)
    (h : u'.mod.atd_per_thread t = u.mod.atd_per_thread t) (alloc new_alloc : Int) :
    ucp_mu u' t alloc new_alloc = ucp_mu u t alloc new_alloc := by
  unfold ucp_mu
  rw [h]

theorem ucp_max_mu_congr_atd (u u' : ucp_t) (t : Int)
    (h : u'.mod.atd_per_thread t = u.mod.atd_per_thread t) (alloc balance : Int) :
    ucp_max_mu u' t alloc balance = ucp_max_mu u t alloc balance := by
  unfold ucp_max_mu
  congr 1
  funext acc k
  simp only [ucp_mu_congr u u' t h]

/-- The first loop of an iteration on a state with a histogram for every
reachable thread: it returns, keeps `mod`, leaves for each reachable thread what
`ucp_max_mu` returns for it, and leaves the entries of the other threads as
they were. -/
theorem ucp_compute_max_mu_values (ucp : ucp_t) (balance : Int) (n : Nat)
    (hatd : ∀ i : Nat, i < n → ucp.mod.reachable_threads i = true →
      (ucp.mod.atd_per_thread i).isSome = true) :
    ∃ u1, ucp_compute_max_mu n ucp balance = some u1 ∧ u1.mod = ucp.mod ∧
      (∀ i : Nat, i < n → ucp.mod.reachable_threads i = true →
        ucp_max_mu ucp i (ucp.mod.cache.assigned_ways i) balance =
          some (u1.max_mu i, u1.ways_req i)) ∧
      (∀ i : Nat, (n ≤ i ∨ ucp.mod.reachable_threads i = false) →
        u1.max_mu i = ucp.max_mu i ∧ u1.ways_req i = ucp.ways_req i) := by
  induction n with
  | zero =>
    exact ⟨ucp, rfl, rfl, fun i hi => by omega, fun _ _ => ⟨rfl, rfl⟩⟩
  | succ n ih =>
    obtain ⟨u1, he, hmod, h1, h2⟩ := ih (fun i hi => hatd i (by omega))
    rw [ucp_compute_max_mu_succ, he]
    by_cases hr : ucp.mod.reachable_threads (n : Int) = true
    · have hr1 : u1.mod.reachable_threads (n : Int) = true := by rw [hmod]; exact hr
      obtain ⟨atd, ha⟩ := Option.isSome_iff_exists.1 (hatd n (by omega) hr)
      obtain ⟨m, r, hmr, _⟩ :=
        ucp_max_mu_req ucp n (ucp.mod.cache.assigned_ways n) atd ha balance.toNat
      have hmr0 : ucp_max_mu ucp n (ucp.mod.cache.assigned_ways n) balance = some (m, r) := hmr
      have hmr1 : ucp_max_mu u1 n (u1.mod.cache.assigned_ways n) balance = some (m, r) := by
        rw [ucp_max_mu_congr ucp u1 hmod, hmod]
        exact hmr0
      simp only [hr1, not_true_eq_false, if_false, hmr1]
      refine ⟨_, rfl, hmod, ?_, ?_⟩
      · intro i hi hri
        by_cases hin : i = n
        · subst hin
          show _ = some (Function.update u1.max_mu (i : Int) m (i : Int),
            Function.update u1.ways_req (i : Int) r (i : Int))
          rw [Function.update_same, Function.update_same]
          exact hmr0
        · show _ = some (Function.update u1.max_mu (n : Int) m (i : Int),
            Function.update u1.ways_req (n : Int) r (i : Int))
          rw [Function.update_noteq (by omega), Function.update_noteq (by omega)]
          exact h1 i (by omega) hri
      · intro i hi
        have hne : (i : Int) ≠ (n : Int) := by
          rcases hi with hi | hi
          · omega
          · intro hc
            have : i = n := by omega
            subst this
            rw [hr] at hi
            cases hi
        show Function.update u1.max_mu (n : Int) m (i : Int) = _ ∧
          Function.update u1.ways_req (n : Int) r (i : Int) = _
        rw [Function.update_noteq hne, Function.update_noteq hne]
        exact h2 i (by
          rcases hi with hi | hi
          · exact Or.inl (by omega)
          · exact Or.inr hi)
    · have hr1 : ¬ u1.mod.reachable_threads (n : Int) = true := by rw [hmod]; exact hr
      simp only [hr1, not_false_eq_true, if_true]
      refine ⟨u1, rfl, hmod, ?_, ?_⟩
      · intro i hi hri
        by_cases hin : i = n
        · subst hin
          exact absurd hri hr
        · exact h1 i (by omega) hri
      · intro i hi
        by_cases hin : i = n
        · subst hin
          exact h2 i (Or.inl (le_refl _))
        · exact h2 i (by
            rcases hi with hi | hi
            · exact Or.inl (by omega)
            · exact Or.inr hi)

/-- The second loop of an iteration returns the lowest thread id among those
whose `max_mu` is the greatest, when some `max_mu` exceeds -1. -/
theorem ucp_choose_winner_lowest (ucp : ucp_t) (n : Nat)
    (hfin : ∀ t : Nat, t < n → (ucp.max_mu t).den ≠ 0) :
    (ucp_choose_winner n ucp = (-1, double.ofInt (-1)) ∧
      ∀ t : Nat, t < n → ¬ double.lt (double.ofInt (-1)) (ucp.max_mu t)) ∨
    ∃ w : Nat, w < n ∧ ucp_choose_winner n ucp = ((w : Int), ucp.max_mu w) ∧
      double.lt (double.ofInt (-1)) (ucp.max_mu w) ∧
      (∀ t : Nat, t < n → ¬ double.lt (ucp.max_mu w) (ucp.max_mu t)) ∧
      ∀ t : Nat, t < w → double.lt (ucp.max_mu t) (ucp.max_mu w) := by
  induction n with
  | zero => exact Or.inl ⟨rfl, fun t ht => by omega⟩
  | succ n ih =>
    rw [ucp_choose_winner_succ]
    rcases ih (fun t ht => hfin t (by omega)) with ⟨he, hno⟩ | ⟨w, hw, he, hpos, hmax, hlow⟩
    · rw [he]
      by_cases hlt : double.lt (double.ofInt (-1)) (ucp.max_mu n)
      · rw [if_pos hlt]
        refine Or.inr ⟨n, by omega, rfl, hlt, ?_, ?_⟩
        · intro t ht
          by_cases htn : t = n
          · subst htn
            exact fun hc => lt_irrefl _ hc.2.2
          · exact double_not_lt_of_lt_of_not_lt hlt (hno t (by omega))
        · intro t ht
          exact double_lt_of_not_lt_of_lt (hno t ht) hlt (hfin t (by omega))
      · rw [if_neg hlt]
        refine Or.inl ⟨rfl, ?_⟩
        intro t ht
        by_cases htn : t = n
        · subst htn
          exact hlt
        · exact hno t (by omega)
    · rw [he]
      by_cases hlt : double.lt (ucp.max_mu w) (ucp.max_mu n)
      · rw [if_pos hlt]
        refine Or.inr ⟨n, by omega, rfl, double_lt_trans hpos hlt, ?_, ?_⟩
        · intro t ht
          by_cases htn : t = n
          · subst htn
            exact fun hc => lt_irrefl _ hc.2.2
          · exact double_not_lt_of_lt_of_not_lt hlt (hmax t (by omega))
        · intro t ht
          exact double_lt_of_not_lt_of_lt (hmax t ht) hlt (hfin t (by omega))
      · rw [if_neg hlt]
        refine Or.inr ⟨w, by omega, rfl, hpos, ?_, hlow⟩
        intro t ht
        by_cases htn : t = n
        · subst htn
          exact hlt
        · exact hmax t (by omega)

theorem ucp_choose_winner_congr (u u' : ucp_t) (n : Nat)
    (h : ∀ t : Nat, t < n → u'.max_mu t = u.max_mu t) :
    ucp_choose_winner n u' = ucp_choose_winner n u := by
  induction n with
  | zero => rfl
  | succ n ih =>
    rw [ucp_choose_winner_succ, ucp_choose_winner_succ, ih (fun t ht => h t (by omega)),
      h n (by omega)]

theorem count_reachable_congr (n : Nat) (mod mod' : mod_t)
    (h : mod'.reachable_threads = mod.reachable_threads) :
    count_reachable n mod' = count_reachable n mod := by
  unfold count_reachable
  rw [h]

/-- The first loop of an iteration computes the same from two states with the
same reachable threads, the same histograms and the same quotas of the
reachable threads. -/
theorem ucp_compute_max_mu_congr (u u' : ucp_t) (balance : Int)
    (hr : u'.mod.reachable_threads = u.mod.reachable_threads)
    (hatd : u'.mod.atd_per_thread = u.mod.atd_per_thread) (n : Nat)
    (hass : ∀ i : Nat, i < n → u.mod.reachable_threads i = true →
      u'.mod.cache.assigned_ways i = u.mod.cache.assigned_ways i) :
    (ucp_compute_max_mu n u balance = none ∧ ucp_compute_max_mu n u' balance = none) ∨
    ∃ a a', ucp_compute_max_mu n u balance = some a ∧
      ucp_compute_max_mu n u' balance = some a' ∧ a.mod = u.mod ∧ a'.mod = u'.mod ∧
      (∀ i : Nat, i < n → u.mod.reachable_threads i = true →
        a'.max_mu i = a.max_mu i ∧ a'.ways_req i = a.ways_req i) ∧
      (∀ i : Nat, (n ≤ i ∨ u.mod.reachable_threads i = false) →
        a.max_mu i = u.max_mu i ∧ a.ways_req i = u.ways_req i ∧
        a'.max_mu i = u'.max_mu i ∧ a'.ways_req i = u'.ways_req i) := by
  induction n with
  | zero =>
    exact Or.inr ⟨u, u', rfl, rfl, rfl, rfl, fun i hi => by omega,
      fun _ _ => ⟨rfl, rfl, rfl, rfl⟩⟩
  | succ n ih =>
    rw [ucp_compute_max_mu_succ, ucp_compute_max_mu_succ]
    rcases ih (fun i hi => hass i (by omega)) with ⟨e1, e2⟩ | ⟨a, a', e1, e2, m1, m2, h1, h2⟩
    · rw [e1, e2]
      exact Or.inl ⟨rfl, rfl⟩
    · rw [e1, e2]
      by_cases hrn : u.mod.reachable_threads (n : Int) = true
      · have hr1 : a.mod.reachable_threads (n : Int) = true := by rw [m1]; exact hrn
        have hr2 : a'.mod.reachable_threads (n : Int) = true := by rw [m2, hr]; exact hrn
        have hmm : ucp_max_mu a' n (a'.mod.cache.assigned_ways n) balance =
            ucp_max_mu a n (a.mod.cache.assigned_ways n) balance := by
          rw [ucp_max_mu_congr_atd a a' n (by rw [m1, m2, hatd]), m1, m2,
            hass n (by omega) hrn]
        simp only [hr1, hr2, not_true_eq_false, if_false, hmm]
        cases hv : ucp_max_mu a n (a.mod.cache.assigned_ways n) balance with
        | none => exact Or.inl ⟨rfl, rfl⟩
        | some v =>
          obtain ⟨mu, req⟩ := v
          refine Or.inr ⟨_, _, rfl, rfl, m1, m2, ?_, ?_⟩
          · intro i hi hri
            show Function.update a'.max_mu (n : Int) mu (i : Int) =
                Function.update a.max_mu (n : Int) mu (i : Int) ∧
              Function.update a'.ways_req (n : Int) req (i : Int) =
                Function.update a.ways_req (n : Int) req (i : Int)
            by_cases hin : i = n
            · subst hin
              simp only [Function.update_same, and_self]
            · rw [Function.update_noteq (by omega), Function.update_noteq (by omega),
                Function.update_noteq (by omega), Function.update_noteq (by omega)]
              exact h1 i (by omega) hri
          · intro i hi
            have hne : (i : Int) ≠ (n : Int) := by
              rcases hi with hi | hi
              · omega
              · intro hc
                have : i = n := by omega
                subst this
                rw [hrn] at hi
                cases hi
            show Function.update a.max_mu (n : Int) mu (i : Int) = _ ∧
              Function.update a.ways_req (n : Int) req (i : Int) = _ ∧
              Function.update a'.max_mu (n : Int) mu (i : Int) = _ ∧
              Function.update a'.ways_req (n : Int) req (i : Int) = _
            rw [Function.update_noteq hne, Function.update_noteq hne,
              Function.update_noteq hne, Function.update_noteq hne]
            exact h2 i (by
              rcases hi with hi | hi
              · exact Or.inl (by omega)
              · exact Or.inr hi)
      · have hr1 : ¬ a.mod.reachable_threads (n : Int) = true := by rw [m1]; exact hrn
        have hr2 : ¬ a'.mod.reachable_threads (n : Int) = true := by rw [m2, hr]; exact hrn
        simp only [hr1, hr2, not_false_eq_true, if_true]
        refine Or.inr ⟨a, a', rfl, rfl, m1, m2, ?_, ?_⟩
        · intro i hi hri
          by_cases hin : i = n
          · subst hin
            exact absurd hri hrn
          · exact h1 i (by omega) hri
        · intro i hi
          by_cases hin : i = n
          · subst hin
            exact h2 i (Or.inl (le_refl _))
          · exact h2 i (by
              rcases hi with hi | hi
              · exact Or.inl (by omega)
              · exact Or.inr hi)

theorem ucp_allocate_step (total fuel : Nat) (u a : ucp_t) (balance last : Int) (w : Nat)
    (hb : balance ≠ 0) (he : ucp_compute_max_mu total u balance = some a)
    (hw : (ucp_choose_winner total a).1 = (w : Int)) :
    ucp_allocate total (fuel + 1) u balance last =
      if balance - a.ways_req w = last then
        some (a.set_assigned_ways w (a.mod.cache.assigned_ways w + a.ways_req w))
      else
        ucp_allocate total fuel
          (a.set_assigned_ways w (a.mod.cache.assigned_ways w + a.ways_req w))
          (balance - a.ways_req w) (balance - a.ways_req w) := by
  rw [ucp_allocate, if_neg hb, he]
  simp only [hw]
  rw [if_neg (by omega)]


/-- The loop `while (balance)` gives the reachable threads the same quotas from
two states with the same reachable threads, the same histograms, the same
quotas of the reachable threads and the same entries `max_mu` and `ways_req` of
the unreachable threads. -/
theorem ucp_allocate_congr (total : Nat) (fuel : Nat) :
    ∀ (u u' : ucp_t) (balance last : Int),
      u'.mod.reachable_threads = u.mod.reachable_threads →
      u'.mod.atd_per_thread = u.mod.atd_per_thread →
      (∀ i : Nat, i < total → u.mod.reachable_threads i = true →
        u'.mod.cache.assigned_ways i = u.mod.cache.assigned_ways i) →
      (∀ i : Nat, i < total → u.mod.reachable_threads i = false →
        u'.max_mu i = u.max_mu i ∧ u'.ways_req i = u.ways_req i) →
      (ucp_allocate total fuel u balance last = none ∧
        ucp_allocate total fuel u' balance last = none) ∨
      ∃ r r', ucp_allocate total fuel u balance last = some r ∧
        ucp_allocate total fuel u' balance last = some r' ∧
        ∀ i : Nat, i < total → u.mod.reachable_threads i = true →
          r'.mod.cache.assigned_ways i = r.mod.cache.assigned_ways i := by
  induction fuel with
  | zero =>
    intro u u' balance last _ _ _ _
    exact Or.inl ⟨rfl, rfl⟩
  | succ fuel ih =>
    intro u u' balance last hr hatd hass hun
    by_cases hbz : balance = 0
    · rw [ucp_allocate, ucp_allocate, if_pos hbz, if_pos hbz]
      exact Or.inr ⟨u, u', rfl, rfl, hass⟩
    · rcases ucp_compute_max_mu_congr u u' balance hr hatd total hass with
        ⟨e1, e2⟩ | ⟨a, a', e1, e2, m1, m2, h1, h2⟩
      · rw [ucp_allocate, ucp_allocate, if_neg hbz, if_neg hbz, e1, e2]
        exact Or.inl ⟨rfl, rfl⟩
      · have hall : ∀ t : Nat, t < total →
            a'.max_mu t = a.max_mu t ∧ a'.ways_req t = a.ways_req t := by
          intro t ht
          by_cases hrt : u.mod.reachable_threads (t : Int) = true
          · exact h1 t ht hrt
          · have hf : u.mod.reachable_threads (t : Int) = false := by simpa using hrt
            obtain ⟨k1, k2, k3, k4⟩ := h2 t (Or.inr hf)
            obtain ⟨k5, k6⟩ := hun t ht hf
            exact ⟨by rw [k3, k1, k5], by rw [k4, k2, k6]⟩
        have hwin := ucp_choose_winner_congr a a' total (fun t ht => (hall t ht).1)
        obtain ⟨_, hsel, _⟩ := ucp_choose_winner_spec a total
        rcases hsel with hsel | ⟨w, hw, hsel⟩
        · rw [ucp_allocate, ucp_allocate, if_neg hbz, if_neg hbz, e1, e2]
          simp only [hwin, hsel, if_true]
          exact Or.inl ⟨trivial, trivial⟩
        · have hw1 : (ucp_choose_winner total a).1 = (w : Int) := by rw [hsel]
          have hw2 : (ucp_choose_winner total a').1 = (w : Int) := by rw [hwin, hsel]
          rw [ucp_allocate_step total fuel u a balance last w hbz e1 hw1,
            ucp_allocate_step total fuel u' a' balance last w hbz e2 hw2, (hall w hw).2]
          have hrel := ih
            (a.set_assigned_ways w (a.mod.cache.assigned_ways w + a.ways_req w))
            (a'.set_assigned_ways w (a'.mod.cache.assigned_ways w + a.ways_req w))
            (balance - a.ways_req w) (balance - a.ways_req w)
            (by
              show a'.mod.reachable_threads = a.mod.reachable_threads
              rw [m1, m2, hr])
            (by
              show a'.mod.atd_per_thread = a.mod.atd_per_thread
              rw [m1, m2, hatd])
            (by
              intro i hi hri
              have hri' : u.mod.reachable_threads (i : Int) = true := by
                have : a.mod.reachable_threads (i : Int) = true := hri
                rw [m1] at this
                exact this
              show Function.update a'.mod.cache.assigned_ways (w : Int) _ (i : Int) =
                Function.update a.mod.cache.assigned_ways (w : Int) _ (i : Int)
              by_cases hiw : i = w
              · subst hiw
                rw [Function.update_same, Function.update_same, m1, m2, hass i hi hri']
              · rw [Function.update_noteq (by omega), Function.update_noteq (by omega), m1, m2]
                exact hass i hi hri')
            (by
              intro i hi hri
              exact hall i hi)
          have hreach : ∀ i : Nat,
              (a.set_assigned_ways w
                (a.mod.cache.assigned_ways w + a.ways_req w)).mod.reachable_threads i =
                u.mod.reachable_threads i := by
            intro i
            show a.mod.reachable_threads i = _
            rw [m1]
          by_cases hstop : balance - a.ways_req w = last
          · rw [if_pos hstop, if_pos hstop]
            refine Or.inr ⟨_, _, rfl, rfl, ?_⟩
            intro i hi hri
            show Function.update a'.mod.cache.assigned_ways (w : Int) _ (i : Int) =
              Function.update a.mod.cache.assigned_ways (w : Int) _ (i : Int)
            by_cases hiw : i = w
            · subst hiw
              rw [Function.update_same, Function.update_same, m1, m2, hass i hi hri]
            · rw [Function.update_noteq (by omega), Function.update_noteq (by omega), m1, m2]
              exact hass i hi hri
          · rw [if_neg hstop, if_neg hstop]
            rcases hrel with ⟨k1, k2⟩ | ⟨r, r', k1, k2, k3⟩
            · exact Or.inl ⟨k1, k2⟩
            · exact Or.inr ⟨r, r', k1, k2, fun i hi hri =>
                k3 i hi (by rw [hreach]; exact hri)⟩

/-- Past the warm-up gate, `ucp_repartition` gives the reachable threads quotas
that depend only on the reachable threads, the histograms and `assoc`. -/
theorem ucp_repartition_congr (nc nt : Nat) (u u' : ucp_t)
    (hr : u'.mod.reachable_threads = u.mod.reachable_threads)
    (hatd : u'.mod.atd_per_thread = u.mod.atd_per_thread)
    (hassoc : u'.mod.cache.assoc = u.mod.cache.assoc)
    (hun : ∀ i : Nat, i < nc * nt → u.mod.reachable_threads i = false →
      u'.max_mu i = u.max_mu i ∧ u'.ways_req i = u.ways_req i)
    (hg : ¬ double.lt (cache_usage (nc * nt) u.mod) UCP_CACHE_TH)
    (hg' : ¬ double.lt (cache_usage (nc * nt) u'.mod) UCP_CACHE_TH) :
    (ucp_repartition nc nt u = none ∧ ucp_repartition nc nt u' = none) ∨
    ∃ r r', ucp_repartition nc nt u = some r ∧ ucp_repartition nc nt u' = some r' ∧
      ∀ i : Nat, i < nc * nt → u.mod.reachable_threads i = true →
        r'.mod.cache.assigned_ways i = r.mod.cache.assigned_ways i := by
  obtain ⟨s1, s2, _, s4, s5, s6⟩ := ucp_seed_spec u u.mod.cache.assoc (nc * nt)
  obtain ⟨t1, t2, _, t4, t5, t6⟩ := ucp_seed_spec u' u.mod.cache.assoc (nc * nt)
  have s7 := ucp_seed_ways_req u u.mod.cache.assoc (nc * nt)
  have t7 := ucp_seed_ways_req u' u.mod.cache.assoc (nc * nt)
  have hbal : (ucp_seed (nc * nt) u' u.mod.cache.assoc).2 =
      (ucp_seed (nc * nt) u u.mod.cache.assoc).2 := by
    rw [s6, t6, count_reachable_congr (nc * nt) u.mod u'.mod hr]
  have hrel := ucp_allocate_congr (nc * nt) (u.mod.cache.assoc + 2)
    (ucp_seed (nc * nt) u u.mod.cache.assoc).1 (ucp_seed (nc * nt) u' u.mod.cache.assoc).1
    (ucp_seed (nc * nt) u u.mod.cache.assoc).2 u.mod.cache.assoc
    (by rw [s1, t1, hr]) (by rw [s2, t2, hatd])
    (by
      intro i hi hri
      rw [s1] at hri
      rw [s5 i hi hri, t5 i hi (by rw [hr]; exact hri)])
    (by
      intro i hi hri
      rw [s1] at hri
      rw [s4, t4, s7, t7]
      exact hun i hi hri)
  unfold ucp_repartition
  simp only [hg, hg', if_false, hassoc, hbal]
  rcases hrel with ⟨k1, k2⟩ | ⟨r, r', k1, k2, k3⟩
  · rw [k1, k2]
    exact Or.inl ⟨rfl, rfl⟩
  · rw [k1, k2]
    refine Or.inr ⟨_, _, rfl, rfl, ?_⟩
    intro i hi hri
    rw [(ucp_decay_spec (nc * nt) r).1, (ucp_decay_spec (nc * nt) r').1]
    exact k3 i hi (by rw [s1]; exact hri)

/-! ## Blocks without owner under Partitioned LRU -/

theorem client_thread_id_range {nc nt : Nat} {ci : mod_client_info_t}
    (h : client_in_range nc nt ci) :
    0 ≤ ci.core * (nt : Int) + ci.thread ∧
      ci.core * (nt : Int) + ci.thread < ((nc * nt : Nat) : Int) := by
  obtain ⟨h1, h2, h3, h4⟩ := h
  have e1 : 0 ≤ ci.core * (nt : Int) := mul_nonneg h1 (Int.natCast_nonneg _)
  have e2 : ci.core * (nt : Int) ≤ ((nc : Int) - 1) * (nt : Int) :=
    mul_le_mul_of_nonneg_right (by omega) (Int.natCast_nonneg _)
  refine ⟨by omega, ?_⟩
  push_cast
  nlinarith

theorem plru_unowned_suffix_move {total : Nat} {b b' : Nat → cache_block_t} {l : List Nat}
    {v : Nat} (hnd : l.Nodup) (h : plru_unowned_suffix total b l)
    (hv : 0 ≤ (b' v).thread_id ∧ (b' v).thread_id < (total : Int))
    (hoth : ∀ a, a ≠ v → (b' a).thread_id = (b a).thread_id ∧ (b' a).state = (b a).state) :
    plru_unowned_suffix total b' (move_to_head v l) := by
  obtain ⟨pre, suf, rfl, hp, hs⟩ := h
  have hpn : pre.Nodup := (List.nodup_append.1 hnd).1
  have hsn : suf.Nodup := (List.nodup_append.1 hnd).2.1
  have herase : (pre ++ suf).erase v = pre.erase v ++ suf.erase v := by
    by_cases hvp : v ∈ pre
    · have hvs : v ∉ suf := fun hc => (List.nodup_append.1 hnd).2.2 hvp hc
      rw [List.erase_append_left _ hvp, List.erase_of_not_mem hvs]
    · rw [List.erase_append_right _ hvp, List.erase_of_not_mem hvp]
  refine ⟨v :: pre.erase v, suf.erase v, ?_, ?_, ?_⟩
  · unfold move_to_head
    rw [herase]
    rfl
  · intro w hw
    rcases List.mem_cons.1 hw with hw | hw
    · rw [hw]
      exact hv
    · obtain ⟨hne, hwp⟩ := (List.Nodup.mem_erase_iff hpn).1 hw
      rw [(hoth w hne).1]
      exact hp w hwp
  · intro w hw
    obtain ⟨hne, hws⟩ := (List.Nodup.mem_erase_iff hsn).1 hw
    rw [(hoth w hne).1, (hoth w hne).2]
    exact hs w hws

theorem plru_unowned_suffix_update {total : Nat} {b b' : Nat → cache_block_t} {l : List Nat}
    {v : Nat} (h : plru_unowned_suffix total b l) (hvo : (b v).thread_id ≠ -1)
    (hv : 0 ≤ (b' v).thread_id ∧ (b' v).thread_id < (total : Int))
    (hoth : ∀ a, a ≠ v → (b' a).thread_id = (b a).thread_id ∧ (b' a).state = (b a).state) :
    plru_unowned_suffix total b' l := by
  obtain ⟨pre, suf, rfl, hp, hs⟩ := h
  refine ⟨pre, suf, rfl, ?_, ?_⟩
  · intro w hw
    by_cases hwv : w = v
    · rw [hwv]
      exact hv
    · rw [(hoth w hwv).1]
      exact hp w hw
  · intro w hw
    have hwv : w ≠ v := by
      intro hc
      rw [hc] at hw
      exact hvo (hs v hw).1
    rw [(hoth w hwv).1, (hoth w hwv).2]
    exact hs w hw

theorem plru_unowned_suffix_owned {total : Nat} {b : Nat → cache_block_t} {l : List Nat}
    {w : Nat} (h : plru_unowned_suffix total b l) (hw : w ∈ l) (ho : (b w).thread_id ≠ -1) :
    0 ≤ (b w).thread_id ∧ (b w).thread_id < (total : Int) := by
  obtain ⟨pre, suf, rfl, hp, hs⟩ := h
  rcases List.mem_append.1 hw with hw | hw
  · exact hp w hw
  · exact absurd (hs w hw).1 ho

/-- When the block at the tail is valid, every block of the set has an owner. -/
theorem plru_unowned_suffix_tail {total assoc : Nat} {s : cache_set_t} {l : List Nat}
    (hwf : set_wf assoc s l) (h : plru_unowned_suffix total s.blocks l)
    (hvalid : (s.blocks s.way_tail).state ≠ 0) :
    ∀ w, w < assoc →
      0 ≤ (s.blocks w).thread_id ∧ (s.blocks w).thread_id < (total : Int) := by
  obtain ⟨pre, suf, rfl, hp, hs⟩ := h
  rcases List.eq_nil_or_concat suf with hsuf | ⟨suf', x, hsuf⟩
  · subst hsuf
    intro w hw
    exact hp w (by simpa using (hwf.2.1 w).2 hw)
  · exfalso
    subst hsuf
    have hlast := hwf.2.2.2.1
    rw [List.concat_eq_append, ← List.append_assoc, getLast?_append_cons] at hlast
    simp only [List.getLast?_singleton, Option.some.injEq] at hlast
    apply hvalid
    rw [← hlast]
    exact (hs x (by simp)).2

theorem plru_inv_set {nc nt : Nat} {c : cache_t} (h : plru_inv nc nt c) {s : Nat}
    (hs : s < c.num_sets) :
    ∃ l, set_wf c.assoc (c.sets s) l ∧ plru_unowned_suffix (nc * nt) (c.sets s).blocks l := by
  obtain ⟨l, hl⟩ := h.2.1 s hs
  refine ⟨l, hl, ?_⟩
  have := h.2.2.2 s hs
  rw [set_wf_waylist hl] at this
  exact this

/-- An invariant cache stays so when one set gets a new list and new blocks
with the blocks without owner still last, the counters stay exact and no
other set changes. -/
theorem plru_inv_step {nc nt : Nat} {c c' : cache_t} {s : Nat} (l' : List Nat)
    (h : plru_inv nc nt c) (hsh : cache_same_shape c c') (hwf : cache_wf c')
    (hu : cache_used_ways_ok c') (hoth : ∀ a, a ≠ s → c'.sets a = c.sets a)
    (hl' : set_wf c.assoc (c'.sets s) l')
    (hsuf : plru_unowned_suffix (nc * nt) (c'.sets s).blocks l') : plru_inv nc nt c' := by
  refine ⟨by rw [hsh.2.2.1]; exact h.1, hwf, hu, ?_⟩
  intro a ha
  rw [hsh.2.1]
  by_cases has : a = s
  · subst has
    rw [set_wf_waylist hl']
    exact hsuf
  · rw [hoth a has]
    exact h.2.2.2 a (by rw [← hsh.1]; exact ha)

/-- A call of `cache_access_block` on a block that has an owner. -/
theorem plru_inv_access {nc nt : Nat} {c : cache_t} {s w : Nat} (h : plru_inv nc nt c)
    (hs : s < c.num_sets) (hw : w < c.assoc) (ho : ((c.sets s).blocks w).thread_id ≠ -1) :
    ∃ c', cache_access_block c s w = some c' ∧ plru_inv nc nt c' ∧ cache_same_shape c c' := by
  obtain ⟨l, hl, hsuf⟩ := plru_inv_set h hs
  obtain ⟨s', h1, h2, h3⟩ := cache_access_block_wf hs hw hl
  rw [if_pos (Or.inr (Or.inl h.1))] at h2
  have hsh : cache_same_shape c (c.put_set s s') := ⟨rfl, rfl, rfl, rfl, rfl, rfl⟩
  refine ⟨_, h1, ?_, hsh⟩
  have hin := plru_unowned_suffix_owned hsuf ((hl.2.1 w).2 hw) ho
  refine plru_inv_step (move_to_head w l) h hsh (cache_wf_put_set h.2.1 h2)
    (cache_used_ways_ok_put_set h.2.2.1 h3) (fun a ha => put_set_other c s a s' ha) ?_ ?_
  · rw [put_set_sets, if_pos rfl]
    exact h2
  · rw [put_set_sets, if_pos rfl]
    refine plru_unowned_suffix_move hl.1 hsuf ?_ ?_
    · rw [(h3 w).2.2.2.2.1]
      exact hin
    · intro a _
      exact ⟨(h3 a).2.2.2.2.1, (h3 a).2.2.2.2.2⟩

/-- The end of `cache_set_block` and of `cache_set_transient_tag` under
Partitioned LRU: fields other than the links, the way and the owner of one
block are written, then `cache_set_thread_id` gives the block its owner. -/
theorem plru_set_owner_modified {c : cache_t} {s w : Nat} {l : List Nat}
    (f : cache_block_t → cache_block_t) (tid : Int)
    (hf : ∀ b, (f b).way_prev = b.way_prev ∧ (f b).way_next = b.way_next ∧
      (f b).way = b.way ∧ (f b).thread_id = b.thread_id)
    (hs : s < c.num_sets) (hw : w < c.assoc) (htid : tid ≠ -1) (hwf : cache_wf c)
    (hu : cache_used_ways_ok c) (hl : set_wf c.assoc (c.sets s) l) :
    ∃ c', cache_set_owner (c.modify_block s w f) s w tid = some c' ∧ cache_wf c' ∧
      cache_used_ways_ok c' ∧ cache_same_shape c c' ∧ set_wf c.assoc (c'.sets s) l ∧
      ((c'.sets s).blocks w).thread_id = tid ∧
      ∀ a, a ≠ w → ((c'.sets s).blocks a).thread_id = ((c.sets s).blocks a).thread_id ∧
        ((c'.sets s).blocks a).state = ((c.sets s).blocks a).state := by
  have hwf2 := cache_wf_modify_block hwf s w f (fun b => ⟨(hf b).1, (hf b).2.1, (hf b).2.2.1⟩)
  have hu2 := cache_used_ways_ok_modify_block hu s w f (fun b => (hf b).2.2.2)
  obtain ⟨c', h1, h2, h3, h4, h5, h6, h7⟩ :=
    cache_set_owner_ok (c := c.modify_block s w f) (s := s) (w := w) hs hw htid hwf2 hu2
  have hmb : ∀ a, ((c.modify_block s w f).sets s).blocks a =
      if a = w then f ((c.sets s).blocks w) else (c.sets s).blocks a := by
    intro a
    rw [modify_block_blocks]
    simp
  have hhead : ((c.modify_block s w f).sets s).way_head = (c.sets s).way_head := by
    rw [modify_block_sets, if_pos rfl]
  have htail : ((c.modify_block s w f).sets s).way_tail = (c.sets s).way_tail := by
    rw [modify_block_sets, if_pos rfl]
  refine ⟨c', h1, h2, h3, cache_same_shape_trans ⟨rfl, rfl, rfl, rfl, rfl, rfl⟩ h4, ?_, ?_, ?_⟩
  · refine set_wf_congr hl ((h7 s).1.trans hhead) ((h7 s).2.trans htail) ?_
    intro a
    have hway : ((c'.sets s).blocks a).way = (((c.modify_block s w f).sets s).blocks a).way :=
      (h5 s a).2.2.1
    rw [(h6 s a).1, (h6 s a).2, hway, hmb]
    split_ifs with haw
    · subst haw
      exact ⟨(hf _).1, (hf _).2.1, (hf _).2.2.1⟩
    · exact ⟨rfl, rfl, rfl⟩
  · have := (h5 s w).2.2.2.2.1
    rw [this]
    simp
  · intro a ha
    have e1 := (h5 s a).2.2.2.2.1
    have e2 := (h5 s a).2.2.2.2.2
    rw [e1, e2]
    simp only [ha, and_false, if_false]
    rw [hmb, if_neg ha]
    exact ⟨rfl, rfl⟩

/-- A call of `cache_set_block` under Partitioned LRU: the recency list stays,
the block gets the thread of the client as its owner, and no other block
changes its owner or its state. -/
theorem plru_set_block (nc nt : Nat) {c : cache_t} {s w : Nat} {l : List Nat}
    (tag state : Int) {ci : mod_client_info_t}
    (hp : c.policy = cache_policy_partitioned_lru) (hs : s < c.num_sets) (hw : w < c.assoc)
    (hci : client_in_range nc nt ci) (hwf : cache_wf c) (hu : cache_used_ways_ok c)
    (hl : set_wf c.assoc (c.sets s) l) :
    ∃ c', cache_set_block nc nt c s w tag state (some ci) = some c' ∧ cache_wf c' ∧
      cache_used_ways_ok c' ∧ cache_same_shape c c' ∧ (∀ a, a ≠ s → c'.sets a = c.sets a) ∧
      set_wf c.assoc (c'.sets s) l ∧
      (0 ≤ ((c'.sets s).blocks w).thread_id ∧
        ((c'.sets s).blocks w).thread_id < ((nc * nt : Nat) : Int)) ∧
      ∀ a, a ≠ w → ((c'.sets s).blocks a).thread_id = ((c.sets s).blocks a).thread_id ∧
        ((c'.sets s).blocks a).state = ((c.sets s).blocks a).state := by
  obtain ⟨c', h1, h2, h3, h4, h5, h6, h7⟩ :=
    plru_set_owner_modified (c := c) (s := s) (w := w) (l := l)
      (fun b => { b with tag := tag, state := state, prefetched := 0 })
      (ci.core * (nt : Int) + ci.thread) (fun b => ⟨rfl, rfl, rfl, rfl⟩) hs hw
      (client_thread_id_ne hci) hwf hu hl
  have he : cache_set_block nc nt c s w tag state (some ci) = some c' := by
    have hnf : ¬ (c.policy = cache_policy_fifo ∧ ((c.sets s).blocks w).tag ≠ tag) := by
      rw [hp]
      rintro ⟨h, -⟩
      cases h
    unfold cache_set_block
    rw [if_pos ⟨hs, hw⟩, if_neg hnf]
    simp only
    have hp2 : (c.modify_block s w
        (fun b => { b with tag := tag, state := state, prefetched := 0 })).policy
        = cache_policy_partitioned_lru := hp
    rw [if_pos hp2]
    rw [if_pos (show 0 ≤ ci.core ∧ ci.core < (nc : Int) ∧ 0 ≤ ci.thread ∧ ci.thread < (nt : Int)
      from hci), cache_set_thread_id_eq]
    exact h1
  refine ⟨c', he, h2, h3, h4, fun a ha => cache_set_block_other nc nt c c' s w tag state _ he a ha,
    h5, ?_, h7⟩
  rw [h6]
  exact client_thread_id_range hci

/-- A call of `cache_set_transient_tag` under Partitioned LRU: the recency list
stays, the block gets the thread of the client as its owner, and no other block
changes its owner or its state. -/
theorem plru_set_transient_tag (nc nt : Nat) {c : cache_t} {s w : Nat} {l : List Nat}
    (tag : Int) {ci : mod_client_info_t} (hs : s < c.num_sets) (hw : w < c.assoc)
    (hci : client_in_range nc nt ci) (hwf : cache_wf c) (hu : cache_used_ways_ok c)
    (hl : set_wf c.assoc (c.sets s) l) :
    ∃ c', cache_set_transient_tag nt c s w tag ci = some c' ∧ cache_wf c' ∧
      cache_used_ways_ok c' ∧ cache_same_shape c c' ∧ (∀ a, a ≠ s → c'.sets a = c.sets a) ∧
      set_wf c.assoc (c'.sets s) l ∧
      (0 ≤ ((c'.sets s).blocks w).thread_id ∧
        ((c'.sets s).blocks w).thread_id < ((nc * nt : Nat) : Int)) ∧
      ∀ a, a ≠ w → ((c'.sets s).blocks a).thread_id = ((c.sets s).blocks a).thread_id ∧
        ((c'.sets s).blocks a).state = ((c.sets s).blocks a).state := by
  obtain ⟨c', h1, h2, h3, h4, h5, h6, h7⟩ :=
    plru_set_owner_modified (c := c) (s := s) (w := w) (l := l)
      (fun b => { b with transient_tag := tag })
      (ci.core * (nt : Int) + ci.thread) (fun b => ⟨rfl, rfl, rfl, rfl⟩) hs hw
      (client_thread_id_ne hci) hwf hu hl
  have he : cache_set_transient_tag nt c s w tag ci = some c' := by
    unfold cache_set_transient_tag
    rw [cache_set_thread_id_eq]
    exact h1
  refine ⟨c', he, h2, h3, h4,
    fun a ha => cache_set_transient_tag_other nt c c' s w tag ci he a ha, h5, ?_, h7⟩
  rw [h6]
  exact client_thread_id_range hci

/-- A call of `cache_replace_block` on an invariant Partitioned-LRU cache
returns: it moves a way of the set to the head of the recency list and changes
no block but in its links. -/
theorem plru_replace {nc nt : Nat} {c : cache_t} {s : Nat} {l : List Nat}
    (h : plru_inv nc nt c) (hs : s < c.num_sets) (ci : mod_client_info_t) (rnd : Nat)
    (hci : client_in_range nc nt ci) (hl : set_wf c.assoc (c.sets s) l)
    (hsuf : plru_unowned_suffix (nc * nt) (c.sets s).blocks l) :
    ∃ (c1 : cache_t) (v : Nat), cache_replace_block nc nt c s ci rnd = some (c1, (v : Int)) ∧
      v ∈ l ∧ cache_wf c1 ∧ cache_used_ways_ok c1 ∧ cache_same_shape c c1 ∧
      (∀ a, a ≠ s → c1.sets a = c.sets a) ∧ set_wf c.assoc (c1.sets s) (move_to_head v l) ∧
      ∀ a, same_payload ((c.sets s).blocks a) ((c1.sets s).blocks a) := by
  by_cases hfree : ((c.sets s).blocks (c.sets s).way_tail).state = 0 ∨
      c.assigned_ways (ci.core * nt + ci.thread) = -1
  · obtain ⟨s', h1, h2, h3⟩ := cache_replace_block_plru_free_wf nc nt ci rnd hs hl h.1 hfree
    refine ⟨_, _, h1, set_wf_tail_mem hl, ?_, ?_, ⟨rfl, rfl, rfl, rfl, rfl, rfl⟩, ?_, ?_, ?_⟩
    · exact cache_wf_put_set (c := cache_scratch_cleared nc nt c) h.2.1 h2
    · exact cache_used_ways_ok_put_set (c := cache_scratch_cleared nc nt c) h.2.2.1 h3
    · intro a ha
      exact put_set_other (cache_scratch_cleared nc nt c) s a s' ha
    · rw [put_set_sets, if_pos rfl]
      exact h2
    · intro a
      rw [put_set_sets, if_pos rfl]
      exact h3 a
  · have hvalid : ((c.sets s).blocks (c.sets s).way_tail).state ≠ 0 := fun hc =>
      hfree (Or.inl hc)
    have hq : c.assigned_ways (ci.core * nt + ci.thread) ≠ -1 := fun hc => hfree (Or.inr hc)
    have hcomm : ((nt * nc : Nat) : Int) = ((nc * nt : Nat) : Int) := by rw [Nat.mul_comm]
    have hown := plru_unowned_suffix_tail hl hsuf hvalid
    obtain ⟨s', h1, h2, h3⟩ := cache_replace_block_plru_quota_wf nc nt ci rnd hs hl h.1
      (by rw [hcomm]; exact client_thread_id_range hci) hvalid hq
      (fun w hw => by rw [hcomm]; exact hown w hw)
    refine ⟨_, _, h1, plru_victim_mem hl _, ?_, ?_, ⟨rfl, rfl, rfl, rfl, rfl, rfl⟩, ?_, ?_, ?_⟩
    · exact cache_wf_put_set (c := cache_scratch_counted nc nt c s) h.2.1 h2
    · exact cache_used_ways_ok_put_set (c := cache_scratch_counted nc nt c s) h.2.2.1 h3
    · intro a ha
      exact put_set_other (cache_scratch_counted nc nt c s) s a s' ha
    · rw [put_set_sets, if_pos rfl]
      exact h2
    · intro a
      rw [put_set_sets, if_pos rfl]
      exact h3 a

/-- One event that keeps to the protocol: its calls return and the invariant
is kept. -/
theorem plru_event_step {nc nt : Nat} {c : cache_t} (e : plru_event) (h : plru_inv nc nt c)
    (ha : e.allowed nc nt c = true) :
    ∃ c', e.apply nc nt c = some c' ∧ plru_inv nc nt c' ∧ c'.num_sets = c.num_sets ∧
      c'.assoc = c.assoc := by
  cases e with
  | quotas q =>
    exact ⟨_, rfl, ⟨h.1, h.2.1, h.2.2.1, h.2.2.2⟩, rfl, rfl⟩
  | access s w =>
    obtain ⟨hs, hw, ho⟩ := of_decide_eq_true ha
    obtain ⟨c', h1, h2, h3⟩ := plru_inv_access h hs hw ho
    exact ⟨c', h1, h2, h3.1, h3.2.1⟩
  | refill s w tag state ci =>
    obtain ⟨hs, hw, ho, hci⟩ := of_decide_eq_true ha
    obtain ⟨l, hl, hsuf⟩ := plru_inv_set h hs
    obtain ⟨c', h1, h2, h3, h4, h5, h6, h7, h8⟩ :=
      plru_set_block nc nt tag state h.1 hs hw hci h.2.1 h.2.2.1 hl
    exact ⟨c', h1, plru_inv_step l h h4 h2 h3 h5 h6
      (plru_unowned_suffix_update hsuf ho h7 h8), h4.1, h4.2.1⟩
  | retag s w tag ci =>
    obtain ⟨hs, hw, ho, hci⟩ := of_decide_eq_true ha
    obtain ⟨l, hl, hsuf⟩ := plru_inv_set h hs
    obtain ⟨c', h1, h2, h3, h4, h5, h6, h7, h8⟩ :=
      plru_set_transient_tag nc nt tag hs hw hci h.2.1 h.2.2.1 hl
    exact ⟨c', h1, plru_inv_step l h h4 h2 h3 h5 h6
      (plru_unowned_suffix_update hsuf ho h7 h8), h4.1, h4.2.1⟩
  | miss s ci rnd transient tag state =>
    obtain ⟨hs, hci⟩ := of_decide_eq_true ha
    obtain ⟨l, hl, hsuf⟩ := plru_inv_set h hs
    obtain ⟨c1, v, r1, r2, r3, r4, r5, r6, r7, r8⟩ := plru_replace h hs ci rnd hci hl hsuf
    have hs1 : s < c1.num_sets := by rw [r5.1]; exact hs
    have hv1 : v < c1.assoc := by rw [r5.2.1]; exact (hl.2.1 v).1 r2
    have hl1 : set_wf c1.assoc (c1.sets s) (move_to_head v l) := by rw [r5.2.1]; exact r7
    have hp1 : c1.policy = cache_policy_partitioned_lru := by rw [r5.2.2.1]; exact h.1
    have hfin : ∀ c', cache_wf c' → cache_used_ways_ok c' → cache_same_shape c1 c' →
        (∀ a, a ≠ s → c'.sets a = c1.sets a) →
        set_wf c1.assoc (c'.sets s) (move_to_head v l) →
        (0 ≤ ((c'.sets s).blocks v).thread_id ∧
          ((c'.sets s).blocks v).thread_id < ((nc * nt : Nat) : Int)) →
        (∀ a, a ≠ v → ((c'.sets s).blocks a).thread_id = ((c1.sets s).blocks a).thread_id ∧
          ((c'.sets s).blocks a).state = ((c1.sets s).blocks a).state) →
        plru_inv nc nt c' ∧ c'.num_sets = c.num_sets ∧ c'.assoc = c.assoc := by
      intro c' h2 h3 h4 h5 h6 h7 h8
      have hsh := cache_same_shape_trans r5 h4
      refine ⟨plru_inv_step (move_to_head v l) h hsh h2 h3 (fun a ha => (h5 a ha).trans (r6 a ha))
        (by rw [← r5.2.1]; exact h6) ?_, hsh.1, hsh.2.1⟩
      refine plru_unowned_suffix_move hl.1 hsuf h7 ?_
      intro a ha
      exact ⟨(h8 a ha).1.trans (r8 a).2.2.2.2.1, (h8 a ha).2.trans (r8 a).2.2.2.2.2⟩
    show ∃ c', (match cache_replace_block nc nt c s ci rnd with
      | none => none
      | some (c1, way) =>
        if transient then cache_set_transient_tag nt c1 s way.toNat tag ci
        else cache_set_block nc nt c1 s way.toNat tag state (some ci)) = some c' ∧ _
    rw [r1]
    simp only [Int.toNat_ofNat]
    cases transient with
    | true =>
      obtain ⟨c', h1, h2, h3, h4, h5, h6, h7, h8⟩ :=
        plru_set_transient_tag nc nt tag hs1 hv1 hci r3 r4 hl1
      exact ⟨c', by simpa using h1, hfin c' h2 h3 h4 h5 h6 h7 h8⟩
    | false =>
      obtain ⟨c', h1, h2, h3, h4, h5, h6, h7, h8⟩ :=
        plru_set_block nc nt tag state hp1 hs1 hv1 hci r3 r4 hl1
      exact ⟨c', by simpa using h1, hfin c' h2 h3 h4 h5 h6 h7 h8⟩

/-- A run that keeps to the protocol returns and keeps the invariant. -/
theorem plru_run_inv (nc nt : Nat) (events : List plru_event) :
    ∀ c, plru_inv nc nt c → plru_protocol nc nt c events = true →
      ∃ c', plru_run nc nt c events = some c' ∧ plru_inv nc nt c' ∧
        c'.num_sets = c.num_sets ∧ c'.assoc = c.assoc := by
  induction events with
  | nil =>
    intro c h _
    exact ⟨c, rfl, h, rfl, rfl⟩
  | cons e es ih =>
    intro c h hp
    rw [plru_protocol, Bool.and_eq_true] at hp
    obtain ⟨c1, h1, h2, h3, h4⟩ := plru_event_step e h hp.1
    have hrest := hp.2
    rw [h1] at hrest
    obtain ⟨c', k1, k2, k3, k4⟩ := ih c1 h2 hrest
    refine ⟨c', ?_, k2, k3.trans h3, k4.trans h4⟩
    rw [plru_run, h1]
    exact k1

theorem plru_protocol_take (nc nt : Nat) (events : List plru_event) :
    ∀ (k : Nat) (c : cache_t), plru_protocol nc nt c events = true →
      plru_protocol nc nt c (events.take k) = true := by
  induction events with
  | nil =>
    intro k c h
    simp [plru_protocol]
  | cons e es ih =>
    intro k c h
    cases k with
    | zero => rfl
    | succ k =>
      rw [plru_protocol, Bool.and_eq_true] at h
      rw [List.take_succ_cons, plru_protocol, Bool.and_eq_true]
      refine ⟨h.1, ?_⟩
      cases he : e.apply nc nt c with
      | none => rfl
      | some c1 =>
        have hrest := h.2
        rw [he] at hrest
        exact ih k c1 hrest

/-- The cache `cache_create` builds: every block is invalid and has no owner. -/
theorem cache_create_plru_inv (nc nt : Nat) {num_sets block_size assoc : Nat} {c : cache_t}
    (h : cache_create num_sets block_size assoc cache_policy_partitioned_lru = some c)
    (hassoc : 0 < assoc) : plru_inv nc nt c := by
  obtain ⟨h1, h2, _, _, _, h6, _, h8⟩ := cache_create_ok h hassoc
  refine ⟨h6, h1, h2, fun s _ => ⟨[], _, rfl, fun w hw => absurd hw (List.not_mem_nil w),
    fun w _ => ⟨h8 s w, ?_⟩⟩⟩
  unfold cache_create at h
  split_ifs at h
  simp only [Option.some.injEq] at h
  subst h
  rfl

/-! ## Claims on `cache_partitioning_handler` -/

/-- C22 fails on the code when the two members of a pair have the same
individual speedup: `min` and `max` then keep the threads of the sort of all
threads (or of the pair before).  The controller is ON with the pairs (3, 2)
and (1, 0) of 4 ways each and the quotas 1, 3, 1, 3 for threads 0 to 3; in the
call threads 2 and 3 have the same speedup 1/2, thread 0 has 19/20 and thread
1 has 1, so the sort leaves `min` at thread 3 and `max` at thread 1.  The
controller stays ON, the pairs are not made again, and the step for the pair
(3, 2) moves a way from thread 1 to thread 3, then the step for the pair
(1, 0) a way from thread 1 to thread 0: the quotas become 2, 1, 1, 4, the pair
(3, 2) holds 5 ways and the pair (1, 0) holds 3. -/
theorem fcp_pair_transfer_equal_speedups_crosses_pairs :
    fcp_view_pairs fcp_paired_example =
      (fcp_state_t.ON, [(3, 2, 4), (1, 0, 4)], [1, 3, 1, 3]) ∧
    x86_thread_speedup (call_four_penalties 2000 100 0 1000 1000).1 2 =
      x86_thread_speedup (call_four_penalties 2000 100 0 1000 1000).1 3 ∧
    (fcp_unfairness list_sort_insertion (1 * 4) (call_four_penalties 2000 100 0 1000 1000).1
        (fcp_paired_example.with_used_ways (call_four_penalties 2000 100 0 1000 1000).2)).map
      (fun r => (r.2.1, r.2.2.1)) = some (3, 1) ∧
    (fcp_repartition list_sort_insertion 1 4 (call_four_penalties 2000 100 0 1000 1000).1
        (fcp_paired_example.with_used_ways (call_four_penalties 2000 100 0 1000 1000).2)).map
      fcp_view_pairs =
      some (fcp_state_t.ON, [(3, 2, 4), (1, 0, 4)], [2, 1, 1, 4]) :=
  ⟨by decide!, by decide!, by decide!, by decide!⟩

/-! ## Partitioned LRU at the quota -/

/-- C29 fails on the code when the requester holds exactly its quota: with the
quotas `[1, 3]` over four valid ways, thread 0 owning way 0 and thread 1
owning ways 1, 2 and 3 (way 3 the least recently used), thread 1 owns 3
blocks, no more than its 3 assigned ways, and a miss of thread 1 makes
`cache_replace_block` return way 3, a block of thread 1 itself, not a block of
the competing thread 0. -/
theorem plru_requester_at_quota_returns_own_block :
    (plru_filled_example 1 3).map plru_view
      = some ([(0, 1), (1, 1), (1, 1), (1, 1)], 1, 3, [0, 1, 2, 3]) ∧
    ((plru_filled_example 1 3).map fun c => cache_set_owned 4 (c.sets 0) 1) = some 3 ∧
    ((plru_filled_example 1 3).bind fun c =>
      (cache_replace_block 1 2 c 0 ⟨0, 1⟩ 0).map fun r =>
        (r.2, ((c.sets 0).blocks r.2.toNat).thread_id)) = some (3, 1) :=
  ⟨by decide!, by decide!, by decide!⟩

/-! ## Mutation is local to the addressed set -/

/-- C25: a call of `cache_set_block`, `cache_set_transient_tag`,
`cache_access_block` or `cache_replace_block` on the set `s` that returns
leaves every other set `s'` as it was: the same head and tail of the recency
list and the same blocks, with their links, tags, transient tags, states and
owners. -/
theorem cache_ops_leave_other_sets (nc nt : Nat) (c : cache_t) (s s' : Nat) (hs : s' ≠ s) :
    (∀ (w : Nat) (tag state : Int) (ci : Option mod_client_info_t) (c' : cache_t),
      cache_set_block nc nt c s w tag state ci = some c' → c'.sets s' = c.sets s') ∧
    (∀ (w : Nat) (tag : Int) (ci : mod_client_info_t) (c' : cache_t),
      cache_set_transient_tag nt c s w tag ci = some c' → c'.sets s' = c.sets s') ∧
    (∀ (w : Nat) (c' : cache_t),
      cache_access_block c s w = some c' → c'.sets s' = c.sets s') ∧
    (∀ (ci : mod_client_info_t) (rnd : Nat) (c' : cache_t) (way : Int),
      cache_replace_block nc nt c s ci rnd = some (c', way) → c'.sets s' = c.sets s') := by
  refine ⟨?_, ?_, ?_, ?_⟩
  · intro w tag state ci c' h
    exact cache_set_block_other nc nt c c' s w tag state ci h s' hs
  · intro w tag ci c' h
    exact cache_set_transient_tag_other nt c c' s w tag ci h s' hs
  · intro w c' h
    exact cache_access_block_other c c' s w h s' hs
  · intro ci rnd c' way h
    exact cache_replace_block_other nc nt c s ci rnd (c', way) h s' hs

/-- C25 on a Partitioned-LRU cache of two sets and two ways: the four calls on
set 0 return and change set 0 (the recency list becomes 1, 0; the blocks get a
tag, a transient tag and an owner), and set 1 is as it was. -/
theorem cache_ops_leave_other_sets_witness :
    ((cache_replace_block 1 2 (two_set_cache cache_policy_t.cache_policy_partitioned_lru) 0
        ⟨0, 1⟩ 0).map fun r => (r.2, cache_waylist 2 (r.1.sets 0))) = some (1, [1, 0]) ∧
    ((cache_access_block (two_set_cache cache_policy_t.cache_policy_partitioned_lru) 0 1).map
      fun c => cache_waylist 2 (c.sets 0)) = some [1, 0] ∧
    ((cache_set_block 1 2 (two_set_cache cache_policy_t.cache_policy_partitioned_lru) 0 1 64 4
        (some ⟨0, 1⟩)).map fun c => (c.sets 0).blocks 1) =
      some { cache_create_block 2 1 with tag := 64, state := 4, thread_id := 1 } ∧
    ((cache_set_transient_tag 2 (two_set_cache cache_policy_t.cache_policy_partitioned_lru) 0 1
        64 ⟨0, 1⟩).map fun c => (c.sets 0).blocks 1) =
      some { cache_create_block 2 1 with transient_tag := 64, thread_id := 1 } ∧
    (1 : Nat) ≠ 0 ∧
    (∀ (w : Nat) (tag state : Int) (ci : Option mod_client_info_t) (c' : cache_t),
      cache_set_block 1 2 (two_set_cache cache_policy_t.cache_policy_partitioned_lru) 0 w tag
        state ci = some c' →
      c'.sets 1 = (two_set_cache cache_policy_t.cache_policy_partitioned_lru).sets 1) ∧
    (∀ (w : Nat) (tag : Int) (ci : mod_client_info_t) (c' : cache_t),
      cache_set_transient_tag 2 (two_set_cache cache_policy_t.cache_policy_partitioned_lru) 0 w
        tag ci = some c' →
      c'.sets 1 = (two_set_cache cache_policy_t.cache_policy_partitioned_lru).sets 1) ∧
    (∀ (w : Nat) (c' : cache_t),
      cache_access_block (two_set_cache cache_policy_t.cache_policy_partitioned_lru) 0 w
        = some c' →
      c'.sets 1 = (two_set_cache cache_policy_t.cache_policy_partitioned_lru).sets 1) ∧
    (∀ (ci : mod_client_info_t) (rnd : Nat) (c' : cache_t) (way : Int),
      cache_replace_block 1 2 (two_set_cache cache_policy_t.cache_policy_partitioned_lru) 0 ci
        rnd = some (c', way) →
      c'.sets 1 = (two_set_cache cache_policy_t.cache_policy_partitioned_lru).sets 1) :=
  ⟨by decide!, by decide!, by decide!, by decide!, by decide,
    cache_ops_leave_other_sets 1 2 (two_set_cache cache_policy_t.cache_policy_partitioned_lru)
      0 1 (by decide)⟩

/-! ## Partitioned LRU without a partitioning policy -/

/-- C26: a Partitioned-LRU cache in which `assigned_ways` is -1 for every
thread and an LRU cache of the same geometry with the same well-formed sets
give, for every sequence of calls of `cache_access_block` and
`cache_replace_block`, the same outcome: both abort or both return, with the
same ways returned by `cache_replace_block` and the same sets (blocks and
recency lists) at the end; and both return when every call names a set and a
way of the cache and a thread of the machine. -/
theorem plru_without_quotas_behaves_as_lru (nc nt : Nat) (c1 c2 : cache_t)
    (ops : List cache_op)
    (hp1 : c1.policy = cache_policy_t.cache_policy_partitioned_lru)
    (hp2 : c2.policy = cache_policy_t.cache_policy_lru)
    (hgeo : c1.num_sets = c2.num_sets ∧ c1.assoc = c2.assoc) (hsets : c1.sets = c2.sets)
    (hq : ∀ t : Int, c1.assigned_ways t = -1) (hwf : cache_wf c2)
    (hops : ∀ op ∈ ops, op.is_access_or_replace = true) :
    (cache_run_ways nc nt c1 ops).map (fun r => (r.2, r.1.sets)) =
      (cache_run_ways nc nt c2 ops).map (fun r => (r.2, r.1.sets)) ∧
    ((∀ op ∈ ops, op.in_range nc nt c2.num_sets c2.assoc c2.policy) →
      ∃ r1 r2, cache_run_ways nc nt c1 ops = some r1 ∧ cache_run_ways nc nt c2 ops = some r2 ∧
        r1.2 = r2.2 ∧
        ∀ s, cache_waylist c1.assoc (r1.1.sets s) = cache_waylist c2.assoc (r2.1.sets s)) := by
  have hrel : plru_lru_related c1 c2 := ⟨hp1, hp2, hgeo.1, hgeo.2, hsets, hq, hwf⟩
  constructor
  · rcases plru_lru_run nc nt ops c1 c2 hrel hops with ⟨h1, h2⟩ | ⟨c1', c2', ws, h1, h2, hr⟩
    · rw [h1, h2]
    · rw [h1, h2]
      simp only [Option.map_some', Option.some.injEq, Prod.mk.injEq, true_and]
      exact hr.2.2.2.2.1
  · intro hrange
    obtain ⟨c1', c2', ws, h1, h2, hr⟩ := plru_lru_run_returns nc nt ops c1 c2 hrel hops hrange
    refine ⟨_, _, h1, h2, rfl, ?_⟩
    intro s
    show cache_waylist c1.assoc (c1'.sets s) = cache_waylist c2.assoc (c2'.sets s)
    rw [hr.2.2.2.2.1, hgeo.2]

/-- C26 on the cache of two sets and two ways: the six calls of
`lru_ops_example` return the ways 1, 1, 1 and leave the recency lists 1, 0 and
0, 1 under both policies. -/
theorem plru_without_quotas_behaves_as_lru_witness :
    (cache_run_ways 1 2 (two_set_cache cache_policy_t.cache_policy_partitioned_lru)
        lru_ops_example).map run_ways_view = some ([1, 1, 1], [1, 0], [0, 1]) ∧
    (cache_run_ways 1 2 (two_set_cache cache_policy_t.cache_policy_partitioned_lru)
        lru_ops_example).map (fun r => (r.2, r.1.sets)) =
      (cache_run_ways 1 2 (two_set_cache cache_policy_t.cache_policy_lru)
        lru_ops_example).map (fun r => (r.2, r.1.sets)) ∧
    ∃ r1 r2,
      cache_run_ways 1 2 (two_set_cache cache_policy_t.cache_policy_partitioned_lru)
        lru_ops_example = some r1 ∧
      cache_run_ways 1 2 (two_set_cache cache_policy_t.cache_policy_lru) lru_ops_example
        = some r2 ∧
      r1.2 = r2.2 ∧
      ∀ s, cache_waylist (two_set_cache cache_policy_t.cache_policy_partitioned_lru).assoc
          (r1.1.sets s) =
        cache_waylist (two_set_cache cache_policy_t.cache_policy_lru).assoc (r2.1.sets s) :=
  ⟨by decide!,
    (plru_without_quotas_behaves_as_lru 1 2
      (two_set_cache cache_policy_t.cache_policy_partitioned_lru)
      (two_set_cache cache_policy_t.cache_policy_lru) lru_ops_example rfl rfl ⟨rfl, rfl⟩ rfl
      (fun _ => rfl) (fun _ _ => ⟨List.range 2, cache_create_set_wf 2 (by decide)⟩)
      (by decide)).1,
    (plru_without_quotas_behaves_as_lru 1 2
      (two_set_cache cache_policy_t.cache_policy_partitioned_lru)
      (two_set_cache cache_policy_t.cache_policy_lru) lru_ops_example rfl rfl ⟨rfl, rfl⟩ rfl
      (fun _ => rfl) (fun _ _ => ⟨List.range 2, cache_create_set_wf 2 (by decide)⟩)
      (by decide)).2
      (by
        intro op hop
        simp only [lru_ops_example, List.mem_cons, List.mem_singleton, List.not_mem_nil,
          or_false] at hop
        rcases hop with rfl | rfl | rfl | rfl | rfl | rfl <;>
          simp [cache_op.in_range, client_in_range, two_set_cache])⟩

/-! ## Termination of the allocation loop of UCP -/

/-- C30 as stated fails for the first iteration: on the two-thread, four-way
example with both histograms zero, the loop starts with the balance 2 and the
last balance 4; the first iteration grants no way, leaves the balance at 2,
which is not the last balance, and is followed by a second iteration, which
leaves the balance at 2 again and is the last. -/
theorem ucp_first_iteration_without_progress_not_last :
    (ucp_seed (1 * 2) ucp_zero_example 4).2 = 2 ∧
    ucp_allocate_balances (1 * 2) (4 + 2) (ucp_seed (1 * 2) ucp_zero_example 4).1 2 4 = [2, 2] ∧
    (ucp_repartition 1 2 ucp_zero_example).map
      (fun u => (u.mod.cache.assigned_ways 0, u.mod.cache.assigned_ways 1)) = some (1, 1) :=
  ⟨by decide!, by decide!, by decide!⟩

/-- C30, amended: when `ucp_repartition` passes the warm-up gate on a module
with a reachable thread, a histogram for every reachable thread and `ways_req`
0 for the unreachable threads, whatever the geometry and the histograms hold,
the call returns (the loop ends within its `assoc + 2` iterations); and of the
balances at the end of the iterations, each is strictly less than the one
before it or equal to it and the last one, except that the first iteration may
leave the balance as it is and be followed by one more. -/
theorem ucp_allocation_loop_terminates (nc nt : Nat) (ucp : ucp_t) (g : Nat)
    (hgate : ¬ double.lt (cache_usage (nc * nt) ucp.mod) UCP_CACHE_TH)
    (hg : g < nc * nt) (hgr : ucp.mod.reachable_threads g = true)
    (hatd : ∀ i : Nat, i < nc * nt → ucp.mod.reachable_threads i = true →
      (ucp.mod.atd_per_thread i).isSome = true)
    (hreq0 : ∀ i : Nat, i < nc * nt → ucp.mod.reachable_threads i = false →
      ucp.ways_req i = 0) :
    (∃ u u', ucp_allocate (nc * nt) (ucp.mod.cache.assoc + 2)
        (ucp_seed (nc * nt) ucp ucp.mod.cache.assoc).1
        (ucp_seed (nc * nt) ucp ucp.mod.cache.assoc).2 ucp.mod.cache.assoc = some u ∧
      ucp_repartition nc nt ucp = some u') ∧
    ∀ (before after : List Int) (x y : Int),
      (ucp_seed (nc * nt) ucp ucp.mod.cache.assoc).2 ::
        ucp_allocate_balances (nc * nt) (ucp.mod.cache.assoc + 2)
          (ucp_seed (nc * nt) ucp ucp.mod.cache.assoc).1
          (ucp_seed (nc * nt) ucp ucp.mod.cache.assoc).2 ucp.mod.cache.assoc =
        before ++ x :: y :: after →
      y < x ∨ (y = x ∧ (after = [] ∨ before = [])) := by
  obtain ⟨h1, h2, _, _, h5, h6⟩ := ucp_seed_spec ucp ucp.mod.cache.assoc (nc * nt)
  have h7 := ucp_seed_ways_req ucp ucp.mod.cache.assoc (nc * nt)
  have hatd' : ∀ i : Nat, i < nc * nt →
      (ucp_seed (nc * nt) ucp ucp.mod.cache.assoc).1.mod.reachable_threads i = true →
      ((ucp_seed (nc * nt) ucp ucp.mod.cache.assoc).1.mod.atd_per_thread i).isSome = true := by
    intro i hi hri
    rw [h1] at hri
    rw [h2]
    exact hatd i hi hri
  have hreq0' : ∀ i : Nat, i < nc * nt →
      (ucp_seed (nc * nt) ucp ucp.mod.cache.assoc).1.mod.reachable_threads i = false →
      (ucp_seed (nc * nt) ucp ucp.mod.cache.assoc).1.ways_req i = 0 := by
    intro i hi hri
    rw [h1] at hri
    rw [h7]
    exact hreq0 i hi hri
  constructor
  · obtain ⟨u, hu, _, _, _⟩ := ucp_allocate_returns (nc * nt) g
      (ucp.mod.cache.assoc + 2) (ucp_seed (nc * nt) ucp ucp.mod.cache.assoc).1
      (ucp_seed (nc * nt) ucp ucp.mod.cache.assoc).2 ucp.mod.cache.assoc
      hg (by rw [h1]; exact hgr) hatd' hreq0'
      (by intro i hi hri; rw [h1] at hri; rw [h5 i hi hri])
      (by
        rw [h6]
        split_ifs <;> omega)
    refine ⟨u, ucp_decay (nc * nt) u, hu, ?_⟩
    unfold ucp_repartition
    simp only [hgate, if_false, hu]
  · intro before after x y h
    rcases ucp_allocate_balances_spec (nc * nt) _ _ _ _ hatd' hreq0' before after x y h with
      h3 | ⟨h3, h4 | h4⟩
    · exact Or.inl h3
    · exact Or.inr ⟨h3, Or.inl h4⟩
    · exact Or.inr ⟨h3, Or.inr h4.1⟩

/-- C30, amended, on the two-thread, four-way example with the histograms
`[10, 5, 1, 0]` and `[1, 1, 1, 1]`: the balance is 2 after the seeding, 1 after
the first iteration and 0 after the second. -/
theorem ucp_allocation_loop_terminates_witness :
    (ucp_seed (1 * 2) ucp_fresh_example 4).2 ::
      ucp_allocate_balances (1 * 2) (4 + 2) (ucp_seed (1 * 2) ucp_fresh_example 4).1
        (ucp_seed (1 * 2) ucp_fresh_example 4).2 4 = [2, 1, 0] ∧
    (∃ u u', ucp_allocate (1 * 2) (ucp_fresh_example.mod.cache.assoc + 2)
        (ucp_seed (1 * 2) ucp_fresh_example ucp_fresh_example.mod.cache.assoc).1
        (ucp_seed (1 * 2) ucp_fresh_example ucp_fresh_example.mod.cache.assoc).2
        ucp_fresh_example.mod.cache.assoc = some u ∧
      ucp_repartition 1 2 ucp_fresh_example = some u') ∧
    ∀ (before after : List Int) (x y : Int),
      (ucp_seed (1 * 2) ucp_fresh_example ucp_fresh_example.mod.cache.assoc).2 ::
        ucp_allocate_balances (1 * 2) (ucp_fresh_example.mod.cache.assoc + 2)
          (ucp_seed (1 * 2) ucp_fresh_example ucp_fresh_example.mod.cache.assoc).1
          (ucp_seed (1 * 2) ucp_fresh_example ucp_fresh_example.mod.cache.assoc).2
          ucp_fresh_example.mod.cache.assoc =
        before ++ x :: y :: after →
      y < x ∨ (y = x ∧ (after = [] ∨ before = [])) :=
  ⟨by decide!,
    ucp_allocation_loop_terminates 1 2 ucp_fresh_example 0 (by decide!) (by decide)
      (by decide) (by decide!) (by decide!)⟩

/-- C27: the quota `assigned_ways[t]` of every thread `t` of the machine is -1
or at least 1, never 0: right after `cache_create` (every entry is -1), right
after `ucp_create` and after any sequence of calls of `ucp_repartition`, which
all return, and right after `fcp_create` without pairing and after any sequence
of calls of `fcp_repartition`, which all return, over a cache with `assoc` at
least the number of reachable threads.  The module given to UCP has a reachable
thread, a histogram for every reachable thread at every call and `assoc` other
than 0; for FCP `list_sort` sorts, the cycle count grows from call to call and
the counters read are those of a running machine. -/
theorem assigned_ways_never_zero (num_sets block_size assoc : Nat) (policy : cache_policy_t)
    (list_sort : (Int → Int → Int) → List Int → List Int) (nc nt : Nat)
    (umod fmod : mod_t) (interval : Int) (g : Nat)
    (ucalls : List ((Int → Int) × (Int → Option atd_t)))
    (fcalls : List (esim_t × (Int → Int)))
    (hg : g < nc * nt) (hgr : umod.reachable_threads g = true)
    (hassoc : umod.cache.assoc ≠ 0)
    (hatd : ∀ c ∈ ucalls, ∀ i : Nat, i < nc * nt → umod.reachable_threads i = true →
      (c.2 i).isSome = true)
    (hsort : list_sort_sorts list_sort)
    (hnum : fmod.num_reachable_threads = (count_reachable (nc * nt) fmod : Int))
    (hn1 : 1 ≤ count_reachable (nc * nt) fmod)
    (hn2 : count_reachable (nc * nt) fmod ≤ fmod.cache.assoc)
    (hsets : 0 < fmod.cache.num_sets)
    (hinc : fcp_cycles_increase fcalls) (hcalls : fcp_calls_ok (nc * nt) fmod fcalls) :
    (∀ c, cache_create num_sets block_size assoc policy = some c →
      ∀ t : Int, c.assigned_ways t = -1) ∧
    (∃ u0 u, ucp_create nc nt umod = some u0 ∧
      quotas_never_zero (nc * nt) u0.mod.cache.assigned_ways ∧
      ucp_run nc nt u0 ucalls = some u ∧
      quotas_never_zero (nc * nt) u.mod.cache.assigned_ways) ∧
    (quotas_never_zero (nc * nt)
      (fcp_create nc nt fmod thread_pairing_policy_t.thread_pairing_policy_none
        interval).mod.cache.assigned_ways ∧
      ∃ f, fcp_run list_sort nc nt
          (fcp_create nc nt fmod thread_pairing_policy_t.thread_pairing_policy_none interval)
          fcalls = some f ∧
        quotas_never_zero (nc * nt) f.mod.cache.assigned_ways) := by
  refine ⟨?_, ?_, ?_⟩
  · intro c hc t
    unfold cache_create at hc
    split_ifs at hc
    simp only [Option.some.injEq] at hc
    rw [← hc]
  · cases hu0 : ucp_create nc nt umod with
    | none =>
      unfold ucp_create at hu0
      rw [if_pos hassoc] at hu0
      cases hu0
    | some u0 =>
      obtain ⟨hr, hw, hq⟩ := ucp_create_quotas nc nt umod u0 hu0
      have hq0 : quotas_never_zero (nc * nt) u0.mod.cache.assigned_ways :=
        fun t ht => Or.inl (hq t ht)
      obtain ⟨u, hu, hqu⟩ := ucp_run_quotas nc nt g hg ucalls u0 (by rw [hr]; exact hgr)
        (by rw [hr]; exact hatd)
        (by
          intro i _ _
          rw [hw])
        hq0
      exact ⟨u0, u, rfl, hq0, hu, hqu⟩
  · have hst := fcp_create_static nc nt fmod interval hnum hn1 hn2 hsets
    have hq0 : quotas_never_zero (nc * nt)
        (fcp_create nc nt fmod thread_pairing_policy_t.thread_pairing_policy_none
          interval).mod.cache.assigned_ways :=
      fun t ht => Or.inl (assigned_ways_cleared (nc * nt) fmod.cache.assigned_ways t ht)
    refine ⟨hq0, ?_⟩
    exact fcp_run_quotas list_sort nc nt hsort fcalls _ hst
      (by
        unfold fcp_state_ok
        exact ⟨fun h => (by cases h), fun h => (by cases h)⟩)
      (fun c hc => (hcalls c hc).1) hinc hcalls hq0

/-- C27 on a four-way cache created with 1 set of 64-byte blocks, on the two
calls of `ucp_calls_example` and on the ten calls of `fcp_calls_example`, both
on the two-thread module `example_mod 4 2`. -/
theorem assigned_ways_never_zero_witness :
    (∀ c, cache_create 1 64 4 cache_policy_t.cache_policy_partitioned_lru = some c →
      ∀ t : Int, c.assigned_ways t = -1) ∧
    (∃ u0 u, ucp_create 1 2 (example_mod 4 2 []) = some u0 ∧
      quotas_never_zero (1 * 2) u0.mod.cache.assigned_ways ∧
      ucp_run 1 2 u0 ucp_calls_example = some u ∧
      quotas_never_zero (1 * 2) u.mod.cache.assigned_ways) ∧
    (quotas_never_zero (1 * 2)
      (fcp_create 1 2 (example_mod 4 2 []) thread_pairing_policy_t.thread_pairing_policy_none
        0).mod.cache.assigned_ways ∧
      ∃ f, fcp_run list_sort_insertion 1 2
          (fcp_create 1 2 (example_mod 4 2 []) thread_pairing_policy_t.thread_pairing_policy_none
            0)
          fcp_calls_example = some f ∧
        quotas_never_zero (1 * 2) f.mod.cache.assigned_ways) :=
  assigned_ways_never_zero 1 64 4 cache_policy_t.cache_policy_partitioned_lru
    list_sort_insertion 1 2 (example_mod 4 2 []) (example_mod 4 2 []) 0 0 ucp_calls_example
    fcp_calls_example (by decide) (by decide) (by decide) (by decide!)
    list_sort_insertion_sorts (by decide!) (by decide!) (by decide!) (by decide!) (by decide!)
    (by decide!)

/-! ## Partitioned LRU when the quotas add up to `assoc` -/

/-- C28: under Partitioned-LRU, on a well-formed set whose blocks are all valid
and owned by threads of the machine, when the quotas `assigned_ways` of the
threads that own blocks of the set add up to `assoc` and the requester is a
thread of the machine with a quota of at least one way, `cache_replace_block`
returns a way of the set whose owner holds at least its own quota in the set;
so no thread that holds fewer blocks than its quota in the set owns the way
returned. -/
theorem plru_victim_owner_holds_its_quota (nc nt : Nat) (c : cache_t) (s : Nat)
    (ci : mod_client_info_t) (rnd : Nat) (hwf : cache_wf c) (hs : s < c.num_sets)
    (hp : c.policy = cache_policy_partitioned_lru)
    (htid : 0 ≤ ci.core * (nt : Int) + ci.thread ∧
      ci.core * (nt : Int) + ci.thread < ((nt * nc : Nat) : Int))
    (hq : 1 ≤ c.assigned_ways (ci.core * (nt : Int) + ci.thread))
    (hvalid : ∀ w, w < c.assoc → ((c.sets s).blocks w).state ≠ 0)
    (hown : ∀ w, w < c.assoc → 0 ≤ ((c.sets s).blocks w).thread_id ∧
      ((c.sets s).blocks w).thread_id < ((nt * nc : Nat) : Int))
    (hsum : ((cache_set_owners c.assoc (c.sets s)).map c.assigned_ways).sum = (c.assoc : Int)) :
    ∃ (c' : cache_t) (w : Nat),
      cache_replace_block nc nt c s ci rnd = some (c', (w : Int)) ∧ w < c.assoc ∧
      cache_set_owned c.assoc (c.sets s) ((c.sets s).blocks w).thread_id ≥
        c.assigned_ways ((c.sets s).blocks w).thread_id ∧
      ∀ t : Int, cache_set_owned c.assoc (c.sets s) t < c.assigned_ways t →
        ((c.sets s).blocks w).thread_id ≠ t := by
  obtain ⟨l, h⟩ := hwf s hs
  obtain ⟨s', h1, -, -⟩ :=
    cache_replace_block_plru_quota_wf nc nt ci rnd hs h hp htid
      (hvalid _ ((h.2.1 _).1 (set_wf_tail_mem h))) (by omega) hown
  have hv := plru_victim_at_quota h (ci.core * (nt : Int) + ci.thread) hq hsum
  refine ⟨_, _, h1, (h.2.1 _).1 (plru_victim_mem h _), hv, ?_⟩
  intro t ht hc
  rw [hc] at hv
  omega

/-- C28 on a four-way set with the quotas `[1, 3]`, way 0 owned by thread 0
and ways 1, 2, 3 by thread 1, on a miss of thread 0. -/
theorem plru_victim_owner_holds_its_quota_witness :
    ∃ (c' : cache_t) (w : Nat),
      cache_replace_block 1 2 (plru_owned_example [0, 1, 1, 1] 1 3) 0 ⟨0, 0⟩ 0
        = some (c', (w : Int)) ∧
      w < (plru_owned_example [0, 1, 1, 1] 1 3).assoc ∧
      cache_set_owned (plru_owned_example [0, 1, 1, 1] 1 3).assoc
          ((plru_owned_example [0, 1, 1, 1] 1 3).sets 0)
          (((plru_owned_example [0, 1, 1, 1] 1 3).sets 0).blocks w).thread_id ≥
        (plru_owned_example [0, 1, 1, 1] 1 3).assigned_ways
          (((plru_owned_example [0, 1, 1, 1] 1 3).sets 0).blocks w).thread_id ∧
      ∀ t : Int, cache_set_owned (plru_owned_example [0, 1, 1, 1] 1 3).assoc
          ((plru_owned_example [0, 1, 1, 1] 1 3).sets 0) t <
            (plru_owned_example [0, 1, 1, 1] 1 3).assigned_ways t →
        (((plru_owned_example [0, 1, 1, 1] 1 3).sets 0).blocks w).thread_id ≠ t :=
  plru_victim_owner_holds_its_quota 1 2 (plru_owned_example [0, 1, 1, 1] 1 3) 0 ⟨0, 0⟩ 0
    (plru_owned_example_wf [0, 1, 1, 1] 1 3) (by decide) (by decide) (by decide) (by decide)
    (by decide) (by decide) (by decide)

/-! ## The budgets of the pairs -/

/-- C40: on a cache with at least one set, at least one reachable thread,
`assoc` at least the number of reachable threads and counters `used_ways` that
are not negative, the loop `for (i = 0; ways != 0; i++)` of `fcp_repartition`
that follows the seeding loop ends, within `total_num_threads * (|ways| + 1)`
turns, where `ways` is what the seeding loop has left; at its end the quotas of
the reachable threads add up to `assoc`, which is the seeded sum plus `ways`
(no way is left over or lacking), and every reachable thread has at least 1
way. -/
theorem fcp_redistribute_ends (total : Nat) (fcp : fcp_t) (fuel : Nat)
    (hns : 0 < fcp.mod.cache.num_sets)
    (hc1 : 1 ≤ count_reachable total fcp.mod)
    (hc2 : count_reachable total fcp.mod ≤ fcp.mod.cache.assoc)
    (hu : ∀ i : Nat, i < total → fcp.mod.reachable_threads i = true →
      0 ≤ fcp.mod.cache.used_ways i)
    (hfuel : total * ((fcp_seed total fcp).2.natAbs + 1) + 1 ≤ fuel) :
    ∃ a, fcp_redistribute total fuel (fcp_seed total fcp).1 (fcp_seed total fcp).2 0
        = some (fcp.with_assigned_ways a) ∧
      sum_assigned_ways total (fcp.with_assigned_ways a).mod =
        sum_assigned_ways total (fcp_seed total fcp).1.mod + (fcp_seed total fcp).2 ∧
      sum_assigned_ways total (fcp.with_assigned_ways a).mod = fcp.mod.cache.assoc ∧
      ∀ i : Nat, i < total → fcp.mod.reachable_threads i = true → 1 ≤ a i := by
  obtain ⟨a, he, h1, h2⟩ := fcp_seed_spec fcp hns total hu
  rw [he]
  generalize (fcp_seed total fcp).2 = w at h2 hfuel ⊢
  have hgood : ∃ g : Nat, g < total ∧ fcp.mod.reachable_threads g = true ∧
      (w < 0 → 1 < a g) := by
    by_cases hneg : w < 0
    · obtain ⟨g, hg, hgr, hgt⟩ := exists_assigned_gt_one total (fcp.with_assigned_ways a).mod (by
        have hc : count_reachable total (fcp.with_assigned_ways a).mod =
            count_reachable total fcp.mod := rfl
        rw [hc]
        omega)
      exact ⟨g, hg, hgr, fun _ => hgt⟩
    · obtain ⟨g, hg, hgr⟩ := exists_reachable total fcp.mod hc1
      exact ⟨g, hg, hgr, fun h => absurd h hneg⟩
  obtain ⟨g, hg, hgr, hgt⟩ := hgood
  obtain ⟨d, hd, hturn⟩ := exists_turn total g hg 0
  have hmul : total * (w.natAbs + 1) = w.natAbs * total + total := by ring
  obtain ⟨a', hred, hsum, hone⟩ := fcp_redistribute_spec total fuel (fcp.with_assigned_ways a)
    w 0 g d hc2 h2 h1 hg hgr hgt hturn (fun _ => by omega) (by omega)
  refine ⟨a', hred, ?_, hsum, hone⟩
  have hsum' : sum_assigned_ways total (fcp.with_assigned_ways a').mod =
      (fcp.mod.cache.assoc : Int) := hsum
  rw [hsum']
  exact h2.symm

/-- C40 on the two-thread, four-way example with all four blocks held by
thread 0: the seeding loop leaves the quotas 4 and 1 and `ways = -1`, and the
loop ends with the quotas 3 and 1. -/
theorem fcp_redistribute_ends_witness :
    ((fcp_seed 2 fcp_skewed_example).1.mod.cache.assigned_ways 0,
      (fcp_seed 2 fcp_skewed_example).1.mod.cache.assigned_ways 1,
      (fcp_seed 2 fcp_skewed_example).2) = (4, 1, -1) ∧
    (fcp_redistribute 2 5 (fcp_seed 2 fcp_skewed_example).1
      (fcp_seed 2 fcp_skewed_example).2 0).map
      (fun f => (f.mod.cache.assigned_ways 0, f.mod.cache.assigned_ways 1)) = some (3, 1) ∧
    ∃ a, fcp_redistribute 2 5 (fcp_seed 2 fcp_skewed_example).1
        (fcp_seed 2 fcp_skewed_example).2 0
        = some (fcp_skewed_example.with_assigned_ways a) ∧
      sum_assigned_ways 2 (fcp_skewed_example.with_assigned_ways a).mod =
        sum_assigned_ways 2 (fcp_seed 2 fcp_skewed_example).1.mod +
          (fcp_seed 2 fcp_skewed_example).2 ∧
      sum_assigned_ways 2 (fcp_skewed_example.with_assigned_ways a).mod =
        fcp_skewed_example.mod.cache.assoc ∧
      ∀ i : Nat, i < 2 → fcp_skewed_example.mod.reachable_threads i = true → 1 ≤ a i :=
  ⟨by decide!, by decide!,
    fcp_redistribute_ends 2 fcp_skewed_example 5 (by decide!) (by decide!) (by decide!)
      (by decide!) (by decide!)⟩

/-- C39: on a well-formed controller without pairing that is OFF, or in
BACKOFF with the countdown at 0, a call of `fcp_repartition` that passes the
gate returns with the controller ON, and the quotas at its end are the quotas
`a` that the seeding and redistribution loops have just computed with the
transfer of the ON state already applied to them: the quota of `max` (a thread
with the greatest individual speedup) is `a max - 1` and the quota of `min` (a
thread with the least one) is `a min + 1` if `a max` exceeds 1 and `min` is
another thread than `max`, `min` and `max` have the quotas `a` otherwise, and
every other thread has its quota of `a`. -/
theorem fcp_enter_on_transfers_at_once
    (list_sort : (Int → Int → Int) → List Int → List Int)
    (nc nt : Nat) (esim : esim_t) (fcp : fcp_t) (hsort : list_sort_sorts list_sort)
    (hst : fcp_static (nc * nt) fcp) (henv : fcp_env_ok (nc * nt) esim fcp)
    (hcyc : fcp.last_esim_cycle < esim.esim_cycle) (hgate : fcp_gate (nc * nt) esim fcp)
    (hent : fcp.state = fcp_state_t.OFF ∨
      (fcp.state = fcp_state_t.BACKOFF ∧ fcp.backoff = 0)) :
    ∃ f2 mn mx u a fcp', fcp_unfairness list_sort (nc * nt) esim fcp = some (f2, mn, mx, u) ∧
      fcp_redistribute (nc * nt) (nc * nt * ((fcp_seed (nc * nt) f2).2.natAbs + 1) + 1)
        (fcp_seed (nc * nt) f2).1 (fcp_seed (nc * nt) f2).2 0
        = some (f2.with_assigned_ways a) ∧
      fcp_repartition list_sort nc nt esim fcp = some fcp' ∧
      fcp'.state = fcp_state_t.ON ∧
      mn ∈ fcp.threads ∧ mx ∈ fcp.threads ∧
      (∀ t ∈ fcp.threads,
        double.le (x86_thread_speedup esim mn) (x86_thread_speedup esim t) ∧
        double.le (x86_thread_speedup esim t) (x86_thread_speedup esim mx)) ∧
      (1 < a mx → mn ≠ mx →
        fcp'.mod.cache.assigned_ways mx = a mx - 1 ∧
        fcp'.mod.cache.assigned_ways mn = a mn + 1) ∧
      (¬ (1 < a mx ∧ mn ≠ mx) →
        fcp'.mod.cache.assigned_ways mx = a mx ∧ fcp'.mod.cache.assigned_ways mn = a mn) ∧
      ∀ t : Int, t ≠ mn → t ≠ mx → fcp'.mod.cache.assigned_ways t = a t := by
  obtain ⟨d, thr, mn, mx, hunf, hperm, hmn, hmx, hd⟩ :=
    fcp_unfairness_spec list_sort (nc * nt) esim fcp hsort hst henv
  have hF := fcp_static_measured (nc * nt) fcp d thr hst hperm hd
  obtain ⟨hmn', hmx', hext⟩ :=
    fcp_unfairness_extremes list_sort (nc * nt) esim fcp _ mn mx _ hsort hst henv hunf
  have hu : ∀ i : Nat, i < nc * nt → fcp.mod.reachable_threads i = true →
      0 ≤ fcp.mod.cache.used_ways i := fun i hi hr => (henv.2 i hi hr).2.2
  generalize double.div (d mx).individual_speedup (d mn).individual_speedup = u at hunf
  have hc1 : 1 ≤ count_reachable (nc * nt) fcp.mod := by
    obtain ⟨h0, hlt, hr⟩ := hst.2.2.1 mn hmn'
    obtain ⟨i, rfl⟩ : ∃ i : Nat, mn = (i : Int) := ⟨mn.toNat, by omega⟩
    exact count_reachable_pos (nc * nt) fcp.mod i (by omega) hr
  obtain ⟨a, hred, hsum, hone⟩ := fcp_enter_on_spec (nc * nt)
    { fcp with data := d, threads := thr } hst.2.2.2.2.2.2 hc1 hst.2.2.2.2.2.1 hu
  have htr : fcp_transition (nc * nt) { fcp with data := d, threads := thr } u =
      some { ({ fcp with data := d, threads := thr } : fcp_t).with_assigned_ways a with
        state := fcp_state_t.ON } := by
    rcases hent with hs | ⟨hs, hb⟩
    · rw [fcp_transition_off (nc * nt) { fcp with data := d, threads := thr } u hs, hred]
      rfl
    · rw [fcp_transition_backoff_zero (nc * nt) { fcp with data := d, threads := thr } u hs hb,
        hred]
      rfl
  have hptr : ∀ t ∈ thr, (d t).assigned_ways = some t := by
    intro t ht
    obtain ⟨h0, hlt, hr⟩ := hF.2.2.1 t ht
    obtain ⟨i, rfl⟩ : ∃ i : Nat, t = (i : Int) := ⟨t.toNat, by omega⟩
    exact hF.2.2.2.1 i (by omega) hr
  obtain ⟨a', hact, _, _⟩ := fcp_action_on (nc * nt)
    { ({ fcp with data := d, threads := thr } : fcp_t).with_assigned_ways a with
      state := fcp_state_t.ON } mn mx hF.1 rfl (hF.2.2.1 mn hmn) (hF.2.2.1 mx hmx)
    hF.2.2.2.1 hF.2.2.2.2.1 hsum hone
  have htrans := fcp_action_on_transfer (nc * nt)
    { ({ fcp with data := d, threads := thr } : fcp_t).with_assigned_ways a with
      state := fcp_state_t.ON }
    (({ ({ fcp with data := d, threads := thr } : fcp_t).with_assigned_ways a with
      state := fcp_state_t.ON } : fcp_t).with_assigned_ways a') mn mx hF.1 rfl hact
  rw [fcp_transfer_eq _ mn mx (hptr mn hmn) (hptr mx hmx)] at htrans
  simp only [Option.some.injEq] at htrans
  have hrep : fcp_repartition list_sort nc nt esim fcp = some
      (fcp_record
        (({ ({ fcp with data := d, threads := thr } : fcp_t).with_assigned_ways a with
          state := fcp_state_t.ON } : fcp_t).with_assigned_ways a')
        fcp.state u esim.esim_cycle) := by
    rw [fcp_repartition_eq list_sort nc nt esim fcp _ mn mx u hcyc hgate hunf hF.1, htr]
    simp only [Option.some_bind, hact, Option.map_some']
  have hw : (fcp_record
        (({ ({ fcp with data := d, threads := thr } : fcp_t).with_assigned_ways a with
          state := fcp_state_t.ON } : fcp_t).with_assigned_ways a')
        fcp.state u esim.esim_cycle).mod.cache.assigned_ways =
      fcp_transfer_ways a mn mx := by
    rw [(fcp_record_fields _ _ _ _).2.2.2.1, ← htrans]
    rfl
  refine ⟨_, mn, mx, u, a, _, hunf, hred, hrep, (fcp_record_fields _ _ _ _).1, hmn', hmx',
    ?_, ?_, ?_, ?_⟩
  · intro t ht
    have h1 := hext t ht
    rw [← (hext mn hmn').1, ← (hext mx hmx').1, ← h1.1]
    exact h1.2
  · intro h1 hne
    rw [hw]
    unfold fcp_transfer_ways
    rw [if_pos (show a mx > FCP_MIN_WAYS from h1)]
    rw [Function.update_noteq (Ne.symm hne), Function.update_same, Function.update_same,
      Function.update_noteq hne]
    exact ⟨rfl, rfl⟩
  · intro hn
    rw [hw]
    unfold fcp_transfer_ways
    by_cases h1 : a mx > FCP_MIN_WAYS
    · have hne : mn = mx := by
        by_contra hc
        exact hn ⟨h1, hc⟩
      rw [if_pos h1, hne, Function.update_same, Function.update_same]
      omega
    · rw [if_neg h1]
      exact ⟨rfl, rfl⟩
  · intro t htm htM
    rw [hw]
    unfold fcp_transfer_ways
    split_ifs
    · rw [Function.update_noteq htm, Function.update_noteq htM]
    · rfl

/-- C39 on the two-thread, four-way example: the first call that passes the
gate, with the individual speedups 1 for thread 0 and 1/2 for thread 1, seeds
the quotas 2 and 2 and leaves the controller ON with the quotas 1 and 3. -/
theorem fcp_enter_on_transfers_at_once_witness :
    (fcp_repartition list_sort_insertion 1 2 (call_two 1000 0 500).1
        (fcp_fresh_example.with_used_ways (call_two 1000 0 500).2)).map fcp_view =
      some (fcp_state_t.ON, 0, 0, 1, 3) ∧
    ∃ f2 mn mx u a fcp',
      fcp_unfairness list_sort_insertion (1 * 2) (call_two 1000 0 500).1
        (fcp_fresh_example.with_used_ways (call_two 1000 0 500).2) = some (f2, mn, mx, u) ∧
      fcp_redistribute (1 * 2) (1 * 2 * ((fcp_seed (1 * 2) f2).2.natAbs + 1) + 1)
        (fcp_seed (1 * 2) f2).1 (fcp_seed (1 * 2) f2).2 0
        = some (f2.with_assigned_ways a) ∧
      fcp_repartition list_sort_insertion 1 2 (call_two 1000 0 500).1
        (fcp_fresh_example.with_used_ways (call_two 1000 0 500).2) = some fcp' ∧
      fcp'.state = fcp_state_t.ON ∧
      mn ∈ (fcp_fresh_example.with_used_ways (call_two 1000 0 500).2).threads ∧
      mx ∈ (fcp_fresh_example.with_used_ways (call_two 1000 0 500).2).threads ∧
      (∀ t ∈ (fcp_fresh_example.with_used_ways (call_two 1000 0 500).2).threads,
        double.le (x86_thread_speedup (call_two 1000 0 500).1 mn)
          (x86_thread_speedup (call_two 1000 0 500).1 t) ∧
        double.le (x86_thread_speedup (call_two 1000 0 500).1 t)
          (x86_thread_speedup (call_two 1000 0 500).1 mx)) ∧
      (1 < a mx → mn ≠ mx →
        fcp'.mod.cache.assigned_ways mx = a mx - 1 ∧
        fcp'.mod.cache.assigned_ways mn = a mn + 1) ∧
      (¬ (1 < a mx ∧ mn ≠ mx) →
        fcp'.mod.cache.assigned_ways mx = a mx ∧ fcp'.mod.cache.assigned_ways mn = a mn) ∧
      ∀ t : Int, t ≠ mn → t ≠ mx → fcp'.mod.cache.assigned_ways t = a t :=
  ⟨by decide!,
    fcp_enter_on_transfers_at_once list_sort_insertion 1 2 (call_two 1000 0 500).1
      (fcp_fresh_example.with_used_ways (call_two 1000 0 500).2) list_sort_insertion_sorts
      (by decide!) (by decide!) (by decide!) (by decide!) (Or.inl rfl)⟩

/-! ## Claims on the history of unfairness values -/

/-- C31: after a call of `fcp_repartition` that passes the warm-up gate and
returns, with or without pairing: if the state of the controller is not the one
it had before the call, `state_counter` is 0; if it is the same, the value
`unfairness` of the call, `max->individual_speedup / min->individual_speedup`,
is stored in `last_unfairness_values[state_counter % FCP_HISTORY_SIZE]`, index
`state_counter % 3` with the counter as it was before the call, no other entry
changes, and `state_counter` is 1 more than before the call. -/
theorem fcp_state_counter_resets_or_records
    (list_sort : (Int → Int → Int) → List Int → List Int)
    (nc nt : Nat) (esim : esim_t) (fcp : fcp_t) (hgate : fcp_gate (nc * nt) esim fcp) :
    ∀ f, fcp_repartition list_sort nc nt esim fcp = some f →
      ∃ f2 mn mx u, fcp_unfairness list_sort (nc * nt) esim fcp = some (f2, mn, mx, u) ∧
        u = double.div (f2.data mx).individual_speedup (f2.data mn).individual_speedup ∧
        (f.state ≠ fcp.state → f.state_counter = 0) ∧
        (f.state = fcp.state →
          f.last_unfairness_values =
            Function.update fcp.last_unfairness_values (fcp.state_counter % 3) u ∧
          f.state_counter = fcp.state_counter + 1) := by
  intro f h
  obtain ⟨f2, mn, mx, u, hunf, hch, hsame⟩ :=
    fcp_repartition_history list_sort nc nt esim fcp f hgate h
  exact ⟨f2, mn, mx, u, hunf,
    fcp_unfairness_value_eq list_sort (nc * nt) esim fcp f2 mn mx u hunf,
    fun hne => (hch hne).1, fun heq => ⟨(hsame heq).2, (hsame heq).1⟩⟩

/-- C31 on the two-thread example: the controller is ON with `state_counter`
0; a call with the speedups 1 and 3/4 leaves it ON with `state_counter` 1 and
the unfairness 4/3 in entry 0 of the history. -/
theorem fcp_state_counter_resets_or_records_witness :
    (fcp_repartition list_sort_insertion 1 2 (call_two 2000 0 500).1
        (fcp_entered_example.with_used_ways (call_two 2000 0 500).2)).map
      (fun f => (fcp_view f, (f.last_unfairness_values 0).num,
        (f.last_unfairness_values 0).den)) =
      some ((fcp_state_t.ON, 1, 0, 2, 2), 4000000000000, 3000000000000) ∧
    fcp_view fcp_entered_example = (fcp_state_t.ON, 0, 0, 3, 1) ∧
    ∀ f, fcp_repartition list_sort_insertion 1 2 (call_two 2000 0 500).1
        (fcp_entered_example.with_used_ways (call_two 2000 0 500).2) = some f →
      ∃ f2 mn mx u,
        fcp_unfairness list_sort_insertion (1 * 2) (call_two 2000 0 500).1
          (fcp_entered_example.with_used_ways (call_two 2000 0 500).2) = some (f2, mn, mx, u) ∧
        u = double.div (f2.data mx).individual_speedup (f2.data mn).individual_speedup ∧
        (f.state ≠ (fcp_entered_example.with_used_ways (call_two 2000 0 500).2).state →
          f.state_counter = 0) ∧
        (f.state = (fcp_entered_example.with_used_ways (call_two 2000 0 500).2).state →
          f.last_unfairness_values =
            Function.update
              (fcp_entered_example.with_used_ways (call_two 2000 0 500).2).last_unfairness_values
              ((fcp_entered_example.with_used_ways (call_two 2000 0 500).2).state_counter % 3)
              u ∧
          f.state_counter =
            (fcp_entered_example.with_used_ways (call_two 2000 0 500).2).state_counter + 1) :=
  ⟨by decide!, by decide!,
    fcp_state_counter_resets_or_records list_sort_insertion 1 2 (call_two 2000 0 500).1
      (fcp_entered_example.with_used_ways (call_two 2000 0 500).2) (by decide!)⟩

/-- C38: in every run of calls of `fcp_repartition` from the state `fcp_create`
builds, with or without pairing, when the run has returned: `state_counter` is
not negative; the trend test of the ON state reads the history only when
`state_counter` is at least `FCP_MAX_INC_INT`, and then no other entries than
those at `(state_counter - 1) % 3` and `(state_counter - 2) % 3`; and when
`state_counter` is at least `FCP_MAX_INC_INT`, these two entries are the
unfairness values of the last and of the last but one call that passed the
gate, both of which found the controller in its present state and left it in
it.  So in state ON both values were written during the present stay in ON, in
two successive calls that passed the gate. -/
theorem fcp_trend_test_reads_current_run
    (list_sort : (Int → Int → Int) → List Int → List Int) (nc nt : Nat) (mod : mod_t)
    (policy : thread_pairing_policy_t) (interval : Int)
    (calls : List (esim_t × (Int → Int))) :
    ∀ f log, fcp_run_log list_sort nc nt (fcp_create nc nt mod policy interval) calls
        = some (f, log) →
      0 ≤ f.state_counter ∧
      (f.state_counter < FCP_MAX_INC_INT →
        ∀ (luv : Int → double) (u : double),
          fcp_unfairness_increasing { f with last_unfairness_values := luv } u = false) ∧
      (∀ (luv : Int → double) (u : double),
        luv ((f.state_counter - 1) % 3) = f.last_unfairness_values ((f.state_counter - 1) % 3) →
        luv ((f.state_counter - 2) % 3) = f.last_unfairness_values ((f.state_counter - 2) % 3) →
        fcp_unfairness_increasing { f with last_unfairness_values := luv } u =
          fcp_unfairness_increasing f u) ∧
      (FCP_MAX_INC_INT ≤ f.state_counter →
        log.reverse[0]? =
          some (f.state, f.state, f.last_unfairness_values ((f.state_counter - 1) % 3)) ∧
        log.reverse[1]? =
          some (f.state, f.state, f.last_unfairness_values ((f.state_counter - 2) % 3))) := by
  intro f log h
  have hok := fcp_run_log_history list_sort nc nt calls _ f [] log
    (show fcp_history_ok (fcp_create nc nt mod policy interval) [] from
      ⟨le_refl _, fun j hj => absurd hj (by
        show ¬ ((j : Int) < 0)
        omega)⟩) h
  rw [List.nil_append] at hok
  refine ⟨hok.1, ?_, ?_, ?_⟩
  · intro hlt luv u
    unfold fcp_unfairness_increasing
    rw [if_neg (by
      show ¬ (f.state_counter ≥ FCP_MAX_INC_INT)
      omega)]
  · intro luv u h1 h2
    unfold fcp_unfairness_increasing
    show (if f.state_counter ≥ FCP_MAX_INC_INT then
        (if double.le u (double.mul (luv ((f.state_counter - 1) % FCP_HISTORY_SIZE))
            FCP_UNF_INC_TH) then false
        else if double.le (luv ((f.state_counter - 1) % FCP_HISTORY_SIZE))
            (double.mul (luv ((f.state_counter - 2) % FCP_HISTORY_SIZE)) FCP_UNF_INC_TH)
          then false else true)
      else false) = _
    have e1 : luv ((f.state_counter - 1) % FCP_HISTORY_SIZE) =
        f.last_unfairness_values ((f.state_counter - 1) % FCP_HISTORY_SIZE) := h1
    have e2 : luv ((f.state_counter - 2) % FCP_HISTORY_SIZE) =
        f.last_unfairness_values ((f.state_counter - 2) % FCP_HISTORY_SIZE) := h2
    rw [e1, e2]
  · intro hge
    have hge' : (2 : Int) ≤ f.state_counter := hge
    obtain ⟨e1, he1, a1, b1, c1⟩ := hok.2 0 (by push_cast; omega)
    obtain ⟨e2, he2, a2, b2, c2⟩ := hok.2 1 (by push_cast; omega)
    have k1 := c1 (by decide)
    have k2 := c2 (by decide)
    have i1 : (f.state_counter - 1 - ((0 : Nat) : Int)) % FCP_HISTORY_SIZE =
        (f.state_counter - 1) % 3 := by
      unfold FCP_HISTORY_SIZE
      congr 1
      simp
    have i2 : (f.state_counter - 1 - ((1 : Nat) : Int)) % FCP_HISTORY_SIZE =
        (f.state_counter - 2) % 3 := by
      unfold FCP_HISTORY_SIZE
      congr 1
      push_cast
      ring
    rw [i1] at k1
    rw [i2] at k2
    refine ⟨?_, ?_⟩
    · obtain ⟨x, y, z⟩ := e1
      rw [he1, k1]
      dsimp only at a1 b1
      rw [a1, b1]
    · obtain ⟨x, y, z⟩ := e2
      rw [he2, k2]
      dsimp only at a2 b2
      rw [a2, b2]

/-- C38 on the two-thread example without pairing: after the first three
calls of `fcp_calls_example` the controller is ON with `state_counter` 2; the
log holds the call that entered ON and two calls that stayed in ON, and the
entries 1 and 0 of the history are the unfairness values 1.1 and 1 of these
two. -/
theorem fcp_trend_test_reads_current_run_witness :
    ((fcp_run_log list_sort_insertion 1 2
        (fcp_create 1 2 (example_mod 4 2 [])
          thread_pairing_policy_t.thread_pairing_policy_none 0)
        (fcp_calls_example.take 3)).map fun r => fcp_view r.1) =
      some (fcp_state_t.ON, 2, 0, 2, 2) ∧
    ((fcp_run_log list_sort_insertion 1 2
        (fcp_create 1 2 (example_mod 4 2 [])
          thread_pairing_policy_t.thread_pairing_policy_none 0)
        (fcp_calls_example.take 3)).map fun r => r.2) =
      some [(fcp_state_t.OFF, fcp_state_t.ON, ⟨1000000000000, 1000000000000⟩),
        (fcp_state_t.ON, fcp_state_t.ON, ⟨4000000000000, 4000000000000⟩),
        (fcp_state_t.ON, fcp_state_t.ON, ⟨10890000000000, 9900000000000⟩)] ∧
    ((fcp_run_log list_sort_insertion 1 2
        (fcp_create 1 2 (example_mod 4 2 [])
          thread_pairing_policy_t.thread_pairing_policy_none 0)
        (fcp_calls_example.take 3)).map fun r =>
          [r.1.last_unfairness_values 0, r.1.last_unfairness_values 1]) =
      some [⟨4000000000000, 4000000000000⟩, ⟨10890000000000, 9900000000000⟩] ∧
    ∀ f log, fcp_run_log list_sort_insertion 1 2
        (fcp_create 1 2 (example_mod 4 2 [])
          thread_pairing_policy_t.thread_pairing_policy_none 0)
        (fcp_calls_example.take 3) = some (f, log) →
      0 ≤ f.state_counter ∧
      (f.state_counter < FCP_MAX_INC_INT →
        ∀ (luv : Int → double) (u : double),
          fcp_unfairness_increasing { f with last_unfairness_values := luv } u = false) ∧
      (∀ (luv : Int → double) (u : double),
        luv ((f.state_counter - 1) % 3) = f.last_unfairness_values ((f.state_counter - 1) % 3) →
        luv ((f.state_counter - 2) % 3) = f.last_unfairness_values ((f.state_counter - 2) % 3) →
        fcp_unfairness_increasing { f with last_unfairness_values := luv } u =
          fcp_unfairness_increasing f u) ∧
      (FCP_MAX_INC_INT ≤ f.state_counter →
        log.reverse[0]? =
          some (f.state, f.state, f.last_unfairness_values ((f.state_counter - 1) % 3)) ∧
        log.reverse[1]? =
          some (f.state, f.state, f.last_unfairness_values ((f.state_counter - 2) % 3))) :=
  ⟨by decide!, by decide!, by decide!,
    fcp_trend_test_reads_current_run list_sort_insertion 1 2 (example_mod 4 2 [])
      thread_pairing_policy_t.thread_pairing_policy_none 0 (fcp_calls_example.take 3)⟩

/-! ## The pairs of the controller -/

/-- C32 fails on the code: `fcp_repartition` sorts the list of threads by
individual speedup before it calls `fcp_pairing`, and the policy `nearest`
pairs the threads at the positions 0-1, 2-3 of that list.  Four reachable
threads on a one-set, eight-way cache, `fcp_create` lists them as 0, 1, 2, 3;
in the first call their individual speedups are 0.7, 0.9, 0.8 and 1, so the
sorted list is 0, 2, 1, 3 and the pairs are (0, 2) and (1, 3), not (0, 1) and
(2, 3). -/
theorem fcp_nearest_pairs_follow_speedup_order :
    (fcp_create 1 4 (example_mod 8 4 [])
      thread_pairing_policy_t.thread_pairing_policy_nearest 0).threads = [0, 1, 2, 3] ∧
    (List.range 4).map
        (fun (i : Nat) => x86_thread_speedup (call_four_penalties 1000 300 100 200 0).1 i) =
      [⟨700000, 1000000⟩, ⟨900000, 1000000⟩, ⟨800000, 1000000⟩, ⟨1000000, 1000000⟩] ∧
    (fcp_repartition list_sort_insertion 1 4 (call_four_penalties 1000 300 100 200 0).1
      ((fcp_create 1 4 (example_mod 8 4 [])
        thread_pairing_policy_t.thread_pairing_policy_nearest 0).with_used_ways
        (call_four_penalties 1000 300 100 200 0).2)).map (fun f => f.threads) =
      some [0, 2, 1, 3] ∧
    (fcp_repartition list_sort_insertion 1 4 (call_four_penalties 1000 300 100 200 0).1
      ((fcp_create 1 4 (example_mod 8 4 [])
        thread_pairing_policy_t.thread_pairing_policy_nearest 0).with_used_ways
        (call_four_penalties 1000 300 100 200 0).2)).map fcp_view_pairs =
      some (fcp_state_t.ON, [(0, 2, 4), (1, 3, 4)], [3, 3, 1, 1]) :=
  ⟨by decide!, by decide!, by decide!, by decide!⟩

/-- C33 fails on the code when the budget `2 * assoc / n` is exactly 2: with
four reachable threads on a four-way cache, listed in ascending order of
individual speedup (all equal), the budget of a pair is `4 * 2 / 4 = 2`, one
way for each member, and `fcp_pairing` stops at its assertion
`ways_per_pair > 2` under MinMax, Sec and Mix and makes no pair, although the
comment of that assertion asks for at least one way per member and
`fcp_pairing_adjust_ways` and the transfer loop of `fcp_repartition` accept a
pair with two ways. -/
theorem fcp_pairing_budget_two_aborts :
    (fcp_create 1 4 (example_mod 4 4 [])
      thread_pairing_policy_t.thread_pairing_policy_sec 0).threads = [0, 1, 2, 3] ∧
    (fcp_create 1 4 (example_mod 4 4 [])
      thread_pairing_policy_t.thread_pairing_policy_sec 0).mod.cache.assoc * 2 / 4 = 2 ∧
    (fcp_pairing (fcp_create 1 4 (example_mod 4 4 [])
      thread_pairing_policy_t.thread_pairing_policy_minmax 0)).map fcp_view_pairs = none ∧
    (fcp_pairing (fcp_create 1 4 (example_mod 4 4 [])
      thread_pairing_policy_t.thread_pairing_policy_sec 0)).map fcp_view_pairs = none ∧
    (fcp_pairing (fcp_create 1 4 (example_mod 4 4 [])
      thread_pairing_policy_t.thread_pairing_policy_mix 0)).map fcp_view_pairs = none :=
  ⟨by decide!, by decide!, by decide!, by decide!, by decide!⟩

/-- The pairs of `fcp_pairing` above the guard: for an even number `n > 0` of
threads listed in ascending order of individual speedup and a pairing policy
other than `none` and `random`, `fcp_pairing` returns exactly when the budget
`2 * assoc / n` is greater than 2; it then leaves the `n / 2` pairs of
`fcp_pairing_expected`, whatever pairs were there before (MinMax pairs
position `i` with `n - 1 - i`, Sec and Nearest `2 i` with `2 i + 1`, Mix `i`
with `n / 2 + i`), each with the budget `2 * assoc / n`, and the members of
the pairs, taken in turn, are the threads of the list, each once. -/
theorem fcp_pairing_pairs_sorted_threads (fcp : fcp_t)
    (hpol : fcp.pairing_policy ≠ thread_pairing_policy_t.thread_pairing_policy_none ∧
      fcp.pairing_policy ≠ thread_pairing_policy_t.thread_pairing_policy_random)
    (hn : 0 < fcp.threads.length) (heven : fcp.threads.length % 2 = 0)
    (hsorted : fcp.threads.Chain' fun a b =>
      double.le (fcp.data a).individual_speedup (fcp.data b).individual_speedup) :
    (2 < fcp.mod.cache.assoc * 2 / fcp.threads.length →
      ∃ f, fcp_pairing fcp = some f ∧
        f.pairing_pairs = fcp_pairing_expected fcp ∧
        f.pairing_pairs.length = fcp.threads.length / 2 ∧
        (∀ pair ∈ f.pairing_pairs,
          pair.ways = ((fcp.mod.cache.assoc * 2 / fcp.threads.length : Nat) : Int)) ∧
        (fcp_paired_threads f.pairing_pairs).Perm (fcp.threads.map fun t => (fcp.data t).id) ∧
        f.threads = fcp.threads ∧ f.mod = fcp.mod) ∧
    (fcp.mod.cache.assoc * 2 / fcp.threads.length ≤ 2 → fcp_pairing fcp = none) := by
  have hcount : ¬ fcp.threads.length = 0 := by omega
  constructor
  · intro hbud
    have hs : ∀ policy, fcp_threads_sorted
        { fcp with pairing_pairs := [], pairing_policy := policy } = true :=
      fun policy => fcp_threads_sorted_of_chain
        { fcp with pairing_pairs := [], pairing_policy := policy } hsorted
    have hc : fcp.threads.length % 2 = 0 ∧
        (((fcp.mod.cache.assoc * 2 / fcp.threads.length : Nat) : Int)) > 2 := by
      refine ⟨heven, ?_⟩
      have : (2 : Int) < ((fcp.mod.cache.assoc * 2 / fcp.threads.length : Nat) : Int) := by
        exact_mod_cast hbud
      exact this
    obtain ⟨g, e, t, d, m, q, pp⟩ :=
      fcp_add_pairs_spec (((fcp.mod.cache.assoc * 2 / fcp.threads.length : Nat) : Int))
        (fcp.threads.length / 2)
        (fcp_pairing_positions fcp.pairing_policy fcp.threads.length)
        (List.range (fcp.threads.length / 2)) { fcp with pairing_pairs := [] }
        (fun i hi => by
          have hi' := List.mem_range.1 hi
          show _ < fcp.threads.length ∧ _ < fcp.threads.length
          cases fcp.pairing_policy <;> simp only [fcp_pairing_positions] <;> omega)
    have hexp : g.pairing_pairs = fcp_pairing_expected fcp := by
      rw [pp]
      rfl
    have hlen : g.pairing_pairs.length = fcp.threads.length / 2 := by
      rw [hexp]
      unfold fcp_pairing_expected
      simp
    refine ⟨g, ?_, hexp, hlen, ?_, ?_, t, m⟩
    · unfold fcp_pairing
      rw [if_neg hcount, if_pos hc]
      have hnear : (fcp.threads.length + 1) / 2 = fcp.threads.length / 2 := by omega
      have hmm : (List.range (fcp.threads.length / 2)).map
          (fun (i : Nat) => (i, fcp.threads.length - i - 1)) =
          (List.range (fcp.threads.length / 2)).map
            (fcp_pairing_positions thread_pairing_policy_t.thread_pairing_policy_minmax
              fcp.threads.length) := by
        apply List.map_congr_left
        intro i _
        simp only [fcp_pairing_positions]
        congr 1
        omega
      rcases hp : fcp.pairing_policy with _ | _ | _ | _ | _ | _
      · exact absurd hp hpol.1
      · rw [hp] at e
        simp only [hnear]
        rw [show ((List.range (fcp.threads.length / 2)).map fun (k : Nat) => (2 * k, 2 * k + 1)) =
          (List.range (fcp.threads.length / 2)).map
            (fcp_pairing_positions thread_pairing_policy_t.thread_pairing_policy_nearest
              fcp.threads.length) from rfl, e]
        simp only [hlen, if_true]
      · exact absurd hp hpol.2
      · rw [hp] at e
        simp only [hs, if_true]
        rw [hmm, e]
        simp only [hlen, if_true]
      · rw [hp] at e
        simp only [hs, if_true]
        rw [show ((List.range (fcp.threads.length / 2)).map fun (k : Nat) => (2 * k, 2 * k + 1)) =
          (List.range (fcp.threads.length / 2)).map
            (fcp_pairing_positions thread_pairing_policy_t.thread_pairing_policy_sec
              fcp.threads.length) from rfl, e]
        simp only [hlen, if_true]
      · rw [hp] at e
        simp only [hs, if_true]
        rw [show ((List.range (fcp.threads.length / 2)).map
            fun (i : Nat) => (i, fcp.threads.length / 2 + i)) =
          (List.range (fcp.threads.length / 2)).map
            (fcp_pairing_positions thread_pairing_policy_t.thread_pairing_policy_mix
              fcp.threads.length) from rfl, e]
        simp only [hlen, if_true]
    · intro pair hpair
      rw [hexp] at hpair
      unfold fcp_pairing_expected at hpair
      obtain ⟨i, _, rfl⟩ := List.mem_map.1 hpair
      rfl
    · rw [hexp]
      exact fcp_pairing_expected_perm fcp heven
  · intro hbud
    unfold fcp_pairing
    rw [if_neg hcount, if_neg]
    rintro ⟨_, h2⟩
    have : (2 : Int) < ((fcp.mod.cache.assoc * 2 / fcp.threads.length : Nat) : Int) := h2
    have h3 : 2 < fcp.mod.cache.assoc * 2 / fcp.threads.length := by exact_mod_cast this
    omega

/-- The pairs of `fcp_pairing` on `fcp_mix_example`: the list of threads is 3, 2, 1, 0, the
pairs before are (3, 2) and (1, 0), the budget is `2 * 8 / 4 = 4`, and
`fcp_pairing` under Mix leaves the pairs (3, 1) and (2, 0) with 4 ways each. -/
theorem fcp_pairing_pairs_sorted_threads_witness :
    fcp_mix_example.threads = [3, 2, 1, 0] ∧
    fcp_mix_example.pairing_pairs.map (fun p => (p.id1, p.id2, p.ways)) =
      [(3, 2, 4), (1, 0, 4)] ∧
    ∃ f, fcp_pairing fcp_mix_example = some f ∧
      f.pairing_pairs.map (fun p => (p.id1, p.id2, p.ways)) = [(3, 1, 4), (2, 0, 4)] ∧
      fcp_paired_threads f.pairing_pairs = [3, 1, 2, 0] := by
  obtain ⟨f, h1, h2, -⟩ :=
    (fcp_pairing_pairs_sorted_threads fcp_mix_example ⟨by decide!, by decide!⟩ (by decide!)
      (by decide!)
      (by
        rw [show fcp_mix_example.threads = [3, 2, 1, 0] from by decide!]
        simp only [List.chain'_cons, List.chain'_singleton, and_true]
        exact ⟨by decide!, by decide!, by decide!⟩)).1 (by decide!)
  refine ⟨by decide!, by decide!, f, h1, ?_, ?_⟩
  · rw [h2]
    decide!
  · rw [h2]
    decide!

/-! ## The recency list of every set -/

/-- C34: in a cache built by `cache_create` with at least one way, a sequence
of in-range calls to `cache_set_block`, `cache_set_transient_tag`,
`cache_set_thread_id`, `cache_access_block` and `cache_replace_block` runs to
its end (a replacement under the invalid policy apart, which is fatal), and
after it, in every set, the recency list from `way_head` holds every way of the
set exactly once, starts at `way_head` and ends at `way_tail`, two consecutive
ways of the list point to each other through `way_next` and `way_prev`, the
head has no predecessor and the tail no successor, and no assertion of
`cache_update_waylist` fails for any way of the set. -/
theorem recency_list_stays_well_formed (x86_cpu_num_cores x86_cpu_num_threads : Nat)
    (num_sets block_size assoc : Nat) (policy : cache_policy_t)
    (hgeo : Nat.land num_sets (num_sets - 1) = 0 ∧ Nat.land block_size (block_size - 1) = 0)
    (hassoc : 0 < assoc) :
    ∃ c0, cache_create num_sets block_size assoc policy = some c0 ∧
      ∀ ops : List cache_op,
        (∀ op ∈ ops,
          op.in_range x86_cpu_num_cores x86_cpu_num_threads num_sets assoc policy) →
        (policy ≠ cache_policy_invalid →
          (cache_run x86_cpu_num_cores x86_cpu_num_threads c0 ops).isSome) ∧
        ∀ c, cache_run x86_cpu_num_cores x86_cpu_num_threads c0 ops = some c →
          ∀ s, s < num_sets →
            (cache_waylist assoc (c.sets s)).Nodup ∧
            (∀ w, w ∈ cache_waylist assoc (c.sets s) ↔ w < assoc) ∧
            (cache_waylist assoc (c.sets s)).head? = some (c.sets s).way_head ∧
            (cache_waylist assoc (c.sets s)).getLast? = some (c.sets s).way_tail ∧
            (∀ i x y, (cache_waylist assoc (c.sets s))[i]? = some x →
              (cache_waylist assoc (c.sets s))[i + 1]? = some y →
              ((c.sets s).blocks x).way_next = some y ∧
                ((c.sets s).blocks y).way_prev = some x) ∧
            ((c.sets s).blocks (c.sets s).way_head).way_prev = none ∧
            ((c.sets s).blocks (c.sets s).way_tail).way_next = none ∧
            ∀ w where_, w < assoc → (cache_update_waylist (c.sets s) w where_).isSome := by
  refine ⟨_, cache_create_eq num_sets block_size assoc policy hgeo, fun ops hops => ?_⟩
  obtain ⟨h1, h2, h3, h4, h5, h6, -, -⟩ :=
    cache_create_ok (cache_create_eq num_sets block_size assoc policy hgeo) hassoc
  obtain ⟨r1, r2⟩ := cache_run_ok x86_cpu_num_cores x86_cpu_num_threads ops
    (by rw [h4, h5, h6]; exact hops) h1 h2 h3
  refine ⟨fun hp => r1 (by rw [h6]; exact hp), fun c hc s hs => ?_⟩
  obtain ⟨hwf, -, hsh⟩ := r2 c hc
  have hA : c.assoc = assoc := by rw [hsh.2.1, h5]
  obtain ⟨l, hl⟩ := hwf s (by rw [hsh.1, h4]; exact hs)
  rw [hA] at hl
  rw [set_wf_waylist hl]
  exact ⟨hl.1, hl.2.1, hl.2.2.1, hl.2.2.2.1, way_chain_links hl.2.2.2.2.1,
    way_chain_head hl.2.2.2.2.1 hl.2.2.1, way_chain_last hl.2.2.2.2.1 hl.2.2.2.1,
    fun w where_ hw => cache_update_waylist_returns hl w hw where_⟩

/-- C34, at a two-set, four-way FIFO cache of a machine with one core and two
threads. -/
theorem recency_list_stays_well_formed_witness :
    ∃ c0, cache_create 2 64 4 cache_policy_fifo = some c0 ∧
      ∀ ops : List cache_op,
        (∀ op ∈ ops, op.in_range 1 2 2 4 cache_policy_fifo) →
        (cache_policy_fifo ≠ cache_policy_invalid → (cache_run 1 2 c0 ops).isSome) ∧
        ∀ c, cache_run 1 2 c0 ops = some c →
          ∀ s, s < 2 →
            (cache_waylist 4 (c.sets s)).Nodup ∧
            (∀ w, w ∈ cache_waylist 4 (c.sets s) ↔ w < 4) ∧
            (cache_waylist 4 (c.sets s)).head? = some (c.sets s).way_head ∧
            (cache_waylist 4 (c.sets s)).getLast? = some (c.sets s).way_tail ∧
            (∀ i x y, (cache_waylist 4 (c.sets s))[i]? = some x →
              (cache_waylist 4 (c.sets s))[i + 1]? = some y →
              ((c.sets s).blocks x).way_next = some y ∧
                ((c.sets s).blocks y).way_prev = some x) ∧
            ((c.sets s).blocks (c.sets s).way_head).way_prev = none ∧
            ((c.sets s).blocks (c.sets s).way_tail).way_next = none ∧
            ∀ w where_, w < 4 → (cache_update_waylist (c.sets s) w where_).isSome :=
  recency_list_stays_well_formed 1 2 2 64 4 cache_policy_fifo (by decide) (by decide)

/-! ## The histogram indices read by UCP -/

/-- C36: when `ucp_repartition` passes on to its allocation loop on a cache
with `assoc` at least the number of reachable threads (and `ways_req` is 0 for
the unreachable threads, as `ucp_create` leaves it), then at the start of every
iteration of `while (balance)`, and when the loop is left, the quotas of the
reachable threads and the balance add up to `assoc`, the balance is not
negative and every reachable thread has at least one way; so every histogram
index the iteration reads through `ucp_mu`, for a reachable thread, is at least
0 and less than `assoc`.  The iterations listed end with the state
`ucp_allocate` returns, and the value of `ucp_mu` is the sum of the histogram
over the indices `ucp_mu_reads`, divided by the number of ways added. -/
theorem ucp_mu_reads_stay_within_histogram (x86_cpu_num_cores x86_cpu_num_threads : Nat)
    (ucp : ucp_t)
    (hassoc : (count_reachable (x86_cpu_num_cores * x86_cpu_num_threads) ucp.mod : Int) ≤
      ucp.mod.cache.assoc)
    (hreq0 : ∀ i : Nat, i < x86_cpu_num_cores * x86_cpu_num_threads →
      ucp.mod.reachable_threads i = false → ucp.ways_req i = 0) :
    (∀ fuel : Nat, ∀ it ∈ ucp_allocate_iterations (x86_cpu_num_cores * x86_cpu_num_threads) fuel
        (ucp_seed (x86_cpu_num_cores * x86_cpu_num_threads) ucp ucp.mod.cache.assoc).1
        (ucp_seed (x86_cpu_num_cores * x86_cpu_num_threads) ucp ucp.mod.cache.assoc).2
        ucp.mod.cache.assoc,
      sum_assigned_ways (x86_cpu_num_cores * x86_cpu_num_threads) it.1.mod + it.2 =
        ucp.mod.cache.assoc ∧
      0 ≤ it.2 ∧
      (∀ i : Nat, i < x86_cpu_num_cores * x86_cpu_num_threads →
        ucp.mod.reachable_threads i = true → 1 ≤ it.1.mod.cache.assigned_ways i) ∧
      ∀ r ∈ ucp_compute_max_mu_reads (x86_cpu_num_cores * x86_cpu_num_threads) it.1 it.2,
        ucp.mod.reachable_threads r.1 = true ∧ 0 ≤ r.2 ∧ r.2 < ucp.mod.cache.assoc) ∧
    (∀ (fuel : Nat) (u : ucp_t),
      ucp_allocate (x86_cpu_num_cores * x86_cpu_num_threads) fuel
        (ucp_seed (x86_cpu_num_cores * x86_cpu_num_threads) ucp ucp.mod.cache.assoc).1
        (ucp_seed (x86_cpu_num_cores * x86_cpu_num_threads) ucp ucp.mod.cache.assoc).2
        ucp.mod.cache.assoc = some u →
      ∃ b, (ucp_allocate_iterations (x86_cpu_num_cores * x86_cpu_num_threads) fuel
        (ucp_seed (x86_cpu_num_cores * x86_cpu_num_threads) ucp ucp.mod.cache.assoc).1
        (ucp_seed (x86_cpu_num_cores * x86_cpu_num_threads) ucp ucp.mod.cache.assoc).2
        ucp.mod.cache.assoc).getLast? = some (u, b)) ∧
    ∀ (u : ucp_t) (t alloc new_alloc : Int) (atd : atd_t),
      u.mod.atd_per_thread t = some atd → alloc < new_alloc →
      ucp_mu u t alloc new_alloc =
        some (double.div
          (double.ofInt ((ucp_mu_reads alloc new_alloc).map atd.stack_distance_counters).sum)
          (double.ofInt (new_alloc - alloc))) := by
  obtain ⟨s1, _, _, _, s5, s6⟩ :=
    ucp_seed_spec ucp ucp.mod.cache.assoc (x86_cpu_num_cores * x86_cpu_num_threads)
  have s7 := ucp_seed_ways_req ucp ucp.mod.cache.assoc (x86_cpu_num_cores * x86_cpu_num_threads)
  have s8 := ucp_seed_sum ucp ucp.mod.cache.assoc (x86_cpu_num_cores * x86_cpu_num_threads)
  refine ⟨fun fuel it hit => ?_, fun fuel u h => ucp_allocate_iterations_last _ fuel _ _ _ u h,
    fun u t alloc new_alloc atd hatd h => ucp_mu_eq_reads u t alloc new_alloc atd hatd h⟩
  obtain ⟨k1, k2, k3, k4⟩ := ucp_allocate_iterations_inv
    (x86_cpu_num_cores * x86_cpu_num_threads) ucp.mod.cache.assoc fuel _ _ _
    (by intro i hi hri; rw [s1] at hri; rw [s7]; exact hreq0 i hi hri)
    (by intro i hi hri; rw [s1] at hri; rw [s5 i hi hri])
    (by rw [s8, s6]; omega)
    (by rw [s6]; omega) it hit
  rw [s1] at k1
  refine ⟨k2, k3, fun i hi hri => k4 i hi (by rw [s1]; exact hri), fun r hr => ?_⟩
  obtain ⟨t, ht, e1, e2, e3, e4⟩ := ucp_compute_max_mu_reads_mem _ _ _ r hr
  have hrt : ucp.mod.reachable_threads t = true := by rw [← k1]; exact e2
  have hone := k4 t ht (by rw [s1]; exact hrt)
  have hle := assigned_ways_le_sum (x86_cpu_num_cores * x86_cpu_num_threads) it.1.mod t ht e2 1
    (fun a ha hra => k4 a ha (by rw [s1, ← k1]; exact hra))
  have hpos := count_reachable_pos (x86_cpu_num_cores * x86_cpu_num_threads) it.1.mod t ht e2
  refine ⟨by rw [e1]; exact hrt, by omega, ?_⟩
  have hc : (1 : Int) ≤ (count_reachable (x86_cpu_num_cores * x86_cpu_num_threads) it.1.mod : Int) := by
    exact_mod_cast hpos
  omega

/-- C36 on `ucp_fresh_example` (two threads, four ways, the histograms
`[10, 5, 1, 0]` and `[1, 1, 1, 1]`): the loop starts its iterations with the
quotas (1, 1) and the balance 2, then (2, 1) and the balance 1, and is left
with (3, 1) and the balance 0; the first iteration reads the indices 1, 1 and
2 of both histograms, the second the index 2 of the first and the index 1 of
the second. -/
theorem ucp_mu_reads_stay_within_histogram_witness :
    (ucp_allocate_iterations 2 6 (ucp_seed 2 ucp_fresh_example 4).1
        (ucp_seed 2 ucp_fresh_example 4).2 4).map
      (fun it => (it.1.mod.cache.assigned_ways 0, it.1.mod.cache.assigned_ways 1, it.2,
        ucp_compute_max_mu_reads 2 it.1 it.2)) =
      [(1, 1, 2, [(0, 1), (0, 1), (0, 2), (1, 1), (1, 1), (1, 2)]),
        (2, 1, 1, [(0, 2), (1, 1)]), (3, 1, 0, [])] ∧
    ∀ it ∈ ucp_allocate_iterations 2 6 (ucp_seed 2 ucp_fresh_example 4).1
        (ucp_seed 2 ucp_fresh_example 4).2 4,
      sum_assigned_ways 2 it.1.mod + it.2 = 4 ∧
      ∀ r ∈ ucp_compute_max_mu_reads 2 it.1 it.2, 0 ≤ r.2 ∧ r.2 < 4 := by
  refine ⟨by decide!, fun it hit => ?_⟩
  obtain ⟨h1, -, -, h4⟩ :=
    (ucp_mu_reads_stay_within_histogram 1 2 ucp_fresh_example (by decide!) (by decide!)).1
      6 it hit
  exact ⟨h1, fun r hr => (h4 r hr).2⟩

/-! ## Ties in the allocation loop -/

/-- C37 as stated fails for a thread none of whose increments has a positive
marginal utility: on `ucp_zero_example` (all-zero histograms) with one way
assigned and a balance of 2, the increments 1 and 2 of thread 0 both have the
marginal utility 0, the maximum, and `ucp_max_mu` requests 0 ways, not the
increment 1. -/
theorem ucp_max_mu_zero_utility_requests_nothing :
    ucp_mu ucp_zero_example 0 1 (1 + 1) = some ⟨0, 1⟩ ∧
    ucp_mu ucp_zero_example 0 1 (1 + 2) = some ⟨0, 2⟩ ∧
    ucp_max_mu ucp_zero_example 0 1 2 = some (double.ofInt 0, 0) :=
  ⟨by decide!, by decide!, by decide!⟩

/-- C37, amended: in an iteration of the allocation loop on a state with a
histogram for every reachable thread (and `max_mu` and `ways_req` 0 for the
unreachable threads, as `ucp_create` leaves them), the first loop returns and
leaves, for every reachable thread, a `max_mu` that no increment from 1 to the
balance exceeds, with either `ways_req = 0` and `max_mu = 0` (no increment has
a positive marginal utility), or a positive `max_mu` that is the marginal
utility of the increment `ways_req`, every smaller increment having a strictly
smaller one; the winner is a thread of the machine whose `max_mu` no thread
exceeds, every thread with a lower id has a strictly smaller `max_mu`, and the
winner is reachable when its `max_mu` is positive.  Past the warm-up gate,
`ucp_repartition` gives the reachable threads the same quotas from any other
state with the same reachable threads, histograms and `assoc`. -/
theorem ucp_ties_go_to_lowest_thread_and_increment
    (x86_cpu_num_cores x86_cpu_num_threads : Nat) (ucp : ucp_t) (balance : Int)
    (hb : 0 ≤ balance)
    (hatd : ∀ i : Nat, i < x86_cpu_num_cores * x86_cpu_num_threads →
      ucp.mod.reachable_threads i = true → (ucp.mod.atd_per_thread i).isSome = true)
    (hun : ∀ i : Nat, i < x86_cpu_num_cores * x86_cpu_num_threads →
      ucp.mod.reachable_threads i = false →
      ucp.max_mu i = double.ofInt 0 ∧ ucp.ways_req i = 0) :
    (∃ u1, ucp_compute_max_mu (x86_cpu_num_cores * x86_cpu_num_threads) ucp balance = some u1 ∧
      (∀ t : Nat, t < x86_cpu_num_cores * x86_cpu_num_threads →
        ucp.mod.reachable_threads t = true →
        (∀ i : Int, 1 ≤ i → i ≤ balance → ∀ mu,
          ucp_mu ucp t (ucp.mod.cache.assigned_ways t) (ucp.mod.cache.assigned_ways t + i)
            = some mu → ¬ double.lt (u1.max_mu t) mu) ∧
        ((u1.ways_req t = 0 ∧ u1.max_mu t = double.ofInt 0) ∨
          (1 ≤ u1.ways_req t ∧ u1.ways_req t ≤ balance ∧
            ucp_mu ucp t (ucp.mod.cache.assigned_ways t)
              (ucp.mod.cache.assigned_ways t + u1.ways_req t) = some (u1.max_mu t) ∧
            double.lt (double.ofInt 0) (u1.max_mu t) ∧
            ∀ i : Int, 1 ≤ i → i < u1.ways_req t → ∀ mu,
              ucp_mu ucp t (ucp.mod.cache.assigned_ways t) (ucp.mod.cache.assigned_ways t + i)
                = some mu → double.lt mu (u1.max_mu t)))) ∧
      ((x86_cpu_num_cores * x86_cpu_num_threads = 0 ∧
          (ucp_choose_winner (x86_cpu_num_cores * x86_cpu_num_threads) u1).1 = -1) ∨
        ∃ w : Nat, w < x86_cpu_num_cores * x86_cpu_num_threads ∧
          (ucp_choose_winner (x86_cpu_num_cores * x86_cpu_num_threads) u1).1 = (w : Int) ∧
          (∀ t : Nat, t < x86_cpu_num_cores * x86_cpu_num_threads →
            ¬ double.lt (u1.max_mu w) (u1.max_mu t)) ∧
          (∀ t : Nat, t < w → double.lt (u1.max_mu t) (u1.max_mu w)) ∧
          (double.lt (double.ofInt 0) (u1.max_mu w) → ucp.mod.reachable_threads w = true))) ∧
    ∀ u' : ucp_t, u'.mod.reachable_threads = ucp.mod.reachable_threads →
      u'.mod.atd_per_thread = ucp.mod.atd_per_thread →
      u'.mod.cache.assoc = ucp.mod.cache.assoc →
      (∀ i : Nat, i < x86_cpu_num_cores * x86_cpu_num_threads →
        ucp.mod.reachable_threads i = false →
        u'.max_mu i = double.ofInt 0 ∧ u'.ways_req i = 0) →
      ¬ double.lt (cache_usage (x86_cpu_num_cores * x86_cpu_num_threads) ucp.mod) UCP_CACHE_TH →
      ¬ double.lt (cache_usage (x86_cpu_num_cores * x86_cpu_num_threads) u'.mod) UCP_CACHE_TH →
      (ucp_repartition x86_cpu_num_cores x86_cpu_num_threads ucp = none ∧
        ucp_repartition x86_cpu_num_cores x86_cpu_num_threads u' = none) ∨
      ∃ r r', ucp_repartition x86_cpu_num_cores x86_cpu_num_threads ucp = some r ∧
        ucp_repartition x86_cpu_num_cores x86_cpu_num_threads u' = some r' ∧
        ∀ i : Nat, i < x86_cpu_num_cores * x86_cpu_num_threads →
          ucp.mod.reachable_threads i = true →
          r'.mod.cache.assigned_ways i = r.mod.cache.assigned_ways i := by
  refine ⟨?_, fun u' hr hatd' hassoc hun' hg hg' =>
    ucp_repartition_congr x86_cpu_num_cores x86_cpu_num_threads ucp u' hr hatd' hassoc
      (fun i hi hri => by
        obtain ⟨a1, a2⟩ := hun i hi hri
        obtain ⟨b1, b2⟩ := hun' i hi hri
        exact ⟨by rw [a1, b1], by rw [a2, b2]⟩) hg hg'⟩
  obtain ⟨u1, he, hmod, h1, h2⟩ :=
    ucp_compute_max_mu_values ucp balance (x86_cpu_num_cores * x86_cpu_num_threads) hatd
  -- what `ucp_max_mu` left for a reachable thread
  have hthread : ∀ t : Nat, t < x86_cpu_num_cores * x86_cpu_num_threads →
      ucp.mod.reachable_threads t = true →
      (u1.max_mu t).den ≠ 0 ∧ ¬ double.lt (u1.max_mu t) (double.ofInt 0) ∧
      (∀ k : Nat, k < balance.toNat → ∀ mu,
        ucp_mu ucp t (ucp.mod.cache.assigned_ways t)
          (ucp.mod.cache.assigned_ways t + ((k : Int) + 1)) = some mu →
        ¬ double.lt (u1.max_mu t) mu) ∧
      ((u1.ways_req t = 0 ∧ u1.max_mu t = double.ofInt 0) ∨
        (∃ k : Nat, k < balance.toNat ∧ u1.ways_req t = (k : Int) + 1 ∧
          ucp_mu ucp t (ucp.mod.cache.assigned_ways t)
            (ucp.mod.cache.assigned_ways t + u1.ways_req t) = some (u1.max_mu t) ∧
          double.lt (double.ofInt 0) (u1.max_mu t) ∧
          ∀ j : Nat, j < k → ∀ mu,
            ucp_mu ucp t (ucp.mod.cache.assigned_ways t)
              (ucp.mod.cache.assigned_ways t + ((j : Int) + 1)) = some mu →
            double.lt mu (u1.max_mu t))) := by
    intro t ht hrt
    obtain ⟨atd, ha⟩ := Option.isSome_iff_exists.1 (hatd t ht hrt)
    obtain ⟨m, r, hmr, c1, c2, c3, c4⟩ :=
      ucp_max_mu_choice ucp t (ucp.mod.cache.assigned_ways t) atd ha balance.toNat
    have hmr0 : ucp_max_mu ucp t (ucp.mod.cache.assigned_ways t) balance = some (m, r) := hmr
    rw [h1 t ht hrt] at hmr0
    simp only [Option.some.injEq, Prod.mk.injEq] at hmr0
    obtain ⟨e1, e2⟩ := hmr0
    rw [e1, e2]
    exact ⟨c1, c2, c3, c4⟩
  have hfin : ∀ t : Nat, t < x86_cpu_num_cores * x86_cpu_num_threads →
      (u1.max_mu t).den ≠ 0 ∧ double.lt (double.ofInt (-1)) (u1.max_mu t) := by
    intro t ht
    by_cases hrt : ucp.mod.reachable_threads (t : Int) = true
    · obtain ⟨c1, c2, _, _⟩ := hthread t ht hrt
      exact ⟨c1, double_lt_of_lt_of_not_lt (by decide) c2 c1⟩
    · have hf : ucp.mod.reachable_threads (t : Int) = false := by simpa using hrt
      rw [(h2 t (Or.inr hf)).1, (hun t ht hf).1]
      exact ⟨by decide, by decide⟩
  refine ⟨u1, he, ?_, ?_⟩
  · intro t ht hrt
    obtain ⟨_, _, c3, c4⟩ := hthread t ht hrt
    refine ⟨?_, ?_⟩
    · intro i hi1 hi2 mu hmu
      have hk : ((i - 1).toNat : Int) + 1 = i := by omega
      exact c3 (i - 1).toNat (by omega) mu (by rw [hk]; exact hmu)
    · rcases c4 with c4 | ⟨k, hk, e1, e2, e3, e4⟩
      · exact Or.inl c4
      · refine Or.inr ⟨by omega, by omega, e2, e3, ?_⟩
        intro i hi1 hi2 mu hmu
        have hj : ((i - 1).toNat : Int) + 1 = i := by omega
        exact e4 (i - 1).toNat (by omega) mu (by rw [hj]; exact hmu)
  · rcases ucp_choose_winner_lowest u1 (x86_cpu_num_cores * x86_cpu_num_threads)
      (fun t ht => (hfin t ht).1) with ⟨e, hno⟩ | ⟨w, hw, e, _, hmax, hlow⟩
    · left
      refine ⟨?_, by rw [e]⟩
      by_contra hne
      exact hno 0 (by omega) (hfin 0 (by omega)).2
    · right
      refine ⟨w, hw, by rw [e], hmax, hlow, ?_⟩
      intro hpos
      by_contra hrt
      have hf : ucp.mod.reachable_threads (w : Int) = false := by simpa using hrt
      rw [(h2 w (Or.inr hf)).1, (hun w hw hf).1] at hpos
      exact absurd hpos (by decide)

/-- C37, amended, on `ucp_tie_example` with the balance 2: the increments 1 and
2 of both threads have the marginal utility 1 (as 1/1 and 2/2); both threads
request the increment 1, and thread 0 wins. -/
theorem ucp_ties_go_to_lowest_thread_and_increment_witness :
    [ucp_mu ucp_tie_example 0 1 (1 + 1), ucp_mu ucp_tie_example 0 1 (1 + 2),
      ucp_mu ucp_tie_example 1 1 (1 + 1), ucp_mu ucp_tie_example 1 1 (1 + 2)] =
      [some ⟨1, 1⟩, some ⟨2, 2⟩, some ⟨1, 1⟩, some ⟨2, 2⟩] ∧
    (ucp_compute_max_mu (1 * 2) ucp_tie_example 2).map
      (fun u => (u.max_mu 0, u.ways_req 0, u.max_mu 1, u.ways_req 1,
        (ucp_choose_winner (1 * 2) u).1)) = some (⟨1, 1⟩, 1, ⟨1, 1⟩, 1, 0) ∧
    ∃ u1, ucp_compute_max_mu (1 * 2) ucp_tie_example 2 = some u1 ∧
      ∃ w : Nat, w < 1 * 2 ∧ (ucp_choose_winner (1 * 2) u1).1 = (w : Int) ∧
        (∀ t : Nat, t < 1 * 2 → ¬ double.lt (u1.max_mu w) (u1.max_mu t)) ∧
        ∀ t : Nat, t < w → double.lt (u1.max_mu t) (u1.max_mu w) := by
  obtain ⟨u1, he, -, hwin⟩ :=
    (ucp_ties_go_to_lowest_thread_and_increment 1 2 ucp_tie_example 2 (by decide)
      (by decide!) (by decide!)).1
  refine ⟨by decide!, by decide!, u1, he, ?_⟩
  rcases hwin with ⟨h0, -⟩ | ⟨w, hw, e, hmax, hlow, -⟩
  · exact absurd h0 (by decide)
  · exact ⟨w, hw, e, hmax, hlow⟩

/-! ## Blocks without owner under Partitioned LRU -/

/-- C35 as stated fails: on a one-set, three-way Partitioned-LRU cache in which
every fill is on the way the last `cache_replace_block` returned.  In
`plru_unfilled_ops` way 2 is returned and filled, way 1 is returned and not
filled, way 0 is returned and filled; in `plru_early_access_ops` way 2 is
returned and filled, `cache_access_block` is called on the unfilled way 1, way
0 is returned and filled.  Both runs end with the recency list 0, 1, 2, the
ways 0 and 2 valid and owned by thread 0, and way 1 without owner before the
valid tail block, way 2.  With a quota of one way for each thread, the next
`cache_replace_block` (a miss of thread 1) passes its assertion on the tail
block, and its count of the set leaves 1 in `used_ways_in_set[-1]`. -/
theorem plru_unowned_block_before_valid_tail :
    ((cache_create 1 64 3 cache_policy_partitioned_lru).bind fun c0 =>
        cache_run_ways 1 2 c0 plru_unfilled_ops).map (fun r => (plru_set_view r.1, r.2)) =
      some (([0, 1, 2], [(0, 1), (-1, 0), (0, 1)], 2), [2, 1, 0]) ∧
    ((cache_create 1 64 3 cache_policy_partitioned_lru).bind fun c0 =>
        cache_run_ways 1 2 c0 plru_early_access_ops).map (fun r => (plru_set_view r.1, r.2)) =
      some (([0, 1, 2], [(0, 1), (-1, 0), (0, 1)], 2), [2, 0]) ∧
    ((cache_create 1 64 3 cache_policy_partitioned_lru).bind fun c0 =>
        (cache_run 1 2 c0 plru_unfilled_ops).bind fun c =>
          cache_replace_block 1 2 { c with assigned_ways := fun _ => 1 } 0 ⟨0, 1⟩ 0).map
      (fun r => (r.2, r.1.used_ways_in_set (-1))) = some (2, 1) :=
  ⟨by decide!, by decide!, by decide!⟩

/-- C35, amended: from the cache `cache_create` builds, along every run of
events that keep to the protocol (the quotas are written; `cache_access_block`,
`cache_set_block` and `cache_set_transient_tag` are called on blocks that have
an owner; a miss calls `cache_replace_block` and fills the way it returned at
once), every call returns, so no assertion fails, and after every event, in
every set, the blocks without owner are invalid and are the last ones of the
recency list, the blocks before them being owned by threads of the machine;
and when the block at the tail is valid, every block of the set is owned by a
thread of the machine, so that the count of the set indexes
`used_ways_in_set` inside its bounds. -/
theorem plru_unowned_blocks_stay_last (x86_cpu_num_cores x86_cpu_num_threads : Nat)
    (num_sets block_size assoc : Nat)
    (hgeo : Nat.land num_sets (num_sets - 1) = 0 ∧ Nat.land block_size (block_size - 1) = 0)
    (hassoc : 0 < assoc) :
    ∃ c0, cache_create num_sets block_size assoc cache_policy_partitioned_lru = some c0 ∧
      ∀ events : List plru_event,
        plru_protocol x86_cpu_num_cores x86_cpu_num_threads c0 events = true →
        ∀ k : Nat, ∃ c,
          plru_run x86_cpu_num_cores x86_cpu_num_threads c0 (events.take k) = some c ∧
          ∀ s, s < num_sets →
            plru_unowned_suffix (x86_cpu_num_cores * x86_cpu_num_threads) (c.sets s).blocks
              (cache_waylist assoc (c.sets s)) ∧
            (((c.sets s).blocks (c.sets s).way_tail).state ≠ 0 →
              ∀ w, w < assoc → 0 ≤ ((c.sets s).blocks w).thread_id ∧
                ((c.sets s).blocks w).thread_id <
                  ((x86_cpu_num_cores * x86_cpu_num_threads : Nat) : Int)) := by
  have hc := cache_create_eq num_sets block_size assoc cache_policy_partitioned_lru hgeo
  refine ⟨_, hc, fun events hp k => ?_⟩
  have hinv := cache_create_plru_inv x86_cpu_num_cores x86_cpu_num_threads hc hassoc
  obtain ⟨c, h1, h2, h3, h4⟩ := plru_run_inv x86_cpu_num_cores x86_cpu_num_threads
    (events.take k) _ hinv (plru_protocol_take _ _ events k _ hp)
  have hn : c.num_sets = num_sets := h3
  have ha : c.assoc = assoc := h4
  refine ⟨c, h1, fun s hs => ?_⟩
  obtain ⟨l, hl, hsuf⟩ := plru_inv_set h2 (by rw [hn]; exact hs)
  rw [ha] at hl
  rw [set_wf_waylist hl]
  exact ⟨hsuf, fun hvalid => plru_unowned_suffix_tail hl hsuf hvalid⟩

/-- C35, amended, on a one-set, three-way cache of a machine with one core and
two threads and the events of `plru_events_example`: the run keeps to the
protocol; after the two misses of thread 0 the list is 1, 2, 0 with way 0
still without owner at the tail, and after the miss of thread 1 every block
has an owner and the tail block is valid. -/
theorem plru_unowned_blocks_stay_last_witness :
    ∃ c0, cache_create 1 64 3 cache_policy_partitioned_lru = some c0 ∧
      plru_protocol 1 2 c0 plru_events_example = true ∧
      (plru_run 1 2 c0 (plru_events_example.take 2)).map plru_set_view =
        some ([1, 2, 0], [(-1, 0), (0, 1), (0, 1)], 0) ∧
      (plru_run 1 2 c0 plru_events_example).map plru_set_view =
        some ([0, 2, 1], [(1, 1), (0, 1), (0, 1)], 1) ∧
      ∀ k : Nat, ∃ c, plru_run 1 2 c0 (plru_events_example.take k) = some c ∧
        ∀ s, s < 1 →
          plru_unowned_suffix (1 * 2) (c.sets s).blocks (cache_waylist 3 (c.sets s)) ∧
          (((c.sets s).blocks (c.sets s).way_tail).state ≠ 0 →
            ∀ w, w < 3 → 0 ≤ ((c.sets s).blocks w).thread_id ∧
              ((c.sets s).blocks w).thread_id < ((1 * 2 : Nat) : Int)) := by
  obtain ⟨c0, h0, hall⟩ := plru_unowned_blocks_stay_last 1 2 1 64 3 (by decide) (by decide)
  have hc := cache_create_eq 1 64 3 cache_policy_partitioned_lru (by decide)
  rw [hc] at h0
  obtain rfl := Option.some.inj h0
  exact ⟨_, hc, by decide!, by decide!, by decide!, hall plru_events_example (by decide!)⟩

end Multi2Sim
